import Mathlib

/-!
ConcurrentProblems: a binary search tree under four locking disciplines, an MPI sort
and two Mandelbrot renderers

The file holds shallow embeddings of four programs, one namespace each: `CBinary` for
`src/cbinary.c` (and the counting harness of `src/main.cpp`), `MpiSort` for
`src/mpisort.c`, `Mandelbrot` for `src/mandelbrot.cpp` and `MpiMandelbrot` for
`src/mpi_mandelbrot.cpp`.  All definitions come first, then all theorems.

cbinary.c.  The C program works on a mutable graph of heap nodes linked by
raw pointers, so the embedding is state passing over an explicit memory:

* an address is a natural number, a pointer is `Option Nat` (`none` is `NULL`);
* `World.mem` maps an address to the node stored there (`none`: not allocated, or
  freed); `malloc` hands out the fresh address `World.brk`;
* a `pthread_mutex_t` is `Option Bool`: `none` before `pthread_mutex_init`,
  `some false` when free, `some true` when held;
* every function returns `Except Fault _`: a `NULL` or dangling dereference, a
  `lock` on a mutex the caller already holds (which never returns), an `unlock`
  of a mutex that is not held, or the use of a mutex that was never initialised
  is a `Fault`;
* a `while` loop is a recursion on a fuel argument; the caller supplies
  `World.brk + 1`, more than the number of nodes ever allocated, so the fuel can
  only run out on a cyclic graph (where the C loop does not terminate);
* every call of a locking primitive is appended to `World.log`;
* `malloc` always succeeds and addresses are unbounded; the key type `int` is `Int`
  (keys are only compared, never computed with); the `uint64_t` counters of the
  harness and its `int64_t` node count are unbounded numbers (only `++` is applied
  to them, once per call or per node);
* in the functions of the model proper one thread runs at a time; they give the
  single-threaded behaviour of the four disciplines, including which locks each
  operation takes and that it gives all of them back;
* `CBinary.Traced` holds the `local_tree_*` family once more, with the same memory
  and results, where every function also records in order the lock calls it makes and
  the accesses to the tree it makes (`tree->root`, the fields of a node);
* `CBinary.Par` holds the code of `local_tree_insert`, `local_tree_delete` and
  `local_tree_lookup` as a sequence of atomic statements (`Prog`), the worker threads
  of main.cpp running such code, and their runs under an arbitrary schedule
  (`Par.runs`): at each point of the schedule one worker executes its next statement
  on the shared memory, and a worker whose next statement is a lock call that cannot
  be granted (the mutex is held; the reader-writer lock is held by a writer, or by
  readers when the call asks for the write lock) waits.

The namespace `CBinary` first gives the model of the C functions, then the
specification-level definitions (the abstract tree `T`, the predicate `Rep` tying it to
a memory, the harness `run` / `Thread_Func`, the read-back `World.abs`).

mpisort.c, mandelbrot.cpp, mpi_mandelbrot.cpp.  The functions modelled are sequential:

* an `int` array is a `List Int`; a read or write outside it is a `Fault`;
* a loop is a recursion on a fuel argument, and the caller supplies a bound on the
  number of iterations computed from the sizes;
* sizes, indices and counts of array elements are unbounded numbers: they stay far
  below `2^31` for every array that fits into memory.  Where the program computes
  with `int` values that its input can push out of the range of `int`, the model
  follows the machine type: in `raise_number` and `SendOrRecv` of mpisort.c a
  product or sum outside the range of `int` is the fault `overflow` (signed overflow
  is undefined in C); in `ColorizeScaled` and in the column and row counters of
  `SplitWorkSolve` of mandelbrot.cpp the arithmetic is 32-bit two's complement, as
  the compiled program computes it;
* the MPI calls are not modelled as communication.  `SendOrRecv` and the split of
  `hypersort` are pure functions of a rank's own data; the run of `hypersort` over
  all ranks is composed rank by rank, every receive of the program naming its
  source rank;
* the floating-point iteration `ComputeMandelbrot` is not modelled: the colour of a
  pixel is a parameter `value row col` of the work-split functions.
-/

namespace CBinary

/-! ## Data model -/

def NO_LOCK : Int := 1
def COARSE_LOCK : Int := 2
def RW_LOCK : Int := 3
def FINE_LOCK : Int := 4

/-- A pointer to a node: `none` is `NULL`. -/
abbrev Ptr := Option Nat

/-- The node record `struct i_element_s`. -/
structure i_element_t where
  value : Int
  left : Ptr
  right : Ptr
  parent : Ptr
  lock : Option Bool
deriving DecidableEq, Repr

/-- State of a `pthread_rwlock_t` as seen by one thread. -/
inductive RwState where
  | free
  | readers (n : Nat)
  | writer
deriving DecidableEq, Repr

/-- The tree record `struct i_tree_s`. -/
structure i_tree_t where
  root : Ptr
  lock_type : Int
  m_lock : Option Bool
  rw_lock : RwState
deriving DecidableEq, Repr

/-- Ways in which a call fails to return normally. -/
inductive Fault where
  | null_deref
  | dangling
  | self_deadlock
  | bad_unlock
  | uninit_lock
  | no_fuel
deriving DecidableEq, Repr

/-- A mutex of the program: the lock of the node at an address, or the tree's `m_lock`. -/
inductive Mutex where
  | node (p : Ptr)
  | tree
deriving DecidableEq, Repr

/-- One call of a locking primitive. -/
inductive Ev where
  | lock (m : Mutex)
  | unlock (m : Mutex)
  | rdlock
  | wrlock
  | rw_unlock
deriving DecidableEq, Repr

/-- The memory of the process together with the one tree record living in it. -/
structure World where
  mem : Nat → Option i_element_t
  brk : Nat
  tree : i_tree_t
  log : List Ev

/-- Which family of `local_tree_*` functions the six static function pointers hold. -/
inductive Impl where
  | plain
  | fine
deriving DecidableEq, Repr

/-! ## Memory primitives -/

/-- Reading `*p`. -/
def deref (w : World) (p : Ptr) : Except Fault i_element_t :=
  match p with
  | none => .error .null_deref
  | some a =>
    match w.mem a with
    | none => .error .dangling
    | some n => .ok n

/-- Overwriting the node at address `a`. -/
def World.put (w : World) (a : Nat) (n : i_element_t) : World :=
  { w with mem := Function.update w.mem a (some n) }

/-- The assignment `p->left = q`. -/
def set_left (w : World) (p q : Ptr) : Except Fault World :=
  match p with
  | none => .error .null_deref
  | some a =>
    match w.mem a with
    | none => .error .dangling
    | some n => .ok (w.put a { n with left := q })

/-- The assignment `p->right = q`. -/
def set_right (w : World) (p q : Ptr) : Except Fault World :=
  match p with
  | none => .error .null_deref
  | some a =>
    match w.mem a with
    | none => .error .dangling
    | some n => .ok (w.put a { n with right := q })

/-- The assignment `p->parent = q`. -/
def set_parent (w : World) (p q : Ptr) : Except Fault World :=
  match p with
  | none => .error .null_deref
  | some a =>
    match w.mem a with
    | none => .error .dangling
    | some n => .ok (w.put a { n with parent := q })

/-- The assignment `tree->root = q`. -/
def set_root (w : World) (q : Ptr) : World :=
  { w with tree := { w.tree with root := q } }

/-- The call `malloc(sizeof(i_element_t))` followed by the four field assignments
`value = v; left = NULL; right = NULL; parent = NULL`; the mutex of the new node
is not initialised. -/
def malloc_element (w : World) (v : Int) : World × Ptr :=
  ({ w with
      mem := Function.update w.mem w.brk
        (some { value := v, left := none, right := none, parent := none, lock := none }),
      brk := w.brk + 1 },
   some w.brk)

/-- The call `free(p)`. -/
def free (w : World) (p : Ptr) : Except Fault World :=
  match p with
  | none => .ok w
  | some a =>
    match w.mem a with
    | none => .error .dangling
    | some _ => .ok { w with mem := Function.update w.mem a none }

/-- The call `pthread_mutex_init(&p->lock, NULL)`. -/
def pthread_mutex_init (w : World) (p : Ptr) : Except Fault World :=
  match p with
  | none => .error .null_deref
  | some a =>
    match w.mem a with
    | none => .error .dangling
    | some n => .ok (w.put a { n with lock := some false })

/-- The call `pthread_mutex_destroy(&p->lock)`. -/
def pthread_mutex_destroy (w : World) (p : Ptr) : Except Fault World :=
  match p with
  | none => .error .null_deref
  | some a =>
    match w.mem a with
    | none => .error .dangling
    | some n => .ok (w.put a { n with lock := none })

/-- The function `lock`: `pthread_mutex_lock` on a node lock or on `tree->m_lock`. -/
def lock (w : World) (m : Mutex) : Except Fault World :=
  match m with
  | .node none => .error .null_deref
  | .node (some a) =>
    match w.mem a with
    | none => .error .dangling
    | some n =>
      match n.lock with
      | none => .error .uninit_lock
      | some true => .error .self_deadlock
      | some false =>
        .ok { (w.put a { n with lock := some true }) with log := w.log ++ [.lock m] }
  | .tree =>
    match w.tree.m_lock with
    | none => .error .uninit_lock
    | some true => .error .self_deadlock
    | some false =>
      .ok { w with tree := { w.tree with m_lock := some true }, log := w.log ++ [.lock m] }

/-- The function `unlock`: `pthread_mutex_unlock` on a node lock or on `tree->m_lock`. -/
def unlock (w : World) (m : Mutex) : Except Fault World :=
  match m with
  | .node none => .error .null_deref
  | .node (some a) =>
    match w.mem a with
    | none => .error .dangling
    | some n =>
      match n.lock with
      | none => .error .uninit_lock
      | some false => .error .bad_unlock
      | some true =>
        .ok { (w.put a { n with lock := some false }) with log := w.log ++ [.unlock m] }
  | .tree =>
    match w.tree.m_lock with
    | none => .error .uninit_lock
    | some false => .error .bad_unlock
    | some true =>
      .ok { w with tree := { w.tree with m_lock := some false }, log := w.log ++ [.unlock m] }

/-- The call `pthread_rwlock_wrlock(&tree->rw_lock)`. -/
def pthread_rwlock_wrlock (w : World) : Except Fault World :=
  match w.tree.rw_lock with
  | .free => .ok { w with tree := { w.tree with rw_lock := .writer }, log := w.log ++ [.wrlock] }
  | _ => .error .self_deadlock

/-- The call `pthread_rwlock_rdlock(&tree->rw_lock)`. -/
def pthread_rwlock_rdlock (w : World) : Except Fault World :=
  match w.tree.rw_lock with
  | .free =>
    .ok { w with tree := { w.tree with rw_lock := .readers 1 }, log := w.log ++ [.rdlock] }
  | .readers n =>
    .ok { w with tree := { w.tree with rw_lock := .readers (n + 1) }, log := w.log ++ [.rdlock] }
  | .writer => .error .self_deadlock

/-- The call `pthread_rwlock_unlock(&tree->rw_lock)`. -/
def pthread_rwlock_unlock (w : World) : Except Fault World :=
  match w.tree.rw_lock with
  | .free => .error .bad_unlock
  | .writer =>
    .ok { w with tree := { w.tree with rw_lock := .free }, log := w.log ++ [.rw_unlock] }
  | .readers n =>
    .ok { w with
            tree := { w.tree with rw_lock := if n ≤ 1 then .free else .readers (n - 1) },
            log := w.log ++ [.rw_unlock] }

/-! ## Tree-level locking shared by the `NO_LOCK`, `COARSE_LOCK` and `RW_LOCK` functions

The C text repeats these three blocks inline at the start and at the end of
`local_tree_insert`, `local_tree_delete`, `local_tree_lookup` and
`local_tree_traverse`. -/

/-- Entry block of a writer: `if (lock_type == COARSE_LOCK) lock(&tree->m_lock);
if (lock_type == RW_LOCK) pthread_rwlock_wrlock(&tree->rw_lock);`. -/
def tree_lock_wr (w : World) : Except Fault World := do
  let w ← (if w.tree.lock_type = COARSE_LOCK then lock w .tree else pure w)
  (if w.tree.lock_type = RW_LOCK then pthread_rwlock_wrlock w else pure w)

/-- Entry block of a reader: `if (lock_type == COARSE_LOCK) lock(&tree->m_lock);
if (lock_type == RW_LOCK) pthread_rwlock_rdlock(&tree->rw_lock);`. -/
def tree_lock_rd (w : World) : Except Fault World := do
  let w ← (if w.tree.lock_type = COARSE_LOCK then lock w .tree else pure w)
  (if w.tree.lock_type = RW_LOCK then pthread_rwlock_rdlock w else pure w)

/-- Exit block: `if (lock_type == COARSE_LOCK) unlock(&tree->m_lock);
if (lock_type == RW_LOCK) pthread_rwlock_unlock(&tree->rw_lock);`. -/
def tree_unlock (w : World) : Except Fault World := do
  let w ← (if w.tree.lock_type = COARSE_LOCK then unlock w .tree else pure w)
  (if w.tree.lock_type = RW_LOCK then pthread_rwlock_unlock w else pure w)

/-! ## Node functions without node locks -/

/-- The `while (curr != NULL)` loop of `Node_Insert`; the result is the final `prev`. -/
def Node_Insert_loop : Nat → World → Ptr → Ptr → Ptr → Except Fault Ptr
  | 0, _, _, _, _ => .error .no_fuel
  | fuel + 1, w, curr, prev, element =>
    match curr with
    | none => .ok prev
    | some _ => do
      let c ← deref w curr
      let e ← deref w element
      (if c.value > e.value then Node_Insert_loop fuel w c.left curr element
       else Node_Insert_loop fuel w c.right curr element)

/-- The function `Node_Insert(node, element)`. -/
def Node_Insert (w : World) (node element : Ptr) : Except Fault World := do
  let prev ← Node_Insert_loop (w.brk + 1) w node node element
  let w ← set_parent w element prev
  let p ← deref w prev
  let e ← deref w element
  (if p.value > e.value then set_left w prev element else set_right w prev element)

/-- The function `Node_Traverse(node, func)`.  The visit function receives the memory
and the element and updates a state of its own; it does not write to the memory. -/
def Node_Traverse {σ : Type} :
    Nat → World → Ptr → (World → Ptr → σ → σ) → σ → Except Fault σ
  | 0, _, _, _, _ => .error .no_fuel
  | fuel + 1, w, node, func, s =>
    match node with
    | none => .ok s
    | some _ => do
      let n ← deref w node
      let s ← Node_Traverse fuel w n.left func s
      let s := func w node s
      let n ← deref w node
      Node_Traverse fuel w n.right func s

/-! ## The functions for `NO_LOCK`, `COARSE_LOCK` and `RW_LOCK` -/

/-- The function `local_tree_insert`. -/
def local_tree_insert (w : World) (value : Int) : Except Fault World := do
  let w ← tree_lock_wr w
  let element := (malloc_element w value).2
  let w := (malloc_element w value).1
  let w ← (if w.tree.root = none then pure (set_root w element)
           else Node_Insert w w.tree.root element)
  tree_unlock w

/-- The loop `while (curr != NULL && curr->value != value)` of `local_tree_delete` and
of `local_tree_lookup` (the same text in both); the result is the final `curr`. -/
def search_loop : Nat → World → Ptr → Int → Except Fault Ptr
  | 0, _, _, _ => .error .no_fuel
  | fuel + 1, w, curr, value =>
    match curr with
    | none => .ok none
    | some _ => do
      let c ← deref w curr
      (if c.value ≠ value then
        (if c.value > value then search_loop fuel w c.left value
         else search_loop fuel w c.right value)
       else pure curr)

/-- The branch `if (curr == tree->root)` of `local_tree_delete`. -/
def local_tree_delete_root (w : World) (curr : Ptr) : Except Fault World := do
  let c ← deref w curr
  let w ←
    (if c.left ≠ none then do
      let right_branch := c.right
      let w := set_root w c.left
      let c ← deref w curr
      let w ← set_parent w c.left w.tree.root
      (if right_branch ≠ none then Node_Insert w w.tree.root right_branch else pure w)
    else
      pure (set_root w c.right))
  let w ← (if w.tree.root ≠ none then set_parent w w.tree.root none else pure w)
  free w curr

/-- The `else` branch (the match is not the root) of `local_tree_delete`. -/
def local_tree_delete_inner (w : World) (curr : Ptr) : Except Fault World := do
  let c ← deref w curr
  let right_branch := c.right
  let p ← deref w c.parent
  let w ←
    (if p.left = curr then do
      let w ← set_left w c.parent c.left
      let c ← deref w curr
      let w ← (if c.left ≠ none then set_parent w c.left c.parent else pure w)
      let c ← deref w curr
      (if right_branch ≠ none then Node_Insert w c.parent right_branch else pure w)
    else do
      let w ← set_right w c.parent c.left
      let c ← deref w curr
      let w ← (if c.left ≠ none then set_parent w c.left c.parent else pure w)
      let c ← deref w curr
      (if right_branch ≠ none then Node_Insert w c.parent right_branch else pure w))
  free w curr

/-- The function `local_tree_delete`. -/
def local_tree_delete (w : World) (value : Int) : Except Fault World := do
  let w ← tree_lock_wr w
  let w ←
    (if w.tree.root ≠ none then do
      let curr ← search_loop (w.brk + 1) w w.tree.root value
      (if curr ≠ none then
        (if curr = w.tree.root then local_tree_delete_root w curr
         else local_tree_delete_inner w curr)
       else pure w)
    else pure w)
  tree_unlock w

/-- The function `local_tree_lookup`. -/
def local_tree_lookup (w : World) (value : Int) : Except Fault (World × Ptr) := do
  let w ← tree_lock_rd w
  (if w.tree.root = none then do
    let w ← tree_unlock w
    pure (w, none)
  else do
    let curr ← search_loop (w.brk + 1) w w.tree.root value
    let w ← tree_unlock w
    pure (w, curr))

/-- The function `local_tree_traverse`. -/
def local_tree_traverse {σ : Type} (w : World) (func : World → Ptr → σ → σ) (s : σ) :
    Except Fault (World × σ) := do
  let w ← tree_lock_rd w
  let s ← Node_Traverse (w.brk + 1) w w.tree.root func s
  let w ← tree_unlock w
  pure (w, s)

/-- The function `local_tree_element_value`. -/
def local_tree_element_value (w : World) (element : Ptr) : Except Fault Int := do
  let elem ← deref w element
  pure elem.value

/-- The function `local_tree_element_release`: its body is empty. -/
def local_tree_element_release (w : World) (_element : Ptr) : Except Fault World :=
  pure w

/-! ## Node functions with node locks (`FINE_LOCK`) -/

/-- The `while (curr != NULL)` loop of `Node_Insert_f`; the result is the memory and
the final `prev`. -/
def Node_Insert_f_loop : Nat → World → Ptr → Ptr → Ptr → Except Fault (World × Ptr)
  | 0, _, _, _, _ => .error .no_fuel
  | fuel + 1, w, curr, prev, element =>
    match curr with
    | none => .ok (w, prev)
    | some _ => do
      let w ← (if prev ≠ curr then unlock w (.node prev) else pure w)
      let c ← deref w curr
      let e ← deref w element
      (if c.value > e.value then do
        let w ← (if c.left ≠ none then lock w (.node c.left) else pure w)
        let c ← deref w curr
        Node_Insert_f_loop fuel w c.left curr element
      else do
        let w ← (if c.right ≠ none then lock w (.node c.right) else pure w)
        let c ← deref w curr
        Node_Insert_f_loop fuel w c.right curr element)

/-- The function `Node_Insert_f(node, element)`. -/
def Node_Insert_f (w : World) (node element : Ptr) : Except Fault World := do
  let r ← Node_Insert_f_loop (w.brk + 1) w node node element
  let prev := r.2
  let w ← set_parent r.1 element prev
  let p ← deref w prev
  let e ← deref w element
  let w ← (if p.value > e.value then set_left w prev element else set_right w prev element)
  let w ← unlock w (.node prev)
  unlock w (.node element)

/-- The function `Node_Traverse_f(node, func)`. -/
def Node_Traverse_f {σ : Type} :
    Nat → World → Ptr → (World → Ptr → σ → σ) → σ → Except Fault (World × σ)
  | 0, _, _, _, _ => .error .no_fuel
  | fuel + 1, w, node, func, s =>
    match node with
    | none => .ok (w, s)
    | some _ => do
      let n ← deref w node
      let r ←
        (if n.left ≠ none then do
          let w ← lock w (.node n.left)
          let n ← deref w node
          Node_Traverse_f fuel w n.left func s
        else pure (w, s))
      let s := func r.1 node r.2
      let n ← deref r.1 node
      let r ←
        (if n.right ≠ none then do
          let w ← lock r.1 (.node n.right)
          let n ← deref w node
          Node_Traverse_f fuel w n.right func s
        else pure (r.1, s))
      let w ← unlock r.1 (.node node)
      pure (w, r.2)

/-! ## The functions for `FINE_LOCK` -/

/-- The function `local_tree_insert_fine`. -/
def local_tree_insert_fine (w : World) (value : Int) : Except Fault World := do
  let element := (malloc_element w value).2
  let w := (malloc_element w value).1
  let w ← pthread_mutex_init w element
  let w ← (if w.tree.root ≠ none then lock w (.node w.tree.root) else pure w)
  (if w.tree.root = none then pure (set_root w element)
   else do
    let w ← lock w (.node element)
    Node_Insert_f w w.tree.root element)

/-- The loop `while (curr != NULL && curr->value != value)` of `local_tree_delete_fine`;
the result is the memory and the final `curr`. -/
def local_tree_delete_fine_loop : Nat → World → Ptr → Int → Except Fault (World × Ptr)
  | 0, _, _, _ => .error .no_fuel
  | fuel + 1, w, curr, value =>
    match curr with
    | none => .ok (w, none)
    | some _ => do
      let c ← deref w curr
      (if c.value ≠ value then do
        let w ← (if curr ≠ w.tree.root then unlock w (.node c.parent) else pure w)
        let c ← deref w curr
        (if c.value > value then
          (if c.left ≠ none then do
            let w ← lock w (.node c.left)
            let c ← deref w curr
            local_tree_delete_fine_loop fuel w c.left value
          else do
            let w ← unlock w (.node curr)
            local_tree_delete_fine_loop fuel w none value)
        else
          (if c.right ≠ none then do
            let w ← lock w (.node c.right)
            let c ← deref w curr
            local_tree_delete_fine_loop fuel w c.right value
          else do
            let w ← unlock w (.node curr)
            local_tree_delete_fine_loop fuel w none value))
      else pure (w, curr))

/-- The branch `if (curr == tree->root)` of `local_tree_delete_fine`. -/
def local_tree_delete_fine_root (w : World) (curr : Ptr) : Except Fault World := do
  let c ← deref w curr
  let w ←
    (if c.left ≠ none then do
      let w ← (if c.right ≠ none then lock w (.node c.right) else pure w)
      let c ← deref w curr
      let right_branch := c.right
      let w ← lock w (.node c.left)
      let c ← deref w curr
      let w := set_root w c.left
      let c ← deref w curr
      let w ← set_parent w c.left none
      (if right_branch ≠ none then Node_Insert_f w w.tree.root right_branch
       else unlock w (.node w.tree.root))
    else
      (if c.right ≠ none then do
        let w ← lock w (.node c.right)
        let c ← deref w curr
        let w := set_root w c.right
        let w ← set_parent w w.tree.root none
        unlock w (.node w.tree.root)
      else pure (set_root w none)))
  let w ← unlock w (.node curr)
  let w ← pthread_mutex_destroy w curr
  free w curr

/-- The `else` branch (the match is not the root) of `local_tree_delete_fine`. -/
def local_tree_delete_fine_inner (w : World) (curr : Ptr) : Except Fault World := do
  let c ← deref w curr
  let w ← (if c.right ≠ none then lock w (.node c.right) else pure w)
  let c ← deref w curr
  let right_branch := c.right
  let w ← (if c.left ≠ none then lock w (.node c.left) else pure w)
  let c ← deref w curr
  let p ← deref w c.parent
  let w ←
    (if p.left = curr then do
      let w ← set_left w c.parent c.left
      let c ← deref w curr
      let w ←
        (if c.left ≠ none then do
          let w ← set_parent w c.left c.parent
          let c ← deref w curr
          unlock w (.node c.left)
        else pure w)
      let c ← deref w curr
      (if right_branch ≠ none then Node_Insert_f w c.parent right_branch
       else unlock w (.node c.parent))
    else do
      let w ← set_right w c.parent c.left
      let c ← deref w curr
      let w ←
        (if c.left ≠ none then do
          let w ← set_parent w c.left c.parent
          let c ← deref w curr
          unlock w (.node c.left)
        else pure w)
      let c ← deref w curr
      (if right_branch ≠ none then Node_Insert_f w c.parent right_branch
       else unlock w (.node c.parent)))
  let w ← unlock w (.node curr)
  let w ← pthread_mutex_destroy w curr
  free w curr

/-- The function `local_tree_delete_fine`. -/
def local_tree_delete_fine (w : World) (value : Int) : Except Fault World := do
  (if w.tree.root ≠ none then do
    let w ← lock w (.node w.tree.root)
    let r ← local_tree_delete_fine_loop (w.brk + 1) w w.tree.root value
    let curr := r.2
    let w := r.1
    (if curr ≠ none then
      (if curr = w.tree.root then local_tree_delete_fine_root w curr
       else local_tree_delete_fine_inner w curr)
     else pure w)
  else pure w)

/-- The loop `while (curr != NULL && curr->value != value)` of `local_tree_lookup_fine`;
the result is the memory and the final `curr`. -/
def local_tree_lookup_fine_loop : Nat → World → Ptr → Int → Except Fault (World × Ptr)
  | 0, _, _, _ => .error .no_fuel
  | fuel + 1, w, curr, value =>
    match curr with
    | none => .ok (w, none)
    | some _ => do
      let c ← deref w curr
      (if c.value ≠ value then
        (if c.value > value then
          (if c.left ≠ none then do
            let w ← lock w (.node c.left)
            let c ← deref w curr
            let curr := c.left
            let c ← deref w curr
            let w ← unlock w (.node c.parent)
            local_tree_lookup_fine_loop fuel w curr value
          else do
            let prev := curr
            let curr := c.left
            let w ← unlock w (.node prev)
            local_tree_lookup_fine_loop fuel w curr value)
        else
          (if c.right ≠ none then do
            let w ← lock w (.node c.right)
            let c ← deref w curr
            let curr := c.right
            let c ← deref w curr
            let w ← unlock w (.node c.parent)
            local_tree_lookup_fine_loop fuel w curr value
          else do
            let prev := curr
            let curr := c.right
            let w ← unlock w (.node prev)
            local_tree_lookup_fine_loop fuel w curr value))
      else pure (w, curr))

/-- The function `local_tree_lookup_fine`. -/
def local_tree_lookup_fine (w : World) (value : Int) : Except Fault (World × Ptr) := do
  (if w.tree.root = none then pure (w, none)
   else do
    let w ← lock w (.node w.tree.root)
    local_tree_lookup_fine_loop (w.brk + 1) w w.tree.root value)

/-- The function `local_tree_traverse_fine`. -/
def local_tree_traverse_fine {σ : Type} (w : World) (func : World → Ptr → σ → σ) (s : σ) :
    Except Fault (World × σ) := do
  (if w.tree.root ≠ none then do
    let w ← lock w (.node w.tree.root)
    Node_Traverse_f (w.brk + 1) w w.tree.root func s
  else pure (w, s))

/-- The function `local_tree_element_value_fine`. -/
def local_tree_element_value_fine (w : World) (element : Ptr) : Except Fault Int := do
  let elem ← deref w element
  pure elem.value

/-- The function `local_tree_element_release_fine`. -/
def local_tree_element_release_fine (w : World) (element : Ptr) : Except Fault World :=
  unlock w (.node element)

/-! ## The public functions

The six function pointers are process-wide statics written by `Tree_Init`; they
are passed here as `g : Option Impl` (`none`: never assigned). -/

/-- The function `Tree_Init(lock_type)`: the new value of the function pointers and
the new tree.  The `switch` has no default case, so another `lock_type` leaves
the pointers as they were. -/
def Tree_Init (g : Option Impl) (lock_type : Int) : Option Impl × World :=
  let w : World :=
    { mem := fun _ => none, brk := 0,
      tree := { root := none, lock_type := lock_type, m_lock := some false, rw_lock := .free },
      log := [] }
  if lock_type = NO_LOCK ∨ lock_type = COARSE_LOCK ∨ lock_type = RW_LOCK then (some .plain, w)
  else if lock_type = FINE_LOCK then (some .fine, w)
  else (g, w)

/-- The function `Tree_Insert`. -/
def Tree_Insert (g : Option Impl) (w : World) (value : Int) : Except Fault World :=
  match g with
  | none => .error .null_deref
  | some .plain => local_tree_insert w value
  | some .fine => local_tree_insert_fine w value

/-- The function `Tree_Delete`. -/
def Tree_Delete (g : Option Impl) (w : World) (value : Int) : Except Fault World :=
  match g with
  | none => .error .null_deref
  | some .plain => local_tree_delete w value
  | some .fine => local_tree_delete_fine w value

/-- The function `Tree_Lookup`. -/
def Tree_Lookup (g : Option Impl) (w : World) (value : Int) : Except Fault (World × Ptr) :=
  match g with
  | none => .error .null_deref
  | some .plain => local_tree_lookup w value
  | some .fine => local_tree_lookup_fine w value

/-- The function `Tree_Traverse`. -/
def Tree_Traverse {σ : Type} (g : Option Impl) (w : World) (func : World → Ptr → σ → σ)
    (s : σ) : Except Fault (World × σ) :=
  match g with
  | none => .error .null_deref
  | some .plain => local_tree_traverse w func s
  | some .fine => local_tree_traverse_fine w func s

/-- The function `Element_Value`. -/
def Element_Value (g : Option Impl) (w : World) (element : Ptr) : Except Fault Int :=
  match g with
  | none => .error .null_deref
  | some .plain => local_tree_element_value w element
  | some .fine => local_tree_element_value_fine w element

/-- The function `Element_Release`. -/
def Element_Release (g : Option Impl) (w : World) (element : Ptr) : Except Fault World :=
  if element ≠ none then
    match g with
    | none => .error .null_deref
    | some .plain => local_tree_element_release w element
    | some .fine => local_tree_element_release_fine w element
  else pure w


/-! ## Specification-level definitions -/

/-- A finite binary tree whose nodes carry their address and their value. -/
inductive T where
  | nil
  | node (a : Nat) (l : T) (v : Int) (r : T)
deriving DecidableEq, Repr

namespace T

/-- Pointer to the root node. -/
def root : T → Ptr
  | nil => none
  | node a _ _ _ => some a

/-- Addresses of the nodes, in in-order. -/
def addrs : T → List Nat
  | nil => []
  | node a l _ r => l.addrs ++ a :: r.addrs

/-- Values of the nodes, in in-order. -/
def vals : T → List Int
  | nil => []
  | node _ l v r => l.vals ++ v :: r.vals

/-- Number of nodes on the longest path from the root. -/
def height : T → Nat
  | nil => 0
  | node _ l _ r => max l.height r.height + 1

/-- The ordering invariant: left strictly smaller, right greater or equal. -/
def BST : T → Prop
  | nil => True
  | node _ l v r => l.BST ∧ r.BST ∧ (∀ x ∈ l.vals, x < v) ∧ (∀ x ∈ r.vals, v ≤ x)

/-- The tree `t` with `s` hung at the place where a descent for the key `ev` ends. -/
def graft (s : T) (ev : Int) : T → T
  | nil => s
  | node a l v r => if v > ev then node a (graft s ev l) v r else node a l v (graft s ev r)

/-- The last node of a descent for the key `ev`, `prev` when the tree is empty. -/
def slot (ev : Int) : T → Ptr → Ptr
  | nil, prev => prev
  | node a l v r, _ => if v > ev then slot ev l (some a) else slot ev r (some a)

/-- The first node with value `v` on the search path, `NULL` when there is none. -/
def find (v : Int) : T → Ptr
  | nil => none
  | node a l x r => if x ≠ v then (if x > v then find v l else find v r) else some a

end T

/-- The memory `m` holds the tree `t` below a node (or tree record) `par`: every node of
`t` is allocated at its address with its value, its links to the roots of its
subtrees and its parent link. -/
def Rep (m : Nat → Option i_element_t) : T → Ptr → Prop
  | .nil, _ => True
  | .node a l v r, par =>
    ∃ n, m a = some n ∧ n.value = v ∧ n.left = l.root ∧ n.right = r.root ∧ n.parent = par ∧
      Rep m l (some a) ∧ Rep m r (some a)

/-- Memory after the three assignments that end `Node_Insert`: `element->parent = prev`
and `prev->left = element` or `prev->right = element`. -/
def attach (m : Nat → Option i_element_t) (e sp : Nat) : Nat → Option i_element_t :=
  let m1 := Function.update m e ((m e).map fun n => { n with parent := some sp })
  Function.update m1 sp
    ((m1 sp).bind fun p => (m1 e).map fun n =>
      if p.value > n.value then { p with left := some e } else { p with right := some e })

/-- What is left of `local_tree_insert` between taking and releasing the tree lock. -/
def insert_body (w : World) (value : Int) : Except Fault World :=
  if (malloc_element w value).1.tree.root = none then
    pure (set_root (malloc_element w value).1 (malloc_element w value).2)
  else
    Node_Insert (malloc_element w value).1 (malloc_element w value).1.tree.root
      (malloc_element w value).2

/-- The heap of `w`, read from `tree->root`, is the tree `t`. -/
structure Holds (w : World) (t : T) : Prop where
  root : w.tree.root = t.root
  rep : Rep w.mem t none
  nodup : t.addrs.Nodup
  lt_brk : ∀ a ∈ t.addrs, a < w.brk

/-- The two worlds have the same `lock_type`, `m_lock` and `rw_lock`. -/
def SameLocks (w w' : World) : Prop :=
  w'.tree.lock_type = w.tree.lock_type ∧ w'.tree.m_lock = w.tree.m_lock ∧
    w'.tree.rw_lock = w.tree.rw_lock

namespace T

/-- The tree after inserting a new node at address `a` with value `v`. -/
def ins (a : Nat) (v : Int) (t : T) : T := graft (node a nil v nil) v t

/-- The subtree put in the place of a deleted node with subtrees `l` and `r`. -/
def join (l r : T) : T :=
  match r with
  | nil => l
  | node e rl ev rr => graft (node e rl ev rr) ev l

/-- The tree after `delete(v)`. -/
def del (v : Int) : T → T
  | nil => nil
  | node a l x r =>
    if x ≠ v then (if x > v then node a (del v l) x r else node a l x (del v r))
    else join l r

end T

/-- What is left of `local_tree_delete` between taking and releasing the tree lock. -/
def delete_body (w : World) (value : Int) : Except Fault World :=
  if w.tree.root ≠ none then
    search_loop (w.brk + 1) w w.tree.root value >>= fun curr =>
      if curr ≠ none then
        if curr = w.tree.root then local_tree_delete_root w curr
        else local_tree_delete_inner w curr
      else pure w
  else pure w

/-- The four locking disciplines. -/
inductive Strategy where
  | None
  | Coarse
  | ReadWrite
  | FineGrained
deriving DecidableEq, Repr

/-- The `lock_type` argument of `Tree_Init` that selects a discipline. -/
def Strategy.code : Strategy → Int
  | .None => NO_LOCK
  | .Coarse => COARSE_LOCK
  | .ReadWrite => RW_LOCK
  | .FineGrained => FINE_LOCK

/-- A node with its mutex field blanked. -/
def shape (n : i_element_t) : i_element_t := { n with lock := none }

/-- The two memories hold the same nodes up to the state of the node mutexes. -/
def SameShape (m m' : Nat → Option i_element_t) : Prop :=
  ∀ a, (m a).map shape = (m' a).map shape

/-- Every allocated node has an initialised mutex, held exactly for the addresses in `H`. -/
def LockSt (m : Nat → Option i_element_t) (H : Finset Nat) : Prop :=
  ∀ a n, m a = some n → n.lock = some (decide (a ∈ H))

/-- The visit function reads the memory only up to the state of the node mutexes. -/
def ShapeOnly {σ : Type} (func : World → Ptr → σ → σ) : Prop :=
  ∀ w w' e s, SameShape w.mem w'.mem → func w e s = func w' e s

/-- The tree-level locks are in the state that strategy `s` leaves them in while one
operation runs. -/
def TLocked (s : Strategy) (w : World) : Prop :=
  w.tree.lock_type = s.code ∧
    match s with
    | .None => w.tree.m_lock = some false ∧ w.tree.rw_lock = .free
    | .Coarse => w.tree.m_lock = some true ∧ w.tree.rw_lock = .free
    | .ReadWrite => w.tree.m_lock = some false ∧
        (w.tree.rw_lock = .writer ∨ w.tree.rw_lock = .readers 1)
    | .FineGrained => False

/-- The tree-level locks are free. -/
def TFree (s : Strategy) (w : World) : Prop :=
  w.tree.lock_type = s.code ∧ w.tree.m_lock = some false ∧ w.tree.rw_lock = .free

/-- The state of a tree of strategy `s` between two operations: the heap holds the
search tree `t`, the tree-level locks are free and (under `FINE_LOCK`) so are all
node locks. -/
structure Inv (s : Strategy) (w : World) (t : T) : Prop where
  holds : Holds w t
  bst : t.BST
  tfree : TFree s w
  locks : s = .FineGrained → LockSt w.mem ∅

/-- The memory `M` with every node mutex initialised, held exactly at the addresses in `H`. -/
def relock (M : Nat → Option i_element_t) (H : Finset Nat) : Nat → Option i_element_t :=
  fun x => (M x).map fun n => { n with lock := some (decide (x ∈ H)) }

/-- The world with memory `relock M H` and log `l`; tree record and `brk` as in `w0`. -/
def W (w0 : World) (M : Nat → Option i_element_t) (H : Finset Nat) (l : List Ev) : World :=
  { mem := relock M H, brk := w0.brk, tree := w0.tree, log := l }

/-- The set `B` with the address behind `o` added. -/
def insertOpt (o : Ptr) (B : Finset Nat) : Finset Nat :=
  match o with
  | none => B
  | some a => insert a B

/-- The parent link of the first node with value `v` on the search path. -/
def T.findPar (v : Int) : T → Ptr → Ptr
  | .nil, _ => none
  | .node a l x r, par =>
    if x ≠ v then (if x > v then T.findPar v l (some a) else T.findPar v r (some a)) else par

/-- The node locks held when the descent of `local_tree_delete_fine` ends. -/
def heldAfterSearch (found par : Ptr) (B : Finset Nat) : Finset Nat :=
  match found with
  | none => B
  | some c => insert c (insertOpt par B)

/-- Memory after `p->left = q` (or `p->right = q`) and, when `q` is not `NULL`,
`q->parent = p`. -/
def relink (left : Bool) (M : Nat → Option i_element_t) (p : Nat) (q : Ptr) :
    Nat → Option i_element_t :=
  let M1 := Function.update M p
    ((M p).map fun n => if left then { n with left := q } else { n with right := q })
  match q with
  | none => M1
  | some a => Function.update M1 a ((M1 a).map fun n => { n with parent := some p })

/-- Memory after re-inserting the subtree `R` below the root of `P`. -/
def graftMem (M : Nat → Option i_element_t) (R P : T) : Nat → Option i_element_t :=
  match R with
  | .nil => M
  | .node e _ ev _ =>
    match T.slot ev P P.root with
    | some sp => attach M e sp
    | none => M

/-- One iteration of the worker loop of `Thread_Func`: the operation it selected and
the key it drew. -/
inductive Op where
  | insert (value : Int)
  | delete (value : Int)
  | lookup (value : Int)
deriving DecidableEq, Repr

/-- The tree calls of one iteration of the worker loop of `Thread_Func`: `Tree_Insert`,
or `Tree_Delete`, or `Tree_Lookup` followed by `Element_Release`. -/
def step (g : Option Impl) (w : World) : Op → Except Fault World
  | .insert value => Tree_Insert g w value
  | .delete value => Tree_Delete g w value
  | .lookup value => do
    let r ← Tree_Lookup g w value
    Element_Release g r.1 r.2

/-- A single-threaded run of the worker loop on the operations `ops`. -/
def run (g : Option Impl) : World → List Op → Except Fault World
  | w, [] => .ok w
  | w, op :: ops => do
    let w ← step g w op
    run g w ops

/-- The function pointers after `Tree_Init` with the `lock_type` of strategy `s`. -/
def dispatch (s : Strategy) : Option Impl := (Tree_Init none s.code).1

/-- The tree created by `Tree_Init` with the `lock_type` of strategy `s`. -/
def fresh (s : Strategy) : World := (Tree_Init none s.code).2

/-- The world after `Tree_Init` for strategy `s` and a single-threaded run of `ops`. -/
def reach (s : Strategy) (ops : List Op) : Except Fault World :=
  run (dispatch s) (fresh s) ops

/-- The counters `num_inserts`, `num_deletes` and `num_lookups` of `thread_data_t`. -/
structure Counters where
  num_inserts : Nat
  num_deletes : Nat
  num_lookups : Nat
deriving DecidableEq, Repr

/-- The counter update of one iteration of the worker loop of `Thread_Func`. -/
def bump (k : Counters) : Op → Counters
  | .insert _ => { k with num_inserts := k.num_inserts + 1 }
  | .delete _ => { k with num_deletes := k.num_deletes + 1 }
  | .lookup _ => { k with num_lookups := k.num_lookups + 1 }

/-- The worker loop of `Thread_Func` with its counters, which start at zero. -/
def Thread_Func (g : Option Impl) : World → Counters → List Op → Except Fault (World × Counters)
  | w, k, [] => .ok (w, k)
  | w, k, op :: ops => do
    let w ← step g w op
    Thread_Func g w (bump k op) ops

/-- The visit function `Count_Nodes` of main.cpp: `g_node_count++`. -/
def Count_Nodes (_w : World) (_element : Ptr) (g_node_count : Int) : Int :=
  g_node_count + 1

/-- The node count that `main` prints: `g_node_count = 0; Tree_Traverse(tree, Count_Nodes)`. -/
def node_count (g : Option Impl) (w : World) : Except Fault Int := do
  let r ← Tree_Traverse g w Count_Nodes 0
  pure r.2

/-- The tree found in memory `m` by following `left` and `right` from `p`, cut off
after `fuel` levels. -/
def readT : Nat → (Nat → Option i_element_t) → Ptr → T
  | 0, _, _ => .nil
  | _ + 1, _, none => .nil
  | fuel + 1, m, some a =>
    match m a with
    | none => .nil
    | some n => .node a (readT fuel m n.left) n.value (readT fuel m n.right)

/-- The tree stored in the world: what is reachable from `tree->root`. -/
def World.abs (w : World) : T := readT (w.brk + 1) w.mem w.tree.root

/-- The stored values, in in-order. -/
def World.values (w : World) : List Int := w.abs.vals

/-- The addresses of the stored nodes, in in-order. -/
def World.nodes (w : World) : List Nat := w.abs.addrs

/-- The node at address `b` is the node at `a` or lies in one of its subtrees. -/
inductive Below (m : Nat → Option i_element_t) : Nat → Nat → Prop where
  | self (a : Nat) : Below m a a
  | left {a l b : Nat} {n : i_element_t} :
      m a = some n → n.left = some l → Below m l b → Below m a b
  | right {a r b : Nat} {n : i_element_t} :
      m a = some n → n.right = some r → Below m r b → Below m a b

/-- The ordering invariant read on the heap: for every node reachable from the root,
every value in its left subtree is strictly smaller than its value and every value
in its right subtree is greater or equal. -/
def OrderedHeap (w : World) : Prop :=
  ∀ r a n, w.tree.root = some r → Below w.mem r a → w.mem a = some n →
    (∀ l b nb, n.left = some l → Below w.mem l b → w.mem b = some nb → nb.value < n.value) ∧
    (∀ l b nb, n.right = some l → Below w.mem l b → w.mem b = some nb → n.value ≤ nb.value)

/-- A visit function that appends `Element_Value(element)` to a list. -/
def record_values (g : Option Impl) (w : World) (element : Ptr) (acc : List Int) : List Int :=
  match Element_Value g w element with
  | .ok v => acc ++ [v]
  | .error _ => acc

/-- The number of `Tree_Delete` calls of a run whose key is stored in the tree when the
call is made. -/
def effective_deletes (g : Option Impl) : World → List Op → Nat
  | _, [] => 0
  | w, op :: ops =>
    (match op with
      | .delete value => if value ∈ w.values then 1 else 0
      | _ => 0) +
    (match step g w op with
      | .ok w' => effective_deletes g w' ops
      | .error _ => 0)

/-- The mutex of the node at address `a` is held. -/
def World.held (w : World) (a : Nat) : Bool :=
  match w.mem a with
  | some n => n.lock == some true
  | none => false

namespace T

/-- The allocation counter and the tree after one iteration of the worker loop. -/
def step (b : Nat) (t : T) : Op → Nat × T
  | .insert v => (b + 1, ins b v t)
  | .delete v => (b, del v t)
  | .lookup _ => (b, t)

/-- The allocation counter and the tree after a run of the worker loop. -/
def run (b : Nat) (t : T) : List Op → Nat × T
  | [] => (b, t)
  | op :: ops => run (step b t op).1 (step b t op).2 ops

/-- The nodes that a descent for the key `v` compares `v` with, from the root down to
the first match or to the last node before an absent child. -/
def path (v : Int) : T → List Nat
  | nil => []
  | node a l x r => a :: (if x ≠ v then (if x > v then path v l else path v r) else [])

end T

/-- The function pointers and the two tree records after
`A = Tree_Init(sA); B = Tree_Init(sB)`.  Each tree is kept with the memory of its own
nodes; the function pointers are the one set of statics both share. -/
def two_trees (sA sB : Strategy) : Option Impl × World × World :=
  ((Tree_Init (Tree_Init none sA.code).1 sB.code).1,
   (Tree_Init none sA.code).2,
   (Tree_Init (Tree_Init none sA.code).1 sB.code).2)

/-- The lock calls that the entry block of a writer (`tree_lock_wr`) makes on a tree
whose `lock_type` is that of strategy `s`. -/
def Strategy.wr_entry : Strategy → List Ev
  | .Coarse => [.lock .tree]
  | .ReadWrite => [.wrlock]
  | _ => []

/-- The lock calls that the entry block of a reader (`tree_lock_rd`) makes on a tree
whose `lock_type` is that of strategy `s`. -/
def Strategy.rd_entry : Strategy → List Ev
  | .Coarse => [.lock .tree]
  | .ReadWrite => [.rdlock]
  | _ => []

/-- The lock calls that the exit block (`tree_unlock`) makes on a tree whose `lock_type`
is that of strategy `s`. -/
def Strategy.tree_exit : Strategy → List Ev
  | .Coarse => [.unlock .tree]
  | .ReadWrite => [.rw_unlock]
  | _ => []

/-- On the world `w` and with the function pointers `g`, every `Tree_Insert` and every
`Tree_Delete` returns having appended exactly the lock calls `wr` to the log, and every
`Tree_Lookup` and every `Tree_Traverse` returns having appended exactly `rd`. -/
def LockCalls (g : Option Impl) (w : World) (wr rd : List Ev) : Prop :=
  (∀ v, ∃ w', Tree_Insert g w v = .ok w' ∧ w'.log = w.log ++ wr) ∧
  (∀ v, ∃ w', Tree_Delete g w v = .ok w' ∧ w'.log = w.log ++ wr) ∧
  (∀ v, ∃ w' r, Tree_Lookup g w v = .ok (w', r) ∧ w'.log = w.log ++ rd) ∧
  (∀ (σ : Type) (func : Ptr → σ → σ) (s0 : σ), ∃ w' r,
    Tree_Traverse g w (fun _ => func) s0 = .ok (w', r) ∧ w'.log = w.log ++ rd)

/-- The pointer reached from `p` by following the links `d` (`true`: `left`, `false`:
`right`). -/
def follow (m : Nat → Option i_element_t) : Ptr → List Bool → Ptr
  | p, [] => p
  | none, _ :: _ => none
  | some a, b :: d =>
    match m a with
    | none => none
    | some n => follow m (if b then n.left else n.right) d

/-- The parent links of the stored nodes are consistent: the parent link of the root is
`NULL`; a stored node whose parent link is `NULL` is the root; the parent `p` of any
other stored node `a` is a stored node, and exactly one of `p->left`, `p->right` is
`a`. -/
def ParentsOK (w : World) : Prop :=
  (∀ r n, w.tree.root = some r → w.mem r = some n → n.parent = none) ∧
  (∀ a ∈ w.nodes, ∀ n, w.mem a = some n → n.parent = none → w.tree.root = some a) ∧
  (∀ a ∈ w.nodes, ∀ n p, w.mem a = some n → n.parent = some p →
    p ∈ w.nodes ∧ ∃ pn, w.mem p = some pn ∧
      ((pn.left = some a ∧ pn.right ≠ some a) ∨ (pn.left ≠ some a ∧ pn.right = some a)))

/-- Reference insertion as the specification words it: on an empty tree the new node
(at address `a`, with value `v`) is the tree; otherwise go left at a node whose value is
strictly greater than `v` and right otherwise, and hang the new node at the first absent
link. -/
def spec_insert (a : Nat) (v : Int) : T → T
  | .nil => .node a .nil v .nil
  | .node b l x r =>
    if x > v then .node b (spec_insert a v l) x r else .node b l x (spec_insert a v r)

/-- The subtree `L` with `R` hung as the right child of the last node of the right spine
of `L`, or `R` itself when `L` is empty (the specification's wording of what replaces a
deleted node). -/
def spec_append_right (R : T) : T → T
  | .nil => R
  | .node a l x r => .node a l x (spec_append_right R r)

/-- Reference deletion as the specification words it: the first node with value `v` on
the search path is replaced by its left subtree with its right subtree appended to the
right spine. -/
def spec_delete (v : Int) : T → T
  | .nil => .nil
  | .node a l x r =>
    if x = v then spec_append_right r l
    else if x > v then .node a (spec_delete v l) x r
    else .node a l x (spec_delete v r)

/-- The subtree rooted at the first node with value `v` on the search path; empty when
there is none. -/
def T.sub_at (v : Int) : T → T
  | .nil => .nil
  | .node a l x r =>
    if x ≠ v then (if x > v then T.sub_at v l else T.sub_at v r) else .node a l x r

namespace T

/-- No node of the tree has a left child. -/
def right_chain : T → Prop
  | nil => True
  | node _ l _ r => l = nil ∧ right_chain r

/-- No node of the tree has a right child. -/
def left_chain : T → Prop
  | nil => True
  | node _ l _ r => r = nil ∧ left_chain l

end T

/-- Why the key computation `rand_r(&seed) % (2*args->initial_size)` of `Thread_Func`
has no value. -/
inductive KeyFault where
  | overflow
  | div_by_zero
deriving DecidableEq, Repr

/-- The field `initial_size` after `parse_args`: 1000 by default, `atol(optarg)` when
the option `-i` is given (`i_arg` is the number that `optarg` denotes). -/
def parse_args_initial_size (i_arg : Option Int) : Int :=
  match i_arg with
  | none => 1000
  | some n => n

/-- The expression `rand_r(&seed) % (2*args->initial_size)` of `Thread_Func`, for the
value `r` that `rand_r` returns: the product is computed in `int64_t`, the remainder
truncates towards zero. -/
def draw_key (r initial_size : Int) : Except KeyFault Int :=
  if 2 * initial_size < -(2 ^ 63) ∨ 2 ^ 63 ≤ 2 * initial_size then .error .overflow
  else if 2 * initial_size = 0 then .error .div_by_zero
  else .ok (Int.tmod r (2 * initial_size))

/-- The lock calls of a hand-over-hand walk that holds the lock of `p` and goes down
through the nodes `path`: at each step the lock of the child is taken, then the lock of
the parent is released. -/
def couple_from (p : Nat) : List Nat → List Ev
  | [] => []
  | c :: rest => .lock (.node (some c)) :: .unlock (.node (some p)) :: couple_from c rest

/-- The node locks held after the lock calls `es`, when `H` were held before. -/
def held_after : List Nat → List Ev → List Nat
  | H, [] => H
  | H, .lock (.node (some a)) :: es => held_after (a :: H) es
  | H, .unlock (.node (some a)) :: es => held_after (H.filter (fun x => x ≠ a)) es
  | H, _ :: es => held_after H es

/-- The lock calls of the loop of `local_tree_lookup_fine` on the tree `t`, whose root
is already locked. -/
def T.lookup_evs (v : Int) : T → List Ev
  | .nil => []
  | .node a l x r =>
    if x ≠ v then
      (if x > v then
        (match l.root with
          | none => [.unlock (.node (some a))]
          | some c => .lock (.node (some c)) :: .unlock (.node (some a)) :: T.lookup_evs v l)
      else
        (match r.root with
          | none => [.unlock (.node (some a))]
          | some c => .lock (.node (some c)) :: .unlock (.node (some a)) :: T.lookup_evs v r))
    else []

/-- The lock calls of `local_tree_lookup_fine` on the tree `t`. -/
def T.lookup_log (v : Int) (t : T) : List Ev :=
  match t.root with
  | none => []
  | some a => .lock (.node (some a)) :: T.lookup_evs v t

/-- The lock calls of the loop of `Node_Insert_f` for the value `v`, started at the root
of `t` (whose lock is held) with `prev` equal to `P`. -/
def T.ins_evs (v : Int) : T → Nat → List Ev
  | .nil, _ => []
  | .node a l x r, P =>
    (if P ≠ a then [.unlock (.node (some P))] else []) ++
      (if x > v then
        (match l.root with
          | none => []
          | some c => .lock (.node (some c)) :: T.ins_evs v l a)
      else
        (match r.root with
          | none => []
          | some c => .lock (.node (some c)) :: T.ins_evs v r a))

/-- The lock calls of `local_tree_insert_fine` of the value `v` with the fresh node `e`
into the tree `t`. -/
def T.insert_log (e : Nat) (v : Int) (t : T) : List Ev :=
  match t.root, T.slot v t t.root with
  | some a, some sp =>
    [.lock (.node (some a)), .lock (.node (some e))] ++ T.ins_evs v t a ++
      [.unlock (.node (some sp)), .unlock (.node (some e))]
  | _, _ => []

/-- The lock calls of `Node_Traverse_f` on the tree `t`, whose root is already locked. -/
def T.trav_evs : T → List Ev
  | .nil => []
  | .node b l _ r =>
    (match l.root with
      | none => []
      | some c => .lock (.node (some c)) :: T.trav_evs l) ++
    (match r.root with
      | none => []
      | some c => .lock (.node (some c)) :: T.trav_evs r) ++
    [.unlock (.node (some b))]

/-- The lock calls `Node_Traverse_f` has made on the tree `t` when it calls `func` on
the root of `t`. -/
def T.trav_before : T → List Ev
  | .nil => []
  | .node _ l _ _ =>
    (match l.root with
      | none => []
      | some c => .lock (.node (some c)) :: T.trav_evs l)

/-- The result of `Node_Traverse_f` on the tree `t`: `func` is called at every node, in
order, in the state of that moment, which is the memory `M` with the node locks of the
node and of `B` held and the lock calls made so far in the log. -/
def T.trav_fold {σ : Type} (func : World → Ptr → σ → σ) (w0 : World)
    (M : Nat → Option i_element_t) : T → Finset Nat → List Ev → σ → σ
  | .nil, _, _, s => s
  | .node b lt x rt, B, l, s =>
    let s1 := (match lt.root with
      | none => s
      | some c => T.trav_fold func w0 M lt (insert b B) (l ++ [.lock (.node (some c))]) s)
    let l1 := l ++ T.trav_before (.node b lt x rt)
    let s2 := func (W w0 M (insert b B) l1) (some b) s1
    (match rt.root with
      | none => s2
      | some c => T.trav_fold func w0 M rt (insert b B) (l1 ++ [.lock (.node (some c))]) s2)

/-- The lock calls of `local_tree_traverse_fine` on the tree `t`. -/
def T.traverse_log (t : T) : List Ev :=
  match t.root with
  | none => []
  | some a => .lock (.node (some a)) :: T.trav_evs t

/-- The call `pthread_mutex_unlock(&q->lock)` made when `q` is not `NULL`. -/
def optUnlock (q : Ptr) : List Ev :=
  match q with
  | none => []
  | some p => [.unlock (.node (some p))]

/-- The lock calls of the loop of `local_tree_delete_fine` on the tree `t`, whose root
is already locked and has the parent `par`. -/
def T.del_evs (v : Int) : T → Ptr → List Ev
  | .nil, _ => []
  | .node a l x r, par =>
    if x ≠ v then
      optUnlock par ++
      (if x > v then
        (match l.root with
          | none => [.unlock (.node (some a))]
          | some c => .lock (.node (some c)) :: T.del_evs v l (some a))
      else
        (match r.root with
          | none => [.unlock (.node (some a))]
          | some c => .lock (.node (some c)) :: T.del_evs v r (some a)))
    else []

/-- The call `pthread_mutex_lock(&q->lock)` made when `q` is not `NULL`. -/
def optLock (q : Ptr) : List Ev :=
  match q with
  | none => []
  | some e => [.lock (.node (some e))]

/-- The calls that lock and then unlock `q`, made when `q` is not `NULL`. -/
def lockUnlock (q : Ptr) : List Ev :=
  match q with
  | none => []
  | some a => [.lock (.node (some a)), .unlock (.node (some a))]

/-- The lock calls of the end of a delete: `Node_Insert_f(p, right_branch)` into the
tree `P` with the root `p` when the right subtree `R` is not empty, `unlock(p)`
otherwise. -/
def T.reinsert_evs (R P : T) (p : Nat) : List Ev :=
  match R with
  | .nil => [.unlock (.node (some p))]
  | .node e _ ev _ =>
    T.ins_evs ev P p ++
      (match T.slot ev P P.root with
        | some sp => [.unlock (.node (some sp)), .unlock (.node (some e))]
        | none => [])

/-- The lock calls of `local_tree_delete_fine` after the descent, when the match `c`
with the subtrees `L` and `R` is not the root; `P` is the subtree of its parent `p`
after the splice. -/
def T.inner_evs (c : Nat) (L R P : T) (p : Nat) : List Ev :=
  optLock R.root ++ lockUnlock L.root ++ T.reinsert_evs R P p ++ [.unlock (.node (some c))]

/-- The lock calls of `local_tree_delete_fine` after the descent, when the match `c`
with the subtrees `L` and `R` is the root. -/
def T.root_evs (c : Nat) (L R : T) : List Ev :=
  (match L.root with
    | some a => optLock R.root ++ [.lock (.node (some a))] ++ T.reinsert_evs R L a
    | none => lockUnlock R.root) ++ [.unlock (.node (some c))]

/-- The lock calls of `local_tree_delete_fine` after the descent, when the match is not
the root of `t`. -/
def T.splice_evs (v : Int) : T → List Ev
  | .nil => []
  | .node a l x r =>
    if x ≠ v then
      (if x > v then
        (match l with
          | .nil => []
          | .node c L lv R =>
            if lv = v then T.inner_evs c L R (.node a L x r) a else T.splice_evs v l)
      else
        (match r with
          | .nil => []
          | .node c L rv R =>
            if rv = v then T.inner_evs c L R (.node a l x L) a else T.splice_evs v r))
    else []

/-- The lock calls of `local_tree_delete_fine` of the value `v` on the tree `t`. -/
def T.delete_log (v : Int) : T → List Ev
  | .nil => []
  | .node a l x r =>
    .lock (.node (some a)) :: T.del_evs v (.node a l x r) none ++
      (if x = v then T.root_evs a l r else T.splice_evs v (.node a l x r))

/-- The nodes `Node_Insert_f` walks through for the value `v`, from the root of the tree
down to the node that gets the new child. -/
def T.ipath (v : Int) : T → List Nat
  | .nil => []
  | .node a l x r => a :: (if x > v then T.ipath v l else T.ipath v r)

/-- The lock calls of a descent along the nodes `path`: the first node is locked, the
calls `mid` follow, and the walk goes on hand over hand.  With `stop` the descent ends
on the last node of the path with the lock of its parent still held, so the last unlock
is not made. -/
def descent (mid : List Ev) (stop : Bool) : List Nat → List Ev
  | [] => []
  | a :: rest =>
    .lock (.node (some a)) :: mid ++
      (if stop then (couple_from a rest).dropLast else couple_from a rest)

/-- After every one of the lock calls `es`, made when the node locks `H` were held, the
lock of a node of `path` is held. -/
def covered (path : List Nat) : List Nat → List Ev → Bool
  | _, [] => true
  | H, e :: es =>
    (held_after H [e]).any (fun a => decide (a ∈ path)) && covered path (held_after H [e]) es

/-- The calls that end `Node_Insert_f`: `unlock(&prev->lock)` and then
`unlock(&element->lock)`; none when there is no `prev`. -/
def unlock_both (prev : Ptr) (e : Nat) : List Ev :=
  match prev with
  | none => []
  | some sp => [.unlock (.node (some sp)), .unlock (.node (some e))]

/-- The node locks held in the world `w`. -/
def World.held_set (w : World) : Finset Nat :=
  (Finset.range w.brk).filter (fun a => w.held a = true)

/-- The visit function that records, for every visited node, the node, the node locks
held at the moment of the visit and the lock calls made up to that moment. -/
def record_held (w : World) (e : Ptr) (acc : List (Ptr × Finset Nat × List Ev)) :
    List (Ptr × Finset Nat × List Ev) :=
  acc ++ [(e, w.held_set, w.log)]

/-- The nodes of the tree `t` in order, each with the set made of the node and of its
ancestors; `B` is the set of the ancestors of the root of `t`. -/
def T.with_ancestors : Finset Nat → T → List (Nat × Finset Nat)
  | _, .nil => []
  | B, .node a l _ r =>
    T.with_ancestors (insert a B) l ++ [(a, insert a B)] ++ T.with_ancestors (insert a B) r

/-- What `record_held` records during `Node_Traverse_f` on the tree `t`, started with
the node locks of the root and of `B` held and the lock calls `l` made. -/
def T.trav_recs : Finset Nat → List Ev → T → List (Ptr × Finset Nat × List Ev)
  | _, _, .nil => []
  | B, l, .node b lt x rt =>
    (match lt.root with
      | none => []
      | some c => T.trav_recs (insert b B) (l ++ [.lock (.node (some c))]) lt) ++
    [(some b, insert b B, l ++ T.trav_before (.node b lt x rt))] ++
    (match rt.root with
      | none => []
      | some c =>
        T.trav_recs (insert b B)
          (l ++ T.trav_before (.node b lt x rt) ++ [.lock (.node (some c))]) rt)

/-- The parent link `c->parent` of the node at the address `c`. -/
def World.parent_of (w : World) (c : Nat) : Ptr :=
  (w.mem c).bind (fun n => n.parent)

/-- Replays the lock calls `es`, made when the node locks `H` were held, and checks each
`lock` of a node `c`: it is the lock of `root` taken while no node lock is held, or the
lock of the node `fresh`, or it is taken while the lock of the parent of `c` (by the
parent links `par`) is held. -/
def parent_first (par : Nat → Ptr) (root fresh : Ptr) : List Nat → List Ev → Bool
  | _, [] => true
  | H, .lock (.node (some c)) :: es =>
    ((H.isEmpty && decide (root = some c)) || decide (fresh = some c) ||
      (match par c with
        | some p => decide (p ∈ H)
        | none => false)) &&
    parent_first par root fresh (c :: H) es
  | H, .unlock (.node (some a)) :: es =>
    parent_first par root fresh (H.filter (fun x => x ≠ a)) es
  | H, _ :: es => parent_first par root fresh H es

/-- The lock calls of `Tree_Delete` up to the change of the links: the descent, and
then, when the value is found, the locks of the right child and of the left child of
the match. -/
def T.delete_pre (v : Int) (t : T) : List Ev :=
  descent [] (T.find v t).isSome (T.path v t) ++
    (match T.sub_at v t with
      | .nil => optUnlock (T.path v t).getLast?
      | .node _ L _ R => optLock R.root ++ optLock L.root)

/-- Every child of a node of `t` has that node as its parent by the links `par`. -/
def T.ParOK (par : Nat → Ptr) : T → Prop
  | .nil => True
  | .node b l _ r =>
    (∀ c, l.root = some c → par c = some b) ∧ (∀ c, r.root = some c → par c = some b) ∧
      T.ParOK par l ∧ T.ParOK par r

/-- The calls of the `n` workers that `main` starts on one tree, made one whole call
after the other: the list holds the calls in the order in which they are made, each
with the index of the worker that makes it, and every worker counts its own calls as
`Thread_Func` does.  This is the serial run with which the interleaved runs of the
workers (`Par.runs`) are compared. -/
def Thread_Funcs {n : Nat} (g : Option Impl) :
    World → (Fin n → Counters) → List (Fin n × Op) →
      Except Fault (World × (Fin n → Counters))
  | w, k, [] => .ok (w, k)
  | w, k, c :: calls => do
    let w ← step g w c.2
    Thread_Funcs g w (Function.update k c.1 (bump (k c.1) c.2)) calls

/-- The total `num_inserts` that `main` adds up over the workers. -/
def total_inserts {n : Nat} (k : Fin n → Counters) : Nat :=
  Finset.univ.sum (fun i => (k i).num_inserts)

/-- The total `num_deletes` that `main` adds up over the workers. -/
def total_deletes {n : Nat} (k : Fin n → Counters) : Nat :=
  Finset.univ.sum (fun i => (k i).num_deletes)

namespace Traced

/-- One step of an operation as it shows from outside: a call of a locking primitive,
or an access to the tree, which is a read or write of `tree->root`, a read or write of
the fields of a node (or its allocation or release), or the call of the visit function
on a node.  The read of `tree->lock_type`, which never changes after `Tree_Init` and
decides whether a lock is taken at all, is not an access to the tree. -/
inductive Step where
  | call (e : Ev)
  | root
  | node (p : Ptr)
  | visit (p : Ptr)
deriving DecidableEq, Repr

/-- The step is an access to the tree. -/
def Step.is_touch : Step → Bool
  | .call _ => false
  | _ => true

/-- A world together with the steps taken so far, in order. -/
structure TWorld where
  w : World
  trace : List Step

/-- The steps so far with one more. -/
def TWorld.note (s : TWorld) (x : Step) : TWorld :=
  { s with trace := s.trace ++ [x] }

/-- Reading `*p`. -/
def deref (s : TWorld) (p : Ptr) : Except Fault (TWorld × i_element_t) := do
  let n ← CBinary.deref s.w p
  pure (s.note (.node p), n)

/-- The assignment `p->left = q`. -/
def set_left (s : TWorld) (p q : Ptr) : Except Fault TWorld := do
  let w ← CBinary.set_left s.w p q
  pure ⟨w, s.trace ++ [.node p]⟩

/-- The assignment `p->right = q`. -/
def set_right (s : TWorld) (p q : Ptr) : Except Fault TWorld := do
  let w ← CBinary.set_right s.w p q
  pure ⟨w, s.trace ++ [.node p]⟩

/-- The assignment `p->parent = q`. -/
def set_parent (s : TWorld) (p q : Ptr) : Except Fault TWorld := do
  let w ← CBinary.set_parent s.w p q
  pure ⟨w, s.trace ++ [.node p]⟩

/-- Reading `tree->root`. -/
def root (s : TWorld) : TWorld × Ptr :=
  (s.note .root, s.w.tree.root)

/-- The assignment `tree->root = q`. -/
def set_root (s : TWorld) (q : Ptr) : TWorld :=
  ⟨CBinary.set_root s.w q, s.trace ++ [.root]⟩

/-- The call `malloc(sizeof(i_element_t))` followed by the four field assignments. -/
def malloc_element (s : TWorld) (v : Int) : TWorld × Ptr :=
  (⟨(CBinary.malloc_element s.w v).1, s.trace ++ [.node (CBinary.malloc_element s.w v).2]⟩,
   (CBinary.malloc_element s.w v).2)

/-- The call `free(p)`. -/
def free (s : TWorld) (p : Ptr) : Except Fault TWorld := do
  let w ← CBinary.free s.w p
  pure ⟨w, s.trace ++ [.node p]⟩

/-- The function `lock`. -/
def lock (s : TWorld) (m : Mutex) : Except Fault TWorld := do
  let w ← CBinary.lock s.w m
  pure ⟨w, s.trace ++ [.call (.lock m)]⟩

/-- The function `unlock`. -/
def unlock (s : TWorld) (m : Mutex) : Except Fault TWorld := do
  let w ← CBinary.unlock s.w m
  pure ⟨w, s.trace ++ [.call (.unlock m)]⟩

/-- The call `pthread_rwlock_wrlock(&tree->rw_lock)`. -/
def pthread_rwlock_wrlock (s : TWorld) : Except Fault TWorld := do
  let w ← CBinary.pthread_rwlock_wrlock s.w
  pure ⟨w, s.trace ++ [.call .wrlock]⟩

/-- The call `pthread_rwlock_rdlock(&tree->rw_lock)`. -/
def pthread_rwlock_rdlock (s : TWorld) : Except Fault TWorld := do
  let w ← CBinary.pthread_rwlock_rdlock s.w
  pure ⟨w, s.trace ++ [.call .rdlock]⟩

/-- The call `pthread_rwlock_unlock(&tree->rw_lock)`. -/
def pthread_rwlock_unlock (s : TWorld) : Except Fault TWorld := do
  let w ← CBinary.pthread_rwlock_unlock s.w
  pure ⟨w, s.trace ++ [.call .rw_unlock]⟩

/-- Entry block of a writer, as `CBinary.tree_lock_wr`. -/
def tree_lock_wr (s : TWorld) : Except Fault TWorld := do
  let s ← (if s.w.tree.lock_type = COARSE_LOCK then lock s .tree else pure s)
  (if s.w.tree.lock_type = RW_LOCK then pthread_rwlock_wrlock s else pure s)

/-- Entry block of a reader, as `CBinary.tree_lock_rd`. -/
def tree_lock_rd (s : TWorld) : Except Fault TWorld := do
  let s ← (if s.w.tree.lock_type = COARSE_LOCK then lock s .tree else pure s)
  (if s.w.tree.lock_type = RW_LOCK then pthread_rwlock_rdlock s else pure s)

/-- Exit block, as `CBinary.tree_unlock`. -/
def tree_unlock (s : TWorld) : Except Fault TWorld := do
  let s ← (if s.w.tree.lock_type = COARSE_LOCK then unlock s .tree else pure s)
  (if s.w.tree.lock_type = RW_LOCK then pthread_rwlock_unlock s else pure s)

/-- The `while (curr != NULL)` loop of `Node_Insert`; the result is the final `prev`. -/
def Node_Insert_loop : Nat → TWorld → Ptr → Ptr → Ptr → Except Fault (TWorld × Ptr)
  | 0, _, _, _, _ => .error .no_fuel
  | fuel + 1, s, curr, prev, element =>
    match curr with
    | none => .ok (s, prev)
    | some _ => do
      let c ← deref s curr
      let e ← deref c.1 element
      (if c.2.value > e.2.value then Node_Insert_loop fuel e.1 c.2.left curr element
       else Node_Insert_loop fuel e.1 c.2.right curr element)

/-- The function `Node_Insert(node, element)`. -/
def Node_Insert (s : TWorld) (node element : Ptr) : Except Fault TWorld := do
  let r ← Node_Insert_loop (s.w.brk + 1) s node node element
  let s ← set_parent r.1 element r.2
  let p ← deref s r.2
  let e ← deref p.1 element
  (if p.2.value > e.2.value then set_left e.1 r.2 element else set_right e.1 r.2 element)

/-- The function `Node_Traverse(node, func)`. -/
def Node_Traverse {σ : Type} :
    Nat → TWorld → Ptr → (World → Ptr → σ → σ) → σ → Except Fault (TWorld × σ)
  | 0, _, _, _, _ => .error .no_fuel
  | fuel + 1, s, node, func, acc =>
    match node with
    | none => .ok (s, acc)
    | some _ => do
      let n ← deref s node
      let l ← Node_Traverse fuel n.1 n.2.left func acc
      let m ← deref (l.1.note (.visit node)) node
      Node_Traverse fuel m.1 m.2.right func (func l.1.w node l.2)

/-- The function `local_tree_insert`. -/
def local_tree_insert (s : TWorld) (value : Int) : Except Fault TWorld := do
  let s ← tree_lock_wr s
  let s ← (if (root (malloc_element s value).1).2 = none then
             pure (set_root (root (malloc_element s value).1).1 (malloc_element s value).2)
           else
             Node_Insert (root (root (malloc_element s value).1).1).1
               (root (root (malloc_element s value).1).1).2 (malloc_element s value).2)
  tree_unlock s

/-- The loop `while (curr != NULL && curr->value != value)` of `local_tree_delete` and
of `local_tree_lookup`; the result is the final `curr`. -/
def search_loop : Nat → TWorld → Ptr → Int → Except Fault (TWorld × Ptr)
  | 0, _, _, _ => .error .no_fuel
  | fuel + 1, s, curr, value =>
    match curr with
    | none => .ok (s, none)
    | some _ => do
      let c ← deref s curr
      (if c.2.value ≠ value then
        (if c.2.value > value then search_loop fuel c.1 c.2.left value
         else search_loop fuel c.1 c.2.right value)
       else pure (c.1, curr))

/-- The branch `if (curr == tree->root)` of `local_tree_delete`. -/
def local_tree_delete_root (s : TWorld) (curr : Ptr) : Except Fault TWorld := do
  let c ← deref s curr
  let s ←
    (if c.2.left ≠ none then do
      let d ← deref (set_root c.1 c.2.left) curr
      let s ← set_parent (root d.1).1 d.2.left (root d.1).2
      (if c.2.right ≠ none then Node_Insert (root s).1 (root s).2 c.2.right else pure s)
    else
      pure (set_root c.1 c.2.right))
  let s ← (if (root s).2 ≠ none then
             set_parent (root (root s).1).1 (root (root s).1).2 none
           else pure (root s).1)
  free s curr

/-- The `else` branch (the match is not the root) of `local_tree_delete`. -/
def local_tree_delete_inner (s : TWorld) (curr : Ptr) : Except Fault TWorld := do
  let c ← deref s curr
  let p ← deref c.1 c.2.parent
  let s ←
    (if p.2.left = curr then do
      let s ← set_left p.1 c.2.parent c.2.left
      let d ← deref s curr
      let s ← (if d.2.left ≠ none then set_parent d.1 d.2.left d.2.parent else pure d.1)
      let e ← deref s curr
      (if c.2.right ≠ none then Node_Insert e.1 e.2.parent c.2.right else pure e.1)
    else do
      let s ← set_right p.1 c.2.parent c.2.left
      let d ← deref s curr
      let s ← (if d.2.left ≠ none then set_parent d.1 d.2.left d.2.parent else pure d.1)
      let e ← deref s curr
      (if c.2.right ≠ none then Node_Insert e.1 e.2.parent c.2.right else pure e.1))
  free s curr

/-- What `local_tree_delete` does between taking and releasing the tree lock. -/
def delete_body (s : TWorld) (value : Int) : Except Fault TWorld :=
  if (root s).2 ≠ none then
    search_loop ((root s).1.w.brk + 1) (root (root s).1).1 (root (root s).1).2 value >>=
      fun c =>
        if c.2 ≠ none then
          if c.2 = (root c.1).2 then local_tree_delete_root (root c.1).1 c.2
          else local_tree_delete_inner (root c.1).1 c.2
        else pure c.1
  else pure (root s).1

/-- The function `local_tree_delete`. -/
def local_tree_delete (s : TWorld) (value : Int) : Except Fault TWorld := do
  let s ← tree_lock_wr s
  let s ← delete_body s value
  tree_unlock s

/-- The function `local_tree_lookup`. -/
def local_tree_lookup (s : TWorld) (value : Int) : Except Fault (TWorld × Ptr) := do
  let s ← tree_lock_rd s
  (if (root s).2 = none then do
    let s ← tree_unlock (root s).1
    pure (s, none)
  else do
    let c ← search_loop ((root s).1.w.brk + 1) (root (root s).1).1 (root (root s).1).2 value
    let s ← tree_unlock c.1
    pure (s, c.2))

/-- The function `local_tree_traverse`. -/
def local_tree_traverse {σ : Type} (s : TWorld) (func : World → Ptr → σ → σ) (acc : σ) :
    Except Fault (TWorld × σ) := do
  let s ← tree_lock_rd s
  let r ← Node_Traverse ((root s).1.w.brk + 1) (root s).1 (root s).2 func acc
  let s ← tree_unlock r.1
  pure (s, r.2)

/-- Every step of the list is an access to the tree. -/
def AllTouch (ts : List Step) : Prop :=
  ∀ x ∈ ts, x.is_touch = true

/-- What `local_tree_insert` does between taking and releasing the tree lock. -/
def insert_body (s : TWorld) (value : Int) : Except Fault TWorld :=
  if (root (malloc_element s value).1).2 = none then
    pure (set_root (root (malloc_element s value).1).1 (malloc_element s value).2)
  else
    Node_Insert (root (root (malloc_element s value).1).1).1
      (root (root (malloc_element s value).1).1).2 (malloc_element s value).2

/-- The instrumented runs of the four operations of a tree whose function pointers
select the `local_tree_*` family, started on the world `w` after any recorded trace
`tr`: each returns; `Tree_Insert`, `Tree_Delete`, `Tree_Lookup` and `Tree_Traverse`
with the function pointers `g` return the same world and the same result; and the run
extends `tr` by exactly the lock calls `wr` (`rd` for lookup and traverse), then a
non-empty list of accesses to the tree and nothing else, then the lock calls `ex`. -/
def Bracket (g : Option Impl) (w : World) (wr rd ex : List Ev) : Prop :=
  (∀ v, ∃ w' ts, Tree_Insert g w v = .ok w' ∧ AllTouch ts ∧ ts ≠ [] ∧
    ∀ tr, local_tree_insert ⟨w, tr⟩ v =
      .ok ⟨w', tr ++ wr.map .call ++ ts ++ ex.map .call⟩) ∧
  (∀ v, ∃ w' ts, Tree_Delete g w v = .ok w' ∧ AllTouch ts ∧ ts ≠ [] ∧
    ∀ tr, local_tree_delete ⟨w, tr⟩ v =
      .ok ⟨w', tr ++ wr.map .call ++ ts ++ ex.map .call⟩) ∧
  (∀ v, ∃ w' r ts, Tree_Lookup g w v = .ok (w', r) ∧ AllTouch ts ∧ ts ≠ [] ∧
    ∀ tr, local_tree_lookup ⟨w, tr⟩ v =
      .ok (⟨w', tr ++ rd.map .call ++ ts ++ ex.map .call⟩, r)) ∧
  (∀ (σ : Type) (func : Ptr → σ → σ) (s0 : σ), ∃ w' r ts,
    Tree_Traverse g w (fun _ => func) s0 = .ok (w', r) ∧ AllTouch ts ∧ ts ≠ [] ∧
    ∀ tr, local_tree_traverse ⟨w, tr⟩ (fun _ => func) s0 =
      .ok (⟨w', tr ++ rd.map .call ++ ts ++ ex.map .call⟩, r))

end Traced

namespace Par

/-- The statements of cbinary.c that write to the shared memory or call a locking
primitive and give no value back. -/
inductive Cmd where
  | set_left (p q : Ptr)
  | set_right (p q : Ptr)
  | set_parent (p q : Ptr)
  | set_root (q : Ptr)
  | free (p : Ptr)
  | lock (m : Mutex)
  | unlock (m : Mutex)
  | wrlock
  | rdlock
  | rw_unlock
deriving DecidableEq, Repr

/-- The effect of a statement on the shared memory, as in the single-threaded model. -/
def Cmd.exec : Cmd → World → Except Fault World
  | .set_left p q, w => CBinary.set_left w p q
  | .set_right p q, w => CBinary.set_right w p q
  | .set_parent p q, w => CBinary.set_parent w p q
  | .set_root q, w => .ok (CBinary.set_root w q)
  | .free p, w => CBinary.free w p
  | .lock m, w => CBinary.lock w m
  | .unlock m, w => CBinary.unlock w m
  | .wrlock, w => CBinary.pthread_rwlock_wrlock w
  | .rdlock, w => CBinary.pthread_rwlock_rdlock w
  | .rw_unlock, w => CBinary.pthread_rwlock_unlock w

/-- The statement is a call of a locking primitive. -/
def Cmd.is_lock : Cmd → Bool
  | .lock _ => true
  | .unlock _ => true
  | .wrlock => true
  | .rdlock => true
  | .rw_unlock => true
  | _ => false

/-- The code that a thread has still to run, as the statement it runs next and the code
after it, which depends on what the statement read.  `deref`, `root`, `malloc_element`
and `cmd` are the steps of a thread, each atomic, between which the other threads may
run.  `lock_type` is the read of `tree->lock_type`, a field that nothing writes after
`Tree_Init`, and `fuel` supplies the bound of a loop, as `w.brk + 1` does in the
single-threaded model; neither is a step of its own. -/
inductive Prog (α : Type) : Type where
  | ret (a : α)
  | fail (e : Fault)
  | lock_type (k : Int → Prog α)
  | fuel (k : Nat → Prog α)
  | deref (p : Ptr) (k : i_element_t → Prog α)
  | root (k : Ptr → Prog α)
  | malloc_element (v : Int) (k : Ptr → Prog α)
  | cmd (c : Cmd) (k : Prog α)

/-- Sequencing: `p` and then `f` on what `p` returns. -/
def Prog.bind {α β : Type} : Prog α → (α → Prog β) → Prog β
  | .ret a, f => f a
  | .fail e, _ => .fail e
  | .lock_type k, f => .lock_type (fun x => (k x).bind f)
  | .fuel k, f => .fuel (fun x => (k x).bind f)
  | .deref p k, f => .deref p (fun x => (k x).bind f)
  | .root k, f => .root (fun x => (k x).bind f)
  | .malloc_element v k, f => .malloc_element v (fun x => (k x).bind f)
  | .cmd c k, f => .cmd c (k.bind f)

/-- The next step of the code `p` on the shared memory `w`: the memory after the step
and the code that is left. -/
def Prog.step {α : Type} : Prog α → World → Except Fault (World × Prog α)
  | .ret a, w => .ok (w, .ret a)
  | .fail e, _ => .error e
  | .lock_type k, w => (k w.tree.lock_type).step w
  | .fuel k, w => (k w.brk).step w
  | .deref p k, w => do
    let n ← CBinary.deref w p
    pure (w, k n)
  | .root k, w => .ok (w, k w.tree.root)
  | .malloc_element v k, w =>
    .ok ((CBinary.malloc_element w v).1, k (CBinary.malloc_element w v).2)
  | .cmd c k, w => do
    let w ← c.exec w
    pure (w, k)

/-- The code `p` has returned: no step is left. -/
def Prog.returned {α : Type} : Prog α → World → Bool
  | .ret _, _ => true
  | .lock_type k, w => (k w.tree.lock_type).returned w
  | .fuel k, w => (k w.brk).returned w
  | _, _ => false

/-- The next step of `p` is a call that waits: `lock` of a mutex that is held,
`pthread_rwlock_wrlock` of a lock that is held in either mode, `pthread_rwlock_rdlock`
of a lock that is held for writing. -/
def Prog.blocked {α : Type} : Prog α → World → Bool
  | .lock_type k, w => (k w.tree.lock_type).blocked w
  | .fuel k, w => (k w.brk).blocked w
  | .cmd (.lock .tree) _, w => decide (w.tree.m_lock = some true)
  | .cmd (.lock (.node (some a))) _, w =>
    (match w.mem a with
     | some n => decide (n.lock = some true)
     | none => false)
  | .cmd .wrlock _, w => decide (w.tree.rw_lock ≠ .free)
  | .cmd .rdlock _, w => decide (w.tree.rw_lock = .writer)
  | _, _ => false

/-- The code `p` run to its end by one thread alone. -/
def Prog.run {α : Type} : Prog α → World → Except Fault (World × α)
  | .ret a, w => .ok (w, a)
  | .fail e, _ => .error e
  | .lock_type k, w => (k w.tree.lock_type).run w
  | .fuel k, w => (k w.brk).run w
  | .deref p k, w => do
    let n ← CBinary.deref w p
    (k n).run w
  | .root k, w => (k w.tree.root).run w
  | .malloc_element v k, w =>
    (k (CBinary.malloc_element w v).2).run (CBinary.malloc_element w v).1
  | .cmd c k, w => do
    let w ← c.exec w
    k.run w

/-- Entry block of a writer: `if (lock_type == COARSE_LOCK) lock(&tree->m_lock);
if (lock_type == RW_LOCK) pthread_rwlock_wrlock(&tree->rw_lock);`. -/
def tree_lock_wr : Prog Unit :=
  .lock_type fun lt =>
    (if lt = COARSE_LOCK then Prog.cmd (.lock .tree) (.ret ()) else .ret ()).bind fun _ =>
  .lock_type fun lt =>
    (if lt = RW_LOCK then Prog.cmd .wrlock (.ret ()) else .ret ())

/-- Entry block of a reader. -/
def tree_lock_rd : Prog Unit :=
  .lock_type fun lt =>
    (if lt = COARSE_LOCK then Prog.cmd (.lock .tree) (.ret ()) else .ret ()).bind fun _ =>
  .lock_type fun lt =>
    (if lt = RW_LOCK then Prog.cmd .rdlock (.ret ()) else .ret ())

/-- Exit block: `if (lock_type == COARSE_LOCK) unlock(&tree->m_lock);
if (lock_type == RW_LOCK) pthread_rwlock_unlock(&tree->rw_lock);`. -/
def tree_unlock : Prog Unit :=
  .lock_type fun lt =>
    (if lt = COARSE_LOCK then Prog.cmd (.unlock .tree) (.ret ()) else .ret ()).bind fun _ =>
  .lock_type fun lt =>
    (if lt = RW_LOCK then Prog.cmd .rw_unlock (.ret ()) else .ret ())

/-- The `while (curr != NULL)` loop of `Node_Insert`; the result is the final `prev`. -/
def Node_Insert_loop : Nat → Ptr → Ptr → Ptr → Prog Ptr
  | 0, _, _, _ => .fail .no_fuel
  | fuel + 1, curr, prev, element =>
    match curr with
    | none => .ret prev
    | some _ =>
      .deref curr fun c =>
      .deref element fun e =>
        if c.value > e.value then Node_Insert_loop fuel c.left curr element
        else Node_Insert_loop fuel c.right curr element

/-- The function `Node_Insert(node, element)`. -/
def Node_Insert (node element : Ptr) : Prog Unit :=
  .fuel fun b =>
  (Node_Insert_loop (b + 1) node node element).bind fun prev =>
  .cmd (.set_parent element prev) <|
  .deref prev fun p =>
  .deref element fun e =>
    if p.value > e.value then .cmd (.set_left prev element) (.ret ())
    else .cmd (.set_right prev element) (.ret ())

/-- What `local_tree_insert` does between taking and releasing the tree lock. -/
def insert_body (value : Int) : Prog Unit :=
  .malloc_element value fun element =>
  .root fun r =>
    if r = none then .cmd (.set_root element) (.ret ())
    else .root fun r => Node_Insert r element

/-- The function `local_tree_insert`. -/
def local_tree_insert (value : Int) : Prog Unit :=
  tree_lock_wr.bind fun _ => (insert_body value).bind fun _ => tree_unlock

/-- The loop `while (curr != NULL && curr->value != value)` of `local_tree_delete` and
of `local_tree_lookup`; the result is the final `curr`. -/
def search_loop : Nat → Ptr → Int → Prog Ptr
  | 0, _, _ => .fail .no_fuel
  | fuel + 1, curr, value =>
    match curr with
    | none => .ret none
    | some _ =>
      .deref curr fun c =>
        if c.value ≠ value then
          (if c.value > value then search_loop fuel c.left value
           else search_loop fuel c.right value)
        else .ret curr

/-- The branch `if (curr == tree->root)` of `local_tree_delete`. -/
def local_tree_delete_root (curr : Ptr) : Prog Unit :=
  .deref curr fun c =>
  (if c.left ≠ none then
    Prog.cmd (.set_root c.left) <|
    .deref curr fun d =>
    .root fun r =>
    .cmd (.set_parent d.left r) <|
      (if c.right ≠ none then .root fun r => Node_Insert r c.right else .ret ())
   else Prog.cmd (.set_root c.right) (.ret ())).bind fun _ =>
  .root fun r =>
  (if r ≠ none then Prog.root fun r => Prog.cmd (.set_parent r none) (.ret ())
   else .ret ()).bind fun _ =>
  .cmd (.free curr) (.ret ())

/-- The `else` branch (the match is not the root) of `local_tree_delete`. -/
def local_tree_delete_inner (curr : Ptr) : Prog Unit :=
  .deref curr fun c =>
  .deref c.parent fun p =>
  (if p.left = curr then
    Prog.cmd (.set_left c.parent c.left) <|
    .deref curr fun d =>
    (if d.left ≠ none then Prog.cmd (.set_parent d.left d.parent) (.ret ())
     else .ret ()).bind fun _ =>
    .deref curr fun e =>
      (if c.right ≠ none then Node_Insert e.parent c.right else .ret ())
   else
    Prog.cmd (.set_right c.parent c.left) <|
    .deref curr fun d =>
    (if d.left ≠ none then Prog.cmd (.set_parent d.left d.parent) (.ret ())
     else .ret ()).bind fun _ =>
    .deref curr fun e =>
      (if c.right ≠ none then Node_Insert e.parent c.right else .ret ())).bind fun _ =>
  .cmd (.free curr) (.ret ())

/-- What `local_tree_delete` does between taking and releasing the tree lock. -/
def delete_body (value : Int) : Prog Unit :=
  .root fun r =>
    if r ≠ none then
      .root fun r =>
      .fuel fun b =>
      (search_loop (b + 1) r value).bind fun curr =>
        if curr ≠ none then
          .root fun r =>
            if curr = r then local_tree_delete_root curr
            else local_tree_delete_inner curr
        else .ret ()
    else .ret ()

/-- The function `local_tree_delete`. -/
def local_tree_delete (value : Int) : Prog Unit :=
  tree_lock_wr.bind fun _ => (delete_body value).bind fun _ => tree_unlock

/-- The function `local_tree_lookup`. -/
def local_tree_lookup (value : Int) : Prog Ptr :=
  tree_lock_rd.bind fun _ =>
  .root fun r =>
    if r = none then tree_unlock.bind fun _ => .ret none
    else
      .root fun r =>
      .fuel fun b =>
      (search_loop (b + 1) r value).bind fun curr =>
      tree_unlock.bind fun _ => .ret curr

/-- The function `local_tree_element_release`: its body is empty. -/
def local_tree_element_release (_element : Ptr) : Prog Unit :=
  .ret ()

/-- The tree calls of one iteration of the worker loop of `Thread_Func` on a tree whose
function pointers select the `local_tree_*` family: `Tree_Insert`, or `Tree_Delete`, or
`Tree_Lookup` followed by `Element_Release`. -/
def call : Op → Prog Unit
  | .insert value => local_tree_insert value
  | .delete value => local_tree_delete value
  | .lookup value =>
    (local_tree_lookup value).bind fun element =>
      if element ≠ none then local_tree_element_release element else .ret ()

/-- One worker thread of main.cpp: the calls it has still to make, the first of which
may be under way with the code `cur` left to run, and its counters. -/
structure Worker where
  work : List Op
  cur : Option (Prog Unit)
  k : Counters

/-- The shared memory and the workers. -/
structure State (n : Nat) where
  w : World
  thr : Fin n → Worker

/-- Worker `i` is given the processor for one step.  A worker with no call left, or
whose next step is a call that waits, does nothing; otherwise it takes the next step of
its call, and when the call has returned it counts the call as `Thread_Func` does. -/
def pick {n : Nat} (st : State n) (i : Fin n) : Except Fault (State n) :=
  match (st.thr i).work with
  | [] => .ok st
  | o :: rest =>
    if ((st.thr i).cur.getD (call o)).blocked st.w then .ok st
    else do
      let r ← ((st.thr i).cur.getD (call o)).step st.w
      (if r.2.returned r.1 then
        pure ⟨r.1, Function.update st.thr i ⟨rest, none, bump (st.thr i).k o⟩⟩
      else
        pure ⟨r.1, Function.update st.thr i ⟨o :: rest, some r.2, (st.thr i).k⟩⟩)

/-- A run of the workers under the schedule `sched`, the list of the workers in the
order in which they are given the processor. -/
def runs {n : Nat} : State n → List (Fin n) → Except Fault (State n)
  | st, [] => .ok st
  | st, i :: sched => do
    let st ← pick st i
    runs st sched

/-- The state in which `main` starts the workers: worker `i` has the calls `work i` to
make and its counters are zero. -/
def start {n : Nat} (w : World) (work : Fin n → List Op) : State n :=
  ⟨w, fun i => ⟨work i, none, ⟨0, 0, 0⟩⟩⟩

/-- No call is under way: every worker is between two calls of its loop, as when
`main` has joined the threads. -/
def State.joined {n : Nat} (st : State n) : Prop :=
  ∀ i, (st.thr i).cur = none

/-- The code makes no call of a locking primitive. -/
def Prog.Body {α : Type} : Prog α → Prop
  | .ret _ => True
  | .fail _ => True
  | .lock_type k => ∀ x, (k x).Body
  | .fuel k => ∀ x, (k x).Body
  | .deref _ k => ∀ x, (k x).Body
  | .root k => ∀ x, (k x).Body
  | .malloc_element _ k => ∀ x, (k x).Body
  | .cmd c k => c.is_lock = false ∧ k.Body

/-- On a tree whose `lock_type` is `lt` the code returns without a further step. -/
def Prog.Done (lt : Int) : Prog Unit → Prop
  | .ret _ => True
  | .lock_type k => (k lt).Done lt
  | .fuel k => ∀ x, (k x).Done lt
  | _ => False

/-- On a tree whose `lock_type` is `lt` the code is the rest of a critical section that
ends with the call `ex`: it has a step left, it makes no call of a locking primitive
before `ex`, and after `ex` it returns without a further step. -/
def Prog.Crit (lt : Int) (ex : Cmd) : Prog Unit → Prop
  | .ret _ => False
  | .fail _ => True
  | .lock_type k => (k lt).Crit lt ex
  | .fuel k => ∀ x, (k x).Crit lt ex
  | .deref _ k => ∀ x, (k x).Crit lt ex
  | .root k => ∀ x, (k x).Crit lt ex
  | .malloc_element _ k => ∀ x, (k x).Crit lt ex
  | .cmd c k => (c = ex ∧ k.Done lt) ∨ (c.is_lock = false ∧ k.Crit lt ex)

/-- The call with which a writer of strategy `s` takes the tree lock. -/
def entry_cmd : Strategy → Cmd
  | .ReadWrite => .wrlock
  | _ => .lock .tree

/-- The call with which strategy `s` releases the tree lock. -/
def exit_cmd : Strategy → Cmd
  | .ReadWrite => .rw_unlock
  | _ => .unlock .tree

/-- The tree lock of strategy `s` is held by a writer. -/
def Held (s : Strategy) (w : World) : Prop :=
  match s with
  | .ReadWrite => w.tree.rw_lock = .writer
  | _ => w.tree.m_lock = some true

/-- The code only reads: it makes no call of a locking primitive, writes nothing and
allocates nothing. -/
def Prog.Reads {α : Type} : Prog α → Prop
  | .ret _ => True
  | .fail _ => True
  | .lock_type k => ∀ x, (k x).Reads
  | .fuel k => ∀ x, (k x).Reads
  | .deref _ k => ∀ x, (k x).Reads
  | .root k => ∀ x, (k x).Reads
  | .malloc_element _ _ => False
  | .cmd _ _ => False

/-- On a tree whose `lock_type` is `lt` the code is the rest of a critical section of a
reader under the reader-writer lock: it has a step left, it only reads until it calls
`pthread_rwlock_unlock`, and after that call it returns without a further step. -/
def Prog.RCrit (lt : Int) : Prog Unit → Prop
  | .ret _ => False
  | .fail _ => True
  | .lock_type k => (k lt).RCrit lt
  | .fuel k => ∀ x, (k x).RCrit lt
  | .deref _ k => ∀ x, (k x).RCrit lt
  | .root k => ∀ x, (k x).RCrit lt
  | .malloc_element _ _ => False
  | .cmd c k => c = .rw_unlock ∧ k.Done lt

/-- The call is made under the reader-writer lock in shared mode: a lookup on a
ReadWrite tree. -/
def shared : Strategy → Op → Bool
  | .ReadWrite, .lookup _ => true
  | _, _ => false

/-- The call with which the operation `o` takes the tree lock of strategy `s`. -/
def entry_of : Strategy → Op → Cmd
  | .ReadWrite, .lookup _ => .rdlock
  | .ReadWrite, _ => .wrlock
  | _, _ => .lock .tree

/-- The two memories differ in the log of lock calls at most. -/
def LogEq (w ws : World) : Prop :=
  w.mem = ws.mem ∧ w.brk = ws.brk ∧ w.tree = ws.tree

/-- The two memories differ in the state of the reader-writer lock and in the log of
lock calls at most. -/
def HeapEq (w ws : World) : Prop :=
  w.mem = ws.mem ∧ w.brk = ws.brk ∧ w.tree.root = ws.tree.root ∧
    w.tree.lock_type = ws.tree.lock_type ∧ w.tree.m_lock = ws.tree.m_lock

/-- The code, run alone from the memory `w`, returns. -/
def RunsOk (p : Prog Unit) (w : World) : Prop :=
  ∃ w', p.run w = .ok (w', ())

/-- The number of calls under way. -/
def inside {n : Nat} (st : State n) : Nat :=
  Finset.univ.sum (fun j => if (st.thr j).cur.isSome then 1 else 0)

/-- The state `st` of a run of the workers is what the calls `calls`, made one whole
call after the other in this order, give: `calls` holds, for every worker, the calls it
has finished, in its own order; the counters are those of `calls`; and one of three:
no call is under way and the memory is that after `calls` up to the log; or one worker
holds the tree lock alone, the rest of its call is the rest of a critical section and,
run alone from here, ends in the memory after `calls` and this call; or the
reader-writer lock is held by the readers whose calls are under way, the nodes and the
root are those after `calls`, and each of these calls is a lookup whose rest only reads
and returns. -/
def Serial {n : Nat} (s : Strategy) (w0 : World) (work : Fin n → List Op) (st : State n)
    (calls : List (Fin n × Op)) : Prop :=
  ∃ ws t kf, Thread_Funcs (dispatch s) w0 (fun _ => ⟨0, 0, 0⟩) calls = .ok (ws, kf) ∧
    Inv s ws t ∧ (∀ i, (st.thr i).k = kf i) ∧
    (∀ i, (calls.filter (fun c => decide (c.1 = i))).map Prod.snd ++ (st.thr i).work =
      work i) ∧
    ((LogEq st.w ws ∧ ∀ i, (st.thr i).cur = none) ∨
     (∃ i p o rest w' ws', (st.thr i).cur = some p ∧ (st.thr i).work = o :: rest ∧
        shared s o = false ∧
        p.Crit s.code (exit_cmd s) ∧ p.run st.w = .ok (w', ()) ∧
        step (dispatch s) ws o = .ok ws' ∧ LogEq w' ws' ∧ Held s st.w ∧
        st.w.tree.lock_type = s.code ∧ ∀ j, j ≠ i → (st.thr j).cur = none) ∨
     (s = .ReadWrite ∧ HeapEq st.w ws ∧
        st.w.tree.rw_lock = .readers (inside st) ∧ 1 ≤ inside st ∧
        ∀ j p, (st.thr j).cur = some p →
          ∃ v rest, (st.thr j).work = .lookup v :: rest ∧ p.RCrit s.code ∧ RunsOk p st.w))

/-- What `Tree_Lookup` followed by `Element_Release` does after taking the tree
lock. -/
def lookup_rest (value : Int) : Prog Unit :=
  (Prog.root fun r =>
    if r = none then tree_unlock.bind fun _ => Prog.ret none
    else
      Prog.root fun r =>
      Prog.fuel fun b =>
      (search_loop (b + 1) r value).bind fun curr =>
      tree_unlock.bind fun _ => Prog.ret curr).bind fun element =>
    if element ≠ none then local_tree_element_release element else .ret ()

/-- The state in which worker `i` has the code `p` of its first call left. -/
def State.at {n : Nat} (st : State n) (i : Fin n) (p : Prog Unit) : State n :=
  ⟨st.w, Function.update st.thr i ⟨(st.thr i).work, some p, (st.thr i).k⟩⟩

end Par

end CBinary


/-! ## The models of mpisort.c, mandelbrot.cpp and mpi_mandelbrot.cpp -/

namespace MpiSort

/-- What stops a run of the model: an access outside an array, an `int` operation whose
result does not fit into an `int`, or a loop that used up its fuel. -/
inductive Fault where
  | out_of_bounds
  | overflow
  | no_fuel
deriving DecidableEq, Repr

/-- The read `a[i]` of an `int` array. -/
def rd (a : List Int) (i : Nat) : Except Fault Int :=
  match a[i]? with
  | some x => .ok x
  | none => .error .out_of_bounds

/-- The write `a[i] = x` into an `int` array. -/
def wr (a : List Int) (i : Nat) (x : Int) : Except Fault (List Int) :=
  if i < a.length then .ok (a.set i x) else .error .out_of_bounds

/-- The loop `while(aInd < aSize && bInd < bSize)` of `merge`; the result is `dest`,
`aInd`, `bInd` and `n` at the end of the loop. -/
def merge_loop (a : List Int) (aSize : Nat) (b : List Int) (bSize : Nat) :
    Nat → List Int → Nat → Nat → Nat → Except Fault (List Int × Nat × Nat × Nat)
  | 0, _, _, _, _ => .error .no_fuel
  | fuel + 1, dest, aInd, bInd, n =>
    if aInd < aSize ∧ bInd < bSize then do
      let x ← rd a aInd
      let y ← rd b bInd
      if x ≤ y then do
        let dest ← wr dest n x
        merge_loop a aSize b bSize fuel dest (aInd + 1) bInd (n + 1)
      else do
        let dest ← wr dest n y
        merge_loop a aSize b bSize fuel dest aInd (bInd + 1) (n + 1)
    else pure (dest, aInd, bInd, n)

/-- The loops `while(aInd < aSize)` and `while(bInd < bSize)` of `merge`, which copy
what remains of one array; the result is `dest`, the index and `n` at the end. -/
def merge_rest (src : List Int) (size : Nat) :
    Nat → List Int → Nat → Nat → Except Fault (List Int × Nat × Nat)
  | 0, _, _, _ => .error .no_fuel
  | fuel + 1, dest, ind, n =>
    if ind < size then do
      let x ← rd src ind
      let dest ← wr dest n x
      merge_rest src size fuel dest (ind + 1) (n + 1)
    else pure (dest, ind, n)

/-- The function `merge(dest, a, aSize, b, bSize)`; the result is `dest` and the final
value of `n`, the number of elements written. -/
def merge (dest a : List Int) (aSize : Nat) (b : List Int) (bSize : Nat) :
    Except Fault (List Int × Nat) := do
  let r ← merge_loop a aSize b bSize (aSize + bSize + 1) dest 0 0 0
  let ra ← merge_rest a aSize (aSize + 1) r.1 r.2.1 r.2.2.2
  let rb ← merge_rest b bSize (bSize + 1) ra.1 r.2.2.1 ra.2.2
  pure (rb.1, rb.2.2)

/-- The value of an `int` operation whose exact result is `x`.  A result outside the
range of a 32-bit `int` is a signed overflow, which is undefined behaviour in C: the
run stops with the fault `overflow`. -/
def int_result (x : Int) : Except Fault Int :=
  if -2147483648 ≤ x ∧ x ≤ 2147483647 then .ok x else .error .overflow

/-- The loop of `raise_number`: `while (power != 0) { value = value * base; power--; }`. -/
def raise_number_loop (base : Int) : Nat → Int → Except Fault Int
  | 0, value => .ok value
  | power + 1, value => do
    let value ← int_result (value * base)
    raise_number_loop base power value

/-- `raise_number(power, base)` for a non-negative `power`. -/
def raise_number (power : Nat) (base : Int) : Except Fault Int :=
  raise_number_loop base power 1

/-- The `while (currPart < worldSize)` loop of `SendOrRecv`.  The state is `currPart`,
`recvr`, `prev` and the cell `*partner`; the result is the return code together with the
final value of `*partner`.  With `recvr == 1` the C text computes `currPart + jump`
twice, in the test for "no partner" and in the assignment to `*partner`; the two
results are the same and the model computes the sum once. -/
def SendOrRecv_loop (worldSize rank jump : Int) :
    Nat → Int → Int → Int → Int → Except Fault (Int × Int)
  | 0, _, _, _, _ => .error .no_fuel
  | fuel + 1, currPart, recvr, prev, partner =>
    if currPart < worldSize then
      if currPart = rank then
        if recvr = 1 then do
          let sum ← int_result (currPart + jump)
          (if sum ≥ worldSize then .ok (0, prev) else .ok (2, sum))
        else if recvr = 0 then .ok (1, prev)
        else do
          let next ← int_result (currPart + jump)
          SendOrRecv_loop worldSize rank jump fuel next (if recvr = 1 then 0 else 1)
            currPart prev
      else do
        let next ← int_result (currPart + jump)
        SendOrRecv_loop worldSize rank jump fuel next (if recvr = 1 then 0 else 1)
          currPart partner
    else .ok (-1, partner)

/-- `SendOrRecv(worldSize, rank, iter, &partner)`: the return code and the value of
`*partner` afterwards, `partner` being its value before the call. -/
def SendOrRecv (worldSize rank : Int) (iter : Nat) (partner : Int) :
    Except Fault (Int × Int) := do
  let jump ← raise_number iter 2
  (if jump ≥ worldSize then .ok (3, partner)
   else SendOrRecv_loop worldSize rank jump (worldSize.toNat + 1) 0 1 0 partner)

/-- The read `a[i]` of an array of any element type. -/
def get_at {α : Type} (a : List α) (i : Nat) : Except Fault α :=
  match a[i]? with
  | some x => .ok x
  | none => .error .out_of_bounds

/-- The write `a[i] = x` into an array of any element type. -/
def set_at {α : Type} (a : List α) (i : Nat) (x : α) : Except Fault (List α) :=
  if i < a.length then .ok (a.set i x) else .error .out_of_bounds

/-- The C library's `qsort` called with `cmpfunc`: the array in non-decreasing order. -/
def qsort (xs : List Int) : List Int :=
  xs.insertionSort (fun x y => x ≤ y)

/-- The loops that pick the representatives, `localReps[i] = src[increment * (i + 1)]`
for `i < numParts`. -/
def pick_reps (src : List Int) (increment numParts : Nat) : Except Fault (List Int) :=
  (List.range numParts).mapM (fun i => rd src (increment * (i + 1)))

/-- The loop `for(int i = 0; i < localSize;)` of `hypersort` that splits the local data
into partitions.  `partitions[k]` is `none` for `NULL` and `some s` for
`&localData[s]`; the result is `partitions` and `partSize` at the end of the loop. -/
def partition_loop (localData localReps : List Int) (localSize worldSize : Nat) :
    Nat → Nat → Nat → List (Option Nat) → List Nat →
      Except Fault (List (Option Nat) × List Nat)
  | 0, _, _, _, _ => .error .no_fuel
  | fuel + 1, i, currRep, partitions, partSize =>
    if i < localSize then
      if currRep + 1 ≠ worldSize then do
        let rep ← rd localReps currRep
        let x ← rd localData i
        if rep < x ∨ i + 1 = localSize then do
          let partitions ← set_at partitions (currRep + 1) (some i)
          partition_loop localData localReps localSize worldSize fuel i (currRep + 1)
            partitions partSize
        else do
          let n ← get_at partSize currRep
          let partSize ← set_at partSize currRep (n + 1)
          partition_loop localData localReps localSize worldSize fuel (i + 1) currRep
            partitions partSize
      else do
        let n ← get_at partSize currRep
        let partSize ← set_at partSize currRep (n + 1)
        partition_loop localData localReps localSize worldSize fuel (i + 1) currRep
          partitions partSize
    else pure (partitions, partSize)

/-- Lines 135 to 167 of `hypersort`: the arrays `partitions` and `partSize` are set up
and the local data is split. -/
def hypersort_split (localData : List Int) (localSize : Nat) (localReps : List Int)
    (worldSize : Nat) : Except Fault (List (Option Nat) × List Nat) := do
  let partitions ← set_at (List.replicate worldSize (none : Option Nat)) 0 (some 0)
  partition_loop localData localReps localSize worldSize (localSize + worldSize + 1) 0 0
    partitions (List.replicate worldSize 0)

/-- The elements `*(partitions[k] + j)` for `j < partSize[k]`. -/
def partition_elems (localData : List Int) (split : List (Option Nat) × List Nat)
    (k : Nat) : Except Fault (List Int) := do
  let n ← get_at split.2 k
  let p ← get_at split.1 k
  match p with
  | some s =>
    if s + n ≤ localData.length then pure ((localData.drop s).take n)
    else .error .out_of_bounds
  | none => if n = 0 then pure [] else .error .out_of_bounds

/-- The bucket that rank `i` holds after the exchange: its own partition `i`, merged in
turn with partition `i` of every other rank `j`, in the order of `j`. -/
def gather_bucket (parts : List (List (List Int))) (i : Nat) :
    List Nat → List Int → Except Fault (List Int)
  | [], localPartitions => pure localPartitions
  | j :: js, localPartitions =>
    if j ≠ i then do
      let ps ← get_at parts j
      let recvBucket ← get_at ps i
      let r ← merge (List.replicate (localPartitions.length + recvBucket.length) 0)
        localPartitions localPartitions.length recvBucket recvBucket.length
      gather_bucket parts i js r.1
    else gather_bucket parts i js localPartitions

/-- The run of `hypersort` on `worldSize` ranks, rank by rank: scatter and local sort,
choice of the representatives, split of each rank's data, exchange of the partitions
and the final gather on rank 0.  The result is `data` as rank 0 has it at the end. -/
def hypersort (data : List Int) (size worldSize : Nat) : Except Fault (List Int) := do
  let localSize := size / worldSize
  let numParts := worldSize - 1
  let locals := (List.range worldSize).map
    (fun r => qsort ((data.drop (r * localSize)).take localSize))
  let localReps ← locals.mapM (fun l => pick_reps l (localSize / worldSize) numParts)
  let allReps := qsort localReps.flatten
  let reps ← pick_reps allReps (numParts * worldSize / worldSize) numParts
  let parts ← locals.mapM (fun l => do
    let split ← hypersort_split l localSize reps worldSize
    (List.range worldSize).mapM (fun k => partition_elems l split k))
  let buckets ← (List.range worldSize).mapM (fun i => do
    let ps ← get_at parts i
    let own ← get_at ps i
    gather_bucket parts i (List.range worldSize) own)
  pure (buckets.flatten.take size)

/-- The validation of the data order in `main`: the number of positions whose value is
below the value before it. -/
def validate (data : List Int) : Except Fault Nat := do
  let current ← rd data 0
  pure (data.foldl (fun (s : Int × Nat) x => (x, if x < s.1 then s.2 + 1 else s.2))
    (current, 0)).2

/-- What a rank does in one iteration of the loop of `mergesort`, apart from waiting:
it sends its data to a partner, it receives and merges the data of a partner, or it
runs the final step that copies the collated data. -/
inductive Step where
  | send (partner : Int)
  | recv (partner : Int)
  | final
deriving DecidableEq, Repr

/-- The loop `while(res != 3)` of `mergesort` as far as control goes: the state is
`iter`, the cell `partner` and the steps taken so far; the data is left out.  A sender
sets `res = 3` and so leaves the loop without the final step. -/
def mergesort_loop (worldSize worldRank : Int) :
    Nat → Nat → Int → List Step → Except Fault (List Step)
  | 0, _, _, _ => .error .no_fuel
  | fuel + 1, iter, partner, steps => do
    let r ← SendOrRecv worldSize worldRank iter partner
    if r.1 = 0 then mergesort_loop worldSize worldRank fuel (iter + 1) r.2 steps
    else if r.1 = 1 then .ok (steps ++ [Step.send r.2])
    else if r.1 = 2 then
      mergesort_loop worldSize worldRank fuel (iter + 1) r.2 (steps ++ [Step.recv r.2])
    else if r.1 = 3 then .ok (steps ++ [Step.final])
    else mergesort_loop worldSize worldRank fuel (iter + 1) r.2 steps

/-- The steps that the rank `worldRank` takes in `mergesort`, which starts with
`partner = -1` and `iter = 0`. -/
def mergesort_steps (worldSize worldRank : Int) : Except Fault (List Step) :=
  mergesort_loop worldSize worldRank (worldSize.toNat + 1) 0 (-1) []

end MpiSort

namespace Mandelbrot

/-- What stops a run of the model: a division by zero, or a loop that used up its
fuel. -/
inductive Fault where
  | div_by_zero
  | no_fuel
deriving DecidableEq, Repr

/-- The value of a 32-bit `int` computation: the result in two's complement, as the
compiled program computes it. -/
def wrap32 (x : Int) : Int :=
  (x + 2 ^ 31) % 2 ^ 32 - 2 ^ 31

/-- The function `ColorizeScaled(value, max_value)`:
`value = value*255/max_value*8; if (value > 255) value = 255; return value;`
in 32-bit `int` arithmetic, `/` truncating towards zero. -/
def ColorizeScaled (value max_value : Int) : Except Fault Int :=
  if max_value = 0 then .error .div_by_zero
  else
    let value := wrap32 (wrap32 (Int.tdiv (wrap32 (value * 255)) max_value) * 8)
    .ok (if value > 255 then 255 else value)

/-- The inner loop `for (int col=args->sectionIndex; col < args->cols;)` of
`SplitWorkSolve` in the row `row`: the calls `Set_Pixel(row, col, value)` it makes are
appended to `calls`, and `col += args->num_threads` is 32-bit `int` arithmetic.
`value row col` stands for the colour computed for the pixel. -/
def SplitWorkSolve_cols (value : Int → Int → Int) (cols num_threads row : Int) :
    Nat → Int → List (Int × Int × Int) → Except Fault (List (Int × Int × Int))
  | 0, _, _ => .error .no_fuel
  | fuel + 1, col, calls =>
    if col < cols then
      SplitWorkSolve_cols value cols num_threads row fuel (wrap32 (col + num_threads))
        (calls ++ [(row, col, value row col)])
    else .ok calls

/-- The outer loop `for (int row=0; row<args->rows; row++)` of `SplitWorkSolve`.  The
inner loop gets the fuel `2^32 + 1`: `col` is its whole state and has `2^32` values, so
an inner loop that ends does so within that many iterations. -/
def SplitWorkSolve_rows (value : Int → Int → Int) (rows cols num_threads sectionIndex : Int) :
    Nat → Int → List (Int × Int × Int) → Except Fault (List (Int × Int × Int))
  | 0, _, _ => .error .no_fuel
  | fuel + 1, row, calls =>
    if row < rows then do
      let calls ← SplitWorkSolve_cols value cols num_threads row 4294967297 sectionIndex calls
      SplitWorkSolve_rows value rows cols num_threads sectionIndex fuel (wrap32 (row + 1)) calls
    else .ok calls

/-- The function `SplitWorkSolve` run by the thread whose `sectionIndex` is given: the
list of the calls `Set_Pixel(row, col, value)` it makes, in order. -/
def SplitWorkSolve (value : Int → Int → Int) (rows cols num_threads sectionIndex : Int) :
    Except Fault (List (Int × Int × Int)) :=
  SplitWorkSolve_rows value rows cols num_threads sectionIndex (rows.toNat + 1) 0 []

/-- The columns the thread `k` sets in every row: those of `[c0, cols)` that are
congruent to `k`. -/
def stride_cols (cols num_threads k c0 : Nat) : List Nat :=
  (List.range' c0 (cols - c0)).filter (fun c => decide (c % num_threads = k))

/-- The calls `Set_Pixel` of one row, for the columns `cs`. -/
def row_calls (value : Int → Int → Int) (cs : List Nat) (row : Nat) :
    List (Int × Int × Int) :=
  cs.map (fun (col : Nat) => ((row : Int), (col : Int), value row col))

end Mandelbrot

namespace MpiMandelbrot

/-- What stops a run of the model: a division by zero, a write outside the allocated
array, or a loop that used up its fuel. -/
inductive Fault where
  | div_by_zero
  | out_of_bounds
  | no_fuel
deriving DecidableEq, Repr

/-- The value of a 32-bit `int` computation: the result in two's complement, as the
compiled program computes it. -/
def wrap32 (x : Int) : Int :=
  (x + 2 ^ 31) % 2 ^ 32 - 2 ^ 31

/-- The function `ColorizeScaled(value, max_value)` of `mpi_mandelbrot.cpp`, the same
text as in `mandelbrot.cpp`. -/
def ColorizeScaled (value max_value : Int) : Except Fault Int :=
  if max_value = 0 then .error .div_by_zero
  else
    let value := wrap32 (wrap32 (Int.tdiv (wrap32 (value * 255)) max_value) * 8)
    .ok (if value > 255 then 255 else value)

/-- The record `pixelInfo_t`. -/
structure pixelInfo_t where
  row : Nat
  col : Nat
  value : Int
deriving DecidableEq, Repr, Inhabited

/-- The number `numPixelsToCalc` that `main` computes for the process `world_rank`:
`totalPixels / world_size`, plus one if `(totalPixels % world_size) >= world_rank`. -/
def numPixelsToCalc (totalPixels world_size world_rank : Nat) : Nat :=
  if totalPixels % world_size ≥ world_rank then totalPixels / world_size + 1
  else totalPixels / world_size

/-- The write `info[currPixel] = x` into the array of records. -/
def set_info (info : List pixelInfo_t) (currPixel : Nat) (x : pixelInfo_t) :
    Except Fault (List pixelInfo_t) :=
  if currPixel < info.length then .ok (info.set currPixel x) else .error .out_of_bounds

/-- The inner loop `for (int col=rank; col < args->cols;)` of `ComputePiece` in the row
`row`; the state is `info` and `currPixel`.  `value row col` stands for the colour
computed for the pixel. -/
def ComputePiece_cols (value : Nat → Nat → Int) (numProcs cols row : Nat) :
    Nat → Nat → List pixelInfo_t → Nat → Except Fault (List pixelInfo_t × Nat)
  | 0, _, _, _ => .error .no_fuel
  | fuel + 1, col, info, currPixel =>
    if col < cols then do
      let info ← set_info info currPixel ⟨row, col, value row col⟩
      ComputePiece_cols value numProcs cols row fuel (col + numProcs) info (currPixel + 1)
    else .ok (info, currPixel)

/-- The outer loop `for (int row=0; row<args->rows; row++)` of `ComputePiece`. -/
def ComputePiece_rows (value : Nat → Nat → Int) (rank numProcs rows cols : Nat) :
    Nat → Nat → List pixelInfo_t → Nat → Except Fault (List pixelInfo_t × Nat)
  | 0, _, _, _ => .error .no_fuel
  | fuel + 1, row, info, currPixel =>
    if row < rows then do
      let r ← ComputePiece_cols value numProcs cols row (cols + 1) rank info currPixel
      ComputePiece_rows value rank numProcs rows cols fuel (row + 1) r.1 r.2
    else .ok (info, currPixel)

/-- The function `ComputePiece(rank, numProcs, info, args)`: the array `info` and the
number `currPixel` of records written, at the end. -/
def ComputePiece (value : Nat → Nat → Int) (rank numProcs : Nat) (info : List pixelInfo_t)
    (rows cols : Nat) : Except Fault (List pixelInfo_t × Nat) :=
  ComputePiece_rows value rank numProcs rows cols (rows + 1) 0 info 0

/-- Lines 143 to 155 of `main`: the array of `numPixelsToCalc` records is allocated and
`ComputePiece` fills it. -/
def main_compute (value : Nat → Nat → Int) (rows cols world_size world_rank : Nat) :
    Except Fault (List pixelInfo_t × Nat) :=
  ComputePiece value world_rank world_size
    (List.replicate (numPixelsToCalc (rows * cols) world_size world_rank) default) rows cols

/-- The number `numPixelsToCalc` that the loop of `GatherResults` computes for the
process `i`: `totalPixels / i`, plus one if `(totalPixels % numProcs) >= i`. -/
def GatherResults_numPixelsToCalc (numProcs totalPixels i : Nat) : Nat :=
  if totalPixels % numProcs ≥ i then totalPixels / i + 1 else totalPixels / i

/-- The loop `for(int i = 1; i < numProcs; i++)` of `GatherResults`: for every process
`i` it receives from, the number of records it allocates, receives and reads. -/
def GatherResults (numProcs totalPixels : Nat) : List (Nat × Nat) :=
  (List.range' 1 (numProcs - 1)).map
    (fun i => (i, GatherResults_numPixelsToCalc numProcs totalPixels i))

end MpiMandelbrot


/-! ## Theorems -/

namespace CBinary

@[simp]
theorem ok_bind {α β : Type} (x : α) (f : α → Except Fault β) :
    (Except.ok x >>= f) = f x := rfl

@[simp]
theorem error_bind {α β : Type} (e : Fault) (f : α → Except Fault β) :
    (Except.error e >>= f) = Except.error e := rfl

@[simp]
theorem pure_eq_ok {α : Type} (x : α) : (pure x : Except Fault α) = Except.ok x := rfl

theorem deref_some {w : World} {a : Nat} {n : i_element_t} (h : w.mem a = some n) :
    deref w (some a) = .ok n := by
  simp [deref, h]

theorem Rep.frame {m m' : Nat → Option i_element_t} {t : T} {par : Ptr}
    (h : Rep m t par) (hf : ∀ a ∈ t.addrs, m' a = m a) : Rep m' t par := by
  induction t generalizing par with
  | nil => trivial
  | node a l v r ihl ihr =>
    obtain ⟨n, hn, hv, hl, hr, hp, hL, hR⟩ := h
    refine ⟨n, ?_, hv, hl, hr, hp, ihl hL ?_, ihr hR ?_⟩
    · rw [hf a (by simp [T.addrs])]; exact hn
    · intro x hx; exact hf x (by simp [T.addrs, hx])
    · intro x hx; exact hf x (by simp [T.addrs, hx])

theorem T.root_mem_addrs {t : T} {a : Nat} (h : t.root = some a) : a ∈ t.addrs := by
  cases t with
  | nil => simp [T.root] at h
  | node b l v r => simp [T.root] at h; simp [T.addrs, h]

theorem T.height_le_length (t : T) : t.height ≤ t.addrs.length := by
  induction t with
  | nil => simp [T.height, T.addrs]
  | node a l v r ihl ihr => simp [T.height, T.addrs]; omega

theorem length_le_of_lt {l : List Nat} {n : Nat} (hd : l.Nodup) (hb : ∀ a ∈ l, a < n) :
    l.length ≤ n := by
  have hs : l ⊆ List.range n := fun a ha => List.mem_range.mpr (hb a ha)
  have := (hd.subperm hs).length_le
  simpa using this

theorem search_loop_eq {w : World} {v : Int} :
    ∀ (t : T) (par : Ptr) (fuel : Nat), Rep w.mem t par → t.height < fuel →
      search_loop fuel w t.root v = .ok (t.find v) := by
  intro t
  induction t with
  | nil =>
    intro par fuel _ hf
    cases fuel with
    | zero => omega
    | succ f => simp [search_loop, T.root, T.find]
  | node a l x r ihl ihr =>
    intro par fuel h hf
    obtain ⟨n, hn, hv, hl, hr, hp, hL, hR⟩ := h
    cases fuel with
    | zero => omega
    | succ f =>
      simp only [T.height] at hf
      simp only [search_loop, T.root, deref_some hn, ok_bind, hv, T.find]
      by_cases hx : x = v
      · simp [hx]
      · simp only [hx, ne_eq, not_false_eq_true, if_true]
        by_cases hg : x > v
        · simp only [hg, if_true, hl]; exact ihl _ _ hL (by omega)
        · simp only [hg, if_false, hr]; exact ihr _ _ hR (by omega)

theorem T.slot_mem (ev : Int) : ∀ (t : T) (prev : Ptr), t ≠ .nil →
    ∃ sp, T.slot ev t prev = some sp ∧ sp ∈ t.addrs := by
  intro t
  induction t with
  | nil => intro _ h; exact absurd rfl h
  | node a l v r ihl ihr =>
    intro prev _
    simp only [T.slot]
    by_cases hg : v > ev
    · simp only [hg, if_true]
      by_cases hl : l = .nil
      · subst hl; exact ⟨a, rfl, by simp [T.addrs]⟩
      · obtain ⟨sp, h1, h2⟩ := ihl (some a) hl
        exact ⟨sp, h1, by simp [T.addrs, h2]⟩
    · simp only [hg, if_false]
      by_cases hr : r = .nil
      · subst hr; exact ⟨a, rfl, by simp [T.addrs]⟩
      · obtain ⟨sp, h1, h2⟩ := ihr (some a) hr
        exact ⟨sp, h1, by simp [T.addrs, h2]⟩

theorem Node_Insert_loop_eq {w : World} {e : Nat} {ne : i_element_t} (he : w.mem e = some ne) :
    ∀ (t : T) (par prev : Ptr) (fuel : Nat), Rep w.mem t par → t.height < fuel →
      Node_Insert_loop fuel w t.root prev (some e) = .ok (T.slot ne.value t prev) := by
  intro t
  induction t with
  | nil =>
    intro par prev fuel _ hf
    cases fuel with
    | zero => omega
    | succ f => simp [Node_Insert_loop, T.root, T.slot]
  | node a l x r ihl ihr =>
    intro par prev fuel h hf
    obtain ⟨n, hn, hv, hl, hr, hp, hL, hR⟩ := h
    cases fuel with
    | zero => omega
    | succ f =>
      simp only [T.height] at hf
      simp only [Node_Insert_loop, T.root, deref_some hn, deref_some he, ok_bind, hv, T.slot]
      by_cases hg : x > ne.value
      · simp only [hg, if_true, hl]; exact ihl _ _ _ hL (by omega)
      · simp only [hg, if_false, hr]; exact ihr _ _ _ hR (by omega)

theorem Rep.get {m : Nat → Option i_element_t} {t : T} {par : Ptr} (h : Rep m t par)
    {a : Nat} (ha : a ∈ t.addrs) : ∃ n, m a = some n := by
  induction t generalizing par with
  | nil => simp [T.addrs] at ha
  | node b l v r ihl ihr =>
    obtain ⟨n, hn, _, _, _, _, hL, hR⟩ := h
    simp only [T.addrs, List.mem_append, List.mem_cons] at ha
    rcases ha with ha | rfl | ha
    · exact ihl hL ha
    · exact ⟨n, hn⟩
    · exact ihr hR ha

theorem Node_Insert_eq {w : World} {e : Nat} {η : i_element_t} (he : w.mem e = some η)
    {t : T} {ρ : Ptr} (hrep : Rep w.mem t ρ) (hne : t ≠ .nil) (hh : t.height ≤ w.brk)
    {ζ : Nat} (hsp : T.slot η.value t t.root = some ζ) :
    Node_Insert w t.root (some e) = .ok { w with mem := attach w.mem e ζ } := by
  have hloop := Node_Insert_loop_eq he t ρ t.root (w.brk + 1) hrep (by omega)
  obtain ⟨sp', hsp', hmem⟩ := T.slot_mem η.value t t.root hne
  rw [hsp] at hsp'
  cases hsp'
  obtain ⟨np, hnp⟩ := hrep.get hmem
  have h1 : ∃ p, Function.update w.mem e (some { η with parent := some ζ }) ζ = some p := by
    by_cases hse : ζ = e
    · subst hse; simp
    · simp [Function.update, hse, hnp]
  obtain ⟨p, hp⟩ := h1
  simp only [Node_Insert, hloop, hsp, ok_bind, set_parent, he, World.put, deref, hp,
    Function.update_same, attach, Option.map_some', Option.some_bind]
  by_cases hg : p.value > η.value
  · simp [hg, set_left, hp, World.put]
  · simp [hg, set_right, hp, World.put]

theorem attach_frame {m : Nat → Option i_element_t} {e sp x : Nat} (h1 : x ≠ e) (h2 : x ≠ sp) :
    attach m e sp x = m x := by
  simp [attach, Function.update, h1, h2]

theorem attach_elem {m : Nat → Option i_element_t} {e sp : Nat} {ne : i_element_t}
    (he : m e = some ne) (hne : sp ≠ e) :
    attach m e sp e = some { ne with parent := some sp } := by
  simp [attach, Function.update, hne.symm, he]

theorem attach_slot {m : Nat → Option i_element_t} {e sp : Nat} {ne np : i_element_t}
    (he : m e = some ne) (hp : m sp = some np) (hne : sp ≠ e) :
    attach m e sp sp =
      some (if np.value > ne.value then { np with left := some e }
            else { np with right := some e }) := by
  simp [attach, Function.update, hne, he, hp]

theorem T.nodup_node {a : Nat} {l r : T} {v : Int} :
    (T.node a l v r).addrs.Nodup ↔
      l.addrs.Nodup ∧ r.addrs.Nodup ∧ a ∉ l.addrs ∧ a ∉ r.addrs ∧ ∀ x ∈ l.addrs, x ∉ r.addrs := by
  simp only [T.addrs, List.nodup_append, List.nodup_cons, List.Disjoint, List.mem_cons]
  constructor
  · rintro ⟨h1, ⟨h2, h3⟩, h4⟩
    exact ⟨h1, h3, fun h => h4 h (Or.inl rfl), h2, fun x hx hr => h4 hx (Or.inr hr)⟩
  · rintro ⟨h1, h2, h3, h4, h5⟩
    refine ⟨h1, ⟨h4, h2⟩, ?_⟩
    intro x hx hr
    rcases hr with rfl | hr
    · exact h3 hx
    · exact h5 x hx hr

theorem T.mem_addrs_node {a x : Nat} {l r : T} {v : Int} :
    x ∈ (T.node a l v r).addrs ↔ x ∈ l.addrs ∨ x = a ∨ x ∈ r.addrs := by
  simp [T.addrs]

theorem T.graft_root (s : T) (ev : Int) {t : T} (h : t ≠ .nil) :
    (T.graft s ev t).root = t.root := by
  cases t with
  | nil => exact absurd rfl h
  | node a l v r => simp only [T.graft]; split <;> rfl

theorem T.slot_indep (ev : Int) {t : T} (h : t ≠ .nil) (p q : Ptr) :
    T.slot ev t p = T.slot ev t q := by
  cases t with
  | nil => exact absurd rfl h
  | node a l v r => simp only [T.slot]

theorem attach_rep {m : Nat → Option i_element_t} {e : Nat} {sl sr : T} {ev : Int} {spar : Ptr}
    (hs : Rep m (.node e sl ev sr) spar) (hsd : (T.node e sl ev sr).addrs.Nodup) :
    ∀ (t : T) (par prev : Ptr) (sp : Nat), Rep m t par → t.addrs.Nodup →
      (∀ x ∈ t.addrs, x ∉ (T.node e sl ev sr).addrs) → t ≠ .nil →
      T.slot ev t prev = some sp →
      Rep (attach m e sp) (T.graft (.node e sl ev sr) ev t) par := by
  obtain ⟨ne, hne, hnv, hnl, hnr, -, hSL, hSR⟩ := hs
  obtain ⟨-, -, hesl, hesr, -⟩ := T.nodup_node.mp hsd
  -- the grafted subtree below its new parent `q`
  have sub : ∀ q : Nat, q ∉ (T.node e sl ev sr).addrs →
      Rep (attach m e q) (.node e sl ev sr) (some q) := by
    intro q hq
    have hqe : q ≠ e := fun h => hq (by simp [T.addrs, h])
    refine ⟨_, attach_elem hne hqe, hnv, hnl, hnr, rfl, hSL.frame ?_, hSR.frame ?_⟩
    · intro x hx
      exact attach_frame (fun h => hesl (h ▸ hx)) (fun h => hq (by simp [T.addrs, ← h, hx]))
    · intro x hx
      exact attach_frame (fun h => hesr (h ▸ hx)) (fun h => hq (by simp [T.addrs, ← h, hx]))
  intro t
  induction t with
  | nil => intro _ _ _ _ _ _ h; exact absurd rfl h
  | node a l v r ihl ihr =>
    intro par prev sp hrep hd hdis _ hslot
    obtain ⟨n, hn, hv, hl, hr, hp, hL, hR⟩ := hrep
    obtain ⟨hdl, hdr, hal, har, hlr⟩ := T.nodup_node.mp hd
    have hae : a ∉ (T.node e sl ev sr).addrs := hdis a (by simp [T.addrs])
    have hae' : a ≠ e := fun h => hae (by simp [T.addrs, h])
    have hdl' : ∀ x ∈ l.addrs, x ∉ (T.node e sl ev sr).addrs :=
      fun x hx => hdis x (by simp [T.addrs, hx])
    have hdr' : ∀ x ∈ r.addrs, x ∉ (T.node e sl ev sr).addrs :=
      fun x hx => hdis x (by simp [T.addrs, hx])
    have hxe : ∀ x, x ∉ (T.node e sl ev sr).addrs → x ≠ e :=
      fun x hx h => hx (by simp [T.addrs, h])
    simp only [T.slot] at hslot
    simp only [T.graft]
    by_cases hg : v > ev
    · simp only [hg, if_true] at hslot ⊢
      by_cases hnil : l = .nil
      · subst hnil
        simp only [T.slot, Option.some.injEq] at hslot
        subst hslot
        refine ⟨{ n with left := some e }, ?_, hv, rfl, hr, hp, sub a hae, hR.frame ?_⟩
        · rw [attach_slot hne hn hae', hv, hnv, if_pos hg]
        · intro x hx
          exact attach_frame (hxe x (hdr' x hx)) (fun h => har (h ▸ hx))
      · obtain ⟨sp', hsp', hmem⟩ := T.slot_mem ev l (some a) hnil
        rw [hslot] at hsp'; cases hsp'
        have hspa : a ≠ sp := fun h => hal (h ▸ hmem)
        refine ⟨n, ?_, hv, ?_, hr, hp, ihl _ _ _ hL hdl hdl' hnil hslot, hR.frame ?_⟩
        · rw [attach_frame hae' hspa]; exact hn
        · rw [T.graft_root _ _ hnil]; exact hl
        · intro x hx
          exact attach_frame (hxe x (hdr' x hx)) (fun h => hlr sp hmem (h ▸ hx))
    · simp only [hg, if_false] at hslot ⊢
      by_cases hnil : r = .nil
      · subst hnil
        simp only [T.slot, Option.some.injEq] at hslot
        subst hslot
        refine ⟨{ n with right := some e }, ?_, hv, hl, rfl, hp, hL.frame ?_, sub a hae⟩
        · rw [attach_slot hne hn hae', hv, hnv, if_neg hg]
        · intro x hx
          exact attach_frame (hxe x (hdl' x hx)) (fun h => hal (h ▸ hx))
      · obtain ⟨sp', hsp', hmem⟩ := T.slot_mem ev r (some a) hnil
        rw [hslot] at hsp'; cases hsp'
        have hspa : a ≠ sp := fun h => har (h ▸ hmem)
        refine ⟨n, ?_, hv, hl, ?_, hp, hL.frame ?_, ihr _ _ _ hR hdr hdr' hnil hslot⟩
        · rw [attach_frame hae' hspa]; exact hn
        · rw [T.graft_root _ _ hnil]; exact hr
        · intro x hx
          exact attach_frame (hxe x (hdl' x hx)) (fun h => hlr x hx (h ▸ hmem))

theorem local_tree_insert_eq (w : World) (value : Int) :
    local_tree_insert w value =
      tree_lock_wr w >>= fun w => insert_body w value >>= tree_unlock := rfl

namespace T

theorem addrs_graft (s : T) (ev : Int) (t : T) :
    (graft s ev t).addrs.Perm (t.addrs ++ s.addrs) := by
  induction t with
  | nil => simp [graft, addrs]
  | node a l v r ihl ihr =>
    simp only [graft]
    split
    · simp only [addrs]
      calc (graft s ev l).addrs ++ a :: r.addrs
          _ |>.Perm ((l.addrs ++ s.addrs) ++ a :: r.addrs) := ihl.append_right _
          _ |>.Perm (l.addrs ++ (s.addrs ++ a :: r.addrs)) := by rw [List.append_assoc]
          _ |>.Perm (l.addrs ++ (a :: r.addrs ++ s.addrs)) :=
              List.Perm.append_left _ List.perm_append_comm
          _ |>.Perm (l.addrs ++ a :: r.addrs ++ s.addrs) := by rw [List.append_assoc]
    · simp only [addrs]
      calc l.addrs ++ a :: (graft s ev r).addrs
          _ |>.Perm (l.addrs ++ a :: (r.addrs ++ s.addrs)) :=
              List.Perm.append_left _ (ihr.cons a)
          _ |>.Perm (l.addrs ++ a :: r.addrs ++ s.addrs) := by simp

theorem mem_addrs_graft {s : T} {ev : Int} {t : T} {x : Nat} :
    x ∈ (graft s ev t).addrs ↔ x ∈ t.addrs ∨ x ∈ s.addrs := by
  rw [(addrs_graft s ev t).mem_iff, List.mem_append]

theorem nodup_graft {s : T} {ev : Int} {t : T} (ht : t.addrs.Nodup) (hs : s.addrs.Nodup)
    (hd : ∀ x ∈ t.addrs, x ∉ s.addrs) : (graft s ev t).addrs.Nodup := by
  rw [(addrs_graft s ev t).nodup_iff, List.nodup_append]
  exact ⟨ht, hs, fun x hx hx' => hd x hx hx'⟩

theorem height_le_brk {t : T} {n : Nat} (hd : t.addrs.Nodup) (hb : ∀ a ∈ t.addrs, a < n) :
    t.height ≤ n :=
  le_trans t.height_le_length (length_le_of_lt hd hb)

end T

theorem insert_body_ok {w : World} {t : T} (h : Holds w t) (v : Int) :
    ∃ w', insert_body w v = .ok w' ∧ Holds w' (T.ins w.brk v t) ∧ SameLocks w w' ∧
 w'.brk = w.brk + 1 ∧ w'.log = w.log := by
  obtain ⟨hroot, hrep, hd, hb⟩ := h
  have hfresh : w.brk ∉ t.addrs := fun hx => lt_irrefl _ (hb _ hx)
  have hleaf : Rep (Function.update w.mem w.brk
      (some { value := v, left := none, right := none, parent := none, lock := none }))
      (.node w.brk .nil v .nil) none :=
    ⟨{ value := v, left := none, right := none, parent := none, lock := none },
      by simp, rfl, rfl, rfl, rfl, trivial, trivial⟩
  have hrep1 : Rep (Function.update w.mem w.brk
      (some { value := v, left := none, right := none, parent := none, lock := none })) t none :=
    hrep.frame (fun a ha => by
      have : a ≠ w.brk := fun h => hfresh (h ▸ ha)
      simp [Function.update, this])
  by_cases hnil : t = .nil
  · subst hnil
    refine ⟨set_root (malloc_element w v).1 (some w.brk), ?_, ⟨?_, ?_, ?_, ?_⟩,
      ⟨rfl, rfl, rfl⟩, rfl, rfl⟩
    · simp only [insert_body, malloc_element]
      rw [if_pos (by simpa [T.root] using hroot)]
      rfl
    · rfl
    · exact hleaf
    · simp [T.ins, T.graft, T.addrs]
    · simp [T.ins, T.graft, T.addrs, set_root, malloc_element]
  · obtain ⟨sp, hsp, hmem⟩ := T.slot_mem v t t.root hnil
    have hroot' : w.tree.root ≠ none := by
      rw [hroot]; cases t with
      | nil => exact absurd rfl hnil
      | node a l x r => simp [T.root]
    have key := Node_Insert_eq (w := (malloc_element w v).1) (e := w.brk)
      (η := { value := v, left := none, right := none, parent := none, lock := none })
      (by simp [malloc_element]) (t := t) (ρ := none) hrep1 hnil
      (le_trans (T.height_le_brk hd hb) (by simp [malloc_element])) hsp
    refine ⟨{ (malloc_element w v).1 with mem := attach (malloc_element w v).1.mem w.brk sp },
      ?_, ⟨?_, ?_, ?_, ?_⟩, ⟨rfl, rfl, rfl⟩, rfl, rfl⟩
    · simp only [insert_body]
      have : (malloc_element w v).1.tree.root = t.root := hroot
      show (if (malloc_element w v).1.tree.root = none then _ else _) = _
      rw [if_neg (by rw [this]; rwa [hroot] at hroot'), this]
      exact key
    · show w.tree.root = _
      rw [hroot, T.ins, T.graft_root _ _ hnil]
    · exact attach_rep hleaf (by simp [T.addrs]) t none t.root sp hrep1 hd
        (fun x hx => by
          have : x ≠ w.brk := fun h => hfresh (h ▸ hx)
          simp [T.addrs, this]) hnil hsp
    · exact T.nodup_graft hd (by simp [T.addrs]) (fun x hx => by
        have : x ≠ w.brk := fun h => hfresh (h ▸ hx)
        simp [T.addrs, this])
    · intro a ha
      rcases T.mem_addrs_graft.mp ha with h | h
      · exact Nat.lt_succ_of_lt (hb a h)
      · simp [T.addrs] at h; subst h; exact Nat.lt_succ_self _

@[simp]
theorem put_mem (w : World) (a : Nat) (n : i_element_t) :
    (w.put a n).mem = Function.update w.mem a (some n) := rfl

@[simp]
theorem put_tree (w : World) (a : Nat) (n : i_element_t) : (w.put a n).tree = w.tree := rfl

@[simp]
theorem put_brk (w : World) (a : Nat) (n : i_element_t) : (w.put a n).brk = w.brk := rfl

@[simp]
theorem put_log (w : World) (a : Nat) (n : i_element_t) : (w.put a n).log = w.log := rfl

@[simp]
theorem set_root_mem (w : World) (q : Ptr) : (set_root w q).mem = w.mem := rfl

@[simp]
theorem set_root_brk (w : World) (q : Ptr) : (set_root w q).brk = w.brk := rfl

@[simp]
theorem set_root_log (w : World) (q : Ptr) : (set_root w q).log = w.log := rfl

@[simp]
theorem set_root_root (w : World) (q : Ptr) : (set_root w q).tree.root = q := rfl

@[simp]
theorem set_root_lock_type (w : World) (q : Ptr) :
    (set_root w q).tree.lock_type = w.tree.lock_type := rfl

@[simp]
theorem set_root_m_lock (w : World) (q : Ptr) :
    (set_root w q).tree.m_lock = w.tree.m_lock := rfl

@[simp]
theorem set_root_rw_lock (w : World) (q : Ptr) :
    (set_root w q).tree.rw_lock = w.tree.rw_lock := rfl

theorem set_parent_some {w : World} {a : Nat} {n : i_element_t} (h : w.mem a = some n) (q : Ptr) :
    set_parent w (some a) q = .ok (w.put a { n with parent := q }) := by
  simp [set_parent, h]

theorem set_left_some {w : World} {a : Nat} {n : i_element_t} (h : w.mem a = some n) (q : Ptr) :
    set_left w (some a) q = .ok (w.put a { n with left := q }) := by
  simp [set_left, h]

theorem set_right_some {w : World} {a : Nat} {n : i_element_t} (h : w.mem a = some n) (q : Ptr) :
    set_right w (some a) q = .ok (w.put a { n with right := q }) := by
  simp [set_right, h]

theorem free_some {w : World} {a : Nat} {n : i_element_t} (h : w.mem a = some n) :
    free w (some a) = .ok { w with mem := Function.update w.mem a none } := by
  simp [free, h]

theorem Rep.reparent {m : Nat → Option i_element_t} {a : Nat} {l r : T} {v : Int} {par : Ptr}
    (h : Rep m (.node a l v r) par) (hd : (T.node a l v r).addrs.Nodup) {n : i_element_t}
    (hn : m a = some n) (q : Ptr) :
    Rep (Function.update m a (some { n with parent := q })) (.node a l v r) q := by
  obtain ⟨n', hn', hv, hl, hr, -, hL, hR⟩ := h
  rw [hn] at hn'; cases hn'
  obtain ⟨-, -, hal, har, -⟩ := T.nodup_node.mp hd
  refine ⟨{ n with parent := q }, by simp, hv, hl, hr, rfl, hL.frame ?_, hR.frame ?_⟩
  · intro x hx
    have : x ≠ a := fun h => hal (h ▸ hx)
    simp [Function.update, this]
  · intro x hx
    have : x ≠ a := fun h => har (h ▸ hx)
    simp [Function.update, this]

theorem Rep.update_of_not_mem {m : Nat → Option i_element_t} {t : T} {par : Ptr}
    (h : Rep m t par) {c : Nat} (hc : c ∉ t.addrs) (o : Option i_element_t) :
    Rep (Function.update m c o) t par :=
  h.frame (fun x hx => by
    have : x ≠ c := fun h => hc (h ▸ hx)
    simp [Function.update, this])

namespace T

theorem addrs_join (l r : T) : (join l r).addrs.Perm (l.addrs ++ r.addrs) := by
  cases r with
  | nil => simp [join, addrs]
  | node e rl ev rr => exact addrs_graft _ _ _

end T

theorem local_tree_delete_eq (w : World) (value : Int) :
    local_tree_delete w value =
      tree_lock_wr w >>= fun w => delete_body w value >>= tree_unlock := rfl

theorem Rep.reparent' {m : Nat → Option i_element_t} {t : T} {par : Ptr} {a : Nat}
    (h : Rep m t par) (hd : t.addrs.Nodup) (ha : t.root = some a) {n : i_element_t}
    (hn : m a = some n) (q : Ptr) :
    Rep (Function.update m a (some { n with parent := q })) t q := by
  cases t with
  | nil => trivial
  | node b l v r =>
    simp only [T.root, Option.some.injEq] at ha
    subst ha
    exact h.reparent hd hn q

theorem root_finish {χ : World} {τ : T} {ρ : Ptr} {c : Nat} {ν : i_element_t}
    (hroot : χ.tree.root = τ.root) (hrep : Rep χ.mem τ ρ) (hd : τ.addrs.Nodup)
    (hc : c ∉ τ.addrs) (hmc : χ.mem c = some ν) (hb : ∀ x ∈ τ.addrs, x < χ.brk) :
    ∃ w', ((if χ.tree.root ≠ none then set_parent χ χ.tree.root none else pure χ) >>=
        fun w => free w (some c)) = .ok w' ∧ Holds w' τ ∧ SameLocks χ w' ∧
      w'.brk = χ.brk ∧ w'.log = χ.log := by
  cases τ with
  | nil =>
    simp only [T.root] at hroot
    simp only [hroot, ne_eq, not_true_eq_false, if_false, pure_eq_ok, ok_bind, free, hmc]
    exact ⟨_, rfl, ⟨hroot, trivial, hd, hb⟩, ⟨rfl, rfl, rfl⟩, rfl, rfl⟩
  | node a l v r =>
    simp only [T.root] at hroot
    obtain ⟨n, hn, -⟩ := id hrep
    have hca : c ≠ a := fun h => hc (by simp [T.addrs, h])
    simp only [hroot, ne_eq, reduceCtorEq, not_false_eq_true, if_true, set_parent, hn, ok_bind,
      free, put_mem, Function.update_noteq hca, hmc]
    exact ⟨_, rfl, ⟨hroot, (hrep.reparent hd hn none).update_of_not_mem hc none, hd, hb⟩,
      ⟨rfl, rfl, rfl⟩, rfl, rfl⟩

theorem SameLocks.trans_locks {w1 w2 w3 : World} (h1 : SameLocks w1 w2) (h2 : SameLocks w2 w3) :
    SameLocks w1 w3 :=
  ⟨h2.1.trans h1.1, h2.2.1.trans h1.2.1, h2.2.2.trans h1.2.2⟩

theorem delete_root_ok {w : World} {c : Nat} {L R : T} {v : Int}
    (h : Holds w (.node c L v R)) :
    ∃ w', local_tree_delete_root w (some c) = .ok w' ∧ Holds w' (T.join L R) ∧ SameLocks w w' ∧
      w'.brk = w.brk ∧ w'.log = w.log := by
  obtain ⟨hroot, hrep, hd, hb⟩ := h
  obtain ⟨n, hn, hv, hl, hr, hp, hL, hR⟩ := hrep
  obtain ⟨hdL, hdR, hcL, hcR, hLR⟩ := T.nodup_node.mp hd
  have hbL : ∀ x ∈ L.addrs, x < w.brk := fun x hx => hb x (by simp [T.addrs, hx])
  have hbR : ∀ x ∈ R.addrs, x < w.brk := fun x hx => hb x (by simp [T.addrs, hx])
  cases L with
  | nil =>
    have key := root_finish (χ := set_root w R.root) (τ := T.join .nil R) (ρ := some c)
      (c := c) (ν := n) (by cases R <;> rfl) (by cases R <;> exact hR)
      (by cases R <;> exact hdR) (by cases R <;> exact hcR) hn (by cases R <;> exact hbR)
    obtain ⟨w', h1, h2, h3, h4, h5⟩ := key
    refine ⟨w', ?_, h2, h3, h4, h5⟩
    rw [← h1]
    simp only [local_tree_delete_root, deref_some hn, ok_bind, hl, hr, T.root, ne_eq,
      not_true_eq_false, if_false, pure_eq_ok]
  | node a ll lv lr =>
    obtain ⟨na, hna, -⟩ := id hL
    have hca : c ≠ a := fun h => hcL (by simp [T.addrs, h])
    have hn2 : ((set_root w (some a)).put a { na with parent := some a }).mem c = some n := by
      simp [Function.update, hca, hn]
    have hL2 : Rep ((set_root w (some a)).put a { na with parent := some a }).mem
        (.node a ll lv lr) (some a) := hL.reparent hdL hna (some a)
    cases R with
    | nil =>
      have key := root_finish (χ := (set_root w (some a)).put a { na with parent := some a })
        (τ := T.join (.node a ll lv lr) .nil) (ρ := some a) (c := c) (ν := n)
        rfl hL2 hdL hcL hn2 hbL
      obtain ⟨w', h1, h2, h3, h4, h5⟩ := key
      refine ⟨w', ?_, h2, h3, h4, h5⟩
      rw [← h1]
      simp only [local_tree_delete_root, deref, hn, ok_bind, hl, hr, T.root, ne_eq,
        not_true_eq_false, if_false, pure_eq_ok, reduceCtorEq, not_false_eq_true, if_true,
        set_root_mem, set_parent, hna, set_root_root, put_tree]
    | node e rl ev rr =>
      obtain ⟨ne, hne, hnev, -⟩ := id hR
      have hae : a ≠ e := fun h => hLR a (by simp [T.addrs]) (by simp [T.addrs, h])
      have hne2 : ((set_root w (some a)).put a { na with parent := some a }).mem e = some ne := by
        simp [Function.update, hae.symm, hne]
      have hR2 : Rep ((set_root w (some a)).put a { na with parent := some a }).mem
          (.node e rl ev rr) (some c) :=
        hR.update_of_not_mem (fun h => hLR a (by simp [T.addrs]) h) _
      obtain ⟨sp, hsp, hmem⟩ := T.slot_mem ev (.node a ll lv lr) (some a) (by simp)
      have hNI := Node_Insert_eq hne2 hL2 (by simp) (T.height_le_brk hdL hbL)
        (ζ := sp) (by rw [hnev]; exact hsp)
      have hdis : ∀ x ∈ (T.node a ll lv lr).addrs, x ∉ (T.node e rl ev rr).addrs := hLR
      have hce : c ≠ e := fun h => hcR (by simp [T.addrs, h])
      have hcsp : c ≠ sp := fun h => hcL (h ▸ hmem)
      have key := root_finish
        (χ := { (set_root w (some a)).put a { na with parent := some a } with
                  mem := attach ((set_root w (some a)).put a { na with parent := some a }).mem e sp })
        (τ := T.join (.node a ll lv lr) (.node e rl ev rr)) (ρ := some a) (c := c) (ν := n)
        (by simp only [T.join]; rw [T.graft_root _ _ (by simp)]; rfl)
        (attach_rep hR2 hdR _ _ _ _ hL2 hdL hdis (by simp) hsp)
        (T.nodup_graft hdL hdR hdis)
        (by
          simp only [T.join]
          rw [T.mem_addrs_graft]
          exact fun h => h.elim hcL hcR)
        (by show attach _ e sp c = _; rw [attach_frame hce hcsp]; exact hn2)
        (by
          intro x hx
          simp only [T.join] at hx
          rcases T.mem_addrs_graft.mp hx with h | h
          · exact hbL x h
          · exact hbR x h)
      obtain ⟨w', h1, h2, h3, h4, h5⟩ := key
      refine ⟨w', ?_, h2, h3, h4, h5⟩
      rw [← h1]
      simp only [T.root] at hNI
      simp only [local_tree_delete_root, deref, hn, ok_bind, hl, hr, T.root, ne_eq,
        not_true_eq_false, if_false, pure_eq_ok, reduceCtorEq, not_false_eq_true, if_true,
        set_root_mem, set_parent, hna, set_root_root, put_tree, hNI]

theorem inner_tail {ψ : World} {P R : T} {ρ : Ptr} {p c : Nat} {nc : i_element_t}
    (hP : Rep ψ.mem P ρ) (hroot : P.root = some p) (hR : Rep ψ.mem R (some c))
    (hdP : P.addrs.Nodup) (hdR : R.addrs.Nodup) (hdis : ∀ x ∈ P.addrs, x ∉ R.addrs)
    (hcP : c ∉ P.addrs) (hcR : c ∉ R.addrs) (hmc : ψ.mem c = some nc)
    (hpar : nc.parent = some p) (hb : ∀ x ∈ P.addrs, x < ψ.brk) :
    ∃ w', (deref ψ (some c) >>= fun c' =>
        (if R.root ≠ none then Node_Insert ψ c'.parent R.root else pure ψ) >>=
          fun y => free y (some c)) = .ok w' ∧
      Rep w'.mem (T.join P R) ρ ∧
      (∀ x, x ∉ P.addrs → x ∉ R.addrs → x ≠ c → w'.mem x = ψ.mem x) ∧
      w'.tree = ψ.tree ∧ w'.brk = ψ.brk ∧ w'.log = ψ.log := by
  have hPne : P ≠ .nil := by
    intro h; subst h; simp [T.root] at hroot
  cases R with
  | nil =>
    simp only [deref_some hmc, ok_bind, T.root, ne_eq, not_true_eq_false, if_false, free, hmc,
      pure_eq_ok]
    refine ⟨_, rfl, hP.update_of_not_mem hcP none, ?_, rfl, rfl, rfl⟩
    intro x _ _ hx
    simp [Function.update, hx]
  | node e rl ev rr =>
    obtain ⟨ne, hne, hnev, -⟩ := id hR
    obtain ⟨sp, hsp, hmem⟩ := T.slot_mem ev P P.root hPne
    have hNI := Node_Insert_eq hne hP hPne (T.height_le_brk hdP hb) (ζ := sp)
      (by rw [hnev]; exact hsp)
    rw [hroot] at hNI
    have hce : c ≠ e := fun h => hcR (by simp [T.addrs, h])
    have hcsp : c ≠ sp := fun h => hcP (h ▸ hmem)
    have hmc' : attach ψ.mem e sp c = some nc := by rw [attach_frame hce hcsp]; exact hmc
    simp only [deref_some hmc, ok_bind, T.root, ne_eq, reduceCtorEq, not_false_eq_true, if_true,
      hpar, hNI, free, hmc']
    refine ⟨_, rfl, ?_, ?_, rfl, rfl, rfl⟩
    · exact (attach_rep hR hdR P ρ P.root sp hP hdP hdis hPne hsp).update_of_not_mem
        (by
          rw [T.mem_addrs_graft]
          exact fun h => h.elim hcP hcR) none
    · intro x hxP hxR hxc
      have hxe : x ≠ e := fun h => hxR (by simp [T.addrs, h])
      have hxsp : x ≠ sp := fun h => hxP (h ▸ hmem)
      simp only [Function.update_noteq hxc]
      exact attach_frame hxe hxsp

theorem T.join_node_left {p : Nat} {L Y R : T} {pv : Int} (h : ∀ y ∈ R.vals, y < pv) :
    T.join (.node p L pv Y) R = .node p (T.join L R) pv Y := by
  cases R with
  | nil => rfl
  | node e rl ev rr =>
    have : pv > ev := h ev (by simp [T.vals])
    simp [T.join, T.graft, this]

theorem T.join_node_right {p : Nat} {X L R : T} {pv : Int} (h : ∀ y ∈ R.vals, pv ≤ y) :
    T.join (.node p X pv L) R = .node p X pv (T.join L R) := by
  cases R with
  | nil => rfl
  | node e rl ev rr =>
    have : ¬ pv > ev := not_lt.mpr (h ev (by simp [T.vals]))
    simp [T.join, T.graft, this]

theorem delete_inner_left {w : World} {p c : Nat} {L R Y : T} {pv v : Int} {par : Ptr}
    (hrep : Rep w.mem (.node p (.node c L v R) pv Y) par)
    (hd : (T.node p (.node c L v R) pv Y).addrs.Nodup)
    (hb : ∀ x ∈ (T.node p (.node c L v R) pv Y).addrs, x < w.brk)
    (hord : ∀ y ∈ R.vals, y < pv) :
    ∃ w', local_tree_delete_inner w (some c) = .ok w' ∧
      Rep w'.mem (.node p (T.join L R) pv Y) par ∧
      (∀ x, x ∉ (T.node p (.node c L v R) pv Y).addrs → w'.mem x = w.mem x) ∧
      w'.tree = w.tree ∧ w'.brk = w.brk ∧ w'.log = w.log := by
  obtain ⟨np, hnp, hpv, hpl, hpr, hpp, hC, hY⟩ := hrep
  obtain ⟨nc, hnc, hcv, hcl, hcr, hcp, hL, hR⟩ := id hC
  obtain ⟨hdC, hdY, hpC, hpY, hCY⟩ := T.nodup_node.mp hd
  obtain ⟨hdL, hdR, hcL, hcR, hLR⟩ := T.nodup_node.mp hdC
  have hpc : p ≠ c := fun h => hpC (by simp [T.addrs, h])
  have hpL : p ∉ L.addrs := fun h => hpC (by simp [T.addrs, h])
  have hpR : p ∉ R.addrs := fun h => hpC (by simp [T.addrs, h])
  have hcY : c ∉ Y.addrs := hCY c (by simp [T.addrs])
  have hLY : ∀ x ∈ L.addrs, x ∉ Y.addrs := fun x hx => hCY x (by simp [T.addrs, hx])
  have hRY : ∀ x ∈ R.addrs, x ∉ Y.addrs := fun x hx => hCY x (by simp [T.addrs, hx])
  -- the world after `curr->parent->left = curr->left` and the re-parenting of `curr->left`
  obtain ⟨w2, hw2, hP2, hR2, hc2, hfr2, ht2, hb2, hl2⟩ :
      ∃ w2 : World,
        local_tree_delete_inner w (some c) =
          (deref w2 (some c) >>= fun c' =>
            (if R.root ≠ none then Node_Insert w2 c'.parent R.root else pure w2) >>=
              fun y => free y (some c)) ∧
        Rep w2.mem (.node p L pv Y) par ∧ Rep w2.mem R (some c) ∧ w2.mem c = some nc ∧
        (∀ x, x ≠ p → x ∉ L.addrs → w2.mem x = w.mem x) ∧
        w2.tree = w.tree ∧ w2.brk = w.brk ∧ w2.log = w.log := by
    cases L with
    | nil =>
      have hw1c : (w.put p { np with left := none }).mem c = some nc := by
        simp [Function.update, hpc.symm, hnc]
      refine ⟨w.put p { np with left := none }, ?_,
        ⟨{ np with left := none }, by simp, hpv, rfl, hpr, hpp, trivial,
        hY.update_of_not_mem hpY _⟩, hR.update_of_not_mem hpR _, hw1c, ?_, rfl, rfl, rfl⟩
      · simp only [local_tree_delete_inner, deref_some hnc, ok_bind, hcp, deref_some hnp, hpl,
          T.root, if_true, hcl, hcr, set_left_some hnp, deref_some hw1c, ne_eq,
          not_true_eq_false, if_false, pure_eq_ok]
      · intro x hx _; simp [Function.update, hx]
    | node a ll lv lr =>
      obtain ⟨na, hna, -⟩ := id hL
      have hap : a ≠ p := fun h => hpL (by simp [T.addrs, h])
      have hac : a ≠ c := fun h => hcL (by simp [T.addrs, h])
      have haY : a ∉ Y.addrs := hLY a (by simp [T.addrs])
      have haR : a ∉ R.addrs := hLR a (by simp [T.addrs])
      have hw1c : (w.put p { np with left := some a }).mem c = some nc := by
        simp [Function.update, hpc.symm, hnc]
      have hw1a : (w.put p { np with left := some a }).mem a = some na := by
        simp [Function.update, hap, hna]
      have hw2c : ((w.put p { np with left := some a }).put a { na with parent := some p }).mem c
          = some nc := by
        simp [Function.update, hpc.symm, hac.symm, hnc]
      refine ⟨(w.put p { np with left := some a }).put a { na with parent := some p }, ?_,
        ⟨{ np with left := some a }, ?_, hpv, rfl, hpr, hpp, ?_, ?_⟩, ?_, hw2c, ?_,
        rfl, rfl, rfl⟩
      · simp only [local_tree_delete_inner, deref_some hnc, ok_bind, hcp, deref_some hnp, hpl,
          T.root, if_true, hcl, hcr, set_left_some hnp, deref_some hw1c, ne_eq,
          reduceCtorEq, not_false_eq_true, set_parent_some hw1a, deref_some hw2c, pure_eq_ok]
      · simp [Function.update, hap.symm]
      · exact (hL.update_of_not_mem hpL _).reparent hdL
          (by simp [Function.update, hap, hna]) (some p)
      · exact (hY.update_of_not_mem hpY _).update_of_not_mem haY _
      · exact (hR.update_of_not_mem hpR _).update_of_not_mem haR _
      · intro x hxp hxL
        have hxa : x ≠ a := fun h => hxL (by simp [T.addrs, h])
        simp [Function.update, hxp, hxa]
  have hdP : (T.node p L pv Y).addrs.Nodup :=
    T.nodup_node.mpr ⟨hdL, hdY, hpL, hpY, hLY⟩
  have key := inner_tail (ψ := w2) (P := .node p L pv Y) (R := R) (ρ := par) (p := p) (c := c)
    hP2 rfl hR2 hdP hdR
    (by
      intro x hx
      rcases T.mem_addrs_node.mp hx with h | h | h
      · exact hLR x h
      · subst h; exact hpR
      · exact fun hr => hRY x hr h)
    (by
      intro h
      rcases T.mem_addrs_node.mp h with h | h | h
      · exact hcL h
      · exact hpc h.symm
      · exact hcY h)
    hcR hc2 hcp
    (by
      intro x hx
      rw [hb2]
      apply hb
      simp only [T.addrs, List.mem_append, List.mem_cons] at hx ⊢
      tauto)
  obtain ⟨w', h1, h2, h3, h4, h5, h6⟩ := key
  refine ⟨w', ?_, ?_, ?_, h4.trans ht2, h5.trans hb2, h6.trans hl2⟩
  · rw [hw2]; exact h1
  · rw [T.join_node_left hord] at h2; exact h2
  · intro x hx
    have hx' : x ∉ L.addrs ∧ x ≠ c ∧ x ∉ R.addrs ∧ x ≠ p ∧ x ∉ Y.addrs := by
      simp only [T.addrs, List.mem_append, List.mem_cons] at hx
      tauto
    rw [h3 x (by
      intro h
      rcases T.mem_addrs_node.mp h with h | h | h
      · exact hx'.1 h
      · exact hx'.2.2.2.1 h
      · exact hx'.2.2.2.2 h) hx'.2.2.1 hx'.2.1]
    exact hfr2 x hx'.2.2.2.1 hx'.1

theorem delete_inner_right {w : World} {p c : Nat} {L R X : T} {pv v : Int} {par : Ptr}
    (hrep : Rep w.mem (.node p X pv (.node c L v R)) par)
    (hd : (T.node p X pv (.node c L v R)).addrs.Nodup)
    (hb : ∀ x ∈ (T.node p X pv (.node c L v R)).addrs, x < w.brk)
    (hord : ∀ y ∈ R.vals, pv ≤ y) :
    ∃ w', local_tree_delete_inner w (some c) = .ok w' ∧
      Rep w'.mem (.node p X pv (T.join L R)) par ∧
      (∀ x, x ∉ (T.node p X pv (.node c L v R)).addrs → w'.mem x = w.mem x) ∧
      w'.tree = w.tree ∧ w'.brk = w.brk ∧ w'.log = w.log := by
  obtain ⟨np, hnp, hpv, hpl, hpr, hpp, hX, hC⟩ := hrep
  obtain ⟨nc, hnc, hcv, hcl, hcr, hcp, hL, hR⟩ := id hC
  obtain ⟨hdX, hdC, hpX, hpC, hXC⟩ := T.nodup_node.mp hd
  obtain ⟨hdL, hdR, hcL, hcR, hLR⟩ := T.nodup_node.mp hdC
  have hpc : p ≠ c := fun h => hpC (by simp [T.addrs, h])
  have hpL : p ∉ L.addrs := fun h => hpC (by simp [T.addrs, h])
  have hpR : p ∉ R.addrs := fun h => hpC (by simp [T.addrs, h])
  have hcX : c ∉ X.addrs := fun h => hXC c h (by simp [T.addrs])
  have hXL : ∀ x ∈ X.addrs, x ∉ L.addrs := fun x hx h => hXC x hx (by simp [T.addrs, h])
  have hXR : ∀ x ∈ X.addrs, x ∉ R.addrs := fun x hx h => hXC x hx (by simp [T.addrs, h])
  have hnl : ¬ np.left = some c := by
    rw [hpl]; intro h; exact hcX (T.root_mem_addrs h)
  obtain ⟨w2, hw2, hP2, hR2, hc2, hfr2, ht2, hb2, hl2⟩ :
      ∃ w2 : World,
        local_tree_delete_inner w (some c) =
          (deref w2 (some c) >>= fun c' =>
            (if R.root ≠ none then Node_Insert w2 c'.parent R.root else pure w2) >>=
              fun y => free y (some c)) ∧
        Rep w2.mem (.node p X pv L) par ∧ Rep w2.mem R (some c) ∧ w2.mem c = some nc ∧
        (∀ x, x ≠ p → x ∉ L.addrs → w2.mem x = w.mem x) ∧
        w2.tree = w.tree ∧ w2.brk = w.brk ∧ w2.log = w.log := by
    cases L with
    | nil =>
      have hw1c : (w.put p { np with right := none }).mem c = some nc := by
        simp [Function.update, hpc.symm, hnc]
      refine ⟨w.put p { np with right := none }, ?_,
        ⟨{ np with right := none }, by simp, hpv, hpl, rfl, hpp,
        hX.update_of_not_mem hpX _, trivial⟩, hR.update_of_not_mem hpR _, hw1c, ?_, rfl, rfl, rfl⟩
      · simp only [local_tree_delete_inner, deref_some hnc, ok_bind, hcp, deref_some hnp, hnl,
          T.root, if_false, hcl, hcr, set_right_some hnp, deref_some hw1c, ne_eq,
          not_true_eq_false, pure_eq_ok]
      · intro x hx _; simp [Function.update, hx]
    | node a ll lv lr =>
      obtain ⟨na, hna, -⟩ := id hL
      have hap : a ≠ p := fun h => hpL (by simp [T.addrs, h])
      have hac : a ≠ c := fun h => hcL (by simp [T.addrs, h])
      have haX : a ∉ X.addrs := fun h => hXL a h (by simp [T.addrs])
      have haR : a ∉ R.addrs := hLR a (by simp [T.addrs])
      have hw1c : (w.put p { np with right := some a }).mem c = some nc := by
        simp [Function.update, hpc.symm, hnc]
      have hw1a : (w.put p { np with right := some a }).mem a = some na := by
        simp [Function.update, hap, hna]
      have hw2c : ((w.put p { np with right := some a }).put a { na with parent := some p }).mem c
          = some nc := by
        simp [Function.update, hpc.symm, hac.symm, hnc]
      refine ⟨(w.put p { np with right := some a }).put a { na with parent := some p }, ?_,
        ⟨{ np with right := some a }, ?_, hpv, hpl, rfl, hpp, ?_, ?_⟩, ?_, hw2c, ?_,
        rfl, rfl, rfl⟩
      · simp only [local_tree_delete_inner, deref_some hnc, ok_bind, hcp, deref_some hnp, hnl,
          T.root, if_false, hcl, hcr, set_right_some hnp, deref_some hw1c, ne_eq,
          reduceCtorEq, not_false_eq_true, set_parent_some hw1a, deref_some hw2c, pure_eq_ok,
          if_true]
      · simp [Function.update, hap.symm]
      · exact (hX.update_of_not_mem hpX _).update_of_not_mem haX _
      · exact (hL.update_of_not_mem hpL _).reparent hdL
          (by simp [Function.update, hap, hna]) (some p)
      · exact (hR.update_of_not_mem hpR _).update_of_not_mem haR _
      · intro x hxp hxL
        have hxa : x ≠ a := fun h => hxL (by simp [T.addrs, h])
        simp [Function.update, hxp, hxa]
  have hdP : (T.node p X pv L).addrs.Nodup :=
    T.nodup_node.mpr ⟨hdX, hdL, hpX, hpL, hXL⟩
  have key := inner_tail (ψ := w2) (P := .node p X pv L) (R := R) (ρ := par) (p := p) (c := c)
    hP2 rfl hR2 hdP hdR
    (by
      intro x hx
      rcases T.mem_addrs_node.mp hx with h | h | h
      · exact hXR x h
      · subst h; exact hpR
      · exact hLR x h)
    (by
      intro h
      rcases T.mem_addrs_node.mp h with h | h | h
      · exact hcX h
      · exact hpc h.symm
      · exact hcL h)
    hcR hc2 hcp
    (by
      intro x hx
      rw [hb2]
      apply hb
      simp only [T.addrs, List.mem_append, List.mem_cons] at hx ⊢
      tauto)
  obtain ⟨w', h1, h2, h3, h4, h5, h6⟩ := key
  refine ⟨w', ?_, ?_, ?_, h4.trans ht2, h5.trans hb2, h6.trans hl2⟩
  · rw [hw2]; exact h1
  · rw [T.join_node_right hord] at h2; exact h2
  · intro x hx
    have hx' : x ∉ L.addrs ∧ x ≠ c ∧ x ∉ R.addrs ∧ x ≠ p ∧ x ∉ X.addrs := by
      simp only [T.addrs, List.mem_append, List.mem_cons] at hx
      tauto
    rw [h3 x (by
      intro h
      rcases T.mem_addrs_node.mp h with h | h | h
      · exact hx'.2.2.2.2 h
      · exact hx'.2.2.2.1 h
      · exact hx'.1 h) hx'.2.2.1 hx'.2.1]
    exact hfr2 x hx'.2.2.2.1 hx'.1

namespace T

theorem vals_graft (s : T) (ev : Int) (t : T) :
    (graft s ev t).vals.Perm (t.vals ++ s.vals) := by
  induction t with
  | nil => simp [graft, vals]
  | node a l v r ihl ihr =>
    simp only [graft]
    split
    · simp only [vals]
      calc (graft s ev l).vals ++ v :: r.vals
          _ |>.Perm ((l.vals ++ s.vals) ++ v :: r.vals) := ihl.append_right _
          _ |>.Perm (l.vals ++ (s.vals ++ v :: r.vals)) := by rw [List.append_assoc]
          _ |>.Perm (l.vals ++ (v :: r.vals ++ s.vals)) :=
              List.Perm.append_left _ List.perm_append_comm
          _ |>.Perm (l.vals ++ v :: r.vals ++ s.vals) := by rw [List.append_assoc]
    · simp only [vals]
      calc l.vals ++ v :: (graft s ev r).vals
          _ |>.Perm (l.vals ++ v :: (r.vals ++ s.vals)) :=
              List.Perm.append_left _ (ihr.cons v)
          _ |>.Perm (l.vals ++ v :: r.vals ++ s.vals) := by simp

theorem mem_vals_graft {s : T} {ev : Int} {t : T} {x : Int} :
    x ∈ (graft s ev t).vals ↔ x ∈ t.vals ∨ x ∈ s.vals := by
  rw [(vals_graft s ev t).mem_iff, List.mem_append]

theorem vals_join (l r : T) : (join l r).vals.Perm (l.vals ++ r.vals) := by
  cases r with
  | nil => simp [join, vals]
  | node e rl ev rr => exact vals_graft _ _ _

theorem mem_vals_join {l r : T} {x : Int} : x ∈ (join l r).vals ↔ x ∈ l.vals ∨ x ∈ r.vals := by
  rw [(vals_join l r).mem_iff, List.mem_append]

theorem mem_addrs_join {l r : T} {x : Nat} :
    x ∈ (join l r).addrs ↔ x ∈ l.addrs ∨ x ∈ r.addrs := by
  rw [(addrs_join l r).mem_iff, List.mem_append]

theorem BST_graft {s : T} {ev : Int} (hs : s.BST) :
    ∀ t : T, t.BST → (∀ x ∈ t.vals, ∀ y ∈ s.vals, (x > ev ↔ x > y)) → (graft s ev t).BST := by
  intro t
  induction t with
  | nil => intro _ _; exact hs
  | node a l v r ihl ihr =>
    intro ht hc
    obtain ⟨hl, hr, hlv, hrv⟩ := ht
    have hcl : ∀ x ∈ l.vals, ∀ y ∈ s.vals, (x > ev ↔ x > y) :=
      fun x hx => hc x (by simp [vals, hx])
    have hcr : ∀ x ∈ r.vals, ∀ y ∈ s.vals, (x > ev ↔ x > y) :=
      fun x hx => hc x (by simp [vals, hx])
    have hcv : ∀ y ∈ s.vals, (v > ev ↔ v > y) := hc v (by simp [vals])
    simp only [graft]
    split
    · rename_i hg
      refine ⟨ihl hl hcl, hr, ?_, hrv⟩
      intro x hx
      rcases mem_vals_graft.mp hx with h | h
      · exact hlv x h
      · exact (hcv x h).mp hg
    · rename_i hg
      refine ⟨hl, ihr hr hcr, hlv, ?_⟩
      intro x hx
      rcases mem_vals_graft.mp hx with h | h
      · exact hrv x h
      · exact not_lt.mp (fun hlt => hg ((hcv x h).mpr hlt))

theorem BST_ins (a : Nat) (v : Int) {t : T} (ht : t.BST) : (ins a v t).BST := by
  apply BST_graft _ t ht
  · intro x _ y hy
    simp only [vals, List.nil_append, List.mem_singleton] at hy
    subst hy; rfl
  · exact ⟨trivial, trivial, by simp [vals], by simp [vals]⟩

theorem BST_join {l r : T} (hl : l.BST) (hr : r.BST)
    (h : ∀ x ∈ l.vals, ∀ y ∈ r.vals, x < y) : (join l r).BST := by
  cases r with
  | nil => exact hl
  | node e rl ev rr =>
    apply BST_graft hr l hl
    intro x hx y hy
    have h1 : x < ev := h x hx ev (by simp [vals])
    have h2 : x < y := h x hx y hy
    constructor
    · intro h'; exact absurd h1 (not_lt.mpr (le_of_lt h'))
    · intro h'; exact absurd h2 (not_lt.mpr (le_of_lt h'))

theorem del_of_find_none {v : Int} : ∀ {t : T}, find v t = none → del v t = t := by
  intro t
  induction t with
  | nil => intro _; rfl
  | node a l x r ihl ihr =>
    intro h
    simp only [find] at h
    simp only [del]
    by_cases hx : x = v
    · simp [hx] at h
    · simp only [ne_eq, hx, not_false_eq_true, if_true] at h ⊢
      by_cases hg : x > v
      · simp only [hg, if_true] at h ⊢; rw [ihl h]
      · simp only [hg, if_false] at h ⊢; rw [ihr h]

theorem addrs_del_perm {v : Int} {c : Nat} :
    ∀ {t : T}, find v t = some c → t.addrs.Perm (c :: (del v t).addrs) := by
  intro t
  induction t with
  | nil => intro h; simp [find] at h
  | node a l x r ihl ihr =>
    intro h
    simp only [find] at h
    simp only [del]
    by_cases hx : x = v
    · simp only [hx, ne_eq, not_true_eq_false, if_false, Option.some.injEq] at h ⊢
      subst h
      simp only [addrs]
      exact (List.perm_middle).trans ((addrs_join l r).symm.cons a)
    · simp only [ne_eq, hx, not_false_eq_true, if_true] at h ⊢
      by_cases hg : x > v
      · simp only [hg, if_true] at h ⊢
        simp only [addrs]
        exact ((ihl h).append_right _).trans (by simp)
      · simp only [hg, if_false] at h ⊢
        simp only [addrs]
        have := (ihr h).cons a
        exact (List.Perm.append_left _ (this.trans (List.Perm.swap c a _))).trans
          List.perm_middle

theorem vals_del_perm {v : Int} {c : Nat} :
    ∀ {t : T}, find v t = some c → t.vals.Perm (v :: (del v t).vals) := by
  intro t
  induction t with
  | nil => intro h; simp [find] at h
  | node a l x r ihl ihr =>
    intro h
    simp only [find] at h
    simp only [del]
    by_cases hx : x = v
    · simp only [hx, ne_eq, not_true_eq_false, if_false] at h ⊢
      simp only [vals]
      exact (List.perm_middle).trans ((vals_join l r).symm.cons v)
    · simp only [ne_eq, hx, not_false_eq_true, if_true] at h ⊢
      by_cases hg : x > v
      · simp only [hg, if_true] at h ⊢
        simp only [vals]
        exact ((ihl h).append_right _).trans (by simp)
      · simp only [hg, if_false] at h ⊢
        simp only [vals]
        have := (ihr h).cons x
        exact (List.Perm.append_left _ (this.trans (List.Perm.swap v x _))).trans
          List.perm_middle

theorem mem_vals_del {v : Int} {t : T} {z : Int} (h : z ∈ (del v t).vals) : z ∈ t.vals := by
  cases hf : find v t with
  | none => rw [del_of_find_none hf] at h; exact h
  | some c => exact (vals_del_perm hf).mem_iff.mpr (List.mem_cons_of_mem _ h)

theorem mem_addrs_del {v : Int} {t : T} {z : Nat} (h : z ∈ (del v t).addrs) : z ∈ t.addrs := by
  cases hf : find v t with
  | none => rw [del_of_find_none hf] at h; exact h
  | some c => exact (addrs_del_perm hf).mem_iff.mpr (List.mem_cons_of_mem _ h)

theorem nodup_del {v : Int} {t : T} (h : t.addrs.Nodup) : (del v t).addrs.Nodup := by
  cases hf : find v t with
  | none => rw [del_of_find_none hf]; exact h
  | some c => exact (List.nodup_cons.mp ((addrs_del_perm hf).nodup_iff.mp h)).2

theorem BST_del (v : Int) : ∀ {t : T}, t.BST → (del v t).BST := by
  intro t
  induction t with
  | nil => intro _; trivial
  | node a l x r ihl ihr =>
    intro ht
    obtain ⟨hl, hr, hlv, hrv⟩ := ht
    simp only [del]
    by_cases hx : x = v
    · simp only [hx, ne_eq, not_true_eq_false, if_false]
      apply BST_join hl hr
      intro y hy z hz
      exact lt_of_lt_of_le (hlv y hy) (hrv z hz)
    · simp only [ne_eq, hx, not_false_eq_true, if_true]
      by_cases hg : x > v
      · simp only [hg, if_true]
        exact ⟨ihl hl, hr, fun z hz => hlv z (mem_vals_del hz), hrv⟩
      · simp only [hg, if_false]
        exact ⟨hl, ihr hr, hlv, fun z hz => hrv z (mem_vals_del hz)⟩

theorem find_eq_none_iff {v : Int} : ∀ {t : T}, t.BST → (find v t = none ↔ v ∉ t.vals) := by
  intro t
  induction t with
  | nil => intro _; simp [find, vals]
  | node a l x r ihl ihr =>
    intro ht
    obtain ⟨hl, hr, hlv, hrv⟩ := ht
    simp only [find, vals, List.mem_append, List.mem_cons]
    by_cases hx : x = v
    · simp [hx]
    · simp only [ne_eq, hx, not_false_eq_true, if_true]
      by_cases hg : x > v
      · simp only [hg, if_true, ihl hl]
        constructor
        · intro h1 h2
          rcases h2 with h2 | h2 | h2
          · exact h1 h2
          · exact hx h2.symm
          · exact absurd (hrv v h2) (not_le.mpr hg)
        · intro h1 h2; exact h1 (Or.inl h2)
      · simp only [hg, if_false, ihr hr]
        constructor
        · intro h1 h2
          rcases h2 with h2 | h2 | h2
          · exact hg (hlv v h2)
          · exact hx h2.symm
          · exact h1 h2
        · intro h1 h2; exact h1 (Or.inr (Or.inr h2))

theorem find_mem_addrs {v : Int} {c : Nat} : ∀ {t : T}, find v t = some c → c ∈ t.addrs := by
  intro t h
  exact (addrs_del_perm h).mem_iff.mpr (List.mem_cons_self _ _)

theorem del_root {v : Int} {a : Nat} {l r : T} {x : Int} (h : x ≠ v) :
    (del v (node a l x r)).root = some a := by
  simp only [del, ne_eq, h, not_false_eq_true, if_true]
  split <;> rfl

end T

theorem Rep.find_value {m : Nat → Option i_element_t} {v : Int} {c : Nat} :
    ∀ {t : T} {par : Ptr}, Rep m t par → T.find v t = some c → ∃ n, m c = some n ∧ n.value = v := by
  intro t
  induction t with
  | nil => intro _ _ h; simp [T.find] at h
  | node a l x r ihl ihr =>
    intro par hrep h
    obtain ⟨n, hn, hv, -, -, -, hL, hR⟩ := hrep
    simp only [T.find] at h
    by_cases hx : x = v
    · simp only [hx, ne_eq, not_true_eq_false, if_false, Option.some.injEq] at h
      subst h
      exact ⟨n, hn, hv.trans hx⟩
    · simp only [ne_eq, hx, not_false_eq_true, if_true] at h
      by_cases hg : x > v
      · simp only [hg, if_true] at h; exact ihl hL h
      · simp only [hg, if_false] at h; exact ihr hR h

theorem delete_inner_at {w : World} {v : Int} {c : Nat} :
    ∀ (t : T) (par : Ptr), Rep w.mem t par → t.addrs.Nodup → (∀ x ∈ t.addrs, x < w.brk) →
      t.BST → t.root ≠ some c → T.find v t = some c →
      ∃ w', local_tree_delete_inner w (some c) = .ok w' ∧ Rep w'.mem (T.del v t) par ∧
        (∀ x, x ∉ t.addrs → w'.mem x = w.mem x) ∧
        w'.tree = w.tree ∧ w'.brk = w.brk ∧ w'.log = w.log := by
  intro t
  induction t with
  | nil => intro _ _ _ _ _ _ h; simp [T.find] at h
  | node a l x r ihl ihr =>
    intro par hrep hd hb hbst hroot hfind
    have hxv : x ≠ v := by
      intro h
      simp only [T.find, h, ne_eq, not_true_eq_false, if_false] at hfind
      exact hroot hfind
    obtain ⟨hbl, hbr, hlv, hrv⟩ := hbst
    obtain ⟨hdl, hdr, hal, har, hlr⟩ := T.nodup_node.mp hd
    simp only [T.find, ne_eq, hxv, not_false_eq_true, if_true] at hfind
    simp only [T.del, ne_eq, hxv, not_false_eq_true, if_true]
    by_cases hg : x > v
    · simp only [hg, if_true] at hfind ⊢
      cases l with
      | nil => simp [T.find] at hfind
      | node c' L lv R =>
        by_cases hlv' : lv = v
        · subst hlv'
          simp only [T.find, ne_eq, not_true_eq_false, if_false, Option.some.injEq] at hfind
          subst hfind
          simp only [T.del, ne_eq, not_true_eq_false, if_false]
          exact delete_inner_left hrep hd hb
            (fun y hy => hlv y (by simp [T.vals, hy]))
        · have hroot' : (T.node c' L lv R).root ≠ some c := by
            intro h
            simp only [T.root, Option.some.injEq] at h
            subst h
            simp only [T.find, ne_eq, hlv', not_false_eq_true, if_true] at hfind
            have hm : c' ∈ (T.del v (T.node c' L lv R)).addrs := by
              have := T.del_root (a := c') (l := L) (r := R) hlv'
              exact T.root_mem_addrs this
            have hfind' : T.find v (T.node c' L lv R) = some c' := by
              simp only [T.find, ne_eq, hlv', not_false_eq_true, if_true]; exact hfind
            have hp := (T.addrs_del_perm hfind').nodup_iff.mp hdl
            exact (List.nodup_cons.mp hp).1 hm
          obtain ⟨n, hn, hv, hl, hr, hp, hL, hR⟩ := hrep
          obtain ⟨w', h1, h2, h3, h4, h5, h6⟩ := ihl (some a) hL hdl
            (fun y hy => hb y (T.mem_addrs_node.mpr (Or.inl hy))) hbl hroot' hfind
          refine ⟨w', h1, ⟨n, ?_, hv, ?_, hr, hp, h2, hR.frame ?_⟩, ?_, h4, h5, h6⟩
          · rw [h3 a hal]; exact hn
          · rw [T.del_root hlv']; exact hl
          · intro y hy; exact h3 y (fun h => hlr y h hy)
          · intro y hy
            exact h3 y (fun h => hy (T.mem_addrs_node.mpr (Or.inl h)))
    · simp only [hg, if_false] at hfind ⊢
      cases r with
      | nil => simp [T.find] at hfind
      | node c' L rv R =>
        by_cases hrv' : rv = v
        · subst hrv'
          simp only [T.find, ne_eq, not_true_eq_false, if_false, Option.some.injEq] at hfind
          subst hfind
          simp only [T.del, ne_eq, not_true_eq_false, if_false]
          exact delete_inner_right hrep hd hb
            (fun y hy => hrv y (by simp [T.vals, hy]))
        · have hroot' : (T.node c' L rv R).root ≠ some c := by
            intro h
            simp only [T.root, Option.some.injEq] at h
            subst h
            simp only [T.find, ne_eq, hrv', not_false_eq_true, if_true] at hfind
            have hm : c' ∈ (T.del v (T.node c' L rv R)).addrs := by
              have := T.del_root (a := c') (l := L) (r := R) hrv'
              exact T.root_mem_addrs this
            have hfind' : T.find v (T.node c' L rv R) = some c' := by
              simp only [T.find, ne_eq, hrv', not_false_eq_true, if_true]; exact hfind
            have hp := (T.addrs_del_perm hfind').nodup_iff.mp hdr
            exact (List.nodup_cons.mp hp).1 hm
          obtain ⟨n, hn, hv, hl, hr, hp, hL, hR⟩ := hrep
          obtain ⟨w', h1, h2, h3, h4, h5, h6⟩ := ihr (some a) hR hdr
            (fun y hy => hb y (T.mem_addrs_node.mpr (Or.inr (Or.inr hy)))) hbr hroot' hfind
          refine ⟨w', h1, ⟨n, ?_, hv, hl, ?_, hp, hL.frame ?_, h2⟩, ?_, h4, h5, h6⟩
          · rw [h3 a har]; exact hn
          · rw [T.del_root hrv']; exact hr
          · intro y hy; exact h3 y (fun h => hlr y hy h)
          · intro y hy
            exact h3 y (fun h => hy (T.mem_addrs_node.mpr (Or.inr (Or.inr h))))

theorem delete_body_ok {w : World} {t : T} (h : Holds w t) (hbst : t.BST) (v : Int) :
    ∃ w', delete_body w v = .ok w' ∧ Holds w' (T.del v t) ∧ SameLocks w w' ∧
      w'.brk = w.brk ∧ w'.log = w.log ∧ (T.find v t = none → w' = w) := by
  cases t with
  | nil =>
    refine ⟨w, ?_, h, ⟨rfl, rfl, rfl⟩, rfl, rfl, fun _ => rfl⟩
    have : w.tree.root = none := h.root
    simp [delete_body, this]
  | node a l x r =>
    have hroot : w.tree.root = some a := h.root
    have hsearch := search_loop_eq (v := v) (T.node a l x r) none (w.brk + 1) h.rep
      (Nat.lt_succ_of_le (T.height_le_brk h.nodup h.lt_brk))
    simp only [T.root] at hsearch
    simp only [delete_body, hroot, ne_eq, reduceCtorEq, not_false_eq_true, if_true, hsearch,
      ok_bind]
    cases hf : T.find v (T.node a l x r) with
    | none =>
      simp only [not_true_eq_false, if_false, pure_eq_ok]
      refine ⟨w, rfl, ?_, ⟨rfl, rfl, rfl⟩, rfl, rfl, fun _ => rfl⟩
      rw [T.del_of_find_none hf]; exact h
    | some c =>
      simp only [reduceCtorEq, not_false_eq_true, if_true]
      by_cases hca : c = a
      · subst hca
        have hxv : x = v := by
          by_contra hne
          simp only [T.find, ne_eq, hne, not_false_eq_true, if_true] at hf
          have hf' : T.find v (T.node c l x r) = some c := by
            simp only [T.find, ne_eq, hne, not_false_eq_true, if_true]; exact hf
          have hp := (T.addrs_del_perm hf').nodup_iff.mp h.nodup
          exact (List.nodup_cons.mp hp).1 (T.root_mem_addrs (T.del_root hne))
        subst hxv
        obtain ⟨w', h1, h2, h3, h4, h5⟩ := delete_root_ok h
        refine ⟨w', by simpa using h1, ?_, h3, h4, h5, fun h => by simp at h⟩
        simpa [T.del] using h2
      · have hne : some c ≠ some a := fun h => hca (Option.some.inj h)
        simp only [hne, if_false]
        obtain ⟨w', h1, h2, h3, h4, h5, h6⟩ := delete_inner_at (T.node a l x r) none h.rep
          h.nodup h.lt_brk hbst (by simpa [T.root] using fun h => hca h.symm) hf
        refine ⟨w', h1, ⟨?_, h2, T.nodup_del h.nodup, ?_⟩, ?_, h5, h6, fun h => by simp at h⟩
        · rw [h4, hroot]
          have hxv : x ≠ v := by
            intro hxv
            simp only [T.find, hxv, ne_eq, not_true_eq_false, if_false, Option.some.injEq] at hf
            exact hca hf.symm
          rw [T.del_root hxv]
        · intro y hy; rw [h5]; exact h.lt_brk y (T.mem_addrs_del hy)
        · exact ⟨by rw [h4], by rw [h4], by rw [h4]⟩

theorem SameShape.refl (m : Nat → Option i_element_t) : SameShape m m := fun _ => rfl

theorem SameShape.symm {m m' : Nat → Option i_element_t} (h : SameShape m m') : SameShape m' m :=
  fun a => (h a).symm

theorem SameShape.trans {m1 m2 m3 : Nat → Option i_element_t} (h : SameShape m1 m2)
    (h' : SameShape m2 m3) : SameShape m1 m3 :=
  fun a => (h a).trans (h' a)

@[simp]
theorem T.root_nil : T.nil.root = none := rfl

@[simp]
theorem T.root_node (a : Nat) (l r : T) (v : Int) : (T.node a l v r).root = some a := rfl

theorem Node_Traverse_eq {σ : Type} {w : World} (func : World → Ptr → σ → σ) :
    ∀ (t : T) (par : Ptr) (fuel : Nat) (s : σ), Rep w.mem t par → t.height < fuel →
      Node_Traverse fuel w t.root func s =
        .ok (t.addrs.foldl (fun s a => func w (some a) s) s) := by
  intro t
  induction t with
  | nil =>
    intro par fuel s _ hf
    cases fuel with
    | zero => omega
    | succ f => simp [Node_Traverse, T.root, T.addrs]
  | node a l x r ihl ihr =>
    intro par fuel s h hf
    obtain ⟨n, hn, hv, hl, hr, hp, hL, hR⟩ := h
    cases fuel with
    | zero => omega
    | succ f =>
      simp only [T.height] at hf
      have hfl : l.height < f := by omega
      have hfr : r.height < f := by omega
      simp only [Node_Traverse, T.root_node, deref_some hn, ok_bind, hl, hr,
        ihl _ _ _ hL hfl, ihr _ _ _ hR hfr,
        T.addrs, List.foldl_append, List.foldl_cons]

theorem tree_lock_wr_ok {s : Strategy} {w : World} (hs : s ≠ .FineGrained) (h : TFree s w) :
    ∃ w1, tree_lock_wr w = .ok w1 ∧ w1.mem = w.mem ∧ w1.brk = w.brk ∧
      w1.tree.root = w.tree.root ∧ TLocked s w1 := by
  obtain ⟨h1, h2, h3⟩ := h
  cases s with
  | FineGrained => exact absurd rfl hs
  | None =>
    refine ⟨w, ?_, rfl, rfl, rfl, h1, h2, h3⟩
    simp [tree_lock_wr, h1, Strategy.code, NO_LOCK, COARSE_LOCK, RW_LOCK]
  | Coarse =>
    refine ⟨{ w with tree := { w.tree with m_lock := some true },
                     log := w.log ++ [.lock .tree] }, ?_, rfl, rfl, rfl, h1, rfl, h3⟩
    simp [tree_lock_wr, h1, Strategy.code, COARSE_LOCK, RW_LOCK, lock, h2]
  | ReadWrite =>
    refine ⟨{ w with tree := { w.tree with rw_lock := .writer },
                     log := w.log ++ [.wrlock] }, ?_, rfl, rfl, rfl, h1, h2, Or.inl rfl⟩
    simp [tree_lock_wr, h1, Strategy.code, COARSE_LOCK, RW_LOCK, pthread_rwlock_wrlock, h3]

theorem tree_lock_rd_ok {s : Strategy} {w : World} (hs : s ≠ .FineGrained) (h : TFree s w) :
    ∃ w1, tree_lock_rd w = .ok w1 ∧ w1.mem = w.mem ∧ w1.brk = w.brk ∧
      w1.tree.root = w.tree.root ∧ TLocked s w1 := by
  obtain ⟨h1, h2, h3⟩ := h
  cases s with
  | FineGrained => exact absurd rfl hs
  | None =>
    refine ⟨w, ?_, rfl, rfl, rfl, h1, h2, h3⟩
    simp [tree_lock_rd, h1, Strategy.code, NO_LOCK, COARSE_LOCK, RW_LOCK]
  | Coarse =>
    refine ⟨{ w with tree := { w.tree with m_lock := some true },
                     log := w.log ++ [.lock .tree] }, ?_, rfl, rfl, rfl, h1, rfl, h3⟩
    simp [tree_lock_rd, h1, Strategy.code, COARSE_LOCK, RW_LOCK, lock, h2]
  | ReadWrite =>
    refine ⟨{ w with tree := { w.tree with rw_lock := .readers 1 },
                     log := w.log ++ [.rdlock] }, ?_, rfl, rfl, rfl, h1, h2, Or.inr rfl⟩
    simp [tree_lock_rd, h1, Strategy.code, COARSE_LOCK, RW_LOCK, pthread_rwlock_rdlock, h3]

theorem tree_unlock_ok {s : Strategy} {w : World} (h : TLocked s w) :
    ∃ w1, tree_unlock w = .ok w1 ∧ w1.mem = w.mem ∧ w1.brk = w.brk ∧
      w1.tree.root = w.tree.root ∧ TFree s w1 := by
  obtain ⟨h1, h2⟩ := h
  cases s with
  | FineGrained => exact absurd h2 id
  | None =>
    refine ⟨w, ?_, rfl, rfl, rfl, h1, h2.1, h2.2⟩
    simp [tree_unlock, h1, Strategy.code, NO_LOCK, COARSE_LOCK, RW_LOCK]
  | Coarse =>
    refine ⟨{ w with tree := { w.tree with m_lock := some false },
                     log := w.log ++ [.unlock .tree] }, ?_, rfl, rfl, rfl, h1, rfl, h2.2⟩
    simp [tree_unlock, h1, Strategy.code, COARSE_LOCK, RW_LOCK, unlock, h2.1]
  | ReadWrite =>
    refine ⟨{ w with tree := { w.tree with rw_lock := .free },
                     log := w.log ++ [.rw_unlock] }, ?_, rfl, rfl, rfl, h1, h2.1, rfl⟩
    rcases h2.2 with h3 | h3 <;>
      simp [tree_unlock, h1, Strategy.code, COARSE_LOCK, RW_LOCK, pthread_rwlock_unlock, h3]

theorem Holds.of_eq {w w' : World} {t : T} (h : Holds w t) (hm : w'.mem = w.mem)
    (hb : w'.brk = w.brk) (hr : w'.tree.root = w.tree.root) : Holds w' t :=
  ⟨hr.trans h.root, hm ▸ h.rep, h.nodup, fun a ha => hb ▸ h.lt_brk a ha⟩

theorem TLocked.of_same {s : Strategy} {w w' : World} (h : TLocked s w) (hs : SameLocks w w') :
    TLocked s w' := by
  obtain ⟨h1, h2⟩ := h
  obtain ⟨e1, e2, e3⟩ := hs
  refine ⟨e1.trans h1, ?_⟩
  cases s <;> simp only [e2, e3] <;> exact h2

theorem tree_ext {x y : i_tree_t} (h1 : x.root = y.root) (h2 : x.lock_type = y.lock_type)
    (h3 : x.m_lock = y.m_lock) (h4 : x.rw_lock = y.rw_lock) : x = y := by
  cases x; cases y; simp_all

theorem local_tree_insert_ok {s : Strategy} {w : World} {t : T} (hs : s ≠ .FineGrained)
    (h : Inv s w t) (v : Int) :
    ∃ w', local_tree_insert w v = .ok w' ∧ Inv s w' (T.ins w.brk v t) ∧ w'.brk = w.brk + 1 := by
  obtain ⟨w1, e1, m1, b1, r1, l1⟩ := tree_lock_wr_ok hs h.tfree
  obtain ⟨w2, e2, H2, s2, b2, -⟩ := insert_body_ok (h.holds.of_eq m1 b1 r1) v
  obtain ⟨w3, e3, m3, b3, r3, l3⟩ := tree_unlock_ok (l1.of_same s2)
  refine ⟨w3, ?_, ⟨?_, ?_, l3, fun hf => absurd hf hs⟩, ?_⟩
  · rw [local_tree_insert_eq, e1, ok_bind, e2, ok_bind, e3]
  · rw [← b1]; exact H2.of_eq m3 b3 r3
  · exact T.BST_ins _ _ h.bst
  · rw [b3, b2, b1]

theorem local_tree_delete_ok {s : Strategy} {w : World} {t : T} (hs : s ≠ .FineGrained)
    (h : Inv s w t) (v : Int) :
    ∃ w', local_tree_delete w v = .ok w' ∧ Inv s w' (T.del v t) ∧ w'.brk = w.brk ∧
      (T.find v t = none → w'.mem = w.mem ∧ w'.tree = w.tree) := by
  obtain ⟨w1, e1, m1, b1, r1, l1⟩ := tree_lock_wr_ok hs h.tfree
  obtain ⟨w2, e2, H2, s2, b2, -, u2⟩ := delete_body_ok (h.holds.of_eq m1 b1 r1) h.bst v
  obtain ⟨w3, e3, m3, b3, r3, l3⟩ := tree_unlock_ok (l1.of_same s2)
  refine ⟨w3, ?_, ⟨H2.of_eq m3 b3 r3, T.BST_del v h.bst, l3, fun hf => absurd hf hs⟩, ?_, ?_⟩
  · rw [local_tree_delete_eq, e1, ok_bind, e2, ok_bind, e3]
  · rw [b3, b2, b1]
  · intro hf
    have := u2 hf
    subst this
    refine ⟨m3.trans m1, tree_ext (r3.trans r1) (l3.1.trans h.tfree.1.symm)
      (l3.2.1.trans h.tfree.2.1.symm) (l3.2.2.trans h.tfree.2.2.symm)⟩

theorem local_tree_lookup_ok {s : Strategy} {w : World} {t : T} (hs : s ≠ .FineGrained)
    (h : Inv s w t) (v : Int) :
    ∃ w', local_tree_lookup w v = .ok (w', T.find v t) ∧ w'.mem = w.mem ∧ w'.tree = w.tree ∧
      w'.brk = w.brk := by
  obtain ⟨w1, e1, m1, b1, r1, l1⟩ := tree_lock_rd_ok hs h.tfree
  obtain ⟨w3, e3, m3, b3, r3, l3⟩ := tree_unlock_ok l1
  have H1 := h.holds.of_eq m1 b1 r1
  refine ⟨w3, ?_, m3.trans m1, tree_ext (r3.trans r1) (l3.1.trans h.tfree.1.symm)
      (l3.2.1.trans h.tfree.2.1.symm) (l3.2.2.trans h.tfree.2.2.symm), b3.trans b1⟩
  simp only [local_tree_lookup, e1, ok_bind]
  cases t with
  | nil =>
    have : w1.tree.root = none := H1.root
    simp [this, e3, T.find]
  | node a l x r =>
    have hroot : w1.tree.root = some a := H1.root
    have hsearch := search_loop_eq (v := v) (T.node a l x r) none (w1.brk + 1) H1.rep
      (Nat.lt_succ_of_le (T.height_le_brk H1.nodup H1.lt_brk))
    simp only [T.root_node] at hsearch
    simp [hroot, hsearch, e3]

theorem local_tree_traverse_ok {σ : Type} {s : Strategy} {w : World} {t : T}
    (hs : s ≠ .FineGrained) (h : Inv s w t) (func : World → Ptr → σ → σ)
    (hfunc : ShapeOnly func) (s0 : σ) :
    ∃ w', local_tree_traverse w func s0 =
        .ok (w', t.addrs.foldl (fun s a => func w (some a) s) s0) ∧
      w'.mem = w.mem ∧ w'.tree = w.tree ∧ w'.brk = w.brk := by
  obtain ⟨w1, e1, m1, b1, r1, l1⟩ := tree_lock_rd_ok hs h.tfree
  obtain ⟨w3, e3, m3, b3, r3, l3⟩ := tree_unlock_ok l1
  have H1 := h.holds.of_eq m1 b1 r1
  refine ⟨w3, ?_, m3.trans m1, tree_ext (r3.trans r1) (l3.1.trans h.tfree.1.symm)
      (l3.2.1.trans h.tfree.2.1.symm) (l3.2.2.trans h.tfree.2.2.symm), b3.trans b1⟩
  have htr := Node_Traverse_eq func t none (w1.brk + 1) s0 H1.rep
    (Nat.lt_succ_of_le (T.height_le_brk H1.nodup H1.lt_brk))
  rw [← H1.root] at htr
  have hfun : (fun s a => func w1 (some a) s) = (fun s a => func w (some a) s) := by
    funext s a
    exact hfunc w1 w (some a) s (by rw [m1]; exact SameShape.refl _)
  simp only [local_tree_traverse, e1, ok_bind, htr, e3, pure_eq_ok, hfun]

@[simp]
theorem W_mem (w0 : World) (M : Nat → Option i_element_t) (H : Finset Nat)
    (l : List Ev) : (W w0 M H l).mem = relock M H := rfl

@[simp]
theorem W_brk (w0 : World) (M : Nat → Option i_element_t) (H : Finset Nat)
    (l : List Ev) : (W w0 M H l).brk = w0.brk := rfl

@[simp]
theorem W_tree (w0 : World) (M : Nat → Option i_element_t) (H : Finset Nat)
    (l : List Ev) : (W w0 M H l).tree = w0.tree := rfl

@[simp]
theorem W_log (w0 : World) (M : Nat → Option i_element_t) (H : Finset Nat)
    (l : List Ev) : (W w0 M H l).log = l := rfl

theorem relock_apply {M : Nat → Option i_element_t} {a : Nat} {n : i_element_t}
    (h : M a = some n) (H : Finset Nat) :
    relock M H a = some { n with lock := some (decide (a ∈ H)) } := by
  simp [relock, h]

theorem relock_update (M : Nat → Option i_element_t) (H : Finset Nat) (a : Nat)
    (o : Option i_element_t) :
    relock (Function.update M a o) H =
      Function.update (relock M H) a (o.map fun n => { n with lock := some (decide (a ∈ H)) }) := by
  funext x
  by_cases hx : x = a
  · subst hx; simp [relock]
  · simp [relock, Function.update, hx]

theorem relock_insert {M : Nat → Option i_element_t} {H : Finset Nat} {a : Nat} {n : i_element_t}
    (h : M a = some n) :
    relock M (insert a H) =
      Function.update (relock M H) a (some { n with lock := some true }) := by
  funext x
  by_cases hx : x = a
  · subst hx; simp [relock, h]
  · simp [relock, Function.update, hx]

theorem relock_erase {M : Nat → Option i_element_t} {H : Finset Nat} {a : Nat} {n : i_element_t}
    (h : M a = some n) :
    relock M (H.erase a) =
      Function.update (relock M H) a (some { n with lock := some false }) := by
  funext x
  by_cases hx : x = a
  · subst hx; simp [relock, h]
  · simp [relock, Function.update, hx]

theorem sameShape_relock (M : Nat → Option i_element_t) (H : Finset Nat) :
    SameShape M (relock M H) := by
  intro a
  cases h : M a with
  | none => simp [relock, h]
  | some n => simp [relock, h, shape]

theorem lockSt_relock (M : Nat → Option i_element_t) (H : Finset Nat) :
    LockSt (relock M H) H := by
  intro a n h
  cases hM : M a with
  | none => simp [relock, hM] at h
  | some n' => simp [relock, hM] at h; rw [← h]

theorem relock_of_lockSt {m : Nat → Option i_element_t} {H : Finset Nat} (h : LockSt m H) :
    relock m H = m := by
  funext x
  cases hm : m x with
  | none => simp [relock, hm]
  | some n =>
    have := h x n hm
    simp only [relock, hm, Option.map_some', Option.some.injEq]
    cases n
    simp_all

theorem Rep.congr {m m' : Nat → Option i_element_t} (hs : SameShape m m') {t : T} {par : Ptr}
    (h : Rep m t par) : Rep m' t par := by
  induction t generalizing par with
  | nil => trivial
  | node a l v r ihl ihr =>
    obtain ⟨n, hn, hv, hl, hr, hp, hL, hR⟩ := h
    have := hs a
    rw [hn] at this
    cases hm : m' a with
    | none => simp [hm] at this
    | some n' =>
      simp only [hm, Option.map_some', Option.some.injEq, shape] at this
      have e1 : n'.value = n.value := by have := congrArg i_element_t.value this; exact this.symm
      have e2 : n'.left = n.left := by have := congrArg i_element_t.left this; exact this.symm
      have e3 : n'.right = n.right := by have := congrArg i_element_t.right this; exact this.symm
      have e4 : n'.parent = n.parent := by have := congrArg i_element_t.parent this; exact this.symm
      exact ⟨n', hm, e1.trans hv, e2.trans hl, e3.trans hr, e4.trans hp, ihl hL, ihr hR⟩

theorem Rep.relock {M : Nat → Option i_element_t} {t : T} {par : Ptr} (h : Rep M t par)
    (H : Finset Nat) : Rep (relock M H) t par :=
  h.congr (sameShape_relock M H)

theorem World.ext' {x y : World} (h1 : x.mem = y.mem) (h2 : x.brk = y.brk) (h3 : x.tree = y.tree)
    (h4 : x.log = y.log) : x = y := by
  cases x; cases y; simp_all

theorem deref_W {w0 : World} {M : Nat → Option i_element_t} {H : Finset Nat} {l : List Ev}
    {a : Nat} {n : i_element_t} (h : M a = some n) :
    deref (W w0 M H l) (some a) = .ok { n with lock := some (decide (a ∈ H)) } := by
  simp [deref, relock_apply h]

theorem lock_W {w0 : World} {M : Nat → Option i_element_t} {H : Finset Nat} {l : List Ev}
    {a : Nat} {n : i_element_t} (h : M a = some n) (ha : a ∉ H) :
    lock (W w0 M H l) (.node (some a)) =
      .ok (W w0 M (insert a H) (l ++ [.lock (.node (some a))])) := by
  simp only [lock, W_mem, relock_apply h, ha, decide_False]
  congr 1
  exact World.ext' (by simp [World.put, relock_insert h]) rfl rfl rfl

theorem unlock_W {w0 : World} {M : Nat → Option i_element_t} {H : Finset Nat} {l : List Ev}
    {a : Nat} {n : i_element_t} (h : M a = some n) (ha : a ∈ H) :
    unlock (W w0 M H l) (.node (some a)) =
      .ok (W w0 M (H.erase a) (l ++ [.unlock (.node (some a))])) := by
  simp only [unlock, W_mem, relock_apply h, ha, decide_True]
  congr 1
  exact World.ext' (by simp [World.put, relock_erase h]) rfl rfl rfl

theorem set_left_W {w0 : World} {M : Nat → Option i_element_t} {H : Finset Nat} {l : List Ev}
    {a : Nat} {n : i_element_t} (h : M a = some n) (q : Ptr) :
    set_left (W w0 M H l) (some a) q =
      .ok (W w0 (Function.update M a (some { n with left := q })) H l) := by
  simp only [set_left, W_mem, relock_apply h]
  congr 1
  exact World.ext' (by simp [World.put, relock_update]) rfl rfl rfl

theorem set_right_W {w0 : World} {M : Nat → Option i_element_t} {H : Finset Nat} {l : List Ev}
    {a : Nat} {n : i_element_t} (h : M a = some n) (q : Ptr) :
    set_right (W w0 M H l) (some a) q =
      .ok (W w0 (Function.update M a (some { n with right := q })) H l) := by
  simp only [set_right, W_mem, relock_apply h]
  congr 1
  exact World.ext' (by simp [World.put, relock_update]) rfl rfl rfl

theorem set_parent_W {w0 : World} {M : Nat → Option i_element_t} {H : Finset Nat} {l : List Ev}
    {a : Nat} {n : i_element_t} (h : M a = some n) (q : Ptr) :
    set_parent (W w0 M H l) (some a) q =
      .ok (W w0 (Function.update M a (some { n with parent := q })) H l) := by
  simp only [set_parent, W_mem, relock_apply h]
  congr 1
  exact World.ext' (by simp [World.put, relock_update]) rfl rfl rfl

theorem set_root_W (w0 : World) (M : Nat → Option i_element_t) (H : Finset Nat) (l : List Ev)
    (q : Ptr) : set_root (W w0 M H l) q = W (set_root w0 q) M H l := rfl

theorem destroy_free_W {w0 : World} {M : Nat → Option i_element_t} {H : Finset Nat}
    {l : List Ev} {a : Nat} {n : i_element_t} (h : M a = some n) :
    (pthread_mutex_destroy (W w0 M H l) (some a) >>= fun w => free w (some a)) =
      .ok (W w0 (Function.update M a none) H l) := by
  simp only [pthread_mutex_destroy, W_mem, relock_apply h, ok_bind, free, put_mem,
    Function.update_same]
  congr 1
  exact World.ext' (by simp [World.put, relock_update]) rfl rfl rfl

theorem Node_Insert_f_loop_W {ω : World} {M : Nat → Option i_element_t} {e : Nat}
    {ne : i_element_t} (he : M e = some ne) :
    ∀ (t : T) (a : Nat) (par : Ptr) (fuel : Nat) (H : Finset Nat) (l : List Ev) (P : Nat),
      t.root = some a → Rep M t par → t.addrs.Nodup → t.height < fuel →
      a ∈ H → (∀ x ∈ t.addrs, x ≠ a → x ∉ H) →
      (P = a ∨ (P ∈ H ∧ P ∉ t.addrs ∧ ∃ nP, M P = some nP)) →
      ∃ l' sp, Node_Insert_f_loop fuel (W ω M H l) (some a) (some P) (some e) =
          .ok (W ω M (insert sp ((H.erase P).erase a)) l', some sp) ∧
        T.slot ne.value t (some P) = some sp ∧ sp ∈ t.addrs := by
  intro t
  induction t with
  | nil => intro a _ _ _ _ _ h; simp at h
  | node b lt v rt ihl ihr =>
    intro a par fuel H l P hroot hrep hd hf haH hH hP
    simp only [T.root_node, Option.some.injEq] at hroot
    subst hroot
    obtain ⟨n, hn, hv, hl, hr, hp, hL, hR⟩ := hrep
    obtain ⟨hdl, hdr, hal, har, hlr⟩ := T.nodup_node.mp hd
    cases fuel with
    | zero => omega
    | succ f =>
      simp only [T.height] at hf
      -- first statement of the body: release `prev` unless it is `curr`
      obtain ⟨l1, h1⟩ : ∃ l1,
          (if (some P : Ptr) ≠ some b then unlock (W ω M H l) (.node (some P))
            else pure (W ω M H l)) = .ok (W ω M (insert b (H.erase P)) l1) := by
        rcases hP with hP | ⟨hPH, hPt, nP, hnP⟩
        · subst hP
          refine ⟨l, ?_⟩
          simp only [ne_eq, not_true_eq_false, if_false, pure_eq_ok]
          rw [Finset.insert_erase haH]
        · have hPb : P ≠ b := fun h => hPt (by simp [T.addrs, h])
          refine ⟨l ++ [.unlock (.node (some P))], ?_⟩
          simp only [ne_eq, Option.some.injEq, hPb, not_false_eq_true, if_true,
            unlock_W hnP hPH]
          rw [Finset.insert_eq_of_mem (Finset.mem_erase.mpr ⟨hPb.symm, haH⟩)]
      have hH1' : ∀ x ∈ (T.node b lt v rt).addrs, x ≠ b → x ∉ insert b (H.erase P) := by
        intro x hx hxb hmem
        simp only [Finset.mem_insert, Finset.mem_erase] at hmem
        rcases hmem with h | ⟨_, h⟩
        · exact hxb h
        · exact hH x hx hxb h
      have hfin0 : insert b ((H.erase P).erase b) = insert b (H.erase P) := by
        ext x; simp only [Finset.mem_insert, Finset.mem_erase]; tauto
      have hfin1 : ∀ c sp : Nat, c ∉ insert b (H.erase P) →
          insert sp (((insert c (insert b (H.erase P))).erase b).erase c) =
            insert sp ((H.erase P).erase b) := by
        intro c sp hc
        ext x
        simp only [Finset.mem_insert, Finset.mem_erase] at hc ⊢
        by_cases hxc : x = c
        · subst hxc; tauto
        · tauto
      simp only [Node_Insert_f_loop, h1, ok_bind, deref_W hn, deref_W he, hv]
      by_cases hg : v > ne.value
      · simp only [hg, if_true, hl, T.slot]
        cases lt with
        | nil =>
          cases f with
          | zero => omega
          | succ f' =>
            refine ⟨l1, b, ?_, rfl, by simp [T.addrs]⟩
            simp only [T.root_nil, ne_eq, not_true_eq_false, if_false, pure_eq_ok, ok_bind,
              deref_W hn, hl, Node_Insert_f_loop, hfin0]
        | node c cl cv cr =>
          obtain ⟨nc, hnc, -⟩ := id hL
          have hcb : c ≠ b := fun h => hal (by simp [T.addrs, h])
          have hcH1 : c ∉ insert b (H.erase P) := hH1' c (by simp [T.addrs]) hcb
          obtain ⟨l', sp, h2, h3, h4⟩ := ihl c (some b) f (insert c (insert b (H.erase P)))
            (l1 ++ [.lock (.node (some c))]) b rfl hL hdl (by omega) (by simp)
            (by
              intro x hx hxc hmem
              simp only [Finset.mem_insert] at hmem
              rcases hmem with h | h
              · exact hxc h
              · exact hH1' x (T.mem_addrs_node.mpr (Or.inl hx))
                  (fun h' => hal (h' ▸ hx)) (by simpa using h))
            (Or.inr ⟨by simp, hal, n, hn⟩)
          refine ⟨l', sp, ?_, h3, T.mem_addrs_node.mpr (Or.inl h4)⟩
          simp only [T.root_node, ne_eq, reduceCtorEq, not_false_eq_true, if_true,
            lock_W hnc hcH1, ok_bind, deref_W hn, hl, h2, hfin1 c sp hcH1]
      · simp only [hg, if_false, hr, T.slot]
        cases rt with
        | nil =>
          cases f with
          | zero => omega
          | succ f' =>
            refine ⟨l1, b, ?_, rfl, by simp [T.addrs]⟩
            simp only [T.root_nil, ne_eq, not_true_eq_false, if_false, pure_eq_ok, ok_bind,
              deref_W hn, hr, Node_Insert_f_loop, hfin0]
        | node c cl cv cr =>
          obtain ⟨nc, hnc, -⟩ := id hR
          have hcb : c ≠ b := fun h => har (by simp [T.addrs, h])
          have hcH1 : c ∉ insert b (H.erase P) :=
            hH1' c (T.mem_addrs_node.mpr (Or.inr (Or.inr (by simp [T.addrs]))))
              hcb
          obtain ⟨l', sp, h2, h3, h4⟩ := ihr c (some b) f (insert c (insert b (H.erase P)))
            (l1 ++ [.lock (.node (some c))]) b rfl hR hdr (by omega) (by simp)
            (by
              intro x hx hxc hmem
              simp only [Finset.mem_insert] at hmem
              rcases hmem with h | h
              · exact hxc h
              · exact hH1' x (T.mem_addrs_node.mpr (Or.inr (Or.inr hx)))
                  (fun h' => har (h' ▸ hx)) (by simpa using h))
            (Or.inr ⟨by simp, har, n, hn⟩)
          refine ⟨l', sp, ?_, h3, T.mem_addrs_node.mpr (Or.inr (Or.inr h4))⟩
          simp only [T.root_node, ne_eq, reduceCtorEq, not_false_eq_true, if_true,
            lock_W hnc hcH1, ok_bind, deref_W hn, hr, h2, hfin1 c sp hcH1]

theorem attach_eq {M : Nat → Option i_element_t} {e sp : Nat} {ne np : i_element_t}
    (he : M e = some ne) (hp : M sp = some np) (hne : sp ≠ e) :
    attach M e sp =
      Function.update (Function.update M e (some { ne with parent := some sp })) sp
        (some (if np.value > ne.value then { np with left := some e }
               else { np with right := some e })) := by
  simp [attach, he, hp, Function.update, hne]

theorem Node_Insert_f_W {ω : World} {M : Nat → Option i_element_t} {e : Nat}
    {ne : i_element_t} (he : M e = some ne) {t : T} {a : Nat} {ρ : Ptr}
    (hroot : t.root = some a) (hrep : Rep M t ρ) (hd : t.addrs.Nodup) (het : e ∉ t.addrs)
    (hh : t.height ≤ ω.brk) {H : Finset Nat} (haH : a ∈ H) (heH : e ∈ H)
    (hH : ∀ x ∈ t.addrs, x ≠ a → x ∉ H) (l : List Ev) :
    ∃ l' sp, Node_Insert_f (W ω M H l) (some a) (some e) =
        .ok (W ω (attach M e sp) ((H.erase a).erase e) l') ∧
      T.slot ne.value t t.root = some sp ∧ sp ∈ t.addrs := by
  obtain ⟨l1, sp, h1, h2, h3⟩ := Node_Insert_f_loop_W (ω := ω) he t a ρ (ω.brk + 1) H l a
    hroot hrep hd (by omega) haH hH (Or.inl rfl)
  obtain ⟨np, hnp⟩ := hrep.get h3
  have hspe : sp ≠ e := fun h => het (h ▸ h3)
  have hae : a ≠ e := fun h => het (h ▸ T.root_mem_addrs hroot)
  have hm1 : Function.update M e (some { ne with parent := some sp }) sp = some np := by
    simp [Function.update, hspe, hnp]
  have hm1e : Function.update M e (some { ne with parent := some sp }) e =
      some { ne with parent := some sp } := by simp
  have hfin : (((insert sp ((H.erase a).erase a)).erase sp).erase e) = (H.erase a).erase e := by
    ext x
    simp only [Finset.mem_insert, Finset.mem_erase]
    by_cases hx : x = sp
    · subst hx
      have : x = a ∨ x ∉ H := by
        by_cases hxa : x = a
        · exact Or.inl hxa
        · exact Or.inr (hH x h3 hxa)
      tauto
    · tauto
  have hsp1 : sp ∈ insert sp ((H.erase a).erase a) := Finset.mem_insert_self _ _
  have he1 : e ∈ (insert sp ((H.erase a).erase a)).erase sp := by
    simp only [Finset.mem_insert, Finset.mem_erase]
    exact ⟨hspe.symm, Or.inr ⟨hae.symm, hae.symm, heH⟩⟩
  rw [hroot, T.slot_indep _ (by intro h; subst h; simp at hroot) (some a) (some a)]
  refine ⟨l1 ++ [.unlock (.node (some sp))] ++ [.unlock (.node (some e))], sp, ?_, h2, h3⟩
  simp only [Node_Insert_f, W_brk, h1, ok_bind, set_parent_W he, deref_W hm1, deref_W hm1e]
  rw [attach_eq he hnp hspe]
  by_cases hg : np.value > ne.value
  · have hm2 : Function.update (Function.update M e (some { ne with parent := some sp })) sp
        (some { np with left := some e }) e = some { ne with parent := some sp } := by
      simp [Function.update, hspe.symm]
    have hm2s : Function.update (Function.update M e (some { ne with parent := some sp })) sp
        (some { np with left := some e }) sp = some { np with left := some e } := by simp
    simp only [hg, if_true, set_left_W hm1, ok_bind, unlock_W hm2s hsp1, unlock_W hm2 he1, hfin]
  · have hm2 : Function.update (Function.update M e (some { ne with parent := some sp })) sp
        (some { np with right := some e }) e = some { ne with parent := some sp } := by
      simp [Function.update, hspe.symm]
    have hm2s : Function.update (Function.update M e (some { ne with parent := some sp })) sp
        (some { np with right := some e }) sp = some { np with right := some e } := by simp
    simp only [hg, if_false, set_right_W hm1, ok_bind, unlock_W hm2s hsp1, unlock_W hm2 he1,
      hfin]

theorem World.eq_W {w : World} {H : Finset Nat} (h : LockSt w.mem H) :
    w = W w w.mem H w.log :=
  World.ext' (relock_of_lockSt h).symm rfl rfl rfl

theorem malloc_init_W {ω : World} {M : Nat → Option i_element_t} {H : Finset Nat}
    {l : List Ev} (v : Int) (hb : ω.brk ∉ H) :
    pthread_mutex_init (malloc_element (W ω M H l) v).1 (some ω.brk) =
      .ok (W { ω with brk := ω.brk + 1 }
        (Function.update M ω.brk
          (some { value := v, left := none, right := none, parent := none, lock := none }))
        H l) := by
  simp only [pthread_mutex_init, malloc_element, W_mem, W_brk, Function.update_same]
  congr 1
  exact World.ext' (by simp [World.put, relock_update, hb]) rfl rfl rfl

theorem Holds.lt_brk_fresh {w : World} {t : T} (h : Holds w t) : w.brk ∉ t.addrs :=
  fun hx => lt_irrefl _ (h.lt_brk _ hx)

theorem local_tree_insert_fine_ok {w : World} {t : T} (h : Inv .FineGrained w t) (v : Int) :
    ∃ w', local_tree_insert_fine w v = .ok w' ∧ Inv .FineGrained w' (T.ins w.brk v t) ∧
      w'.brk = w.brk + 1 := by
  have hW := World.eq_W (h.locks rfl)
  obtain ⟨hroot, hrep, hd, hb⟩ := h.holds
  have hfresh : w.brk ∉ t.addrs := h.holds.lt_brk_fresh
  have hleaf : Rep (Function.update w.mem w.brk
      (some { value := v, left := none, right := none, parent := none, lock := none }))
      (.node w.brk .nil v .nil) none :=
    ⟨{ value := v, left := none, right := none, parent := none, lock := none },
      by simp, rfl, rfl, rfl, rfl, trivial, trivial⟩
  have hrep1 : Rep (Function.update w.mem w.brk
      (some { value := v, left := none, right := none, parent := none, lock := none })) t none :=
    hrep.update_of_not_mem hfresh _
  have hinit := malloc_init_W (ω := w) (M := w.mem) (H := ∅) (l := w.log) v (by simp)
  rw [← hW] at hinit
  have hme : Function.update w.mem w.brk
      (some { value := v, left := none, right := none, parent := none, lock := none }) w.brk =
      some { value := v, left := none, right := none, parent := none, lock := none } := by simp
  cases t with
  | nil =>
    simp only [T.root_nil] at hroot
    refine ⟨W (set_root { w with brk := w.brk + 1 } (some w.brk))
        (Function.update w.mem w.brk
          (some { value := v, left := none, right := none, parent := none, lock := none }))
        ∅ w.log, ?_, ⟨⟨rfl, hleaf.relock _, by simp [T.ins, T.graft, T.addrs], ?_⟩,
          T.BST_ins _ _ h.bst, ⟨h.tfree.1, h.tfree.2.1, h.tfree.2.2⟩,
          fun _ => lockSt_relock _ _⟩, rfl⟩
    · simp only [local_tree_insert_fine]
      have e2 : (malloc_element w v).2 = some w.brk := rfl
      rw [e2, hinit]
      simp only [ok_bind, W_tree, hroot, ne_eq, not_true_eq_false, if_false, pure_eq_ok,
        if_true, set_root_W]
    · simp [T.ins, T.graft, T.addrs, set_root]
  | node a lt x rt =>
    simp only [T.root_node] at hroot
    obtain ⟨na, hna, -⟩ := id hrep
    have hab : a ≠ w.brk := fun h => hfresh (by simp [T.addrs, h])
    have hma : Function.update w.mem w.brk
        (some { value := v, left := none, right := none, parent := none, lock := none }) a =
        some na := by simp [Function.update, hab, hna]
    obtain ⟨l', sp, h1, h2, h3⟩ := Node_Insert_f_W (ω := { w with brk := w.brk + 1 })
      (M := Function.update w.mem w.brk
        (some { value := v, left := none, right := none, parent := none, lock := none }))
      (e := w.brk) hme (t := T.node a lt x rt) (a := a) (ρ := none) rfl hrep1 hd hfresh
      (le_trans (T.height_le_brk hd hb) (Nat.le_succ _))
      (H := insert w.brk (insert a ∅)) (by simp) (by simp)
      (by
        intro y hy hya hmem
        simp only [Finset.mem_insert, Finset.not_mem_empty, or_false] at hmem
        rcases hmem with h | h
        · exact hfresh (h ▸ hy)
        · exact hya h)
      (w.log ++ [.lock (.node (some a))] ++ [.lock (.node (some w.brk))])
    have hfin : ((insert w.brk (insert a (∅ : Finset Nat))).erase a).erase w.brk = ∅ := by
      ext y; simp only [Finset.mem_insert, Finset.mem_erase, Finset.not_mem_empty]; tauto
    rw [hfin] at h1
    refine ⟨W { w with brk := w.brk + 1 } (attach (Function.update w.mem w.brk
        (some { value := v, left := none, right := none, parent := none, lock := none }))
        w.brk sp) ∅ l', ?_, ⟨⟨?_, ?_, ?_, ?_⟩, T.BST_ins _ _ h.bst, ?_, fun _ => ?_⟩, ?_⟩
    · simp only [local_tree_insert_fine]
      have e2 : (malloc_element w v).2 = some w.brk := rfl
      rw [e2, hinit]
      simp only [ok_bind, W_tree, hroot, ne_eq, reduceCtorEq, not_false_eq_true, if_true,
        lock_W hma (Finset.not_mem_empty a), if_false,
        lock_W hme (show w.brk ∉ insert a (∅ : Finset Nat) by simp [hab.symm])]
      exact h1
    · show w.tree.root = _
      rw [hroot, T.ins, T.graft_root _ _ (by simp)]; rfl
    · exact (attach_rep hleaf (by simp [T.addrs]) _ none _ sp hrep1 hd
        (fun y hy => by
          have : y ≠ w.brk := fun h => hfresh (h ▸ hy)
          simp [T.addrs, this]) (by simp) h2).relock _
    · exact T.nodup_graft hd (by simp [T.addrs]) (fun y hy => by
        have : y ≠ w.brk := fun h => hfresh (h ▸ hy)
        simp [T.addrs, this])
    · intro y hy
      rcases T.mem_addrs_graft.mp hy with h | h
      · exact Nat.lt_succ_of_lt (hb y h)
      · simp [T.addrs] at h; subst h; exact Nat.lt_succ_self _
    · exact ⟨h.tfree.1, h.tfree.2.1, h.tfree.2.2⟩
    · exact lockSt_relock _ _
    · rfl

@[simp]
theorem insertOpt_none (B : Finset Nat) : insertOpt none B = B := rfl

@[simp]
theorem insertOpt_some (a : Nat) (B : Finset Nat) : insertOpt (some a) B = insert a B := rfl

theorem lookup_fine_loop_W {ω : World} {M : Nat → Option i_element_t} {v : Int} :
    ∀ (t : T) (a : Nat) (par : Ptr) (fuel : Nat) (B : Finset Nat) (l : List Ev),
      t.root = some a → Rep M t par → t.addrs.Nodup → t.height < fuel →
      (∀ x ∈ t.addrs, x ∉ B) →
      ∃ l', local_tree_lookup_fine_loop fuel (W ω M (insert a B) l) (some a) v =
          .ok (W ω M (insertOpt (T.find v t) B) l', T.find v t) := by
  intro t
  induction t with
  | nil => intro a _ _ _ _ h; simp at h
  | node b lt x rt ihl ihr =>
    intro a par fuel B l hroot hrep hd hf hB
    simp only [T.root_node, Option.some.injEq] at hroot
    subst hroot
    obtain ⟨n, hn, hv, hl, hr, hp, hL, hR⟩ := hrep
    obtain ⟨hdl, hdr, hal, har, hlr⟩ := T.nodup_node.mp hd
    have hbB : b ∉ B := hB b (by simp [T.addrs])
    cases fuel with
    | zero => omega
    | succ f =>
      simp only [T.height] at hf
      simp only [local_tree_lookup_fine_loop, deref_W hn, ok_bind, hv, T.find]
      by_cases hxv : x = v
      · refine ⟨l, ?_⟩
        simp only [hxv, ne_eq, not_true_eq_false, if_false, pure_eq_ok, insertOpt_some]
      · simp only [ne_eq, hxv, not_false_eq_true, if_true]
        have hfin : (insert b B).erase b = B := Finset.erase_insert hbB
        by_cases hg : x > v
        · simp only [hg, if_true, hl]
          cases lt with
          | nil =>
            cases f with
            | zero => omega
            | succ f' =>
              refine ⟨l ++ [.unlock (.node (some b))], ?_⟩
              simp only [T.root_nil, ne_eq, not_true_eq_false, if_false,
                unlock_W hn (Finset.mem_insert_self b B), ok_bind, local_tree_lookup_fine_loop,
                hfin, T.find, insertOpt_none]
          | node c cl cv cr =>
            obtain ⟨nc, hnc, -, -, -, hcp, -⟩ := id hL
            have hcb : c ≠ b := fun h => hal (by simp [T.addrs, h])
            have hcB : c ∉ B := hB c (T.mem_addrs_node.mpr (Or.inl (by simp [T.addrs])))
            have hc1 : c ∉ insert b B := by simp [hcb, hcB]
            have hb2 : b ∈ insert c (insert b B) := by simp
            have hfin2 : (insert c (insert b B)).erase b = insert c B := by
              rw [Finset.erase_insert_of_ne hcb, Finset.erase_insert hbB]
            obtain ⟨l', h2⟩ := ihl c (some b) f B
              (l ++ [.lock (.node (some c))] ++ [.unlock (.node (some b))]) rfl hL hdl
              (by omega) (fun y hy => hB y (T.mem_addrs_node.mpr (Or.inl hy)))
            refine ⟨l', ?_⟩
            simp only [T.root_node, ne_eq, reduceCtorEq, not_false_eq_true, if_true,
              lock_W hnc hc1, ok_bind, deref_W hn, hl, deref_W hnc, hcp, unlock_W hn hb2,
              hfin2, h2]
        · simp only [hg, if_false, hr]
          cases rt with
          | nil =>
            cases f with
            | zero => omega
            | succ f' =>
              refine ⟨l ++ [.unlock (.node (some b))], ?_⟩
              simp only [T.root_nil, ne_eq, not_true_eq_false, if_false,
                unlock_W hn (Finset.mem_insert_self b B), ok_bind, local_tree_lookup_fine_loop,
                hfin, T.find, insertOpt_none]
          | node c cl cv cr =>
            obtain ⟨nc, hnc, -, -, -, hcp, -⟩ := id hR
            have hcb : c ≠ b := fun h => har (by simp [T.addrs, h])
            have hcB : c ∉ B := hB c (T.mem_addrs_node.mpr (Or.inr (Or.inr (by simp [T.addrs]))))
            have hc1 : c ∉ insert b B := by simp [hcb, hcB]
            have hb2 : b ∈ insert c (insert b B) := by simp
            have hfin2 : (insert c (insert b B)).erase b = insert c B := by
              rw [Finset.erase_insert_of_ne hcb, Finset.erase_insert hbB]
            obtain ⟨l', h2⟩ := ihr c (some b) f B
              (l ++ [.lock (.node (some c))] ++ [.unlock (.node (some b))]) rfl hR hdr
              (by omega) (fun y hy => hB y (T.mem_addrs_node.mpr (Or.inr (Or.inr hy))))
            refine ⟨l', ?_⟩
            simp only [T.root_node, ne_eq, reduceCtorEq, not_false_eq_true, if_true,
              lock_W hnc hc1, ok_bind, deref_W hn, hr, deref_W hnc, hcp, unlock_W hn hb2,
              hfin2, h2]

theorem local_tree_lookup_fine_ok {w : World} {t : T} (h : Inv .FineGrained w t) (v : Int) :
    ∃ w', local_tree_lookup_fine w v = .ok (w', T.find v t) ∧
      w'.mem = relock w.mem (insertOpt (T.find v t) ∅) ∧ w'.tree = w.tree ∧ w'.brk = w.brk := by
  have hW := World.eq_W (h.locks rfl)
  obtain ⟨hroot, hrep, hd, hb⟩ := h.holds
  cases t with
  | nil =>
    simp only [T.root_nil] at hroot
    refine ⟨w, ?_, ?_, rfl, rfl⟩
    · simp [local_tree_lookup_fine, hroot, T.find]
    · simp only [T.find, insertOpt_none]; exact (relock_of_lockSt (h.locks rfl)).symm
  | node a lt x rt =>
    simp only [T.root_node] at hroot
    obtain ⟨na, hna, -⟩ := id hrep
    obtain ⟨l', h1⟩ := lookup_fine_loop_W (ω := w) (M := w.mem) (v := v) (T.node a lt x rt) a
      none (w.brk + 1) ∅ (w.log ++ [.lock (.node (some a))]) rfl hrep hd
      (Nat.lt_succ_of_le (T.height_le_brk hd hb)) (fun _ _ => Finset.not_mem_empty _)
    refine ⟨W w w.mem (insertOpt (T.find v (T.node a lt x rt)) ∅) l', ?_, rfl, rfl, rfl⟩
    simp only [local_tree_lookup_fine, hroot, reduceCtorEq, if_false]
    have hlock : lock w (.node (some a)) =
        .ok (W w w.mem (insert a ∅) (w.log ++ [.lock (.node (some a))])) := by
      conv_lhs => rw [hW]
      exact lock_W hna (Finset.not_mem_empty a)
    simp only [hlock, ok_bind, W_brk, W_tree, hroot]
    exact h1

theorem Node_Traverse_f_W {σ : Type} {ω : World} {M : Nat → Option i_element_t}
    (func : World → Ptr → σ → σ) (hfunc : ShapeOnly func) (wref : World)
    (href : SameShape wref.mem M) :
    ∀ (t : T) (a : Nat) (par : Ptr) (fuel : Nat) (B : Finset Nat) (l : List Ev) (s : σ),
      t.root = some a → Rep M t par → t.addrs.Nodup → t.height < fuel →
      (∀ x ∈ t.addrs, x ∉ B) →
      ∃ l', Node_Traverse_f fuel (W ω M (insert a B) l) (some a) func s =
          .ok (W ω M B l', t.addrs.foldl (fun s x => func wref (some x) s) s) := by
  intro t
  induction t with
  | nil => intro a _ _ _ _ _ h; simp at h
  | node b lt x rt ihl ihr =>
    intro a par fuel B l s hroot hrep hd hf hB
    simp only [T.root_node, Option.some.injEq] at hroot
    subst hroot
    obtain ⟨n, hn, hv, hl, hr, hp, hL, hR⟩ := hrep
    obtain ⟨hdl, hdr, hal, har, hlr⟩ := T.nodup_node.mp hd
    have hbB : b ∉ B := hB b (by simp [T.addrs])
    have hfun : ∀ (H : Finset Nat) (l : List Ev) (s : σ),
        func (W ω M H l) (some b) s = func wref (some b) s :=
      fun H l s => hfunc _ _ _ _ ((sameShape_relock M H).symm.trans href.symm)
    cases fuel with
    | zero => omega
    | succ f =>
      simp only [T.height] at hf
      obtain ⟨l1, h1⟩ : ∃ l1,
          (if lt.root ≠ none then
              lock (W ω M (insert b B) l) (.node lt.root) >>= fun w =>
                deref w (some b) >>= fun n => Node_Traverse_f f w n.left func s
            else pure (W ω M (insert b B) l, s)) =
          .ok (W ω M (insert b B) l1, lt.addrs.foldl (fun s x => func wref (some x) s) s) := by
        cases lt with
        | nil => exact ⟨l, by simp [T.addrs]⟩
        | node c cl cv cr =>
          obtain ⟨nc, hnc, -⟩ := id hL
          have hcb : c ≠ b := fun h => hal (by simp [T.addrs, h])
          have hcB : c ∉ B := hB c (T.mem_addrs_node.mpr (Or.inl (by simp [T.addrs])))
          have hc1 : c ∉ insert b B := by simp [hcb, hcB]
          obtain ⟨l', h2⟩ := ihl c (some b) f (insert b B) (l ++ [.lock (.node (some c))]) s
            rfl hL hdl (by omega)
            (by
              intro y hy hmem
              simp only [Finset.mem_insert] at hmem
              rcases hmem with h | h
              · exact hal (h ▸ hy)
              · exact hB y (T.mem_addrs_node.mpr (Or.inl hy)) h)
          refine ⟨l', ?_⟩
          simp only [T.root_node, ne_eq, reduceCtorEq, not_false_eq_true, if_true,
            lock_W hnc hc1, ok_bind, deref_W hn, hl, h2]
      obtain ⟨l2, h2⟩ : ∃ l2,
          (if rt.root ≠ none then
              lock (W ω M (insert b B) l1) (.node rt.root) >>= fun w =>
                deref w (some b) >>= fun n => Node_Traverse_f f w n.right func
                  (func wref (some b) (lt.addrs.foldl (fun s x => func wref (some x) s) s))
            else pure (W ω M (insert b B) l1,
              func wref (some b) (lt.addrs.foldl (fun s x => func wref (some x) s) s))) =
          .ok (W ω M (insert b B) l2,
            (T.node b lt x rt).addrs.foldl (fun s x => func wref (some x) s) s) := by
        cases rt with
        | nil => exact ⟨l1, by simp [T.addrs]⟩
        | node c cl cv cr =>
          obtain ⟨nc, hnc, -⟩ := id hR
          have hcb : c ≠ b := fun h => har (by simp [T.addrs, h])
          have hcB : c ∉ B := hB c (T.mem_addrs_node.mpr (Or.inr (Or.inr (by simp [T.addrs]))))
          have hc1 : c ∉ insert b B := by simp [hcb, hcB]
          obtain ⟨l', h2⟩ := ihr c (some b) f (insert b B) (l1 ++ [.lock (.node (some c))])
            (func wref (some b) (lt.addrs.foldl (fun s x => func wref (some x) s) s))
            rfl hR hdr (by omega)
            (by
              intro y hy hmem
              simp only [Finset.mem_insert] at hmem
              rcases hmem with h | h
              · exact har (h ▸ hy)
              · exact hB y (T.mem_addrs_node.mpr (Or.inr (Or.inr hy))) h)
          refine ⟨l', ?_⟩
          simp only [T.root_node, ne_eq, reduceCtorEq, not_false_eq_true, if_true,
            lock_W hnc hc1, ok_bind, deref_W hn, hr, h2]
          simp [T.addrs, List.foldl_append]
      refine ⟨l2 ++ [.unlock (.node (some b))], ?_⟩
      simp only [pure_eq_ok] at h1 h2
      simp only [Node_Traverse_f, deref_W hn, ok_bind, hl, pure_eq_ok]
      rw [h1]
      simp only [ok_bind, deref_W hn, hr, hfun]
      rw [h2]
      simp only [ok_bind, unlock_W hn (Finset.mem_insert_self b B), Finset.erase_insert hbB]

theorem local_tree_traverse_fine_ok {σ : Type} {w : World} {t : T}
    (h : Inv .FineGrained w t) (func : World → Ptr → σ → σ) (hfunc : ShapeOnly func) (s0 : σ) :
    ∃ w', local_tree_traverse_fine w func s0 =
        .ok (w', t.addrs.foldl (fun s a => func w (some a) s) s0) ∧
      w'.mem = w.mem ∧ w'.tree = w.tree ∧ w'.brk = w.brk := by
  have hW := World.eq_W (h.locks rfl)
  obtain ⟨hroot, hrep, hd, hb⟩ := h.holds
  cases t with
  | nil =>
    simp only [T.root_nil] at hroot
    exact ⟨w, by simp [local_tree_traverse_fine, hroot, T.addrs], rfl, rfl, rfl⟩
  | node a lt x rt =>
    simp only [T.root_node] at hroot
    obtain ⟨na, hna, -⟩ := id hrep
    obtain ⟨l', h1⟩ := Node_Traverse_f_W (ω := w) (M := w.mem) func hfunc w (SameShape.refl _)
      (T.node a lt x rt) a none (w.brk + 1) ∅ (w.log ++ [.lock (.node (some a))]) s0 rfl
      hrep hd (Nat.lt_succ_of_le (T.height_le_brk hd hb)) (fun _ _ => Finset.not_mem_empty _)
    refine ⟨W w w.mem ∅ l', ?_, relock_of_lockSt (h.locks rfl), rfl, rfl⟩
    have hlock : lock w (.node (some a)) =
        .ok (W w w.mem (insert a ∅) (w.log ++ [.lock (.node (some a))])) := by
      conv_lhs => rw [hW]
      exact lock_W hna (Finset.not_mem_empty a)
    simp only [local_tree_traverse_fine, hroot, ne_eq, reduceCtorEq, not_false_eq_true, if_true,
      hlock, ok_bind, W_brk, W_tree]
    exact h1

theorem delete_fine_loop_W {ω : World} {M : Nat → Option i_element_t} {v : Int} :
    ∀ (t : T) (a : Nat) (par : Ptr) (fuel : Nat) (B : Finset Nat) (l : List Ev),
      t.root = some a → Rep M t par → t.addrs.Nodup → t.height < fuel →
      (∀ x ∈ t.addrs, x ∉ B) →
      (∀ p, par = some p → p ∉ B ∧ p ∉ t.addrs ∧ ∃ np, M p = some np) →
      (par = none ↔ ω.tree.root = some a) →
      (∀ x ∈ t.addrs, x ≠ a → ω.tree.root ≠ some x) →
      ∃ l', local_tree_delete_fine_loop fuel (W ω M (insert a (insertOpt par B)) l) (some a) v =
          .ok (W ω M (heldAfterSearch (T.find v t) (T.findPar v t par) B) l', T.find v t) := by
  intro t
  induction t with
  | nil => intro a _ _ _ _ h; simp at h
  | node b lt x rt ihl ihr =>
    intro a par fuel B l hroot hrep hd hf hB hpar hpr hr0
    simp only [T.root_node, Option.some.injEq] at hroot
    subst hroot
    obtain ⟨n, hn, hv, hl, hr, hp, hL, hR⟩ := hrep
    obtain ⟨hdl, hdr, hal, har, hlr⟩ := T.nodup_node.mp hd
    have hbB : b ∉ B := hB b (by simp [T.addrs])
    cases fuel with
    | zero => omega
    | succ f =>
      simp only [T.height] at hf
      simp only [local_tree_delete_fine_loop, deref_W hn, ok_bind, hv, T.find, T.findPar]
      by_cases hxv : x = v
      · refine ⟨l, ?_⟩
        simp only [hxv, ne_eq, not_true_eq_false, if_false, pure_eq_ok, heldAfterSearch]
      · simp only [ne_eq, hxv, not_false_eq_true, if_true]
        -- release the parent unless `curr` is the root
        obtain ⟨l1, h1⟩ : ∃ l1,
            (if ¬(some b : Ptr) = (W ω M (insert b (insertOpt par B)) l).tree.root then
                unlock (W ω M (insert b (insertOpt par B)) l) (.node n.parent)
              else pure (W ω M (insert b (insertOpt par B)) l)) =
            .ok (W ω M (insert b B) l1) := by
          cases hpc : par with
          | none =>
            have : ω.tree.root = some b := hpr.mp hpc
            exact ⟨l, by simp [this]⟩
          | some p =>
            obtain ⟨hpB, hpt, np, hnp⟩ := hpar p hpc
            have hpb : p ≠ b := fun h => hpt (by simp [T.addrs, h])
            have hne : ¬ ω.tree.root = some b := fun h => by
              have := hpr.mpr h; rw [hpc] at this; cases this
            have hne' : ¬ (some b : Ptr) = ω.tree.root := fun h => hne h.symm
            refine ⟨l ++ [.unlock (.node (some p))], ?_⟩
            simp only [W_tree, hne', not_false_eq_true, if_true, hp, hpc, insertOpt_some]
            rw [unlock_W hnp (by simp)]
            rw [Finset.erase_insert_of_ne hpb.symm, Finset.erase_insert hpB]
        simp only [h1, ok_bind, deref_W hn, hv]
        have hfin : (insert b B).erase b = B := Finset.erase_insert hbB
        by_cases hg : x > v
        · simp only [hg, if_true, hl]
          cases lt with
          | nil =>
            cases f with
            | zero => omega
            | succ f' =>
              refine ⟨l1 ++ [.unlock (.node (some b))], ?_⟩
              simp only [T.root_nil, ne_eq, not_true_eq_false, if_false,
                unlock_W hn (Finset.mem_insert_self b B), ok_bind, local_tree_delete_fine_loop,
                hfin, T.find, heldAfterSearch]
          | node c cl cv cr =>
            obtain ⟨nc, hnc, -⟩ := id hL
            have hcb : c ≠ b := fun h => hal (by simp [T.addrs, h])
            have hcB : c ∉ B := hB c (T.mem_addrs_node.mpr (Or.inl (by simp [T.addrs])))
            have hc1 : c ∉ insert b B := by simp [hcb, hcB]
            obtain ⟨l', h2⟩ := ihl c (some b) f B (l1 ++ [.lock (.node (some c))]) rfl hL hdl
              (by omega) (fun y hy => hB y (T.mem_addrs_node.mpr (Or.inl hy)))
              (by
                intro p hp'
                cases hp'
                exact ⟨hbB, hal, n, hn⟩)
              (by
                constructor
                · intro h; cases h
                · intro h
                  exact absurd h (hr0 c (T.mem_addrs_node.mpr (Or.inl (by simp [T.addrs]))) hcb))
              (by
                intro y hy _
                exact hr0 y (T.mem_addrs_node.mpr (Or.inl hy)) (fun h => hal (h ▸ hy)))
            refine ⟨l', ?_⟩
            simp only [T.root_node, ne_eq, reduceCtorEq, not_false_eq_true, if_true,
              lock_W hnc hc1, ok_bind, deref_W hn, hl]
            exact h2
        · simp only [hg, if_false, hr]
          cases rt with
          | nil =>
            cases f with
            | zero => omega
            | succ f' =>
              refine ⟨l1 ++ [.unlock (.node (some b))], ?_⟩
              simp only [T.root_nil, ne_eq, not_true_eq_false, if_false,
                unlock_W hn (Finset.mem_insert_self b B), ok_bind, local_tree_delete_fine_loop,
                hfin, T.find, heldAfterSearch]
          | node c cl cv cr =>
            obtain ⟨nc, hnc, -⟩ := id hR
            have hcb : c ≠ b := fun h => har (by simp [T.addrs, h])
            have hcB : c ∉ B := hB c (T.mem_addrs_node.mpr (Or.inr (Or.inr (by simp [T.addrs]))))
            have hc1 : c ∉ insert b B := by simp [hcb, hcB]
            obtain ⟨l', h2⟩ := ihr c (some b) f B (l1 ++ [.lock (.node (some c))]) rfl hR hdr
              (by omega) (fun y hy => hB y (T.mem_addrs_node.mpr (Or.inr (Or.inr hy))))
              (by
                intro p hp'
                cases hp'
                exact ⟨hbB, har, n, hn⟩)
              (by
                constructor
                · intro h; cases h
                · intro h
                  exact absurd h
                    (hr0 c (T.mem_addrs_node.mpr (Or.inr (Or.inr (by simp [T.addrs])))) hcb))
              (by
                intro y hy _
                exact hr0 y (T.mem_addrs_node.mpr (Or.inr (Or.inr hy))) (fun h => har (h ▸ hy)))
            refine ⟨l', ?_⟩
            simp only [T.root_node, ne_eq, reduceCtorEq, not_false_eq_true, if_true,
              lock_W hnc hc1, ok_bind, deref_W hn, hr]
            exact h2

theorem delete_fine_root_W {ω : World} {M : Nat → Option i_element_t} {c : Nat} {L R : T}
    {v : Int} (hrep : Rep M (.node c L v R) none)
    (hd : (T.node c L v R).addrs.Nodup) (hb : ∀ x ∈ (T.node c L v R).addrs, x < ω.brk)
    (l : List Ev) :
    ∃ M' l', local_tree_delete_fine_root (W ω M {c} l) (some c) =
        .ok (W (set_root ω (T.join L R).root) M' ∅ l') ∧ Rep M' (T.join L R) none := by
  obtain ⟨n, hn, hv, hl, hr, hp, hL, hR⟩ := hrep
  obtain ⟨hdL, hdR, hcL, hcR, hLR⟩ := T.nodup_node.mp hd
  have hbL : ∀ x ∈ L.addrs, x < ω.brk := fun x hx => hb x (by simp [T.addrs, hx])
  have hcc : c ∈ ({c} : Finset Nat) := Finset.mem_singleton_self c
  have hmc : Function.update M c none c = none := by simp
  cases L with
  | nil =>
    cases R with
    | nil =>
      refine ⟨Function.update M c none, l ++ [.unlock (.node (some c))], ?_, trivial⟩
      simp only [local_tree_delete_fine_root, deref_W hn, ok_bind, hl, hr, T.root_nil, ne_eq,
        not_true_eq_false, if_false, pure_eq_ok, set_root_W, unlock_W hn hcc,
        Finset.erase_singleton, destroy_free_W hn, T.join]
    | node e rl ev rr =>
      obtain ⟨ne, hne, -⟩ := id hR
      have hec : e ≠ c := fun h => hcR (by simp [T.addrs, h])
      have he1 : e ∉ ({c} : Finset Nat) := by simp [hec]
      have hm1e : Function.update M e (some { ne with parent := none }) e =
          some { ne with parent := none } := by simp
      have hm1c : Function.update M e (some { ne with parent := none }) c = some n := by
        simp [Function.update, hec.symm, hn]
      refine ⟨Function.update (Function.update M e (some { ne with parent := none })) c none,
        l ++ [.lock (.node (some e))] ++ [.unlock (.node (some e))] ++
          [.unlock (.node (some c))], ?_, ?_⟩
      · simp only [local_tree_delete_fine_root, deref_W hn, ok_bind, hl, hr, T.root_nil, ne_eq,
          not_true_eq_false, if_false, T.root_node, reduceCtorEq, not_false_eq_true, if_true,
          lock_W hne he1, set_root_W, W_tree, set_root_root, set_parent_W hne,
          unlock_W hm1e (Finset.mem_insert_self e {c}), Finset.erase_insert he1,
          unlock_W hm1c hcc, Finset.erase_singleton, destroy_free_W hm1c]
        rfl
      · exact (hR.reparent hdR hne none).update_of_not_mem hcR none
  | node a ll lv lr =>
    obtain ⟨na, hna, -⟩ := id hL
    have hac : a ≠ c := fun h => hcL (by simp [T.addrs, h])
    have hm1a : Function.update M a (some { na with parent := none }) a =
        some { na with parent := none } := by simp
    have hm1c : Function.update M a (some { na with parent := none }) c = some n := by
      simp [Function.update, hac.symm, hn]
    have hL1 : Rep (Function.update M a (some { na with parent := none }))
        (.node a ll lv lr) none := hL.reparent hdL hna none
    cases R with
    | nil =>
      have ha1 : a ∉ ({c} : Finset Nat) := by simp [hac]
      refine ⟨Function.update (Function.update M a (some { na with parent := none })) c none,
        l ++ [.lock (.node (some a))] ++ [.unlock (.node (some a))] ++
          [.unlock (.node (some c))], ?_, ?_⟩
      · simp only [local_tree_delete_fine_root, deref_W hn, ok_bind, hl, hr, T.root_nil, ne_eq,
          not_true_eq_false, if_false, T.root_node, reduceCtorEq, not_false_eq_true, if_true,
          pure_eq_ok, lock_W hna ha1, set_root_W, W_tree, set_root_root, set_parent_W hna,
          unlock_W hm1a (Finset.mem_insert_self a {c}), Finset.erase_insert ha1,
          unlock_W hm1c hcc, Finset.erase_singleton, destroy_free_W hm1c]
        rfl
      · exact hL1.update_of_not_mem hcL none
    | node e rl ev rr =>
      obtain ⟨ne, hne, hnev, -⟩ := id hR
      have hec : e ≠ c := fun h => hcR (by simp [T.addrs, h])
      have hae : a ≠ e := fun h => hLR a (by simp [T.addrs]) (by simp [T.addrs, h])
      have he1 : e ∉ ({c} : Finset Nat) := by simp [hec]
      have ha2 : a ∉ insert e ({c} : Finset Nat) := by simp [hac, hae]
      have hm1e : Function.update M a (some { na with parent := none }) e = some ne := by
        simp [Function.update, hae.symm, hne]
      have hR1 : Rep (Function.update M a (some { na with parent := none }))
          (.node e rl ev rr) (some c) :=
        hR.update_of_not_mem (fun h => hLR a (by simp [T.addrs]) h) _
      have heL : e ∉ (T.node a ll lv lr).addrs := fun h => hLR e h (by simp [T.addrs])
      obtain ⟨l', sp, h1, h2, h3⟩ := Node_Insert_f_W (ω := set_root ω (some a))
        (M := Function.update M a (some { na with parent := none })) (e := e) hm1e
        (t := T.node a ll lv lr) (a := a) (ρ := none) rfl hL1 hdL heL
        (T.height_le_brk hdL hbL) (H := insert a (insert e {c})) (by simp) (by simp)
        (by
          intro y hy hya hmem
          simp only [Finset.mem_insert, Finset.mem_singleton] at hmem
          rcases hmem with h | h | h
          · exact hya h
          · exact heL (h ▸ hy)
          · exact hcL (h ▸ hy))
        (l ++ [.lock (.node (some e))] ++ [.lock (.node (some a))])
      have hfin : ((insert a (insert e ({c} : Finset Nat))).erase a).erase e = {c} := by
        rw [Finset.erase_insert ha2, Finset.erase_insert he1]
      rw [hfin] at h1
      have hcsp : c ≠ sp := fun h => hcL (h ▸ h3)
      have hm2c : attach (Function.update M a (some { na with parent := none })) e sp c =
          some n := by
        rw [attach_frame hec.symm hcsp]; exact hm1c
      refine ⟨Function.update
          (attach (Function.update M a (some { na with parent := none })) e sp) c none,
        l' ++ [.unlock (.node (some c))], ?_, ?_⟩
      · simp only [local_tree_delete_fine_root, deref_W hn, ok_bind, hl, hr, ne_eq,
          T.root_node, reduceCtorEq, not_false_eq_true, if_true,
          lock_W hne he1, lock_W hna ha2, set_root_W, W_tree, set_root_root, set_parent_W hna,
          h1, unlock_W hm2c hcc, Finset.erase_singleton, destroy_free_W hm2c]
        simp only [T.join]
        rw [T.graft_root _ _ (by simp)]
        rfl
      · rw [hnev] at h2
        exact (attach_rep hR1 hdR _ none _ sp hL1 hdL hLR (by simp) h2).update_of_not_mem
          (by
            rw [T.mem_addrs_graft]
            exact fun h => h.elim hcL hcR) none

theorem relink_frame {left : Bool} {M : Nat → Option i_element_t} {p : Nat} {q : Ptr} {x : Nat}
    (hp : x ≠ p) (hq : q ≠ some x) : relink left M p q x = M x := by
  cases q with
  | none => simp [relink, Function.update, hp]
  | some a =>
    have : x ≠ a := fun h => hq (by rw [h])
    simp [relink, Function.update, hp, this]

theorem relink_left_rep {M : Nat → Option i_element_t} {p c : Nat} {L R Y : T} {pv v : Int}
    {par : Ptr} (hrep : Rep M (.node p (.node c L v R) pv Y) par)
    (hd : (T.node p (.node c L v R) pv Y).addrs.Nodup) :
    Rep (relink true M p L.root) (.node p L pv Y) par ∧
      Rep (relink true M p L.root) R (some c) ∧
      relink true M p L.root c = M c := by
  obtain ⟨np, hnp, hpv, hpl, hpr, hpp, hC, hY⟩ := hrep
  obtain ⟨nc, hnc, hcv, hcl, hcr, hcp, hL, hR⟩ := id hC
  obtain ⟨hdC, hdY, hpC, hpY, hCY⟩ := T.nodup_node.mp hd
  obtain ⟨hdL, hdR, hcL, hcR, hLR⟩ := T.nodup_node.mp hdC
  have hpc : p ≠ c := fun h => hpC (by simp [T.addrs, h])
  have hpL : p ∉ L.addrs := fun h => hpC (by simp [T.addrs, h])
  have hpR : p ∉ R.addrs := fun h => hpC (by simp [T.addrs, h])
  have hLY : ∀ x ∈ L.addrs, x ∉ Y.addrs := fun x hx => hCY x (by simp [T.addrs, hx])
  cases L with
  | nil =>
    refine ⟨⟨{ np with left := none }, by simp [relink, hnp], hpv, rfl, hpr, hpp, trivial,
      ?_⟩, ?_, ?_⟩
    · simpa [relink, hnp] using hY.update_of_not_mem hpY _
    · simpa [relink, hnp] using hR.update_of_not_mem hpR _
    · simp [relink, Function.update, hpc.symm]
  | node a ll lv lr =>
    obtain ⟨na, hna, -⟩ := id hL
    have hap : a ≠ p := fun h => hpL (by simp [T.addrs, h])
    have hac : a ≠ c := fun h => hcL (by simp [T.addrs, h])
    have haY : a ∉ Y.addrs := hLY a (by simp [T.addrs])
    have haR : a ∉ R.addrs := hLR a (by simp [T.addrs])
    have hM : relink true M p (T.node a ll lv lr).root =
        Function.update (Function.update M p (some { np with left := some a })) a
          (some { na with parent := some p }) := by
      simp [relink, hnp, Function.update, hap, hna]
    rw [hM]
    refine ⟨⟨{ np with left := some a }, ?_, hpv, rfl, hpr, hpp, ?_, ?_⟩, ?_, ?_⟩
    · simp [Function.update, hap.symm]
    · exact (hL.update_of_not_mem hpL _).reparent hdL
        (by simp [Function.update, hap, hna]) (some p)
    · exact (hY.update_of_not_mem hpY _).update_of_not_mem haY _
    · exact (hR.update_of_not_mem hpR _).update_of_not_mem haR _
    · simp [Function.update, hac.symm, hpc.symm]

theorem relink_right_rep {M : Nat → Option i_element_t} {p c : Nat} {L R X : T} {pv v : Int}
    {par : Ptr} (hrep : Rep M (.node p X pv (.node c L v R)) par)
    (hd : (T.node p X pv (.node c L v R)).addrs.Nodup) :
    Rep (relink false M p L.root) (.node p X pv L) par ∧
      Rep (relink false M p L.root) R (some c) ∧
      relink false M p L.root c = M c := by
  obtain ⟨np, hnp, hpv, hpl, hpr, hpp, hX, hC⟩ := hrep
  obtain ⟨nc, hnc, hcv, hcl, hcr, hcp, hL, hR⟩ := id hC
  obtain ⟨hdX, hdC, hpX, hpC, hXC⟩ := T.nodup_node.mp hd
  obtain ⟨hdL, hdR, hcL, hcR, hLR⟩ := T.nodup_node.mp hdC
  have hpc : p ≠ c := fun h => hpC (by simp [T.addrs, h])
  have hpL : p ∉ L.addrs := fun h => hpC (by simp [T.addrs, h])
  have hpR : p ∉ R.addrs := fun h => hpC (by simp [T.addrs, h])
  have hXL : ∀ x ∈ X.addrs, x ∉ L.addrs := fun x hx h => hXC x hx (by simp [T.addrs, h])
  cases L with
  | nil =>
    refine ⟨⟨{ np with right := none }, by simp [relink, hnp], hpv, hpl, rfl, hpp, ?_,
      trivial⟩, ?_, ?_⟩
    · simpa [relink, hnp] using hX.update_of_not_mem hpX _
    · simpa [relink, hnp] using hR.update_of_not_mem hpR _
    · simp [relink, Function.update, hpc.symm]
  | node a ll lv lr =>
    obtain ⟨na, hna, -⟩ := id hL
    have hap : a ≠ p := fun h => hpL (by simp [T.addrs, h])
    have hac : a ≠ c := fun h => hcL (by simp [T.addrs, h])
    have haX : a ∉ X.addrs := fun h => hXL a h (by simp [T.addrs])
    have haR : a ∉ R.addrs := hLR a (by simp [T.addrs])
    have hM : relink false M p (T.node a ll lv lr).root =
        Function.update (Function.update M p (some { np with right := some a })) a
          (some { na with parent := some p }) := by
      simp [relink, hnp, Function.update, hap, hna]
    rw [hM]
    refine ⟨⟨{ np with right := some a }, ?_, hpv, hpl, rfl, hpp, ?_, ?_⟩, ?_, ?_⟩
    · simp [Function.update, hap.symm]
    · exact (hX.update_of_not_mem hpX _).update_of_not_mem haX _
    · exact (hL.update_of_not_mem hpL _).reparent hdL
        (by simp [Function.update, hap, hna]) (some p)
    · exact (hR.update_of_not_mem hpR _).update_of_not_mem haR _
    · simp [Function.update, hac.symm, hpc.symm]

theorem graftMem_rep {M2 : Nat → Option i_element_t} {P R : T} {par : Ptr} {c : Nat}
    (hP : Rep M2 P par) (hPne : P ≠ .nil) (hR : Rep M2 R (some c))
    (hdP : P.addrs.Nodup) (hdR : R.addrs.Nodup) (hdis : ∀ x ∈ P.addrs, x ∉ R.addrs)
    (hcP : c ∉ P.addrs) (hcR : c ∉ R.addrs) :
    Rep (Function.update (graftMem M2 R P) c none) (T.join P R) par ∧
      (∀ x, x ∉ P.addrs → x ∉ R.addrs → x ≠ c → Function.update (graftMem M2 R P) c none x = M2 x) ∧
      graftMem M2 R P c = M2 c := by
  cases R with
  | nil =>
    refine ⟨hP.update_of_not_mem hcP none, ?_, rfl⟩
    intro x _ _ hx
    simp [graftMem, Function.update, hx]
  | node e rl ev rr =>
    obtain ⟨sp, hsp, hmem⟩ := T.slot_mem ev P P.root hPne
    have hce : c ≠ e := fun h => hcR (by simp [T.addrs, h])
    have hcsp : c ≠ sp := fun h => hcP (h ▸ hmem)
    have hG : graftMem M2 (T.node e rl ev rr) P = attach M2 e sp := by
      simp [graftMem, hsp]
    rw [hG]
    refine ⟨?_, ?_, attach_frame hce hcsp⟩
    · exact (attach_rep hR hdR P par P.root sp hP hdP hdis hPne hsp).update_of_not_mem
        (by
          rw [T.mem_addrs_graft]
          exact fun h => h.elim hcP hcR) none
    · intro x hxP hxR hxc
      have hxe : x ≠ e := fun h => hxR (by simp [T.addrs, h])
      have hxsp : x ≠ sp := fun h => hxP (h ▸ hmem)
      simp only [Function.update_noteq hxc]
      exact attach_frame hxe hxsp

theorem lockOpt_W {ω : World} {M : Nat → Option i_element_t} {H : Finset Nat} {l : List Ev}
    {q : Ptr} (hq : ∀ e, q = some e → (∃ ne, M e = some ne) ∧ e ∉ H) :
    ∃ l', (if q ≠ none then lock (W ω M H l) (.node q) else pure (W ω M H l)) =
      .ok (W ω M (insertOpt q H) l') := by
  cases q with
  | none => exact ⟨l, by simp⟩
  | some e =>
    obtain ⟨⟨ne, hne⟩, heH⟩ := hq e rfl
    exact ⟨l ++ [.lock (.node (some e))], by simp [lock_W hne heH]⟩

theorem fine_tail_W {ω : World} {M2 : Nat → Option i_element_t} {P R : T} {par : Ptr}
    {p c : Nat} {nc : i_element_t}
    (hP : Rep M2 P par) (hroot : P.root = some p) (hR : Rep M2 R (some c))
    (hdP : P.addrs.Nodup) (hdis : ∀ x ∈ P.addrs, x ∉ R.addrs)
    (hcP : c ∉ P.addrs) (hcR : c ∉ R.addrs) (hmc : M2 c = some nc)
    (hpar : nc.parent = some p) (hb : ∀ x ∈ P.addrs, x < ω.brk) (l : List Ev) :
    ∃ l', (deref (W ω M2 (insertOpt R.root {p, c}) l) (some c) >>= fun c' =>
        (if R.root ≠ none then
          Node_Insert_f (W ω M2 (insertOpt R.root {p, c}) l) c'.parent R.root
         else unlock (W ω M2 (insertOpt R.root {p, c}) l) (.node c'.parent))) =
      .ok (W ω (graftMem M2 R P) {c} l') := by
  have hPne : P ≠ .nil := by
    intro h; subst h; simp at hroot
  have hpP : p ∈ P.addrs := T.root_mem_addrs hroot
  have hpc : p ≠ c := fun h => hcP (h ▸ hpP)
  obtain ⟨np, hnp⟩ := hP.get hpP
  cases R with
  | nil =>
    refine ⟨l ++ [.unlock (.node (some p))], ?_⟩
    have hfin : ({p, c} : Finset Nat).erase p = {c} := by
      rw [Finset.erase_insert (by simp [hpc])]
    simp only [deref_W hmc, ok_bind, T.root_nil, ne_eq, not_true_eq_false, if_false, hpar,
      insertOpt_none, unlock_W hnp (show p ∈ ({p, c} : Finset Nat) by simp), hfin, graftMem]
  | node e rl ev rr =>
    obtain ⟨ne, hne, hnev, -⟩ := id hR
    have heP : e ∉ P.addrs := fun h => hdis e h (by simp [T.addrs])
    have hep : e ≠ p := fun h => heP (h ▸ hpP)
    have hec : e ≠ c := fun h => hcR (by simp [T.addrs, h])
    obtain ⟨l', sp, h1, h2, h3⟩ := Node_Insert_f_W (ω := ω) (M := M2) (e := e) hne
      (t := P) (a := p) (ρ := par) hroot hP hdP heP (T.height_le_brk hdP hb)
      (H := insert e {p, c}) (by simp) (by simp)
      (by
        intro y hy hyp hmem
        simp only [Finset.mem_insert, Finset.mem_singleton] at hmem
        rcases hmem with h | h | h
        · exact heP (h ▸ hy)
        · exact hyp h
        · exact hcP (h ▸ hy))
      l
    have hfin : ((insert e ({p, c} : Finset Nat)).erase p).erase e = {c} := by
      ext y
      simp only [Finset.mem_insert, Finset.mem_erase, Finset.mem_singleton]
      constructor
      · rintro ⟨h1, h2, h3 | h3 | h3⟩
        · exact absurd h3 h1
        · exact absurd h3 h2
        · exact h3
      · intro h; subst h
        exact ⟨hec.symm, hpc.symm, Or.inr (Or.inr rfl)⟩
    rw [hfin] at h1
    refine ⟨l', ?_⟩
    rw [hnev] at h2
    simp only [deref_W hmc, ok_bind, T.root_node, ne_eq, reduceCtorEq, not_false_eq_true,
      if_true, hpar, insertOpt_some, h1, graftMem, h2]

theorem relink_none {left : Bool} {M : Nat → Option i_element_t} {p : Nat} {np : i_element_t}
    (hnp : M p = some np) :
    relink left M p none =
      Function.update M p
        (some (if left then { np with left := none } else { np with right := none })) := by
  simp [relink, hnp]

theorem relink_some {left : Bool} {M : Nat → Option i_element_t} {p a : Nat}
    {np na : i_element_t} (hnp : M p = some np) (hna : M a = some na) (hap : a ≠ p) :
    relink left M p (some a) =
      Function.update
        (Function.update M p
          (some (if left then { np with left := some a } else { np with right := some a })))
        a (some { na with parent := some p }) := by
  simp [relink, hnp, Function.update, hap, hna]

theorem delete_fine_inner_left_W {ω : World} {M : Nat → Option i_element_t} {p c : Nat}
    {L R Y : T} {pv v : Int} {par : Ptr}
    (hrep : Rep M (.node p (.node c L v R) pv Y) par)
    (hd : (T.node p (.node c L v R) pv Y).addrs.Nodup)
    (hb : ∀ x ∈ (T.node p (.node c L v R) pv Y).addrs, x < ω.brk)
    (hord : ∀ y ∈ R.vals, y < pv) (l : List Ev) :
    ∃ M' l', local_tree_delete_fine_inner (W ω M {p, c} l) (some c) = .ok (W ω M' ∅ l') ∧
      Rep M' (.node p (T.join L R) pv Y) par ∧
      (∀ x, x ∉ (T.node p (.node c L v R) pv Y).addrs → M' x = M x) := by
  obtain ⟨hP2, hR2, hc2⟩ := relink_left_rep hrep hd
  obtain ⟨np, hnp, hpv, hpl, hpr, hpp, hC, hY⟩ := hrep
  obtain ⟨nc, hnc, hcv, hcl, hcr, hcp, hL, hR⟩ := id hC
  obtain ⟨hdC, hdY, hpC, hpY, hCY⟩ := T.nodup_node.mp hd
  obtain ⟨hdL, hdR, hcL, hcR, hLR⟩ := T.nodup_node.mp hdC
  have hpc : p ≠ c := fun h => hpC (by simp [T.addrs, h])
  have hpL : p ∉ L.addrs := fun h => hpC (by simp [T.addrs, h])
  have hpR : p ∉ R.addrs := fun h => hpC (by simp [T.addrs, h])
  have hcY : c ∉ Y.addrs := hCY c (by simp [T.addrs])
  have hLY : ∀ x ∈ L.addrs, x ∉ Y.addrs := fun x hx => hCY x (by simp [T.addrs, hx])
  have hRY : ∀ x ∈ R.addrs, x ∉ Y.addrs := fun x hx => hCY x (by simp [T.addrs, hx])
  have hdP : (T.node p L pv Y).addrs.Nodup := T.nodup_node.mpr ⟨hdL, hdY, hpL, hpY, hLY⟩
  have hdis : ∀ x ∈ (T.node p L pv Y).addrs, x ∉ R.addrs := by
    intro x hx
    rcases T.mem_addrs_node.mp hx with h | h | h
    · exact hLR x h
    · subst h; exact hpR
    · exact fun hr' => hRY x hr' h
  have hcP : c ∉ (T.node p L pv Y).addrs := by
    intro h
    rcases T.mem_addrs_node.mp h with h | h | h
    · exact hcL h
    · exact hpc h.symm
    · exact hcY h
  have hbP : ∀ x ∈ (T.node p L pv Y).addrs, x < ω.brk := by
    intro x hx
    apply hb
    simp only [T.addrs, List.mem_append, List.mem_cons] at hx ⊢
    tauto
  rw [hnc] at hc2
  -- the optional lock of the right child
  obtain ⟨l1, h1⟩ := lockOpt_W (ω := ω) (M := M) (H := {p, c}) (l := l) (q := R.root)
    (by
      intro e he
      have heR : e ∈ R.addrs := T.root_mem_addrs he
      refine ⟨hR.get heR, ?_⟩
      simp only [Finset.mem_insert, Finset.mem_singleton]
      rintro (h | h)
      · exact hpR (h ▸ heR)
      · exact hcR (h ▸ heR))
  obtain ⟨G, hG, hG3⟩ := graftMem_rep hP2 (by simp) hR2 hdP hdR hdis hcP hcR
  have hGc : graftMem (relink true M p L.root) R (T.node p L pv Y) c = some nc := hG3.trans hc2
  refine ⟨Function.update (graftMem (relink true M p L.root) R (.node p L pv Y)) c none, ?_⟩
  -- the steps up to the re-insertion of the right subtree
  simp only [ne_eq, pure_eq_ok] at h1
  obtain ⟨l3, h3⟩ : ∃ l3,
      local_tree_delete_fine_inner (W ω M {p, c} l) (some c) =
        ((deref (W ω (relink true M p L.root) (insertOpt R.root {p, c}) l3) (some c) >>=
          fun c' =>
            (if R.root ≠ none then
              Node_Insert_f (W ω (relink true M p L.root) (insertOpt R.root {p, c}) l3)
                c'.parent R.root
             else unlock (W ω (relink true M p L.root) (insertOpt R.root {p, c}) l3)
                (.node c'.parent))) >>= fun w =>
          unlock w (.node (some c)) >>= fun w =>
          pthread_mutex_destroy w (some c) >>= fun w => free w (some c)) := by
    cases L with
    | nil =>
      have hM1c : Function.update M p (some { np with left := none }) c = some nc := by
        simp [Function.update, hpc.symm, hnc]
      refine ⟨l1, ?_⟩
      simp only [local_tree_delete_fine_inner, deref_W hnc, ok_bind, hcr, h1, hcl, T.root_nil,
        ne_eq, not_true_eq_false, if_false, pure_eq_ok, hcp, deref_W hnp, hpl, T.root_node,
        if_true, set_left_W hnp, deref_W hM1c, relink_none hnp]
    | node a ll lv lr =>
      obtain ⟨na, hna, -⟩ := id hL
      have hap : a ≠ p := fun h => hpL (by simp [T.addrs, h])
      have hac : a ≠ c := fun h => hcL (by simp [T.addrs, h])
      have haR : a ∉ R.addrs := hLR a (by simp [T.addrs])
      have haH : a ∉ insertOpt R.root ({p, c} : Finset Nat) := by
        cases hRr : R.root with
        | none => simp [hap, hac]
        | some e =>
          have : a ≠ e := fun h => haR (h ▸ T.root_mem_addrs hRr)
          simp [hap, hac, this]
      have hM1c : Function.update M p (some { np with left := some a }) c = some nc := by
        simp [Function.update, hpc.symm, hnc]
      have hM1a : Function.update M p (some { np with left := some a }) a = some na := by
        simp [Function.update, hap, hna]
      have hM2c : Function.update (Function.update M p (some { np with left := some a })) a
          (some { na with parent := some p }) c = some nc := by
        simp [Function.update, hpc.symm, hac.symm, hnc]
      have hM2a : Function.update (Function.update M p (some { np with left := some a })) a
          (some { na with parent := some p }) a = some { na with parent := some p } := by simp
      refine ⟨l1 ++ [.lock (.node (some a))] ++ [.unlock (.node (some a))], ?_⟩
      simp only [local_tree_delete_fine_inner, deref_W hnc, ok_bind, hcr, h1, hcl, T.root_node,
        ne_eq, reduceCtorEq, not_false_eq_true, if_true, lock_W hna haH, hcp, deref_W hnp, hpl,
        pure_eq_ok,
        set_left_W hnp, deref_W hM1c, set_parent_W hM1a, deref_W hM2c,
        unlock_W hM2a (Finset.mem_insert_self a _), Finset.erase_insert haH,
        relink_some hnp hna hap]
  obtain ⟨l4, h4⟩ := fine_tail_W (ω := ω) hP2 rfl hR2 hdP hdis hcP hcR hc2 hcp hbP l3
  refine ⟨l4 ++ [.unlock (.node (some c))], ?_, ?_, ?_⟩
  · rw [h3, h4]
    simp only [ok_bind, unlock_W hGc (Finset.mem_singleton_self c), Finset.erase_singleton]
    exact destroy_free_W hGc
  · rw [T.join_node_left hord] at G; exact G
  · intro x hx
    have hx' : x ∉ L.addrs ∧ x ≠ c ∧ x ∉ R.addrs ∧ x ≠ p ∧ x ∉ Y.addrs := by
      simp only [T.addrs, List.mem_append, List.mem_cons] at hx
      tauto
    rw [hG x (by
      intro h
      rcases T.mem_addrs_node.mp h with h | h | h
      · exact hx'.1 h
      · exact hx'.2.2.2.1 h
      · exact hx'.2.2.2.2 h) hx'.2.2.1 hx'.2.1]
    exact relink_frame hx'.2.2.2.1 (fun h => hx'.1 (T.root_mem_addrs h))

theorem delete_fine_inner_right_W {ω : World} {M : Nat → Option i_element_t} {p c : Nat}
    {L R X : T} {pv v : Int} {par : Ptr}
    (hrep : Rep M (.node p X pv (.node c L v R)) par)
    (hd : (T.node p X pv (.node c L v R)).addrs.Nodup)
    (hb : ∀ x ∈ (T.node p X pv (.node c L v R)).addrs, x < ω.brk)
    (hord : ∀ y ∈ R.vals, pv ≤ y) (l : List Ev) :
    ∃ M' l', local_tree_delete_fine_inner (W ω M {p, c} l) (some c) = .ok (W ω M' ∅ l') ∧
      Rep M' (.node p X pv (T.join L R)) par ∧
      (∀ x, x ∉ (T.node p X pv (.node c L v R)).addrs → M' x = M x) := by
  obtain ⟨hP2, hR2, hc2⟩ := relink_right_rep hrep hd
  obtain ⟨np, hnp, hpv, hpl, hpr, hpp, hX, hC⟩ := hrep
  obtain ⟨nc, hnc, hcv, hcl, hcr, hcp, hL, hR⟩ := id hC
  obtain ⟨hdX, hdC, hpX, hpC, hXC⟩ := T.nodup_node.mp hd
  obtain ⟨hdL, hdR, hcL, hcR, hLR⟩ := T.nodup_node.mp hdC
  have hpc : p ≠ c := fun h => hpC (by simp [T.addrs, h])
  have hpL : p ∉ L.addrs := fun h => hpC (by simp [T.addrs, h])
  have hpR : p ∉ R.addrs := fun h => hpC (by simp [T.addrs, h])
  have hcX : c ∉ X.addrs := fun h => hXC c h (by simp [T.addrs])
  have hXL : ∀ x ∈ X.addrs, x ∉ L.addrs := fun x hx h => hXC x hx (by simp [T.addrs, h])
  have hXR : ∀ x ∈ X.addrs, x ∉ R.addrs := fun x hx h => hXC x hx (by simp [T.addrs, h])
  have hnl : ¬ np.left = some c := by
    rw [hpl]; intro h; exact hcX (T.root_mem_addrs h)
  have hdP : (T.node p X pv L).addrs.Nodup := T.nodup_node.mpr ⟨hdX, hdL, hpX, hpL, hXL⟩
  have hdis : ∀ x ∈ (T.node p X pv L).addrs, x ∉ R.addrs := by
    intro x hx
    rcases T.mem_addrs_node.mp hx with h | h | h
    · exact hXR x h
    · subst h; exact hpR
    · exact hLR x h
  have hcP : c ∉ (T.node p X pv L).addrs := by
    intro h
    rcases T.mem_addrs_node.mp h with h | h | h
    · exact hcX h
    · exact hpc h.symm
    · exact hcL h
  have hbP : ∀ x ∈ (T.node p X pv L).addrs, x < ω.brk := by
    intro x hx
    apply hb
    simp only [T.addrs, List.mem_append, List.mem_cons] at hx ⊢
    tauto
  rw [hnc] at hc2
  obtain ⟨l1, h1⟩ := lockOpt_W (ω := ω) (M := M) (H := {p, c}) (l := l) (q := R.root)
    (by
      intro e he
      have heR : e ∈ R.addrs := T.root_mem_addrs he
      refine ⟨hR.get heR, ?_⟩
      simp only [Finset.mem_insert, Finset.mem_singleton]
      rintro (h | h)
      · exact hpR (h ▸ heR)
      · exact hcR (h ▸ heR))
  obtain ⟨G, hG, hG3⟩ := graftMem_rep hP2 (by simp) hR2 hdP hdR hdis hcP hcR
  have hGc : graftMem (relink false M p L.root) R (T.node p X pv L) c = some nc := hG3.trans hc2
  refine ⟨Function.update (graftMem (relink false M p L.root) R (.node p X pv L)) c none, ?_⟩
  simp only [ne_eq, pure_eq_ok] at h1
  obtain ⟨l3, h3⟩ : ∃ l3,
      local_tree_delete_fine_inner (W ω M {p, c} l) (some c) =
        ((deref (W ω (relink false M p L.root) (insertOpt R.root {p, c}) l3) (some c) >>=
          fun c' =>
            (if R.root ≠ none then
              Node_Insert_f (W ω (relink false M p L.root) (insertOpt R.root {p, c}) l3)
                c'.parent R.root
             else unlock (W ω (relink false M p L.root) (insertOpt R.root {p, c}) l3)
                (.node c'.parent))) >>= fun w =>
          unlock w (.node (some c)) >>= fun w =>
          pthread_mutex_destroy w (some c) >>= fun w => free w (some c)) := by
    cases L with
    | nil =>
      have hM1c : Function.update M p (some { np with right := none }) c = some nc := by
        simp [Function.update, hpc.symm, hnc]
      refine ⟨l1, ?_⟩
      simp only [local_tree_delete_fine_inner, deref_W hnc, ok_bind, hcr, h1, hcl, T.root_nil,
        ne_eq, not_true_eq_false, if_false, pure_eq_ok, hcp, deref_W hnp, hnl,
        set_right_W hnp, deref_W hM1c, relink_none hnp, Bool.false_eq_true]
    | node a ll lv lr =>
      obtain ⟨na, hna, -⟩ := id hL
      have hap : a ≠ p := fun h => hpL (by simp [T.addrs, h])
      have hac : a ≠ c := fun h => hcL (by simp [T.addrs, h])
      have haR : a ∉ R.addrs := hLR a (by simp [T.addrs])
      have haH : a ∉ insertOpt R.root ({p, c} : Finset Nat) := by
        cases hRr : R.root with
        | none => simp [hap, hac]
        | some e =>
          have : a ≠ e := fun h => haR (h ▸ T.root_mem_addrs hRr)
          simp [hap, hac, this]
      have hM1c : Function.update M p (some { np with right := some a }) c = some nc := by
        simp [Function.update, hpc.symm, hnc]
      have hM1a : Function.update M p (some { np with right := some a }) a = some na := by
        simp [Function.update, hap, hna]
      have hM2c : Function.update (Function.update M p (some { np with right := some a })) a
          (some { na with parent := some p }) c = some nc := by
        simp [Function.update, hpc.symm, hac.symm, hnc]
      have hM2a : Function.update (Function.update M p (some { np with right := some a })) a
          (some { na with parent := some p }) a = some { na with parent := some p } := by simp
      refine ⟨l1 ++ [.lock (.node (some a))] ++ [.unlock (.node (some a))], ?_⟩
      simp only [local_tree_delete_fine_inner, deref_W hnc, ok_bind, hcr, h1, hcl, T.root_node,
        ne_eq, reduceCtorEq, not_false_eq_true, if_true, lock_W hna haH, hcp, deref_W hnp, hnl,
        pure_eq_ok, if_false,
        set_right_W hnp, deref_W hM1c, set_parent_W hM1a, deref_W hM2c,
        unlock_W hM2a (Finset.mem_insert_self a _), Finset.erase_insert haH,
        relink_some hnp hna hap, Bool.false_eq_true]
  obtain ⟨l4, h4⟩ := fine_tail_W (ω := ω) hP2 rfl hR2 hdP hdis hcP hcR hc2 hcp hbP l3
  refine ⟨l4 ++ [.unlock (.node (some c))], ?_, ?_, ?_⟩
  · rw [h3, h4]
    simp only [ok_bind, unlock_W hGc (Finset.mem_singleton_self c), Finset.erase_singleton]
    exact destroy_free_W hGc
  · rw [T.join_node_right hord] at G; exact G
  · intro x hx
    have hx' : x ∉ L.addrs ∧ x ≠ c ∧ x ∉ R.addrs ∧ x ≠ p ∧ x ∉ X.addrs := by
      simp only [T.addrs, List.mem_append, List.mem_cons] at hx
      tauto
    rw [hG x (by
      intro h
      rcases T.mem_addrs_node.mp h with h | h | h
      · exact hx'.2.2.2.2 h
      · exact hx'.2.2.2.1 h
      · exact hx'.1 h) hx'.2.2.1 hx'.2.1]
    exact relink_frame hx'.2.2.2.1 (fun h => hx'.1 (T.root_mem_addrs h))

theorem delete_fine_inner_at {ω : World} {M : Nat → Option i_element_t} {v : Int} {c : Nat} :
    ∀ (t : T) (par : Ptr), Rep M t par → t.addrs.Nodup → (∀ x ∈ t.addrs, x < ω.brk) →
      t.BST → t.root ≠ some c → T.find v t = some c → ∀ l : List Ev,
      ∃ p M' l', T.findPar v t par = some p ∧
        local_tree_delete_fine_inner (W ω M {p, c} l) (some c) = .ok (W ω M' ∅ l') ∧
        Rep M' (T.del v t) par ∧ (∀ x, x ∉ t.addrs → M' x = M x) := by
  intro t
  induction t with
  | nil => intro _ _ _ _ _ _ h; simp [T.find] at h
  | node a l x r ihl ihr =>
    intro par hrep hd hb hbst hroot hfind lg
    have hxv : x ≠ v := by
      intro h
      simp only [T.find, h, ne_eq, not_true_eq_false, if_false] at hfind
      exact hroot hfind
    obtain ⟨hbl, hbr, hlv, hrv⟩ := hbst
    obtain ⟨hdl, hdr, hal, har, hlr⟩ := T.nodup_node.mp hd
    simp only [T.find, ne_eq, hxv, not_false_eq_true, if_true] at hfind
    simp only [T.del, T.findPar, ne_eq, hxv, not_false_eq_true, if_true]
    by_cases hg : x > v
    · simp only [hg, if_true] at hfind ⊢
      cases l with
      | nil => simp [T.find] at hfind
      | node c' L lv R =>
        by_cases hlv' : lv = v
        · subst hlv'
          simp only [T.find, ne_eq, not_true_eq_false, if_false, Option.some.injEq] at hfind
          subst hfind
          simp only [T.del, T.findPar, ne_eq, not_true_eq_false, if_false]
          obtain ⟨M', l', h1, h2, h3⟩ := delete_fine_inner_left_W (ω := ω) hrep hd hb
            (fun y hy => hlv y (by simp [T.vals, hy])) lg
          exact ⟨a, M', l', rfl, h1, h2, h3⟩
        · have hroot' : (T.node c' L lv R).root ≠ some c := by
            intro h
            simp only [T.root_node, Option.some.injEq] at h
            subst h
            simp only [T.find, ne_eq, hlv', not_false_eq_true, if_true] at hfind
            have hm : c' ∈ (T.del v (T.node c' L lv R)).addrs :=
              T.root_mem_addrs (T.del_root (a := c') (l := L) (r := R) hlv')
            have hfind' : T.find v (T.node c' L lv R) = some c' := by
              simp only [T.find, ne_eq, hlv', not_false_eq_true, if_true]; exact hfind
            have hp := (T.addrs_del_perm hfind').nodup_iff.mp hdl
            exact (List.nodup_cons.mp hp).1 hm
          obtain ⟨n, hn, hv, hl, hr, hp, hL, hR⟩ := hrep
          obtain ⟨p, M', l', h0, h1, h2, h3⟩ := ihl (some a) hL hdl
            (fun y hy => hb y (T.mem_addrs_node.mpr (Or.inl hy))) hbl hroot' hfind lg
          refine ⟨p, M', l', h0, h1, ⟨n, ?_, hv, ?_, hr, hp, h2, hR.frame ?_⟩, ?_⟩
          · rw [h3 a hal]; exact hn
          · rw [T.del_root hlv']; exact hl
          · intro y hy; exact h3 y (fun h => hlr y h hy)
          · intro y hy
            exact h3 y (fun h => hy (T.mem_addrs_node.mpr (Or.inl h)))
    · simp only [hg, if_false] at hfind ⊢
      cases r with
      | nil => simp [T.find] at hfind
      | node c' L rv R =>
        by_cases hrv' : rv = v
        · subst hrv'
          simp only [T.find, ne_eq, not_true_eq_false, if_false, Option.some.injEq] at hfind
          subst hfind
          simp only [T.del, T.findPar, ne_eq, not_true_eq_false, if_false]
          obtain ⟨M', l', h1, h2, h3⟩ := delete_fine_inner_right_W (ω := ω) hrep hd hb
            (fun y hy => hrv y (by simp [T.vals, hy])) lg
          exact ⟨a, M', l', rfl, h1, h2, h3⟩
        · have hroot' : (T.node c' L rv R).root ≠ some c := by
            intro h
            simp only [T.root_node, Option.some.injEq] at h
            subst h
            simp only [T.find, ne_eq, hrv', not_false_eq_true, if_true] at hfind
            have hm : c' ∈ (T.del v (T.node c' L rv R)).addrs :=
              T.root_mem_addrs (T.del_root (a := c') (l := L) (r := R) hrv')
            have hfind' : T.find v (T.node c' L rv R) = some c' := by
              simp only [T.find, ne_eq, hrv', not_false_eq_true, if_true]; exact hfind
            have hp := (T.addrs_del_perm hfind').nodup_iff.mp hdr
            exact (List.nodup_cons.mp hp).1 hm
          obtain ⟨n, hn, hv, hl, hr, hp, hL, hR⟩ := hrep
          obtain ⟨p, M', l', h0, h1, h2, h3⟩ := ihr (some a) hR hdr
            (fun y hy => hb y (T.mem_addrs_node.mpr (Or.inr (Or.inr hy)))) hbr hroot' hfind lg
          refine ⟨p, M', l', h0, h1, ⟨n, ?_, hv, hl, ?_, hp, hL.frame ?_, h2⟩, ?_⟩
          · rw [h3 a har]; exact hn
          · rw [T.del_root hrv']; exact hr
          · intro y hy; exact h3 y (fun h => hlr y hy h)
          · intro y hy
            exact h3 y (fun h => hy (T.mem_addrs_node.mpr (Or.inr (Or.inr h))))

theorem local_tree_delete_fine_ok {w : World} {t : T} (h : Inv .FineGrained w t) (v : Int) :
    ∃ w', local_tree_delete_fine w v = .ok w' ∧ Inv .FineGrained w' (T.del v t) ∧
      w'.brk = w.brk ∧ (T.find v t = none → w'.mem = w.mem ∧ w'.tree = w.tree) := by
  have hW := World.eq_W (h.locks rfl)
  obtain ⟨hroot, hrep, hd, hb⟩ := h.holds
  cases t with
  | nil =>
    simp only [T.root_nil] at hroot
    exact ⟨w, by simp [local_tree_delete_fine, hroot], h, rfl, fun _ => ⟨rfl, rfl⟩⟩
  | node a lt x rt =>
    simp only [T.root_node] at hroot
    obtain ⟨na, hna, -⟩ := id hrep
    have hlock : lock w (.node (some a)) =
        .ok (W w w.mem (insert a ∅) (w.log ++ [.lock (.node (some a))])) := by
      conv_lhs => rw [hW]
      exact lock_W hna (Finset.not_mem_empty a)
    obtain ⟨l1, h1⟩ := delete_fine_loop_W (ω := w) (M := w.mem) (v := v) (T.node a lt x rt) a
      none (w.brk + 1) ∅ (w.log ++ [.lock (.node (some a))]) rfl hrep hd
      (Nat.lt_succ_of_le (T.height_le_brk hd hb)) (fun _ _ => Finset.not_mem_empty _)
      (by intro p hp; cases hp) (by simp [hroot])
      (by
        intro y hy hya
        rw [hroot]
        exact fun h => hya (Option.some.inj h).symm)
    simp only [insertOpt_none] at h1
    have hstart : local_tree_delete_fine w v =
        (let r := (W w w.mem (heldAfterSearch (T.find v (T.node a lt x rt))
              (T.findPar v (T.node a lt x rt) none) ∅) l1, T.find v (T.node a lt x rt))
         if r.2 ≠ none then
           (if r.2 = r.1.tree.root then local_tree_delete_fine_root r.1 r.2
            else local_tree_delete_fine_inner r.1 r.2)
         else pure r.1) := by
      simp only [local_tree_delete_fine, hroot, ne_eq, reduceCtorEq, not_false_eq_true, if_true,
        hlock, ok_bind, W_brk, W_tree, h1]
    rw [hstart]
    have htf : ∀ (q : Ptr) (M' : Nat → Option i_element_t) (l' : List Ev),
        TFree .FineGrained (W (set_root w q) M' ∅ l') := fun _ _ _ => h.tfree
    cases hf : T.find v (T.node a lt x rt) with
    | none =>
      refine ⟨W w w.mem ∅ l1, ?_, ?_, rfl, fun _ => ⟨relock_of_lockSt (h.locks rfl), rfl⟩⟩
      · simp [heldAfterSearch]
      · rw [T.del_of_find_none hf]
        exact ⟨⟨hroot, hrep.relock _, hd, hb⟩, h.bst, h.tfree, fun _ => lockSt_relock _ _⟩
    | some c =>
      by_cases hca : c = a
      · subst hca
        have hxv : x = v := by
          by_contra hne
          have hp := (T.addrs_del_perm hf).nodup_iff.mp hd
          exact (List.nodup_cons.mp hp).1 (T.root_mem_addrs (T.del_root hne))
        subst hxv
        have hpar : T.findPar x (T.node c lt x rt) none = none := by simp [T.findPar]
        obtain ⟨M', l', e1, e2⟩ := delete_fine_root_W (ω := w) hrep hd hb l1
        have hdel : T.del x (T.node c lt x rt) = T.join lt rt := by simp [T.del]
        refine ⟨W (set_root w (T.join lt rt).root) M' ∅ l', ?_, ?_, rfl,
          fun h => by simp at h⟩
        · simp only [hpar, heldAfterSearch, insertOpt_none, ne_eq, reduceCtorEq,
            not_false_eq_true, if_true, W_tree, hroot]
          exact e1
        · rw [hdel]
          refine ⟨⟨rfl, e2.relock _, ?_, ?_⟩, ?_, htf _ _ _, fun _ => lockSt_relock _ _⟩
          · rw [← hdel]; exact T.nodup_del hd
          · intro y hy
            rw [← hdel] at hy
            exact hb y (T.mem_addrs_del hy)
          · rw [← hdel]; exact T.BST_del x h.bst
      · have hne : (some c : Ptr) ≠ some a := fun h => hca (Option.some.inj h)
        obtain ⟨p, M', l', e0, e1, e2, e3⟩ := delete_fine_inner_at (ω := w) (M := w.mem)
          (T.node a lt x rt) none hrep hd hb h.bst
          (by simpa using fun h : a = c => hca h.symm) hf l1
        have hxv : x ≠ v := by
          intro hxv
          simp only [T.find, hxv, ne_eq, not_true_eq_false, if_false, Option.some.injEq] at hf
          exact hca hf.symm
        have hH : insert c (insert p (∅ : Finset Nat)) = {p, c} := by
          ext y; simp only [Finset.mem_insert, Finset.mem_singleton, Finset.not_mem_empty]
          tauto
        refine ⟨W w M' ∅ l', ?_, ?_, rfl, fun h => by simp at h⟩
        · simp only [e0, heldAfterSearch, insertOpt_some, ne_eq, reduceCtorEq,
            not_false_eq_true, if_true, W_tree, hroot, hne, if_false, hH]
          exact e1
        · refine ⟨⟨?_, e2.relock _, T.nodup_del hd, ?_⟩, T.BST_del v h.bst, h.tfree,
            fun _ => lockSt_relock _ _⟩
          · show w.tree.root = _
            rw [hroot, T.del_root hxv]
          · intro y hy; exact hb y (T.mem_addrs_del hy)

theorem readT_eq {m : Nat → Option i_element_t} :
    ∀ (t : T) (par : Ptr) (fuel : Nat), Rep m t par → t.height < fuel →
      readT fuel m t.root = t := by
  intro t
  induction t with
  | nil =>
    intro par fuel _ hf
    cases fuel with
    | zero => omega
    | succ f => rfl
  | node a l x r ihl ihr =>
    intro par fuel h hf
    obtain ⟨n, hn, hv, hl, hr, hp, hL, hR⟩ := h
    cases fuel with
    | zero => omega
    | succ f =>
      simp only [T.height] at hf
      have hfl : l.height < f := by omega
      have hfr : r.height < f := by omega
      simp only [T.root_node, readT, hn, hl, hr, hv, ihl _ _ hL hfl, ihr _ _ hR hfr]

theorem Holds.abs_eq {w : World} {t : T} (h : Holds w t) : w.abs = t := by
  unfold World.abs
  rw [h.root]
  exact readT_eq t none _ h.rep (Nat.lt_succ_of_le (T.height_le_brk h.nodup h.lt_brk))

theorem Rep.below {m : Nat → Option i_element_t} {a b : Nat} (hb : Below m a b) :
    ∀ (t : T) (par : Ptr), Rep m t par → t.root = some a → t.BST →
      ∃ (L R : T) (v : Int) (par' : Ptr), Rep m (.node b L v R) par' ∧ (T.node b L v R).BST ∧
        (∀ x ∈ (T.node b L v R).vals, x ∈ t.vals) := by
  induction hb with
  | self a =>
    intro t par hrep hroot hbst
    cases t with
    | nil => simp at hroot
    | node c L v R =>
      simp only [T.root_node, Option.some.injEq] at hroot
      subst hroot
      exact ⟨L, R, v, par, hrep, hbst, fun x hx => hx⟩
  | left hn hl _ ih =>
    intro t par hrep hroot hbst
    cases t with
    | nil => simp at hroot
    | node c L v R =>
      simp only [T.root_node, Option.some.injEq] at hroot
      subst hroot
      obtain ⟨n', hn', -, hl', -, -, hL, -⟩ := hrep
      rw [hn] at hn'; cases hn'
      obtain ⟨L', R', v', par', h1, h2, h3⟩ := ih L _ hL (hl'.symm.trans hl) hbst.1
      exact ⟨L', R', v', par', h1, h2, fun x hx => by simp [T.vals, h3 x hx]⟩
  | right hn hr _ ih =>
    intro t par hrep hroot hbst
    cases t with
    | nil => simp at hroot
    | node c L v R =>
      simp only [T.root_node, Option.some.injEq] at hroot
      subst hroot
      obtain ⟨n', hn', -, -, hr', -, -, hR⟩ := hrep
      rw [hn] at hn'; cases hn'
      obtain ⟨L', R', v', par', h1, h2, h3⟩ := ih R _ hR (hr'.symm.trans hr) hbst.2.1
      exact ⟨L', R', v', par', h1, h2, fun x hx => by simp [T.vals, h3 x hx]⟩

theorem Holds.orderedHeap {w : World} {t : T} (h : Holds w t) (hbst : t.BST) : OrderedHeap w := by
  intro r a n hroot hbelow hn
  obtain ⟨L, R, v, par', h1, h2, -⟩ := Rep.below hbelow t none h.rep (h.root.symm.trans hroot) hbst
  obtain ⟨n', hn', hv, hl, hr, -, hL, hR⟩ := h1
  rw [hn] at hn'; cases hn'
  obtain ⟨hbl, hbr, hlv, hrv⟩ := h2
  constructor
  · intro l b nb hnl hbl' hnb
    obtain ⟨L', R', v', par'', g1, -, g3⟩ := Rep.below hbl' L _ hL (hl.symm.trans hnl) hbl
    obtain ⟨nb', hnb', hvb, -⟩ := g1
    rw [hnb] at hnb'; cases hnb'
    rw [hv, hvb]
    exact hlv v' (g3 v' (by simp [T.vals]))
  · intro l b nb hnl hbl' hnb
    obtain ⟨L', R', v', par'', g1, -, g3⟩ := Rep.below hbl' R _ hR (hr.symm.trans hnl) hbr
    obtain ⟨nb', hnb', hvb, -⟩ := g1
    rw [hnb] at hnb'; cases hnb'
    rw [hv, hvb]
    exact hrv v' (g3 v' (by simp [T.vals]))

theorem Inv.transfer {s : Strategy} {w w' : World} {t : T} (h : Inv s w t) (hm : w'.mem = w.mem)
    (ht : w'.tree = w.tree) (hb : w'.brk = w.brk) : Inv s w' t :=
  ⟨h.holds.of_eq hm hb (by rw [ht]), h.bst,
    ⟨by rw [ht]; exact h.tfree.1, by rw [ht]; exact h.tfree.2.1, by rw [ht]; exact h.tfree.2.2⟩,
    fun hs => hm ▸ h.locks hs⟩

theorem fresh_inv (s : Strategy) : Inv s (fresh s) .nil := by
  refine ⟨⟨?_, trivial, by simp [T.addrs], by simp [T.addrs]⟩, trivial, ⟨?_, ?_, ?_⟩, ?_⟩
  · cases s <;> rfl
  · cases s <;> rfl
  · cases s <;> rfl
  · cases s <;> rfl
  · intro _ a n h
    have : (fresh s).mem a = none := by cases s <;> rfl
    rw [this] at h; cases h

theorem dispatch_plain {s : Strategy} (hs : s ≠ .FineGrained) : dispatch s = some .plain := by
  cases s with
  | FineGrained => exact absurd rfl hs
  | None => rfl
  | Coarse => rfl
  | ReadWrite => rfl

theorem dispatch_fine : dispatch .FineGrained = some .fine := rfl

theorem Tree_Insert_ok {s : Strategy} {w : World} {t : T} (h : Inv s w t) (v : Int) :
    ∃ w', Tree_Insert (dispatch s) w v = .ok w' ∧ Inv s w' (T.ins w.brk v t) ∧
      w'.brk = w.brk + 1 := by
  by_cases hs : s = .FineGrained
  · subst hs; rw [dispatch_fine]; exact local_tree_insert_fine_ok h v
  · rw [dispatch_plain hs]; exact local_tree_insert_ok hs h v

theorem Tree_Delete_ok {s : Strategy} {w : World} {t : T} (h : Inv s w t) (v : Int) :
    ∃ w', Tree_Delete (dispatch s) w v = .ok w' ∧ Inv s w' (T.del v t) ∧ w'.brk = w.brk ∧
      (T.find v t = none → w'.mem = w.mem ∧ w'.tree = w.tree) := by
  by_cases hs : s = .FineGrained
  · subst hs; rw [dispatch_fine]; exact local_tree_delete_fine_ok h v
  · rw [dispatch_plain hs]; exact local_tree_delete_ok hs h v

theorem Tree_Lookup_ok {s : Strategy} {w : World} {t : T} (h : Inv s w t) (v : Int) :
    ∃ w', Tree_Lookup (dispatch s) w v = .ok (w', T.find v t) ∧
      w'.tree = w.tree ∧ w'.brk = w.brk ∧ SameShape w.mem w'.mem ∧
      (T.find v t = none → w'.mem = w.mem) ∧
      ∃ w'', Element_Release (dispatch s) w' (T.find v t) = .ok w'' ∧ w''.mem = w.mem ∧
        w''.tree = w.tree ∧ w''.brk = w.brk := by
  by_cases hs : s = .FineGrained
  · subst hs
    rw [dispatch_fine]
    obtain ⟨w', h1, h2, h3, h4⟩ := local_tree_lookup_fine_ok h v
    have hL := h.locks rfl
    refine ⟨w', h1, h3, h4, by rw [h2]; exact sameShape_relock _ _, ?_, ?_⟩
    · intro hf; rw [h2, hf]; exact relock_of_lockSt hL
    · cases hf : T.find v t with
      | none =>
        refine ⟨w', by simp [Element_Release], ?_, h3, h4⟩
        rw [h2, hf]; exact relock_of_lockSt hL
      | some c =>
        obtain ⟨n, hn, -⟩ := h.holds.rep.find_value hf
        have hw' : w' = W w w.mem {c} w'.log :=
          World.ext' (by rw [h2, hf]; rfl) h4 h3 rfl
        refine ⟨W w w.mem ∅ (w'.log ++ [.unlock (.node (some c))]), ?_,
          relock_of_lockSt hL, rfl, rfl⟩
        simp only [Element_Release, ne_eq, reduceCtorEq, not_false_eq_true, if_true,
          local_tree_element_release_fine]
        conv_lhs => rw [hw']
        rw [unlock_W hn (Finset.mem_singleton_self c), Finset.erase_singleton]
  · rw [dispatch_plain hs]
    obtain ⟨w', h1, h2, h3, h4⟩ := local_tree_lookup_ok hs h v
    refine ⟨w', h1, h3, h4, by rw [h2]; exact SameShape.refl _, fun _ => h2, w', ?_, h2, h3, h4⟩
    cases T.find v t <;> simp [Element_Release, local_tree_element_release]

theorem Element_Value_ok {s : Strategy} {w w' : World} {t : T} (h : Inv s w t) {v : Int}
    {c : Nat} (hf : T.find v t = some c) (hs : SameShape w.mem w'.mem) :
    Element_Value (dispatch s) w' (some c) = .ok v := by
  obtain ⟨n, hn, hv⟩ := (h.holds.rep.congr hs).find_value hf
  by_cases hsf : s = .FineGrained
  · subst hsf
    simp [dispatch_fine, Element_Value, local_tree_element_value_fine, deref, hn, hv]
  · simp [dispatch_plain hsf, Element_Value, local_tree_element_value, deref, hn, hv]

theorem Tree_Traverse_ok {σ : Type} {s : Strategy} {w : World} {t : T} (h : Inv s w t)
    (func : World → Ptr → σ → σ) (hfunc : ShapeOnly func) (s0 : σ) :
    ∃ w', Tree_Traverse (dispatch s) w func s0 =
        .ok (w', t.addrs.foldl (fun s a => func w (some a) s) s0) ∧
      w'.mem = w.mem ∧ w'.tree = w.tree ∧ w'.brk = w.brk := by
  by_cases hs : s = .FineGrained
  · subst hs; rw [dispatch_fine]; exact local_tree_traverse_fine_ok h func hfunc s0
  · rw [dispatch_plain hs]; exact local_tree_traverse_ok hs h func hfunc s0

theorem step_ok {s : Strategy} {w : World} {t : T} (h : Inv s w t) (op : Op) :
    ∃ w' t', step (dispatch s) w op = .ok w' ∧ Inv s w' t' := by
  cases op with
  | insert v =>
    obtain ⟨w', h1, h2, -⟩ := Tree_Insert_ok h v
    exact ⟨w', _, h1, h2⟩
  | delete v =>
    obtain ⟨w', h1, h2, -⟩ := Tree_Delete_ok h v
    exact ⟨w', _, h1, h2⟩
  | lookup v =>
    obtain ⟨w', h1, -, -, -, -, w'', h2, h3, h4, h5⟩ := Tree_Lookup_ok h v
    exact ⟨w'', t, by simp [step, h1, h2], h.transfer h3 h4 h5⟩

theorem run_ok {s : Strategy} (ops : List Op) :
    ∀ {w : World} {t : T}, Inv s w t → ∃ w' t', run (dispatch s) w ops = .ok w' ∧ Inv s w' t' := by
  induction ops with
  | nil => intro w t h; exact ⟨w, t, rfl, h⟩
  | cons op ops ih =>
    intro w t h
    obtain ⟨w1, t1, h1, h2⟩ := step_ok h op
    obtain ⟨w2, t2, h3, h4⟩ := ih h2
    exact ⟨w2, t2, by simp [run, h1, h3], h4⟩

theorem reach_ok (s : Strategy) (ops : List Op) :
    ∃ w t, reach s ops = .ok w ∧ Inv s w t :=
  run_ok ops (fresh_inv s)

theorem T.vals_ins (a : Nat) (v : Int) (t : T) : (T.ins a v t).vals.Perm (v :: t.vals) := by
  have := T.vals_graft (T.node a .nil v .nil) v t
  simp only [T.vals, List.nil_append] at this
  exact this.trans (List.perm_append_singleton v t.vals)

theorem T.addrs_ins (a : Nat) (v : Int) (t : T) : (T.ins a v t).addrs.Perm (a :: t.addrs) := by
  have := T.addrs_graft (T.node a .nil v .nil) v t
  simp only [T.addrs, List.nil_append] at this
  exact this.trans (List.perm_append_singleton a t.addrs)

theorem T.find_isSome_of_mem {v : Int} {t : T} (hb : t.BST) (hv : v ∈ t.vals) :
    ∃ c, T.find v t = some c := by
  cases hf : T.find v t with
  | none => exact absurd hv ((T.find_eq_none_iff hb).mp hf)
  | some c => exact ⟨c, rfl⟩

theorem T.sorted_vals : ∀ {t : T}, t.BST → t.vals.Pairwise (· ≤ ·) := by
  intro t
  induction t with
  | nil => intro _; simp [T.vals]
  | node a l v r ihl ihr =>
    intro h
    obtain ⟨hl, hr, hlv, hrv⟩ := h
    simp only [T.vals]
    rw [List.pairwise_append]
    refine ⟨ihl hl, List.pairwise_cons.mpr ⟨hrv, ihr hr⟩, ?_⟩
    intro x hx y hy
    rcases List.mem_cons.mp hy with h | h
    · subst h; exact le_of_lt (hlv x hx)
    · exact le_trans (le_of_lt (hlv x hx)) (hrv y h)

theorem Rep.map_values {m : Nat → Option i_element_t} :
    ∀ {t : T} {par : Ptr}, Rep m t par →
      t.addrs.map (fun a => (m a).map (·.value)) = t.vals.map some := by
  intro t
  induction t with
  | nil => intro _ _; rfl
  | node a l v r ihl ihr =>
    intro par h
    obtain ⟨n, hn, hv, -, -, -, hL, hR⟩ := h
    simp [T.addrs, T.vals, ihl hL, ihr hR, hn, hv]

theorem Element_Value_shape {s : Strategy} {w w' : World} (e : Ptr)
    (h : SameShape w.mem w'.mem) :
    Element_Value (dispatch s) w e = Element_Value (dispatch s) w' e := by
  have key : (deref w e >>= fun n => (pure n.value : Except Fault Int)) =
      (deref w' e >>= fun n => (pure n.value : Except Fault Int)) := by
    cases e with
    | none => rfl
    | some a =>
      have := h a
      cases h1 : w.mem a with
      | none =>
        rw [h1] at this
        cases h2 : w'.mem a with
        | none => simp [deref, h1, h2]
        | some n => rw [h2] at this; simp at this
      | some n =>
        rw [h1] at this
        cases h2 : w'.mem a with
        | none => rw [h2] at this; simp at this
        | some n' =>
          rw [h2] at this
          simp only [Option.map_some', Option.some.injEq, shape] at this
          have := congrArg i_element_t.value this
          simp only at this
          simp [deref, h1, h2, this]
  by_cases hs : s = .FineGrained
  · subst hs; exact key
  · rw [dispatch_plain hs]; exact key

theorem shapeOnly_record (s : Strategy) : ShapeOnly (record_values (dispatch s)) := by
  intro w w' e acc h
  simp only [record_values, Element_Value_shape e h]

theorem foldl_record {s : Strategy} {w : World} :
    ∀ {t : T} {par : Ptr} (acc : List Int), Rep w.mem t par →
      t.addrs.foldl (fun acc a => record_values (dispatch s) w (some a) acc) acc =
        acc ++ t.vals := by
  intro t
  induction t with
  | nil => intro _ acc _; simp [T.addrs, T.vals]
  | node a l v r ihl ihr =>
    intro par acc h
    obtain ⟨n, hn, hv, -, -, -, hL, hR⟩ := h
    have hval : Element_Value (dispatch s) w (some a) = .ok v := by
      by_cases hs : s = .FineGrained
      · subst hs
        simp [dispatch_fine, Element_Value, local_tree_element_value_fine, deref, hn, hv]
      · simp [dispatch_plain hs, Element_Value, local_tree_element_value, deref, hn, hv]
    have hrec : ∀ acc' : List Int,
        record_values (dispatch s) w (some a) acc' = acc' ++ [v] := by
      intro acc'; simp only [record_values, hval]
    simp only [T.addrs, T.vals, List.foldl_append, List.foldl_cons]
    rw [ihl _ hL, hrec, ihr _ hR]
    simp

theorem foldl_count (l : List Nat) (w : World) (c : Int) :
    l.foldl (fun c a => Count_Nodes w (some a) c) c = c + l.length := by
  induction l generalizing c with
  | nil => simp
  | cons a l ih =>
    simp only [List.foldl_cons]
    rw [ih]
    simp only [Count_Nodes, List.length_cons, Nat.cast_add, Nat.cast_one]
    ring

theorem node_count_ok {s : Strategy} {w : World} {t : T} (h : Inv s w t) :
    node_count (dispatch s) w = .ok (t.addrs.length : Int) := by
  obtain ⟨w', h1, -⟩ := Tree_Traverse_ok h Count_Nodes (fun _ _ _ _ _ => rfl) 0
  simp [node_count, h1, foldl_count]

/-- C1: for every strategy and every finite single-threaded run of insert, delete and
lookup-release calls from a freshly initialised tree (hence after each call of such a
run), the calls return and the heap satisfies the ordering invariant: for every node,
every value in its left subtree is strictly smaller than the node's value and every
value in its right subtree is greater or equal. -/
theorem C1_ordering_invariant (s : Strategy) (ops : List Op) :
    ∃ w, reach s ops = .ok w ∧ OrderedHeap w ∧ w.abs.BST := by
  obtain ⟨w, t, h1, h2⟩ := reach_ok s ops
  exact ⟨w, h1, h2.holds.orderedHeap h2.bst, h2.holds.abs_eq ▸ h2.bst⟩

/-- C2: for every strategy, every tree reached by a single-threaded run and every integer
`v`, `Tree_Insert(v)` followed by `Tree_Lookup(v)` returns a non-empty element whose
`Element_Value` is `v`. -/
theorem C2_lookup_after_insert (s : Strategy) (ops : List Op) (v : Int) :
    ∃ w w1 w2 h, reach s ops = .ok w ∧ Tree_Insert (dispatch s) w v = .ok w1 ∧
      Tree_Lookup (dispatch s) w1 v = .ok (w2, some h) ∧
      Element_Value (dispatch s) w2 (some h) = .ok v := by
  obtain ⟨w, t, h1, h2⟩ := reach_ok s ops
  obtain ⟨w1, h3, h4, -⟩ := Tree_Insert_ok h2 v
  obtain ⟨w2, h5, -, -, h6, -⟩ := Tree_Lookup_ok h4 v
  obtain ⟨c, hc⟩ := T.find_isSome_of_mem h4.bst
    ((T.vals_ins w.brk v t).mem_iff.mpr (List.mem_cons_self _ _))
  rw [hc] at h5
  exact ⟨w, w1, w2, c, h1, h3, h5, Element_Value_ok h4 hc h6⟩

/-- C3: in a tree reached by a single-threaded run in which exactly one node holds the
value `v`, `Tree_Delete(v)` followed by `Tree_Lookup(v)` returns `NULL`. -/
theorem C3_delete_sole_instance (s : Strategy) (ops : List Op) (v : Int) (w : World)
    (hw : reach s ops = .ok w) (hone : w.values.count v = 1) :
    ∃ w1 w2, Tree_Delete (dispatch s) w v = .ok w1 ∧
      Tree_Lookup (dispatch s) w1 v = .ok (w2, none) := by
  obtain ⟨w', t, h1, h2⟩ := reach_ok s ops
  rw [hw] at h1; cases h1
  have hvals : w.values = t.vals := by rw [World.values, h2.holds.abs_eq]
  rw [hvals] at hone
  have hmem : v ∈ t.vals := List.count_pos_iff.mp (by omega)
  obtain ⟨c, hc⟩ := T.find_isSome_of_mem h2.bst hmem
  obtain ⟨w1, h3, h4, -⟩ := Tree_Delete_ok h2 v
  obtain ⟨w2, h5, -⟩ := Tree_Lookup_ok h4 v
  have hcount : (T.del v t).vals.count v = 0 := by
    have := (T.vals_del_perm hc).count_eq v
    rw [hone, List.count_cons_self] at this
    omega
  have hnot : v ∉ (T.del v t).vals := List.count_eq_zero.mp hcount
  rw [(T.find_eq_none_iff h4.bst).mpr hnot] at h5
  exact ⟨w1, w2, h3, h5⟩

/-- C4: for every tree reached by a single-threaded run and every integer `v`, after
`Tree_Insert(v); Tree_Insert(v); Tree_Delete(v)` a `Tree_Lookup(v)` returns a non-empty
element whose `Element_Value` is `v`. -/
theorem C4_insert_twice_delete_once (s : Strategy) (ops : List Op) (v : Int) :
    ∃ w w1 w2 w3 w4 h, reach s ops = .ok w ∧ Tree_Insert (dispatch s) w v = .ok w1 ∧
      Tree_Insert (dispatch s) w1 v = .ok w2 ∧ Tree_Delete (dispatch s) w2 v = .ok w3 ∧
      Tree_Lookup (dispatch s) w3 v = .ok (w4, some h) ∧
      Element_Value (dispatch s) w4 (some h) = .ok v := by
  obtain ⟨w, t, h1, h2⟩ := reach_ok s ops
  obtain ⟨w1, e1, i1, -⟩ := Tree_Insert_ok h2 v
  obtain ⟨w2, e2, i2, -⟩ := Tree_Insert_ok i1 v
  obtain ⟨w3, e3, i3, -⟩ := Tree_Delete_ok i2 v
  obtain ⟨w4, e4, -, -, sh, -⟩ := Tree_Lookup_ok i3 v
  have hm1 : v ∈ (T.ins w.brk v t).vals :=
    (T.vals_ins w.brk v t).mem_iff.mpr (List.mem_cons_self _ _)
  have hm2 : v ∈ (T.ins w1.brk v (T.ins w.brk v t)).vals :=
    (T.vals_ins _ v _).mem_iff.mpr (List.mem_cons_self _ _)
  obtain ⟨c, hc⟩ := T.find_isSome_of_mem i2.bst hm2
  have hm3 : v ∈ (T.del v (T.ins w1.brk v (T.ins w.brk v t))).vals := by
    have h1 : (v :: (T.ins w.brk v t).vals).Perm
        (v :: (T.del v (T.ins w1.brk v (T.ins w.brk v t))).vals) :=
      (T.vals_ins _ v _).symm.trans (T.vals_del_perm hc)
    exact (List.Perm.cons_inv h1).mem_iff.mp hm1
  obtain ⟨d, hd⟩ := T.find_isSome_of_mem i3.bst hm3
  rw [hd] at e4
  exact ⟨w, w1, w2, w3, w4, d, h1, e1, e2, e3, e4, Element_Value_ok i3 hd sh⟩

/-- C5: starting from a tree holding only 5, `insert(3); insert(8); insert(3)` gives the
in-order traversal `[3,3,5,8]`; `delete(5)` then makes the former left child of the root
(the node of the first 3, at address 1) the new root, keeps the node of 8 (address 2)
below it, and gives the in-order traversal `[3,3,8]`; under every strategy. -/
theorem C5_scenario (s : Strategy) :
    ∃ w0 wa w1 w1' w2 w2',
      reach s [.insert 5] = .ok w0 ∧ w0.abs = .node 0 .nil 5 .nil ∧
      run (dispatch s) w0 [.insert 3] = .ok wa ∧
      wa.abs = .node 0 (.node 1 .nil 3 .nil) 5 .nil ∧
      run (dispatch s) w0 [.insert 3, .insert 8, .insert 3] = .ok w1 ∧
      w1.abs = .node 0 (.node 1 .nil 3 (.node 3 .nil 3 .nil)) 5 (.node 2 .nil 8 .nil) ∧
      Tree_Traverse (dispatch s) w1 (record_values (dispatch s)) [] = .ok (w1', [3, 3, 5, 8]) ∧
      Tree_Delete (dispatch s) w1 5 = .ok w2 ∧
      w2.tree.root = some 1 ∧
      w2.abs = .node 1 .nil 3 (.node 3 .nil 3 (.node 2 .nil 8 .nil)) ∧
      Tree_Traverse (dispatch s) w2 (record_values (dispatch s)) [] = .ok (w2', [3, 3, 8]) := by
  cases s
  · exact ⟨_, _, _, _, _, _, rfl, by decide, rfl, by decide, rfl, by decide, rfl, rfl, rfl,
      by decide, rfl⟩
  · exact ⟨_, _, _, _, _, _, rfl, by decide, rfl, by decide, rfl, by decide, rfl, rfl, rfl,
      by decide, rfl⟩
  · exact ⟨_, _, _, _, _, _, rfl, by decide, rfl, by decide, rfl, by decide, rfl, rfl, rfl,
      by decide, rfl⟩
  · exact ⟨_, _, _, _, _, _, rfl, by decide, rfl, by decide, rfl, by decide, rfl, rfl, rfl,
      by decide, rfl⟩

/-- C3 at a concrete tree: FineGrained, after `insert(5); insert(7)`. -/
theorem C3_delete_sole_instance_witness :
    ∃ w, reach .FineGrained [.insert 5, .insert 7] = .ok w ∧ w.values.count 5 = 1 ∧
      ∃ w1 w2, Tree_Delete (dispatch .FineGrained) w 5 = .ok w1 ∧
        Tree_Lookup (dispatch .FineGrained) w1 5 = .ok (w2, none) :=
  ⟨_, rfl, by decide,
    C3_delete_sole_instance .FineGrained [.insert 5, .insert 7] 5 _ rfl (by decide)⟩

/-- C6: for every strategy, every tree reached by a single-threaded run and every integer
`v` stored in it, `Tree_Delete(v)` returns and removes exactly one node `c`: the multiset
of stored values afterwards is the multiset before with one occurrence of `v` erased, the
stored node addresses are those before without `c`, and the number of occurrences of every
value other than `v` is unchanged while that of `v` drops by one. -/
theorem C6_delete_removes_one (s : Strategy) (ops : List Op) (v : Int) (w : World)
    (hw : reach s ops = .ok w) (hv : v ∈ w.values) :
    ∃ w' c, Tree_Delete (dispatch s) w v = .ok w' ∧
      (w'.values : Multiset Int) = (w.values : Multiset Int).erase v ∧
      w.nodes.Perm (c :: w'.nodes) ∧
      (∀ x, w'.values.count x = w.values.count x - (if x = v then 1 else 0)) := by
  obtain ⟨w0, t, h1, h2⟩ := reach_ok s ops
  rw [hw] at h1; cases h1
  have hvals : w.values = t.vals := by rw [World.values, h2.holds.abs_eq]
  have hnodes : w.nodes = t.addrs := by rw [World.nodes, h2.holds.abs_eq]
  rw [hvals] at hv
  obtain ⟨c, hc⟩ := T.find_isSome_of_mem h2.bst hv
  obtain ⟨w', h3, h4, -⟩ := Tree_Delete_ok h2 v
  have hvals' : w'.values = (T.del v t).vals := by rw [World.values, h4.holds.abs_eq]
  have hnodes' : w'.nodes = (T.del v t).addrs := by rw [World.nodes, h4.holds.abs_eq]
  have hperm := T.vals_del_perm hc
  refine ⟨w', c, h3, ?_, ?_, ?_⟩
  · rw [hvals, hvals']
    have h : (t.vals : Multiset Int) = v ::ₘ ((T.del v t).vals : Multiset Int) := by
      rw [Multiset.cons_coe]; exact Multiset.coe_eq_coe.mpr hperm
    rw [h, Multiset.erase_cons_head]
  · rw [hnodes, hnodes']; exact T.addrs_del_perm hc
  · intro x
    rw [hvals, hvals', hperm.count_eq x, List.count_cons]
    by_cases hx : x = v
    · subst hx; simp
    · have : ¬ v = x := fun h => hx h.symm
      simp [hx, this]

/-- C6 at a concrete tree: FineGrained, after `insert(5); insert(5); insert(2)`,
deleting 5. -/
theorem C6_delete_removes_one_witness :
    ∃ w, reach .FineGrained [.insert 5, .insert 5, .insert 2] = .ok w ∧ (5 : Int) ∈ w.values ∧
      ∃ w' c, Tree_Delete (dispatch .FineGrained) w 5 = .ok w' ∧
        (w'.values : Multiset Int) = (w.values : Multiset Int).erase 5 ∧
        w.nodes.Perm (c :: w'.nodes) ∧
        (∀ x, w'.values.count x = w.values.count x - (if x = 5 then 1 else 0)) :=
  ⟨_, rfl, by decide,
    C6_delete_removes_one .FineGrained [.insert 5, .insert 5, .insert 2] 5 _ rfl (by decide)⟩

/-- C7: for every strategy, every tree reached by a single-threaded run and every integer
`v` not stored in it, `Tree_Delete(v)` returns normally and leaves the memory (all nodes,
their values and their left, right and parent links) and the tree header (the root)
unchanged, and nothing is allocated; `Tree_Lookup(v)` returns `NULL` normally and leaves
the memory and the tree header unchanged as well. The empty tree is the case
`ops = []`. -/
theorem C7_absent_key_is_noop (s : Strategy) (ops : List Op) (v : Int) (w : World)
    (hw : reach s ops = .ok w) (hv : v ∉ w.values) :
    (∃ w', Tree_Delete (dispatch s) w v = .ok w' ∧ w'.mem = w.mem ∧ w'.tree = w.tree ∧
      w'.brk = w.brk ∧ w'.abs = w.abs) ∧
    (∃ w', Tree_Lookup (dispatch s) w v = .ok (w', none) ∧ w'.mem = w.mem ∧
      w'.tree = w.tree ∧ w'.brk = w.brk ∧ w'.abs = w.abs) := by
  obtain ⟨w0, t, h1, h2⟩ := reach_ok s ops
  rw [hw] at h1; cases h1
  have hvals : w.values = t.vals := by rw [World.values, h2.holds.abs_eq]
  rw [hvals] at hv
  have hf := (T.find_eq_none_iff h2.bst).mpr hv
  constructor
  · obtain ⟨w', h3, -, h4, h5⟩ := Tree_Delete_ok h2 v
    obtain ⟨h6, h7⟩ := h5 hf
    exact ⟨w', h3, h6, h7, h4, by simp only [World.abs, h6, h7, h4]⟩
  · obtain ⟨w', h3, h4, h5, -, h6, -⟩ := Tree_Lookup_ok h2 v
    rw [hf] at h3
    have h7 := h6 hf
    exact ⟨w', h3, h7, h4, h5, by simp only [World.abs, h7, h4, h5]⟩

/-- C7 on the empty tree: FineGrained, freshly initialised, key 5. -/
theorem C7_absent_key_is_noop_witness :
    ∃ w, reach .FineGrained [] = .ok w ∧ (5 : Int) ∉ w.values ∧ w.abs = .nil ∧
      ((∃ w', Tree_Delete (dispatch .FineGrained) w 5 = .ok w' ∧ w'.mem = w.mem ∧
        w'.tree = w.tree ∧ w'.brk = w.brk ∧ w'.abs = w.abs) ∧
      (∃ w', Tree_Lookup (dispatch .FineGrained) w 5 = .ok (w', none) ∧ w'.mem = w.mem ∧
        w'.tree = w.tree ∧ w'.brk = w.brk ∧ w'.abs = w.abs)) :=
  ⟨_, rfl, by decide, rfl, C7_absent_key_is_noop .FineGrained [] 5 _ rfl (by decide)⟩

/-- C8: for every strategy, every tree reached by a single-threaded run and every integer
`v`, `Tree_Lookup(v)` returns; its result is non-empty if and only if some stored node has
value `v`, and an element it returns is a stored node whose `Element_Value` is `v`. -/
theorem C8_lookup_iff_stored (s : Strategy) (ops : List Op) (v : Int) :
    ∃ w w' r, reach s ops = .ok w ∧ Tree_Lookup (dispatch s) w v = .ok (w', r) ∧
      (r ≠ none ↔ v ∈ w.values) ∧
      (∀ h, r = some h → h ∈ w.nodes ∧ Element_Value (dispatch s) w' (some h) = .ok v) := by
  obtain ⟨w, t, h1, h2⟩ := reach_ok s ops
  have hvals : w.values = t.vals := by rw [World.values, h2.holds.abs_eq]
  have hnodes : w.nodes = t.addrs := by rw [World.nodes, h2.holds.abs_eq]
  obtain ⟨w', h3, -, -, h4, -⟩ := Tree_Lookup_ok h2 v
  refine ⟨w, w', T.find v t, h1, h3, ?_, ?_⟩
  · rw [hvals, ne_eq, T.find_eq_none_iff h2.bst, not_not]
  · intro h hh
    rw [hnodes]
    exact ⟨T.find_mem_addrs hh, Element_Value_ok h2 hh h4⟩

/-- C9: for every strategy and every tree reached by a single-threaded run,
`Tree_Traverse` returns having folded the visit function over the stored nodes in
in-order (left subtree, node, right subtree), each stored node exactly once (the in-order
address list has no duplicates); the values it visits are the stored values in in-order,
and that sequence is non-decreasing. -/
theorem C9_traverse_in_order (s : Strategy) (ops : List Op) :
    ∃ w, reach s ops = .ok w ∧ w.nodes.Nodup ∧
      (∀ (σ : Type) (func : Ptr → σ → σ) (s0 : σ), ∃ w',
        Tree_Traverse (dispatch s) w (fun _ e acc => func e acc) s0 =
          .ok (w', w.nodes.foldl (fun acc a => func (some a) acc) s0)) ∧
      (∃ w', Tree_Traverse (dispatch s) w (record_values (dispatch s)) [] =
        .ok (w', w.values)) ∧
      w.nodes.map (fun a => (w.mem a).map (·.value)) = w.values.map some ∧
      w.values.Pairwise (· ≤ ·) := by
  obtain ⟨w, t, h1, h2⟩ := reach_ok s ops
  have hvals : w.values = t.vals := by rw [World.values, h2.holds.abs_eq]
  have hnodes : w.nodes = t.addrs := by rw [World.nodes, h2.holds.abs_eq]
  refine ⟨w, h1, ?_, ?_, ?_, ?_, ?_⟩
  · rw [hnodes]; exact h2.holds.nodup
  · intro σ func s0
    obtain ⟨w', h3, -⟩ :=
      Tree_Traverse_ok h2 (fun _ e acc => func e acc) (fun _ _ _ _ _ => rfl) s0
    exact ⟨w', by rw [hnodes]; exact h3⟩
  · obtain ⟨w', h3, -⟩ :=
      Tree_Traverse_ok h2 (record_values (dispatch s)) (shapeOnly_record s) []
    refine ⟨w', ?_⟩
    rw [h3, foldl_record [] h2.holds.rep, hvals, List.nil_append]
  · rw [hnodes, hvals]; exact h2.holds.rep.map_values
  · rw [hvals]; exact T.sorted_vals h2.bst

theorem Thread_Func_count {s : Strategy} (ops : List Op) :
    ∀ {w : World} {t : T} (k : Counters), Inv s w t →
      ∃ w' t' k', Thread_Func (dispatch s) w k ops = .ok (w', k') ∧ Inv s w' t' ∧
        (t'.addrs.length : Int) + effective_deletes (dispatch s) w ops + k.num_inserts =
          t.addrs.length + k'.num_inserts ∧
        effective_deletes (dispatch s) w ops + k.num_deletes ≤ k'.num_deletes := by
  induction ops with
  | nil =>
    intro w t k h
    exact ⟨w, t, k, rfl, h, by simp [effective_deletes], by simp [effective_deletes]⟩
  | cons op ops ih =>
    intro w t k h
    have hvals : w.values = t.vals := by rw [World.values, h.holds.abs_eq]
    cases op with
    | insert v =>
      obtain ⟨w1, e1, i1, -⟩ := Tree_Insert_ok h v
      obtain ⟨w', t', k', e2, i2, c1, c2⟩ := ih (bump k (.insert v)) i1
      have hlen := (T.addrs_ins w.brk v t).length_eq
      refine ⟨w', t', k', by simp [Thread_Func, step, e1, e2], i2, ?_, ?_⟩
      · simp only [effective_deletes, step, e1, zero_add]
        simp only [bump, List.length_cons] at c1 hlen
        rw [hlen] at c1
        push_cast at c1 ⊢
        linarith
      · simp only [effective_deletes, step, e1, zero_add]
        simpa [bump] using c2
    | delete v =>
      obtain ⟨w1, e1, i1, -⟩ := Tree_Delete_ok h v
      obtain ⟨w', t', k', e2, i2, c1, c2⟩ := ih (bump k (.delete v)) i1
      refine ⟨w', t', k', by simp [Thread_Func, step, e1, e2], i2, ?_, ?_⟩
      · simp only [effective_deletes, step, e1, hvals]
        simp only [bump] at c1
        by_cases hv : v ∈ t.vals
        · obtain ⟨c, hc⟩ := T.find_isSome_of_mem h.bst hv
          have hlen := (T.addrs_del_perm hc).length_eq
          simp only [List.length_cons] at hlen
          rw [if_pos hv, hlen]
          push_cast at c1 ⊢
          linarith
        · have hf := (T.find_eq_none_iff h.bst).mpr hv
          rw [T.del_of_find_none hf] at c1
          rw [if_neg hv]
          push_cast at c1 ⊢
          linarith
      · simp only [effective_deletes, step, e1, hvals]
        simp only [bump] at c2
        by_cases hv : v ∈ t.vals
        · rw [if_pos hv]; omega
        · rw [if_neg hv]; omega
    | lookup v =>
      obtain ⟨w1, e1, -, -, -, -, w2, e2, m1, m2, m3⟩ := Tree_Lookup_ok h v
      have i1 : Inv s w2 t := h.transfer m1 m2 m3
      have es : step (dispatch s) w (.lookup v) = .ok w2 := by simp [step, e1, e2]
      obtain ⟨w', t', k', e3, i2, c1, c2⟩ := ih (bump k (.lookup v)) i1
      refine ⟨w', t', k', by simp [Thread_Func, es, e3], i2, ?_, ?_⟩
      · simp only [effective_deletes, es, zero_add]
        simpa [bump] using c1
      · simp only [effective_deletes, es, zero_add]
        simpa [bump] using c2

theorem run_abs {s : Strategy} (ops : List Op) :
    ∀ {w : World} {t : T}, Inv s w t →
      ∃ w', run (dispatch s) w ops = .ok w' ∧ Inv s w' (T.run w.brk t ops).2 ∧
        w'.brk = (T.run w.brk t ops).1 := by
  induction ops with
  | nil => intro w t h; exact ⟨w, rfl, h, rfl⟩
  | cons op ops ih =>
    intro w t h
    cases op with
    | insert v =>
      obtain ⟨w1, e1, i1, b1⟩ := Tree_Insert_ok h v
      obtain ⟨w2, e2, i2, b2⟩ := ih i1
      rw [b1] at i2 b2
      exact ⟨w2, by simp [run, step, e1, e2], i2, b2⟩
    | delete v =>
      obtain ⟨w1, e1, i1, b1, -⟩ := Tree_Delete_ok h v
      obtain ⟨w2, e2, i2, b2⟩ := ih i1
      rw [b1] at i2 b2
      exact ⟨w2, by simp [run, step, e1, e2], i2, b2⟩
    | lookup v =>
      obtain ⟨w1, e1, -, -, -, -, w2, e2, m1, m2, m3⟩ := Tree_Lookup_ok h v
      obtain ⟨w3, e3, i3, b3⟩ := ih (h.transfer m1 m2 m3)
      rw [m3] at i3 b3
      exact ⟨w3, by simp [run, step, e1, e2, e3], i3, b3⟩

theorem Rep.same_shape {m m' : Nat → Option i_element_t} :
    ∀ {t : T} {par : Ptr}, Rep m t par → Rep m' t par →
      ∀ a ∈ t.addrs, (m a).map shape = (m' a).map shape := by
  intro t
  induction t with
  | nil => intro _ _ _ a ha; simp [T.addrs] at ha
  | node b l x r ihl ihr =>
    intro par h h' a ha
    obtain ⟨n, hn, hv, hl, hr, hp, hL, hR⟩ := h
    obtain ⟨n', hn', hv', hl', hr', hp', hL', hR'⟩ := h'
    rcases T.mem_addrs_node.mp ha with h1 | h1 | h1
    · exact ihl hL hL' a h1
    · subst h1
      rw [hn, hn']
      cases n; cases n'
      simp_all [shape]
    · exact ihr hR hR' a h1

theorem Element_Value_none (s : Strategy) (w w' : World) :
    Element_Value (dispatch .FineGrained) w none = Element_Value (dispatch s) w' none := by
  cases s <;> rfl

/-- C11: for every finite single-threaded run of insert, delete and lookup-release calls
and every strategy `s`, the tree built under FineGrained is the tree built under `s`:
the same root, the same nodes in the same positions with the same values, the same left,
right and parent links (the node records agree up to the state of the node mutex);
`Tree_Lookup` returns the same element, with the same `Element_Value`, on both, and
`Tree_Traverse` computes the same result on both for every visit function. -/
theorem C11_fine_builds_same_tree (s : Strategy) (ops : List Op) :
    ∃ wf ws, reach .FineGrained ops = .ok wf ∧ reach s ops = .ok ws ∧
      wf.abs = ws.abs ∧ wf.tree.root = ws.tree.root ∧
      (∀ a ∈ ws.nodes, (wf.mem a).map shape = (ws.mem a).map shape) ∧
      (∀ v, ∃ wf' ws' r, Tree_Lookup (dispatch .FineGrained) wf v = .ok (wf', r) ∧
        Tree_Lookup (dispatch s) ws v = .ok (ws', r) ∧
        Element_Value (dispatch .FineGrained) wf' r = Element_Value (dispatch s) ws' r) ∧
      (∀ (σ : Type) (func : Ptr → σ → σ) (s0 : σ), ∃ wf' ws' r,
        Tree_Traverse (dispatch .FineGrained) wf (fun _ => func) s0 = .ok (wf', r) ∧
        Tree_Traverse (dispatch s) ws (fun _ => func) s0 = .ok (ws', r)) ∧
      (∃ wf' ws' vs,
        Tree_Traverse (dispatch .FineGrained) wf (record_values (dispatch .FineGrained)) [] =
          .ok (wf', vs) ∧
        Tree_Traverse (dispatch s) ws (record_values (dispatch s)) [] = .ok (ws', vs)) := by
  obtain ⟨wf, ef, hf, bf⟩ := run_abs ops (fresh_inv .FineGrained)
  obtain ⟨ws, es, hs, bs⟩ := run_abs ops (fresh_inv s)
  have hb : (fresh s).brk = (fresh .FineGrained).brk := by cases s <;> rfl
  rw [hb] at hs bs
  generalize (T.run (fresh .FineGrained).brk T.nil ops).2 = t at hf hs
  have hnodes : ws.nodes = t.addrs := by rw [World.nodes, hs.holds.abs_eq]
  refine ⟨wf, ws, ef, es, ?_, ?_, ?_, ?_, ?_, ?_⟩
  · rw [hf.holds.abs_eq, hs.holds.abs_eq]
  · rw [hf.holds.root, hs.holds.root]
  · rw [hnodes]; exact Rep.same_shape hf.holds.rep hs.holds.rep
  · intro v
    obtain ⟨wf', e1, -, -, sh1, -⟩ := Tree_Lookup_ok hf v
    obtain ⟨ws', e2, -, -, sh2, -⟩ := Tree_Lookup_ok hs v
    refine ⟨wf', ws', T.find v t, e1, e2, ?_⟩
    cases hfind : T.find v t with
    | none => exact Element_Value_none s wf' ws'
    | some c => rw [Element_Value_ok hf hfind sh1, Element_Value_ok hs hfind sh2]
  · intro σ func s0
    obtain ⟨wf', e1, -⟩ := Tree_Traverse_ok hf (fun _ => func) (fun _ _ _ _ _ => rfl) s0
    obtain ⟨ws', e2, -⟩ := Tree_Traverse_ok hs (fun _ => func) (fun _ _ _ _ _ => rfl) s0
    exact ⟨wf', ws', _, e1, e2⟩
  · obtain ⟨wf', e1, -⟩ :=
      Tree_Traverse_ok hf (record_values (dispatch .FineGrained)) (shapeOnly_record _) []
    obtain ⟨ws', e2, -⟩ :=
      Tree_Traverse_ok hs (record_values (dispatch s)) (shapeOnly_record s) []
    rw [foldl_record [] hf.holds.rep] at e1
    rw [foldl_record [] hs.holds.rep] at e2
    exact ⟨wf', ws', _, e1, e2⟩

theorem held_relock {w : World} {M : Nat → Option i_element_t} {H : Finset Nat}
    (h : w.mem = relock M H) (a : Nat) : w.held a = true ↔ a ∈ H ∧ M a ≠ none := by
  unfold World.held
  rw [h]
  cases hM : M a with
  | none => simp [relock, hM]
  | some n => simp [relock, hM]

theorem held_of_lockSt {w : World} (h : LockSt w.mem ∅) (a : Nat) : w.held a = false := by
  have := held_relock (relock_of_lockSt h).symm a
  simp only [Finset.not_mem_empty, false_and, iff_false, Bool.not_eq_true] at this
  exact this

theorem Inv.no_held {w : World} {t : T} (h : Inv .FineGrained w t) (a : Nat) :
    w.held a = false :=
  held_of_lockSt (h.locks rfl) a

/-- C13: under FineGrained, on a tree reached by a single-threaded run (no node lock is
held there) and for a stored value `v`, `Tree_Lookup(v)` returns a node `n` whose
`Element_Value` is `v`; on return exactly one node lock is held, the lock of `n`; the
following `Element_Release` returns and leaves no node lock held. -/
theorem C13_handle_holds_one_lock (ops : List Op) (v : Int) (w : World)
    (hw : reach .FineGrained ops = .ok w) (hv : v ∈ w.values) :
    (∀ a, w.held a = false) ∧
    ∃ w1 n w2, Tree_Lookup (dispatch .FineGrained) w v = .ok (w1, some n) ∧
      Element_Value (dispatch .FineGrained) w1 (some n) = .ok v ∧
      (∀ a, w1.held a = true ↔ a = n) ∧
      Element_Release (dispatch .FineGrained) w1 (some n) = .ok w2 ∧
      (∀ a, w2.held a = false) := by
  obtain ⟨w0, t, h1, h2⟩ := reach_ok .FineGrained ops
  rw [hw] at h1; cases h1
  have hvals : w.values = t.vals := by rw [World.values, h2.holds.abs_eq]
  rw [hvals] at hv
  obtain ⟨c, hc⟩ := T.find_isSome_of_mem h2.bst hv
  obtain ⟨w1, e1, m1, t1, b1⟩ := local_tree_lookup_fine_ok h2 v
  obtain ⟨w1', e1', -, -, sh, -, w2, e2, m2, t2, b2⟩ := Tree_Lookup_ok h2 v
  rw [dispatch_fine] at e1'
  simp only [Tree_Lookup] at e1'
  rw [e1] at e1'
  cases e1'
  rw [hc] at e1 e2 m1
  obtain ⟨n, hn, -⟩ := h2.holds.rep.find_value hc
  refine ⟨h2.no_held, w1, c, w2, ?_, Element_Value_ok h2 hc sh, ?_, e2, ?_⟩
  · rw [dispatch_fine]; exact e1
  · intro a
    rw [held_relock m1 a]
    simp only [insertOpt_some, Finset.mem_insert, Finset.not_mem_empty, or_false]
    constructor
    · exact fun h => h.1
    · intro h; subst h; exact ⟨rfl, by rw [hn]; simp⟩
  · exact (h2.transfer m2 t2 b2).no_held

/-- C13 at a concrete tree: after `insert(5); insert(8)`, looking up 8. -/
theorem C13_handle_holds_one_lock_witness :
    ∃ w, reach .FineGrained [.insert 5, .insert 8] = .ok w ∧ (8 : Int) ∈ w.values ∧
      ((∀ a, w.held a = false) ∧
      ∃ w1 n w2, Tree_Lookup (dispatch .FineGrained) w 8 = .ok (w1, some n) ∧
        Element_Value (dispatch .FineGrained) w1 (some n) = .ok 8 ∧
        (∀ a, w1.held a = true ↔ a = n) ∧
        Element_Release (dispatch .FineGrained) w1 (some n) = .ok w2 ∧
        (∀ a, w2.held a = false)) :=
  ⟨_, rfl, by decide,
    C13_handle_holds_one_lock [.insert 5, .insert 8] 8 _ rfl (by decide)⟩

/-- C14: under FineGrained, on every tree reached by a single-threaded run (the empty
tree is the run of no call) no node lock is held, and for every integer `v` each of
`Tree_Insert(v)`, `Tree_Delete(v)` (`v` stored or not), `Tree_Traverse` and a
`Tree_Lookup(v)` of a value that is not stored returns with no node lock held. -/
theorem C14_no_lock_leak (ops : List Op) (v : Int) :
    ∃ w, reach .FineGrained ops = .ok w ∧ (∀ a, w.held a = false) ∧
      (∃ w', Tree_Insert (dispatch .FineGrained) w v = .ok w' ∧ ∀ a, w'.held a = false) ∧
      (∃ w', Tree_Delete (dispatch .FineGrained) w v = .ok w' ∧ ∀ a, w'.held a = false) ∧
      (∀ (σ : Type) (func : Ptr → σ → σ) (s0 : σ), ∃ w' r,
        Tree_Traverse (dispatch .FineGrained) w (fun _ => func) s0 = .ok (w', r) ∧
        ∀ a, w'.held a = false) ∧
      (∃ w' r, Tree_Lookup (dispatch .FineGrained) w v = .ok (w', r) ∧
        (r = none ↔ v ∉ w.values) ∧ (r = none → ∀ a, w'.held a = false)) := by
  obtain ⟨w, t, h1, h2⟩ := reach_ok .FineGrained ops
  have hvals : w.values = t.vals := by rw [World.values, h2.holds.abs_eq]
  refine ⟨w, h1, h2.no_held, ?_, ?_, ?_, ?_⟩
  · obtain ⟨w', e, i, -⟩ := Tree_Insert_ok h2 v
    exact ⟨w', e, i.no_held⟩
  · obtain ⟨w', e, i, -⟩ := Tree_Delete_ok h2 v
    exact ⟨w', e, i.no_held⟩
  · intro σ func s0
    obtain ⟨w', e, m, tr, b⟩ := Tree_Traverse_ok h2 (fun _ => func) (fun _ _ _ _ _ => rfl) s0
    exact ⟨w', _, e, (h2.transfer m tr b).no_held⟩
  · obtain ⟨w', e, tr, b, -, m, -⟩ := Tree_Lookup_ok h2 v
    refine ⟨w', T.find v t, e, ?_, ?_⟩
    · rw [hvals]; exact T.find_eq_none_iff h2.bst
    · intro hf; exact (h2.transfer (m hf) tr b).no_held

theorem Element_Release_plain {s : Strategy} (hs : s ≠ .FineGrained) (u : World) (e : Ptr) :
    Element_Release (dispatch s) u e = .ok u := by
  rw [dispatch_plain hs]
  cases e <;> simp [Element_Release, local_tree_element_release]

/-- C15: under None, Coarse and ReadWrite, on every tree reached by a single-threaded
run and for every integer `v` (stored or not; the empty tree is the run of no call), each
of `Tree_Insert`, `Tree_Delete`, `Tree_Lookup` and `Tree_Traverse` returns with the tree
mutex not held and the reader-writer lock free, and `Element_Release` returns the world
it was given: it makes no lock call. -/
theorem C15_tree_lock_released (s : Strategy) (hs : s ≠ .FineGrained) (ops : List Op)
    (v : Int) :
    ∃ w, reach s ops = .ok w ∧
      (∃ w', Tree_Insert (dispatch s) w v = .ok w' ∧
        w'.tree.m_lock = some false ∧ w'.tree.rw_lock = .free) ∧
      (∃ w', Tree_Delete (dispatch s) w v = .ok w' ∧
        w'.tree.m_lock = some false ∧ w'.tree.rw_lock = .free) ∧
      (∃ w' r, Tree_Lookup (dispatch s) w v = .ok (w', r) ∧
        w'.tree.m_lock = some false ∧ w'.tree.rw_lock = .free ∧
        Element_Release (dispatch s) w' r = .ok w') ∧
      (∀ (σ : Type) (func : Ptr → σ → σ) (s0 : σ), ∃ w' r,
        Tree_Traverse (dispatch s) w (fun _ => func) s0 = .ok (w', r) ∧
        w'.tree.m_lock = some false ∧ w'.tree.rw_lock = .free) ∧
      (∀ (u : World) (e : Ptr), Element_Release (dispatch s) u e = .ok u) := by
  obtain ⟨w, t, h1, h2⟩ := reach_ok s ops
  refine ⟨w, h1, ?_, ?_, ?_, ?_, Element_Release_plain hs⟩
  · obtain ⟨w', e, i, -⟩ := Tree_Insert_ok h2 v
    exact ⟨w', e, i.tfree.2.1, i.tfree.2.2⟩
  · obtain ⟨w', e, i, -⟩ := Tree_Delete_ok h2 v
    exact ⟨w', e, i.tfree.2.1, i.tfree.2.2⟩
  · obtain ⟨w', e, tr, -⟩ := Tree_Lookup_ok h2 v
    exact ⟨w', _, e, by rw [tr]; exact h2.tfree.2.1, by rw [tr]; exact h2.tfree.2.2,
      Element_Release_plain hs w' _⟩
  · intro σ func s0
    obtain ⟨w', e, -, tr, -⟩ := Tree_Traverse_ok h2 (fun _ => func) (fun _ _ _ _ _ => rfl) s0
    exact ⟨w', _, e, by rw [tr]; exact h2.tfree.2.1, by rw [tr]; exact h2.tfree.2.2⟩

/-- C15 for Coarse, after `insert(5)`, with the absent key 7. -/
theorem C15_tree_lock_released_witness :
    Strategy.Coarse ≠ Strategy.FineGrained ∧
    ∃ w, reach .Coarse [.insert 5] = .ok w ∧
      (∃ w', Tree_Insert (dispatch .Coarse) w 7 = .ok w' ∧
        w'.tree.m_lock = some false ∧ w'.tree.rw_lock = .free) ∧
      (∃ w', Tree_Delete (dispatch .Coarse) w 7 = .ok w' ∧
        w'.tree.m_lock = some false ∧ w'.tree.rw_lock = .free) ∧
      (∃ w' r, Tree_Lookup (dispatch .Coarse) w 7 = .ok (w', r) ∧
        w'.tree.m_lock = some false ∧ w'.tree.rw_lock = .free ∧
        Element_Release (dispatch .Coarse) w' r = .ok w') ∧
      (∀ (σ : Type) (func : Ptr → σ → σ) (s0 : σ), ∃ w' r,
        Tree_Traverse (dispatch .Coarse) w (fun _ => func) s0 = .ok (w', r) ∧
        w'.tree.m_lock = some false ∧ w'.tree.rw_lock = .free) ∧
      (∀ (u : World) (e : Ptr), Element_Release (dispatch .Coarse) u e = .ok u) :=
  ⟨by decide, C15_tree_lock_released .Coarse (by decide) [.insert 5] 7⟩

theorem tree_lock_wr_log {s : Strategy} {w w1 : World} (hs : s ≠ .FineGrained)
    (h : TFree s w) (e : tree_lock_wr w = .ok w1) : w1.log = w.log ++ s.wr_entry := by
  obtain ⟨h1, h2, h3⟩ := h
  cases s with
  | FineGrained => exact absurd rfl hs
  | None =>
    simp [tree_lock_wr, h1, Strategy.code, NO_LOCK, COARSE_LOCK, RW_LOCK] at e
    subst e; simp [Strategy.wr_entry]
  | Coarse =>
    simp [tree_lock_wr, h1, Strategy.code, COARSE_LOCK, RW_LOCK, lock, h2] at e
    subst e; rfl
  | ReadWrite =>
    simp [tree_lock_wr, h1, Strategy.code, COARSE_LOCK, RW_LOCK, pthread_rwlock_wrlock, h3] at e
    subst e; rfl

theorem tree_lock_rd_log {s : Strategy} {w w1 : World} (hs : s ≠ .FineGrained)
    (h : TFree s w) (e : tree_lock_rd w = .ok w1) : w1.log = w.log ++ s.rd_entry := by
  obtain ⟨h1, h2, h3⟩ := h
  cases s with
  | FineGrained => exact absurd rfl hs
  | None =>
    simp [tree_lock_rd, h1, Strategy.code, NO_LOCK, COARSE_LOCK, RW_LOCK] at e
    subst e; simp [Strategy.rd_entry]
  | Coarse =>
    simp [tree_lock_rd, h1, Strategy.code, COARSE_LOCK, RW_LOCK, lock, h2] at e
    subst e; rfl
  | ReadWrite =>
    simp [tree_lock_rd, h1, Strategy.code, COARSE_LOCK, RW_LOCK, pthread_rwlock_rdlock, h3] at e
    subst e; rfl

theorem tree_unlock_log {s : Strategy} {w w1 : World} (h : TLocked s w)
    (e : tree_unlock w = .ok w1) : w1.log = w.log ++ s.tree_exit := by
  obtain ⟨h1, h2⟩ := h
  cases s with
  | FineGrained => exact absurd h2 id
  | None =>
    simp [tree_unlock, h1, Strategy.code, NO_LOCK, COARSE_LOCK, RW_LOCK] at e
    subst e; simp [Strategy.tree_exit]
  | Coarse =>
    simp [tree_unlock, h1, Strategy.code, COARSE_LOCK, RW_LOCK, unlock, h2.1] at e
    subst e; rfl
  | ReadWrite =>
    rcases h2.2 with h3 | h3 <;>
    · simp [tree_unlock, h1, Strategy.code, COARSE_LOCK, RW_LOCK, pthread_rwlock_unlock, h3] at e
      subst e; rfl

theorem local_tree_insert_log {s : Strategy} {w : World} {t : T} (hs : s ≠ .FineGrained)
    (h : Inv s w t) (v : Int) :
    ∃ w', local_tree_insert w v = .ok w' ∧ w'.log = w.log ++ (s.wr_entry ++ s.tree_exit) := by
  obtain ⟨w1, e1, m1, b1, r1, l1⟩ := tree_lock_wr_ok hs h.tfree
  obtain ⟨w2, e2, -, s2, -, g2⟩ := insert_body_ok (h.holds.of_eq m1 b1 r1) v
  obtain ⟨w3, e3, -⟩ := tree_unlock_ok (l1.of_same s2)
  refine ⟨w3, ?_, ?_⟩
  · rw [local_tree_insert_eq, e1, ok_bind, e2, ok_bind, e3]
  · rw [tree_unlock_log (l1.of_same s2) e3, g2, tree_lock_wr_log hs h.tfree e1,
      List.append_assoc]

theorem local_tree_delete_log {s : Strategy} {w : World} {t : T} (hs : s ≠ .FineGrained)
    (h : Inv s w t) (v : Int) :
    ∃ w', local_tree_delete w v = .ok w' ∧ w'.log = w.log ++ (s.wr_entry ++ s.tree_exit) := by
  obtain ⟨w1, e1, m1, b1, r1, l1⟩ := tree_lock_wr_ok hs h.tfree
  obtain ⟨w2, e2, -, s2, -, g2, -⟩ := delete_body_ok (h.holds.of_eq m1 b1 r1) h.bst v
  obtain ⟨w3, e3, -⟩ := tree_unlock_ok (l1.of_same s2)
  refine ⟨w3, ?_, ?_⟩
  · rw [local_tree_delete_eq, e1, ok_bind, e2, ok_bind, e3]
  · rw [tree_unlock_log (l1.of_same s2) e3, g2, tree_lock_wr_log hs h.tfree e1,
      List.append_assoc]

theorem local_tree_lookup_log {s : Strategy} {w : World} {t : T} (hs : s ≠ .FineGrained)
    (h : Inv s w t) (v : Int) :
    ∃ w' r, local_tree_lookup w v = .ok (w', r) ∧
      w'.log = w.log ++ (s.rd_entry ++ s.tree_exit) := by
  obtain ⟨w1, e1, m1, b1, r1, l1⟩ := tree_lock_rd_ok hs h.tfree
  obtain ⟨w3, e3, -⟩ := tree_unlock_ok l1
  have H1 := h.holds.of_eq m1 b1 r1
  have hlog : w3.log = w.log ++ (s.rd_entry ++ s.tree_exit) := by
    rw [tree_unlock_log l1 e3, tree_lock_rd_log hs h.tfree e1, List.append_assoc]
  cases t with
  | nil =>
    have : w1.tree.root = none := H1.root
    exact ⟨w3, none, by simp [local_tree_lookup, e1, this, e3], hlog⟩
  | node a l x r =>
    have hroot : w1.tree.root = some a := H1.root
    have hsearch := search_loop_eq (v := v) (T.node a l x r) none (w1.brk + 1) H1.rep
      (Nat.lt_succ_of_le (T.height_le_brk H1.nodup H1.lt_brk))
    simp only [T.root_node] at hsearch
    exact ⟨w3, T.find v (T.node a l x r),
      by simp [local_tree_lookup, e1, hroot, hsearch, e3], hlog⟩

theorem local_tree_traverse_log {σ : Type} {s : Strategy} {w : World} {t : T}
    (hs : s ≠ .FineGrained) (h : Inv s w t) (func : World → Ptr → σ → σ) (s0 : σ) :
    ∃ w' r, local_tree_traverse w func s0 = .ok (w', r) ∧
      w'.log = w.log ++ (s.rd_entry ++ s.tree_exit) := by
  obtain ⟨w1, e1, m1, b1, r1, l1⟩ := tree_lock_rd_ok hs h.tfree
  obtain ⟨w3, e3, -⟩ := tree_unlock_ok l1
  have H1 := h.holds.of_eq m1 b1 r1
  have htr := Node_Traverse_eq func t none (w1.brk + 1) s0 H1.rep
    (Nat.lt_succ_of_le (T.height_le_brk H1.nodup H1.lt_brk))
  rw [← H1.root] at htr
  refine ⟨w3, t.addrs.foldl (fun s a => func w1 (some a) s) s0,
    by simp only [local_tree_traverse, e1, ok_bind, htr, e3, pure_eq_ok], ?_⟩
  rw [tree_unlock_log l1 e3, tree_lock_rd_log hs h.tfree e1, List.append_assoc]

theorem lockCalls_plain {s : Strategy} {w : World} {t : T} (hs : s ≠ .FineGrained)
    (h : Inv s w t) :
    LockCalls (dispatch s) w (s.wr_entry ++ s.tree_exit) (s.rd_entry ++ s.tree_exit) := by
  rw [dispatch_plain hs]
  exact ⟨fun v => local_tree_insert_log hs h v, fun v => local_tree_delete_log hs h v,
    fun v => local_tree_lookup_log hs h v,
    fun σ func s0 => local_tree_traverse_log hs h (fun _ => func) s0⟩

theorem run_log_none (ops : List Op) :
    ∀ {w : World} {t : T}, Inv .None w t →
      ∃ w', run (dispatch .None) w ops = .ok w' ∧ w'.log = w.log := by
  have hs : Strategy.None ≠ Strategy.FineGrained := by decide
  induction ops with
  | nil => intro w t _; exact ⟨w, rfl, rfl⟩
  | cons op ops ih =>
    intro w t h
    obtain ⟨hi, hd, hl, -⟩ := lockCalls_plain hs h
    cases op with
    | insert v =>
      obtain ⟨w1, e1, i1, -⟩ := Tree_Insert_ok h v
      obtain ⟨w1', e1', g⟩ := hi v
      rw [e1] at e1'; cases e1'
      obtain ⟨w2, e2, g2⟩ := ih i1
      exact ⟨w2, by simp [run, step, e1, e2], by rw [g2, g]; simp [Strategy.wr_entry,
        Strategy.tree_exit]⟩
    | delete v =>
      obtain ⟨w1, e1, i1, -⟩ := Tree_Delete_ok h v
      obtain ⟨w1', e1', g⟩ := hd v
      rw [e1] at e1'; cases e1'
      obtain ⟨w2, e2, g2⟩ := ih i1
      exact ⟨w2, by simp [run, step, e1, e2], by rw [g2, g]; simp [Strategy.wr_entry,
        Strategy.tree_exit]⟩
    | lookup v =>
      obtain ⟨w1, e1, tr, b, -, -, -⟩ := Tree_Lookup_ok h v
      obtain ⟨w1', r, e1', g⟩ := hl v
      rw [e1] at e1'; cases e1'
      have e2 := Element_Release_plain hs w1 (T.find v t)
      have m1 : w1.mem = w.mem := by
        obtain ⟨w1', e1', m, -⟩ := local_tree_lookup_ok hs h v
        rw [dispatch_plain hs] at e1
        simp only [Tree_Lookup] at e1
        rw [e1] at e1'; cases e1'; exact m
      obtain ⟨w2, e3, g2⟩ := ih (h.transfer m1 tr b)
      exact ⟨w2, by simp [run, step, e1, e2, e3], by rw [g2, g]; simp [Strategy.rd_entry,
        Strategy.tree_exit]⟩

theorem lock_W_held {ω : World} {M : Nat → Option i_element_t} {H : Finset Nat}
    {l : List Ev} {a : Nat} {n : i_element_t} (h : M a = some n) (ha : a ∈ H) :
    lock (W ω M H l) (.node (some a)) = .error .self_deadlock := by
  simp only [lock, W_mem, relock_apply h, ha, decide_True]

theorem lock_held {u : World} {a : Nat} (h : u.held a = true) :
    lock u (.node (some a)) = .error .self_deadlock := by
  unfold World.held at h
  cases hm : u.mem a with
  | none => rw [hm] at h; cases h
  | some n =>
    rw [hm] at h
    have hl : n.lock = some true := by simpa using h
    simp only [lock, hm, hl]

theorem lookup_fine_loop_free {ω : World} {M : Nat → Option i_element_t} {v : Int} :
    ∀ (t : T) (a : Nat) (par : Ptr) (fuel : Nat) (B : Finset Nat) (l : List Ev),
      t.root = some a → Rep M t par → t.addrs.Nodup → t.height < fuel →
      (∀ x ∈ T.path v t, x ∉ B) →
      ∃ l', local_tree_lookup_fine_loop fuel (W ω M (insert a B) l) (some a) v =
          .ok (W ω M (insertOpt (T.find v t) B) l', T.find v t) := by
  intro t
  induction t with
  | nil => intro a _ _ _ _ h; simp at h
  | node b lt x rt ihl ihr =>
    intro a par fuel B l hroot hrep hd hf hB
    simp only [T.root_node, Option.some.injEq] at hroot
    subst hroot
    obtain ⟨n, hn, hv, hl, hr, hp, hL, hR⟩ := hrep
    obtain ⟨hdl, hdr, hal, har, hlr⟩ := T.nodup_node.mp hd
    have hbB : b ∉ B := hB b (by simp [T.path])
    cases fuel with
    | zero => omega
    | succ f =>
      simp only [T.height] at hf
      simp only [local_tree_lookup_fine_loop, deref_W hn, ok_bind, hv, T.find]
      by_cases hxv : x = v
      · refine ⟨l, ?_⟩
        simp only [hxv, ne_eq, not_true_eq_false, if_false, pure_eq_ok, insertOpt_some]
      · simp only [ne_eq, hxv, not_false_eq_true, if_true]
        have hfin : (insert b B).erase b = B := Finset.erase_insert hbB
        by_cases hg : x > v
        · simp only [hg, if_true, hl]
          have hsub : ∀ y ∈ T.path v lt, y ∉ B := fun y hy =>
            hB y (by simp [T.path, hxv, hg, hy])
          cases lt with
          | nil =>
            cases f with
            | zero => omega
            | succ f' =>
              refine ⟨l ++ [.unlock (.node (some b))], ?_⟩
              simp only [T.root_nil, ne_eq, not_true_eq_false, if_false,
                unlock_W hn (Finset.mem_insert_self b B), ok_bind, local_tree_lookup_fine_loop,
                hfin, T.find, insertOpt_none]
          | node c cl cv cr =>
            obtain ⟨nc, hnc, -, -, -, hcp, -⟩ := id hL
            have hcb : c ≠ b := fun h => hal (by simp [T.addrs, h])
            have hcB : c ∉ B := hsub c (by simp [T.path])
            have hc1 : c ∉ insert b B := by simp [hcb, hcB]
            have hb2 : b ∈ insert c (insert b B) := by simp
            have hfin2 : (insert c (insert b B)).erase b = insert c B := by
              rw [Finset.erase_insert_of_ne hcb, Finset.erase_insert hbB]
            obtain ⟨l', h2⟩ := ihl c (some b) f B
              (l ++ [.lock (.node (some c))] ++ [.unlock (.node (some b))]) rfl hL hdl
              (by omega) hsub
            refine ⟨l', ?_⟩
            simp only [T.root_node, ne_eq, reduceCtorEq, not_false_eq_true, if_true,
              lock_W hnc hc1, ok_bind, deref_W hn, hl, deref_W hnc, hcp, unlock_W hn hb2,
              hfin2, h2]
        · simp only [hg, if_false, hr]
          have hsub : ∀ y ∈ T.path v rt, y ∉ B := fun y hy =>
            hB y (by simp [T.path, hxv, hg, hy])
          cases rt with
          | nil =>
            cases f with
            | zero => omega
            | succ f' =>
              refine ⟨l ++ [.unlock (.node (some b))], ?_⟩
              simp only [T.root_nil, ne_eq, not_true_eq_false, if_false,
                unlock_W hn (Finset.mem_insert_self b B), ok_bind, local_tree_lookup_fine_loop,
                hfin, T.find, insertOpt_none]
          | node c cl cv cr =>
            obtain ⟨nc, hnc, -, -, -, hcp, -⟩ := id hR
            have hcb : c ≠ b := fun h => har (by simp [T.addrs, h])
            have hcB : c ∉ B := hsub c (by simp [T.path])
            have hc1 : c ∉ insert b B := by simp [hcb, hcB]
            have hb2 : b ∈ insert c (insert b B) := by simp
            have hfin2 : (insert c (insert b B)).erase b = insert c B := by
              rw [Finset.erase_insert_of_ne hcb, Finset.erase_insert hbB]
            obtain ⟨l', h2⟩ := ihr c (some b) f B
              (l ++ [.lock (.node (some c))] ++ [.unlock (.node (some b))]) rfl hR hdr
              (by omega) hsub
            refine ⟨l', ?_⟩
            simp only [T.root_node, ne_eq, reduceCtorEq, not_false_eq_true, if_true,
              lock_W hnc hc1, ok_bind, deref_W hn, hr, deref_W hnc, hcp, unlock_W hn hb2,
              hfin2, h2]

theorem lookup_fine_loop_blocked {ω : World} {M : Nat → Option i_element_t} {v : Int} :
    ∀ (t : T) (a : Nat) (par : Ptr) (fuel : Nat) (B : Finset Nat) (l : List Ev),
      t.root = some a → Rep M t par → t.addrs.Nodup → t.height < fuel →
      a ∉ B → (∃ x ∈ T.path v t, x ∈ B) →
      local_tree_lookup_fine_loop fuel (W ω M (insert a B) l) (some a) v =
        .error .self_deadlock := by
  intro t
  induction t with
  | nil => intro a _ _ _ _ h; simp at h
  | node b lt x rt ihl ihr =>
    intro a par fuel B l hroot hrep hd hf hbB hex
    simp only [T.root_node, Option.some.injEq] at hroot
    subst hroot
    obtain ⟨n, hn, hv, hl, hr, hp, hL, hR⟩ := hrep
    obtain ⟨hdl, hdr, hal, har, hlr⟩ := T.nodup_node.mp hd
    obtain ⟨y, hy, hyB⟩ := hex
    cases fuel with
    | zero => omega
    | succ f =>
      simp only [T.height] at hf
      simp only [local_tree_lookup_fine_loop, deref_W hn, ok_bind, hv]
      have hyb : y ≠ b := fun h => hbB (h ▸ hyB)
      by_cases hxv : x = v
      · simp [T.path, hxv, hyb] at hy
      · simp only [ne_eq, hxv, not_false_eq_true, if_true]
        by_cases hg : x > v
        · simp only [hg, if_true, hl]
          have hy' : y ∈ T.path v lt := by simpa [T.path, hxv, hg, hyb] using hy
          cases lt with
          | nil => simp [T.path] at hy'
          | node c cl cv cr =>
            obtain ⟨nc, hnc, -, -, -, hcp, -⟩ := id hL
            have hcb : c ≠ b := fun h => hal (by simp [T.addrs, h])
            simp only [T.root_node, ne_eq, reduceCtorEq, not_false_eq_true, if_true]
            by_cases hcB : c ∈ B
            · simp only [lock_W_held hnc (Finset.mem_insert_of_mem hcB), error_bind]
            · have hc1 : c ∉ insert b B := by simp [hcb, hcB]
              have hb2 : b ∈ insert c (insert b B) := by simp
              have hfin2 : (insert c (insert b B)).erase b = insert c B := by
                rw [Finset.erase_insert_of_ne hcb, Finset.erase_insert hbB]
              have h2 := ihl c (some b) f B
                (l ++ [.lock (.node (some c))] ++ [.unlock (.node (some b))]) rfl hL hdl
                (by omega) hcB ⟨y, hy', hyB⟩
              simp only [lock_W hnc hc1, ok_bind, deref_W hn, hl, T.root_node, deref_W hnc,
                hcp, unlock_W hn hb2, hfin2, h2]
        · simp only [hg, if_false, hr]
          have hy' : y ∈ T.path v rt := by simpa [T.path, hxv, hg, hyb] using hy
          cases rt with
          | nil => simp [T.path] at hy'
          | node c cl cv cr =>
            obtain ⟨nc, hnc, -, -, -, hcp, -⟩ := id hR
            have hcb : c ≠ b := fun h => har (by simp [T.addrs, h])
            simp only [T.root_node, ne_eq, reduceCtorEq, not_false_eq_true, if_true]
            by_cases hcB : c ∈ B
            · simp only [lock_W_held hnc (Finset.mem_insert_of_mem hcB), error_bind]
            · have hc1 : c ∉ insert b B := by simp [hcb, hcB]
              have hb2 : b ∈ insert c (insert b B) := by simp
              have hfin2 : (insert c (insert b B)).erase b = insert c B := by
                rw [Finset.erase_insert_of_ne hcb, Finset.erase_insert hbB]
              have h2 := ihr c (some b) f B
                (l ++ [.lock (.node (some c))] ++ [.unlock (.node (some b))]) rfl hR hdr
                (by omega) hcB ⟨y, hy', hyB⟩
              simp only [lock_W hnc hc1, ok_bind, deref_W hn, hr, T.root_node, deref_W hnc,
                hcp, unlock_W hn hb2, hfin2, h2]

theorem mem_insertOpt_self (o : Ptr) (n : Nat) : n ∈ insertOpt o {n} := by
  cases o <;> simp

theorem handle_world {w w1 : World} {t : T} {v : Int} {n : Nat} (h : Inv .FineGrained w t)
    (hf : T.find v t = some n) (e : local_tree_lookup_fine w v = .ok (w1, some n)) :
    w1 = W w w.mem {n} w1.log := by
  obtain ⟨w1', e1, m1, t1, b1⟩ := local_tree_lookup_fine_ok h v
  rw [hf] at e1 m1
  rw [e] at e1; cases e1
  exact World.ext' (by rw [m1]; rfl) b1 t1 rfl

theorem lookup_with_handle {w : World} {t : T} (h : Inv .FineGrained w t) (n : Nat)
    (hn : n ∈ t.addrs) (l : List Ev) (x : Int) :
    (n ∈ T.path x t →
      local_tree_lookup_fine (W w w.mem {n} l) x = .error .self_deadlock) ∧
    (n ∉ T.path x t → ∃ w2, local_tree_lookup_fine (W w w.mem {n} l) x = .ok (w2, T.find x t) ∧
      w2.held n = true) := by
  obtain ⟨hroot, hrep, hd, hb⟩ := h.holds
  cases t with
  | nil => simp [T.addrs] at hn
  | node a lt xv rt =>
    simp only [T.root_node] at hroot
    obtain ⟨na, hna, -⟩ := id hrep
    have hfuel := Nat.lt_succ_of_le (T.height_le_brk hd hb)
    constructor
    · intro hp
      simp only [local_tree_lookup_fine, W_tree, hroot, reduceCtorEq, if_false]
      by_cases han : a = n
      · subst han
        simp only [lock_W_held hna (Finset.mem_singleton_self a), error_bind]
      · have ha : a ∉ ({n} : Finset Nat) := by simp [han]
        have hb := lookup_fine_loop_blocked (ω := w) (M := w.mem) (v := x) (T.node a lt xv rt) a
          none (w.brk + 1) {n} (l ++ [.lock (.node (some a))]) rfl hrep hd hfuel ha
          ⟨n, hp, Finset.mem_singleton_self n⟩
        simp only [lock_W hna ha, ok_bind, W_brk, W_tree, hroot]
        exact hb
    · intro hp
      have han : a ≠ n := fun h => hp (by simp [T.path, h])
      have ha : a ∉ ({n} : Finset Nat) := by simp [han]
      obtain ⟨l', h1⟩ := lookup_fine_loop_free (ω := w) (M := w.mem) (v := x)
        (T.node a lt xv rt) a none (w.brk + 1) {n} (l ++ [.lock (.node (some a))]) rfl hrep hd
        hfuel (fun y hy hyn => hp (by rw [Finset.mem_singleton] at hyn; exact hyn ▸ hy))
      refine ⟨W w w.mem (insertOpt (T.find x (T.node a lt xv rt)) {n}) l', ?_, ?_⟩
      · simp only [local_tree_lookup_fine, W_tree, hroot, reduceCtorEq, if_false,
          lock_W hna ha, ok_bind, W_brk]
        exact h1
      · rw [held_relock (W_mem _ _ _ _) n]
        obtain ⟨nn, hnn⟩ := hrep.get hn
        exact ⟨mem_insertOpt_self _ n, by rw [hnn]; simp⟩

theorem root_handle_blocks {w : World} {t : T} (h : Inv .FineGrained w t) (n : Nat)
    (hr : w.tree.root = some n) (l : List Ev) (y : Int) :
    local_tree_insert_fine (W w w.mem {n} l) y = .error .self_deadlock ∧
    local_tree_delete_fine (W w w.mem {n} l) y = .error .self_deadlock ∧
    ∀ (σ : Type) (func : World → Ptr → σ → σ) (s0 : σ),
      local_tree_traverse_fine (W w w.mem {n} l) func s0 = .error .self_deadlock := by
  obtain ⟨hroot, hrep, hd, hb⟩ := h.holds
  cases t with
  | nil => rw [hr] at hroot; simp at hroot
  | node a lt xv rt =>
    simp only [T.root_node] at hroot
    rw [hr] at hroot
    simp only [Option.some.injEq] at hroot
    subst hroot
    obtain ⟨na, hna, -⟩ := id hrep
    have hlock := lock_W_held (ω := w) (l := l) hna (Finset.mem_singleton_self n)
    refine ⟨?_, ?_, ?_⟩
    · have hnb : n < w.brk := hb n (by simp [T.addrs])
      have hbn : w.brk ∉ ({n} : Finset Nat) := by
        simp only [Finset.mem_singleton]; omega
      have hinit := malloc_init_W (ω := w) (M := w.mem) (H := {n}) (l := l) y hbn
      have hM : Function.update w.mem w.brk
          (some { value := y, left := none, right := none, parent := none, lock := none }) n =
          some na := by
        rw [Function.update_noteq (by omega)]; exact hna
      simp only [local_tree_insert_fine]
      have e2 : (malloc_element (W w w.mem {n} l) y).2 = some w.brk := rfl
      rw [e2, hinit]
      simp only [ok_bind, W_tree, hr, ne_eq, reduceCtorEq, not_false_eq_true, if_true,
        lock_W_held hM (Finset.mem_singleton_self n), error_bind]
    · simp only [local_tree_delete_fine, W_tree, hr, ne_eq, reduceCtorEq, not_false_eq_true,
        if_true, hlock, error_bind]
    · intro σ func s0
      simp only [local_tree_traverse_fine, W_tree, hr, ne_eq, reduceCtorEq, not_false_eq_true,
        if_true, hlock, error_bind]

/-- C17, the code evaluated on the failing input: on a Coarse tree holding 5,
`Tree_Lookup(5)` returns the node with the tree mutex already unlocked (its two lock
calls are `lock` then `unlock` of `tree->m_lock`); on a ReadWrite tree it returns with
the reader-writer lock free (`rdlock` then `unlock`). -/
theorem C17_plain_lookup_returns_unlocked :
    (∃ w w', reach .Coarse [.insert 5] = .ok w ∧
      Tree_Lookup (dispatch .Coarse) w 5 = .ok (w', some 0) ∧
      w'.tree.m_lock = some false ∧
      w'.log = w.log ++ [.lock .tree, .unlock .tree]) ∧
    (∃ u u', reach .ReadWrite [.insert 5] = .ok u ∧
      Tree_Lookup (dispatch .ReadWrite) u 5 = .ok (u', some 0) ∧
      u'.tree.rw_lock = .free ∧
      u'.log = u.log ++ [.rdlock, .rw_unlock]) :=
  ⟨⟨_, _, rfl, rfl, rfl, rfl⟩, ⟨_, _, rfl, rfl, rfl, rfl⟩⟩

/-- C18 fails as stated: on the FineGrained tree built by `insert(5); insert(8)`, after
`Tree_Lookup(5)` returned the root (node 0) and while its lock, the only one held, is not
released, `Tree_Lookup(8)` (8 differs from the value of the node) and `Tree_Insert(9)`
(which writes no field of the root) both call `lock` on the lock of node 0: they do not
return. -/
theorem C18_counterexample :
    ∃ w w1, reach .FineGrained [.insert 5, .insert 8] = .ok w ∧
      Tree_Lookup (dispatch .FineGrained) w 5 = .ok (w1, some 0) ∧
      Element_Value (dispatch .FineGrained) w1 (some 0) = .ok 5 ∧
      w1.held 0 = true ∧ w1.held 1 = false ∧
      Tree_Lookup (dispatch .FineGrained) w1 8 = .error .self_deadlock ∧
      Tree_Insert (dispatch .FineGrained) w1 9 = .error .self_deadlock :=
  ⟨_, _, rfl, rfl, rfl, rfl, rfl, rfl, rfl⟩

/-- C18 (amended): under FineGrained, on a tree reached by a single-threaded run, while
the handle `n` returned by a `Tree_Lookup(v)` is not released, a `Tree_Lookup(x)` calls
`lock` on the nodes of the search path of `x` from the root down: if `n` is on that path
the call requests the lock of `n` and does not return; if `n` is not on it the call
returns its result with the lock of `n` still held.  When `n` is the root, every
`Tree_Insert`, `Tree_Delete` and `Tree_Traverse` requests the lock of `n` first and does
not return either. -/
theorem C18_blocked_iff_on_path (ops : List Op) (v x : Int) :
    ∃ w w1 r, reach .FineGrained ops = .ok w ∧
      Tree_Lookup (dispatch .FineGrained) w v = .ok (w1, r) ∧
      ∀ n, r = some n →
        (n ∈ T.path x w.abs →
          Tree_Lookup (dispatch .FineGrained) w1 x = .error .self_deadlock) ∧
        (n ∉ T.path x w.abs → ∃ w2,
          Tree_Lookup (dispatch .FineGrained) w1 x = .ok (w2, T.find x w.abs) ∧
          w2.held n = true) ∧
        (w.tree.root = some n → ∀ y,
          Tree_Insert (dispatch .FineGrained) w1 y = .error .self_deadlock ∧
          Tree_Delete (dispatch .FineGrained) w1 y = .error .self_deadlock ∧
          ∀ (σ : Type) (func : Ptr → σ → σ) (s0 : σ),
            Tree_Traverse (dispatch .FineGrained) w1 (fun _ => func) s0 =
              .error .self_deadlock) := by
  obtain ⟨w, t, h1, h2⟩ := reach_ok .FineGrained ops
  obtain ⟨w1, e1, -⟩ := local_tree_lookup_fine_ok h2 v
  refine ⟨w, w1, T.find v t, h1, by rw [dispatch_fine]; exact e1, ?_⟩
  intro n hn
  rw [hn] at e1
  have hW := handle_world h2 hn e1
  obtain ⟨hA, hB⟩ := lookup_with_handle h2 n (T.find_mem_addrs hn) w1.log x
  rw [← hW] at hA hB
  rw [h2.holds.abs_eq, dispatch_fine]
  refine ⟨hA, hB, ?_⟩
  intro hr y
  obtain ⟨hI, hD, hT⟩ := root_handle_blocks h2 n hr w1.log y
  rw [← hW] at hI hD hT
  exact ⟨hI, hD, fun σ func s0 => hT σ (fun _ => func) s0⟩

/-- C19: under FineGrained, on every tree reached by a single-threaded run no node lock
is held, and each of `Tree_Insert(v)`, `Tree_Delete(v)`, `Tree_Lookup(v)` and
`Tree_Traverse` begun there returns; a call of `lock` on a node lock that is held does
not return (it is the fault `self_deadlock`, which ends the operation), so no such call
is made during any of them, the re-insertion of the right subtree by delete included. -/
theorem C19_no_relock (ops : List Op) (v : Int) :
    ∃ w, reach .FineGrained ops = .ok w ∧ (∀ a, w.held a = false) ∧
      (∃ w', Tree_Insert (dispatch .FineGrained) w v = .ok w') ∧
      (∃ w', Tree_Delete (dispatch .FineGrained) w v = .ok w') ∧
      (∃ w' r, Tree_Lookup (dispatch .FineGrained) w v = .ok (w', r)) ∧
      (∀ (σ : Type) (func : Ptr → σ → σ) (s0 : σ), ∃ w' r,
        Tree_Traverse (dispatch .FineGrained) w (fun _ => func) s0 = .ok (w', r)) ∧
      (∀ (u : World) (a : Nat), u.held a = true →
        lock u (.node (some a)) = .error .self_deadlock) := by
  obtain ⟨w, t, h1, h2⟩ := reach_ok .FineGrained ops
  refine ⟨w, h1, h2.no_held, ?_, ?_, ?_, ?_, fun u a h => lock_held h⟩
  · obtain ⟨w', e, -⟩ := Tree_Insert_ok h2 v
    exact ⟨w', e⟩
  · obtain ⟨w', e, -⟩ := Tree_Delete_ok h2 v
    exact ⟨w', e⟩
  · obtain ⟨w', e, -⟩ := Tree_Lookup_ok h2 v
    exact ⟨w', _, e⟩
  · intro σ func s0
    obtain ⟨w', e, -⟩ := Tree_Traverse_ok h2 (fun _ => func) (fun _ _ _ _ _ => rfl) s0
    exact ⟨w', _, e⟩

theorem Rep.parent_link {m : Nat → Option i_element_t} :
    ∀ {t : T} {par : Ptr}, Rep m t par → t.addrs.Nodup →
      ∀ a ∈ t.addrs, ∀ n, m a = some n →
        (n.parent = par ∧ t.root = some a) ∨
        (∃ p ∈ t.addrs, n.parent = some p ∧ ∃ pn, m p = some pn ∧
          ((pn.left = some a ∧ pn.right ≠ some a) ∨ (pn.left ≠ some a ∧ pn.right = some a))) := by
  intro t
  induction t with
  | nil => intro _ _ _ a ha; simp [T.addrs] at ha
  | node b l x r ihl ihr =>
    intro par h hd a ha n hna
    obtain ⟨nb, hnb, hv, hl, hr, hp, hL, hR⟩ := h
    obtain ⟨hdl, hdr, hal, har, hlr⟩ := T.nodup_node.mp hd
    rcases T.mem_addrs_node.mp ha with h1 | h1 | h1
    · right
      rcases ihl hL hdl a h1 n hna with ⟨e1, e2⟩ | ⟨p, hp1, e1, pn, e2, e3⟩
      · refine ⟨b, by simp [T.addrs], e1, nb, hnb, Or.inl ⟨hl.trans e2, ?_⟩⟩
        rw [hr]
        intro hc
        exact hlr a h1 (T.root_mem_addrs hc)
      · exact ⟨p, T.mem_addrs_node.mpr (Or.inl hp1), e1, pn, e2, e3⟩
    · subst h1
      rw [hnb] at hna; cases hna
      exact Or.inl ⟨hp, rfl⟩
    · right
      rcases ihr hR hdr a h1 n hna with ⟨e1, e2⟩ | ⟨p, hp1, e1, pn, e2, e3⟩
      · refine ⟨b, by simp [T.addrs], e1, nb, hnb, Or.inr ⟨?_, hr.trans e2⟩⟩
        rw [hl]
        intro hc
        exact hlr a (T.root_mem_addrs hc) h1
      · exact ⟨p, T.mem_addrs_node.mpr (Or.inr (Or.inr hp1)), e1, pn, e2, e3⟩

theorem Holds.parentsOK {w : World} {t : T} (h : Holds w t) : ParentsOK w := by
  have hnodes : w.nodes = t.addrs := by rw [World.nodes, h.abs_eq]
  refine ⟨?_, ?_, ?_⟩
  · intro r n hr hn
    have hroot := h.root.symm.trans hr
    rcases h.rep.parent_link h.nodup r (T.root_mem_addrs hroot) n hn with ⟨e, -⟩ |
      ⟨p, -, e1, pn, e2, e3⟩
    · exact e
    · exfalso
      cases t with
      | nil => simp at hroot
      | node b l x rt =>
        simp only [T.root_node, Option.some.injEq] at hroot
        subst hroot
        obtain ⟨nb, hnb, -, -, -, hp, -⟩ := h.rep
        rw [hn] at hnb; cases hnb
        rw [hp] at e1; cases e1
  · intro a ha n hn hp
    rw [hnodes] at ha
    rcases h.rep.parent_link h.nodup a ha n hn with ⟨-, e⟩ | ⟨p, -, e1, -⟩
    · exact h.root.trans e
    · rw [hp] at e1; cases e1
  · intro a ha n p hn hp
    rw [hnodes] at ha ⊢
    rcases h.rep.parent_link h.nodup a ha n hn with ⟨e, -⟩ | ⟨q, hq, e1, pn, e2, e3⟩
    · rw [hp] at e; cases e
    · rw [hp] at e1; cases e1
      exact ⟨hq, pn, e2, e3⟩

theorem follow_nil (m : Nat → Option i_element_t) (p : Ptr) : follow m p [] = p := by
  cases p <;> rfl

theorem Rep.follow_mem {m : Nat → Option i_element_t} (d : List Bool) :
    ∀ {t : T} {par : Ptr} {a : Nat}, Rep m t par → follow m t.root d = some a →
      a ∈ t.addrs := by
  induction d with
  | nil => intro t par a _ h; rw [follow_nil] at h; exact T.root_mem_addrs h
  | cons b d ih =>
    intro t par a h hf
    cases t with
    | nil => simp [follow] at hf
    | node c l x r =>
      obtain ⟨n, hn, -, hl, hr, -, hL, hR⟩ := h
      simp only [T.root_node, follow, hn] at hf
      cases b with
      | true =>
        simp only [if_true, hl] at hf
        exact T.mem_addrs_node.mpr (Or.inl (ih hL hf))
      | false =>
        simp only [Bool.false_eq_true, if_false, hr] at hf
        exact T.mem_addrs_node.mpr (Or.inr (Or.inr (ih hR hf)))

theorem Rep.follow_exists {m : Nat → Option i_element_t} :
    ∀ {t : T} {par : Ptr} {a : Nat}, Rep m t par → a ∈ t.addrs →
      ∃ d, follow m t.root d = some a := by
  intro t
  induction t with
  | nil => intro _ a _ ha; simp [T.addrs] at ha
  | node c l x r ihl ihr =>
    intro par a h ha
    obtain ⟨n, hn, -, hl, hr, -, hL, hR⟩ := h
    rcases T.mem_addrs_node.mp ha with h1 | h1 | h1
    · obtain ⟨d, hd⟩ := ihl hL h1
      exact ⟨true :: d, by simp only [T.root_node, follow, hn, if_true, hl, hd]⟩
    · exact ⟨[], by simp [follow, h1]⟩
    · obtain ⟨d, hd⟩ := ihr hR h1
      exact ⟨false :: d, by
        simp only [T.root_node, follow, hn, Bool.false_eq_true, if_false, hr, hd]⟩

theorem Rep.follow_unique {m : Nat → Option i_element_t} (d1 : List Bool) :
    ∀ {t : T} {par : Ptr} {a : Nat} (d2 : List Bool), Rep m t par → t.addrs.Nodup →
      follow m t.root d1 = some a → follow m t.root d2 = some a → d1 = d2 := by
  induction d1 with
  | nil =>
    intro t par a d2 h hd h1 h2
    cases d2 with
    | nil => rfl
    | cons b d =>
      exfalso
      cases t with
      | nil => simp [follow] at h2
      | node c l x r =>
        simp only [T.root_node, follow, Option.some.injEq] at h1
        subst h1
        obtain ⟨hdl, hdr, hal, har, hlr⟩ := T.nodup_node.mp hd
        obtain ⟨n, hn, -, hl, hr, -, hL, hR⟩ := h
        simp only [T.root_node, follow, hn] at h2
        cases b with
        | true =>
          simp only [if_true, hl] at h2
          exact hal (Rep.follow_mem d hL h2)
        | false =>
          simp only [Bool.false_eq_true, if_false, hr] at h2
          exact har (Rep.follow_mem d hR h2)
  | cons b d ih =>
    intro t par a d2 h hd h1 h2
    cases t with
    | nil => simp [follow] at h1
    | node c l x r =>
      obtain ⟨hdl, hdr, hal, har, hlr⟩ := T.nodup_node.mp hd
      obtain ⟨n, hn, -, hl, hr, -, hL, hR⟩ := h
      simp only [T.root_node, follow, hn] at h1
      cases d2 with
      | nil =>
        exfalso
        simp only [T.root_node, follow, Option.some.injEq] at h2
        subst h2
        cases b with
        | true =>
          simp only [if_true, hl] at h1
          exact hal (Rep.follow_mem d hL h1)
        | false =>
          simp only [Bool.false_eq_true, if_false, hr] at h1
          exact har (Rep.follow_mem d hR h1)
      | cons b2 d2 =>
        simp only [T.root_node, follow, hn] at h2
        cases b with
        | true =>
          simp only [if_true, hl] at h1
          cases b2 with
          | true =>
            simp only [if_true, hl] at h2
            rw [ih d2 hL hdl h1 h2]
          | false =>
            simp only [Bool.false_eq_true, if_false, hr] at h2
            exact absurd (Rep.follow_mem d2 hR h2) (hlr a (Rep.follow_mem d hL h1))
        | false =>
          simp only [Bool.false_eq_true, if_false, hr] at h1
          cases b2 with
          | true =>
            simp only [if_true, hl] at h2
            exact absurd (Rep.follow_mem d hR h1) (hlr a (Rep.follow_mem d2 hL h2))
          | false =>
            simp only [Bool.false_eq_true, if_false, hr] at h2
            rw [ih d2 hR hdr h1 h2]

/-- C21: for every strategy and every finite single-threaded run of insert, delete and
lookup-release calls (hence after each call of such a run), the parent links are
consistent: the root's parent link is `NULL`, and the parent `p` of every other stored
node `n` is a stored node with exactly one of `p->left`, `p->right` equal to `n`;
every stored node is reached from the root by exactly one sequence of left and right
links, only stored nodes are reached, and there are finitely many of them, without
repetition. -/
theorem C21_parent_links_consistent (s : Strategy) (ops : List Op) :
    ∃ w, reach s ops = .ok w ∧ ParentsOK w ∧ w.nodes.Nodup ∧
      (∀ a ∈ w.nodes, ∃ d, follow w.mem w.tree.root d = some a) ∧
      (∀ d a, follow w.mem w.tree.root d = some a → a ∈ w.nodes) ∧
      (∀ d1 d2 a, follow w.mem w.tree.root d1 = some a →
        follow w.mem w.tree.root d2 = some a → d1 = d2) := by
  obtain ⟨w, t, h1, h2⟩ := reach_ok s ops
  have hnodes : w.nodes = t.addrs := by rw [World.nodes, h2.holds.abs_eq]
  refine ⟨w, h1, h2.holds.parentsOK, by rw [hnodes]; exact h2.holds.nodup, ?_, ?_, ?_⟩
  · intro a ha
    rw [hnodes] at ha
    rw [h2.holds.root]
    exact h2.holds.rep.follow_exists ha
  · intro d a hf
    rw [h2.holds.root] at hf
    rw [hnodes]
    exact Rep.follow_mem d h2.holds.rep hf
  · intro d1 d2 a e1 e2
    rw [h2.holds.root] at e1 e2
    exact Rep.follow_unique d1 d2 h2.holds.rep h2.holds.nodup e1 e2

theorem spec_insert_eq (a : Nat) (v : Int) (t : T) : spec_insert a v t = T.ins a v t := by
  induction t with
  | nil => rfl
  | node b l x r ihl ihr =>
    simp only [spec_insert, T.ins, T.graft] at ihl ihr ⊢
    split
    · rw [ihl]
    · rw [ihr]

theorem spec_append_right_nil (t : T) : spec_append_right .nil t = t := by
  induction t with
  | nil => rfl
  | node a l x r _ ihr => simp only [spec_append_right, ihr]

theorem graft_eq_append (s : T) (ev : Int) :
    ∀ t : T, (∀ y ∈ t.vals, ¬ y > ev) → T.graft s ev t = spec_append_right s t := by
  intro t
  induction t with
  | nil => intro _; rfl
  | node a l x r _ ihr =>
    intro h
    have hx : ¬ x > ev := h x (by simp [T.vals])
    simp only [T.graft, hx, if_false, spec_append_right]
    rw [ihr (fun y hy => h y (by simp [T.vals, hy]))]

theorem spec_delete_eq (v : Int) : ∀ {t : T}, t.BST → spec_delete v t = T.del v t := by
  intro t
  induction t with
  | nil => intro _; rfl
  | node a l x r ihl ihr =>
    intro h
    obtain ⟨hl, hr, hlv, hrv⟩ := h
    simp only [spec_delete, T.del]
    by_cases hxv : x = v
    · simp only [hxv, if_true, ne_eq, not_true_eq_false, if_false, T.join]
      cases r with
      | nil => exact spec_append_right_nil l
      | node e rl ev rr =>
        symm
        apply graft_eq_append
        intro y hy
        have h1 := hlv y hy
        have h2 := hrv ev (by simp [T.vals])
        omega
    · simp only [hxv, if_false, ne_eq, not_false_eq_true, if_true]
      split
      · rw [ihl hl]
      · rw [ihr hr]

theorem Rep.fields_eq {m m' : Nat → Option i_element_t} {t : T} {par : Ptr}
    (h : Rep m t par) (h' : Rep m' t par) {a : Nat} (ha : a ∈ t.addrs) :
    ∃ n n', m a = some n ∧ m' a = some n' ∧ n'.value = n.value ∧ n'.parent = n.parent ∧
      n'.left = n.left ∧ n'.right = n.right := by
  obtain ⟨n, hn⟩ := h.get ha
  obtain ⟨n', hn'⟩ := h'.get ha
  have := Rep.same_shape h h' a ha
  rw [hn, hn'] at this
  simp only [Option.map_some', Option.some.injEq, shape] at this
  cases n; cases n'
  simp only [i_element_t.mk.injEq] at this
  exact ⟨_, _, hn, hn', this.1.symm, this.2.2.2.1.symm, this.2.1.symm, this.2.2.1.symm⟩

theorem Rep.graft_frame {m m' : Nat → Option i_element_t} (s : T) (ev : Int) :
    ∀ {t : T} {par : Ptr}, Rep m t par → Rep m' (T.graft s ev t) par → t.addrs.Nodup →
      ∀ a ∈ t.addrs, ∃ n n', m a = some n ∧ m' a = some n' ∧ n'.value = n.value ∧
        n'.parent = n.parent ∧
        (n'.left = n.left ∨ (n.left = none ∧ n'.left = s.root)) ∧
        (n'.right = n.right ∨ (n.right = none ∧ n'.right = s.root)) := by
  intro t
  induction t with
  | nil => intro _ _ _ _ a ha; simp [T.addrs] at ha
  | node b l x r ihl ihr =>
    intro par h h' hd a ha
    obtain ⟨hdl, hdr, hal, har, hlr⟩ := T.nodup_node.mp hd
    obtain ⟨n, hn, hv, hl, hr, hp, hL, hR⟩ := h
    simp only [T.graft] at h'
    by_cases hg : x > ev
    · simp only [hg, if_true] at h'
      obtain ⟨n', hn', hv', hl', hr', hp', hL', hR'⟩ := h'
      rcases T.mem_addrs_node.mp ha with h1 | h1 | h1
      · exact ihl hL hL' hdl a h1
      · subst h1
        refine ⟨n, n', hn, hn', hv'.trans hv.symm, hp'.trans hp.symm, ?_,
          Or.inl (hr'.trans hr.symm)⟩
        cases l with
        | nil => exact Or.inr ⟨hl, hl'⟩
        | node c cl cx cr =>
          left
          rw [hl', hl, T.graft_root _ _ (by simp)]
      · obtain ⟨k, k', e1, e2, e3, e4, e5, e6⟩ := Rep.fields_eq hR hR' h1
        exact ⟨k, k', e1, e2, e3, e4, Or.inl e5, Or.inl e6⟩
    · simp only [hg, if_false] at h'
      obtain ⟨n', hn', hv', hl', hr', hp', hL', hR'⟩ := h'
      rcases T.mem_addrs_node.mp ha with h1 | h1 | h1
      · obtain ⟨k, k', e1, e2, e3, e4, e5, e6⟩ := Rep.fields_eq hL hL' h1
        exact ⟨k, k', e1, e2, e3, e4, Or.inl e5, Or.inl e6⟩
      · subst h1
        refine ⟨n, n', hn, hn', hv'.trans hv.symm, hp'.trans hp.symm,
          Or.inl (hl'.trans hl.symm), ?_⟩
        cases r with
        | nil => exact Or.inr ⟨hr, hr'⟩
        | node c cl cx cr =>
          left
          rw [hr', hr, T.graft_root _ _ (by simp)]
      · exact ihr hR hR' hdr a h1

theorem Rep.graft_leaf {m' : Nat → Option i_element_t} (e : Nat) (ev : Int) :
    ∀ {t : T} {par : Ptr}, Rep m' (T.graft (.node e .nil ev .nil) ev t) par →
      ∃ n, m' e = some n ∧ n.value = ev ∧ n.left = none ∧ n.right = none ∧
        n.parent = T.slot ev t par := by
  intro t
  induction t with
  | nil =>
    intro par h
    obtain ⟨n, hn, hv, hl, hr, hp, -⟩ := h
    exact ⟨n, hn, hv, hl, hr, hp⟩
  | node b l x r ihl ihr =>
    intro par h
    simp only [T.graft, T.slot] at h ⊢
    by_cases hg : x > ev
    · simp only [hg, if_true] at h ⊢
      obtain ⟨-, -, -, -, -, -, hL, -⟩ := h
      exact ihl hL
    · simp only [hg, if_false] at h ⊢
      obtain ⟨-, -, -, -, -, -, -, hR⟩ := h
      exact ihr hR

/-- C22: for every strategy and every tree reached by a single-threaded run,
`Tree_Insert(v)` returns and the tree it leaves is the reference insertion of a new node
(at the fresh address) into the tree before: on an empty tree the new node is the root;
otherwise the descent goes left at a node whose value is strictly greater than `v` and
right otherwise.  The new node is a childless leaf with value `v` whose parent link is
the last node of the descent (`NULL` on an empty tree); every node stored before keeps
its value and its parent link, and each of its child links is unchanged or was `NULL`
and now points to the new node; the parent links are consistent afterwards. -/
theorem C22_insert_is_reference_insert (s : Strategy) (ops : List Op) (v : Int) :
    ∃ w w', reach s ops = .ok w ∧ Tree_Insert (dispatch s) w v = .ok w' ∧
      w.brk ∉ w.nodes ∧
      w'.abs = spec_insert w.brk v w.abs ∧
      (w.abs = .nil → w'.tree.root = some w.brk) ∧
      (∃ n, w'.mem w.brk = some n ∧ n.value = v ∧ n.left = none ∧ n.right = none ∧
        n.parent = T.slot v w.abs none) ∧
      (∀ a ∈ w.nodes, ∃ n n', w.mem a = some n ∧ w'.mem a = some n' ∧
        n'.value = n.value ∧ n'.parent = n.parent ∧
        (n'.left = n.left ∨ (n.left = none ∧ n'.left = some w.brk)) ∧
        (n'.right = n.right ∨ (n.right = none ∧ n'.right = some w.brk))) ∧
      ParentsOK w' := by
  obtain ⟨w, t, h1, h2⟩ := reach_ok s ops
  obtain ⟨w', e, i, -⟩ := Tree_Insert_ok h2 v
  have hnodes : w.nodes = t.addrs := by rw [World.nodes, h2.holds.abs_eq]
  have habs : w.abs = t := h2.holds.abs_eq
  refine ⟨w, w', h1, e, ?_, ?_, ?_, ?_, ?_, i.holds.parentsOK⟩
  · rw [hnodes]; exact h2.holds.lt_brk_fresh
  · rw [habs, i.holds.abs_eq, spec_insert_eq]
  · intro ht
    rw [habs] at ht
    subst ht
    exact i.holds.root
  · rw [habs]
    exact Rep.graft_leaf w.brk v i.holds.rep
  · rw [hnodes]
    exact Rep.graft_frame _ v h2.holds.rep i.holds.rep h2.holds.nodup

theorem Rep.del_frame {m m' : Nat → Option i_element_t} (v : Int) :
    ∀ {t : T} {par : Ptr}, Rep m t par → Rep m' (T.del v t) par → t.addrs.Nodup →
      ∀ a ∈ t.addrs, a ∉ (T.sub_at v t).addrs → T.findPar v t par ≠ some a →
        ∃ n n', m a = some n ∧ m' a = some n' ∧ n'.value = n.value ∧
          n'.parent = n.parent ∧ n'.left = n.left ∧ n'.right = n.right := by
  intro t
  induction t with
  | nil => intro _ _ _ _ a ha; simp [T.addrs] at ha
  | node b l x r ihl ihr =>
    intro par h h' hd a ha hsub hpar
    obtain ⟨hdl, hdr, hal, har, hlr⟩ := T.nodup_node.mp hd
    obtain ⟨n, hn, hv, hl, hr, hp, hL, hR⟩ := h
    by_cases hxv : x = v
    · simp only [T.sub_at, hxv, ne_eq, not_true_eq_false, if_false] at hsub
      exact absurd ha hsub
    · simp only [T.sub_at, T.findPar, T.del, ne_eq, hxv, not_false_eq_true, if_true]
        at hsub hpar h'
      by_cases hg : x > v
      · simp only [hg, if_true] at hsub hpar h'
        obtain ⟨n', hn', hv', hl', hr', hp', hL', hR'⟩ := h'
        rcases T.mem_addrs_node.mp ha with h1 | h1 | h1
        · exact ihl hL hL' hdl a h1 hsub hpar
        · subst h1
          refine ⟨n, n', hn, hn', hv'.trans hv.symm, hp'.trans hp.symm, ?_,
            hr'.trans hr.symm⟩
          rw [hl', hl]
          cases l with
          | nil => rfl
          | node c cl cx cr =>
            by_cases hcv : cx = v
            · simp [T.findPar, hcv] at hpar
            · rw [T.del_root hcv]; rfl
        · obtain ⟨k, k', e1, e2, e3, e4, e5, e6⟩ := Rep.fields_eq hR hR' h1
          exact ⟨k, k', e1, e2, e3, e4, e5, e6⟩
      · simp only [hg, if_false] at hsub hpar h'
        obtain ⟨n', hn', hv', hl', hr', hp', hL', hR'⟩ := h'
        rcases T.mem_addrs_node.mp ha with h1 | h1 | h1
        · obtain ⟨k, k', e1, e2, e3, e4, e5, e6⟩ := Rep.fields_eq hL hL' h1
          exact ⟨k, k', e1, e2, e3, e4, e5, e6⟩
        · subst h1
          refine ⟨n, n', hn, hn', hv'.trans hv.symm, hp'.trans hp.symm,
            hl'.trans hl.symm, ?_⟩
          rw [hr', hr]
          cases r with
          | nil => rfl
          | node c cl cx cr =>
            by_cases hcv : cx = v
            · simp [T.findPar, hcv] at hpar
            · rw [T.del_root hcv]; rfl
        · exact ihr hR hR' hdr a h1 hsub hpar

theorem T.ins_right_chain (b : Nat) (v : Int) :
    ∀ {t : T}, t.right_chain → (∀ x ∈ t.vals, x ≤ v) →
      (T.ins b v t).right_chain ∧ (T.ins b v t).height = t.height + 1 := by
  intro t
  induction t with
  | nil => intro _ _; simp [T.ins, T.graft, T.right_chain, T.height]
  | node a l x r _ ihr =>
    intro h hv
    obtain ⟨hl, hr⟩ := h
    subst hl
    have hx : ¬ x > v := not_lt.mpr (hv x (by simp [T.vals]))
    have ih := ihr hr (fun y hy => hv y (by simp [T.vals, hy]))
    simp only [T.ins] at ih ⊢
    simp only [T.graft, hx, if_false, T.right_chain, T.height, true_and]
    exact ⟨ih.1, by rw [ih.2]; simp [T.height]⟩

theorem T.ins_left_chain (b : Nat) (v : Int) :
    ∀ {t : T}, t.left_chain → (∀ x ∈ t.vals, x > v) →
      (T.ins b v t).left_chain ∧ (T.ins b v t).height = t.height + 1 := by
  intro t
  induction t with
  | nil => intro _ _; simp [T.ins, T.graft, T.left_chain, T.height]
  | node a l x r ihl _ =>
    intro h hv
    obtain ⟨hr, hl⟩ := h
    subst hr
    have hx : x > v := hv x (by simp [T.vals])
    have ih := ihl hl (fun y hy => hv y (by simp [T.vals, hy]))
    simp only [T.ins] at ih ⊢
    simp only [T.graft, hx, if_true, T.left_chain, T.height, true_and]
    exact ⟨ih.1, by rw [ih.2]; simp [T.height]⟩

theorem T.run_right_chain (vs : List Int) :
    ∀ (b : Nat) (t : T), vs.Pairwise (· ≤ ·) → t.right_chain →
      (∀ x ∈ t.vals, ∀ v ∈ vs, x ≤ v) →
      (T.run b t (vs.map .insert)).2.right_chain ∧
        (T.run b t (vs.map .insert)).2.height = t.height + vs.length := by
  induction vs with
  | nil => intro b t _ h _; exact ⟨h, rfl⟩
  | cons v vs ih =>
    intro b t hp h hv
    obtain ⟨hp1, hp2⟩ := List.pairwise_cons.mp hp
    obtain ⟨c1, c2⟩ := T.ins_right_chain b v h (fun x hx => hv x hx v (by simp))
    have := ih (b + 1) (T.ins b v t) hp2 c1 (by
      intro x hx u hu
      rcases List.mem_cons.mp ((T.vals_ins b v t).mem_iff.mp hx) with h1 | h1
      · subst h1; exact hp1 u hu
      · exact hv x h1 u (by simp [hu]))
    simp only [List.map_cons, T.run, T.step, List.length_cons]
    exact ⟨this.1, by rw [this.2, c2]; omega⟩

theorem T.run_left_chain (vs : List Int) :
    ∀ (b : Nat) (t : T), vs.Pairwise (· > ·) → t.left_chain →
      (∀ x ∈ t.vals, ∀ v ∈ vs, x > v) →
      (T.run b t (vs.map .insert)).2.left_chain ∧
        (T.run b t (vs.map .insert)).2.height = t.height + vs.length := by
  induction vs with
  | nil => intro b t _ h _; exact ⟨h, rfl⟩
  | cons v vs ih =>
    intro b t hp h hv
    obtain ⟨hp1, hp2⟩ := List.pairwise_cons.mp hp
    obtain ⟨c1, c2⟩ := T.ins_left_chain b v h (fun x hx => hv x hx v (by simp))
    have := ih (b + 1) (T.ins b v t) hp2 c1 (by
      intro x hx u hu
      rcases List.mem_cons.mp ((T.vals_ins b v t).mem_iff.mp hx) with h1 | h1
      · subst h1; exact hp1 u hu
      · exact hv x h1 u (by simp [hu]))
    simp only [List.map_cons, T.run, T.step, List.length_cons]
    exact ⟨this.1, by rw [this.2, c2]; omega⟩

theorem Rep.no_left {m : Nat → Option i_element_t} :
    ∀ {t : T} {par : Ptr}, Rep m t par → t.right_chain →
      ∀ a ∈ t.addrs, ∃ n, m a = some n ∧ n.left = none := by
  intro t
  induction t with
  | nil => intro _ _ _ a ha; simp [T.addrs] at ha
  | node b l x r _ ihr =>
    intro par h hc a ha
    obtain ⟨n, hn, -, hl, -, -, -, hR⟩ := h
    obtain ⟨e, hr⟩ := hc
    subst e
    rcases T.mem_addrs_node.mp ha with h1 | h1 | h1
    · simp [T.addrs] at h1
    · subst h1; exact ⟨n, hn, hl⟩
    · exact ihr hR hr a h1

theorem Rep.no_right {m : Nat → Option i_element_t} :
    ∀ {t : T} {par : Ptr}, Rep m t par → t.left_chain →
      ∀ a ∈ t.addrs, ∃ n, m a = some n ∧ n.right = none := by
  intro t
  induction t with
  | nil => intro _ _ _ a ha; simp [T.addrs] at ha
  | node b l x r ihl _ =>
    intro par h hc a ha
    obtain ⟨n, hn, -, -, hr, -, hL, -⟩ := h
    obtain ⟨e, hl⟩ := hc
    subst e
    rcases T.mem_addrs_node.mp ha with h1 | h1 | h1
    · exact ihl hL hl a h1
    · subst h1; exact ⟨n, hn, hr⟩
    · simp [T.addrs] at h1

/-- C27: for every strategy, inserting a non-decreasing sequence `vs` of values into a
freshly initialised tree returns a tree in which no node has a left child and whose depth
is the length of `vs`; inserting a strictly decreasing sequence `us` returns a tree in
which no node has a right child, again of depth the length of `us`. -/
theorem C27_sorted_inserts_make_a_chain (s : Strategy) (vs us : List Int)
    (hv : vs.Pairwise (· ≤ ·)) (hu : us.Pairwise (· > ·)) :
    (∃ w, reach s (vs.map .insert) = .ok w ∧ w.abs.right_chain ∧
      w.abs.height = vs.length ∧ w.nodes.length = vs.length ∧
      ∀ a ∈ w.nodes, ∃ n, w.mem a = some n ∧ n.left = none) ∧
    (∃ w, reach s (us.map .insert) = .ok w ∧ w.abs.left_chain ∧
      w.abs.height = us.length ∧ w.nodes.length = us.length ∧
      ∀ a ∈ w.nodes, ∃ n, w.mem a = some n ∧ n.right = none) := by
  have hlen : ∀ (xs : List Int) (b : Nat) (t : T),
      (T.run b t (xs.map .insert)).2.addrs.length = t.addrs.length + xs.length := by
    intro xs
    induction xs with
    | nil => intro b t; rfl
    | cons x xs ih =>
      intro b t
      simp only [List.map_cons, T.run, T.step, List.length_cons]
      rw [ih, (T.addrs_ins b x t).length_eq, List.length_cons]
      omega
  constructor
  · obtain ⟨w, e, i, -⟩ := run_abs (vs.map .insert) (fresh_inv s)
    obtain ⟨c1, c2⟩ := T.run_right_chain vs (fresh s).brk .nil hv trivial
      (fun x hx => by simp [T.vals] at hx)
    have hlen' := hlen vs (fresh s).brk .nil
    generalize (T.run (fresh s).brk T.nil (vs.map .insert)).2 = t at i c1 c2 hlen'
    have habs : w.abs = t := i.holds.abs_eq
    refine ⟨w, e, by rw [habs]; exact c1, by rw [habs, c2]; simp [T.height], ?_, ?_⟩
    · rw [World.nodes, habs, hlen']; simp [T.addrs]
    · rw [World.nodes, habs]; exact i.holds.rep.no_left c1
  · obtain ⟨w, e, i, -⟩ := run_abs (us.map .insert) (fresh_inv s)
    obtain ⟨c1, c2⟩ := T.run_left_chain us (fresh s).brk .nil hu trivial
      (fun x hx => by simp [T.vals] at hx)
    have hlen' := hlen us (fresh s).brk .nil
    generalize (T.run (fresh s).brk T.nil (us.map .insert)).2 = t at i c1 c2 hlen'
    have habs : w.abs = t := i.holds.abs_eq
    refine ⟨w, e, by rw [habs]; exact c1, by rw [habs, c2]; simp [T.height], ?_, ?_⟩
    · rw [World.nodes, habs, hlen']; simp [T.addrs]
    · rw [World.nodes, habs]; exact i.holds.rep.no_right c1

/-- C27 for Coarse with the sequences 1, 1, 2 and 3, 2, 1. -/
theorem C27_sorted_inserts_make_a_chain_witness :
    ([1, 1, 2] : List Int).Pairwise (· ≤ ·) ∧ ([3, 2, 1] : List Int).Pairwise (· > ·) ∧
    ((∃ w, reach .Coarse (([1, 1, 2] : List Int).map .insert) = .ok w ∧ w.abs.right_chain ∧
      w.abs.height = ([1, 1, 2] : List Int).length ∧
      w.nodes.length = ([1, 1, 2] : List Int).length ∧
      ∀ a ∈ w.nodes, ∃ n, w.mem a = some n ∧ n.left = none) ∧
    (∃ w, reach .Coarse (([3, 2, 1] : List Int).map .insert) = .ok w ∧ w.abs.left_chain ∧
      w.abs.height = ([3, 2, 1] : List Int).length ∧
      w.nodes.length = ([3, 2, 1] : List Int).length ∧
      ∀ a ∈ w.nodes, ∃ n, w.mem a = some n ∧ n.right = none)) :=
  ⟨by decide, by decide,
    C27_sorted_inserts_make_a_chain .Coarse [1, 1, 2] [3, 2, 1] (by decide) (by decide)⟩

/-- C28: for every strategy, every tree reached by a single-threaded run and every
integer `v`, `Tree_Lookup(v)` leaves the tree record and every node unchanged up to the
state of the node mutexes, and after the following `Element_Release` the memory and the
tree record are exactly as before; `Tree_Traverse` with a visit function that does not
write to the tree returns with the memory and the tree record exactly as before.  So
the root, every value and every left, right and parent link are unchanged. -/
theorem C28_lookup_traverse_read_only (s : Strategy) (ops : List Op) (v : Int) :
    ∃ w, reach s ops = .ok w ∧
      (∃ w1 r w2, Tree_Lookup (dispatch s) w v = .ok (w1, r) ∧
        w1.tree = w.tree ∧ SameShape w.mem w1.mem ∧ w1.abs = w.abs ∧
        Element_Release (dispatch s) w1 r = .ok w2 ∧
        w2.mem = w.mem ∧ w2.tree = w.tree ∧ w2.abs = w.abs) ∧
      (∀ (σ : Type) (func : Ptr → σ → σ) (s0 : σ), ∃ w' r,
        Tree_Traverse (dispatch s) w (fun _ => func) s0 = .ok (w', r) ∧
        w'.mem = w.mem ∧ w'.tree = w.tree ∧ w'.abs = w.abs) := by
  obtain ⟨w, t, h1, h2⟩ := reach_ok s ops
  refine ⟨w, h1, ?_, ?_⟩
  · obtain ⟨w1, e1, tr, b, sh, -, w2, e2, m2, t2, b2⟩ := Tree_Lookup_ok h2 v
    have H1 : Holds w1 t :=
      ⟨by rw [tr]; exact h2.holds.root, h2.holds.rep.congr sh, h2.holds.nodup,
        fun a ha => by rw [b]; exact h2.holds.lt_brk a ha⟩
    exact ⟨w1, _, w2, e1, tr, sh, by rw [H1.abs_eq, h2.holds.abs_eq], e2, m2, t2,
      by simp only [World.abs, m2, t2, b2]⟩
  · intro σ func s0
    obtain ⟨w', e, m, tr, b⟩ := Tree_Traverse_ok h2 (fun _ => func) (fun _ _ _ _ _ => rfl) s0
    exact ⟨w', _, e, m, tr, by simp only [World.abs, m, tr, b]⟩

/-- C29: `Element_Release(NULL)` returns the world it was given, whatever the function
pointers are: it makes no lock call and changes nothing.  So, for every strategy, every
tree reached by a single-threaded run and every integer `v`, the harness pattern
`Tree_Lookup(v)` then `Element_Release` returns, whether or not `v` was found, and when
it was not found the release changes nothing. -/
theorem C29_release_of_null (s : Strategy) (ops : List Op) (v : Int) :
    (∀ (g : Option Impl) (u : World), Element_Release g u none = .ok u) ∧
    ∃ w w1 r w2, reach s ops = .ok w ∧ Tree_Lookup (dispatch s) w v = .ok (w1, r) ∧
      Element_Release (dispatch s) w1 r = .ok w2 ∧
      step (dispatch s) w (.lookup v) = .ok w2 ∧
      (r = none ↔ v ∉ w.values) ∧ (r = none → w2 = w1) := by
  have hnull : ∀ (g : Option Impl) (u : World), Element_Release g u none = .ok u := by
    intro g u; simp [Element_Release]
  refine ⟨hnull, ?_⟩
  obtain ⟨w, t, h1, h2⟩ := reach_ok s ops
  obtain ⟨w1, e1, -, -, -, -, w2, e2, -⟩ := Tree_Lookup_ok h2 v
  have hvals : w.values = t.vals := by rw [World.values, h2.holds.abs_eq]
  refine ⟨w, w1, _, w2, h1, e1, e2, by simp [step, e1, e2], ?_, ?_⟩
  · rw [hvals]; exact T.find_eq_none_iff h2.bst
  · intro hr
    rw [hr, hnull] at e2
    cases e2; rfl

/-- C30, the code evaluated on the failing input: with the option `-i 0` the field
`initial_size` is 0 and the key computation `rand_r(&seed) % (2*initial_size)` divides by
zero, whatever `rand_r` returns; from 1 up to `2^62 - 1` the divisor is not zero and the
key is the remainder. -/
theorem C30_initial_size_zero_divides_by_zero :
    parse_args_initial_size (some 0) = 0 ∧
    (∀ r, draw_key r (parse_args_initial_size (some 0)) = .error .div_by_zero) ∧
    (∀ r n, 1 ≤ n → n < 2 ^ 62 →
      draw_key r (parse_args_initial_size (some n)) = .ok (Int.tmod r (2 * n))) := by
  refine ⟨rfl, fun r => by simp [draw_key, parse_args_initial_size], ?_⟩
  intro r n h1 h2
  have a1 : ¬ (2 * n < -(2 ^ 63) ∨ (2 : Int) ^ 63 ≤ 2 * n) := by
    intro h
    rcases h with h | h <;> omega
  have a2 : ¬ (2 * n = 0) := by omega
  simp only [draw_key, parse_args_initial_size, a1, a2, if_false]

theorem lookup_fine_loop_L {ω : World} {M : Nat → Option i_element_t} {v : Int} :
    ∀ (t : T) (a : Nat) (par : Ptr) (fuel : Nat) (B : Finset Nat) (l : List Ev),
      t.root = some a → Rep M t par → t.addrs.Nodup → t.height < fuel →
      (∀ x ∈ T.path v t, x ∉ B) →
      local_tree_lookup_fine_loop fuel (W ω M (insert a B) l) (some a) v =
        .ok (W ω M (insertOpt (T.find v t) B) (l ++ T.lookup_evs v t), T.find v t) := by
  intro t
  induction t with
  | nil => intro a _ _ _ _ h; simp at h
  | node b lt x rt ihl ihr =>
    intro a par fuel B l hroot hrep hd hf hB
    simp only [T.root_node, Option.some.injEq] at hroot
    subst hroot
    obtain ⟨n, hn, hv, hl, hr, hp, hL, hR⟩ := hrep
    obtain ⟨hdl, hdr, hal, har, hlr⟩ := T.nodup_node.mp hd
    have hbB : b ∉ B := hB b (by simp [T.path])
    cases fuel with
    | zero => omega
    | succ f =>
      simp only [T.height] at hf
      simp only [local_tree_lookup_fine_loop, deref_W hn, ok_bind, hv, T.find, T.lookup_evs]
      by_cases hxv : x = v
      · simp only [hxv, ne_eq, not_true_eq_false, if_false, pure_eq_ok, insertOpt_some,
          List.append_nil]
      · simp only [ne_eq, hxv, not_false_eq_true, if_true]
        have hfin : (insert b B).erase b = B := Finset.erase_insert hbB
        by_cases hg : x > v
        · simp only [hg, if_true, hl]
          have hsub : ∀ y ∈ T.path v lt, y ∉ B := fun y hy =>
            hB y (by simp [T.path, hxv, hg, hy])
          cases lt with
          | nil =>
            cases f with
            | zero => omega
            | succ f' =>
              simp only [T.root_nil, ne_eq, not_true_eq_false, if_false,
                unlock_W hn (Finset.mem_insert_self b B), ok_bind, local_tree_lookup_fine_loop,
                hfin, T.find, insertOpt_none]
          | node c cl cv cr =>
            obtain ⟨nc, hnc, -, -, -, hcp, -⟩ := id hL
            have hcb : c ≠ b := fun h => hal (by simp [T.addrs, h])
            have hcB : c ∉ B := hsub c (by simp [T.path])
            have hc1 : c ∉ insert b B := by simp [hcb, hcB]
            have hb2 : b ∈ insert c (insert b B) := by simp
            have hfin2 : (insert c (insert b B)).erase b = insert c B := by
              rw [Finset.erase_insert_of_ne hcb, Finset.erase_insert hbB]
            have h2 := ihl c (some b) f B
              (l ++ [.lock (.node (some c)), .unlock (.node (some b))]) rfl hL hdl
              (by omega) hsub
            simp only [T.root_node, ne_eq, reduceCtorEq, not_false_eq_true, if_true,
              lock_W hnc hc1, ok_bind, deref_W hn, hl, deref_W hnc, hcp, unlock_W hn hb2,
              hfin2, List.append_assoc, List.singleton_append, List.cons_append,
              List.nil_append]
            rw [h2]
            simp only [List.append_assoc, List.singleton_append, List.cons_append,
              List.nil_append]
        · simp only [hg, if_false, hr]
          have hsub : ∀ y ∈ T.path v rt, y ∉ B := fun y hy =>
            hB y (by simp [T.path, hxv, hg, hy])
          cases rt with
          | nil =>
            cases f with
            | zero => omega
            | succ f' =>
              simp only [T.root_nil, ne_eq, not_true_eq_false, if_false,
                unlock_W hn (Finset.mem_insert_self b B), ok_bind, local_tree_lookup_fine_loop,
                hfin, T.find, insertOpt_none]
          | node c cl cv cr =>
            obtain ⟨nc, hnc, -, -, -, hcp, -⟩ := id hR
            have hcb : c ≠ b := fun h => har (by simp [T.addrs, h])
            have hcB : c ∉ B := hsub c (by simp [T.path])
            have hc1 : c ∉ insert b B := by simp [hcb, hcB]
            have hb2 : b ∈ insert c (insert b B) := by simp
            have hfin2 : (insert c (insert b B)).erase b = insert c B := by
              rw [Finset.erase_insert_of_ne hcb, Finset.erase_insert hbB]
            have h2 := ihr c (some b) f B
              (l ++ [.lock (.node (some c)), .unlock (.node (some b))]) rfl hR hdr
              (by omega) hsub
            simp only [T.root_node, ne_eq, reduceCtorEq, not_false_eq_true, if_true,
              lock_W hnc hc1, ok_bind, deref_W hn, hr, deref_W hnc, hcp, unlock_W hn hb2,
              hfin2, List.append_assoc, List.singleton_append, List.cons_append,
              List.nil_append]
            rw [h2]
            simp only [List.append_assoc, List.singleton_append, List.cons_append,
              List.nil_append]

theorem local_tree_lookup_fine_L {w : World} {t : T} (h : Inv .FineGrained w t) (v : Int) :
    ∃ w', local_tree_lookup_fine w v = .ok (w', T.find v t) ∧
      w'.log = w.log ++ T.lookup_log v t := by
  have hW := World.eq_W (h.locks rfl)
  obtain ⟨hroot, hrep, hd, hb⟩ := h.holds
  cases t with
  | nil =>
    simp only [T.root_nil] at hroot
    exact ⟨w, by simp [local_tree_lookup_fine, hroot, T.find], by simp [T.lookup_log]⟩
  | node a lt x rt =>
    simp only [T.root_node] at hroot
    obtain ⟨na, hna, -⟩ := id hrep
    have h1 := lookup_fine_loop_L (ω := w) (M := w.mem) (v := v) (T.node a lt x rt) a
      none (w.brk + 1) ∅ (w.log ++ [.lock (.node (some a))]) rfl hrep hd
      (Nat.lt_succ_of_le (T.height_le_brk hd hb)) (fun _ _ => Finset.not_mem_empty _)
    refine ⟨W w w.mem (insertOpt (T.find v (T.node a lt x rt)) ∅)
      (w.log ++ [.lock (.node (some a))] ++ T.lookup_evs v (T.node a lt x rt)), ?_, ?_⟩
    · simp only [local_tree_lookup_fine, hroot, reduceCtorEq, if_false]
      have hlock : lock w (.node (some a)) =
          .ok (W w w.mem (insert a ∅) (w.log ++ [.lock (.node (some a))])) := by
        conv_lhs => rw [hW]
        exact lock_W hna (Finset.not_mem_empty a)
      simp only [hlock, ok_bind, W_brk, W_tree, hroot]
      exact h1
    · simp [T.lookup_log]

theorem Node_Insert_f_loop_L {ω : World} {M : Nat → Option i_element_t} {e : Nat}
    {ne : i_element_t} (he : M e = some ne) :
    ∀ (t : T) (a : Nat) (par : Ptr) (fuel : Nat) (H : Finset Nat) (l : List Ev) (P : Nat),
      t.root = some a → Rep M t par → t.addrs.Nodup → t.height < fuel →
      a ∈ H → (∀ x ∈ t.addrs, x ≠ a → x ∉ H) →
      (P = a ∨ (P ∈ H ∧ P ∉ t.addrs ∧ ∃ nP, M P = some nP)) →
      ∃ sp, Node_Insert_f_loop fuel (W ω M H l) (some a) (some P) (some e) =
          .ok (W ω M (insert sp ((H.erase P).erase a)) (l ++ T.ins_evs ne.value t P),
            some sp) ∧
        T.slot ne.value t (some P) = some sp ∧ sp ∈ t.addrs := by
  intro t
  induction t with
  | nil => intro a _ _ _ _ _ h; simp at h
  | node b lt v rt ihl ihr =>
    intro a par fuel H l P hroot hrep hd hf haH hH hP
    simp only [T.root_node, Option.some.injEq] at hroot
    subst hroot
    obtain ⟨n, hn, hv, hl, hr, hp, hL, hR⟩ := hrep
    obtain ⟨hdl, hdr, hal, har, hlr⟩ := T.nodup_node.mp hd
    cases fuel with
    | zero => omega
    | succ f =>
      simp only [T.height] at hf
      have h1 : (if (some P : Ptr) ≠ some b then unlock (W ω M H l) (.node (some P))
            else pure (W ω M H l)) = .ok (W ω M (insert b (H.erase P))
              (l ++ (if P ≠ b then [.unlock (.node (some P))] else []))) := by
        rcases hP with hP | ⟨hPH, hPt, nP, hnP⟩
        · subst hP
          simp only [ne_eq, not_true_eq_false, if_false, pure_eq_ok, List.append_nil]
          rw [Finset.insert_erase haH]
        · have hPb : P ≠ b := fun h => hPt (by simp [T.addrs, h])
          simp only [ne_eq, Option.some.injEq, hPb, not_false_eq_true, if_true,
            unlock_W hnP hPH]
          rw [Finset.insert_eq_of_mem (Finset.mem_erase.mpr ⟨hPb.symm, haH⟩)]
      have hH1' : ∀ x ∈ (T.node b lt v rt).addrs, x ≠ b → x ∉ insert b (H.erase P) := by
        intro x hx hxb hmem
        simp only [Finset.mem_insert, Finset.mem_erase] at hmem
        rcases hmem with h | ⟨_, h⟩
        · exact hxb h
        · exact hH x hx hxb h
      have hfin0 : insert b ((H.erase P).erase b) = insert b (H.erase P) := by
        ext x; simp only [Finset.mem_insert, Finset.mem_erase]; tauto
      have hfin1 : ∀ c sp : Nat, c ∉ insert b (H.erase P) →
          insert sp (((insert c (insert b (H.erase P))).erase b).erase c) =
            insert sp ((H.erase P).erase b) := by
        intro c sp hc
        ext x
        simp only [Finset.mem_insert, Finset.mem_erase] at hc ⊢
        by_cases hxc : x = c
        · subst hxc; tauto
        · tauto
      simp only [Node_Insert_f_loop, h1, ok_bind, deref_W hn, deref_W he, hv]
      by_cases hg : v > ne.value
      · simp only [hg, if_true, hl, T.slot, T.ins_evs]
        cases lt with
        | nil =>
          cases f with
          | zero => omega
          | succ f' =>
            refine ⟨b, ?_, rfl, by simp [T.addrs]⟩
            simp only [T.root_nil, ne_eq, not_true_eq_false, if_false, pure_eq_ok, ok_bind,
              deref_W hn, hl, Node_Insert_f_loop, hfin0, List.append_nil]
        | node c cl cv cr =>
          obtain ⟨nc, hnc, -⟩ := id hL
          have hcb : c ≠ b := fun h => hal (by simp [T.addrs, h])
          have hcH1 : c ∉ insert b (H.erase P) := hH1' c (by simp [T.addrs]) hcb
          obtain ⟨sp, h2, h3, h4⟩ := ihl c (some b) f (insert c (insert b (H.erase P)))
            (l ++ (if P ≠ b then [.unlock (.node (some P))] else []) ++
              [.lock (.node (some c))]) b rfl hL hdl (by omega) (by simp)
            (by
              intro x hx hxc hmem
              simp only [Finset.mem_insert] at hmem
              rcases hmem with h | h
              · exact hxc h
              · exact hH1' x (T.mem_addrs_node.mpr (Or.inl hx))
                  (fun h' => hal (h' ▸ hx)) (by simpa using h))
            (Or.inr ⟨by simp, hal, n, hn⟩)
          refine ⟨sp, ?_, h3, T.mem_addrs_node.mpr (Or.inl h4)⟩
          simp only [T.root_node, ne_eq, reduceCtorEq, not_false_eq_true, if_true,
            lock_W hnc hcH1, ok_bind, deref_W hn, hl]
          rw [h2, hfin1 c sp hcH1]
          simp only [List.append_assoc, List.singleton_append, List.cons_append,
            List.nil_append]
      · simp only [hg, if_false, hr, T.slot, T.ins_evs]
        cases rt with
        | nil =>
          cases f with
          | zero => omega
          | succ f' =>
            refine ⟨b, ?_, rfl, by simp [T.addrs]⟩
            simp only [T.root_nil, ne_eq, not_true_eq_false, if_false, pure_eq_ok, ok_bind,
              deref_W hn, hr, Node_Insert_f_loop, hfin0, List.append_nil]
        | node c cl cv cr =>
          obtain ⟨nc, hnc, -⟩ := id hR
          have hcb : c ≠ b := fun h => har (by simp [T.addrs, h])
          have hcH1 : c ∉ insert b (H.erase P) :=
            hH1' c (T.mem_addrs_node.mpr (Or.inr (Or.inr (by simp [T.addrs]))))
              hcb
          obtain ⟨sp, h2, h3, h4⟩ := ihr c (some b) f (insert c (insert b (H.erase P)))
            (l ++ (if P ≠ b then [.unlock (.node (some P))] else []) ++
              [.lock (.node (some c))]) b rfl hR hdr (by omega) (by simp)
            (by
              intro x hx hxc hmem
              simp only [Finset.mem_insert] at hmem
              rcases hmem with h | h
              · exact hxc h
              · exact hH1' x (T.mem_addrs_node.mpr (Or.inr (Or.inr hx)))
                  (fun h' => har (h' ▸ hx)) (by simpa using h))
            (Or.inr ⟨by simp, har, n, hn⟩)
          refine ⟨sp, ?_, h3, T.mem_addrs_node.mpr (Or.inr (Or.inr h4))⟩
          simp only [T.root_node, ne_eq, reduceCtorEq, not_false_eq_true, if_true,
            lock_W hnc hcH1, ok_bind, deref_W hn, hr]
          rw [h2, hfin1 c sp hcH1]
          simp only [List.append_assoc, List.singleton_append, List.cons_append,
            List.nil_append]

theorem Node_Insert_f_L {ω : World} {M : Nat → Option i_element_t} {e : Nat}
    {ne : i_element_t} (he : M e = some ne) {t : T} {a : Nat} {ρ : Ptr}
    (hroot : t.root = some a) (hrep : Rep M t ρ) (hd : t.addrs.Nodup) (het : e ∉ t.addrs)
    (hh : t.height ≤ ω.brk) {H : Finset Nat} (haH : a ∈ H) (heH : e ∈ H)
    (hH : ∀ x ∈ t.addrs, x ≠ a → x ∉ H) (l : List Ev) :
    ∃ sp, Node_Insert_f (W ω M H l) (some a) (some e) =
        .ok (W ω (attach M e sp) ((H.erase a).erase e)
          (l ++ T.ins_evs ne.value t a ++
            [.unlock (.node (some sp)), .unlock (.node (some e))])) ∧
      T.slot ne.value t t.root = some sp ∧ sp ∈ t.addrs := by
  obtain ⟨sp, h1, h2, h3⟩ := Node_Insert_f_loop_L (ω := ω) he t a ρ (ω.brk + 1) H l a
    hroot hrep hd (by omega) haH hH (Or.inl rfl)
  obtain ⟨np, hnp⟩ := hrep.get h3
  have hspe : sp ≠ e := fun h => het (h ▸ h3)
  have hae : a ≠ e := fun h => het (h ▸ T.root_mem_addrs hroot)
  have hm1 : Function.update M e (some { ne with parent := some sp }) sp = some np := by
    simp [Function.update, hspe, hnp]
  have hm1e : Function.update M e (some { ne with parent := some sp }) e =
      some { ne with parent := some sp } := by simp
  have hfin : (((insert sp ((H.erase a).erase a)).erase sp).erase e) = (H.erase a).erase e := by
    ext x
    simp only [Finset.mem_insert, Finset.mem_erase]
    by_cases hx : x = sp
    · subst hx
      have : x = a ∨ x ∉ H := by
        by_cases hxa : x = a
        · exact Or.inl hxa
        · exact Or.inr (hH x h3 hxa)
      tauto
    · tauto
  have hsp1 : sp ∈ insert sp ((H.erase a).erase a) := Finset.mem_insert_self _ _
  have he1 : e ∈ (insert sp ((H.erase a).erase a)).erase sp := by
    simp only [Finset.mem_insert, Finset.mem_erase]
    exact ⟨hspe.symm, Or.inr ⟨hae.symm, hae.symm, heH⟩⟩
  rw [hroot, T.slot_indep _ (by intro h; subst h; simp at hroot) (some a) (some a)]
  refine ⟨sp, ?_, h2, h3⟩
  simp only [Node_Insert_f, W_brk, h1, ok_bind, set_parent_W he, deref_W hm1, deref_W hm1e]
  rw [attach_eq he hnp hspe]
  by_cases hg : np.value > ne.value
  · have hm2 : Function.update (Function.update M e (some { ne with parent := some sp })) sp
        (some { np with left := some e }) e = some { ne with parent := some sp } := by
      simp [Function.update, hspe.symm]
    have hm2s : Function.update (Function.update M e (some { ne with parent := some sp })) sp
        (some { np with left := some e }) sp = some { np with left := some e } := by simp
    simp only [hg, if_true, set_left_W hm1, ok_bind, unlock_W hm2s hsp1, unlock_W hm2 he1, hfin,
      List.append_assoc, List.singleton_append, List.cons_append, List.nil_append]
  · have hm2 : Function.update (Function.update M e (some { ne with parent := some sp })) sp
        (some { np with right := some e }) e = some { ne with parent := some sp } := by
      simp [Function.update, hspe.symm]
    have hm2s : Function.update (Function.update M e (some { ne with parent := some sp })) sp
        (some { np with right := some e }) sp = some { np with right := some e } := by simp
    simp only [hg, if_false, set_right_W hm1, ok_bind, unlock_W hm2s hsp1, unlock_W hm2 he1,
      hfin, List.append_assoc, List.singleton_append, List.cons_append, List.nil_append]

theorem local_tree_insert_fine_L {w : World} {t : T} (h : Inv .FineGrained w t) (v : Int) :
    ∃ w', local_tree_insert_fine w v = .ok w' ∧
      w'.log = w.log ++ T.insert_log w.brk v t := by
  have hW := World.eq_W (h.locks rfl)
  obtain ⟨hroot, hrep, hd, hb⟩ := h.holds
  have hfresh : w.brk ∉ t.addrs := h.holds.lt_brk_fresh
  have hrep1 : Rep (Function.update w.mem w.brk
      (some { value := v, left := none, right := none, parent := none, lock := none })) t none :=
    hrep.update_of_not_mem hfresh _
  have hinit := malloc_init_W (ω := w) (M := w.mem) (H := ∅) (l := w.log) v (by simp)
  rw [← hW] at hinit
  have hme : Function.update w.mem w.brk
      (some { value := v, left := none, right := none, parent := none, lock := none }) w.brk =
      some { value := v, left := none, right := none, parent := none, lock := none } := by simp
  cases t with
  | nil =>
    simp only [T.root_nil] at hroot
    refine ⟨W (set_root { w with brk := w.brk + 1 } (some w.brk))
        (Function.update w.mem w.brk
          (some { value := v, left := none, right := none, parent := none, lock := none }))
        ∅ w.log, ?_, by simp [T.insert_log]⟩
    simp only [local_tree_insert_fine]
    have e2 : (malloc_element w v).2 = some w.brk := rfl
    rw [e2, hinit]
    simp only [ok_bind, W_tree, hroot, ne_eq, not_true_eq_false, if_false, pure_eq_ok,
      if_true, set_root_W]
  | node a lt x rt =>
    simp only [T.root_node] at hroot
    obtain ⟨na, hna, -⟩ := id hrep
    have hab : a ≠ w.brk := fun h => hfresh (by simp [T.addrs, h])
    have hma : Function.update w.mem w.brk
        (some { value := v, left := none, right := none, parent := none, lock := none }) a =
        some na := by simp [Function.update, hab, hna]
    obtain ⟨sp, h1, h2, h3⟩ := Node_Insert_f_L (ω := { w with brk := w.brk + 1 })
      (M := Function.update w.mem w.brk
        (some { value := v, left := none, right := none, parent := none, lock := none }))
      (e := w.brk) hme (t := T.node a lt x rt) (a := a) (ρ := none) rfl hrep1 hd hfresh
      (le_trans (T.height_le_brk hd hb) (Nat.le_succ _))
      (H := insert w.brk (insert a ∅)) (by simp) (by simp)
      (by
        intro y hy hya hmem
        simp only [Finset.mem_insert, Finset.not_mem_empty, or_false] at hmem
        rcases hmem with h | h
        · exact hfresh (h ▸ hy)
        · exact hya h)
      (w.log ++ [.lock (.node (some a))] ++ [.lock (.node (some w.brk))])
    have key : local_tree_insert_fine w v = Node_Insert_f
        (W { w with brk := w.brk + 1 } (Function.update w.mem w.brk
          (some { value := v, left := none, right := none, parent := none, lock := none }))
          (insert w.brk (insert a ∅))
          (w.log ++ [.lock (.node (some a))] ++ [.lock (.node (some w.brk))]))
        (some a) (some w.brk) := by
      simp only [local_tree_insert_fine]
      have e2 : (malloc_element w v).2 = some w.brk := rfl
      rw [e2, hinit]
      simp only [ok_bind, W_tree, hroot, ne_eq, reduceCtorEq, not_false_eq_true, if_true,
        lock_W hma (Finset.not_mem_empty a), if_false,
        lock_W hme (show w.brk ∉ insert a (∅ : Finset Nat) by simp [hab.symm])]
    rw [h1] at key
    have h2' : T.slot v (T.node a lt x rt) (some a) = some sp := h2
    exact ⟨_, key, by
      simp only [W_log, T.insert_log, T.root_node, h2', List.append_assoc,
        List.singleton_append, List.cons_append, List.nil_append]⟩

theorem Node_Traverse_f_L {σ : Type} {ω : World} {M : Nat → Option i_element_t}
    (func : World → Ptr → σ → σ) :
    ∀ (t : T) (a : Nat) (par : Ptr) (fuel : Nat) (B : Finset Nat) (l : List Ev) (s : σ),
      t.root = some a → Rep M t par → t.addrs.Nodup → t.height < fuel →
      (∀ x ∈ t.addrs, x ∉ B) →
      Node_Traverse_f fuel (W ω M (insert a B) l) (some a) func s =
          .ok (W ω M B (l ++ T.trav_evs t), T.trav_fold func ω M t B l s) := by
  intro t
  induction t with
  | nil => intro a _ _ _ _ _ h; simp at h
  | node b lt x rt ihl ihr =>
    intro a par fuel B l s hroot hrep hd hf hB
    simp only [T.root_node, Option.some.injEq] at hroot
    subst hroot
    obtain ⟨n, hn, hv, hl, hr, hp, hL, hR⟩ := hrep
    obtain ⟨hdl, hdr, hal, har, hlr⟩ := T.nodup_node.mp hd
    have hbB : b ∉ B := hB b (by simp [T.addrs])
    cases fuel with
    | zero => omega
    | succ f =>
      simp only [T.height] at hf
      have h1 :
          (if lt.root ≠ none then
              lock (W ω M (insert b B) l) (.node lt.root) >>= fun w =>
                deref w (some b) >>= fun n => Node_Traverse_f f w n.left func s
            else pure (W ω M (insert b B) l, s)) =
          .ok (W ω M (insert b B) (l ++ T.trav_before (.node b lt x rt)),
            (match lt.root with
              | none => s
              | some c =>
                T.trav_fold func ω M lt (insert b B) (l ++ [.lock (.node (some c))]) s)) := by
        cases lt with
        | nil => simp [T.trav_before]
        | node c cl cv cr =>
          obtain ⟨nc, hnc, -⟩ := id hL
          have hcb : c ≠ b := fun h => hal (by simp [T.addrs, h])
          have hcB : c ∉ B := hB c (T.mem_addrs_node.mpr (Or.inl (by simp [T.addrs])))
          have hc1 : c ∉ insert b B := by simp [hcb, hcB]
          have h2 := ihl c (some b) f (insert b B) (l ++ [.lock (.node (some c))]) s
            rfl hL hdl (by omega)
            (by
              intro y hy hmem
              simp only [Finset.mem_insert] at hmem
              rcases hmem with h | h
              · exact hal (h ▸ hy)
              · exact hB y (T.mem_addrs_node.mpr (Or.inl hy)) h)
          simp only [T.root_node, ne_eq, reduceCtorEq, not_false_eq_true, if_true,
            lock_W hnc hc1, ok_bind, deref_W hn, hl, h2, T.trav_before, List.append_assoc,
            List.singleton_append]
      have h2 : ∀ (l1 : List Ev) (s2 : σ),
          (if rt.root ≠ none then
              lock (W ω M (insert b B) l1) (.node rt.root) >>= fun w =>
                deref w (some b) >>= fun n => Node_Traverse_f f w n.right func s2
            else pure (W ω M (insert b B) l1, s2)) =
          .ok (W ω M (insert b B) (l1 ++ (match rt.root with
              | none => []
              | some c => .lock (.node (some c)) :: T.trav_evs rt)),
            (match rt.root with
              | none => s2
              | some c =>
                T.trav_fold func ω M rt (insert b B) (l1 ++ [.lock (.node (some c))]) s2)) := by
        intro l1 s2
        cases rt with
        | nil => simp
        | node c cl cv cr =>
          obtain ⟨nc, hnc, -⟩ := id hR
          have hcb : c ≠ b := fun h => har (by simp [T.addrs, h])
          have hcB : c ∉ B := hB c (T.mem_addrs_node.mpr (Or.inr (Or.inr (by simp [T.addrs]))))
          have hc1 : c ∉ insert b B := by simp [hcb, hcB]
          have h2 := ihr c (some b) f (insert b B) (l1 ++ [.lock (.node (some c))]) s2
            rfl hR hdr (by omega)
            (by
              intro y hy hmem
              simp only [Finset.mem_insert] at hmem
              rcases hmem with h | h
              · exact har (h ▸ hy)
              · exact hB y (T.mem_addrs_node.mpr (Or.inr (Or.inr hy))) h)
          simp only [T.root_node, ne_eq, reduceCtorEq, not_false_eq_true, if_true,
            lock_W hnc hc1, ok_bind, deref_W hn, hr, h2, List.append_assoc,
            List.singleton_append]
      simp only [pure_eq_ok] at h1 h2
      simp only [Node_Traverse_f, deref_W hn, ok_bind, hl, pure_eq_ok]
      rw [h1]
      simp only [ok_bind, deref_W hn, hr]
      rw [h2]
      simp only [ok_bind, unlock_W hn (Finset.mem_insert_self b B), Finset.erase_insert hbB,
        T.trav_fold, T.trav_evs, T.trav_before, List.append_assoc]

theorem local_tree_traverse_fine_L {σ : Type} {w : World} {t : T}
    (h : Inv .FineGrained w t) (func : World → Ptr → σ → σ) (s0 : σ) :
    local_tree_traverse_fine w func s0 =
      .ok (W w w.mem ∅ (w.log ++ T.traverse_log t),
        match t.root with
        | none => s0
        | some a => T.trav_fold func w w.mem t ∅ (w.log ++ [.lock (.node (some a))]) s0) := by
  have hW := World.eq_W (h.locks rfl)
  obtain ⟨hroot, hrep, hd, hb⟩ := h.holds
  cases t with
  | nil =>
    simp only [T.root_nil] at hroot
    simp only [local_tree_traverse_fine, hroot, ne_eq, not_true_eq_false, if_false, pure_eq_ok,
      T.traverse_log, T.root_nil, List.append_nil]
    rw [← hW]
  | node a lt x rt =>
    simp only [T.root_node] at hroot
    obtain ⟨na, hna, -⟩ := id hrep
    have h1 := Node_Traverse_f_L (ω := w) (M := w.mem) func
      (T.node a lt x rt) a none (w.brk + 1) ∅ (w.log ++ [.lock (.node (some a))]) s0 rfl
      hrep hd (Nat.lt_succ_of_le (T.height_le_brk hd hb)) (fun _ _ => Finset.not_mem_empty _)
    have hlock : lock w (.node (some a)) =
        .ok (W w w.mem (insert a ∅) (w.log ++ [.lock (.node (some a))])) := by
      conv_lhs => rw [hW]
      exact lock_W hna (Finset.not_mem_empty a)
    simp only [local_tree_traverse_fine, hroot, ne_eq, reduceCtorEq, not_false_eq_true, if_true,
      hlock, ok_bind, W_brk, W_tree]
    rw [h1]
    simp only [T.traverse_log, T.root_node, List.append_assoc, List.singleton_append]

theorem delete_fine_loop_L {ω : World} {M : Nat → Option i_element_t} {v : Int} :
    ∀ (t : T) (a : Nat) (par : Ptr) (fuel : Nat) (B : Finset Nat) (l : List Ev),
      t.root = some a → Rep M t par → t.addrs.Nodup → t.height < fuel →
      (∀ x ∈ t.addrs, x ∉ B) →
      (∀ p, par = some p → p ∉ B ∧ p ∉ t.addrs ∧ ∃ np, M p = some np) →
      (par = none ↔ ω.tree.root = some a) →
      (∀ x ∈ t.addrs, x ≠ a → ω.tree.root ≠ some x) →
      local_tree_delete_fine_loop fuel (W ω M (insert a (insertOpt par B)) l) (some a) v =
          .ok (W ω M (heldAfterSearch (T.find v t) (T.findPar v t par) B)
            (l ++ T.del_evs v t par), T.find v t) := by
  intro t
  induction t with
  | nil => intro a _ _ _ _ h; simp at h
  | node b lt x rt ihl ihr =>
    intro a par fuel B l hroot hrep hd hf hB hpar hpr hr0
    simp only [T.root_node, Option.some.injEq] at hroot
    subst hroot
    obtain ⟨n, hn, hv, hl, hr, hp, hL, hR⟩ := hrep
    obtain ⟨hdl, hdr, hal, har, hlr⟩ := T.nodup_node.mp hd
    have hbB : b ∉ B := hB b (by simp [T.addrs])
    cases fuel with
    | zero => omega
    | succ f =>
      simp only [T.height] at hf
      simp only [local_tree_delete_fine_loop, deref_W hn, ok_bind, hv, T.find, T.findPar,
        T.del_evs]
      by_cases hxv : x = v
      · simp only [hxv, ne_eq, not_true_eq_false, if_false, pure_eq_ok, heldAfterSearch,
          List.append_nil]
      · simp only [ne_eq, hxv, not_false_eq_true, if_true]
        have h1 :
            (if ¬(some b : Ptr) = (W ω M (insert b (insertOpt par B)) l).tree.root then
                unlock (W ω M (insert b (insertOpt par B)) l) (.node n.parent)
              else pure (W ω M (insert b (insertOpt par B)) l)) =
            .ok (W ω M (insert b B) (l ++ optUnlock par)) := by
          cases hpc : par with
          | none =>
            have : ω.tree.root = some b := hpr.mp hpc
            simp [this, optUnlock]
          | some p =>
            obtain ⟨hpB, hpt, np, hnp⟩ := hpar p hpc
            have hpb : p ≠ b := fun h => hpt (by simp [T.addrs, h])
            have hne : ¬ ω.tree.root = some b := fun h => by
              have := hpr.mpr h; rw [hpc] at this; cases this
            have hne' : ¬ (some b : Ptr) = ω.tree.root := fun h => hne h.symm
            simp only [W_tree, hne', not_false_eq_true, if_true, hp, hpc, insertOpt_some,
              optUnlock]
            rw [unlock_W hnp (by simp)]
            rw [Finset.erase_insert_of_ne hpb.symm, Finset.erase_insert hpB]
        simp only [h1, ok_bind, deref_W hn, hv]
        have hfin : (insert b B).erase b = B := Finset.erase_insert hbB
        by_cases hg : x > v
        · simp only [hg, if_true, hl]
          cases lt with
          | nil =>
            cases f with
            | zero => omega
            | succ f' =>
              simp only [T.root_nil, ne_eq, not_true_eq_false, if_false,
                unlock_W hn (Finset.mem_insert_self b B), ok_bind, local_tree_delete_fine_loop,
                hfin, T.find, heldAfterSearch, List.append_assoc]
          | node c cl cv cr =>
            obtain ⟨nc, hnc, -⟩ := id hL
            have hcb : c ≠ b := fun h => hal (by simp [T.addrs, h])
            have hcB : c ∉ B := hB c (T.mem_addrs_node.mpr (Or.inl (by simp [T.addrs])))
            have hc1 : c ∉ insert b B := by simp [hcb, hcB]
            have h2 := ihl c (some b) f B (l ++ optUnlock par ++ [.lock (.node (some c))]) rfl hL hdl
              (by omega) (fun y hy => hB y (T.mem_addrs_node.mpr (Or.inl hy)))
              (by
                intro p hp'
                cases hp'
                exact ⟨hbB, hal, n, hn⟩)
              (by
                constructor
                · intro h; cases h
                · intro h
                  exact absurd h (hr0 c (T.mem_addrs_node.mpr (Or.inl (by simp [T.addrs]))) hcb))
              (by
                intro y hy _
                exact hr0 y (T.mem_addrs_node.mpr (Or.inl hy)) (fun h => hal (h ▸ hy)))
            simp only [insertOpt_some] at h2
            simp only [T.root_node, ne_eq, reduceCtorEq, not_false_eq_true, if_true,
              lock_W hnc hc1, ok_bind, deref_W hn, hl]
            rw [h2]
            simp only [List.append_assoc, List.singleton_append]
        · simp only [hg, if_false, hr]
          cases rt with
          | nil =>
            cases f with
            | zero => omega
            | succ f' =>
              simp only [T.root_nil, ne_eq, not_true_eq_false, if_false,
                unlock_W hn (Finset.mem_insert_self b B), ok_bind, local_tree_delete_fine_loop,
                hfin, T.find, heldAfterSearch, List.append_assoc]
          | node c cl cv cr =>
            obtain ⟨nc, hnc, -⟩ := id hR
            have hcb : c ≠ b := fun h => har (by simp [T.addrs, h])
            have hcB : c ∉ B := hB c (T.mem_addrs_node.mpr (Or.inr (Or.inr (by simp [T.addrs]))))
            have hc1 : c ∉ insert b B := by simp [hcb, hcB]
            have h2 := ihr c (some b) f B (l ++ optUnlock par ++ [.lock (.node (some c))]) rfl hR hdr
              (by omega) (fun y hy => hB y (T.mem_addrs_node.mpr (Or.inr (Or.inr hy))))
              (by
                intro p hp'
                cases hp'
                exact ⟨hbB, har, n, hn⟩)
              (by
                constructor
                · intro h; cases h
                · intro h
                  exact absurd h
                    (hr0 c (T.mem_addrs_node.mpr (Or.inr (Or.inr (by simp [T.addrs])))) hcb))
              (by
                intro y hy _
                exact hr0 y (T.mem_addrs_node.mpr (Or.inr (Or.inr hy))) (fun h => har (h ▸ hy)))
            simp only [insertOpt_some] at h2
            simp only [T.root_node, ne_eq, reduceCtorEq, not_false_eq_true, if_true,
              lock_W hnc hc1, ok_bind, deref_W hn, hr]
            rw [h2]
            simp only [List.append_assoc, List.singleton_append]

theorem lockOpt_L {ω : World} {M : Nat → Option i_element_t} {H : Finset Nat} {l : List Ev}
    {q : Ptr} (hq : ∀ e, q = some e → (∃ ne, M e = some ne) ∧ e ∉ H) :
    (if q ≠ none then lock (W ω M H l) (.node q) else pure (W ω M H l)) =
      .ok (W ω M (insertOpt q H) (l ++ optLock q)) := by
  cases q with
  | none => simp [optLock]
  | some e =>
    obtain ⟨⟨ne, hne⟩, heH⟩ := hq e rfl
    simp [lock_W hne heH, optLock]

theorem fine_tail_L {ω : World} {M2 : Nat → Option i_element_t} {P R : T} {par : Ptr}
    {p c : Nat} {nc : i_element_t}
    (hP : Rep M2 P par) (hroot : P.root = some p) (hR : Rep M2 R (some c))
    (hdP : P.addrs.Nodup) (hdis : ∀ x ∈ P.addrs, x ∉ R.addrs)
    (hcP : c ∉ P.addrs) (hcR : c ∉ R.addrs) (hmc : M2 c = some nc)
    (hpar : nc.parent = some p) (hb : ∀ x ∈ P.addrs, x < ω.brk) (l : List Ev) :
    (deref (W ω M2 (insertOpt R.root {p, c}) l) (some c) >>= fun c' =>
        (if R.root ≠ none then
          Node_Insert_f (W ω M2 (insertOpt R.root {p, c}) l) c'.parent R.root
         else unlock (W ω M2 (insertOpt R.root {p, c}) l) (.node c'.parent))) =
      .ok (W ω (graftMem M2 R P) {c} (l ++ T.reinsert_evs R P p)) := by
  have hPne : P ≠ .nil := by
    intro h; subst h; simp at hroot
  have hpP : p ∈ P.addrs := T.root_mem_addrs hroot
  have hpc : p ≠ c := fun h => hcP (h ▸ hpP)
  obtain ⟨np, hnp⟩ := hP.get hpP
  cases R with
  | nil =>
    have hfin : ({p, c} : Finset Nat).erase p = {c} := by
      rw [Finset.erase_insert (by simp [hpc])]
    simp only [deref_W hmc, ok_bind, T.root_nil, ne_eq, not_true_eq_false, if_false, hpar,
      insertOpt_none, unlock_W hnp (show p ∈ ({p, c} : Finset Nat) by simp), hfin, graftMem,
      T.reinsert_evs]
  | node e rl ev rr =>
    obtain ⟨ne, hne, hnev, -⟩ := id hR
    have heP : e ∉ P.addrs := fun h => hdis e h (by simp [T.addrs])
    have hep : e ≠ p := fun h => heP (h ▸ hpP)
    have hec : e ≠ c := fun h => hcR (by simp [T.addrs, h])
    obtain ⟨sp, h1, h2, h3⟩ := Node_Insert_f_L (ω := ω) (M := M2) (e := e) hne
      (t := P) (a := p) (ρ := par) hroot hP hdP heP (T.height_le_brk hdP hb)
      (H := insert e {p, c}) (by simp) (by simp)
      (by
        intro y hy hyp hmem
        simp only [Finset.mem_insert, Finset.mem_singleton] at hmem
        rcases hmem with h | h | h
        · exact heP (h ▸ hy)
        · exact hyp h
        · exact hcP (h ▸ hy))
      l
    have hfin : ((insert e ({p, c} : Finset Nat)).erase p).erase e = {c} := by
      ext y
      simp only [Finset.mem_insert, Finset.mem_erase, Finset.mem_singleton]
      constructor
      · rintro ⟨h1, h2, h3 | h3 | h3⟩
        · exact absurd h3 h1
        · exact absurd h3 h2
        · exact h3
      · intro h; subst h
        exact ⟨hec.symm, hpc.symm, Or.inr (Or.inr rfl)⟩
    rw [hfin] at h1
    rw [hnev] at h2 h1
    simp only [deref_W hmc, ok_bind, T.root_node, ne_eq, reduceCtorEq, not_false_eq_true,
      if_true, hpar, insertOpt_some, h1, graftMem, h2, T.reinsert_evs, List.append_assoc]

theorem delete_fine_root_L {ω : World} {M : Nat → Option i_element_t} {c : Nat} {L R : T}
    {v : Int} (hrep : Rep M (.node c L v R) none)
    (hd : (T.node c L v R).addrs.Nodup) (hb : ∀ x ∈ (T.node c L v R).addrs, x < ω.brk)
    (l : List Ev) :
    ∃ M', local_tree_delete_fine_root (W ω M {c} l) (some c) =
        .ok (W (set_root ω (T.join L R).root) M' ∅ (l ++ T.root_evs c L R)) := by
  obtain ⟨n, hn, hv, hl, hr, hp, hL, hR⟩ := hrep
  obtain ⟨hdL, hdR, hcL, hcR, hLR⟩ := T.nodup_node.mp hd
  have hbL : ∀ x ∈ L.addrs, x < ω.brk := fun x hx => hb x (by simp [T.addrs, hx])
  have hcc : c ∈ ({c} : Finset Nat) := Finset.mem_singleton_self c
  have hmc : Function.update M c none c = none := by simp
  cases L with
  | nil =>
    cases R with
    | nil =>
      refine ⟨Function.update M c none, ?_⟩
      simp only [local_tree_delete_fine_root, deref_W hn, ok_bind, hl, hr, T.root_nil, ne_eq,
        not_true_eq_false, if_false, pure_eq_ok, set_root_W, unlock_W hn hcc,
        Finset.erase_singleton, destroy_free_W hn, T.join, T.root_evs, lockUnlock,
        List.nil_append]
    | node e rl ev rr =>
      obtain ⟨ne, hne, -⟩ := id hR
      have hec : e ≠ c := fun h => hcR (by simp [T.addrs, h])
      have he1 : e ∉ ({c} : Finset Nat) := by simp [hec]
      have hm1e : Function.update M e (some { ne with parent := none }) e =
          some { ne with parent := none } := by simp
      have hm1c : Function.update M e (some { ne with parent := none }) c = some n := by
        simp [Function.update, hec.symm, hn]
      refine ⟨Function.update (Function.update M e (some { ne with parent := none })) c none,
        ?_⟩
      simp only [local_tree_delete_fine_root, deref_W hn, ok_bind, hl, hr, T.root_nil, ne_eq,
        not_true_eq_false, if_false, T.root_node, reduceCtorEq, not_false_eq_true, if_true,
        lock_W hne he1, set_root_W, W_tree, set_root_root, set_parent_W hne,
        unlock_W hm1e (Finset.mem_insert_self e {c}), Finset.erase_insert he1,
        unlock_W hm1c hcc, Finset.erase_singleton, destroy_free_W hm1c, T.root_evs, lockUnlock,
        List.append_assoc, List.singleton_append, List.cons_append, List.nil_append]
      rfl
  | node a ll lv lr =>
    obtain ⟨na, hna, -⟩ := id hL
    have hac : a ≠ c := fun h => hcL (by simp [T.addrs, h])
    have hm1a : Function.update M a (some { na with parent := none }) a =
        some { na with parent := none } := by simp
    have hm1c : Function.update M a (some { na with parent := none }) c = some n := by
      simp [Function.update, hac.symm, hn]
    have hL1 : Rep (Function.update M a (some { na with parent := none }))
        (.node a ll lv lr) none := hL.reparent hdL hna none
    cases R with
    | nil =>
      have ha1 : a ∉ ({c} : Finset Nat) := by simp [hac]
      refine ⟨Function.update (Function.update M a (some { na with parent := none })) c none,
        ?_⟩
      simp only [local_tree_delete_fine_root, deref_W hn, ok_bind, hl, hr, T.root_nil, ne_eq,
        not_true_eq_false, if_false, T.root_node, reduceCtorEq, not_false_eq_true, if_true,
        pure_eq_ok, lock_W hna ha1, set_root_W, W_tree, set_root_root, set_parent_W hna,
        unlock_W hm1a (Finset.mem_insert_self a {c}), Finset.erase_insert ha1,
        unlock_W hm1c hcc, Finset.erase_singleton, destroy_free_W hm1c, T.root_evs, optLock,
        T.reinsert_evs, List.append_assoc, List.singleton_append, List.cons_append,
        List.nil_append]
      rfl
    | node e rl ev rr =>
      obtain ⟨ne, hne, hnev, -⟩ := id hR
      have hec : e ≠ c := fun h => hcR (by simp [T.addrs, h])
      have hae : a ≠ e := fun h => hLR a (by simp [T.addrs]) (by simp [T.addrs, h])
      have he1 : e ∉ ({c} : Finset Nat) := by simp [hec]
      have ha2 : a ∉ insert e ({c} : Finset Nat) := by simp [hac, hae]
      have hm1e : Function.update M a (some { na with parent := none }) e = some ne := by
        simp [Function.update, hae.symm, hne]
      have heL : e ∉ (T.node a ll lv lr).addrs := fun h => hLR e h (by simp [T.addrs])
      obtain ⟨sp, h1, h2, h3⟩ := Node_Insert_f_L (ω := set_root ω (some a))
        (M := Function.update M a (some { na with parent := none })) (e := e) hm1e
        (t := T.node a ll lv lr) (a := a) (ρ := none) rfl hL1 hdL heL
        (T.height_le_brk hdL hbL) (H := insert a (insert e {c})) (by simp) (by simp)
        (by
          intro y hy hya hmem
          simp only [Finset.mem_insert, Finset.mem_singleton] at hmem
          rcases hmem with h | h | h
          · exact hya h
          · exact heL (h ▸ hy)
          · exact hcL (h ▸ hy))
        (l ++ [.lock (.node (some e))] ++ [.lock (.node (some a))])
      have hfin : ((insert a (insert e ({c} : Finset Nat))).erase a).erase e = {c} := by
        rw [Finset.erase_insert ha2, Finset.erase_insert he1]
      rw [hfin] at h1
      rw [hnev] at h1 h2
      have hcsp : c ≠ sp := fun h => hcL (h ▸ h3)
      have hm2c : attach (Function.update M a (some { na with parent := none })) e sp c =
          some n := by
        rw [attach_frame hec.symm hcsp]; exact hm1c
      refine ⟨Function.update
          (attach (Function.update M a (some { na with parent := none })) e sp) c none, ?_⟩
      simp only [local_tree_delete_fine_root, deref_W hn, ok_bind, hl, hr, ne_eq,
        T.root_node, reduceCtorEq, not_false_eq_true, if_true,
        lock_W hne he1, lock_W hna ha2, set_root_W, W_tree, set_root_root, set_parent_W hna,
        h1, unlock_W hm2c hcc, Finset.erase_singleton, destroy_free_W hm2c]
      have h2' : T.slot ev (T.node a ll lv lr) (some a) = some sp := h2
      simp only [T.join, T.root_evs, T.root_node, optLock, T.reinsert_evs, h2',
        List.append_assoc, List.singleton_append, List.cons_append, List.nil_append]
      rw [T.graft_root _ _ (by simp)]
      rfl

theorem delete_fine_inner_left_L {ω : World} {M : Nat → Option i_element_t} {p c : Nat}
    {L R Y : T} {pv v : Int} {par : Ptr}
    (hrep : Rep M (.node p (.node c L v R) pv Y) par)
    (hd : (T.node p (.node c L v R) pv Y).addrs.Nodup)
    (hb : ∀ x ∈ (T.node p (.node c L v R) pv Y).addrs, x < ω.brk)
    (l : List Ev) :
    ∃ M', local_tree_delete_fine_inner (W ω M {p, c} l) (some c) =
      .ok (W ω M' ∅ (l ++ T.inner_evs c L R (.node p L pv Y) p)) := by
  obtain ⟨hP2, hR2, hc2⟩ := relink_left_rep hrep hd
  obtain ⟨np, hnp, hpv, hpl, hpr, hpp, hC, hY⟩ := hrep
  obtain ⟨nc, hnc, hcv, hcl, hcr, hcp, hL, hR⟩ := id hC
  obtain ⟨hdC, hdY, hpC, hpY, hCY⟩ := T.nodup_node.mp hd
  obtain ⟨hdL, hdR, hcL, hcR, hLR⟩ := T.nodup_node.mp hdC
  have hpc : p ≠ c := fun h => hpC (by simp [T.addrs, h])
  have hpL : p ∉ L.addrs := fun h => hpC (by simp [T.addrs, h])
  have hpR : p ∉ R.addrs := fun h => hpC (by simp [T.addrs, h])
  have hcY : c ∉ Y.addrs := hCY c (by simp [T.addrs])
  have hLY : ∀ x ∈ L.addrs, x ∉ Y.addrs := fun x hx => hCY x (by simp [T.addrs, hx])
  have hRY : ∀ x ∈ R.addrs, x ∉ Y.addrs := fun x hx => hCY x (by simp [T.addrs, hx])
  have hdP : (T.node p L pv Y).addrs.Nodup := T.nodup_node.mpr ⟨hdL, hdY, hpL, hpY, hLY⟩
  have hdis : ∀ x ∈ (T.node p L pv Y).addrs, x ∉ R.addrs := by
    intro x hx
    rcases T.mem_addrs_node.mp hx with h | h | h
    · exact hLR x h
    · subst h; exact hpR
    · exact fun hr' => hRY x hr' h
  have hcP : c ∉ (T.node p L pv Y).addrs := by
    intro h
    rcases T.mem_addrs_node.mp h with h | h | h
    · exact hcL h
    · exact hpc h.symm
    · exact hcY h
  have hbP : ∀ x ∈ (T.node p L pv Y).addrs, x < ω.brk := by
    intro x hx
    apply hb
    simp only [T.addrs, List.mem_append, List.mem_cons] at hx ⊢
    tauto
  rw [hnc] at hc2
  have h1 := lockOpt_L (ω := ω) (M := M) (H := {p, c}) (l := l) (q := R.root)
    (by
      intro e he
      have heR : e ∈ R.addrs := T.root_mem_addrs he
      refine ⟨hR.get heR, ?_⟩
      simp only [Finset.mem_insert, Finset.mem_singleton]
      rintro (h | h)
      · exact hpR (h ▸ heR)
      · exact hcR (h ▸ heR))
  obtain ⟨G, hG, hG3⟩ := graftMem_rep hP2 (by simp) hR2 hdP hdR hdis hcP hcR
  have hGc : graftMem (relink true M p L.root) R (T.node p L pv Y) c = some nc := hG3.trans hc2
  refine ⟨Function.update (graftMem (relink true M p L.root) R (.node p L pv Y)) c none, ?_⟩
  simp only [ne_eq, pure_eq_ok] at h1
  have h3 :
      local_tree_delete_fine_inner (W ω M {p, c} l) (some c) =
        ((deref (W ω (relink true M p L.root) (insertOpt R.root {p, c})
            (l ++ optLock R.root ++ lockUnlock L.root)) (some c) >>=
          fun c' =>
            (if R.root ≠ none then
              Node_Insert_f (W ω (relink true M p L.root) (insertOpt R.root {p, c})
                (l ++ optLock R.root ++ lockUnlock L.root))
                c'.parent R.root
             else unlock (W ω (relink true M p L.root) (insertOpt R.root {p, c})
                (l ++ optLock R.root ++ lockUnlock L.root))
                (.node c'.parent))) >>= fun w =>
          unlock w (.node (some c)) >>= fun w =>
          pthread_mutex_destroy w (some c) >>= fun w => free w (some c)) := by
    cases L with
    | nil =>
      have hM1c : Function.update M p (some { np with left := none }) c = some nc := by
        simp [Function.update, hpc.symm, hnc]
      simp only [local_tree_delete_fine_inner, deref_W hnc, ok_bind, hcr, h1, hcl, T.root_nil,
        ne_eq, not_true_eq_false, if_false, pure_eq_ok, hcp, deref_W hnp, hpl, T.root_node,
        if_true, set_left_W hnp, deref_W hM1c, relink_none hnp, lockUnlock, List.append_nil]
    | node a ll lv lr =>
      obtain ⟨na, hna, -⟩ := id hL
      have hap : a ≠ p := fun h => hpL (by simp [T.addrs, h])
      have hac : a ≠ c := fun h => hcL (by simp [T.addrs, h])
      have haR : a ∉ R.addrs := hLR a (by simp [T.addrs])
      have haH : a ∉ insertOpt R.root ({p, c} : Finset Nat) := by
        cases hRr : R.root with
        | none => simp [hap, hac]
        | some e =>
          have : a ≠ e := fun h => haR (h ▸ T.root_mem_addrs hRr)
          simp [hap, hac, this]
      have hM1c : Function.update M p (some { np with left := some a }) c = some nc := by
        simp [Function.update, hpc.symm, hnc]
      have hM1a : Function.update M p (some { np with left := some a }) a = some na := by
        simp [Function.update, hap, hna]
      have hM2c : Function.update (Function.update M p (some { np with left := some a })) a
          (some { na with parent := some p }) c = some nc := by
        simp [Function.update, hpc.symm, hac.symm, hnc]
      have hM2a : Function.update (Function.update M p (some { np with left := some a })) a
          (some { na with parent := some p }) a = some { na with parent := some p } := by simp
      simp only [local_tree_delete_fine_inner, deref_W hnc, ok_bind, hcr, h1, hcl, T.root_node,
        ne_eq, reduceCtorEq, not_false_eq_true, if_true, lock_W hna haH, hcp, deref_W hnp, hpl,
        pure_eq_ok,
        set_left_W hnp, deref_W hM1c, set_parent_W hM1a, deref_W hM2c,
        unlock_W hM2a (Finset.mem_insert_self a _), Finset.erase_insert haH,
        relink_some hnp hna hap, lockUnlock, List.append_assoc, List.singleton_append,
        List.cons_append, List.nil_append]
  have h4 := fine_tail_L (ω := ω) hP2 rfl hR2 hdP hdis hcP hcR hc2 hcp hbP
    (l ++ optLock R.root ++ lockUnlock L.root)
  rw [h3, h4]
  simp only [ok_bind, unlock_W hGc (Finset.mem_singleton_self c), Finset.erase_singleton,
    T.inner_evs, List.append_assoc]
  exact destroy_free_W hGc

theorem delete_fine_inner_right_L {ω : World} {M : Nat → Option i_element_t} {p c : Nat}
    {L R X : T} {pv v : Int} {par : Ptr}
    (hrep : Rep M (.node p X pv (.node c L v R)) par)
    (hd : (T.node p X pv (.node c L v R)).addrs.Nodup)
    (hb : ∀ x ∈ (T.node p X pv (.node c L v R)).addrs, x < ω.brk)
    (l : List Ev) :
    ∃ M', local_tree_delete_fine_inner (W ω M {p, c} l) (some c) =
      .ok (W ω M' ∅ (l ++ T.inner_evs c L R (.node p X pv L) p)) := by
  obtain ⟨hP2, hR2, hc2⟩ := relink_right_rep hrep hd
  obtain ⟨np, hnp, hpv, hpl, hpr, hpp, hX, hC⟩ := hrep
  obtain ⟨nc, hnc, hcv, hcl, hcr, hcp, hL, hR⟩ := id hC
  obtain ⟨hdX, hdC, hpX, hpC, hXC⟩ := T.nodup_node.mp hd
  obtain ⟨hdL, hdR, hcL, hcR, hLR⟩ := T.nodup_node.mp hdC
  have hpc : p ≠ c := fun h => hpC (by simp [T.addrs, h])
  have hpL : p ∉ L.addrs := fun h => hpC (by simp [T.addrs, h])
  have hpR : p ∉ R.addrs := fun h => hpC (by simp [T.addrs, h])
  have hcX : c ∉ X.addrs := fun h => hXC c h (by simp [T.addrs])
  have hXL : ∀ x ∈ X.addrs, x ∉ L.addrs := fun x hx h => hXC x hx (by simp [T.addrs, h])
  have hXR : ∀ x ∈ X.addrs, x ∉ R.addrs := fun x hx h => hXC x hx (by simp [T.addrs, h])
  have hnl : ¬ np.left = some c := by
    rw [hpl]; intro h; exact hcX (T.root_mem_addrs h)
  have hdP : (T.node p X pv L).addrs.Nodup := T.nodup_node.mpr ⟨hdX, hdL, hpX, hpL, hXL⟩
  have hdis : ∀ x ∈ (T.node p X pv L).addrs, x ∉ R.addrs := by
    intro x hx
    rcases T.mem_addrs_node.mp hx with h | h | h
    · exact hXR x h
    · subst h; exact hpR
    · exact hLR x h
  have hcP : c ∉ (T.node p X pv L).addrs := by
    intro h
    rcases T.mem_addrs_node.mp h with h | h | h
    · exact hcX h
    · exact hpc h.symm
    · exact hcL h
  have hbP : ∀ x ∈ (T.node p X pv L).addrs, x < ω.brk := by
    intro x hx
    apply hb
    simp only [T.addrs, List.mem_append, List.mem_cons] at hx ⊢
    tauto
  rw [hnc] at hc2
  have h1 := lockOpt_L (ω := ω) (M := M) (H := {p, c}) (l := l) (q := R.root)
    (by
      intro e he
      have heR : e ∈ R.addrs := T.root_mem_addrs he
      refine ⟨hR.get heR, ?_⟩
      simp only [Finset.mem_insert, Finset.mem_singleton]
      rintro (h | h)
      · exact hpR (h ▸ heR)
      · exact hcR (h ▸ heR))
  obtain ⟨G, hG, hG3⟩ := graftMem_rep hP2 (by simp) hR2 hdP hdR hdis hcP hcR
  have hGc : graftMem (relink false M p L.root) R (T.node p X pv L) c = some nc := hG3.trans hc2
  refine ⟨Function.update (graftMem (relink false M p L.root) R (.node p X pv L)) c none, ?_⟩
  simp only [ne_eq, pure_eq_ok] at h1
  have h3 :
      local_tree_delete_fine_inner (W ω M {p, c} l) (some c) =
        ((deref (W ω (relink false M p L.root) (insertOpt R.root {p, c})
            (l ++ optLock R.root ++ lockUnlock L.root)) (some c) >>=
          fun c' =>
            (if R.root ≠ none then
              Node_Insert_f (W ω (relink false M p L.root) (insertOpt R.root {p, c})
                (l ++ optLock R.root ++ lockUnlock L.root))
                c'.parent R.root
             else unlock (W ω (relink false M p L.root) (insertOpt R.root {p, c})
                (l ++ optLock R.root ++ lockUnlock L.root))
                (.node c'.parent))) >>= fun w =>
          unlock w (.node (some c)) >>= fun w =>
          pthread_mutex_destroy w (some c) >>= fun w => free w (some c)) := by
    cases L with
    | nil =>
      have hM1c : Function.update M p (some { np with right := none }) c = some nc := by
        simp [Function.update, hpc.symm, hnc]
      simp only [local_tree_delete_fine_inner, deref_W hnc, ok_bind, hcr, h1, hcl, T.root_nil,
        ne_eq, not_true_eq_false, if_false, pure_eq_ok, hcp, deref_W hnp, hnl,
        set_right_W hnp, deref_W hM1c, relink_none hnp, Bool.false_eq_true, lockUnlock,
        List.append_nil]
    | node a ll lv lr =>
      obtain ⟨na, hna, -⟩ := id hL
      have hap : a ≠ p := fun h => hpL (by simp [T.addrs, h])
      have hac : a ≠ c := fun h => hcL (by simp [T.addrs, h])
      have haR : a ∉ R.addrs := hLR a (by simp [T.addrs])
      have haH : a ∉ insertOpt R.root ({p, c} : Finset Nat) := by
        cases hRr : R.root with
        | none => simp [hap, hac]
        | some e =>
          have : a ≠ e := fun h => haR (h ▸ T.root_mem_addrs hRr)
          simp [hap, hac, this]
      have hM1c : Function.update M p (some { np with right := some a }) c = some nc := by
        simp [Function.update, hpc.symm, hnc]
      have hM1a : Function.update M p (some { np with right := some a }) a = some na := by
        simp [Function.update, hap, hna]
      have hM2c : Function.update (Function.update M p (some { np with right := some a })) a
          (some { na with parent := some p }) c = some nc := by
        simp [Function.update, hpc.symm, hac.symm, hnc]
      have hM2a : Function.update (Function.update M p (some { np with right := some a })) a
          (some { na with parent := some p }) a = some { na with parent := some p } := by simp
      simp only [local_tree_delete_fine_inner, deref_W hnc, ok_bind, hcr, h1, hcl, T.root_node,
        ne_eq, reduceCtorEq, not_false_eq_true, if_true, lock_W hna haH, hcp, deref_W hnp, hnl,
        pure_eq_ok, if_false,
        set_right_W hnp, deref_W hM1c, set_parent_W hM1a, deref_W hM2c,
        unlock_W hM2a (Finset.mem_insert_self a _), Finset.erase_insert haH,
        relink_some hnp hna hap, Bool.false_eq_true, lockUnlock, List.append_assoc,
        List.singleton_append, List.cons_append, List.nil_append]
  have h4 := fine_tail_L (ω := ω) hP2 rfl hR2 hdP hdis hcP hcR hc2 hcp hbP
    (l ++ optLock R.root ++ lockUnlock L.root)
  rw [h3, h4]
  simp only [ok_bind, unlock_W hGc (Finset.mem_singleton_self c), Finset.erase_singleton,
    T.inner_evs, List.append_assoc]
  exact destroy_free_W hGc

theorem delete_fine_inner_at_L {ω : World} {M : Nat → Option i_element_t} {v : Int} {c : Nat} :
    ∀ (t : T) (par : Ptr), Rep M t par → t.addrs.Nodup → (∀ x ∈ t.addrs, x < ω.brk) →
      t.root ≠ some c → T.find v t = some c → ∀ l : List Ev,
      ∃ p M', T.findPar v t par = some p ∧
        local_tree_delete_fine_inner (W ω M {p, c} l) (some c) =
          .ok (W ω M' ∅ (l ++ T.splice_evs v t)) := by
  intro t
  induction t with
  | nil => intro _ _ _ _ _ h; simp [T.find] at h
  | node a l x r ihl ihr =>
    intro par hrep hd hb hroot hfind lg
    have hxv : x ≠ v := by
      intro h
      simp only [T.find, h, ne_eq, not_true_eq_false, if_false] at hfind
      exact hroot hfind
    obtain ⟨hdl, hdr, hal, har, hlr⟩ := T.nodup_node.mp hd
    simp only [T.find, ne_eq, hxv, not_false_eq_true, if_true] at hfind
    simp only [T.findPar, T.splice_evs, ne_eq, hxv, not_false_eq_true, if_true]
    by_cases hg : x > v
    · simp only [hg, if_true] at hfind ⊢
      cases l with
      | nil => simp [T.find] at hfind
      | node c' L lv R =>
        by_cases hlv' : lv = v
        · subst hlv'
          simp only [T.find, ne_eq, not_true_eq_false, if_false, Option.some.injEq] at hfind
          subst hfind
          simp only [T.findPar, ne_eq, not_true_eq_false, if_false, if_true]
          obtain ⟨M', h1⟩ := delete_fine_inner_left_L (ω := ω) hrep hd hb lg
          exact ⟨a, M', rfl, h1⟩
        · have hroot' : (T.node c' L lv R).root ≠ some c := by
            intro h
            simp only [T.root_node, Option.some.injEq] at h
            subst h
            simp only [T.find, ne_eq, hlv', not_false_eq_true, if_true] at hfind
            have hm : c' ∈ (T.del v (T.node c' L lv R)).addrs :=
              T.root_mem_addrs (T.del_root (a := c') (l := L) (r := R) hlv')
            have hfind' : T.find v (T.node c' L lv R) = some c' := by
              simp only [T.find, ne_eq, hlv', not_false_eq_true, if_true]; exact hfind
            have hp := (T.addrs_del_perm hfind').nodup_iff.mp hdl
            exact (List.nodup_cons.mp hp).1 hm
          obtain ⟨n, hn, hv, hl, hr, hp, hL, hR⟩ := hrep
          obtain ⟨p, M', h0, h1⟩ := ihl (some a) hL hdl
            (fun y hy => hb y (T.mem_addrs_node.mpr (Or.inl hy))) hroot' hfind lg
          simp only [hlv', if_false]
          exact ⟨p, M', h0, h1⟩
    · simp only [hg, if_false] at hfind ⊢
      cases r with
      | nil => simp [T.find] at hfind
      | node c' L rv R =>
        by_cases hrv' : rv = v
        · subst hrv'
          simp only [T.find, ne_eq, not_true_eq_false, if_false, Option.some.injEq] at hfind
          subst hfind
          simp only [T.findPar, ne_eq, not_true_eq_false, if_false, if_true]
          obtain ⟨M', h1⟩ := delete_fine_inner_right_L (ω := ω) hrep hd hb lg
          exact ⟨a, M', rfl, h1⟩
        · have hroot' : (T.node c' L rv R).root ≠ some c := by
            intro h
            simp only [T.root_node, Option.some.injEq] at h
            subst h
            simp only [T.find, ne_eq, hrv', not_false_eq_true, if_true] at hfind
            have hm : c' ∈ (T.del v (T.node c' L rv R)).addrs :=
              T.root_mem_addrs (T.del_root (a := c') (l := L) (r := R) hrv')
            have hfind' : T.find v (T.node c' L rv R) = some c' := by
              simp only [T.find, ne_eq, hrv', not_false_eq_true, if_true]; exact hfind
            have hp := (T.addrs_del_perm hfind').nodup_iff.mp hdr
            exact (List.nodup_cons.mp hp).1 hm
          obtain ⟨n, hn, hv, hl, hr, hp, hL, hR⟩ := hrep
          obtain ⟨p, M', h0, h1⟩ := ihr (some a) hR hdr
            (fun y hy => hb y (T.mem_addrs_node.mpr (Or.inr (Or.inr hy)))) hroot' hfind lg
          simp only [hrv', if_false]
          exact ⟨p, M', h0, h1⟩

theorem T.splice_evs_of_find_none {v : Int} : ∀ {t : T}, T.find v t = none →
    T.splice_evs v t = [] := by
  intro t
  induction t with
  | nil => intro _; rfl
  | node a l x r ihl ihr =>
    intro hf
    by_cases hxv : x = v
    · simp [T.find, hxv] at hf
    · simp only [T.find, ne_eq, hxv, not_false_eq_true, if_true] at hf
      simp only [T.splice_evs, ne_eq, hxv, not_false_eq_true, if_true]
      by_cases hg : x > v
      · simp only [hg, if_true] at hf ⊢
        cases l with
        | nil => rfl
        | node c L lv R =>
          by_cases hlv : lv = v
          · simp [T.find, hlv] at hf
          · simp only [hlv, if_false]; exact ihl hf
      · simp only [hg, if_false] at hf ⊢
        cases r with
        | nil => rfl
        | node c L rv R =>
          by_cases hrv : rv = v
          · simp [T.find, hrv] at hf
          · simp only [hrv, if_false]; exact ihr hf

theorem local_tree_delete_fine_L {w : World} {t : T} (h : Inv .FineGrained w t) (v : Int) :
    ∃ w', local_tree_delete_fine w v = .ok w' ∧ w'.log = w.log ++ T.delete_log v t := by
  have hW := World.eq_W (h.locks rfl)
  obtain ⟨hroot, hrep, hd, hb⟩ := h.holds
  cases t with
  | nil =>
    simp only [T.root_nil] at hroot
    exact ⟨w, by simp [local_tree_delete_fine, hroot], by simp [T.delete_log]⟩
  | node a lt x rt =>
    simp only [T.root_node] at hroot
    obtain ⟨na, hna, -⟩ := id hrep
    have hlock : lock w (.node (some a)) =
        .ok (W w w.mem (insert a ∅) (w.log ++ [.lock (.node (some a))])) := by
      conv_lhs => rw [hW]
      exact lock_W hna (Finset.not_mem_empty a)
    have h1 := delete_fine_loop_L (ω := w) (M := w.mem) (v := v) (T.node a lt x rt) a
      none (w.brk + 1) ∅ (w.log ++ [.lock (.node (some a))]) rfl hrep hd
      (Nat.lt_succ_of_le (T.height_le_brk hd hb)) (fun _ _ => Finset.not_mem_empty _)
      (by intro p hp; cases hp) (by simp [hroot])
      (by
        intro y hy hya
        rw [hroot]
        exact fun h => hya (Option.some.inj h).symm)
    simp only [insertOpt_none] at h1
    have hstart : local_tree_delete_fine w v =
        (let r := (W w w.mem (heldAfterSearch (T.find v (T.node a lt x rt))
              (T.findPar v (T.node a lt x rt) none) ∅)
              (w.log ++ [.lock (.node (some a))] ++ T.del_evs v (T.node a lt x rt) none),
              T.find v (T.node a lt x rt))
         if r.2 ≠ none then
           (if r.2 = r.1.tree.root then local_tree_delete_fine_root r.1 r.2
            else local_tree_delete_fine_inner r.1 r.2)
         else pure r.1) := by
      simp only [local_tree_delete_fine, hroot, ne_eq, reduceCtorEq, not_false_eq_true, if_true,
        hlock, ok_bind, W_brk, W_tree, h1]
    rw [hstart]
    cases hf : T.find v (T.node a lt x rt) with
    | none =>
      have hxv : x ≠ v := by
        intro hxv
        simp [T.find, hxv] at hf
      refine ⟨W w w.mem ∅
        (w.log ++ [.lock (.node (some a))] ++ T.del_evs v (T.node a lt x rt) none),
        by simp only [heldAfterSearch, ne_eq, not_true_eq_false, if_false, pure_eq_ok], ?_⟩
      simp only [W_log, T.delete_log, hxv, if_false, T.splice_evs_of_find_none hf,
        List.append_nil, List.append_assoc, List.singleton_append]
    | some c =>
      by_cases hca : c = a
      · subst hca
        have hxv : x = v := by
          by_contra hne
          have hp := (T.addrs_del_perm hf).nodup_iff.mp hd
          exact (List.nodup_cons.mp hp).1 (T.root_mem_addrs (T.del_root hne))
        subst hxv
        have hpar : T.findPar x (T.node c lt x rt) none = none := by simp [T.findPar]
        obtain ⟨M', e1⟩ := delete_fine_root_L (ω := w) hrep hd hb
          (w.log ++ [.lock (.node (some c))] ++ T.del_evs x (T.node c lt x rt) none)
        refine ⟨W (set_root w (T.join lt rt).root) M' ∅
          (w.log ++ [.lock (.node (some c))] ++ T.del_evs x (T.node c lt x rt) none ++
            T.root_evs c lt rt), ?_, ?_⟩
        · simp only [hpar, heldAfterSearch, insertOpt_none, ne_eq, reduceCtorEq,
            not_false_eq_true, if_true, W_tree, hroot]
          exact e1
        · simp only [W_log, T.delete_log, if_true, List.append_assoc, List.singleton_append]
      · have hne : (some c : Ptr) ≠ some a := fun h => hca (Option.some.inj h)
        obtain ⟨p, M', e0, e1⟩ := delete_fine_inner_at_L (ω := w) (M := w.mem)
          (T.node a lt x rt) none hrep hd hb
          (by simpa using fun h : a = c => hca h.symm) hf
          (w.log ++ [.lock (.node (some a))] ++ T.del_evs v (T.node a lt x rt) none)
        have hxv : x ≠ v := by
          intro hxv
          simp only [T.find, hxv, ne_eq, not_true_eq_false, if_false, Option.some.injEq] at hf
          exact hca hf.symm
        have hH : insert c (insert p (∅ : Finset Nat)) = {p, c} := by
          ext y; simp only [Finset.mem_insert, Finset.mem_singleton, Finset.not_mem_empty]
          tauto
        refine ⟨W w M' ∅
          (w.log ++ [.lock (.node (some a))] ++ T.del_evs v (T.node a lt x rt) none ++
            T.splice_evs v (T.node a lt x rt)), ?_, ?_⟩
        · simp only [e0, heldAfterSearch, insertOpt_some, ne_eq, reduceCtorEq,
            not_false_eq_true, if_true, W_tree, hroot, hne, if_false, hH]
          exact e1
        · simp only [W_log, T.delete_log, hxv, if_false, List.append_assoc,
            List.singleton_append]

theorem held_after_append (H : List Nat) (es fs : List Ev) :
    held_after H (es ++ fs) = held_after (held_after H es) fs := by
  induction es generalizing H with
  | nil => rfl
  | cons e es ih =>
    cases e with
    | lock m =>
      cases m with
      | node p => cases p <;> simp [held_after, ih]
      | tree => simp [held_after, ih]
    | unlock m =>
      cases m with
      | node p => cases p <;> simp [held_after, ih]
      | tree => simp [held_after, ih]
    | rdlock => simp [held_after, ih]
    | wrlock => simp [held_after, ih]
    | rw_unlock => simp [held_after, ih]

theorem covered_cons (path H : List Nat) (e : Ev) (es : List Ev) :
    covered path H (e :: es) =
      ((held_after H [e]).any (fun a => decide (a ∈ path)) &&
        covered path (held_after H [e]) es) := rfl

theorem covered_cons_of {path H : List Nat} {e : Ev} {es : List Ev} {a : Nat}
    (h1 : a ∈ held_after H [e]) (h2 : a ∈ path)
    (h3 : covered path (held_after H [e]) es = true) : covered path H (e :: es) = true := by
  rw [covered_cons, h3, Bool.and_true, List.any_eq_true]
  exact ⟨a, h1, by simpa using h2⟩

theorem held_after_lock (H : List Nat) (a : Nat) :
    held_after H [.lock (.node (some a))] = a :: H := rfl

theorem held_after_unlock (H : List Nat) (a : Nat) :
    held_after H [.unlock (.node (some a))] = H.filter (fun x => x ≠ a) := rfl

theorem covered_append (path H : List Nat) (es fs : List Ev) :
    covered path H (es ++ fs) =
      (covered path H es && covered path (held_after H es) fs) := by
  induction es generalizing H with
  | nil => simp [covered, held_after]
  | cons e es ih =>
    have h : held_after H (e :: es) = held_after (held_after H [e]) es :=
      held_after_append H [e] es
    rw [List.cons_append, covered_cons, covered_cons, ih, h, Bool.and_assoc]

theorem covered_dropLast {path H : List Nat} {es : List Ev} (h : covered path H es = true) :
    covered path H es.dropLast = true := by
  rcases List.eq_nil_or_concat es with h0 | ⟨fs, x, h0⟩
  · subst h0; rfl
  · subst h0
    simp only [List.concat_eq_append] at h ⊢
    rw [List.dropLast_concat]
    rw [covered_append, Bool.and_eq_true] at h
    exact h.1

theorem covered_couple (path : List Nat) :
    ∀ (rest : List Nat) (p : Nat) (H : List Nat), (p :: rest).Nodup →
      (∀ c ∈ rest, c ∈ path) → covered path H (couple_from p rest) = true := by
  intro rest
  induction rest with
  | nil => intro _ _ _ _; rfl
  | cons c rest ih =>
    intro p H hnd hsub
    have hcp : c ≠ p := by
      intro h
      rw [List.nodup_cons] at hnd
      exact hnd.1 (by simp [h])
    have hc : c ∈ path := hsub c (by simp)
    refine covered_cons_of (a := c) (by simp [held_after_lock]) hc ?_
    refine covered_cons_of (a := c) ?_ hc ?_
    · rw [held_after_lock, held_after_unlock]
      simp [hcp]
    · exact ih c _ (List.nodup_cons.mp hnd).2 (fun d hd => hsub d (by simp [hd]))

theorem covered_descent (mid : List Ev) (stop : Bool) (path : List Nat) (hnd : path.Nodup)
    (hmid : ∀ a, a ∈ path → covered path [a] mid = true ∧ a ∈ held_after [a] mid) :
    covered path [] (descent mid stop path) = true := by
  cases path with
  | nil => rfl
  | cons a rest =>
    have h1 : covered (a :: rest) (held_after [a] mid) (couple_from a rest) = true :=
      covered_couple (a :: rest) rest a _ hnd (fun c hc => by simp [hc])
    have h2 : covered (a :: rest) (held_after [a] mid)
        (if stop then (couple_from a rest).dropLast else couple_from a rest) = true := by
      cases stop
      · exact h1
      · exact covered_dropLast h1
    obtain ⟨h3, h4⟩ := hmid a (by simp)
    refine covered_cons_of (a := a) (by simp [held_after_lock]) (by simp) ?_
    show covered (a :: rest) (held_after [] [.lock (.node (some a))])
      (mid ++ (if stop then (couple_from a rest).dropLast else couple_from a rest)) = true
    rw [held_after_lock, covered_append, h3, h2]
    rfl

namespace T

theorem path_subset {v : Int} : ∀ {t : T} {x : Nat}, x ∈ T.path v t → x ∈ t.addrs := by
  intro t
  induction t with
  | nil => intro x h; simp [T.path] at h
  | node a l y r ihl ihr =>
    intro x h
    simp only [T.path, List.mem_cons] at h
    rcases h with h | h
    · subst h; simp [T.addrs]
    · by_cases hy : y = v
      · simp [hy] at h
      · by_cases hg : y > v
        · simp only [ne_eq, hy, not_false_eq_true, if_true, hg] at h
          exact T.mem_addrs_node.mpr (Or.inl (ihl h))
        · simp only [ne_eq, hy, not_false_eq_true, if_true, hg, if_false] at h
          exact T.mem_addrs_node.mpr (Or.inr (Or.inr (ihr h)))

theorem path_nodup {v : Int} : ∀ {t : T}, t.addrs.Nodup → (T.path v t).Nodup := by
  intro t
  induction t with
  | nil => intro _; simp [T.path]
  | node a l y r ihl ihr =>
    intro hd
    obtain ⟨hdl, hdr, hal, har, -⟩ := T.nodup_node.mp hd
    simp only [T.path, List.nodup_cons]
    by_cases hy : y = v
    · simp [hy]
    · by_cases hg : y > v
      · simp only [ne_eq, hy, not_false_eq_true, if_true, hg]
        exact ⟨fun h => hal (path_subset h), ihl hdl⟩
      · simp only [ne_eq, hy, not_false_eq_true, if_true, hg, if_false]
        exact ⟨fun h => har (path_subset h), ihr hdr⟩

theorem ipath_subset {v : Int} : ∀ {t : T} {x : Nat}, x ∈ T.ipath v t → x ∈ t.addrs := by
  intro t
  induction t with
  | nil => intro x h; simp [T.ipath] at h
  | node a l y r ihl ihr =>
    intro x h
    simp only [T.ipath, List.mem_cons] at h
    rcases h with h | h
    · subst h; simp [T.addrs]
    · by_cases hg : y > v
      · simp only [hg, if_true] at h
        exact T.mem_addrs_node.mpr (Or.inl (ihl h))
      · simp only [hg, if_false] at h
        exact T.mem_addrs_node.mpr (Or.inr (Or.inr (ihr h)))

theorem ipath_nodup {v : Int} : ∀ {t : T}, t.addrs.Nodup → (T.ipath v t).Nodup := by
  intro t
  induction t with
  | nil => intro _; simp [T.ipath]
  | node a l y r ihl ihr =>
    intro hd
    obtain ⟨hdl, hdr, hal, har, -⟩ := T.nodup_node.mp hd
    simp only [T.ipath, List.nodup_cons]
    by_cases hg : y > v
    · simp only [hg, if_true]
      exact ⟨fun h => hal (ipath_subset h), ihl hdl⟩
    · simp only [hg, if_false]
      exact ⟨fun h => har (ipath_subset h), ihr hdr⟩

theorem path_node_eq (v : Int) (a : Nat) (l : T) (x : Int) (r : T) :
    ∃ rest, T.path v (.node a l x r) = a :: rest := ⟨_, rfl⟩

theorem lookup_evs_eq {v : Int} : ∀ (t : T) (a : Nat), t.root = some a →
    T.lookup_evs v t = couple_from a (T.path v t).tail ++
      (if T.find v t = none then optUnlock (T.path v t).getLast? else []) := by
  intro t
  induction t with
  | nil => intro a h; simp at h
  | node b l x r ihl ihr =>
    intro a hroot
    simp only [T.root_node, Option.some.injEq] at hroot
    subst hroot
    by_cases hxv : x = v
    · simp [T.lookup_evs, T.path, T.find, hxv, couple_from]
    · simp only [T.lookup_evs, T.path, T.find, ne_eq, hxv, not_false_eq_true, if_true,
        List.tail_cons]
      by_cases hg : x > v
      · simp only [hg, if_true]
        cases l with
        | nil => simp [T.path, T.find, couple_from, optUnlock]
        | node c cl cv cr =>
          obtain ⟨rest, hrest⟩ := path_node_eq v c cl cv cr
          have ih := ihl c rfl
          rw [hrest] at ih ⊢
          simp only [List.tail_cons] at ih
          simp only [T.root_node, ih, couple_from, List.cons_append,
            List.getLast?_cons_cons]
      · simp only [hg, if_false]
        cases r with
        | nil => simp [T.path, T.find, couple_from, optUnlock]
        | node c cl cv cr =>
          obtain ⟨rest, hrest⟩ := path_node_eq v c cl cv cr
          have ih := ihr c rfl
          rw [hrest] at ih ⊢
          simp only [List.tail_cons] at ih
          simp only [T.root_node, ih, couple_from, List.cons_append,
            List.getLast?_cons_cons]

theorem lookup_log_eq (v : Int) (t : T) :
    T.lookup_log v t = descent [] false (T.path v t) ++
      (if T.find v t = none then optUnlock (T.path v t).getLast? else []) := by
  cases t with
  | nil => simp [T.lookup_log, T.path, descent, T.find, optUnlock]
  | node a l x r =>
    obtain ⟨rest, hrest⟩ := path_node_eq v a l x r
    have h := lookup_evs_eq (v := v) (T.node a l x r) a rfl
    rw [hrest] at h ⊢
    simp only [List.tail_cons] at h
    simp only [T.lookup_log, T.root_node, h, descent, List.nil_append, Bool.false_eq_true,
      if_false, List.cons_append]

end T

theorem optUnlock_some (p : Nat) : optUnlock (some p) = [.unlock (.node (some p))] := rfl

theorem optUnlock_none : optUnlock none = [] := rfl

namespace T

theorem ipath_node_eq (v : Int) (a : Nat) (l : T) (x : Int) (r : T) :
    ∃ rest, T.ipath v (.node a l x r) = a :: rest := ⟨_, rfl⟩

theorem ins_evs_eq {v : Int} : ∀ (t : T) (c P : Nat), t.root = some c → t.addrs.Nodup →
    P ∉ t.addrs → .lock (.node (some c)) :: T.ins_evs v t P = couple_from P (T.ipath v t) := by
  intro t
  induction t with
  | nil => intro c _ h; simp at h
  | node b l x r ihl ihr =>
    intro c P hroot hd hP
    simp only [T.root_node, Option.some.injEq] at hroot
    subst hroot
    obtain ⟨hdl, hdr, hal, har, -⟩ := T.nodup_node.mp hd
    have hPb : P ≠ b := fun h => hP (by simp [T.addrs, h])
    simp only [T.ins_evs, T.ipath, ne_eq, hPb, not_false_eq_true, if_true, couple_from,
      List.singleton_append]
    by_cases hg : x > v
    · simp only [hg, if_true]
      cases l with
      | nil => simp [T.ipath, couple_from]
      | node d dl dv dr =>
        simp only [T.root_node]
        rw [ihl d b rfl hdl hal]
    · simp only [hg, if_false]
      cases r with
      | nil => simp [T.ipath, couple_from]
      | node d dl dv dr =>
        simp only [T.root_node]
        rw [ihr d b rfl hdr har]

theorem ins_evs_root {v : Int} {a : Nat} {l r : T} {x : Int}
    (hd : (T.node a l x r).addrs.Nodup) :
    T.ins_evs v (.node a l x r) a = couple_from a (T.ipath v (.node a l x r)).tail := by
  obtain ⟨hdl, hdr, hal, har, -⟩ := T.nodup_node.mp hd
  simp only [T.ins_evs, T.ipath, ne_eq, not_true_eq_false, if_false, List.nil_append,
    List.tail_cons]
  by_cases hg : x > v
  · simp only [hg, if_true]
    cases l with
    | nil => simp [T.ipath, couple_from]
    | node d dl dv dr =>
      simp only [T.root_node]
      rw [ins_evs_eq (T.node d dl dv dr) d a rfl hdl hal]
  · simp only [hg, if_false]
    cases r with
    | nil => simp [T.ipath, couple_from]
    | node d dl dv dr =>
      simp only [T.root_node]
      rw [ins_evs_eq (T.node d dl dv dr) d a rfl hdr har]

theorem slot_eq_last {v : Int} : ∀ (t : T) (prev : Ptr),
    T.slot v t prev = (match (T.ipath v t).getLast? with
      | some s => some s
      | none => prev) := by
  intro t
  induction t with
  | nil => intro prev; simp [T.slot, T.ipath]
  | node a l x r ihl ihr =>
    intro prev
    simp only [T.slot, T.ipath]
    by_cases hg : x > v
    · simp only [hg, if_true, ihl]
      cases h : T.ipath v l with
      | nil => simp
      | cons d rest =>
        obtain ⟨s, hs⟩ : ∃ s, (d :: rest).getLast? = some s :=
          ⟨_, List.getLast?_eq_getLast _ (by simp)⟩
        simp [List.getLast?_cons_cons, hs]
    · simp only [hg, if_false, ihr]
      cases h : T.ipath v r with
      | nil => simp
      | cons d rest =>
        obtain ⟨s, hs⟩ : ∃ s, (d :: rest).getLast? = some s :=
          ⟨_, List.getLast?_eq_getLast _ (by simp)⟩
        simp [List.getLast?_cons_cons, hs]

theorem insert_log_eq (e : Nat) (v : Int) {t : T} (hd : t.addrs.Nodup) :
    T.insert_log e v t = descent [.lock (.node (some e))] false (T.ipath v t) ++
      unlock_both (T.ipath v t).getLast? e := by
  cases t with
  | nil => simp [T.insert_log, T.ipath, descent, unlock_both]
  | node a l x r =>
    have h1 := ins_evs_root (v := v) hd
    have h2 := slot_eq_last (v := v) (T.node a l x r) (some a)
    obtain ⟨rest, hrest⟩ := ipath_node_eq v a l x r
    rw [hrest] at h1 h2 ⊢
    simp only [List.tail_cons] at h1
    cases hl : (a :: rest).getLast? with
    | none => simp at hl
    | some sp =>
      rw [hl] at h2
      simp only [T.insert_log, T.root_node, h2, h1, descent, Bool.false_eq_true, if_false,
        unlock_both, List.append_assoc, List.singleton_append, List.cons_append,
        List.nil_append]

theorem del_evs_eq {v : Int} : ∀ (t : T) (c p : Nat), t.root = some c →
    .lock (.node (some c)) :: T.del_evs v t (some p) =
      (if (T.find v t).isSome then (couple_from p (T.path v t)).dropLast
       else couple_from p (T.path v t) ++ optUnlock (T.path v t).getLast?) := by
  intro t
  induction t with
  | nil => intro c _ h; simp at h
  | node b l x r ihl ihr =>
    intro c p hroot
    simp only [T.root_node, Option.some.injEq] at hroot
    subst hroot
    by_cases hxv : x = v
    · simp [T.del_evs, T.path, T.find, hxv, couple_from]
    · simp only [T.del_evs, T.path, T.find, ne_eq, hxv, not_false_eq_true, if_true,
        optUnlock_some, List.singleton_append]
      by_cases hg : x > v
      · simp only [hg, if_true]
        cases l with
        | nil => simp [T.path, T.find, couple_from, optUnlock]
        | node d dl dv dr =>
          obtain ⟨rest, hrest⟩ := path_node_eq v d dl dv dr
          have ih := ihl d b rfl
          rw [hrest] at ih ⊢
          simp only [T.root_node, ih]
          cases (T.find v (T.node d dl dv dr)).isSome
          · simp [couple_from, List.getLast?_cons_cons]
          · simp [couple_from]
      · simp only [hg, if_false]
        cases r with
        | nil => simp [T.path, T.find, couple_from, optUnlock]
        | node d dl dv dr =>
          obtain ⟨rest, hrest⟩ := path_node_eq v d dl dv dr
          have ih := ihr d b rfl
          rw [hrest] at ih ⊢
          simp only [T.root_node, ih]
          cases (T.find v (T.node d dl dv dr)).isSome
          · simp [couple_from, List.getLast?_cons_cons]
          · simp [couple_from]

theorem del_evs_root (v : Int) (a : Nat) (l r : T) (x : Int) :
    .lock (.node (some a)) :: T.del_evs v (.node a l x r) none =
      descent [] (T.find v (.node a l x r)).isSome (T.path v (.node a l x r)) ++
        (if T.find v (.node a l x r) = none then
          optUnlock (T.path v (.node a l x r)).getLast? else []) := by
  by_cases hxv : x = v
  · simp [T.del_evs, T.path, T.find, hxv, descent, couple_from]
  · simp only [T.del_evs, T.path, T.find, ne_eq, hxv, not_false_eq_true, if_true,
      optUnlock_none, List.nil_append, descent]
    by_cases hg : x > v
    · simp only [hg, if_true]
      cases l with
      | nil => simp [T.path, T.find, couple_from, optUnlock]
      | node d dl dv dr =>
        obtain ⟨rest, hrest⟩ := path_node_eq v d dl dv dr
        have ih := del_evs_eq (v := v) (T.node d dl dv dr) d a rfl
        rw [hrest] at ih ⊢
        simp only [T.root_node, ih]
        cases hf : T.find v (T.node d dl dv dr) with
        | none => simp [List.getLast?_cons_cons]
        | some m => simp
    · simp only [hg, if_false]
      cases r with
      | nil => simp [T.path, T.find, couple_from, optUnlock]
      | node d dl dv dr =>
        obtain ⟨rest, hrest⟩ := path_node_eq v d dl dv dr
        have ih := del_evs_eq (v := v) (T.node d dl dv dr) d a rfl
        rw [hrest] at ih ⊢
        simp only [T.root_node, ih]
        cases hf : T.find v (T.node d dl dv dr) with
        | none => simp [List.getLast?_cons_cons]
        | some m => simp

end T

/-- C24: hand-over-hand descent.  On every tree reached by a single-threaded run under
`FINE_LOCK`, the lock calls of `Tree_Lookup`, `Tree_Insert` and `Tree_Delete` begin with
a descent along the walked path: the root is locked and then, for every move from a
node `p` to its child `c`, `lock(c)` is called and `unlock(p)` after it (`couple_from`);
`Tree_Insert` locks the fresh node right after the root, and a `Tree_Delete` that finds
the value stops on the match with the lock of its parent still held.  After each call
of the descent the caller holds the lock of a node of the walked path (`covered`). -/
theorem C24_hand_over_hand_descent (ops : List Op) (v : Int) :
    ∃ w, reach .FineGrained ops = .ok w ∧
      (∃ w' r, Tree_Lookup (dispatch .FineGrained) w v = .ok (w', r) ∧
        w'.log = w.log ++ descent [] false (T.path v w.abs) ++
          (if r = none then optUnlock (T.path v w.abs).getLast? else []) ∧
        covered (T.path v w.abs) [] (descent [] false (T.path v w.abs)) = true) ∧
      (∃ w', Tree_Insert (dispatch .FineGrained) w v = .ok w' ∧
        w'.log = w.log ++ descent [.lock (.node (some w.brk))] false (T.ipath v w.abs) ++
          unlock_both (T.ipath v w.abs).getLast? w.brk ∧
        covered (T.ipath v w.abs) []
          (descent [.lock (.node (some w.brk))] false (T.ipath v w.abs)) = true) ∧
      (∃ w' tail, Tree_Delete (dispatch .FineGrained) w v = .ok w' ∧
        w'.log = w.log ++ descent [] (T.find v w.abs).isSome (T.path v w.abs) ++ tail ∧
        (T.find v w.abs = none → tail = optUnlock (T.path v w.abs).getLast?) ∧
        covered (T.path v w.abs) []
          (descent [] (T.find v w.abs).isSome (T.path v w.abs)) = true) := by
  obtain ⟨w, t, h1, h2⟩ := reach_ok .FineGrained ops
  have habs : w.abs = t := h2.holds.abs_eq
  have hd : t.addrs.Nodup := h2.holds.nodup
  refine ⟨w, h1, ?_, ?_, ?_⟩
  · obtain ⟨w', e1, e2⟩ := local_tree_lookup_fine_L h2 v
    refine ⟨w', T.find v t, e1, ?_, ?_⟩
    · rw [e2, habs, T.lookup_log_eq, List.append_assoc]
    · rw [habs]
      exact covered_descent [] false _ (T.path_nodup hd) (fun a _ => ⟨rfl, by simp [held_after]⟩)
  · obtain ⟨w', e1, e2⟩ := local_tree_insert_fine_L h2 v
    refine ⟨w', e1, ?_, ?_⟩
    · rw [e2, habs, T.insert_log_eq _ _ hd, List.append_assoc]
    · rw [habs]
      refine covered_descent _ false _ (T.ipath_nodup hd) (fun a ha => ⟨?_, ?_⟩)
      · exact covered_cons_of (a := a) (by simp [held_after_lock]) ha rfl
      · simp [held_after_lock]
  · obtain ⟨w', e1, e2⟩ := local_tree_delete_fine_L h2 v
    rw [habs]
    cases t with
    | nil =>
      exact ⟨w', [], e1, by simpa [T.delete_log, T.path, descent] using e2,
        fun _ => by simp [T.path, optUnlock], rfl⟩
    | node a l x r =>
      have h3 := T.del_evs_root v a l r x
      refine ⟨w', (if T.find v (T.node a l x r) = none then
          optUnlock (T.path v (T.node a l x r)).getLast? else []) ++
        (if x = v then T.root_evs a l r else T.splice_evs v (T.node a l x r)), e1, ?_, ?_, ?_⟩
      · rw [e2, T.delete_log, h3]
        simp only [List.append_assoc]
      · intro hf
        have hxv : x ≠ v := by
          intro hxv
          simp [T.find, hxv] at hf
        simp only [hf, if_true, hxv, if_false, T.splice_evs_of_find_none hf, List.append_nil]
      · exact covered_descent [] _ _ (T.path_nodup hd) (fun a _ => ⟨rfl, by simp [held_after]⟩)

theorem held_set_W {w0 : World} {M : Nat → Option i_element_t} {H : Finset Nat} (l : List Ev)
    (hH : ∀ x ∈ H, x < w0.brk ∧ M x ≠ none) : (W w0 M H l).held_set = H := by
  ext a
  simp only [World.held_set, Finset.mem_filter, Finset.mem_range, W_brk,
    held_relock (w := W w0 M H l) (M := M) (H := H) rfl a]
  constructor
  · exact fun h => h.2.1
  · exact fun h => ⟨(hH a h).1, h, (hH a h).2⟩

theorem trav_fold_record {w0 : World} {M : Nat → Option i_element_t} :
    ∀ (t : T) (B : Finset Nat) (l : List Ev) (acc : List (Ptr × Finset Nat × List Ev)),
      (∀ x ∈ t.addrs, x < w0.brk ∧ M x ≠ none) → (∀ x ∈ B, x < w0.brk ∧ M x ≠ none) →
      T.trav_fold record_held w0 M t B l acc = acc ++ T.trav_recs B l t := by
  intro t
  induction t with
  | nil => intro B l acc _ _; simp [T.trav_fold, T.trav_recs]
  | node b lt x rt ihl ihr =>
    intro B l acc ht hB
    have hB' : ∀ y ∈ insert b B, y < w0.brk ∧ M y ≠ none := by
      intro y hy
      rcases Finset.mem_insert.mp hy with h | h
      · subst h; exact ht y (by simp [T.addrs])
      · exact hB y h
    have hl : ∀ y ∈ lt.addrs, y < w0.brk ∧ M y ≠ none :=
      fun y hy => ht y (T.mem_addrs_node.mpr (Or.inl hy))
    have hr : ∀ y ∈ rt.addrs, y < w0.brk ∧ M y ≠ none :=
      fun y hy => ht y (T.mem_addrs_node.mpr (Or.inr (Or.inr hy)))
    simp only [T.trav_fold, T.trav_recs, record_held, held_set_W _ hB', W_log]
    cases lt with
    | nil =>
      cases rt with
      | nil => simp
      | node c cl cv cr => simp [ihr _ _ _ hr hB']
    | node d dl dv dr =>
      cases rt with
      | nil => simp [ihl _ _ _ hl hB']
      | node c cl cv cr => simp [ihl _ _ _ hl hB', ihr _ _ _ hr hB']

theorem T.unlock_mem_trav_evs {n : Nat} : ∀ {t : T},
    Ev.unlock (.node (some n)) ∈ T.trav_evs t → n ∈ t.addrs := by
  intro t
  induction t with
  | nil => intro h; simp [T.trav_evs] at h
  | node b lt x rt ihl ihr =>
    intro h
    simp only [T.trav_evs, List.mem_append, List.mem_singleton, Ev.unlock.injEq,
      Mutex.node.injEq, Option.some.injEq] at h
    rcases h with (h | h) | h
    · cases lt with
      | nil => simp at h
      | node c cl cv cr =>
        simp only [T.root_node, List.mem_cons, reduceCtorEq, false_or] at h
        exact T.mem_addrs_node.mpr (Or.inl (ihl h))
    · cases rt with
      | nil => simp at h
      | node c cl cv cr =>
        simp only [T.root_node, List.mem_cons, reduceCtorEq, false_or] at h
        exact T.mem_addrs_node.mpr (Or.inr (Or.inr (ihr h)))
    · subst h; simp [T.addrs]

theorem T.unlock_mem_trav_before {n b : Nat} {lt rt : T} {x : Int}
    (h : Ev.unlock (.node (some n)) ∈ T.trav_before (.node b lt x rt)) : n ∈ lt.addrs := by
  cases lt with
  | nil => simp [T.trav_before] at h
  | node c cl cv cr =>
    simp only [T.trav_before, T.root_node, List.mem_cons, reduceCtorEq, false_or] at h
    exact T.unlock_mem_trav_evs h

theorem T.trav_recs_held : ∀ (t : T) (B : Finset Nat) (l : List Ev), t.addrs.Nodup →
    (∀ x ∈ t.addrs, x ∉ B) →
    ∀ r ∈ T.trav_recs B l t, ∃ es, r.2.2 = l ++ es ∧
      ∀ n ∈ r.2.1, (n ∈ B ∨ n ∈ t.addrs) ∧ Ev.unlock (.node (some n)) ∉ es := by
  intro t
  induction t with
  | nil => intro B l _ _ r hr; simp [T.trav_recs] at hr
  | node b lt x rt ihl ihr =>
    intro B l hd hB r hr
    obtain ⟨hdl, hdr, hal, har, hlr⟩ := T.nodup_node.mp hd
    have hbB : b ∉ B := hB b (by simp [T.addrs])
    have hBl : ∀ y ∈ lt.addrs, y ∉ insert b B := by
      intro y hy hmem
      rcases Finset.mem_insert.mp hmem with h | h
      · exact hal (h ▸ hy)
      · exact hB y (T.mem_addrs_node.mpr (Or.inl hy)) h
    have hBr : ∀ y ∈ rt.addrs, y ∉ insert b B := by
      intro y hy hmem
      rcases Finset.mem_insert.mp hmem with h | h
      · exact har (h ▸ hy)
      · exact hB y (T.mem_addrs_node.mpr (Or.inr (Or.inr hy))) h
    simp only [T.trav_recs, List.mem_append, List.mem_singleton] at hr
    rcases hr with (hr | hr) | hr
    · cases lt with
      | nil => simp at hr
      | node c cl cv cr =>
        simp only [T.root_node] at hr
        obtain ⟨es, h1, h2⟩ := ihl (insert b B) _ hdl hBl r hr
        refine ⟨[.lock (.node (some c))] ++ es, by rw [h1, List.append_assoc], ?_⟩
        intro n hn
        obtain ⟨h3, h4⟩ := h2 n hn
        refine ⟨?_, ?_⟩
        · rcases h3 with h3 | h3
          · rcases Finset.mem_insert.mp h3 with h | h
            · exact Or.inr (by simp [T.addrs, h])
            · exact Or.inl h
          · exact Or.inr (T.mem_addrs_node.mpr (Or.inl h3))
        · simpa using h4
    · subst hr
      refine ⟨T.trav_before (.node b lt x rt), rfl, ?_⟩
      intro n hn
      simp only [Finset.mem_insert] at hn
      refine ⟨?_, ?_⟩
      · rcases hn with h | h
        · exact Or.inr (by simp [T.addrs, h])
        · exact Or.inl h
      · intro hmem
        have hnl := T.unlock_mem_trav_before hmem
        rcases hn with h | h
        · exact hal (h ▸ hnl)
        · exact hB n (T.mem_addrs_node.mpr (Or.inl hnl)) h
    · cases rt with
      | nil => simp at hr
      | node c cl cv cr =>
        simp only [T.root_node] at hr
        obtain ⟨es, h1, h2⟩ := ihr (insert b B) _ hdr hBr r hr
        refine ⟨T.trav_before (.node b lt x (.node c cl cv cr)) ++
          [.lock (.node (some c))] ++ es, by rw [h1]; simp only [List.append_assoc], ?_⟩
        intro n hn
        obtain ⟨h3, h4⟩ := h2 n hn
        have h5 : n ∉ lt.addrs := by
          intro hnl
          rcases h3 with h3 | h3
          · exact hBl n hnl h3
          · exact hlr n hnl h3
        refine ⟨?_, ?_⟩
        · rcases h3 with h3 | h3
          · rcases Finset.mem_insert.mp h3 with h | h
            · exact Or.inr (by simp [T.addrs, h])
            · exact Or.inl h
          · exact Or.inr (T.mem_addrs_node.mpr (Or.inr (Or.inr h3)))
        · simp only [List.mem_append, List.mem_singleton, reduceCtorEq, or_false, not_or]
          exact ⟨fun h => h5 (T.unlock_mem_trav_before h), h4⟩

theorem T.trav_recs_nodes : ∀ (t : T) (B : Finset Nat) (l : List Ev),
    (T.trav_recs B l t).map (fun r => (r.1, r.2.1)) =
      (T.with_ancestors B t).map (fun p => (some p.1, p.2)) := by
  intro t
  induction t with
  | nil => intro B l; simp [T.trav_recs, T.with_ancestors]
  | node b lt x rt ihl ihr =>
    intro B l
    simp only [T.trav_recs, T.with_ancestors, List.map_append, List.map_cons, List.map_nil]
    congr 1
    · congr 1
      cases lt with
      | nil => simp [T.with_ancestors]
      | node c cl cv cr => exact ihl _ _
    · cases rt with
      | nil => simp [T.with_ancestors]
      | node c cl cv cr => exact ihr _ _

/-- C26: the locks held during a `FINE_LOCK` traversal.  On every tree reached by a
single-threaded run, `Tree_Traverse` with the visit function `record_held` returns and
visits the nodes in order; at the call of the visit function on a node `n` the node
locks held are exactly those of `n` and of the ancestors of `n` (`T.with_ancestors`);
for every node `m` whose lock is held at that moment, that is `n` and each ancestor of
`n`, the lock calls made since the traversal began hold no `unlock` of `m`, so the lock
of a node is released only after the visits of all nodes below it; and when the
traversal returns no node lock is held. -/
theorem C26_traverse_holds_path_locks (ops : List Op) :
    ∃ w w' vs, reach .FineGrained ops = .ok w ∧
      Tree_Traverse (dispatch .FineGrained) w record_held [] = .ok (w', vs) ∧
      vs.map (fun r => (r.1, r.2.1)) =
        (T.with_ancestors ∅ w.abs).map (fun p => (some p.1, p.2)) ∧
      (∀ r ∈ vs, ∃ es, r.2.2 = w.log ++ es ∧
        ∀ n ∈ r.2.1, Ev.unlock (.node (some n)) ∉ es) ∧
      (∀ a, w'.held a = false) := by
  obtain ⟨w, t, h1, h2⟩ := reach_ok .FineGrained ops
  have habs : w.abs = t := h2.holds.abs_eq
  have hd : t.addrs.Nodup := h2.holds.nodup
  have hL := local_tree_traverse_fine_L h2 record_held []
  have hst : ∀ x ∈ t.addrs, x < w.brk ∧ w.mem x ≠ none := by
    intro x hx
    obtain ⟨n, hn⟩ := h2.holds.rep.get hx
    exact ⟨h2.holds.lt_brk x hx, by simp [hn]⟩
  have hheld : ∀ (l : List Ev) (a : Nat), (W w w.mem ∅ l).held a = false := by
    intro l a
    have := held_relock (w := W w w.mem ∅ l) (M := w.mem) (H := ∅) rfl a
    simpa using this
  cases t with
  | nil =>
    refine ⟨w, _, _, h1, hL, ?_, ?_, hheld _⟩
    · rw [habs]; simp [T.with_ancestors]
    · intro r hr; simp at hr
  | node a lt x rt =>
    simp only [T.root_node] at hL
    rw [trav_fold_record _ _ _ _ hst (by simp)] at hL
    refine ⟨w, _, _, h1, hL, ?_, ?_, hheld _⟩
    · rw [habs]
      simp only [List.nil_append]
      exact T.trav_recs_nodes _ _ _
    · intro r hr
      simp only [List.nil_append] at hr
      obtain ⟨es, e1, e2⟩ := T.trav_recs_held _ ∅ _ hd (by simp) r hr
      refine ⟨[.lock (.node (some a))] ++ es, by rw [e1, List.append_assoc], ?_⟩
      intro n hn
      simpa using (e2 n hn).2

theorem Rep.parOK {M : Nat → Option i_element_t} :
    ∀ {t : T} {p0 : Ptr}, Rep M t p0 → T.ParOK (fun c => (M c).bind (fun n => n.parent)) t := by
  intro t
  induction t with
  | nil => intro _ _; trivial
  | node b l x r ihl ihr =>
    intro p0 h
    obtain ⟨n, hn, hv, hl, hr, hp, hL, hR⟩ := h
    refine ⟨?_, ?_, ihl hL, ihr hR⟩
    · intro c hc
      cases l with
      | nil => simp at hc
      | node d dl dv dr =>
        simp only [T.root_node, Option.some.injEq] at hc
        subst hc
        obtain ⟨nd, hnd, -, -, -, hdp, -⟩ := hL
        simp [hnd, hdp]
    · intro c hc
      cases r with
      | nil => simp at hc
      | node d dl dv dr =>
        simp only [T.root_node, Option.some.injEq] at hc
        subst hc
        obtain ⟨nd, hnd, -, -, -, hdp, -⟩ := hR
        simp [hnd, hdp]

theorem pf_lock (par : Nat → Ptr) (root fresh : Ptr) (H : List Nat) (c : Nat) (es : List Ev) :
    parent_first par root fresh H (.lock (.node (some c)) :: es) =
      (((H.isEmpty && decide (root = some c)) || decide (fresh = some c) ||
        (match par c with
          | some p => decide (p ∈ H)
          | none => false)) &&
      parent_first par root fresh (c :: H) es) := rfl

theorem pf_unlock (par : Nat → Ptr) (root fresh : Ptr) (H : List Nat) (a : Nat) (es : List Ev) :
    parent_first par root fresh H (.unlock (.node (some a)) :: es) =
      parent_first par root fresh (H.filter (fun x => x ≠ a)) es := rfl

theorem pf_lock_of_parent (par : Nat → Ptr) (root fresh : Ptr) {H : List Nat} {c p : Nat} {es : List Ev} (h1 : par c = some p)
    (h2 : p ∈ H) (h3 : parent_first par root fresh (c :: H) es = true) :
    parent_first par root fresh H (.lock (.node (some c)) :: es) = true := by
  rw [pf_lock, h3, h1]
  simp [h2]

theorem pf_append (par : Nat → Ptr) (root fresh : Ptr) (H : List Nat) (es fs : List Ev) :
    parent_first par root fresh H (es ++ fs) =
      (parent_first par root fresh H es &&
        parent_first par root fresh (held_after H es) fs) := by
  induction es generalizing H with
  | nil => simp [parent_first, held_after]
  | cons e es ih =>
    cases e with
    | lock m =>
      cases m with
      | node p =>
        cases p with
        | none => simp [parent_first, held_after, ih]
        | some c => simp [parent_first, held_after, ih, Bool.and_assoc]
      | tree => simp [parent_first, held_after, ih]
    | unlock m =>
      cases m with
      | node p => cases p <;> simp [parent_first, held_after, ih]
      | tree => simp [parent_first, held_after, ih]
    | rdlock => simp [parent_first, held_after, ih]
    | wrlock => simp [parent_first, held_after, ih]
    | rw_unlock => simp [parent_first, held_after, ih]

theorem pf_append_of (par : Nat → Ptr) (root fresh : Ptr) {H : List Nat} {es fs : List Ev}
    (h1 : parent_first par root fresh H es = true)
    (h2 : parent_first par root fresh (held_after H es) fs = true) :
    parent_first par root fresh H (es ++ fs) = true := by
  rw [pf_append, h1, h2]; rfl

theorem pf_optUnlock (par : Nat → Ptr) (root fresh : Ptr) (H : List Nat) (q : Ptr) :
    parent_first par root fresh H (optUnlock q) = true := by
  cases q <;> rfl

theorem mem_held_after {x : Nat} : ∀ (es : List Ev) (H : List Nat), x ∈ H →
    Ev.unlock (.node (some x)) ∉ es → x ∈ held_after H es := by
  intro es
  induction es with
  | nil => intro H h _; exact h
  | cons e es ih =>
    intro H h hn
    have hn' : Ev.unlock (.node (some x)) ∉ es := fun h' => hn (List.mem_cons_of_mem _ h')
    cases e with
    | lock m =>
      cases m with
      | node p =>
        cases p with
        | none => exact ih H h hn'
        | some c => exact ih (c :: H) (List.mem_cons_of_mem _ h) hn'
      | tree => exact ih H h hn'
    | unlock m =>
      cases m with
      | node p =>
        cases p with
        | none => exact ih H h hn'
        | some c =>
          have hxc : x ≠ c := by
            intro hxc
            exact hn (by simp [hxc])
          exact ih _ (List.mem_filter.mpr ⟨h, by simpa using hxc⟩) hn'
      | tree => exact ih H h hn'
    | rdlock => exact ih H h hn'
    | wrlock => exact ih H h hn'
    | rw_unlock => exact ih H h hn'

theorem held_after_optLock (H : List Nat) (q : Ptr) {x : Nat} (h : x ∈ H) :
    x ∈ held_after H (optLock q) := by
  cases q with
  | none => exact h
  | some e => exact List.mem_cons_of_mem _ h

theorem root_mem_held_after_optLock (H : List Nat) {q : Ptr} {x : Nat} (h : q = some x) :
    x ∈ held_after H (optLock q) := by
  subst h
  exact List.mem_cons_self _ _

theorem pf_optLock (par : Nat → Ptr) (root fresh : Ptr) {H : List Nat} {q : Ptr} {m : Nat} (hm : m ∈ H)
    (hq : ∀ c, q = some c → par c = some m) :
    parent_first par root fresh H (optLock q) = true := by
  cases q with
  | none => rfl
  | some e => exact pf_lock_of_parent par root fresh (hq e rfl) hm rfl

theorem pf_ins_evs (par : Nat → Ptr) (root fresh : Ptr) {v : Int} : ∀ (t : T) (c P : Nat) (H : List Nat), t.root = some c →
    T.ParOK par t → t.addrs.Nodup → (P = c ∨ P ∉ t.addrs) → c ∈ H →
    parent_first par root fresh H (T.ins_evs v t P) = true := by
  intro t
  induction t with
  | nil => intro c _ _ h; simp at h
  | node b l x r ihl ihr =>
    intro c P H hroot hpar hd hP hc
    simp only [T.root_node, Option.some.injEq] at hroot
    subst hroot
    obtain ⟨hpl, hpr, hol, hor⟩ := hpar
    obtain ⟨hdl, hdr, hal, har, -⟩ := T.nodup_node.mp hd
    simp only [T.ins_evs]
    have key : ∀ (H1 : List Nat), b ∈ H1 →
        parent_first par root fresh H1
          (if x > v then
            (match l.root with
              | none => []
              | some c => .lock (.node (some c)) :: T.ins_evs v l b)
          else
            (match r.root with
              | none => []
              | some c => .lock (.node (some c)) :: T.ins_evs v r b)) = true := by
      intro H1 hb
      by_cases hg : x > v
      · simp only [hg, if_true]
        cases l with
        | nil => rfl
        | node d dl dv dr =>
          exact pf_lock_of_parent par root fresh (hpl d rfl) hb
            (ihl d b _ rfl hol hdl (Or.inr hal) (List.mem_cons_self _ _))
      · simp only [hg, if_false]
        cases r with
        | nil => rfl
        | node d dl dv dr =>
          exact pf_lock_of_parent par root fresh (hpr d rfl) hb
            (ihr d b _ rfl hor hdr (Or.inr har) (List.mem_cons_self _ _))
    by_cases hPb : P = b
    · simp only [hPb, ne_eq, not_true_eq_false, if_false, List.nil_append]
      exact key H hc
    · simp only [ne_eq, hPb, not_false_eq_true, if_true, List.singleton_append, pf_unlock]
      exact key _ (List.mem_filter.mpr ⟨hc, by simpa using fun h : b = P => hPb h.symm⟩)

theorem pf_lookup_evs (par : Nat → Ptr) (root fresh : Ptr) {v : Int} : ∀ (t : T) (c : Nat) (H : List Nat), t.root = some c →
    T.ParOK par t → t.addrs.Nodup → c ∈ H →
    parent_first par root fresh H (T.lookup_evs v t) = true := by
  intro t
  induction t with
  | nil => intro c _ h; simp at h
  | node b l x r ihl ihr =>
    intro c H hroot hpar hd hc
    simp only [T.root_node, Option.some.injEq] at hroot
    subst hroot
    obtain ⟨hpl, hpr, hol, hor⟩ := hpar
    obtain ⟨hdl, hdr, hal, har, -⟩ := T.nodup_node.mp hd
    simp only [T.lookup_evs]
    by_cases hxv : x = v
    · simp [hxv, parent_first]
    · simp only [ne_eq, hxv, not_false_eq_true, if_true]
      by_cases hg : x > v
      · simp only [hg, if_true]
        cases l with
        | nil => rfl
        | node d dl dv dr =>
          have hdb : d ≠ b := fun h => hal (by simp [T.addrs, h])
          refine pf_lock_of_parent par root fresh (hpl d rfl) hc ?_
          rw [pf_unlock]
          exact ihl d _ rfl hol hdl (List.mem_filter.mpr ⟨List.mem_cons_self _ _, by simpa using hdb⟩)
      · simp only [hg, if_false]
        cases r with
        | nil => rfl
        | node d dl dv dr =>
          have hdb : d ≠ b := fun h => har (by simp [T.addrs, h])
          refine pf_lock_of_parent par root fresh (hpr d rfl) hc ?_
          rw [pf_unlock]
          exact ihr d _ rfl hor hdr (List.mem_filter.mpr ⟨List.mem_cons_self _ _, by simpa using hdb⟩)

theorem pf_trav_evs (par : Nat → Ptr) (root fresh : Ptr) : ∀ (t : T) (c : Nat) (H : List Nat), t.root = some c →
    T.ParOK par t → t.addrs.Nodup → c ∈ H →
    parent_first par root fresh H (T.trav_evs t) = true := by
  intro t
  induction t with
  | nil => intro c _ h; simp at h
  | node b l x r ihl ihr =>
    intro c H hroot hpar hd hc
    simp only [T.root_node, Option.some.injEq] at hroot
    subst hroot
    obtain ⟨hpl, hpr, hol, hor⟩ := hpar
    obtain ⟨hdl, hdr, hal, har, -⟩ := T.nodup_node.mp hd
    have hleft : ∀ H1 : List Nat, b ∈ H1 →
        parent_first par root fresh H1 (match l.root with
          | none => []
          | some c => .lock (.node (some c)) :: T.trav_evs l) = true ∧
        b ∈ held_after H1 (match l.root with
          | none => []
          | some c => .lock (.node (some c)) :: T.trav_evs l) := by
      intro H1 hb
      cases l with
      | nil => exact ⟨rfl, hb⟩
      | node d dl dv dr =>
        refine ⟨pf_lock_of_parent par root fresh (hpl d rfl) hb
          (ihl d _ rfl hol hdl (List.mem_cons_self _ _)), ?_⟩
        refine mem_held_after _ _ hb ?_
        simp only [T.root_node, List.mem_cons, reduceCtorEq, false_or]
        exact fun h => hal (T.unlock_mem_trav_evs h)
    have hright : ∀ H1 : List Nat, b ∈ H1 →
        parent_first par root fresh H1 (match r.root with
          | none => []
          | some c => .lock (.node (some c)) :: T.trav_evs r) = true := by
      intro H1 hb
      cases r with
      | nil => rfl
      | node d dl dv dr =>
        exact pf_lock_of_parent par root fresh (hpr d rfl) hb
          (ihr d _ rfl hor hdr (List.mem_cons_self _ _))
    simp only [T.trav_evs]
    obtain ⟨h1, h2⟩ := hleft H hc
    exact pf_append_of par root fresh (pf_append_of par root fresh h1 (hright _ h2)) rfl

theorem pf_del_evs (par : Nat → Ptr) (root fresh : Ptr) {v : Int} : ∀ (t : T) (c : Nat) (q : Ptr) (H : List Nat), t.root = some c →
    T.ParOK par t → t.addrs.Nodup → c ∈ H → (∀ p, q = some p → p ∈ H ∧ p ∉ t.addrs) →
    parent_first par root fresh H (T.del_evs v t q) = true ∧
      ∀ m, T.find v t = some m → m ∈ held_after H (T.del_evs v t q) ∧
        ∀ p, T.findPar v t q = some p → p ∈ held_after H (T.del_evs v t q) := by
  intro t
  induction t with
  | nil => intro c _ _ h; simp at h
  | node b l x r ihl ihr =>
    intro c q H hroot hpar hd hc hq
    simp only [T.root_node, Option.some.injEq] at hroot
    subst hroot
    obtain ⟨hpl, hpr, hol, hor⟩ := hpar
    obtain ⟨hdl, hdr, hal, har, -⟩ := T.nodup_node.mp hd
    by_cases hxv : x = v
    · simp only [T.del_evs, T.find, T.findPar, hxv, ne_eq, not_true_eq_false, if_false,
        Option.some.injEq]
      refine ⟨rfl, ?_⟩
      intro m hm
      subst hm
      exact ⟨hc, fun p hp => (hq p hp).1⟩
    · simp only [T.del_evs, T.find, T.findPar, ne_eq, hxv, not_false_eq_true, if_true]
      have hb1 : b ∈ held_after H (optUnlock q) := by
        cases q with
        | none => exact hc
        | some p =>
          have hpb : b ≠ p := fun h => (hq p rfl).2 (by simp [T.addrs, h])
          exact List.mem_filter.mpr ⟨hc, by simpa using hpb⟩
      rw [pf_append, pf_optUnlock, Bool.true_and, held_after_append]
      generalize held_after H (optUnlock q) = H1 at hb1
      by_cases hg : x > v
      · simp only [hg, if_true]
        cases l with
        | nil =>
          refine ⟨rfl, ?_⟩
          intro m hm
          simp [T.find] at hm
        | node d dl dv dr =>
          obtain ⟨i1, i2⟩ := ihl d (some b) (d :: H1) rfl hol hdl (List.mem_cons_self _ _)
            (by
              intro p hp
              cases hp
              exact ⟨List.mem_cons_of_mem _ hb1, hal⟩)
          exact ⟨pf_lock_of_parent par root fresh (hpl d rfl) hb1 i1, i2⟩
      · simp only [hg, if_false]
        cases r with
        | nil =>
          refine ⟨rfl, ?_⟩
          intro m hm
          simp [T.find] at hm
        | node d dl dv dr =>
          obtain ⟨i1, i2⟩ := ihr d (some b) (d :: H1) rfl hor hdr (List.mem_cons_self _ _)
            (by
              intro p hp
              cases hp
              exact ⟨List.mem_cons_of_mem _ hb1, har⟩)
          exact ⟨pf_lock_of_parent par root fresh (hpr d rfl) hb1 i1, i2⟩

namespace T

theorem ParOK_graft {par : Nat → Ptr} (s : T) (ev : Int) :
    ∀ {t : T}, T.ParOK par (T.graft s ev t) → T.ParOK par t := by
  intro t
  induction t with
  | nil => intro _; trivial
  | node b l x r ihl ihr =>
    intro h
    simp only [T.graft] at h
    by_cases hg : x > ev
    · simp only [hg, if_true] at h
      obtain ⟨h1, h2, h3, h4⟩ := h
      refine ⟨?_, h2, ihl h3, h4⟩
      intro c hc
      apply h1
      rw [T.graft_root s ev (by intro h; subst h; simp at hc)]
      exact hc
    · simp only [hg, if_false] at h
      obtain ⟨h1, h2, h3, h4⟩ := h
      refine ⟨h1, ?_, h3, ihr h4⟩
      intro c hc
      apply h2
      rw [T.graft_root s ev (by intro h; subst h; simp at hc)]
      exact hc

theorem ParOK_join {par : Nat → Ptr} {L R : T} (h : T.ParOK par (T.join L R)) :
    T.ParOK par L := by
  cases R with
  | nil => exact h
  | node e rl ev rr => exact ParOK_graft _ _ h

theorem join_root_of_left {L R : T} {c : Nat} (h : L.root = some c) :
    (T.join L R).root = some c := by
  cases R with
  | nil => exact h
  | node e rl ev rr =>
    simp only [T.join]
    rw [T.graft_root _ _ (by intro h'; subst h'; simp at h)]
    exact h

theorem sub_at_of_find_none {v : Int} : ∀ {t : T}, T.find v t = none → T.sub_at v t = .nil := by
  intro t
  induction t with
  | nil => intro _; rfl
  | node a l x r ihl ihr =>
    intro hf
    by_cases hxv : x = v
    · simp [T.find, hxv] at hf
    · simp only [T.find, ne_eq, hxv, not_false_eq_true, if_true] at hf
      simp only [T.sub_at, ne_eq, hxv, not_false_eq_true, if_true]
      by_cases hg : x > v
      · simp only [hg, if_true] at hf ⊢; exact ihl hf
      · simp only [hg, if_false] at hf ⊢; exact ihr hf

theorem find_mem {v : Int} {m : Nat} : ∀ {t : T}, T.find v t = some m → m ∈ t.addrs := by
  intro t
  induction t with
  | nil => intro h; simp [T.find] at h
  | node a l x r ihl ihr =>
    intro hf
    by_cases hxv : x = v
    · simp only [T.find, hxv, ne_eq, not_true_eq_false, if_false, Option.some.injEq] at hf
      subst hf; simp [T.addrs]
    · simp only [T.find, ne_eq, hxv, not_false_eq_true, if_true] at hf
      by_cases hg : x > v
      · simp only [hg, if_true] at hf
        exact T.mem_addrs_node.mpr (Or.inl (ihl hf))
      · simp only [hg, if_false] at hf
        exact T.mem_addrs_node.mpr (Or.inr (Or.inr (ihr hf)))

theorem inner_shape {v : Int} {m : Nat} : ∀ (t : T) (q : Ptr), t.addrs.Nodup →
    t.root ≠ some m → T.find v t = some m →
    ∃ p L R P xm, T.findPar v t q = some p ∧ T.sub_at v t = .node m L xm R ∧
      T.splice_evs v t = T.inner_evs m L R P p ∧ P.root = some p ∧ P.addrs.Nodup ∧
      L.root ≠ some p ∧ (∀ par, T.ParOK par (T.del v t) → T.ParOK par P) ∧
      (∀ par, T.ParOK par t → T.ParOK par (.node m L xm R)) := by
  intro t
  induction t with
  | nil => intro _ _ _ h; simp [T.find] at h
  | node a l x r ihl ihr =>
    intro q hd hroot hfind
    have hxv : x ≠ v := by
      intro h
      simp only [T.find, h, ne_eq, not_true_eq_false, if_false] at hfind
      exact hroot hfind
    obtain ⟨hdl, hdr, hal, har, hlr⟩ := T.nodup_node.mp hd
    simp only [T.find, ne_eq, hxv, not_false_eq_true, if_true] at hfind
    simp only [T.findPar, T.splice_evs, T.sub_at, T.del, ne_eq, hxv, not_false_eq_true, if_true]
    by_cases hg : x > v
    · simp only [hg, if_true] at hfind ⊢
      cases l with
      | nil => simp [T.find] at hfind
      | node c L lv R =>
        by_cases hlv : lv = v
        · subst hlv
          simp only [T.find, ne_eq, not_true_eq_false, if_false, Option.some.injEq] at hfind
          subst hfind
          obtain ⟨hdL, hdR, hcL, hcR, hLR⟩ := T.nodup_node.mp hdl
          have haL : a ∉ L.addrs := fun h => hal (T.mem_addrs_node.mpr (Or.inl h))
          refine ⟨a, L, R, .node a L x r, lv, ?_, ?_, ?_, rfl, ?_, ?_, ?_, ?_⟩
          · simp [T.findPar]
          · simp [T.sub_at]
          · simp
          · exact T.nodup_node.mpr ⟨hdL, hdr, haL, har,
              fun y hy => hlr y (T.mem_addrs_node.mpr (Or.inl hy))⟩
          · exact fun h => haL (T.root_mem_addrs h)
          · intro par h
            simp only [T.del, ne_eq, not_true_eq_false, if_false] at h
            obtain ⟨h1, h2, h3, h4⟩ := h
            exact ⟨fun d hd' => h1 d (join_root_of_left hd'), h2, ParOK_join h3, h4⟩
          · intro par h
            exact h.2.2.1
        · have hroot' : (T.node c L lv R).root ≠ some m := by
            intro h
            simp only [T.root_node, Option.some.injEq] at h
            subst h
            simp only [T.find, ne_eq, hlv, not_false_eq_true, if_true] at hfind
            have hm : c ∈ (T.del v (T.node c L lv R)).addrs :=
              T.root_mem_addrs (T.del_root (a := c) (l := L) (r := R) hlv)
            have hfind' : T.find v (T.node c L lv R) = some c := by
              simp only [T.find, ne_eq, hlv, not_false_eq_true, if_true]; exact hfind
            have hp := (T.addrs_del_perm hfind').nodup_iff.mp hdl
            exact (List.nodup_cons.mp hp).1 hm
          obtain ⟨p, L', R', P, xm, e1, e2, e3, e4, e5, e6, e7, e8⟩ :=
            ihl (some a) hdl hroot' hfind
          simp only [hlv, if_false]
          exact ⟨p, L', R', P, xm, e1, e2, e3, e4, e5, e6, fun par h => e7 par h.2.2.1,
            fun par h => e8 par h.2.2.1⟩
    · simp only [hg, if_false] at hfind ⊢
      cases r with
      | nil => simp [T.find] at hfind
      | node c L rv R =>
        by_cases hrv : rv = v
        · subst hrv
          simp only [T.find, ne_eq, not_true_eq_false, if_false, Option.some.injEq] at hfind
          subst hfind
          obtain ⟨hdL, hdR, hcL, hcR, hLR⟩ := T.nodup_node.mp hdr
          have haL : a ∉ L.addrs :=
            fun h => har (T.mem_addrs_node.mpr (Or.inl h))
          refine ⟨a, L, R, .node a l x L, rv, ?_, ?_, ?_, rfl, ?_, ?_, ?_, ?_⟩
          · simp [T.findPar]
          · simp [T.sub_at]
          · simp
          · exact T.nodup_node.mpr ⟨hdl, hdL, hal, haL,
              fun y hy h => hlr y hy (T.mem_addrs_node.mpr (Or.inl h))⟩
          · exact fun h => haL (T.root_mem_addrs h)
          · intro par h
            simp only [T.del, ne_eq, not_true_eq_false, if_false] at h
            obtain ⟨h1, h2, h3, h4⟩ := h
            exact ⟨h1, fun d hd' => h2 d (join_root_of_left hd'), h3, ParOK_join h4⟩
          · intro par h
            exact h.2.2.2
        · have hroot' : (T.node c L rv R).root ≠ some m := by
            intro h
            simp only [T.root_node, Option.some.injEq] at h
            subst h
            simp only [T.find, ne_eq, hrv, not_false_eq_true, if_true] at hfind
            have hm : c ∈ (T.del v (T.node c L rv R)).addrs :=
              T.root_mem_addrs (T.del_root (a := c) (l := L) (r := R) hrv)
            have hfind' : T.find v (T.node c L rv R) = some c := by
              simp only [T.find, ne_eq, hrv, not_false_eq_true, if_true]; exact hfind
            have hp := (T.addrs_del_perm hfind').nodup_iff.mp hdr
            exact (List.nodup_cons.mp hp).1 hm
          obtain ⟨p, L', R', P, xm, e1, e2, e3, e4, e5, e6, e7, e8⟩ :=
            ihr (some a) hdr hroot' hfind
          simp only [hrv, if_false]
          exact ⟨p, L', R', P, xm, e1, e2, e3, e4, e5, e6, fun par h => e7 par h.2.2.2,
            fun par h => e8 par h.2.2.2⟩

end T

theorem lockUnlock_eq (q : Ptr) : lockUnlock q = optLock q ++ optUnlock q := by
  cases q <;> rfl

theorem pf_reinsert (par : Nat → Ptr) (root fresh : Ptr) (R P : T) (p m : Nat) (H : List Nat)
    (hroot : P.root = some p) (hpar : T.ParOK par P) (hd : P.addrs.Nodup) (hp : p ∈ H) :
    parent_first par root fresh H (T.reinsert_evs R P p ++ [.unlock (.node (some m))]) =
      true := by
  cases R with
  | nil => rfl
  | node e rl ev rr =>
    simp only [T.reinsert_evs]
    refine pf_append_of par root fresh (pf_append_of par root fresh
      (pf_ins_evs par root fresh P p p H hroot hpar hd (Or.inl rfl) hp) ?_) rfl
    cases T.slot ev P P.root <;> rfl

theorem held_del_evs {v : Int} : ∀ (t : T) (c : Nat) (q : Ptr) (H : List Nat),
    t.root = some c → t.addrs.Nodup → c ∈ H → (∀ p, q = some p → p ∈ H ∧ p ∉ t.addrs) →
    ∀ m, T.find v t = some m → m ∈ held_after H (T.del_evs v t q) ∧
      ∀ p, T.findPar v t q = some p → p ∈ held_after H (T.del_evs v t q) := by
  intro t
  induction t with
  | nil => intro c _ _ h; simp at h
  | node b l x r ihl ihr =>
    intro c q H hroot hd hc hq
    simp only [T.root_node, Option.some.injEq] at hroot
    subst hroot
    obtain ⟨hdl, hdr, hal, har, -⟩ := T.nodup_node.mp hd
    by_cases hxv : x = v
    · simp only [T.del_evs, T.find, T.findPar, hxv, ne_eq, not_true_eq_false, if_false,
        Option.some.injEq]
      intro m hm
      subst hm
      exact ⟨hc, fun p hp => (hq p hp).1⟩
    · simp only [T.del_evs, T.find, T.findPar, ne_eq, hxv, not_false_eq_true, if_true]
      have hb1 : b ∈ held_after H (optUnlock q) := by
        cases q with
        | none => exact hc
        | some p =>
          have hpb : b ≠ p := fun h => (hq p rfl).2 (by simp [T.addrs, h])
          exact List.mem_filter.mpr ⟨hc, by simpa using hpb⟩
      rw [held_after_append]
      generalize held_after H (optUnlock q) = H1 at hb1
      by_cases hg : x > v
      · simp only [hg, if_true]
        cases l with
        | nil =>
          intro m hm
          simp [T.find] at hm
        | node d dl dv dr =>
          exact ihl d (some b) (d :: H1) rfl hdl (List.mem_cons_self _ _)
            (by
              intro p hp
              cases hp
              exact ⟨List.mem_cons_of_mem _ hb1, hal⟩)
      · simp only [hg, if_false]
        cases r with
        | nil =>
          intro m hm
          simp [T.find] at hm
        | node d dl dv dr =>
          exact ihr d (some b) (d :: H1) rfl hdr (List.mem_cons_self _ _)
            (by
              intro p hp
              cases hp
              exact ⟨List.mem_cons_of_mem _ hb1, har⟩)

theorem T.delete_split (v : Int) : ∀ (t : T), t.addrs.Nodup →
    ∃ post, T.delete_log v t = T.delete_pre v t ++ post ∧
      (∀ par, T.ParOK par t → parent_first par t.root none [] (T.delete_pre v t) = true) ∧
      (∀ par, T.ParOK par (T.del v t) →
        parent_first par none none (held_after [] (T.delete_pre v t)) post = true) := by
  intro t hd
  cases t with
  | nil => exact ⟨[], by simp [T.delete_log, T.delete_pre, T.path, descent, T.sub_at, optUnlock],
      fun _ _ => rfl, fun _ _ => rfl⟩
  | node a l x r =>
    obtain ⟨hdl, hdr, hal, har, hlr⟩ := T.nodup_node.mp hd
    have hE := T.del_evs_root v a l r x
    have hEpf : ∀ par, T.ParOK par (.node a l x r) →
        parent_first par (some a) none []
          (.lock (.node (some a)) :: T.del_evs v (.node a l x r) none) = true := by
      intro par hpar
      obtain ⟨i1, -⟩ := pf_del_evs par (some a) none (v := v) (.node a l x r) a none [a] rfl
        hpar hd (List.mem_cons_self _ _) (by intro p hp; cases hp)
      rw [pf_lock, i1]
      simp
    have hEm : ∀ m, T.find v (.node a l x r) = some m →
        m ∈ held_after [] (.lock (.node (some a)) :: T.del_evs v (.node a l x r) none) ∧
        ∀ p, T.findPar v (.node a l x r) none = some p →
          p ∈ held_after [] (.lock (.node (some a)) :: T.del_evs v (.node a l x r) none) :=
      held_del_evs (v := v) (.node a l x r) a none [a] rfl hd (List.mem_cons_self _ _)
        (by intro p hp; cases hp)
    cases hf : T.find v (.node a l x r) with
    | none =>
      have hxv : x ≠ v := by
        intro hxv
        simp [T.find, hxv] at hf
      have hpre : T.delete_pre v (.node a l x r) =
          .lock (.node (some a)) :: T.del_evs v (.node a l x r) none := by
        rw [hE, T.delete_pre, T.sub_at_of_find_none hf, hf]
        simp
      refine ⟨[], ?_, ?_, fun _ _ => rfl⟩
      · rw [hpre, T.delete_log]
        simp only [hxv, if_false, T.splice_evs_of_find_none hf, List.append_nil]
      · intro par hpar
        rw [hpre]
        exact hEpf par hpar
    | some m =>
      rw [hf] at hE
      simp only [Option.isSome_some, reduceCtorEq, if_false, List.append_nil] at hE
      by_cases hxv : x = v
      · -- the match is the root
        have hm : m = a := by
          simp only [T.find, hxv, ne_eq, not_true_eq_false, if_false, Option.some.injEq] at hf
          exact hf.symm
        subst hm
        have hdel0 : T.del_evs v (.node m l x r) none = [] := by
          simp [T.del_evs, hxv]
        have hpre : T.delete_pre v (.node m l x r) =
            [.lock (.node (some m))] ++ optLock r.root ++ optLock l.root := by
          rw [T.delete_pre, hf, Option.isSome_some, ← hE, hdel0]
          simp [T.sub_at, hxv]
        have hprepf : ∀ par, T.ParOK par (.node m l x r) →
            parent_first par (some m) none [] (T.delete_pre v (.node m l x r)) = true := by
          intro par hpar
          rw [hpre]
          refine pf_append_of par _ _ (pf_append_of par _ _ (by simp [parent_first]) ?_) ?_
          · exact pf_optLock par _ _ (m := m) (List.mem_cons_self _ _) hpar.2.1
          · exact pf_optLock par _ _ (m := m)
              (held_after_optLock _ _ (List.mem_cons_self _ _)) hpar.1
        cases l with
        | nil =>
          refine ⟨optUnlock r.root ++ [.unlock (.node (some m))], ?_, hprepf, ?_⟩
          · rw [hpre, T.delete_log, hdel0]
            simp only [hxv, if_true, T.root_evs, T.root_nil, lockUnlock_eq, optLock,
              List.append_assoc, List.nil_append, List.singleton_append, List.cons_append,
              List.append_nil]
          · intro par _
            exact pf_append_of par _ _ (pf_optUnlock par _ _ _ _) rfl
        | node b bl bv br =>
          refine ⟨T.reinsert_evs r (.node b bl bv br) b ++ [.unlock (.node (some m))],
            ?_, hprepf, ?_⟩
          · rw [hpre, T.delete_log, hdel0]
            simp only [hxv, if_true, T.root_evs, T.root_node, optLock,
              List.append_assoc, List.nil_append, List.singleton_append, List.cons_append,
              List.append_nil]
          · intro par hpar
            have hdelj : T.del v (.node m (.node b bl bv br) x r) =
                T.join (.node b bl bv br) r := by simp [T.del, hxv]
            rw [hdelj] at hpar
            refine pf_reinsert par _ _ _ _ b m _ rfl (T.ParOK_join hpar) hdl ?_
            rw [hpre, held_after_append]
            exact root_mem_held_after_optLock _ rfl
      · -- the match is below the root
        have hroot : (T.node a l x r).root ≠ some m := by
          intro h
          simp only [T.root_node, Option.some.injEq] at h
          subst h
          have hp := (T.addrs_del_perm hf).nodup_iff.mp hd
          exact (List.nodup_cons.mp hp).1 (T.root_mem_addrs (T.del_root hxv))
        obtain ⟨p, L, R, P, xm, e1, e2, e3, e4, e5, e6, e7, e8⟩ :=
          T.inner_shape (v := v) (T.node a l x r) none hd hroot hf
        have hpre : T.delete_pre v (.node a l x r) =
            (.lock (.node (some a)) :: T.del_evs v (.node a l x r) none) ++
              (optLock R.root ++ optLock L.root) := by
          rw [T.delete_pre, hf, Option.isSome_some, ← hE, e2]
        refine ⟨optUnlock L.root ++ (T.reinsert_evs R P p ++ [.unlock (.node (some m))]),
          ?_, ?_, ?_⟩
        · rw [hpre, T.delete_log]
          simp only [hxv, if_false, e3, T.inner_evs, lockUnlock_eq, List.append_assoc]
        · intro par hpar
          obtain ⟨i3, -⟩ := hEm m hf
          have hsub := e8 par hpar
          rw [hpre]
          refine pf_append_of par _ _ (hEpf par hpar) (pf_append_of par _ _ ?_ ?_)
          · exact pf_optLock par _ _ i3 hsub.2.1
          · exact pf_optLock par _ _ (held_after_optLock _ _ i3) hsub.1
        · intro par hpar
          obtain ⟨-, i4⟩ := hEm m hf
          have hp0 : p ∈ held_after [] (T.delete_pre v (.node a l x r)) := by
            rw [hpre, held_after_append, held_after_append]
            exact held_after_optLock _ _ (held_after_optLock _ _ (i4 p e1))
          have hp1 : p ∈ held_after (held_after [] (T.delete_pre v (.node a l x r)))
              (optUnlock L.root) := by
            cases hL : L.root with
            | none => exact hp0
            | some c =>
              have hpc : p ≠ c := fun h => e6 (by rw [hL, h])
              exact List.mem_filter.mpr ⟨hp0, by simpa using hpc⟩
          exact pf_append_of par _ _ (pf_optUnlock par _ _ _ _)
            (pf_reinsert par _ _ R P p m _ e4 (e7 par hpar) e5 hp1)

/-- C25: lock acquisition follows parent-to-child edges.  On every tree reached by a
single-threaded run under `FINE_LOCK`, replaying the lock calls of `Tree_Lookup`,
`Tree_Insert`, `Tree_Delete` and `Tree_Traverse` from no lock held (`parent_first`),
every node lock taken is the root's lock taken first, or the lock of the freshly
allocated node of the insert, or is taken while the lock of the parent of the node is
held.  The parent is read from the parent links of the tree the operation starts on,
except in `Tree_Delete` after the links are changed: the lock calls up to that point
(`T.delete_pre`: the descent and the locks of the children of the match) are checked
with the parent links before the delete, the calls after it with the parent links of
the tree the delete leaves. -/
theorem C25_locks_follow_parent_edges (ops : List Op) (v : Int) :
    ∃ w, reach .FineGrained ops = .ok w ∧
      (∃ w' r es, Tree_Lookup (dispatch .FineGrained) w v = .ok (w', r) ∧
        w'.log = w.log ++ es ∧
        parent_first w.parent_of w.tree.root none [] es = true) ∧
      (∃ w' es, Tree_Insert (dispatch .FineGrained) w v = .ok w' ∧
        w'.log = w.log ++ es ∧
        parent_first w.parent_of w.tree.root (some w.brk) [] es = true) ∧
      (∃ w' post, Tree_Delete (dispatch .FineGrained) w v = .ok w' ∧
        w'.log = w.log ++ T.delete_pre v w.abs ++ post ∧
        parent_first w.parent_of w.tree.root none [] (T.delete_pre v w.abs) = true ∧
        parent_first w'.parent_of none none (held_after [] (T.delete_pre v w.abs)) post =
          true) ∧
      (∀ (σ : Type) (func : World → Ptr → σ → σ) (s0 : σ), ∃ w' r es,
        Tree_Traverse (dispatch .FineGrained) w func s0 = .ok (w', r) ∧
        w'.log = w.log ++ es ∧
        parent_first w.parent_of w.tree.root none [] es = true) := by
  obtain ⟨w, t, h1, h2⟩ := reach_ok .FineGrained ops
  have habs : w.abs = t := h2.holds.abs_eq
  have hd : t.addrs.Nodup := h2.holds.nodup
  have hroot : w.tree.root = t.root := h2.holds.root
  have hpar : T.ParOK w.parent_of t := h2.holds.rep.parOK
  refine ⟨w, h1, ?_, ?_, ?_, ?_⟩
  · obtain ⟨w', e1, e2⟩ := local_tree_lookup_fine_L h2 v
    refine ⟨w', _, _, e1, e2, ?_⟩
    rw [hroot]
    cases t with
    | nil => rfl
    | node a l x r =>
      simp only [T.lookup_log, T.root_node]
      have k := pf_lookup_evs w.parent_of (some a) none (v := v) (T.node a l x r) a [a] rfl
        hpar hd (List.mem_cons_self _ _)
      rw [pf_lock, k]
      simp
  · obtain ⟨w', e1, e2⟩ := local_tree_insert_fine_L h2 v
    refine ⟨w', _, e1, e2, ?_⟩
    rw [hroot]
    cases t with
    | nil => rfl
    | node a l x r =>
      simp only [T.insert_log, T.root_node]
      cases T.slot v (T.node a l x r) (some a) with
      | none => rfl
      | some sp =>
        simp only [List.cons_append, List.nil_append]
        have k1 := pf_ins_evs w.parent_of (some a) (some w.brk) (v := v) (T.node a l x r) a a
          [w.brk, a] rfl hpar hd (Or.inl rfl) (by simp)
        have k2 : parent_first w.parent_of (some a) (some w.brk) [w.brk, a]
            (T.ins_evs v (T.node a l x r) a ++
              [.unlock (.node (some sp)), .unlock (.node (some w.brk))]) = true :=
          pf_append_of _ _ _ k1 rfl
        rw [pf_lock, pf_lock, k2]
        simp
  · obtain ⟨w', e1, e2⟩ := local_tree_delete_fine_L h2 v
    obtain ⟨w'', e3, e4, -⟩ := local_tree_delete_fine_ok h2 v
    rw [e1] at e3
    cases e3
    obtain ⟨post, p1, p2, p3⟩ := T.delete_split v t hd
    refine ⟨w', post, e1, ?_, ?_, ?_⟩
    · rw [e2, habs, p1, List.append_assoc]
    · rw [habs, hroot]
      exact p2 _ hpar
    · rw [habs]
      exact p3 _ e4.holds.rep.parOK
  · intro σ func s0
    have e1 := local_tree_traverse_fine_L h2 func s0
    refine ⟨_, _, _, e1, rfl, ?_⟩
    rw [hroot]
    cases t with
    | nil => rfl
    | node a l x r =>
      simp only [T.traverse_log, T.root_node]
      have k := pf_trav_evs w.parent_of (some a) none (T.node a l x r) a [a] rfl
        hpar hd (List.mem_cons_self _ _)
      rw [pf_lock, k]
      simp

theorem T.findPar_cases (v : Int) :
    ∀ (t : T) (par : Ptr) (p : Nat), T.findPar v t par = some p →
      (par = some p ∧ ∃ a l r, t = .node a l v r) ∨ p ∈ t.addrs := by
  intro t
  induction t with
  | nil => intro par p h; simp [T.findPar] at h
  | node b l x r ihl ihr =>
    intro par p h
    by_cases hxv : x = v
    · subst hxv
      simp only [T.findPar, ne_eq, not_true_eq_false, if_false] at h
      exact Or.inl ⟨h, b, l, r, rfl⟩
    · simp only [T.findPar, ne_eq, hxv, not_false_eq_true, if_true] at h
      right
      by_cases hg : x > v
      · simp only [hg, if_true] at h
        rcases ihl (some b) p h with ⟨e, -⟩ | e
        · cases e; exact T.mem_addrs_node.mpr (Or.inr (Or.inl rfl))
        · exact T.mem_addrs_node.mpr (Or.inl e)
      · simp only [hg, if_false] at h
        rcases ihr (some b) p h with ⟨e, -⟩ | e
        · cases e; exact T.mem_addrs_node.mpr (Or.inr (Or.inl rfl))
        · exact T.mem_addrs_node.mpr (Or.inr (Or.inr e))

theorem T.BST_sub_at (v : Int) : ∀ {t : T}, t.BST → (T.sub_at v t).BST := by
  intro t
  induction t with
  | nil => intro _; exact True.intro
  | node b l x r ihl ihr =>
    intro h
    by_cases hxv : x = v
    · simpa [T.sub_at, hxv] using h
    · simp only [T.sub_at, ne_eq, hxv, not_false_eq_true, if_true]
      split
      · exact ihl h.1
      · exact ihr h.2.1

theorem T.findPar_not_mem_sub_at (v : Int) :
    ∀ (t : T) (par : Ptr) (p : Nat), t.addrs.Nodup → (∀ q, par = some q → q ∉ t.addrs) →
      T.findPar v t par = some p → p ∉ (T.sub_at v t).addrs := by
  intro t
  induction t with
  | nil => intro par p _ _ h; simp [T.findPar] at h
  | node b l x r ihl ihr =>
    intro par p hd hpar h
    obtain ⟨hdl, hdr, hal, har, hlr⟩ := T.nodup_node.mp hd
    by_cases hxv : x = v
    · subst hxv
      simp only [T.findPar, T.sub_at, ne_eq, not_true_eq_false, if_false] at h ⊢
      exact hpar p h
    · simp only [T.findPar, T.sub_at, ne_eq, hxv, not_false_eq_true, if_true] at h ⊢
      by_cases hg : x > v
      · simp only [hg, if_true] at h ⊢
        exact ihl (some b) p hdl (fun q hq => by cases hq; exact hal) h
      · simp only [hg, if_false] at h ⊢
        exact ihr (some b) p hdr (fun q hq => by cases hq; exact har) h

theorem Rep.del_parent {m m' : Nat → Option i_element_t} (v : Int) :
    ∀ {t : T} {par : Ptr}, Rep m t par → Rep m' (T.del v t) par → t.addrs.Nodup →
      (∀ q, par = some q → q ∉ t.addrs) →
      ∀ p ∈ t.addrs, T.findPar v t par = some p →
        ∃ n n', m p = some n ∧ m' p = some n' ∧ n'.value = n.value ∧
          n'.parent = n.parent ∧
          ((n.left = T.find v t ∧ n'.left = (T.del v (T.sub_at v t)).root ∧
              n'.right = n.right) ∨
            (n.right = T.find v t ∧ n'.right = (T.del v (T.sub_at v t)).root ∧
              n'.left = n.left)) := by
  intro t
  induction t with
  | nil => intro _ _ _ _ _ p hp; simp [T.addrs] at hp
  | node b l x r ihl ihr =>
    intro par h h' hd hpar p hp hf
    obtain ⟨hdl, hdr, hal, har, hlr⟩ := T.nodup_node.mp hd
    obtain ⟨n, hn, hv, hl, hr, hpp, hL, hR⟩ := h
    by_cases hxv : x = v
    · subst hxv
      simp only [T.findPar, ne_eq, not_true_eq_false, if_false] at hf
      exact absurd hp (hpar p hf)
    · simp only [T.sub_at, T.findPar, T.del, T.find, ne_eq, hxv, not_false_eq_true, if_true]
        at hf h' ⊢
      by_cases hg : x > v
      · simp only [hg, if_true] at hf h' ⊢
        obtain ⟨n', hn', hv', hl', hr', hp', hL', hR'⟩ := h'
        rcases T.findPar_cases v l (some b) p hf with ⟨e, c, cl, cr, rfl⟩ | e
        · cases e
          refine ⟨n, n', hn, hn', hv'.trans hv.symm, hp'.trans hpp.symm, Or.inl ⟨?_, ?_, ?_⟩⟩
          · rw [hl]; simp [T.find]
          · rw [hl']; simp [T.sub_at]
          · rw [hr', hr]
        · exact ihl hL hL' hdl (fun q hq => by cases hq; exact hal) p e hf
      · simp only [hg, if_false] at hf h' ⊢
        obtain ⟨n', hn', hv', hl', hr', hp', hL', hR'⟩ := h'
        rcases T.findPar_cases v r (some b) p hf with ⟨e, c, cl, cr, rfl⟩ | e
        · cases e
          refine ⟨n, n', hn, hn', hv'.trans hv.symm, hp'.trans hpp.symm, Or.inr ⟨?_, ?_, ?_⟩⟩
          · rw [hr]; simp [T.find]
          · rw [hr']; simp [T.sub_at]
          · rw [hl', hl]
        · exact ihr hR hR' hdr (fun q hq => by cases hq; exact har) p e hf

/-- C12: a later `Tree_Init` redirects the operations on an earlier tree.  After
`A = Tree_Init(COARSE_LOCK); B = Tree_Init(FINE_LOCK)` the tree `A` still has
`lock_type == COARSE_LOCK`, but `Tree_Insert(A, 5)` makes no lock call at all (alone, a
Coarse tree locks and unlocks its mutex), and a `Tree_Lookup(A, 5)` followed by
`Element_Release` locks and unlocks the lock of the node. -/
theorem C12_later_init_redirects_earlier_tree :
    ∃ w1 w2 w3 u1,
      (two_trees .Coarse .FineGrained).2.1.tree.lock_type = COARSE_LOCK ∧
      Tree_Insert (two_trees .Coarse .FineGrained).1 (two_trees .Coarse .FineGrained).2.1 5 =
        .ok w1 ∧
      w1.log = [] ∧
      Tree_Lookup (two_trees .Coarse .FineGrained).1 w1 5 = .ok (w2, some 0) ∧
      Element_Release (two_trees .Coarse .FineGrained).1 w2 (some 0) = .ok w3 ∧
      w3.log = [.lock (.node (some 0)), .unlock (.node (some 0))] ∧
      Tree_Insert (dispatch .Coarse) (fresh .Coarse) 5 = .ok u1 ∧
      u1.log = [.lock .tree, .unlock .tree] :=
  ⟨_, _, _, _, rfl, rfl, rfl, rfl, rfl, rfl, rfl, rfl⟩

/-- After `A = Tree_Init(sA); B = Tree_Init(sB)` the function pointers are those of
`sB`: the later tree `B` follows its own strategy whatever `sA` is. -/
theorem two_trees_later (sA sB : Strategy) :
    (two_trees sA sB).1 = dispatch sB ∧ (two_trees sA sB).2.2 = fresh sB ∧
    (∀ ops, run (two_trees sA sB).1 (two_trees sA sB).2.2 ops = reach sB ops) := by
  have h2 : (two_trees sA sB).1 = dispatch sB := by cases sA <;> cases sB <;> rfl
  have h4 : (two_trees sA sB).2.2 = fresh sB := by cases sA <;> cases sB <;> rfl
  exact ⟨h2, h4, fun ops => by rw [h2, h4]; rfl⟩

/-- After `A = Tree_Init(sA); B = Tree_Init(sB)` with two strategies that select the
same family of functions, the earlier tree `A` follows its own strategy too. -/
theorem two_trees_same_family (sA sB : Strategy) (h : dispatch sA = dispatch sB) :
    (two_trees sA sB).1 = dispatch sA ∧ (two_trees sA sB).2.1 = fresh sA ∧
    (∀ ops, run (two_trees sA sB).1 (two_trees sA sB).2.1 ops = reach sA ops) := by
  have h2 := (two_trees_later sA sB).1
  exact ⟨h2.trans h.symm, rfl, fun ops => by rw [h2, ← h]; rfl⟩

/-- C23 fails as stated: on the Coarse tree built by `insert(5); insert(3)` the call
`delete(3)` removes the node at address 1; the node at address 0 (value 5) is stored
and lies outside the subtree of the removed node, yet its left link changes from the
removed node to `NULL`. -/
theorem C23_counterexample :
    ∃ w w' n n', reach .Coarse [.insert 5, .insert 3] = .ok w ∧
      Tree_Delete (dispatch .Coarse) w 3 = .ok w' ∧
      T.find 3 w.abs = some 1 ∧ w.nodes = [1, 0] ∧ (T.sub_at 3 w.abs).addrs = [1] ∧
      (0 ∈ w.nodes ∧ 0 ∉ (T.sub_at 3 w.abs).addrs) ∧
      w.mem 0 = some n ∧ w'.mem 0 = some n' ∧ n.left = some 1 ∧ n'.left = none :=
  ⟨_, _, _, _, rfl, rfl, rfl, rfl, rfl, by decide, rfl, rfl, rfl, rfl⟩

/-- C23 (amended): for every strategy, every tree reached by a single-threaded run and
every integer `v`, `Tree_Delete(v)` returns and the tree it leaves is the reference
deletion: the first node `m` with value `v` on the search path (the node
`Tree_Lookup(v)` returns) is replaced by its left subtree `L` with its right subtree `R`
hung unchanged as the right child of the last node of the right spine of `L`, or by `R`
when `L` is empty, whether `m` is the root or not.  Every stored node outside the
subtree of `m` other than the parent of `m` keeps its value and its left, right and
parent links; the parent of `m` keeps its value, its parent link and its other child
link, and its link to `m` now points to the root of what replaces `m`.  The node `m` is
no longer stored, all others are, and the parent links are consistent afterwards. -/
theorem C23_delete_is_reference_delete (s : Strategy) (ops : List Op) (v : Int) :
    ∃ w w' w1, reach s ops = .ok w ∧ Tree_Delete (dispatch s) w v = .ok w' ∧
      w'.abs = spec_delete v w.abs ∧
      Tree_Lookup (dispatch s) w v = .ok (w1, T.find v w.abs) ∧
      (∀ m, T.find v w.abs = some m → m ∉ w'.nodes ∧ w.nodes.Perm (m :: w'.nodes)) ∧
      (∀ a ∈ w.nodes, a ∉ (T.sub_at v w.abs).addrs → T.findPar v w.abs none ≠ some a →
        ∃ n n', w.mem a = some n ∧ w'.mem a = some n' ∧ n'.value = n.value ∧
          n'.parent = n.parent ∧ n'.left = n.left ∧ n'.right = n.right) ∧
      (∀ p, T.findPar v w.abs none = some p →
        p ∈ w.nodes ∧ p ∉ (T.sub_at v w.abs).addrs ∧
        ∃ n n', w.mem p = some n ∧ w'.mem p = some n' ∧ n'.value = n.value ∧
          n'.parent = n.parent ∧
          ((n.left = T.find v w.abs ∧
              n'.left = (spec_delete v (T.sub_at v w.abs)).root ∧ n'.right = n.right) ∨
            (n.right = T.find v w.abs ∧
              n'.right = (spec_delete v (T.sub_at v w.abs)).root ∧ n'.left = n.left))) ∧
      ParentsOK w' := by
  obtain ⟨w, t, h1, h2⟩ := reach_ok s ops
  obtain ⟨w', e, i, -⟩ := Tree_Delete_ok h2 v
  obtain ⟨w1, e1, -⟩ := Tree_Lookup_ok h2 v
  have hnodes : w.nodes = t.addrs := by rw [World.nodes, h2.holds.abs_eq]
  have hnodes' : w'.nodes = (T.del v t).addrs := by rw [World.nodes, i.holds.abs_eq]
  have habs : w.abs = t := h2.holds.abs_eq
  refine ⟨w, w', w1, h1, e, ?_, by rw [habs]; exact e1, ?_, ?_, ?_, i.holds.parentsOK⟩
  · rw [habs, i.holds.abs_eq, spec_delete_eq v h2.bst]
  · intro m hm
    rw [habs] at hm
    rw [hnodes, hnodes']
    have hperm := T.addrs_del_perm hm
    have hnd := hperm.nodup_iff.mp h2.holds.nodup
    exact ⟨(List.nodup_cons.mp hnd).1, hperm⟩
  · rw [hnodes, habs]
    exact Rep.del_frame v h2.holds.rep i.holds.rep h2.holds.nodup
  · rw [hnodes, habs]
    intro p hp
    have hmem : p ∈ t.addrs := by
      rcases T.findPar_cases v t none p hp with ⟨e, -⟩ | e
      · cases e
      · exact e
    refine ⟨hmem, ?_, ?_⟩
    · exact T.findPar_not_mem_sub_at v t none p h2.holds.nodup (fun q hq => by cases hq) hp
    · rw [spec_delete_eq v (T.BST_sub_at v h2.bst)]
      exact Rep.del_parent v h2.holds.rep i.holds.rep h2.holds.nodup
        (fun q hq => by cases hq) p hmem hp

theorem sum_update_counter {n : Nat} (F : Counters → Nat) (k : Fin n → Counters) (i : Fin n)
    (c : Counters) :
    Finset.univ.sum (fun j => F (Function.update k i c j)) + F (k i) =
      Finset.univ.sum (fun j => F (k j)) + F c := by
  have h1 := Finset.add_sum_erase Finset.univ (fun j => F (k j)) (Finset.mem_univ i)
  have h2 := Finset.add_sum_erase Finset.univ (fun j => F (Function.update k i c j))
    (Finset.mem_univ i)
  have h3 : (Finset.univ.erase i).sum (fun j => F (Function.update k i c j)) =
      (Finset.univ.erase i).sum (fun j => F (k j)) := by
    apply Finset.sum_congr rfl
    intro j hj
    rw [Function.update_noteq (Finset.ne_of_mem_erase hj)]
  rw [h3] at h2
  simp only [Function.update_same] at h1 h2
  omega

theorem Thread_Funcs_of_Thread_Func {n : Nat} (g : Option Impl) :
    ∀ (calls : List (Fin n × Op)) (w : World) (k : Fin n → Counters) (k0 : Counters)
      (w' : World) (k0' : Counters),
      Thread_Func g w k0 (calls.map Prod.snd) = .ok (w', k0') →
      ∃ k', Thread_Funcs g w k calls = .ok (w', k') ∧
        total_inserts k' + k0.num_inserts = total_inserts k + k0'.num_inserts ∧
        total_deletes k' + k0.num_deletes = total_deletes k + k0'.num_deletes := by
  intro calls
  induction calls with
  | nil =>
    intro w k k0 w' k0' h
    simp only [List.map_nil, Thread_Func] at h
    cases h
    exact ⟨k, rfl, rfl, rfl⟩
  | cons c calls ih =>
    intro w k k0 w' k0' h
    simp only [List.map_cons, Thread_Func] at h
    cases hs : step g w c.2 with
    | error e => rw [hs] at h; cases h
    | ok w1 =>
      rw [hs, ok_bind] at h
      obtain ⟨k', e1, e2, e3⟩ := ih w1 (Function.update k c.1 (bump (k c.1) c.2)) _ _ _ h
      refine ⟨k', by simp only [Thread_Funcs, hs, ok_bind]; exact e1, ?_, ?_⟩
      · have hu := sum_update_counter Counters.num_inserts k c.1 (bump (k c.1) c.2)
        simp only [total_inserts] at e2 ⊢
        cases hop : c.2 <;> simp only [hop, bump] at e2 hu <;> omega
      · have hu := sum_update_counter Counters.num_deletes k c.1 (bump (k c.1) c.2)
        simp only [total_deletes] at e3 ⊢
        cases hop : c.2 <;> simp only [hop, bump] at e3 hu <;> omega

/-- C10 fails as stated: on a freshly initialised Coarse tree the run consisting of the
single call `Tree_Delete(7)` starts with 0 nodes, ends with 0 nodes, and the harness
counts 0 inserts and 1 delete, so the final count is not
`initial + num_inserts - num_deletes`. -/
theorem C10_counterexample :
    ∃ w k, Thread_Func (dispatch .Coarse) (fresh .Coarse) ⟨0, 0, 0⟩ [.delete 7] = .ok (w, k) ∧
      node_count (dispatch .Coarse) (fresh .Coarse) = .ok 0 ∧
      node_count (dispatch .Coarse) w = .ok 0 ∧
      k.num_inserts = 0 ∧ k.num_deletes = 1 ∧
      (0 : Int) ≠ 0 + (k.num_inserts : Int) - (k.num_deletes : Int) :=
  ⟨_, _, rfl, rfl, rfl, rfl, rfl, by decide⟩

theorem Thread_Funcs_count {s : Strategy} {n : Nat} (calls : List (Fin n × Op))
    {w0 : World} {t : T} (h2 : Inv s w0 t) :
    ∃ w t' k, Thread_Funcs (dispatch s) w0 (fun _ => ⟨0, 0, 0⟩) calls = .ok (w, k) ∧
      Inv s w t' ∧
      (t'.addrs.length : Int) = (t.addrs.length : Int) + (total_inserts k : Int) -
        (effective_deletes (dispatch s) w0 (calls.map Prod.snd) : Int) ∧
      effective_deletes (dispatch s) w0 (calls.map Prod.snd) ≤ total_deletes k := by
  obtain ⟨w, t', k0, e1, i1, c1, c2⟩ := Thread_Func_count (calls.map Prod.snd) ⟨0, 0, 0⟩ h2
  obtain ⟨k, e2, e3, e4⟩ :=
    Thread_Funcs_of_Thread_Func (dispatch s) calls w0 (fun _ => ⟨0, 0, 0⟩) ⟨0, 0, 0⟩ w k0 e1
  have z1 : total_inserts (fun _ : Fin n => (⟨0, 0, 0⟩ : Counters)) = 0 := by
    simp [total_inserts]
  have z2 : total_deletes (fun _ : Fin n => (⟨0, 0, 0⟩ : Counters)) = 0 := by
    simp [total_deletes]
  rw [z1] at e3
  rw [z2] at e4
  simp only [add_zero, zero_add] at e3 e4
  refine ⟨w, t', k, e2, i1, ?_, ?_⟩
  · simp only [Nat.cast_zero, add_zero] at c1
    rw [e3]
    linarith
  · rw [e4]
    simpa using c2

theorem Thread_Funcs_append {n : Nat} (g : Option Impl) (c : Fin n × Op) :
    ∀ (calls : List (Fin n × Op)) (w : World) (k : Fin n → Counters) (w1 : World)
      (k1 : Fin n → Counters) (w2 : World),
      Thread_Funcs g w k calls = .ok (w1, k1) → step g w1 c.2 = .ok w2 →
      Thread_Funcs g w k (calls ++ [c]) =
        .ok (w2, Function.update k1 c.1 (bump (k1 c.1) c.2)) := by
  intro calls
  induction calls with
  | nil =>
    intro w k w1 k1 w2 h1 h2
    simp only [Thread_Funcs] at h1
    cases h1
    simp only [List.nil_append, Thread_Funcs, h2, ok_bind]
  | cons d calls ih =>
    intro w k w1 k1 w2 h1 h2
    simp only [Thread_Funcs] at h1
    cases hs : step g w d.2 with
    | error e => rw [hs] at h1; cases h1
    | ok w3 =>
      rw [hs, ok_bind] at h1
      simp only [List.cons_append, Thread_Funcs, hs, ok_bind]
      exact ih _ _ _ _ _ h1 h2

namespace Traced

theorem allTouch_nil : AllTouch [] := by
  intro x hx; cases hx

theorem allTouch_cons (x : Step) (ts : List Step) :
    AllTouch (x :: ts) ↔ x.is_touch = true ∧ AllTouch ts := by
  simp [AllTouch]

theorem allTouch_append (ts us : List Step) :
    AllTouch (ts ++ us) ↔ AllTouch ts ∧ AllTouch us := by
  simp only [AllTouch, List.mem_append]
  constructor
  · intro h
    exact ⟨fun x hx => h x (Or.inl hx), fun x hx => h x (Or.inr hx)⟩
  · rintro ⟨h1, h2⟩ x (hx | hx)
    · exact h1 x hx
    · exact h2 x hx

theorem is_touch_node (p : Ptr) : (Step.node p).is_touch = true := rfl

theorem is_touch_visit (p : Ptr) : (Step.visit p).is_touch = true := rfl

theorem is_touch_root : Step.root.is_touch = true := rfl

theorem deref_sim {w : World} {p : Ptr} {n : i_element_t} (tr : List Step)
    (h : CBinary.deref w p = .ok n) :
    deref ⟨w, tr⟩ p = .ok (⟨w, tr ++ [.node p]⟩, n) := by
  simp only [deref, h, ok_bind, pure_eq_ok, TWorld.note]

theorem set_left_sim {w w' : World} {p q : Ptr} (tr : List Step)
    (h : CBinary.set_left w p q = .ok w') :
    set_left ⟨w, tr⟩ p q = .ok ⟨w', tr ++ [.node p]⟩ := by
  simp only [set_left, h, ok_bind, pure_eq_ok]

theorem set_right_sim {w w' : World} {p q : Ptr} (tr : List Step)
    (h : CBinary.set_right w p q = .ok w') :
    set_right ⟨w, tr⟩ p q = .ok ⟨w', tr ++ [.node p]⟩ := by
  simp only [set_right, h, ok_bind, pure_eq_ok]

theorem set_parent_sim {w w' : World} {p q : Ptr} (tr : List Step)
    (h : CBinary.set_parent w p q = .ok w') :
    set_parent ⟨w, tr⟩ p q = .ok ⟨w', tr ++ [.node p]⟩ := by
  simp only [set_parent, h, ok_bind, pure_eq_ok]

theorem free_sim {w w' : World} {p : Ptr} (tr : List Step)
    (h : CBinary.free w p = .ok w') :
    free ⟨w, tr⟩ p = .ok ⟨w', tr ++ [.node p]⟩ := by
  simp only [free, h, ok_bind, pure_eq_ok]

theorem Node_Insert_loop_sim :
    ∀ (fuel : Nat) (w : World) (curr prev element r : Ptr),
      CBinary.Node_Insert_loop fuel w curr prev element = .ok r →
      ∃ ts, AllTouch ts ∧ ∀ tr,
        Node_Insert_loop fuel ⟨w, tr⟩ curr prev element = .ok (⟨w, tr ++ ts⟩, r) := by
  intro fuel
  induction fuel with
  | zero => intro w curr prev element r h; simp [CBinary.Node_Insert_loop] at h
  | succ f ih =>
    intro w curr prev element r h
    cases curr with
    | none =>
      simp only [CBinary.Node_Insert_loop] at h
      cases h
      exact ⟨[], allTouch_nil, fun tr => by simp [Node_Insert_loop]⟩
    | some a =>
      simp only [CBinary.Node_Insert_loop] at h
      cases h1 : CBinary.deref w (some a) with
      | error e => rw [h1] at h; cases h
      | ok c =>
        rw [h1, ok_bind] at h
        cases h2 : CBinary.deref w element with
        | error e => rw [h2] at h; cases h
        | ok e =>
          rw [h2, ok_bind] at h
          have key : ∃ ts, AllTouch ts ∧ ∀ tr,
              Node_Insert_loop f ⟨w, tr⟩ (if c.value > e.value then c.left else c.right)
                (some a) element = .ok (⟨w, tr ++ ts⟩, r) := by
            by_cases hg : c.value > e.value
            · rw [if_pos hg] at h ⊢; exact ih w _ _ _ _ h
            · rw [if_neg hg] at h ⊢; exact ih w _ _ _ _ h
          obtain ⟨ts, hts, e3⟩ := key
          refine ⟨.node (some a) :: .node element :: ts, ?_, fun tr => ?_⟩
          · simp [allTouch_cons, hts, is_touch_node]
          · simp only [Node_Insert_loop, deref_sim tr h1, ok_bind,
              deref_sim (tr ++ [.node (some a)]) h2]
            by_cases hg : c.value > e.value
            · rw [if_pos hg] at e3 ⊢; rw [e3]; simp
            · rw [if_neg hg] at e3 ⊢; rw [e3]; simp

theorem Node_Insert_sim (w : World) (node element : Ptr) (w' : World)
    (h : CBinary.Node_Insert w node element = .ok w') :
    ∃ ts, AllTouch ts ∧ ∀ tr, Node_Insert ⟨w, tr⟩ node element = .ok ⟨w', tr ++ ts⟩ := by
  simp only [CBinary.Node_Insert] at h
  cases h1 : CBinary.Node_Insert_loop (w.brk + 1) w node node element with
  | error e => rw [h1] at h; cases h
  | ok prev =>
    rw [h1, ok_bind] at h
    obtain ⟨ts, hts, e1⟩ := Node_Insert_loop_sim (w.brk + 1) w node node element prev h1
    cases h2 : CBinary.set_parent w element prev with
    | error e => rw [h2] at h; cases h
    | ok w2 =>
      rw [h2, ok_bind] at h
      cases h3 : CBinary.deref w2 prev with
      | error e => rw [h3] at h; cases h
      | ok p =>
        rw [h3, ok_bind] at h
        cases h4 : CBinary.deref w2 element with
        | error e => rw [h4] at h; cases h
        | ok e =>
          rw [h4, ok_bind] at h
          refine ⟨ts ++ [.node element, .node prev, .node element, .node prev], ?_,
            fun tr => ?_⟩
          · simp [allTouch_append, allTouch_cons, hts, is_touch_node, allTouch_nil]
          · simp only [Node_Insert, e1, ok_bind, fun t => set_parent_sim t h2,
              fun t => deref_sim t h3, fun t => deref_sim t h4]
            by_cases hg : p.value > e.value
            · rw [if_pos hg] at h ⊢
              rw [set_left_sim _ h]
              simp
            · rw [if_neg hg] at h ⊢
              rw [set_right_sim _ h]
              simp

theorem search_loop_sim :
    ∀ (fuel : Nat) (w : World) (curr : Ptr) (value : Int) (r : Ptr),
      CBinary.search_loop fuel w curr value = .ok r →
      ∃ ts, AllTouch ts ∧ ∀ tr,
        search_loop fuel ⟨w, tr⟩ curr value = .ok (⟨w, tr ++ ts⟩, r) := by
  intro fuel
  induction fuel with
  | zero => intro w curr value r h; simp [CBinary.search_loop] at h
  | succ f ih =>
    intro w curr value r h
    cases curr with
    | none =>
      simp only [CBinary.search_loop] at h
      cases h
      exact ⟨[], allTouch_nil, fun tr => by simp [search_loop]⟩
    | some a =>
      simp only [CBinary.search_loop] at h
      cases h1 : CBinary.deref w (some a) with
      | error e => rw [h1] at h; cases h
      | ok c =>
        rw [h1, ok_bind] at h
        by_cases hv : c.value ≠ value
        · rw [if_pos hv] at h
          have key : ∃ ts, AllTouch ts ∧ ∀ tr,
              search_loop f ⟨w, tr⟩ (if c.value > value then c.left else c.right) value =
                .ok (⟨w, tr ++ ts⟩, r) := by
            by_cases hg : c.value > value
            · rw [if_pos hg] at h ⊢; exact ih w _ _ _ h
            · rw [if_neg hg] at h ⊢; exact ih w _ _ _ h
          obtain ⟨ts, hts, e3⟩ := key
          refine ⟨.node (some a) :: ts, ?_, fun tr => ?_⟩
          · simp [allTouch_cons, hts, is_touch_node]
          · simp only [search_loop, deref_sim tr h1, ok_bind, if_pos hv]
            by_cases hg : c.value > value
            · rw [if_pos hg] at e3 ⊢; rw [e3]; simp
            · rw [if_neg hg] at e3 ⊢; rw [e3]; simp
        · rw [if_neg hv] at h
          simp only [pure_eq_ok] at h
          cases h
          refine ⟨[.node (some a)], ?_, fun tr => ?_⟩
          · simp [allTouch_cons, is_touch_node, allTouch_nil]
          · simp only [search_loop, deref_sim tr h1, ok_bind, if_neg hv, pure_eq_ok]

theorem Node_Traverse_sim {σ : Type} (func : World → Ptr → σ → σ) :
    ∀ (fuel : Nat) (w : World) (node : Ptr) (acc r : σ),
      CBinary.Node_Traverse fuel w node func acc = .ok r →
      ∃ ts, AllTouch ts ∧ ∀ tr,
        Node_Traverse fuel ⟨w, tr⟩ node func acc = .ok (⟨w, tr ++ ts⟩, r) := by
  intro fuel
  induction fuel with
  | zero => intro w node acc r h; simp [CBinary.Node_Traverse] at h
  | succ f ih =>
    intro w node acc r h
    cases node with
    | none =>
      simp only [CBinary.Node_Traverse] at h
      cases h
      exact ⟨[], allTouch_nil, fun tr => by simp [Node_Traverse]⟩
    | some a =>
      simp only [CBinary.Node_Traverse] at h
      cases h1 : CBinary.deref w (some a) with
      | error e => rw [h1] at h; cases h
      | ok n =>
        rw [h1, ok_bind] at h
        cases h2 : CBinary.Node_Traverse f w n.left func acc with
        | error e => rw [h2] at h; cases h
        | ok acc1 =>
          rw [h2, ok_bind] at h
          simp only [h1, ok_bind] at h
          obtain ⟨ts1, hts1, e1⟩ := ih w n.left acc acc1 h2
          obtain ⟨ts2, hts2, e2⟩ := ih w n.right (func w (some a) acc1) r h
          refine ⟨[.node (some a)] ++ ts1 ++ [.visit (some a)] ++ [.node (some a)] ++ ts2,
            ?_, fun tr => ?_⟩
          · simp [allTouch_append, allTouch_cons, hts1, hts2, is_touch_node, is_touch_visit,
              allTouch_nil]
          · simp only [Node_Traverse, deref_sim tr h1, ok_bind, e1, TWorld.note,
              fun t => deref_sim t h1, e2]
            simp

theorem traced_insert_eq (s : TWorld) (value : Int) :
    local_tree_insert s value =
      tree_lock_wr s >>= fun s => insert_body s value >>= tree_unlock := rfl

theorem traced_delete_eq (s : TWorld) (value : Int) :
    local_tree_delete s value =
      tree_lock_wr s >>= fun s => delete_body s value >>= tree_unlock := rfl

theorem insert_body_sim (w : World) (value : Int) (w' : World)
    (h : CBinary.insert_body w value = .ok w') :
    ∃ ts, AllTouch ts ∧ ts ≠ [] ∧ ∀ tr, insert_body ⟨w, tr⟩ value = .ok ⟨w', tr ++ ts⟩ := by
  simp only [CBinary.insert_body] at h
  by_cases hr : (CBinary.malloc_element w value).1.tree.root = none
  · rw [if_pos hr] at h
    simp only [pure_eq_ok] at h
    cases h
    refine ⟨[.node (CBinary.malloc_element w value).2, .root, .root], ?_, by simp,
      fun tr => ?_⟩
    · simp [allTouch_cons, is_touch_node, is_touch_root, allTouch_nil]
    · simp only [insert_body, root, malloc_element, TWorld.note, hr, if_true, pure_eq_ok,
        set_root]
      simp
  · rw [if_neg hr] at h
    obtain ⟨ts, hts, e⟩ := Node_Insert_sim _ _ _ _ h
    refine ⟨[.node (CBinary.malloc_element w value).2, .root, .root] ++ ts, ?_, by simp,
      fun tr => ?_⟩
    · simp [allTouch_append, allTouch_cons, is_touch_node, is_touch_root, allTouch_nil, hts]
    · simp only [insert_body, root, malloc_element, TWorld.note, hr, if_false, e]
      simp

theorem local_tree_delete_root_sim (w : World) (curr : Ptr) (w' : World)
    (h : CBinary.local_tree_delete_root w curr = .ok w') :
    ∃ ts, AllTouch ts ∧ ∀ tr, local_tree_delete_root ⟨w, tr⟩ curr = .ok ⟨w', tr ++ ts⟩ := by
  simp only [CBinary.local_tree_delete_root] at h
  cases h1 : CBinary.deref w curr with
  | error e => rw [h1] at h; cases h
  | ok c =>
    rw [h1, ok_bind] at h
    -- the branch on `curr->left`
    have key : ∃ w2 ts, AllTouch ts ∧
        (if c.left ≠ none then do
            let c' ← CBinary.deref (CBinary.set_root w c.left) curr
            let w ← CBinary.set_parent (CBinary.set_root w c.left) c'.left
              (CBinary.set_root w c.left).tree.root
            (if c.right ≠ none then CBinary.Node_Insert w w.tree.root c.right else pure w)
          else pure (CBinary.set_root w c.right)) = .ok w2 ∧
        (∀ tr,
          (if c.left ≠ none then do
              let d ← deref (set_root ⟨w, tr⟩ c.left) curr
              let s ← set_parent (root d.1).1 d.2.left (root d.1).2
              (if c.right ≠ none then Node_Insert (root s).1 (root s).2 c.right else pure s)
            else pure (set_root ⟨w, tr⟩ c.right)) = .ok ⟨w2, tr ++ ts⟩) := by
      by_cases hl : c.left ≠ none
      · simp only [if_pos hl] at h ⊢
        cases h2 : CBinary.deref (CBinary.set_root w c.left) curr with
        | error e => rw [h2] at h; cases h
        | ok d =>
          rw [h2, ok_bind] at h
          cases h3 : CBinary.set_parent (CBinary.set_root w c.left) d.left
              (CBinary.set_root w c.left).tree.root with
          | error e => rw [h3] at h; cases h
          | ok w3 =>
            rw [h3, ok_bind] at h
            by_cases hrb : c.right ≠ none
            · simp only [if_pos hrb] at h ⊢
              cases h4 : CBinary.Node_Insert w3 w3.tree.root c.right with
              | error e => rw [h4] at h; cases h
              | ok w4 =>
                obtain ⟨ts, hts, e4⟩ := Node_Insert_sim _ _ _ _ h4
                refine ⟨w4, [.root, .node curr, .root, .node d.left, .root] ++ ts, ?_, ?_,
                  fun tr => ?_⟩
                · simp [allTouch_append, allTouch_cons, is_touch_node, is_touch_root,
                    allTouch_nil, hts]
                · simp only [h2, h3, h4, ok_bind]
                · simp only [set_root, fun t => deref_sim t h2, ok_bind, root, TWorld.note,
                    fun t => set_parent_sim t h3, e4]
                  simp
            · simp only [if_neg hrb] at h ⊢
              refine ⟨w3, [.root, .node curr, .root, .node d.left], ?_, ?_, fun tr => ?_⟩
              · simp [allTouch_cons, is_touch_node, is_touch_root, allTouch_nil]
              · simp only [h2, h3, ok_bind, pure_eq_ok]
              · simp only [set_root, fun t => deref_sim t h2, ok_bind, root, TWorld.note,
                  fun t => set_parent_sim t h3, pure_eq_ok]
                simp
      · simp only [if_neg hl] at h ⊢
        refine ⟨_, [.root], ?_, rfl, fun tr => ?_⟩
        · simp [allTouch_cons, is_touch_root, allTouch_nil]
        · simp only [set_root, pure_eq_ok]
    obtain ⟨w2, ts, hts, k1, k2⟩ := key
    rw [k1, ok_bind] at h
    by_cases hroot : w2.tree.root ≠ none
    · simp only [if_pos hroot] at h
      cases h5 : CBinary.set_parent w2 w2.tree.root none with
      | error e => rw [h5] at h; cases h
      | ok w5 =>
        rw [h5, ok_bind] at h
        refine ⟨[.node curr] ++ ts ++ [.root, .root, .node w2.tree.root, .node curr], ?_,
          fun tr => ?_⟩
        · simp [allTouch_append, allTouch_cons, is_touch_node, is_touch_root,
            allTouch_nil, hts]
        · simp only [local_tree_delete_root, deref_sim tr h1, ok_bind, k2]
          simp only [root, TWorld.note, if_pos hroot, fun t => set_parent_sim t h5,
            fun t => free_sim t h, ok_bind]
          simp
    · simp only [if_neg hroot, pure_eq_ok, ok_bind] at h
      refine ⟨[.node curr] ++ ts ++ [.root, .node curr], ?_, fun tr => ?_⟩
      · simp [allTouch_append, allTouch_cons, is_touch_node, is_touch_root,
          allTouch_nil, hts]
      · simp only [local_tree_delete_root, deref_sim tr h1, ok_bind, k2]
        simp only [root, TWorld.note, if_neg hroot, pure_eq_ok, fun t => free_sim t h, ok_bind]
        simp

theorem relink_sim (w : World) (curr rb : Ptr) (w' : World)
    (h : (do
      let c ← CBinary.deref w curr
      let w ← (if c.left ≠ none then CBinary.set_parent w c.left c.parent else pure w)
      let c ← CBinary.deref w curr
      (if rb ≠ none then CBinary.Node_Insert w c.parent rb else pure w)) = .ok w') :
    ∃ ts, AllTouch ts ∧ ∀ tr,
      (do
        let d ← deref ⟨w, tr⟩ curr
        let s ← (if d.2.left ≠ none then set_parent d.1 d.2.left d.2.parent else pure d.1)
        let e ← deref s curr
        (if rb ≠ none then Node_Insert e.1 e.2.parent rb else pure e.1)) =
      .ok ⟨w', tr ++ ts⟩ := by
  cases h1 : CBinary.deref w curr with
  | error e => rw [h1] at h; cases h
  | ok c =>
    rw [h1, ok_bind] at h
    have key : ∃ w2 ts, AllTouch ts ∧
        (if c.left ≠ none then CBinary.set_parent w c.left c.parent else pure w) = .ok w2 ∧
        ∀ tr, (if c.left ≠ none then set_parent ⟨w, tr⟩ c.left c.parent else pure ⟨w, tr⟩) =
          .ok ⟨w2, tr ++ ts⟩ := by
      by_cases hl : c.left ≠ none
      · simp only [if_pos hl] at h ⊢
        cases h2 : CBinary.set_parent w c.left c.parent with
        | error e => rw [h2] at h; cases h
        | ok w2 =>
          refine ⟨w2, [.node c.left], ?_, rfl, fun tr => set_parent_sim tr h2⟩
          simp [allTouch_cons, is_touch_node, allTouch_nil]
      · simp only [if_neg hl] at h ⊢
        exact ⟨w, [], allTouch_nil, rfl, fun tr => by simp [pure_eq_ok]⟩
    obtain ⟨w2, ts, hts, k1, k2⟩ := key
    rw [k1, ok_bind] at h
    cases h3 : CBinary.deref w2 curr with
    | error e => rw [h3] at h; cases h
    | ok d =>
      rw [h3, ok_bind] at h
      by_cases hrb : rb ≠ none
      · simp only [if_pos hrb] at h
        obtain ⟨ts4, hts4, e4⟩ := Node_Insert_sim _ _ _ _ h
        refine ⟨[.node curr] ++ ts ++ [.node curr] ++ ts4, ?_, fun tr => ?_⟩
        · simp [allTouch_append, allTouch_cons, is_touch_node, allTouch_nil, hts, hts4]
        · simp only [deref_sim tr h1, ok_bind, k2, fun t => deref_sim t h3, if_pos hrb, e4]
          simp
      · simp only [if_neg hrb, pure_eq_ok] at h
        cases h
        refine ⟨[.node curr] ++ ts ++ [.node curr], ?_, fun tr => ?_⟩
        · simp [allTouch_append, allTouch_cons, is_touch_node, allTouch_nil, hts]
        · simp only [deref_sim tr h1, ok_bind, k2, fun t => deref_sim t h3, if_neg hrb]
          simp [pure_eq_ok]

theorem local_tree_delete_inner_sim (w : World) (curr : Ptr) (w' : World)
    (h : CBinary.local_tree_delete_inner w curr = .ok w') :
    ∃ ts, AllTouch ts ∧ ∀ tr, local_tree_delete_inner ⟨w, tr⟩ curr = .ok ⟨w', tr ++ ts⟩ := by
  simp only [CBinary.local_tree_delete_inner] at h
  cases h1 : CBinary.deref w curr with
  | error e => rw [h1] at h; cases h
  | ok c =>
    rw [h1, ok_bind] at h
    cases h2 : CBinary.deref w c.parent with
    | error e => rw [h2] at h; cases h
    | ok p =>
      rw [h2, ok_bind] at h
      by_cases hp : p.left = curr
      · simp only [if_pos hp] at h
        cases h3 : CBinary.set_left w c.parent c.left with
        | error e => rw [h3] at h; cases h
        | ok w3 =>
          rw [h3, ok_bind] at h
          cases h4 : (do
              let c' ← CBinary.deref w3 curr
              let w ← (if c'.left ≠ none then CBinary.set_parent w3 c'.left c'.parent
                        else pure w3)
              let c' ← CBinary.deref w curr
              (if c.right ≠ none then CBinary.Node_Insert w c'.parent c.right else pure w)) with
          | error e => rw [h4] at h; cases h
          | ok w4 =>
            rw [h4, ok_bind] at h
            obtain ⟨ts, hts, k⟩ := relink_sim _ _ _ _ h4
            refine ⟨[.node curr, .node c.parent, .node c.parent] ++ ts ++ [.node curr], ?_,
              fun tr => ?_⟩
            · simp [allTouch_append, allTouch_cons, is_touch_node, allTouch_nil, hts]
            · simp only [local_tree_delete_inner, deref_sim tr h1, ok_bind,
                fun t => deref_sim t h2, if_pos hp, fun t => set_left_sim t h3, k,
                fun t => free_sim t h]
              simp
      · simp only [if_neg hp] at h
        cases h3 : CBinary.set_right w c.parent c.left with
        | error e => rw [h3] at h; cases h
        | ok w3 =>
          rw [h3, ok_bind] at h
          cases h4 : (do
              let c' ← CBinary.deref w3 curr
              let w ← (if c'.left ≠ none then CBinary.set_parent w3 c'.left c'.parent
                        else pure w3)
              let c' ← CBinary.deref w curr
              (if c.right ≠ none then CBinary.Node_Insert w c'.parent c.right else pure w)) with
          | error e => rw [h4] at h; cases h
          | ok w4 =>
            rw [h4, ok_bind] at h
            obtain ⟨ts, hts, k⟩ := relink_sim _ _ _ _ h4
            refine ⟨[.node curr, .node c.parent, .node c.parent] ++ ts ++ [.node curr], ?_,
              fun tr => ?_⟩
            · simp [allTouch_append, allTouch_cons, is_touch_node, allTouch_nil, hts]
            · simp only [local_tree_delete_inner, deref_sim tr h1, ok_bind,
                fun t => deref_sim t h2, if_neg hp, fun t => set_right_sim t h3, k,
                fun t => free_sim t h]
              simp

theorem delete_body_sim (w : World) (value : Int) (w' : World)
    (h : CBinary.delete_body w value = .ok w') :
    ∃ ts, AllTouch ts ∧ ts ≠ [] ∧ ∀ tr, delete_body ⟨w, tr⟩ value = .ok ⟨w', tr ++ ts⟩ := by
  simp only [CBinary.delete_body] at h
  by_cases hr : w.tree.root ≠ none
  · simp only [if_pos hr] at h
    cases h1 : CBinary.search_loop (w.brk + 1) w w.tree.root value with
    | error e => rw [h1] at h; simp only [bind, Except.bind] at h; cases h
    | ok curr =>
      rw [h1] at h
      simp only [bind, Except.bind] at h
      obtain ⟨ts1, hts1, e1⟩ := search_loop_sim _ _ _ _ _ h1
      by_cases hc : curr ≠ none
      · simp only [if_pos hc] at h
        by_cases hcr : curr = w.tree.root
        · simp only [if_pos hcr] at h
          obtain ⟨ts2, hts2, e2⟩ := local_tree_delete_root_sim _ _ _ h
          refine ⟨[.root, .root] ++ ts1 ++ [.root] ++ ts2, ?_, by simp, fun tr => ?_⟩
          · simp [allTouch_append, allTouch_cons, is_touch_root, allTouch_nil, hts1, hts2]
          · simp only [delete_body, root, TWorld.note, if_pos hr, e1, bind, Except.bind,
              if_pos hc, if_pos hcr, e2]
            simp
        · simp only [if_neg hcr] at h
          obtain ⟨ts2, hts2, e2⟩ := local_tree_delete_inner_sim _ _ _ h
          refine ⟨[.root, .root] ++ ts1 ++ [.root] ++ ts2, ?_, by simp, fun tr => ?_⟩
          · simp [allTouch_append, allTouch_cons, is_touch_root, allTouch_nil, hts1, hts2]
          · simp only [delete_body, root, TWorld.note, if_pos hr, e1, bind, Except.bind,
              if_pos hc, if_neg hcr, e2]
            simp
      · simp only [if_neg hc, pure_eq_ok] at h
        cases h
        refine ⟨[.root, .root] ++ ts1, ?_, by simp, fun tr => ?_⟩
        · simp [allTouch_append, allTouch_cons, is_touch_root, allTouch_nil, hts1]
        · simp only [delete_body, root, TWorld.note, if_pos hr, e1, bind, Except.bind,
            if_neg hc, pure_eq_ok]
          simp
  · simp only [if_neg hr, pure_eq_ok] at h
    cases h
    refine ⟨[.root], ?_, by simp, fun tr => ?_⟩
    · simp [allTouch_cons, is_touch_root, allTouch_nil]
    · simp only [delete_body, root, TWorld.note, if_neg hr, pure_eq_ok]

theorem tree_lock_wr_sim {s : Strategy} {w w1 : World} (hs : s ≠ .FineGrained)
    (h : TFree s w) (e : CBinary.tree_lock_wr w = .ok w1) (tr : List Step) :
    tree_lock_wr ⟨w, tr⟩ = .ok ⟨w1, tr ++ s.wr_entry.map .call⟩ := by
  obtain ⟨h1, h2, h3⟩ := h
  cases s with
  | FineGrained => exact absurd rfl hs
  | None =>
    simp [CBinary.tree_lock_wr, h1, Strategy.code, NO_LOCK, COARSE_LOCK, RW_LOCK] at e
    subst e
    simp [tree_lock_wr, h1, Strategy.code, NO_LOCK, COARSE_LOCK, RW_LOCK, Strategy.wr_entry]
  | Coarse =>
    simp [CBinary.tree_lock_wr, h1, Strategy.code, COARSE_LOCK, RW_LOCK, CBinary.lock, h2] at e
    subst e
    simp [tree_lock_wr, h1, Strategy.code, COARSE_LOCK, RW_LOCK, lock, CBinary.lock, h2,
      Strategy.wr_entry]
  | ReadWrite =>
    simp [CBinary.tree_lock_wr, h1, Strategy.code, COARSE_LOCK, RW_LOCK,
      CBinary.pthread_rwlock_wrlock, h3] at e
    subst e
    simp [tree_lock_wr, h1, Strategy.code, COARSE_LOCK, RW_LOCK, pthread_rwlock_wrlock,
      CBinary.pthread_rwlock_wrlock, h3, Strategy.wr_entry]

theorem tree_lock_rd_sim {s : Strategy} {w w1 : World} (hs : s ≠ .FineGrained)
    (h : TFree s w) (e : CBinary.tree_lock_rd w = .ok w1) (tr : List Step) :
    tree_lock_rd ⟨w, tr⟩ = .ok ⟨w1, tr ++ s.rd_entry.map .call⟩ := by
  obtain ⟨h1, h2, h3⟩ := h
  cases s with
  | FineGrained => exact absurd rfl hs
  | None =>
    simp [CBinary.tree_lock_rd, h1, Strategy.code, NO_LOCK, COARSE_LOCK, RW_LOCK] at e
    subst e
    simp [tree_lock_rd, h1, Strategy.code, NO_LOCK, COARSE_LOCK, RW_LOCK, Strategy.rd_entry]
  | Coarse =>
    simp [CBinary.tree_lock_rd, h1, Strategy.code, COARSE_LOCK, RW_LOCK, CBinary.lock, h2] at e
    subst e
    simp [tree_lock_rd, h1, Strategy.code, COARSE_LOCK, RW_LOCK, lock, CBinary.lock, h2,
      Strategy.rd_entry]
  | ReadWrite =>
    simp [CBinary.tree_lock_rd, h1, Strategy.code, COARSE_LOCK, RW_LOCK,
      CBinary.pthread_rwlock_rdlock, h3] at e
    subst e
    simp [tree_lock_rd, h1, Strategy.code, COARSE_LOCK, RW_LOCK, pthread_rwlock_rdlock,
      CBinary.pthread_rwlock_rdlock, h3, Strategy.rd_entry]

theorem tree_unlock_sim {s : Strategy} {w w1 : World} (h : TLocked s w)
    (e : CBinary.tree_unlock w = .ok w1) (tr : List Step) :
    tree_unlock ⟨w, tr⟩ = .ok ⟨w1, tr ++ s.tree_exit.map .call⟩ := by
  obtain ⟨h1, h2⟩ := h
  cases s with
  | FineGrained => exact absurd h2 id
  | None =>
    simp [CBinary.tree_unlock, h1, Strategy.code, NO_LOCK, COARSE_LOCK, RW_LOCK] at e
    subst e
    simp [tree_unlock, h1, Strategy.code, NO_LOCK, COARSE_LOCK, RW_LOCK, Strategy.tree_exit]
  | Coarse =>
    simp [CBinary.tree_unlock, h1, Strategy.code, COARSE_LOCK, RW_LOCK, CBinary.unlock,
      h2.1] at e
    subst e
    simp [tree_unlock, h1, Strategy.code, COARSE_LOCK, RW_LOCK, unlock, CBinary.unlock, h2.1,
      Strategy.tree_exit]
  | ReadWrite =>
    rcases h2.2 with h3 | h3 <;>
    · simp [CBinary.tree_unlock, h1, Strategy.code, COARSE_LOCK, RW_LOCK,
        CBinary.pthread_rwlock_unlock, h3] at e
      subst e
      simp [tree_unlock, h1, Strategy.code, COARSE_LOCK, RW_LOCK, pthread_rwlock_unlock,
        CBinary.pthread_rwlock_unlock, h3, Strategy.tree_exit]

theorem local_tree_insert_bracket {s : Strategy} {w : World} {t : T} (hs : s ≠ .FineGrained)
    (h : Inv s w t) (v : Int) :
    ∃ w' ts, CBinary.local_tree_insert w v = .ok w' ∧ AllTouch ts ∧ ts ≠ [] ∧
      ∀ tr, local_tree_insert ⟨w, tr⟩ v =
        .ok ⟨w', tr ++ s.wr_entry.map .call ++ ts ++ s.tree_exit.map .call⟩ := by
  obtain ⟨w1, e1, m1, b1, r1, l1⟩ := tree_lock_wr_ok hs h.tfree
  obtain ⟨w2, e2, -, s2, -, -⟩ := insert_body_ok (h.holds.of_eq m1 b1 r1) v
  obtain ⟨w3, e3, -⟩ := tree_unlock_ok (l1.of_same s2)
  obtain ⟨ts, hts, hne, k⟩ := insert_body_sim _ _ _ e2
  refine ⟨w3, ts, ?_, hts, hne, fun tr => ?_⟩
  · rw [CBinary.local_tree_insert_eq, e1, ok_bind, e2, ok_bind, e3]
  · rw [traced_insert_eq, tree_lock_wr_sim hs h.tfree e1, ok_bind, k, ok_bind,
      tree_unlock_sim (l1.of_same s2) e3]

theorem local_tree_delete_bracket {s : Strategy} {w : World} {t : T} (hs : s ≠ .FineGrained)
    (h : Inv s w t) (v : Int) :
    ∃ w' ts, CBinary.local_tree_delete w v = .ok w' ∧ AllTouch ts ∧ ts ≠ [] ∧
      ∀ tr, local_tree_delete ⟨w, tr⟩ v =
        .ok ⟨w', tr ++ s.wr_entry.map .call ++ ts ++ s.tree_exit.map .call⟩ := by
  obtain ⟨w1, e1, m1, b1, r1, l1⟩ := tree_lock_wr_ok hs h.tfree
  obtain ⟨w2, e2, -, s2, -, -, -⟩ := delete_body_ok (h.holds.of_eq m1 b1 r1) h.bst v
  obtain ⟨w3, e3, -⟩ := tree_unlock_ok (l1.of_same s2)
  obtain ⟨ts, hts, hne, k⟩ := delete_body_sim _ _ _ e2
  refine ⟨w3, ts, ?_, hts, hne, fun tr => ?_⟩
  · rw [CBinary.local_tree_delete_eq, e1, ok_bind, e2, ok_bind, e3]
  · rw [traced_delete_eq, tree_lock_wr_sim hs h.tfree e1, ok_bind, k, ok_bind,
      tree_unlock_sim (l1.of_same s2) e3]

theorem local_tree_lookup_bracket {s : Strategy} {w : World} {t : T} (hs : s ≠ .FineGrained)
    (h : Inv s w t) (v : Int) :
    ∃ w' r ts, CBinary.local_tree_lookup w v = .ok (w', r) ∧ AllTouch ts ∧ ts ≠ [] ∧
      ∀ tr, local_tree_lookup ⟨w, tr⟩ v =
        .ok (⟨w', tr ++ s.rd_entry.map .call ++ ts ++ s.tree_exit.map .call⟩, r) := by
  obtain ⟨w1, e1, m1, b1, r1, l1⟩ := tree_lock_rd_ok hs h.tfree
  obtain ⟨w3, e3, -⟩ := tree_unlock_ok l1
  have H1 := h.holds.of_eq m1 b1 r1
  cases t with
  | nil =>
    have hroot : w1.tree.root = none := H1.root
    refine ⟨w3, none, [.root], by simp [CBinary.local_tree_lookup, e1, hroot, e3], ?_,
      by simp, fun tr => ?_⟩
    · simp [allTouch_cons, is_touch_root, allTouch_nil]
    · simp only [local_tree_lookup, tree_lock_rd_sim hs h.tfree e1, ok_bind, root,
        TWorld.note, hroot, if_true, fun t => tree_unlock_sim l1 e3 t, pure_eq_ok]
  | node a l x r =>
    have hroot : w1.tree.root = some a := H1.root
    have hsearch := search_loop_eq (v := v) (T.node a l x r) none (w1.brk + 1) H1.rep
      (Nat.lt_succ_of_le (T.height_le_brk H1.nodup H1.lt_brk))
    simp only [T.root_node] at hsearch
    rw [← hroot] at hsearch
    obtain ⟨ts, hts, k⟩ := search_loop_sim _ _ _ _ _ hsearch
    have hne : w1.tree.root ≠ none := by rw [hroot]; simp
    refine ⟨w3, T.find v (T.node a l x r), [.root, .root] ++ ts,
      by simp [CBinary.local_tree_lookup, e1, hne, hsearch, e3], ?_, by simp, fun tr => ?_⟩
    · simp [allTouch_append, allTouch_cons, is_touch_root, allTouch_nil, hts]
    · simp only [local_tree_lookup, tree_lock_rd_sim hs h.tfree e1, ok_bind, root,
        TWorld.note, if_neg hne, k, fun t => tree_unlock_sim l1 e3 t, pure_eq_ok]
      simp

theorem local_tree_traverse_bracket {σ : Type} {s : Strategy} {w : World} {t : T}
    (hs : s ≠ .FineGrained) (h : Inv s w t) (func : World → Ptr → σ → σ) (s0 : σ) :
    ∃ w' r ts, CBinary.local_tree_traverse w func s0 = .ok (w', r) ∧ AllTouch ts ∧ ts ≠ [] ∧
      ∀ tr, local_tree_traverse ⟨w, tr⟩ func s0 =
        .ok (⟨w', tr ++ s.rd_entry.map .call ++ ts ++ s.tree_exit.map .call⟩, r) := by
  obtain ⟨w1, e1, m1, b1, r1, l1⟩ := tree_lock_rd_ok hs h.tfree
  obtain ⟨w3, e3, -⟩ := tree_unlock_ok l1
  have H1 := h.holds.of_eq m1 b1 r1
  have htr := Node_Traverse_eq func t none (w1.brk + 1) s0 H1.rep
    (Nat.lt_succ_of_le (T.height_le_brk H1.nodup H1.lt_brk))
  rw [← H1.root] at htr
  obtain ⟨ts, hts, k⟩ := Node_Traverse_sim func _ _ _ _ _ htr
  refine ⟨w3, t.addrs.foldl (fun s a => func w1 (some a) s) s0, [.root] ++ ts,
    by simp only [CBinary.local_tree_traverse, e1, ok_bind, htr, e3, pure_eq_ok], ?_,
    by simp, fun tr => ?_⟩
  · simp [allTouch_append, allTouch_cons, is_touch_root, allTouch_nil, hts]
  · simp only [local_tree_traverse, tree_lock_rd_sim hs h.tfree e1, ok_bind, root,
      TWorld.note, k, fun t => tree_unlock_sim l1 e3 t, pure_eq_ok]
    simp

theorem bracket_plain {s : Strategy} {w : World} {t : T} (hs : s ≠ .FineGrained)
    (h : Inv s w t) :
    Bracket (dispatch s) w s.wr_entry s.rd_entry s.tree_exit := by
  rw [dispatch_plain hs]
  exact ⟨local_tree_insert_bracket hs h, local_tree_delete_bracket hs h,
    local_tree_lookup_bracket hs h,
    fun σ func s0 => local_tree_traverse_bracket hs h (fun _ => func) s0⟩

end Traced

/-- C16: on every tree reached by a single-threaded run, the function pointers of a
Coarse, a ReadWrite and a None tree select the `local_tree_*` family, and each of the
four operations returns. Under Coarse each of `Tree_Insert`, `Tree_Delete`,
`Tree_Lookup` and `Tree_Traverse` makes exactly two lock calls, `lock(&tree->m_lock)`
and `unlock(&tree->m_lock)`, and in the trace of the operation every access to the tree
(to `tree->root` or to a node) lies after the first and before the second. Under
ReadWrite insert and delete make exactly `pthread_rwlock_wrlock` and
`pthread_rwlock_unlock`, lookup and traverse exactly `pthread_rwlock_rdlock` and
`pthread_rwlock_unlock`, again with every access to the tree between the two. Under None
no operation makes a lock call, the trace of an operation holds accesses to the tree
only, and the log of the whole run is empty. -/
theorem C16_tree_lock_table (ops : List Op) :
    (∃ w, reach .Coarse ops = .ok w ∧ dispatch .Coarse = some .plain ∧
      LockCalls (dispatch .Coarse) w [.lock .tree, .unlock .tree] [.lock .tree, .unlock .tree] ∧
      Traced.Bracket (dispatch .Coarse) w [.lock .tree] [.lock .tree] [.unlock .tree]) ∧
    (∃ w, reach .ReadWrite ops = .ok w ∧ dispatch .ReadWrite = some .plain ∧
      LockCalls (dispatch .ReadWrite) w [.wrlock, .rw_unlock] [.rdlock, .rw_unlock] ∧
      Traced.Bracket (dispatch .ReadWrite) w [.wrlock] [.rdlock] [.rw_unlock]) ∧
    (∃ w, reach .None ops = .ok w ∧ dispatch .None = some .plain ∧ w.log = [] ∧
      LockCalls (dispatch .None) w [] [] ∧ Traced.Bracket (dispatch .None) w [] [] []) := by
  refine ⟨?_, ?_, ?_⟩
  · obtain ⟨w, t, h1, h2⟩ := reach_ok .Coarse ops
    exact ⟨w, h1, rfl, lockCalls_plain (by decide) h2, Traced.bracket_plain (by decide) h2⟩
  · obtain ⟨w, t, h1, h2⟩ := reach_ok .ReadWrite ops
    exact ⟨w, h1, rfl, lockCalls_plain (by decide) h2, Traced.bracket_plain (by decide) h2⟩
  · obtain ⟨w, t, h1, h2⟩ := reach_ok .None ops
    refine ⟨w, h1, rfl, ?_, lockCalls_plain (by decide) h2,
      Traced.bracket_plain (by decide) h2⟩
    obtain ⟨w', e, g⟩ := run_log_none ops (fresh_inv .None)
    have e' : reach .None ops = .ok w' := e
    rw [h1] at e'; cases e'
    rw [g]; rfl

namespace Par

theorem map_ok {α β : Type} (f : α → β) (a : α) :
    Except.map f (Except.ok a : Except Fault α) = .ok (f a) := rfl

theorem Prog.run_bind {α β : Type} (p : Prog α) (f : α → Prog β) :
    ∀ w, (p.bind f).run w = p.run w >>= fun r => (f r.2).run r.1 := by
  induction p with
  | ret a => intro w; rfl
  | fail e => intro w; rfl
  | lock_type k ih => intro w; exact ih _ w
  | fuel k ih => intro w; exact ih _ w
  | deref p k ih =>
    intro w
    simp only [Prog.bind, Prog.run]
    cases h : CBinary.deref w p with
    | error e => rfl
    | ok n => simp only [ok_bind]; exact ih n w
  | root k ih => intro w; exact ih _ w
  | malloc_element v k ih => intro w; exact ih _ _
  | cmd c k ih =>
    intro w
    simp only [Prog.bind, Prog.run]
    cases h : c.exec w with
    | error e => rfl
    | ok w1 => simp only [ok_bind]; exact ih w1

theorem Prog.run_of_returned {α : Type} (p : Prog α) :
    ∀ w, p.returned w = true → ∃ a, p.run w = .ok (w, a) := by
  induction p with
  | ret a => intro w _; exact ⟨a, rfl⟩
  | fail e => intro w h; simp [Prog.returned] at h
  | lock_type k ih => intro w h; exact ih _ w h
  | fuel k ih => intro w h; exact ih _ w h
  | deref p k _ => intro w h; simp [Prog.returned] at h
  | root k _ => intro w h; simp [Prog.returned] at h
  | malloc_element v k _ => intro w h; simp [Prog.returned] at h
  | cmd c k _ => intro w h; simp [Prog.returned] at h

theorem Prog.run_step {α : Type} (p : Prog α) :
    ∀ w, p.returned w = false → p.run w = p.step w >>= fun r => r.2.run r.1 := by
  induction p with
  | ret a => intro w h; simp [Prog.returned] at h
  | fail e => intro w _; rfl
  | lock_type k ih => intro w h; exact ih _ w h
  | fuel k ih => intro w h; exact ih _ w h
  | deref p k _ =>
    intro w _
    simp only [Prog.run, Prog.step]
    cases h : CBinary.deref w p with
    | error e => rfl
    | ok n => rfl
  | root k _ => intro w _; rfl
  | malloc_element v k _ => intro w _; rfl
  | cmd c k _ =>
    intro w _
    simp only [Prog.run, Prog.step]
    cases h : c.exec w with
    | error e => rfl
    | ok w1 => rfl

theorem tree_lock_wr_run (w : World) :
    tree_lock_wr.run w = (CBinary.tree_lock_wr w).map fun w => (w, ()) := by
  simp only [tree_lock_wr, CBinary.tree_lock_wr, Prog.run]
  by_cases h1 : w.tree.lock_type = COARSE_LOCK
  · simp only [if_pos h1, Prog.bind, Prog.run, Cmd.exec]
    cases h : CBinary.lock w .tree with
    | error e => rfl
    | ok w1 =>
      simp only [ok_bind]
      by_cases h2 : w1.tree.lock_type = RW_LOCK
      · simp only [if_pos h2, Prog.run, Cmd.exec]
        cases h3 : CBinary.pthread_rwlock_wrlock w1 <;> rfl
      · simp only [if_neg h2, Prog.run, pure_eq_ok, map_ok]
  · simp only [if_neg h1, Prog.bind, Prog.run, pure_eq_ok, ok_bind]
    by_cases h2 : w.tree.lock_type = RW_LOCK
    · simp only [if_pos h2, Prog.run, Cmd.exec]
      cases h3 : CBinary.pthread_rwlock_wrlock w <;> rfl
    · simp only [if_neg h2, Prog.run, map_ok]

theorem tree_unlock_run (w : World) :
    tree_unlock.run w = (CBinary.tree_unlock w).map fun w => (w, ()) := by
  simp only [tree_unlock, CBinary.tree_unlock, Prog.run]
  by_cases h1 : w.tree.lock_type = COARSE_LOCK
  · simp only [if_pos h1, Prog.bind, Prog.run, Cmd.exec]
    cases h : CBinary.unlock w .tree with
    | error e => rfl
    | ok w1 =>
      simp only [ok_bind]
      by_cases h2 : w1.tree.lock_type = RW_LOCK
      · simp only [if_pos h2, Prog.run, Cmd.exec]
        cases h3 : CBinary.pthread_rwlock_unlock w1 <;> rfl
      · simp only [if_neg h2, Prog.run, pure_eq_ok, map_ok]
  · simp only [if_neg h1, Prog.bind, Prog.run, pure_eq_ok, ok_bind]
    by_cases h2 : w.tree.lock_type = RW_LOCK
    · simp only [if_pos h2, Prog.run, Cmd.exec]
      cases h3 : CBinary.pthread_rwlock_unlock w <;> rfl
    · simp only [if_neg h2, Prog.run, map_ok]

theorem Node_Insert_loop_run :
    ∀ (fuel : Nat) (w : World) (curr prev element : Ptr),
      (Node_Insert_loop fuel curr prev element).run w =
        (CBinary.Node_Insert_loop fuel w curr prev element).map fun r => (w, r) := by
  intro fuel
  induction fuel with
  | zero => intro w curr prev element; rfl
  | succ f ih =>
    intro w curr prev element
    cases curr with
    | none => rfl
    | some a =>
      simp only [Node_Insert_loop, CBinary.Node_Insert_loop, Prog.run]
      cases h1 : CBinary.deref w (some a) with
      | error e => rfl
      | ok c =>
        simp only [ok_bind]
        cases h2 : CBinary.deref w element with
        | error e => rfl
        | ok e =>
          simp only [ok_bind]
          by_cases hc : c.value > e.value
          · simp only [if_pos hc]; exact ih _ _ _ _
          · simp only [if_neg hc]; exact ih _ _ _ _

theorem Node_Insert_run (w : World) (node element : Ptr) :
    (Node_Insert node element).run w =
      (CBinary.Node_Insert w node element).map fun w => (w, ()) := by
  simp only [Node_Insert, CBinary.Node_Insert, Prog.run, Prog.run_bind, Node_Insert_loop_run]
  cases h1 : CBinary.Node_Insert_loop (w.brk + 1) w node node element with
  | error e => rfl
  | ok prev =>
    simp only [map_ok, ok_bind, Prog.run, Cmd.exec]
    cases h2 : CBinary.set_parent w element prev with
    | error e => rfl
    | ok w1 =>
      simp only [ok_bind]
      cases h3 : CBinary.deref w1 prev with
      | error e => rfl
      | ok p =>
        simp only [ok_bind]
        cases h4 : CBinary.deref w1 element with
        | error e => rfl
        | ok e =>
          simp only [ok_bind]
          by_cases hc : p.value > e.value
          · simp only [if_pos hc, Prog.run, Cmd.exec]
            cases h5 : CBinary.set_left w1 prev element <;> rfl
          · simp only [if_neg hc, Prog.run, Cmd.exec]
            cases h5 : CBinary.set_right w1 prev element <;> rfl

theorem search_loop_run :
    ∀ (fuel : Nat) (w : World) (curr : Ptr) (value : Int),
      (search_loop fuel curr value).run w =
        (CBinary.search_loop fuel w curr value).map fun r => (w, r) := by
  intro fuel
  induction fuel with
  | zero => intro w curr value; rfl
  | succ f ih =>
    intro w curr value
    cases curr with
    | none => rfl
    | some a =>
      simp only [search_loop, CBinary.search_loop, Prog.run]
      cases h1 : CBinary.deref w (some a) with
      | error e => rfl
      | ok c =>
        simp only [ok_bind]
        by_cases hv : c.value ≠ value
        · simp only [if_pos hv]
          by_cases hc : c.value > value
          · simp only [if_pos hc]; exact ih _ _ _
          · simp only [if_neg hc]; exact ih _ _ _
        · simp only [if_neg hv, Prog.run, pure_eq_ok, map_ok]

theorem insert_body_run (w : World) (value : Int) :
    (insert_body value).run w = (CBinary.insert_body w value).map fun w => (w, ()) := by
  have e : (insert_body value).run w =
      (if (CBinary.malloc_element w value).1.tree.root = none then
        Prog.cmd (.set_root (CBinary.malloc_element w value).2) (.ret ())
       else Prog.root fun r => Node_Insert r (CBinary.malloc_element w value).2).run
        (CBinary.malloc_element w value).1 := rfl
  rw [e, CBinary.insert_body]
  by_cases hr : (CBinary.malloc_element w value).1.tree.root = none
  · rw [if_pos hr, if_pos hr]; rfl
  · rw [if_neg hr, if_neg hr]
    exact Node_Insert_run _ _ _

theorem local_tree_insert_run (w : World) (value : Int) :
    (local_tree_insert value).run w =
      (CBinary.local_tree_insert w value).map fun w => (w, ()) := by
  rw [CBinary.local_tree_insert_eq]
  simp only [local_tree_insert, Prog.run_bind, tree_lock_wr_run, insert_body_run,
    tree_unlock_run]
  cases h1 : CBinary.tree_lock_wr w with
  | error e => rfl
  | ok w1 =>
    simp only [map_ok, ok_bind]
    cases h2 : CBinary.insert_body w1 value with
    | error e => rfl
    | ok w2 => simp only [map_ok, ok_bind]

theorem opt_Node_Insert_run (w : World) (b : Prop) [Decidable b] (node element : Ptr) :
    (if b then Node_Insert node element else Prog.ret ()).run w =
      (if b then CBinary.Node_Insert w node element else pure w).map fun w => (w, ()) := by
  by_cases h : b
  · rw [if_pos h, if_pos h]; exact Node_Insert_run _ _ _
  · rw [if_neg h, if_neg h]; rfl

theorem local_tree_delete_root_run (w : World) (curr : Ptr) :
    (local_tree_delete_root curr).run w =
      (CBinary.local_tree_delete_root w curr).map fun w => (w, ()) := by
  simp only [local_tree_delete_root, CBinary.local_tree_delete_root, Prog.run, Prog.run_bind]
  cases h1 : CBinary.deref w curr with
  | error e => rfl
  | ok c =>
    simp only [ok_bind]
    have key : (if c.left ≠ none then
          Prog.cmd (.set_root c.left) <| .deref curr fun d => .root fun r =>
            .cmd (.set_parent d.left r) <|
              (if c.right ≠ none then Prog.root fun r => Node_Insert r c.right else .ret ())
         else Prog.cmd (.set_root c.right) (.ret ())).run w =
        (if c.left ≠ none then do
            let c' ← CBinary.deref (CBinary.set_root w c.left) curr
            let w ← CBinary.set_parent (CBinary.set_root w c.left) c'.left
              (CBinary.set_root w c.left).tree.root
            (if c.right ≠ none then CBinary.Node_Insert w w.tree.root c.right else pure w)
          else pure (CBinary.set_root w c.right)).map fun w => (w, ()) := by
      by_cases hl : c.left ≠ none
      · rw [if_pos hl, if_pos hl]
        simp only [Prog.run, Cmd.exec, ok_bind]
        cases h2 : CBinary.deref (CBinary.set_root w c.left) curr with
        | error e => rfl
        | ok d =>
          simp only [ok_bind]
          cases h3 : CBinary.set_parent (CBinary.set_root w c.left) d.left
              (CBinary.set_root w c.left).tree.root with
          | error e => rfl
          | ok w3 =>
            simp only [ok_bind]
            by_cases hrb : c.right ≠ none
            · rw [if_pos hrb, if_pos hrb]; exact Node_Insert_run _ _ _
            · rw [if_neg hrb, if_neg hrb]; rfl
      · rw [if_neg hl, if_neg hl]; rfl
    rw [key]
    cases h2 : (if c.left ≠ none then do
            let c' ← CBinary.deref (CBinary.set_root w c.left) curr
            let w ← CBinary.set_parent (CBinary.set_root w c.left) c'.left
              (CBinary.set_root w c.left).tree.root
            (if c.right ≠ none then CBinary.Node_Insert w w.tree.root c.right else pure w)
          else pure (CBinary.set_root w c.right)) with
    | error e => rfl
    | ok w2 =>
      simp only [map_ok, ok_bind]
      by_cases hr : w2.tree.root ≠ none
      · simp only [if_pos hr, Prog.run, Cmd.exec]
        cases h3 : CBinary.set_parent w2 w2.tree.root none with
        | error e => rfl
        | ok w3 =>
          simp only [ok_bind]
          cases h4 : CBinary.free w3 curr <;> rfl
      · simp only [if_neg hr, Prog.run, Cmd.exec, pure_eq_ok, ok_bind]
        cases h4 : CBinary.free w2 curr <;> rfl

theorem relink_run (w : World) (curr rb : Ptr) :
    (Prog.deref curr fun d =>
      (if d.left ≠ none then Prog.cmd (.set_parent d.left d.parent) (.ret ())
       else .ret ()).bind fun _ =>
      .deref curr fun e =>
        (if rb ≠ none then Node_Insert e.parent rb else .ret ())).run w =
      (do
        let c ← CBinary.deref w curr
        let w ← (if c.left ≠ none then CBinary.set_parent w c.left c.parent else pure w)
        let c ← CBinary.deref w curr
        (if rb ≠ none then CBinary.Node_Insert w c.parent rb else pure w)).map
        fun w => (w, ()) := by
  simp only [Prog.run]
  cases h1 : CBinary.deref w curr with
  | error e => rfl
  | ok c =>
    simp only [ok_bind, Prog.run_bind]
    have key : (if c.left ≠ none then Prog.cmd (.set_parent c.left c.parent) (.ret ())
          else Prog.ret ()).run w =
        (if c.left ≠ none then CBinary.set_parent w c.left c.parent else pure w).map
          fun w => (w, ()) := by
      by_cases hl : c.left ≠ none
      · rw [if_pos hl, if_pos hl]
        simp only [Prog.run, Cmd.exec]
        cases h2 : CBinary.set_parent w c.left c.parent <;> rfl
      · rw [if_neg hl, if_neg hl]; rfl
    rw [key]
    cases h2 : (if c.left ≠ none then CBinary.set_parent w c.left c.parent else pure w) with
    | error e => rfl
    | ok w2 =>
      simp only [map_ok, ok_bind, Prog.run]
      cases h3 : CBinary.deref w2 curr with
      | error e => rfl
      | ok d =>
        simp only [ok_bind]
        exact opt_Node_Insert_run _ _ _ _

theorem local_tree_delete_inner_run (w : World) (curr : Ptr) :
    (local_tree_delete_inner curr).run w =
      (CBinary.local_tree_delete_inner w curr).map fun w => (w, ()) := by
  simp only [local_tree_delete_inner, CBinary.local_tree_delete_inner, Prog.run,
    Prog.run_bind]
  cases h1 : CBinary.deref w curr with
  | error e => rfl
  | ok c =>
    simp only [ok_bind]
    cases h2 : CBinary.deref w c.parent with
    | error e => rfl
    | ok p =>
      simp only [ok_bind]
      by_cases hp : p.left = curr
      · simp only [if_pos hp, Prog.run, Cmd.exec]
        cases h3 : CBinary.set_left w c.parent c.left with
        | error e => rfl
        | ok w3 =>
          simp only [ok_bind]
          have k := relink_run w3 curr c.right
          simp only [Prog.run] at k
          rw [k]
          cases h4 : (do
              let c' ← CBinary.deref w3 curr
              let w ← (if c'.left ≠ none then CBinary.set_parent w3 c'.left c'.parent
                        else pure w3)
              let c' ← CBinary.deref w curr
              (if c.right ≠ none then CBinary.Node_Insert w c'.parent c.right else pure w)) with
          | error e => rfl
          | ok w4 =>
            simp only [map_ok, ok_bind]
            cases h5 : CBinary.free w4 curr <;> rfl
      · simp only [if_neg hp, Prog.run, Cmd.exec]
        cases h3 : CBinary.set_right w c.parent c.left with
        | error e => rfl
        | ok w3 =>
          simp only [ok_bind]
          have k := relink_run w3 curr c.right
          simp only [Prog.run] at k
          rw [k]
          cases h4 : (do
              let c' ← CBinary.deref w3 curr
              let w ← (if c'.left ≠ none then CBinary.set_parent w3 c'.left c'.parent
                        else pure w3)
              let c' ← CBinary.deref w curr
              (if c.right ≠ none then CBinary.Node_Insert w c'.parent c.right else pure w)) with
          | error e => rfl
          | ok w4 =>
            simp only [map_ok, ok_bind]
            cases h5 : CBinary.free w4 curr <;> rfl

theorem delete_body_run (w : World) (value : Int) :
    (delete_body value).run w = (CBinary.delete_body w value).map fun w => (w, ()) := by
  have e : (delete_body value).run w =
      (if w.tree.root ≠ none then
        ((search_loop (w.brk + 1) w.tree.root value).bind fun curr =>
          if curr ≠ none then
            Prog.root fun r =>
              if curr = r then local_tree_delete_root curr
              else local_tree_delete_inner curr
          else .ret ())
       else Prog.ret ()).run w := by
    simp only [delete_body, Prog.run]
    by_cases hr : w.tree.root ≠ none
    · rw [if_pos hr, if_pos hr]; rfl
    · rw [if_neg hr, if_neg hr]
  rw [e, CBinary.delete_body]
  by_cases hr : w.tree.root ≠ none
  · rw [if_pos hr, if_pos hr, Prog.run_bind, search_loop_run]
    cases h1 : CBinary.search_loop (w.brk + 1) w w.tree.root value with
    | error e => rfl
    | ok curr =>
      simp only [map_ok, ok_bind]
      by_cases hc : curr ≠ none
      · rw [if_pos hc, if_pos hc]
        by_cases hcr : curr = w.tree.root
        · rw [if_pos hcr]
          have e2 : (Prog.root fun r =>
              if curr = r then local_tree_delete_root curr
              else local_tree_delete_inner curr).run w =
              (local_tree_delete_root curr).run w := by
            show (if curr = w.tree.root then local_tree_delete_root curr
              else local_tree_delete_inner curr).run w = _
            rw [if_pos hcr]
          rw [e2]; exact local_tree_delete_root_run _ _
        · rw [if_neg hcr]
          have e2 : (Prog.root fun r =>
              if curr = r then local_tree_delete_root curr
              else local_tree_delete_inner curr).run w =
              (local_tree_delete_inner curr).run w := by
            show (if curr = w.tree.root then local_tree_delete_root curr
              else local_tree_delete_inner curr).run w = _
            rw [if_neg hcr]
          rw [e2]; exact local_tree_delete_inner_run _ _
      · rw [if_neg hc, if_neg hc]; rfl
  · rw [if_neg hr, if_neg hr]; rfl

theorem local_tree_delete_run (w : World) (value : Int) :
    (local_tree_delete value).run w =
      (CBinary.local_tree_delete w value).map fun w => (w, ()) := by
  rw [CBinary.local_tree_delete_eq]
  simp only [local_tree_delete, Prog.run_bind, tree_lock_wr_run, delete_body_run,
    tree_unlock_run]
  cases h1 : CBinary.tree_lock_wr w with
  | error e => rfl
  | ok w1 =>
    simp only [map_ok, ok_bind]
    cases h2 : CBinary.delete_body w1 value with
    | error e => rfl
    | ok w2 => simp only [map_ok, ok_bind]

theorem Prog.body_bind {α β : Type} (p : Prog α) (f : α → Prog β) :
    p.Body → (∀ a, (f a).Body) → (p.bind f).Body := by
  induction p with
  | ret a => intro _ hf; exact hf a
  | fail e => intro _ _; trivial
  | lock_type k ih => intro h hf x; exact ih x (h x) hf
  | fuel k ih => intro h hf x; exact ih x (h x) hf
  | deref p k ih => intro h hf x; exact ih x (h x) hf
  | root k ih => intro h hf x; exact ih x (h x) hf
  | malloc_element v k ih => intro h hf x; exact ih x (h x) hf
  | cmd c k ih => intro h hf; exact ⟨h.1, ih h.2 hf⟩

theorem Prog.crit_bind {α : Type} (lt : Int) (ex : Cmd) (p : Prog α) (f : α → Prog Unit) :
    p.Body → (∀ a, (f a).Crit lt ex) → (p.bind f).Crit lt ex := by
  induction p with
  | ret a => intro _ hf; exact hf a
  | fail e => intro _ _; trivial
  | lock_type k ih => intro h hf; exact ih lt (h lt) hf
  | fuel k ih => intro h hf x; exact ih x (h x) hf
  | deref p k ih => intro h hf x; exact ih x (h x) hf
  | root k ih => intro h hf x; exact ih x (h x) hf
  | malloc_element v k ih => intro h hf x; exact ih x (h x) hf
  | cmd c k ih => intro h hf; exact Or.inr ⟨h.1, ih h.2 hf⟩

theorem body_ite {α : Type} (b : Prop) [Decidable b] (p q : Prog α) (hp : p.Body)
    (hq : q.Body) : (if b then p else q).Body := by
  by_cases h : b
  · rw [if_pos h]; exact hp
  · rw [if_neg h]; exact hq

theorem Node_Insert_loop_body :
    ∀ (fuel : Nat) (curr prev element : Ptr), (Node_Insert_loop fuel curr prev element).Body := by
  intro fuel
  induction fuel with
  | zero => intro _ _ _; trivial
  | succ f ih =>
    intro curr prev element
    cases curr with
    | none => trivial
    | some a =>
      intro c e
      exact body_ite _ _ _ (ih _ _ _) (ih _ _ _)

theorem Node_Insert_body (node element : Ptr) : (Node_Insert node element).Body := by
  intro b
  refine Prog.body_bind _ _ (Node_Insert_loop_body _ _ _ _) ?_
  intro prev
  refine ⟨rfl, ?_⟩
  intro p e
  exact body_ite _ _ _ ⟨rfl, trivial⟩ ⟨rfl, trivial⟩

theorem search_loop_body :
    ∀ (fuel : Nat) (curr : Ptr) (value : Int), (search_loop fuel curr value).Body := by
  intro fuel
  induction fuel with
  | zero => intro _ _; trivial
  | succ f ih =>
    intro curr value
    cases curr with
    | none => trivial
    | some a =>
      intro c
      exact body_ite _ _ _ (body_ite _ _ _ (ih _ _) (ih _ _)) trivial

theorem insert_body_body (value : Int) : (insert_body value).Body := by
  intro element r
  exact body_ite _ _ _ ⟨rfl, trivial⟩ (fun r => Node_Insert_body r element)

theorem local_tree_delete_root_body (curr : Ptr) : (local_tree_delete_root curr).Body := by
  intro c
  refine Prog.body_bind _ _ ?_ ?_
  · refine body_ite _ _ _ ⟨rfl, ?_⟩ ⟨rfl, trivial⟩
    intro d r
    exact ⟨rfl, body_ite _ _ _ (fun r => Node_Insert_body r c.right) trivial⟩
  · intro _ r
    refine Prog.body_bind _ _ ?_ ?_
    · exact body_ite _ _ _ (fun r => ⟨rfl, trivial⟩) trivial
    · intro _; exact ⟨rfl, trivial⟩

theorem relink_body (curr rb : Ptr) :
    (Prog.deref curr fun d =>
      (if d.left ≠ none then Prog.cmd (.set_parent d.left d.parent) (.ret ())
       else .ret ()).bind fun _ =>
      .deref curr fun e =>
        (if rb ≠ none then Node_Insert e.parent rb else .ret ())).Body := by
  intro d
  refine Prog.body_bind _ _ (body_ite _ _ _ ⟨rfl, trivial⟩ trivial) ?_
  intro _ e
  exact body_ite _ _ _ (Node_Insert_body _ _) trivial

theorem local_tree_delete_inner_body (curr : Ptr) : (local_tree_delete_inner curr).Body := by
  intro c p
  refine Prog.body_bind _ _ ?_ (fun _ => ⟨rfl, trivial⟩)
  exact body_ite _ _ _ ⟨rfl, relink_body curr c.right⟩ ⟨rfl, relink_body curr c.right⟩

theorem delete_body_body (value : Int) : (delete_body value).Body := by
  intro r
  refine body_ite _ _ _ ?_ trivial
  intro r b
  refine Prog.body_bind _ _ (search_loop_body _ _ _) ?_
  intro curr
  refine body_ite _ _ _ ?_ trivial
  intro r
  exact body_ite _ _ _ (local_tree_delete_root_body _) (local_tree_delete_inner_body _)

theorem Cmd.exec_frame {c : Cmd} {w w1 : World} (hc : c.is_lock = false)
    (h : c.exec w = .ok w1) :
    w1.tree.lock_type = w.tree.lock_type ∧ w1.tree.m_lock = w.tree.m_lock ∧
      w1.tree.rw_lock = w.tree.rw_lock := by
  cases c with
  | set_left p q =>
    cases p with
    | none => simp [Cmd.exec, CBinary.set_left] at h
    | some a =>
      simp only [Cmd.exec, CBinary.set_left] at h
      cases hm : w.mem a with
      | none => rw [hm] at h; cases h
      | some n => rw [hm] at h; cases h; exact ⟨rfl, rfl, rfl⟩
  | set_right p q =>
    cases p with
    | none => simp [Cmd.exec, CBinary.set_right] at h
    | some a =>
      simp only [Cmd.exec, CBinary.set_right] at h
      cases hm : w.mem a with
      | none => rw [hm] at h; cases h
      | some n => rw [hm] at h; cases h; exact ⟨rfl, rfl, rfl⟩
  | set_parent p q =>
    cases p with
    | none => simp [Cmd.exec, CBinary.set_parent] at h
    | some a =>
      simp only [Cmd.exec, CBinary.set_parent] at h
      cases hm : w.mem a with
      | none => rw [hm] at h; cases h
      | some n => rw [hm] at h; cases h; exact ⟨rfl, rfl, rfl⟩
  | set_root q => simp only [Cmd.exec] at h; cases h; exact ⟨rfl, rfl, rfl⟩
  | free p =>
    cases p with
    | none => simp only [Cmd.exec, CBinary.free] at h; cases h; exact ⟨rfl, rfl, rfl⟩
    | some a =>
      simp only [Cmd.exec, CBinary.free] at h
      cases hm : w.mem a with
      | none => rw [hm] at h; cases h
      | some n => rw [hm] at h; cases h; exact ⟨rfl, rfl, rfl⟩
  | lock m => cases hc
  | unlock m => cases hc
  | wrlock => cases hc
  | rdlock => cases hc
  | rw_unlock => cases hc

theorem Cmd.not_blocked {c : Cmd} (hc : c.is_lock = false) (k : Prog Unit) (w : World) :
    (Prog.cmd c k).blocked w = false := by
  cases c <;> first | rfl | cases hc

theorem exit_exec {s : Strategy} {w w1 : World} (h : (exit_cmd s).exec w = .ok w1) :
    w1.tree.lock_type = w.tree.lock_type := by
  cases s with
  | ReadWrite =>
    simp only [exit_cmd, Cmd.exec, CBinary.pthread_rwlock_unlock] at h
    cases hr : w.tree.rw_lock with
    | free => rw [hr] at h; cases h
    | writer => rw [hr] at h; cases h; rfl
    | readers n => rw [hr] at h; cases h; rfl
  | _ =>
    simp only [exit_cmd, Cmd.exec, CBinary.unlock] at h
    cases hm : w.tree.m_lock with
    | none => rw [hm] at h; cases h
    | some b =>
      rw [hm] at h
      cases b with
      | false => cases h
      | true => cases h; rfl

theorem exit_not_blocked (s : Strategy) (k : Prog Unit) (w : World) :
    (Prog.cmd (exit_cmd s) k).blocked w = false := by
  cases s <;> rfl

theorem Prog.done_returned {lt : Int} (p : Prog Unit) :
    p.Done lt → ∀ w, w.tree.lock_type = lt → p.returned w = true := by
  induction p with
  | ret a => intro _ _ _; rfl
  | fail e => intro h; exact h.elim
  | lock_type k ih =>
    intro h w hlt
    simp only [Prog.returned, hlt]
    exact ih lt h w hlt
  | fuel k ih => intro h w hlt; exact ih _ (h _) w hlt
  | deref p k _ => intro h; exact h.elim
  | root k _ => intro h; exact h.elim
  | malloc_element v k _ => intro h; exact h.elim
  | cmd c k _ => intro h; exact h.elim

theorem Prog.crit_step (s : Strategy) (p : Prog Unit) :
    p.Crit s.code (exit_cmd s) → ∀ w, w.tree.lock_type = s.code →
      p.blocked w = false ∧ p.returned w = false ∧
      ∀ w1 p1, p.step w = .ok (w1, p1) → w1.tree.lock_type = s.code ∧
        ((w1.tree.m_lock = w.tree.m_lock ∧ w1.tree.rw_lock = w.tree.rw_lock ∧
            p1.Crit s.code (exit_cmd s)) ∨ p1.Done s.code) := by
  induction p with
  | ret a => intro h; exact h.elim
  | fail e =>
    intro _ w _
    exact ⟨rfl, rfl, fun w1 p1 h => by cases h⟩
  | lock_type k ih =>
    intro h w hlt
    have := ih s.code h w hlt
    simp only [Prog.blocked, Prog.returned, Prog.step, hlt]
    exact this
  | fuel k ih =>
    intro h w hlt
    exact ih w.brk (h _) w hlt
  | deref p k _ =>
    intro h w hlt
    refine ⟨rfl, rfl, fun w1 p1 e => ?_⟩
    simp only [Prog.step] at e
    cases hd : CBinary.deref w p with
    | error x => rw [hd] at e; cases e
    | ok n =>
      rw [hd] at e
      cases e
      exact ⟨hlt, Or.inl ⟨rfl, rfl, h n⟩⟩
  | root k _ =>
    intro h w hlt
    refine ⟨rfl, rfl, fun w1 p1 e => ?_⟩
    cases e
    exact ⟨hlt, Or.inl ⟨rfl, rfl, h _⟩⟩
  | malloc_element v k _ =>
    intro h w hlt
    refine ⟨rfl, rfl, fun w1 p1 e => ?_⟩
    cases e
    exact ⟨hlt, Or.inl ⟨rfl, rfl, h _⟩⟩
  | cmd c k _ =>
    intro h w hlt
    rcases h with ⟨hc, hk⟩ | ⟨hc, hk⟩
    · subst hc
      refine ⟨exit_not_blocked s k w, rfl, fun w1 p1 e => ?_⟩
      simp only [Prog.step] at e
      cases hx : (exit_cmd s).exec w with
      | error x => rw [hx] at e; cases e
      | ok w2 =>
        rw [hx] at e
        cases e
        exact ⟨(exit_exec hx).trans hlt, Or.inr hk⟩
    · refine ⟨Cmd.not_blocked hc k w, rfl, fun w1 p1 e => ?_⟩
      simp only [Prog.step] at e
      cases hx : c.exec w with
      | error x => rw [hx] at e; cases e
      | ok w2 =>
        rw [hx] at e
        cases e
        obtain ⟨f1, f2, f3⟩ := Cmd.exec_frame hc hx
        exact ⟨f1.trans hlt, Or.inl ⟨f2, f3, hk⟩⟩

theorem tree_unlock_crit {s : Strategy} (hs : s = .Coarse ∨ s = .ReadWrite) :
    tree_unlock.Crit s.code (exit_cmd s) := by
  rcases hs with h | h <;> subst h
  · simp [tree_unlock, Prog.Crit, Prog.bind, Prog.Done, Strategy.code, COARSE_LOCK, RW_LOCK,
      exit_cmd]
  · simp [tree_unlock, Prog.Crit, Prog.bind, Prog.Done, Strategy.code, COARSE_LOCK, RW_LOCK,
      exit_cmd]

theorem tree_lock_rd_run (w : World) :
    tree_lock_rd.run w = (CBinary.tree_lock_rd w).map fun w => (w, ()) := by
  simp only [tree_lock_rd, CBinary.tree_lock_rd, Prog.run]
  by_cases h1 : w.tree.lock_type = COARSE_LOCK
  · simp only [if_pos h1, Prog.bind, Prog.run, Cmd.exec]
    cases h : CBinary.lock w .tree with
    | error e => rfl
    | ok w1 =>
      simp only [ok_bind]
      by_cases h2 : w1.tree.lock_type = RW_LOCK
      · simp only [if_pos h2, Prog.run, Cmd.exec]
        cases h3 : CBinary.pthread_rwlock_rdlock w1 <;> rfl
      · simp only [if_neg h2, Prog.run, pure_eq_ok, map_ok]
  · simp only [if_neg h1, Prog.bind, Prog.run, pure_eq_ok, ok_bind]
    by_cases h2 : w.tree.lock_type = RW_LOCK
    · simp only [if_pos h2, Prog.run, Cmd.exec]
      cases h3 : CBinary.pthread_rwlock_rdlock w <;> rfl
    · simp only [if_neg h2, Prog.run, map_ok]

theorem lookup_body_run (w : World) (value : Int) :
    (Prog.root fun r =>
      if r = none then tree_unlock.bind fun _ => Prog.ret none
      else
        Prog.root fun r =>
        Prog.fuel fun b =>
        (search_loop (b + 1) r value).bind fun curr =>
        tree_unlock.bind fun _ => Prog.ret curr).run w =
    (if w.tree.root = none then do
        let w ← CBinary.tree_unlock w
        pure (w, none)
      else do
        let curr ← CBinary.search_loop (w.brk + 1) w w.tree.root value
        let w ← CBinary.tree_unlock w
        pure (w, curr)) := by
  have e : (Prog.root fun r =>
      if r = none then tree_unlock.bind fun _ => Prog.ret none
      else
        Prog.root fun r =>
        Prog.fuel fun b =>
        (search_loop (b + 1) r value).bind fun curr =>
        tree_unlock.bind fun _ => Prog.ret curr).run w =
      (if w.tree.root = none then tree_unlock.bind fun _ => Prog.ret none
       else (search_loop (w.brk + 1) w.tree.root value).bind fun curr =>
          tree_unlock.bind fun _ => Prog.ret curr).run w := by
    by_cases hr : w.tree.root = none
    · simp only [Prog.run, if_pos hr]
    · rw [if_neg hr]
      show Prog.run (if w.tree.root = none then tree_unlock.bind fun _ => Prog.ret none
        else
          Prog.root fun r =>
          Prog.fuel fun b =>
          (search_loop (b + 1) r value).bind fun curr =>
          tree_unlock.bind fun _ => Prog.ret curr) w = _
      rw [if_neg hr]
      rfl
  rw [e]
  by_cases hr : w.tree.root = none
  · rw [if_pos hr, if_pos hr, Prog.run_bind, tree_unlock_run]
    cases h : CBinary.tree_unlock w <;> rfl
  · rw [if_neg hr, if_neg hr, Prog.run_bind, search_loop_run]
    cases h1 : CBinary.search_loop (w.brk + 1) w w.tree.root value with
    | error e => rfl
    | ok curr =>
      simp only [map_ok, ok_bind, Prog.run_bind, tree_unlock_run]
      cases h : CBinary.tree_unlock w <;> rfl

theorem local_tree_lookup_run (w : World) (value : Int) :
    (local_tree_lookup value).run w = CBinary.local_tree_lookup w value := by
  simp only [local_tree_lookup, CBinary.local_tree_lookup]
  rw [Prog.run_bind, tree_lock_rd_run]
  cases h1 : CBinary.tree_lock_rd w with
  | error e => rfl
  | ok w1 =>
    simp only [map_ok, ok_bind]
    exact lookup_body_run w1 value

theorem call_run {s : Strategy} (hs : s ≠ .FineGrained) (o : Op) (w : World) :
    (call o).run w = (step (dispatch s) w o).map fun w => (w, ()) := by
  cases o with
  | insert v =>
    simp only [call, step, dispatch_plain hs, Tree_Insert]
    exact local_tree_insert_run w v
  | delete v =>
    simp only [call, step, dispatch_plain hs, Tree_Delete]
    exact local_tree_delete_run w v
  | lookup v =>
    simp only [call, step, dispatch_plain hs, Tree_Lookup, Prog.run_bind,
      local_tree_lookup_run]
    cases h : CBinary.local_tree_lookup w v with
    | error e => rfl
    | ok r =>
      simp only [ok_bind]
      cases hr : r.2 with
      | none => simp [Element_Release, Prog.run, map_ok]
      | some a =>
        simp [Element_Release, Prog.run, map_ok, local_tree_element_release,
          CBinary.local_tree_element_release]

theorem Prog.bind_assoc {α β γ : Type} (p : Prog α) (f : α → Prog β) (g : β → Prog γ) :
    (p.bind f).bind g = p.bind (fun a => (f a).bind g) := by
  induction p with
  | ret a => rfl
  | fail e => rfl
  | lock_type k ih => simp only [Prog.bind]; congr 1; funext x; exact ih x
  | fuel k ih => simp only [Prog.bind]; congr 1; funext x; exact ih x
  | deref q k ih => simp only [Prog.bind]; congr 1; funext x; exact ih x
  | root k ih => simp only [Prog.bind]; congr 1; funext x; exact ih x
  | malloc_element v k ih => simp only [Prog.bind]; congr 1; funext x; exact ih x
  | cmd c k ih => simp only [Prog.bind]; congr 1

theorem Prog.rcrit_bind {α : Type} (lt : Int) (p : Prog α) (f : α → Prog Unit) :
    p.Reads → (∀ a, (f a).RCrit lt) → (p.bind f).RCrit lt := by
  induction p with
  | ret a => intro _ hf; exact hf a
  | fail e => intro _ _; trivial
  | lock_type k ih => intro h hf; exact ih lt (h lt) hf
  | fuel k ih => intro h hf x; exact ih x (h x) hf
  | deref p k ih => intro h hf x; exact ih x (h x) hf
  | root k ih => intro h hf x; exact ih x (h x) hf
  | malloc_element v k _ => intro h; exact h.elim
  | cmd c k _ => intro h; exact h.elim

theorem reads_ite {α : Type} (b : Prop) [Decidable b] (p q : Prog α) (hp : p.Reads)
    (hq : q.Reads) : (if b then p else q).Reads := by
  by_cases h : b
  · rw [if_pos h]; exact hp
  · rw [if_neg h]; exact hq

theorem search_loop_reads :
    ∀ (fuel : Nat) (curr : Ptr) (value : Int), (search_loop fuel curr value).Reads := by
  intro fuel
  induction fuel with
  | zero => intro _ _; trivial
  | succ f ih =>
    intro curr value
    cases curr with
    | none => trivial
    | some a =>
      intro c
      exact reads_ite _ _ _ (reads_ite _ _ _ (ih _ _) (ih _ _)) trivial

/-- The exit block followed by code that returns at once is the end of a critical
section. -/
theorem tree_unlock_bind_crit {s : Strategy} (hs : s = .Coarse ∨ s = .ReadWrite)
    (f : Unit → Prog Unit) (hf : ∀ u, (f u).Done s.code) :
    (tree_unlock.bind f).Crit s.code (exit_cmd s) := by
  rcases hs with h | h <;> subst h
  · simp only [tree_unlock, Prog.bind, Prog.Crit, Strategy.code, exit_cmd]
    refine Or.inl ⟨trivial, ?_⟩
    show Prog.Done COARSE_LOCK
      ((if COARSE_LOCK = RW_LOCK then Prog.cmd Cmd.rw_unlock (Prog.ret ())
        else Prog.ret ()).bind f)
    rw [if_neg (by decide)]
    exact hf ()
  · simp only [tree_unlock, Prog.bind, Prog.Crit, Strategy.code, exit_cmd]
    exact Or.inl ⟨trivial, hf ()⟩

theorem tree_unlock_bind_rcrit (f : Unit → Prog Unit)
    (hf : ∀ u, (f u).Done Strategy.ReadWrite.code) :
    (tree_unlock.bind f).RCrit Strategy.ReadWrite.code := by
  simp only [tree_unlock, Prog.bind, Prog.RCrit, Strategy.code]
  exact ⟨trivial, hf ()⟩

theorem call_lookup_eq (value : Int) :
    call (.lookup value) = tree_lock_rd.bind fun _ => lookup_rest value := by
  simp only [call, local_tree_lookup, lookup_rest]
  rw [Prog.bind_assoc]

theorem release_done (lt : Int) (e : Ptr) :
    ((Prog.ret e : Prog Ptr).bind fun element =>
      if element ≠ none then local_tree_element_release element else .ret ()).Done lt := by
  cases e with
  | none => simp [Prog.bind, Prog.Done]
  | some a => simp [Prog.bind, Prog.Done, local_tree_element_release]

theorem lookup_rest_crit {s : Strategy} (hs : s = .Coarse ∨ s = .ReadWrite) (value : Int) :
    (lookup_rest value).Crit s.code (exit_cmd s) := by
  intro r
  by_cases hr : r = none
  · simp only [if_pos hr]
    rw [Prog.bind_assoc]
    exact tree_unlock_bind_crit hs _ (fun _ => release_done _ _)
  · simp only [if_neg hr]
    intro r b
    beta_reduce
    rw [Prog.bind_assoc]
    refine Prog.crit_bind _ _ _ _ (search_loop_body _ _ _) ?_
    intro curr
    rw [Prog.bind_assoc]
    exact tree_unlock_bind_crit hs _ (fun _ => release_done _ _)

theorem lookup_rest_rcrit (value : Int) :
    (lookup_rest value).RCrit Strategy.ReadWrite.code := by
  intro r
  by_cases hr : r = none
  · simp only [if_pos hr]
    rw [Prog.bind_assoc]
    exact tree_unlock_bind_rcrit _ (fun _ => release_done _ _)
  · simp only [if_neg hr]
    intro r b
    beta_reduce
    rw [Prog.bind_assoc]
    refine Prog.rcrit_bind _ _ _ (search_loop_reads _ _ _) ?_
    intro curr
    rw [Prog.bind_assoc]
    exact tree_unlock_bind_rcrit _ (fun _ => release_done _ _)

/-- The first step of a writer: the call that takes the tree lock, and after it the rest
of a critical section. -/
theorem lock_wr_entry {s : Strategy} (hs : s = .Coarse ∨ s = .ReadWrite) (Q : Prog Unit)
    (hQ : Q.Crit s.code (exit_cmd s)) :
    ∃ K, K.Crit s.code (exit_cmd s) ∧ ∀ w, w.tree.lock_type = s.code →
      (tree_lock_wr.bind fun _ => Q).returned w = false ∧
      (tree_lock_wr.bind fun _ => Q).blocked w =
        (Prog.cmd (entry_cmd s) (Prog.ret ())).blocked w ∧
      (tree_lock_wr.bind fun _ => Q).step w =
        ((entry_cmd s).exec w).map fun w1 => (w1, K) := by
  rcases hs with h | h <;> subst h
  · refine ⟨Prog.lock_type fun lt =>
      ((if lt = RW_LOCK then Prog.cmd .wrlock (.ret ()) else .ret ()).bind fun _ => Q), ?_, ?_⟩
    · show Prog.Crit COARSE_LOCK _
        ((if COARSE_LOCK = RW_LOCK then Prog.cmd Cmd.wrlock (Prog.ret ())
          else Prog.ret ()).bind fun _ => Q)
      rw [if_neg (by decide)]
      exact hQ
    · intro w hlt
      simp only [Strategy.code] at hlt
      refine ⟨?_, ?_, ?_⟩
      · simp [tree_lock_wr, Prog.bind, Prog.returned, hlt, COARSE_LOCK, RW_LOCK]
      · simp [tree_lock_wr, Prog.bind, Prog.blocked, hlt, COARSE_LOCK, RW_LOCK, entry_cmd]
      · simp only [tree_lock_wr, Prog.bind, Prog.step, hlt, entry_cmd]
        cases hx : Cmd.exec (.lock .tree) w <;> rfl
  · refine ⟨Q, hQ, ?_⟩
    intro w hlt
    simp only [Strategy.code] at hlt
    refine ⟨?_, ?_, ?_⟩
    · simp [tree_lock_wr, Prog.bind, Prog.returned, hlt, COARSE_LOCK, RW_LOCK]
    · simp [tree_lock_wr, Prog.bind, Prog.blocked, hlt, COARSE_LOCK, RW_LOCK, entry_cmd]
    · simp only [tree_lock_wr, Prog.bind, Prog.step, hlt, entry_cmd]
      cases hx : Cmd.exec .wrlock w <;> rfl

/-- The first step of a reader on a Coarse tree: the call that takes the mutex. -/
theorem lock_rd_entry_coarse (Q : Prog Unit)
    (hQ : Q.Crit Strategy.Coarse.code (exit_cmd .Coarse)) :
    ∃ K, K.Crit Strategy.Coarse.code (exit_cmd .Coarse) ∧
      ∀ w, w.tree.lock_type = Strategy.Coarse.code →
      (tree_lock_rd.bind fun _ => Q).returned w = false ∧
      (tree_lock_rd.bind fun _ => Q).blocked w =
        (Prog.cmd (.lock .tree) (Prog.ret ())).blocked w ∧
      (tree_lock_rd.bind fun _ => Q).step w =
        (Cmd.exec (.lock .tree) w).map fun w1 => (w1, K) := by
  refine ⟨Prog.lock_type fun lt =>
    ((if lt = RW_LOCK then Prog.cmd .rdlock (.ret ()) else .ret ()).bind fun _ => Q), ?_, ?_⟩
  · show Prog.Crit COARSE_LOCK _
      ((if COARSE_LOCK = RW_LOCK then Prog.cmd Cmd.rdlock (Prog.ret ())
        else Prog.ret ()).bind fun _ => Q)
    rw [if_neg (by decide)]
    exact hQ
  · intro w hlt
    simp only [Strategy.code] at hlt
    refine ⟨?_, ?_, ?_⟩
    · simp [tree_lock_rd, Prog.bind, Prog.returned, hlt, COARSE_LOCK, RW_LOCK]
    · simp [tree_lock_rd, Prog.bind, Prog.blocked, hlt, COARSE_LOCK, RW_LOCK]
    · simp only [tree_lock_rd, Prog.bind, Prog.step, hlt]
      cases hx : Cmd.exec (.lock .tree) w <;> rfl

/-- The first step of a reader on a ReadWrite tree: `pthread_rwlock_rdlock`. -/
theorem lock_rd_entry_rw (Q : Prog Unit) :
    ∀ w, w.tree.lock_type = Strategy.ReadWrite.code →
      (tree_lock_rd.bind fun _ => Q).returned w = false ∧
      (tree_lock_rd.bind fun _ => Q).blocked w =
        (Prog.cmd .rdlock (Prog.ret ())).blocked w ∧
      (tree_lock_rd.bind fun _ => Q).step w =
        (Cmd.exec .rdlock w).map fun w1 => (w1, Q) := by
  intro w hlt
  simp only [Strategy.code] at hlt
  refine ⟨?_, ?_, ?_⟩
  · simp [tree_lock_rd, Prog.bind, Prog.returned, hlt, COARSE_LOCK, RW_LOCK]
  · simp [tree_lock_rd, Prog.bind, Prog.blocked, hlt, COARSE_LOCK, RW_LOCK]
  · simp only [tree_lock_rd, Prog.bind, Prog.step, hlt]
    cases hx : Cmd.exec .rdlock w <;> rfl

theorem entry_of_excl {s : Strategy} (hs : s = .Coarse ∨ s = .ReadWrite) {o : Op}
    (h : shared s o = false) : entry_of s o = entry_cmd s := by
  rcases hs with e | e <;> subst e <;> cases o <;> first | rfl | cases h

/-- The first step of a call is the call that takes the tree lock; what is left after
it is the rest of a critical section. -/
theorem call_entry {s : Strategy} (hs : s = .Coarse ∨ s = .ReadWrite) (o : Op) :
    ∃ K, (shared s o = false → K.Crit s.code (exit_cmd s)) ∧
      (shared s o = true → K.RCrit s.code) ∧
      ∀ w, w.tree.lock_type = s.code →
        (call o).returned w = false ∧
        (call o).blocked w = (Prog.cmd (entry_of s o) (Prog.ret ())).blocked w ∧
        (call o).step w = ((entry_of s o).exec w).map fun w1 => (w1, K) := by
  cases o with
  | insert v =>
    have hsh : shared s (.insert v) = false := by cases s <;> rfl
    obtain ⟨K, hK, h⟩ := lock_wr_entry hs ((insert_body v).bind fun _ => tree_unlock)
      (Prog.crit_bind _ _ _ _ (insert_body_body v) (fun _ => tree_unlock_crit hs))
    refine ⟨K, fun _ => hK, fun e => (by rw [hsh] at e; cases e), ?_⟩
    rw [entry_of_excl hs hsh]
    exact h
  | delete v =>
    have hsh : shared s (.delete v) = false := by cases s <;> rfl
    obtain ⟨K, hK, h⟩ := lock_wr_entry hs ((delete_body v).bind fun _ => tree_unlock)
      (Prog.crit_bind _ _ _ _ (delete_body_body v) (fun _ => tree_unlock_crit hs))
    refine ⟨K, fun _ => hK, fun e => (by rw [hsh] at e; cases e), ?_⟩
    rw [entry_of_excl hs hsh]
    exact h
  | lookup v =>
    rw [call_lookup_eq]
    rcases hs with e | e <;> subst e
    · obtain ⟨K, hK, h⟩ := lock_rd_entry_coarse (lookup_rest v)
        (lookup_rest_crit (Or.inl rfl) v)
      exact ⟨K, fun _ => hK, fun e => (by cases e), h⟩
    · exact ⟨lookup_rest v, fun e => (by cases e), fun _ => lookup_rest_rcrit v,
        lock_rd_entry_rw (lookup_rest v)⟩

theorem Cmd.exec_logEq {c : Cmd} {w ws w' : World} (h : LogEq w ws)
    (e : c.exec w = .ok w') : ∃ ws', c.exec ws = .ok ws' ∧ LogEq w' ws' := by
  obtain ⟨hm, hb, ht⟩ := h
  cases w with
  | mk m b t l =>
  cases ws with
  | mk m2 b2 t2 l2 =>
  simp only at hm hb ht
  subst hm hb ht
  cases c with
  | set_left p q =>
    cases p with
    | none => simp [Cmd.exec, CBinary.set_left] at e
    | some a =>
      simp only [Cmd.exec, CBinary.set_left] at e ⊢
      cases hx : m a with
      | none => simp only [hx] at e; cases e
      | some x => simp only [hx] at e ⊢; cases e; exact ⟨_, rfl, rfl, rfl, rfl⟩
  | set_right p q =>
    cases p with
    | none => simp [Cmd.exec, CBinary.set_right] at e
    | some a =>
      simp only [Cmd.exec, CBinary.set_right] at e ⊢
      cases hx : m a with
      | none => simp only [hx] at e; cases e
      | some x => simp only [hx] at e ⊢; cases e; exact ⟨_, rfl, rfl, rfl, rfl⟩
  | set_parent p q =>
    cases p with
    | none => simp [Cmd.exec, CBinary.set_parent] at e
    | some a =>
      simp only [Cmd.exec, CBinary.set_parent] at e ⊢
      cases hx : m a with
      | none => simp only [hx] at e; cases e
      | some x => simp only [hx] at e ⊢; cases e; exact ⟨_, rfl, rfl, rfl, rfl⟩
  | set_root q => simp only [Cmd.exec] at e ⊢; cases e; exact ⟨_, rfl, rfl, rfl, rfl⟩
  | free p =>
    cases p with
    | none => simp only [Cmd.exec, CBinary.free] at e ⊢; cases e; exact ⟨_, rfl, rfl, rfl, rfl⟩
    | some a =>
      simp only [Cmd.exec, CBinary.free] at e ⊢
      cases hx : m a with
      | none => simp only [hx] at e; cases e
      | some x => simp only [hx] at e ⊢; cases e; exact ⟨_, rfl, rfl, rfl, rfl⟩
  | lock mu =>
    cases mu with
    | tree =>
      simp only [Cmd.exec, CBinary.lock] at e ⊢
      cases hx : t.m_lock with
      | none => simp only [hx] at e; cases e
      | some v =>
        cases v with
        | true => simp only [hx] at e; cases e
        | false => simp only [hx] at e ⊢; cases e; exact ⟨_, rfl, rfl, rfl, rfl⟩
    | node p =>
      cases p with
      | none => simp [Cmd.exec, CBinary.lock] at e
      | some a =>
        simp only [Cmd.exec, CBinary.lock] at e ⊢
        cases hx : m a with
        | none => simp only [hx] at e; cases e
        | some x =>
          simp only [hx] at e ⊢
          cases hl : x.lock with
          | none => simp only [hl] at e; cases e
          | some v =>
            cases v with
            | true => simp only [hl] at e; cases e
            | false => simp only [hl] at e ⊢; cases e; exact ⟨_, rfl, rfl, rfl, rfl⟩
  | unlock mu =>
    cases mu with
    | tree =>
      simp only [Cmd.exec, CBinary.unlock] at e ⊢
      cases hx : t.m_lock with
      | none => simp only [hx] at e; cases e
      | some v =>
        cases v with
        | false => simp only [hx] at e; cases e
        | true => simp only [hx] at e ⊢; cases e; exact ⟨_, rfl, rfl, rfl, rfl⟩
    | node p =>
      cases p with
      | none => simp [Cmd.exec, CBinary.unlock] at e
      | some a =>
        simp only [Cmd.exec, CBinary.unlock] at e ⊢
        cases hx : m a with
        | none => simp only [hx] at e; cases e
        | some x =>
          simp only [hx] at e ⊢
          cases hl : x.lock with
          | none => simp only [hl] at e; cases e
          | some v =>
            cases v with
            | false => simp only [hl] at e; cases e
            | true => simp only [hl] at e ⊢; cases e; exact ⟨_, rfl, rfl, rfl, rfl⟩
  | wrlock =>
    simp only [Cmd.exec, CBinary.pthread_rwlock_wrlock] at e ⊢
    cases hx : t.rw_lock with
    | free => simp only [hx] at e ⊢; cases e; exact ⟨_, rfl, rfl, rfl, rfl⟩
    | readers k => simp only [hx] at e; cases e
    | writer => simp only [hx] at e; cases e
  | rdlock =>
    simp only [Cmd.exec, CBinary.pthread_rwlock_rdlock] at e ⊢
    cases hx : t.rw_lock with
    | free => simp only [hx] at e ⊢; cases e; exact ⟨_, rfl, rfl, rfl, rfl⟩
    | readers k => simp only [hx] at e ⊢; cases e; exact ⟨_, rfl, rfl, rfl, rfl⟩
    | writer => simp only [hx] at e; cases e
  | rw_unlock =>
    simp only [Cmd.exec, CBinary.pthread_rwlock_unlock] at e ⊢
    cases hx : t.rw_lock with
    | free => simp only [hx] at e; cases e
    | readers k => simp only [hx] at e ⊢; cases e; exact ⟨_, rfl, rfl, rfl, rfl⟩
    | writer => simp only [hx] at e ⊢; cases e; exact ⟨_, rfl, rfl, rfl, rfl⟩

theorem deref_logEq {w ws : World} (h : LogEq w ws) (p : Ptr) :
    CBinary.deref w p = CBinary.deref ws p := by
  cases p with
  | none => rfl
  | some a => simp only [CBinary.deref, h.1]

theorem Prog.run_logEq {α : Type} (p : Prog α) :
    ∀ (w ws w' : World) (a : α), LogEq w ws → p.run w = .ok (w', a) →
      ∃ ws', p.run ws = .ok (ws', a) ∧ LogEq w' ws' := by
  induction p with
  | ret x => intro w ws w' a h e; cases e; exact ⟨ws, rfl, h⟩
  | fail x => intro w ws w' a _ e; cases e
  | lock_type k ih =>
    intro w ws w' a h e
    have e' : (k w.tree.lock_type).run w = .ok (w', a) := e
    obtain ⟨ws', h1, h2⟩ := ih _ w ws w' a h e'
    refine ⟨ws', ?_, h2⟩
    show (k ws.tree.lock_type).run ws = _
    rw [← h.2.2]; exact h1
  | fuel k ih =>
    intro w ws w' a h e
    have e' : (k w.brk).run w = .ok (w', a) := e
    obtain ⟨ws', h1, h2⟩ := ih _ w ws w' a h e'
    refine ⟨ws', ?_, h2⟩
    show (k ws.brk).run ws = _
    rw [← h.2.1]; exact h1
  | deref q k ih =>
    intro w ws w' a h e
    simp only [Prog.run] at e ⊢
    rw [← deref_logEq h]
    cases hd : CBinary.deref w q with
    | error x => rw [hd] at e; cases e
    | ok n =>
      rw [hd, ok_bind] at e
      simp only [ok_bind]
      exact ih n w ws w' a h e
  | root k ih =>
    intro w ws w' a h e
    have e' : (k w.tree.root).run w = .ok (w', a) := e
    obtain ⟨ws', h1, h2⟩ := ih _ w ws w' a h e'
    refine ⟨ws', ?_, h2⟩
    show (k ws.tree.root).run ws = _
    rw [← h.2.2]; exact h1
  | malloc_element v k ih =>
    intro w ws w' a h e
    have e' : (k (CBinary.malloc_element w v).2).run (CBinary.malloc_element w v).1 =
        .ok (w', a) := e
    have hl : LogEq (CBinary.malloc_element w v).1 (CBinary.malloc_element ws v).1 := by
      obtain ⟨hm, hb, ht⟩ := h
      refine ⟨?_, ?_, ht⟩
      · simp only [CBinary.malloc_element, hm, hb]
      · simp only [CBinary.malloc_element, hb]
    have hp : (CBinary.malloc_element w v).2 = (CBinary.malloc_element ws v).2 := by
      simp only [CBinary.malloc_element, h.2.1]
    obtain ⟨ws', h1, h2⟩ := ih _ _ _ w' a hl e'
    refine ⟨ws', ?_, h2⟩
    show (k (CBinary.malloc_element ws v).2).run (CBinary.malloc_element ws v).1 = _
    rw [← hp]; exact h1
  | cmd c k ih =>
    intro w ws w' a h e
    simp only [Prog.run] at e ⊢
    cases hx : c.exec w with
    | error x => rw [hx] at e; cases e
    | ok w1 =>
      rw [hx, ok_bind] at e
      obtain ⟨ws1, h1, h2⟩ := Cmd.exec_logEq h hx
      rw [h1, ok_bind]
      exact ih w1 ws1 w' a h2 e

theorem sum_update_fin {n : Nat} {α : Type} (F : α → Nat) (k : Fin n → α) (i : Fin n)
    (c : α) :
    Finset.univ.sum (fun j => F (Function.update k i c j)) + F (k i) =
      Finset.univ.sum (fun j => F (k j)) + F c := by
  have h1 := Finset.add_sum_erase Finset.univ (fun j => F (k j)) (Finset.mem_univ i)
  have h2 := Finset.add_sum_erase Finset.univ (fun j => F (Function.update k i c j))
    (Finset.mem_univ i)
  have h3 : (Finset.univ.erase i).sum (fun j => F (Function.update k i c j)) =
      (Finset.univ.erase i).sum (fun j => F (k j)) := by
    apply Finset.sum_congr rfl
    intro j hj
    rw [Function.update_noteq (Finset.ne_of_mem_erase hj)]
  rw [h3] at h2
  simp only [Function.update_same] at h1 h2
  omega

theorem inside_update {n : Nat} (w w1 : World) (thr : Fin n → Worker) (i : Fin n)
    (x : Worker) :
    inside (⟨w1, Function.update thr i x⟩ : State n) +
        (if (thr i).cur.isSome then 1 else 0) =
      inside (⟨w, thr⟩ : State n) + (if x.cur.isSome then 1 else 0) :=
  sum_update_fin (fun y : Worker => if y.cur.isSome then 1 else 0) thr i x

theorem inside_zero {n : Nat} {st : State n} (h : inside st = 0) (j : Fin n) :
    (st.thr j).cur = none := by
  have := (Finset.sum_eq_zero_iff.mp h) j (Finset.mem_univ j)
  cases hc : (st.thr j).cur with
  | none => rfl
  | some p => rw [hc] at this; simp at this

theorem inside_joined {n : Nat} {st : State n} (h : ∀ j, (st.thr j).cur = none) :
    inside st = 0 :=
  Finset.sum_eq_zero (fun j _ => by rw [h j]; rfl)

theorem pick_eq {n : Nat} (st : State n) (i : Fin n) (o : Op) (rest : List Op)
    (hwk : (st.thr i).work = o :: rest) :
    pick st i =
      if ((st.thr i).cur.getD (call o)).blocked st.w then .ok st
      else ((st.thr i).cur.getD (call o)).step st.w >>= fun r =>
        if r.2.returned r.1 then
          .ok ⟨r.1, Function.update st.thr i ⟨rest, none, bump (st.thr i).k o⟩⟩
        else .ok ⟨r.1, Function.update st.thr i ⟨o :: rest, some r.2, (st.thr i).k⟩⟩ := by
  simp only [pick, hwk, pure_eq_ok]

theorem keep_k {n : Nat} {thr : Fin n → Worker} {kf : Fin n → Counters}
    (hk : ∀ j, (thr j).k = kf j) (i : Fin n) (x : Worker) (hx : x.k = (thr i).k) :
    ∀ j, (Function.update thr i x j).k = kf j := by
  intro j
  by_cases hj : j = i
  · subst hj; simp only [Function.update_same]; rw [hx]; exact hk j
  · simp only [Function.update_noteq hj]; exact hk j

theorem keep_book {n : Nat} {thr : Fin n → Worker} {work : Fin n → List Op}
    {calls : List (Fin n × Op)}
    (hb : ∀ j, (calls.filter (fun c => decide (c.1 = j))).map Prod.snd ++ (thr j).work =
      work j) (i : Fin n) (x : Worker) (hx : x.work = (thr i).work) :
    ∀ j, (calls.filter (fun c => decide (c.1 = j))).map Prod.snd ++
      (Function.update thr i x j).work = work j := by
  intro j
  by_cases hj : j = i
  · subst hj; simp only [Function.update_same]; rw [hx]; exact hb j
  · simp only [Function.update_noteq hj]; exact hb j

theorem done_k {n : Nat} {thr : Fin n → Worker} {kf : Fin n → Counters}
    (hk : ∀ j, (thr j).k = kf j) (i : Fin n) (o : Op) (rest : List Op) :
    ∀ j, (Function.update thr i ⟨rest, none, bump (thr i).k o⟩ j).k =
      Function.update kf i (bump (kf i) o) j := by
  intro j
  by_cases hj : j = i
  · subst hj; simp only [Function.update_same]; rw [hk j]
  · simp only [Function.update_noteq hj]; exact hk j

theorem done_book {n : Nat} {thr : Fin n → Worker} {work : Fin n → List Op}
    {calls : List (Fin n × Op)}
    (hb : ∀ j, (calls.filter (fun c => decide (c.1 = j))).map Prod.snd ++ (thr j).work =
      work j) (i : Fin n) (o : Op) (rest : List Op) (k : Counters)
    (hwk : (thr i).work = o :: rest) :
    ∀ j, ((calls ++ [(i, o)]).filter (fun c => decide (c.1 = j))).map Prod.snd ++
      (Function.update thr i ⟨rest, none, k⟩ j).work = work j := by
  intro j
  by_cases hj : j = i
  · subst hj
    simp only [Function.update_same, List.filter_append, List.map_append,
      List.filter_cons, List.filter_nil, decide_True, if_true, List.map_cons,
      List.map_nil, List.append_assoc, List.singleton_append]
    rw [← hwk]; exact hb j
  · have hji : ¬ i = j := fun e => hj e.symm
    simp only [Function.update_noteq hj, List.filter_append, List.filter_cons,
      List.filter_nil, hji, decide_False, Bool.false_eq_true, if_false,
      List.append_nil]
    exact hb j

theorem entry_held {s : Strategy} (hs : s = .Coarse ∨ s = .ReadWrite) {w : World}
    (h : TFree s w) :
    ∃ w1, (entry_cmd s).exec w = .ok w1 ∧ Held s w1 ∧ w1.tree.lock_type = s.code := by
  obtain ⟨h1, h2, h3⟩ := h
  rcases hs with h | h <;> subst h
  · simp [entry_cmd, Cmd.exec, CBinary.lock, h2, Held, h1]
  · simp [entry_cmd, Cmd.exec, CBinary.pthread_rwlock_wrlock, h3, Held, h1]

theorem blocked_held {s : Strategy} (hs : s = .Coarse ∨ s = .ReadWrite) (o : Op) {w : World}
    (h : Held s w) : (Prog.cmd (entry_of s o) (Prog.ret ())).blocked w = true := by
  rcases hs with e | e <;> subst e <;> cases o <;>
    simp only [Held] at h <;> simp [entry_of, Prog.blocked, h]

theorem blocked_free {s : Strategy} (hs : s = .Coarse ∨ s = .ReadWrite) (o : Op) {w : World}
    (h : TFree s w) : (Prog.cmd (entry_of s o) (Prog.ret ())).blocked w = false := by
  obtain ⟨-, h2, h3⟩ := h
  rcases hs with e | e <;> subst e <;> cases o <;> simp [entry_of, Prog.blocked, h2, h3]

theorem blocked_readers_writer {o : Op} (ho : shared .ReadWrite o = false) {w : World}
    {m : Nat} (h : w.tree.rw_lock = .readers m) :
    (Prog.cmd (entry_of .ReadWrite o) (Prog.ret ())).blocked w = true := by
  cases o with
  | insert v => simp [entry_of, Prog.blocked, h]
  | delete v => simp [entry_of, Prog.blocked, h]
  | lookup v => cases ho

theorem rdlock_exec {w : World} (h : w.tree.rw_lock ≠ .writer) :
    ∃ w1, Cmd.exec .rdlock w = .ok w1 ∧ HeapEq w1 w ∧
      w1.tree.rw_lock = .readers (match w.tree.rw_lock with
        | .readers m => m + 1
        | _ => 1) := by
  simp only [Cmd.exec, CBinary.pthread_rwlock_rdlock]
  cases hx : w.tree.rw_lock with
  | free => exact ⟨_, rfl, ⟨rfl, rfl, rfl, rfl, rfl⟩, rfl⟩
  | readers m => exact ⟨_, rfl, ⟨rfl, rfl, rfl, rfl, rfl⟩, rfl⟩
  | writer => exact absurd hx h

theorem rw_unlock_exec {w w1 : World} {m : Nat} (h : w.tree.rw_lock = .readers m)
    (e : Cmd.exec .rw_unlock w = .ok w1) :
    HeapEq w1 w ∧ w1.tree.rw_lock = (if m ≤ 1 then .free else .readers (m - 1)) := by
  simp only [Cmd.exec, CBinary.pthread_rwlock_unlock, h] at e
  cases e
  exact ⟨⟨rfl, rfl, rfl, rfl, rfl⟩, rfl⟩

theorem heapEq_symm {w ws : World} (h : HeapEq w ws) : HeapEq ws w :=
  ⟨h.1.symm, h.2.1.symm, h.2.2.1.symm, h.2.2.2.1.symm, h.2.2.2.2.symm⟩

theorem heapEq_trans {a b c : World} (h : HeapEq a b) (g : HeapEq b c) : HeapEq a c :=
  ⟨h.1.trans g.1, h.2.1.trans g.2.1, h.2.2.1.trans g.2.2.1, h.2.2.2.1.trans g.2.2.2.1,
    h.2.2.2.2.trans g.2.2.2.2⟩

theorem LogEq.heapEq {w ws : World} (h : LogEq w ws) : HeapEq w ws :=
  ⟨h.1, h.2.1, by rw [h.2.2], by rw [h.2.2], by rw [h.2.2]⟩

theorem deref_heapEq {w ws : World} (h : HeapEq w ws) (p : Ptr) :
    CBinary.deref w p = CBinary.deref ws p := by
  cases p with
  | none => rfl
  | some a => simp only [CBinary.deref, h.1]

/-- One step of a reader inside its critical section: a read, which leaves the memory
as it is, or the final `pthread_rwlock_unlock`. -/
theorem Prog.rcrit_step (lt : Int) (p : Prog Unit) :
    p.RCrit lt → ∀ w, w.tree.lock_type = lt →
      p.blocked w = false ∧ p.returned w = false ∧
      ∀ w1 p1, p.step w = .ok (w1, p1) →
        (w1 = w ∧ p1.RCrit lt) ∨ (Cmd.exec .rw_unlock w = .ok w1 ∧ p1.Done lt) := by
  induction p with
  | ret a => intro h; exact h.elim
  | fail e => intro _ w _; exact ⟨rfl, rfl, fun w1 p1 h => by cases h⟩
  | lock_type k ih =>
    intro h w hlt
    have := ih lt h w hlt
    simp only [Prog.blocked, Prog.returned, Prog.step, hlt]
    exact this
  | fuel k ih => intro h w hlt; exact ih w.brk (h _) w hlt
  | deref q k _ =>
    intro h w hlt
    refine ⟨rfl, rfl, fun w1 p1 e => ?_⟩
    simp only [Prog.step] at e
    cases hd : CBinary.deref w q with
    | error x => rw [hd] at e; cases e
    | ok x => rw [hd] at e; cases e; exact Or.inl ⟨rfl, h x⟩
  | root k _ =>
    intro h w hlt
    refine ⟨rfl, rfl, fun w1 p1 e => ?_⟩
    cases e
    exact Or.inl ⟨rfl, h _⟩
  | malloc_element v k _ => intro h; exact h.elim
  | cmd c k _ =>
    intro h w hlt
    obtain ⟨hc, hk⟩ := h
    subst hc
    refine ⟨rfl, rfl, fun w1 p1 e => ?_⟩
    simp only [Prog.step] at e
    cases hx : Cmd.exec .rw_unlock w with
    | error x => rw [hx] at e; cases e
    | ok w2 => rw [hx] at e; cases e; exact Or.inr ⟨rfl, hk⟩

/-- The rest of a reader's critical section returns from every memory with the same
nodes and root on which the reader-writer lock is held. -/
theorem Prog.rcrit_runs (lt : Int) (p : Prog Unit) :
    p.RCrit lt → ∀ w w2, RunsOk p w → HeapEq w w2 → w.tree.lock_type = lt →
      w2.tree.rw_lock ≠ .free → RunsOk p w2 := by
  induction p with
  | ret a => intro h; exact h.elim
  | fail e => intro _ w w2 h; obtain ⟨w', e'⟩ := h; cases e'
  | lock_type k ih =>
    intro h w w2 hr he hlt hrw
    have hr' : RunsOk (k lt) w := by
      obtain ⟨w', e⟩ := hr
      have e' : (k w.tree.lock_type).run w = .ok (w', ()) := e
      rw [hlt] at e'
      exact ⟨w', e'⟩
    obtain ⟨w', e⟩ := ih lt h w w2 hr' he hlt hrw
    refine ⟨w', ?_⟩
    show (k w2.tree.lock_type).run w2 = _
    rw [← he.2.2.2.1, hlt]; exact e
  | fuel k ih =>
    intro h w w2 hr he hlt hrw
    obtain ⟨w', e⟩ := ih w.brk (h _) w w2 hr he hlt hrw
    refine ⟨w', ?_⟩
    show (k w2.brk).run w2 = _
    rw [← he.2.1]; exact e
  | deref q k ih =>
    intro h w w2 hr he hlt hrw
    obtain ⟨w', e⟩ := hr
    simp only [Prog.run] at e
    cases hd : CBinary.deref w q with
    | error x => rw [hd] at e; cases e
    | ok x =>
      rw [hd, ok_bind] at e
      obtain ⟨w'', e''⟩ := ih x (h x) w w2 ⟨w', e⟩ he hlt hrw
      refine ⟨w'', ?_⟩
      simp only [Prog.run]
      rw [← deref_heapEq he, hd, ok_bind]
      exact e''
  | root k ih =>
    intro h w w2 hr he hlt hrw
    obtain ⟨w', e⟩ := ih w.tree.root (h _) w w2 hr he hlt hrw
    refine ⟨w', ?_⟩
    show (k w2.tree.root).run w2 = _
    rw [← he.2.2.1]; exact e
  | malloc_element v k _ => intro h; exact h.elim
  | cmd c k _ =>
    intro h w w2 _ he hlt hrw
    obtain ⟨hc, hk⟩ := h
    subst hc
    have hx : ∃ w3, Cmd.exec .rw_unlock w2 = .ok w3 ∧
        w3.tree.lock_type = w2.tree.lock_type := by
      simp only [Cmd.exec, CBinary.pthread_rwlock_unlock]
      cases hr : w2.tree.rw_lock with
      | free => exact absurd hr hrw
      | readers m => exact ⟨_, rfl, rfl⟩
      | writer => exact ⟨_, rfl, rfl⟩
    obtain ⟨w3, e3, hl3⟩ := hx
    have hlt3 : w3.tree.lock_type = lt := by rw [hl3, ← he.2.2.2.1, hlt]
    obtain ⟨a, ha⟩ := Prog.run_of_returned k w3 (Prog.done_returned k hk w3 hlt3)
    exact ⟨w3, by simp only [Prog.run, e3, ok_bind]; exact ha⟩

theorem step_lookup_frame {s : Strategy} {w : World} {t : T} (h : Inv s w t) (v : Int) :
    ∃ w', step (dispatch s) w (.lookup v) = .ok w' ∧ w'.mem = w.mem ∧ w'.tree = w.tree ∧
      w'.brk = w.brk := by
  obtain ⟨w1, h1, -, -, -, -, w2, h2, h3, h4, h5⟩ := Tree_Lookup_ok h v
  exact ⟨w2, by simp [step, h1, h2], h3, h4, h5⟩

theorem plain_of {s : Strategy} (hs : s = .Coarse ∨ s = .ReadWrite) : s ≠ .FineGrained := by
  rcases hs with h | h <;> subst h <;> decide

theorem step_of_run {s : Strategy} (hs : s ≠ .FineGrained) {o : Op} {w w' : World}
    (h : (call o).run w = .ok (w', ())) : step (dispatch s) w o = .ok w' := by
  rw [call_run hs o] at h
  cases hq : step (dispatch s) w o with
  | error e => rw [hq] at h; cases h
  | ok x => rw [hq] at h; cases h; rfl

theorem pick_serial {n : Nat} {s : Strategy} (hs : s = .Coarse ∨ s = .ReadWrite)
    {w0 : World} {work : Fin n → List Op}
    {st : State n} {calls : List (Fin n × Op)} (h : Serial s w0 work st calls) (i : Fin n) :
    ∃ st' calls', pick st i = .ok st' ∧ Serial s w0 work st' calls' := by
  obtain ⟨ws, t, kf, e1, hinv, hk, hbook, hcase⟩ := h
  cases hwk : (st.thr i).work with
  | nil =>
    exact ⟨st, calls, by simp only [pick, hwk], ws, t, kf, e1, hinv, hk, hbook, hcase⟩
  | cons o rest =>
    obtain ⟨K, hKc, hKr, hent⟩ := call_entry hs o
    rcases hcase with ⟨hle, hidle⟩ |
      ⟨i0, p, o0, rest0, w', ws', hc, hwk0, hsh0, hcrit, hrun, hstep, hle', hheld, hlt,
        hothers⟩ |
      ⟨hrw, hhe, hrd, hm, hreaders⟩
    · -- no call is under way: worker `i` takes the tree lock
      have hinvw : Inv s st.w t := hinv.transfer hle.1 hle.2.2 hle.2.1
      have hfree : TFree s st.w := hinvw.tfree
      have hlt : st.w.tree.lock_type = s.code := hfree.1
      obtain ⟨hret, hbl, hst⟩ := hent st.w hlt
      have hcur := hidle i
      have hnb : (call o).blocked st.w = false := by rw [hbl]; exact blocked_free hs o hfree
      obtain ⟨w', t', hs1, -⟩ := step_ok hinvw o
      have hrun : (call o).run st.w = .ok (w', ()) := by
        rw [call_run (plain_of hs) o, hs1]; rfl
      cases hsh : shared s o with
      | false =>
        rw [entry_of_excl hs hsh] at hst
        obtain ⟨w1, hx, hheld, hlt1⟩ := entry_held hs hfree
        have hrunK : K.run w1 = .ok (w', ()) := by
          rw [Prog.run_step _ _ hret, hst, hx] at hrun
          exact hrun
        have hKret : K.returned w1 = false := (Prog.crit_step s K (hKc hsh) w1 hlt1).2.1
        obtain ⟨ws', hr2, hle2⟩ := Prog.run_logEq _ _ _ _ _ hle hrun
        have hstep := step_of_run (plain_of hs) hr2
        refine ⟨⟨w1, Function.update st.thr i ⟨o :: rest, some K, (st.thr i).k⟩⟩, calls, ?_,
          ws, t, kf, e1, hinv, keep_k hk i _ rfl, keep_book hbook i _ hwk.symm,
          Or.inr (Or.inl ⟨i, K, o, rest, w', ws', ?_, ?_, hsh, hKc hsh, hrunK, hstep, hle2,
            hheld, hlt1, ?_⟩)⟩
        · rw [pick_eq st i o rest hwk]
          simp only [hcur, Option.getD_none, hnb, Bool.false_eq_true, if_false, hst, hx,
            map_ok, ok_bind, hKret]
        · simp only [Function.update_same]
        · simp only [Function.update_same]
        · intro j hj
          simp only [Function.update_noteq hj]; exact hidle j
      | true =>
        have hsRW : s = .ReadWrite := by
          cases s <;> first | rfl | (cases o <;> cases hsh)
        subst hsRW
        have hoL : ∃ v, o = .lookup v := by
          cases o with
          | insert v => cases hsh
          | delete v => cases hsh
          | lookup v => exact ⟨v, rfl⟩
        obtain ⟨v, rfl⟩ := hoL
        have hst' : (call (.lookup v)).step st.w = (Cmd.exec .rdlock st.w).map
            fun w1 => (w1, K) := hst
        obtain ⟨w1, hx, hhe1, hrw1⟩ := rdlock_exec (w := st.w) (by rw [hfree.2.2]; decide)
        rw [hfree.2.2] at hrw1
        have hlt1 : w1.tree.lock_type = Strategy.ReadWrite.code := by
          rw [hhe1.2.2.2.1]; exact hlt
        have hrunK : K.run w1 = .ok (w', ()) := by
          rw [Prog.run_step _ _ hret, hst', hx] at hrun
          exact hrun
        have hKret : K.returned w1 = false :=
          (Prog.rcrit_step _ K (hKr hsh) w1 hlt1).2.1
        have hin0 : inside st = 0 := inside_joined hidle
        have hin := inside_update st.w w1 st.thr i ⟨.lookup v :: rest, some K, (st.thr i).k⟩
        rw [hcur] at hin
        have hin1 : inside (⟨w1, Function.update st.thr i
            ⟨.lookup v :: rest, some K, (st.thr i).k⟩⟩ : State n) = 1 := by
          have e0 : inside (⟨st.w, st.thr⟩ : State n) = 0 := hin0
          simp only [Option.isSome_none, Bool.false_eq_true, if_false, Option.isSome_some,
            if_true, e0] at hin
          omega
        refine ⟨⟨w1, Function.update st.thr i ⟨.lookup v :: rest, some K, (st.thr i).k⟩⟩,
          calls, ?_, ws, t, kf, e1, hinv, keep_k hk i _ rfl, keep_book hbook i _ hwk.symm,
          Or.inr (Or.inr ⟨rfl, heapEq_trans hhe1 hle.heapEq, ?_, ?_, ?_⟩)⟩
        · rw [pick_eq st i _ rest hwk]
          simp only [hcur, Option.getD_none, hnb, Bool.false_eq_true, if_false, hst', hx,
            map_ok, ok_bind, hKret]
        · rw [hin1]; exact hrw1
        · rw [hin1]
        · intro j q hq
          by_cases hj : j = i
          · subst hj
            simp only [Function.update_same] at hq ⊢
            cases hq
            exact ⟨v, rest, rfl, hKr hsh, w', hrunK⟩
          · simp only [Function.update_noteq hj] at hq
            rw [hidle j] at hq
            cases hq
    · by_cases hi : i = i0
      · -- the worker that holds the tree lock takes its next step
        subst hi
        rw [hwk] at hwk0
        cases hwk0
        obtain ⟨hnb, hret, hnext⟩ := Prog.crit_step s p hcrit st.w hlt
        rw [Prog.run_step _ _ hret] at hrun
        cases hst : p.step st.w with
        | error e => rw [hst] at hrun; cases hrun
        | ok r =>
          obtain ⟨w1, p1⟩ := r
          rw [hst, ok_bind] at hrun
          obtain ⟨hlt1, hcont | hdone⟩ := hnext w1 p1 hst
          · obtain ⟨hm, hr, hcrit1⟩ := hcont
            have hret1 : p1.returned w1 = false := (Prog.crit_step s p1 hcrit1 w1 hlt1).2.1
            have hheld1 : Held s w1 := by
              cases s <;> simp only [Held] at hheld ⊢ <;>
                first | (rw [hm]; exact hheld) | (rw [hr]; exact hheld)
            refine ⟨⟨w1, Function.update st.thr i ⟨o :: rest, some p1, (st.thr i).k⟩⟩, calls,
              ?_, ws, t, kf, e1, hinv, keep_k hk i _ rfl, keep_book hbook i _ hwk.symm,
              Or.inr (Or.inl ⟨i, p1, o, rest, w', ws', ?_, ?_, hsh0, hcrit1, hrun, hstep,
                hle', hheld1, hlt1, ?_⟩)⟩
            · rw [pick_eq st i o rest hwk]
              simp only [hc, Option.getD_some, hnb, Bool.false_eq_true, if_false, hst, ok_bind,
                hret1]
            · simp only [Function.update_same]
            · simp only [Function.update_same]
            · intro j hj
              simp only [Function.update_noteq hj]; exact hothers j hj
          · -- the call returns
            have hret1 : p1.returned w1 = true := Prog.done_returned p1 hdone w1 hlt1
            obtain ⟨a, ha⟩ := Prog.run_of_returned p1 w1 hret1
            rw [ha] at hrun
            cases hrun
            obtain ⟨w2, t', hs1, hinv'⟩ := step_ok hinv o
            rw [hstep] at hs1
            cases hs1
            refine ⟨⟨w', Function.update st.thr i ⟨rest, none, bump (st.thr i).k o⟩⟩,
              calls ++ [(i, o)], ?_, ws', t', Function.update kf i (bump (kf i) o),
              Thread_Funcs_append _ (i, o) _ _ _ _ _ _ e1 hstep, hinv', done_k hk i o rest,
              done_book hbook i o rest _ hwk, Or.inl ⟨hle', ?_⟩⟩
            · rw [pick_eq st i o rest hwk]
              simp only [hc, Option.getD_some, hnb, Bool.false_eq_true, if_false, hst, ok_bind,
                hret1, if_true]
            · intro j
              by_cases hj : j = i
              · subst hj; simp only [Function.update_same]
              · simp only [Function.update_noteq hj]; exact hothers j hj
      · -- another worker holds the tree lock: worker `i` waits
        have hcur := hothers i hi
        obtain ⟨-, hbl, -⟩ := hent st.w hlt
        refine ⟨st, calls, ?_, ws, t, kf, e1, hinv, hk, hbook,
          Or.inr (Or.inl ⟨i0, p, o0, rest0, w', ws', hc, hwk0, hsh0, hcrit, hrun, hstep, hle',
            hheld, hlt, hothers⟩)⟩
        rw [pick_eq st i o rest hwk]
        simp only [hcur, Option.getD_none, hbl, blocked_held hs o hheld, if_true]
    · -- readers hold the reader-writer lock
      subst hrw
      have hlt : st.w.tree.lock_type = Strategy.ReadWrite.code := by
        rw [hhe.2.2.2.1]; exact hinv.tfree.1
      have hne : st.w.tree.rw_lock ≠ .writer := by rw [hrd]; exact fun e => by cases e
      cases hcur : (st.thr i).cur with
      | some p =>
        obtain ⟨v, rest, hwk', hrc, hro⟩ := hreaders i p hcur
        rw [hwk] at hwk'
        cases hwk'
        obtain ⟨hnb, hret, hnext⟩ := Prog.rcrit_step _ p hrc st.w hlt
        obtain ⟨w', hrun⟩ := hro
        rw [Prog.run_step _ _ hret] at hrun
        cases hst : p.step st.w with
        | error e => rw [hst] at hrun; cases hrun
        | ok r =>
          obtain ⟨w1, p1⟩ := r
          rw [hst, ok_bind] at hrun
          rcases hnext w1 p1 hst with ⟨hw1, hrc1⟩ | ⟨hx, hdone⟩
          · -- a read
            subst hw1
            have hret1 : p1.returned st.w = false :=
              (Prog.rcrit_step _ p1 hrc1 st.w hlt).2.1
            have hin := inside_update st.w st.w st.thr i
              ⟨.lookup v :: rest, some p1, (st.thr i).k⟩
            rw [hcur] at hin
            have hin1 : inside (⟨st.w, Function.update st.thr i
                ⟨.lookup v :: rest, some p1, (st.thr i).k⟩⟩ : State n) = inside st := by
              have e0 : inside (⟨st.w, st.thr⟩ : State n) = inside st := rfl
              simp only [Option.isSome_some, if_true, e0] at hin
              omega
            refine ⟨⟨st.w, Function.update st.thr i
                ⟨.lookup v :: rest, some p1, (st.thr i).k⟩⟩, calls, ?_,
              ws, t, kf, e1, hinv, keep_k hk i _ rfl, keep_book hbook i _ hwk.symm,
              Or.inr (Or.inr ⟨rfl, hhe, ?_, ?_, ?_⟩)⟩
            · rw [pick_eq st i _ rest hwk]
              simp only [hcur, Option.getD_some, hnb, Bool.false_eq_true, if_false, hst,
                ok_bind, hret1]
            · rw [hin1]; exact hrd
            · rw [hin1]; exact hm
            · intro j q hq
              by_cases hj : j = i
              · subst hj
                simp only [Function.update_same] at hq ⊢
                cases hq
                exact ⟨v, rest, rfl, hrc1, w', hrun⟩
              · simp only [Function.update_noteq hj] at hq ⊢
                exact hreaders j q hq
          · -- the reader releases the lock and its call returns
            obtain ⟨hhe1, hrw1⟩ := rw_unlock_exec hrd hx
            have hlt1 : w1.tree.lock_type = Strategy.ReadWrite.code := by
              rw [hhe1.2.2.2.1]; exact hlt
            have hret1 : p1.returned w1 = true := Prog.done_returned p1 hdone w1 hlt1
            obtain ⟨ws2, hs2, hm2, ht2, hb2⟩ := step_lookup_frame hinv v
            have hinv2 : Inv .ReadWrite ws2 t := hinv.transfer hm2 ht2 hb2
            have hin := inside_update st.w w1 st.thr i
              ⟨rest, none, bump (st.thr i).k (.lookup v)⟩
            rw [hcur] at hin
            have e0 : inside (⟨st.w, st.thr⟩ : State n) = inside st := rfl
            simp only [Option.isSome_some, if_true, e0, Option.isSome_none,
              Bool.false_eq_true, if_false, add_zero] at hin
            have hhe2 : HeapEq w1 ws2 :=
              heapEq_trans (heapEq_trans hhe1 hhe)
                ⟨hm2.symm, hb2.symm, by rw [ht2], by rw [ht2], by rw [ht2]⟩
            have hpick : pick st i = .ok ⟨w1, Function.update st.thr i
                ⟨rest, none, bump (st.thr i).k (.lookup v)⟩⟩ := by
              rw [pick_eq st i _ rest hwk]
              simp only [hcur, Option.getD_some, hnb, Bool.false_eq_true, if_false, hst,
                ok_bind, hret1, if_true]
            refine ⟨_, calls ++ [(i, .lookup v)], hpick, ws2, t,
              Function.update kf i (bump (kf i) (.lookup v)),
              Thread_Funcs_append _ (i, .lookup v) _ _ _ _ _ _ e1 hs2, hinv2,
              done_k hk i _ rest, done_book hbook i _ rest _ hwk, ?_⟩
            by_cases hone : inside st ≤ 1
            · left
              rw [if_pos hone] at hrw1
              have hz : inside (⟨w1, Function.update st.thr i
                  ⟨rest, none, bump (st.thr i).k (.lookup v)⟩⟩ : State n) = 0 := by omega
              refine ⟨⟨hhe2.1, hhe2.2.1, tree_ext hhe2.2.2.1 hhe2.2.2.2.1 hhe2.2.2.2.2 ?_⟩,
                fun j => inside_zero hz j⟩
              rw [hrw1, ht2]; exact hinv.tfree.2.2.symm
            · right; right
              rw [if_neg hone] at hrw1
              have hz : inside (⟨w1, Function.update st.thr i
                  ⟨rest, none, bump (st.thr i).k (.lookup v)⟩⟩ : State n) =
                  inside st - 1 := by omega
              refine ⟨rfl, hhe2, by rw [hz]; exact hrw1, by rw [hz]; omega, ?_⟩
              intro j q hq
              by_cases hj : j = i
              · subst hj
                simp only [Function.update_same] at hq
                cases hq
              · simp only [Function.update_noteq hj] at hq ⊢
                obtain ⟨v', r', h1, h2, h3⟩ := hreaders j q hq
                exact ⟨v', r', h1, h2, Prog.rcrit_runs _ q h2 st.w w1 h3 (heapEq_symm hhe1) hlt
                  (by rw [hrw1]; exact fun e => by cases e)⟩
      | none =>
        obtain ⟨hret, hbl, hst⟩ := hent st.w hlt
        cases hsh : shared .ReadWrite o with
        | false =>
          -- a writer waits for the readers
          refine ⟨st, calls, ?_, ws, t, kf, e1, hinv, hk, hbook,
            Or.inr (Or.inr ⟨rfl, hhe, hrd, hm, hreaders⟩)⟩
          rw [pick_eq st i o rest hwk]
          simp only [hcur, Option.getD_none, hbl, blocked_readers_writer hsh hrd, if_true]
        | true =>
          -- one more reader takes the lock
          have hoL : ∃ v, o = .lookup v := by
            cases o with
            | insert v => cases hsh
            | delete v => cases hsh
            | lookup v => exact ⟨v, rfl⟩
          obtain ⟨v, rfl⟩ := hoL
          have hst' : (call (.lookup v)).step st.w = (Cmd.exec .rdlock st.w).map
              fun w1 => (w1, K) := hst
          have hnb : (call (.lookup v)).blocked st.w = false := by
            rw [hbl]; simp [entry_of, Prog.blocked, hrd]
          obtain ⟨w1, hx, hhe1, hrw1⟩ := rdlock_exec hne
          rw [hrd] at hrw1
          have hlt1 : w1.tree.lock_type = Strategy.ReadWrite.code := by
            rw [hhe1.2.2.2.1]; exact hlt
          have hKret : K.returned w1 = false :=
            (Prog.rcrit_step _ K (hKr hsh) w1 hlt1).2.1
          have hne1 : w1.tree.rw_lock ≠ .free := by rw [hrw1]; exact fun e => by cases e
          -- the rest of the call returns: seen on the memory after `calls`
          have hKok : RunsOk K w1 := by
            obtain ⟨wx, tx, hsx, -⟩ := step_ok hinv (.lookup v)
            have hrs : (call (.lookup v)).run ws = .ok (wx, ()) := by
              rw [call_run (plain_of (Or.inr rfl)) _, hsx]; rfl
            obtain ⟨hret', -, hsts⟩ := hent ws hinv.tfree.1
            have hsts' : (call (.lookup v)).step ws = (Cmd.exec .rdlock ws).map
                fun w1 => (w1, K) := hsts
            obtain ⟨ws1, hxs, hhes, -⟩ := rdlock_exec (w := ws)
              (by rw [hinv.tfree.2.2]; decide)
            rw [Prog.run_step _ _ hret', hsts', hxs] at hrs
            have hlts : ws1.tree.lock_type = Strategy.ReadWrite.code := by
              rw [hhes.2.2.2.1]; exact hinv.tfree.1
            exact Prog.rcrit_runs _ K (hKr hsh) ws1 w1 ⟨wx, hrs⟩
              (heapEq_trans (heapEq_trans hhes (heapEq_symm hhe)) (heapEq_symm hhe1)) hlts hne1
          have hin := inside_update st.w w1 st.thr i
            ⟨.lookup v :: rest, some K, (st.thr i).k⟩
          rw [hcur] at hin
          have e0 : inside (⟨st.w, st.thr⟩ : State n) = inside st := rfl
          simp only [Option.isSome_some, if_true, e0, Option.isSome_none,
            Bool.false_eq_true, if_false, add_zero] at hin
          refine ⟨⟨w1, Function.update st.thr i ⟨.lookup v :: rest, some K, (st.thr i).k⟩⟩,
            calls, ?_, ws, t, kf, e1, hinv, keep_k hk i _ rfl, keep_book hbook i _ hwk.symm,
            Or.inr (Or.inr ⟨rfl, heapEq_trans hhe1 hhe, by rw [hin]; exact hrw1, by rw [hin]; omega,
              ?_⟩)⟩
          · rw [pick_eq st i _ rest hwk]
            simp only [hcur, Option.getD_none, hnb, Bool.false_eq_true, if_false, hst', hx,
              map_ok, ok_bind, hKret]
          · intro j q hq
            by_cases hj : j = i
            · subst hj
              simp only [Function.update_same] at hq ⊢
              cases hq
              exact ⟨v, rest, rfl, hKr hsh, hKok⟩
            · simp only [Function.update_noteq hj] at hq ⊢
              obtain ⟨v', r', h1, h2, h3⟩ := hreaders j q hq
              exact ⟨v', r', h1, h2, Prog.rcrit_runs _ q h2 st.w w1 h3 (heapEq_symm hhe1) hlt hne1⟩

theorem runs_serial {n : Nat} {s : Strategy} (hs : s = .Coarse ∨ s = .ReadWrite)
    {w0 : World} {work : Fin n → List Op} (sched : List (Fin n)) :
    ∀ {st : State n} {calls : List (Fin n × Op)}, Serial s w0 work st calls →
      ∃ st' calls', runs st sched = .ok st' ∧ Serial s w0 work st' calls' := by
  induction sched with
  | nil => intro st calls h; exact ⟨st, calls, rfl, h⟩
  | cons i sched ih =>
    intro st calls h
    obtain ⟨st1, calls1, e1, h1⟩ := pick_serial hs h i
    obtain ⟨st2, calls2, e2, h2⟩ := ih h1
    exact ⟨st2, calls2, by simp only [runs, e1, ok_bind, e2], h2⟩

theorem start_serial {n : Nat} {s : Strategy} {w0 : World} {t : T} (h : Inv s w0 t)
    (work : Fin n → List Op) : Serial s w0 work (start w0 work) [] :=
  ⟨w0, t, fun _ => ⟨0, 0, 0⟩, rfl, h, fun _ => rfl, fun _ => rfl,
    Or.inl ⟨⟨rfl, rfl, rfl⟩, fun _ => rfl⟩⟩

theorem runs_cons {n : Nat} (st : State n) (i : Fin n) (sched : List (Fin n)) :
    runs st (i :: sched) = pick st i >>= fun st => runs st sched := rfl

theorem runs_append {n : Nat} (a : List (Fin n)) :
    ∀ (st st1 : State n) (b : List (Fin n)), runs st a = .ok st1 →
      runs st (a ++ b) = runs st1 b := by
  induction a with
  | nil => intro st st1 b h; cases h; rfl
  | cons i a ih =>
    intro st st1 b h
    rw [runs_cons] at h
    rw [List.cons_append, runs_cons]
    cases hp : pick st i with
    | error e => rw [hp] at h; cases h
    | ok st2 =>
      rw [hp, ok_bind] at h
      rw [ok_bind]
      exact ih st2 st1 b h

theorem pick_at {n : Nat} (st : State n) (i : Fin n) (p : Prog Unit) (o : Op) (rest : List Op)
    (hwk : (st.thr i).work = o :: rest) :
    pick (st.at i p) i =
      if p.blocked st.w then .ok (st.at i p)
      else p.step st.w >>= fun r =>
        if r.2.returned r.1 then
          .ok ⟨r.1, Function.update st.thr i ⟨rest, none, bump (st.thr i).k o⟩⟩
        else .ok ((⟨r.1, st.thr⟩ : State n).at i r.2) := by
  simp only [pick, State.at, Function.update_same, hwk, Option.getD_some,
    Function.update_idem, pure_eq_ok]

/-- The holder of the tree lock, given the processor often enough, ends its call. -/
theorem finish_call {n : Nat} (s : Strategy) (i : Fin n) (o : Op) (rest : List Op)
    (p : Prog Unit) :
    ∀ (st : State n) (w' : World), (st.thr i).work = o :: rest →
      p.Crit s.code (exit_cmd s) → p.run st.w = .ok (w', ()) →
      st.w.tree.lock_type = s.code →
      ∃ m, runs (st.at i p) (List.replicate (m + 1) i) =
        .ok ⟨w', Function.update st.thr i ⟨rest, none, bump (st.thr i).k o⟩⟩ := by
  induction p with
  | ret a => intro st w' _ hc; exact hc.elim
  | fail e => intro st w' _ _ hr; cases hr
  | lock_type k ih =>
    intro st w' hwk hc hr hlt
    have hc' : (k s.code).Crit s.code (exit_cmd s) := hc
    have hr' : (k s.code).run st.w = .ok (w', ()) := by
      have : (Prog.lock_type k).run st.w = (k st.w.tree.lock_type).run st.w := rfl
      rw [this, hlt] at hr; exact hr
    obtain ⟨m, hm⟩ := ih s.code st w' hwk hc' hr' hlt
    refine ⟨m, ?_⟩
    rw [List.replicate_succ, runs_cons] at hm ⊢
    have hnb : (k s.code).blocked st.w = false := (Prog.crit_step s _ hc' st.w hlt).1
    have e : pick (st.at i (Prog.lock_type k)) i = pick (st.at i (k s.code)) i := by
      rw [pick_at st i _ o rest hwk, pick_at st i _ o rest hwk]
      simp only [Prog.blocked, Prog.step, hlt, hnb, Bool.false_eq_true, if_false]
    rw [e]; exact hm
  | fuel k ih =>
    intro st w' hwk hc hr hlt
    obtain ⟨m, hm⟩ := ih st.w.brk st w' hwk (hc _) hr hlt
    refine ⟨m, ?_⟩
    rw [List.replicate_succ, runs_cons] at hm ⊢
    have hnb : (k st.w.brk).blocked st.w = false :=
      (Prog.crit_step s _ (hc _) st.w hlt).1
    have e : pick (st.at i (Prog.fuel k)) i = pick (st.at i (k st.w.brk)) i := by
      rw [pick_at st i _ o rest hwk, pick_at st i _ o rest hwk]
      simp only [Prog.blocked, Prog.step, hnb, Bool.false_eq_true, if_false]
    rw [e]; exact hm
  | deref q k ih =>
    intro st w' hwk hc hr hlt
    simp only [Prog.run] at hr
    cases hd : CBinary.deref st.w q with
    | error e => rw [hd] at hr; cases hr
    | ok x =>
      rw [hd, ok_bind] at hr
      have hnr : (k x).returned st.w = false := (Prog.crit_step s (k x) (hc x) st.w hlt).2.1
      obtain ⟨m, hm⟩ := ih x st w' hwk (hc x) hr hlt
      refine ⟨m + 1, ?_⟩
      rw [List.replicate_succ, runs_cons, pick_at st i _ o rest hwk]
      simp only [Prog.blocked, Bool.false_eq_true, if_false, Prog.step, hd, ok_bind,
        pure_eq_ok, hnr]
      exact hm
  | root k ih =>
    intro st w' hwk hc hr hlt
    have hr' : (k st.w.tree.root).run st.w = .ok (w', ()) := hr
    have hnr : (k st.w.tree.root).returned st.w = false :=
      (Prog.crit_step s _ (hc _) st.w hlt).2.1
    obtain ⟨m, hm⟩ := ih _ st w' hwk (hc _) hr' hlt
    refine ⟨m + 1, ?_⟩
    rw [List.replicate_succ, runs_cons, pick_at st i _ o rest hwk]
    simp only [Prog.blocked, Bool.false_eq_true, if_false, Prog.step, ok_bind, hnr]
    exact hm
  | malloc_element v k ih =>
    intro st w' hwk hc hr hlt
    have hr' : (k (CBinary.malloc_element st.w v).2).run (CBinary.malloc_element st.w v).1 =
        .ok (w', ()) := hr
    have hlt1 : (CBinary.malloc_element st.w v).1.tree.lock_type = s.code := hlt
    have hnr : (k (CBinary.malloc_element st.w v).2).returned
        (CBinary.malloc_element st.w v).1 = false :=
      (Prog.crit_step s _ (hc _) _ hlt1).2.1
    obtain ⟨m, hm⟩ := ih _ ⟨(CBinary.malloc_element st.w v).1, st.thr⟩ w' hwk (hc _) hr' hlt1
    refine ⟨m + 1, ?_⟩
    rw [List.replicate_succ, runs_cons, pick_at st i _ o rest hwk]
    simp only [Prog.blocked, Bool.false_eq_true, if_false, Prog.step, ok_bind, hnr]
    exact hm
  | cmd c k ih =>
    intro st w' hwk hc hr hlt
    simp only [Prog.run] at hr
    cases hx : c.exec st.w with
    | error e => rw [hx] at hr; cases hr
    | ok w1 =>
      rw [hx, ok_bind] at hr
      rcases hc with ⟨hce, hk⟩ | ⟨hcl, hk⟩
      · subst hce
        have hlt1 : w1.tree.lock_type = s.code := (exit_exec hx).trans hlt
        have hret : k.returned w1 = true := Prog.done_returned k hk w1 hlt1
        obtain ⟨a, ha⟩ := Prog.run_of_returned k w1 hret
        rw [ha] at hr
        cases hr
        refine ⟨0, ?_⟩
        rw [List.replicate_succ, runs_cons, pick_at st i _ o rest hwk]
        simp only [exit_not_blocked, Bool.false_eq_true, if_false, Prog.step, hx, ok_bind,
          pure_eq_ok, hret, if_true, List.replicate_zero, runs]
      · have hlt1 : w1.tree.lock_type = s.code := (Cmd.exec_frame hcl hx).1.trans hlt
        have hnr : k.returned w1 = false := (Prog.crit_step s k hk w1 hlt1).2.1
        obtain ⟨m, hm⟩ := ih ⟨w1, st.thr⟩ w' hwk hk hr hlt1
        refine ⟨m + 1, ?_⟩
        rw [List.replicate_succ, runs_cons, pick_at st i _ o rest hwk]
        simp only [Cmd.not_blocked hcl, Bool.false_eq_true, if_false, Prog.step, hx, ok_bind,
          pure_eq_ok, hnr]
        exact hm

/-- A reader, given the processor often enough, ends its call. -/
theorem finish_reader {n : Nat} (lt : Int) (i : Fin n) (o : Op) (rest : List Op)
    (p : Prog Unit) :
    ∀ (st : State n), (st.thr i).work = o :: rest → p.RCrit lt → RunsOk p st.w →
      st.w.tree.lock_type = lt →
      ∃ m w1, runs (st.at i p) (List.replicate (m + 1) i) =
        .ok ⟨w1, Function.update st.thr i ⟨rest, none, bump (st.thr i).k o⟩⟩ := by
  induction p with
  | ret a => intro st _ hc; exact hc.elim
  | fail e => intro st _ _ hr; obtain ⟨w', e'⟩ := hr; cases e'
  | lock_type k ih =>
    intro st hwk hc hr hlt
    have hc' : (k lt).RCrit lt := hc
    have hr' : RunsOk (k lt) st.w := by
      obtain ⟨w', e⟩ := hr
      have e' : (k st.w.tree.lock_type).run st.w = .ok (w', ()) := e
      rw [hlt] at e'
      exact ⟨w', e'⟩
    obtain ⟨m, w1, hm⟩ := ih lt st hwk hc' hr' hlt
    refine ⟨m, w1, ?_⟩
    rw [List.replicate_succ, runs_cons] at hm ⊢
    have hnb : (k lt).blocked st.w = false := (Prog.rcrit_step lt _ hc' st.w hlt).1
    have e : pick (st.at i (Prog.lock_type k)) i = pick (st.at i (k lt)) i := by
      rw [pick_at st i _ o rest hwk, pick_at st i _ o rest hwk]
      simp only [Prog.blocked, Prog.step, hlt, hnb, Bool.false_eq_true, if_false]
    rw [e]; exact hm
  | fuel k ih =>
    intro st hwk hc hr hlt
    obtain ⟨m, w1, hm⟩ := ih st.w.brk st hwk (hc _) hr hlt
    refine ⟨m, w1, ?_⟩
    rw [List.replicate_succ, runs_cons] at hm ⊢
    have hnb : (k st.w.brk).blocked st.w = false :=
      (Prog.rcrit_step lt _ (hc _) st.w hlt).1
    have e : pick (st.at i (Prog.fuel k)) i = pick (st.at i (k st.w.brk)) i := by
      rw [pick_at st i _ o rest hwk, pick_at st i _ o rest hwk]
      simp only [Prog.blocked, Prog.step, hnb, Bool.false_eq_true, if_false]
    rw [e]; exact hm
  | deref q k ih =>
    intro st hwk hc hr hlt
    obtain ⟨w', hr⟩ := hr
    simp only [Prog.run] at hr
    cases hd : CBinary.deref st.w q with
    | error e => rw [hd] at hr; cases hr
    | ok x =>
      rw [hd, ok_bind] at hr
      have hnr : (k x).returned st.w = false := (Prog.rcrit_step lt (k x) (hc x) st.w hlt).2.1
      obtain ⟨m, w1, hm⟩ := ih x st hwk (hc x) ⟨w', hr⟩ hlt
      refine ⟨m + 1, w1, ?_⟩
      rw [List.replicate_succ, runs_cons, pick_at st i _ o rest hwk]
      simp only [Prog.blocked, Bool.false_eq_true, if_false, Prog.step, hd, ok_bind,
        pure_eq_ok, hnr]
      exact hm
  | root k ih =>
    intro st hwk hc hr hlt
    have hnr : (k st.w.tree.root).returned st.w = false :=
      (Prog.rcrit_step lt _ (hc _) st.w hlt).2.1
    obtain ⟨m, w1, hm⟩ := ih _ st hwk (hc _) hr hlt
    refine ⟨m + 1, w1, ?_⟩
    rw [List.replicate_succ, runs_cons, pick_at st i _ o rest hwk]
    simp only [Prog.blocked, Bool.false_eq_true, if_false, Prog.step, ok_bind, hnr]
    exact hm
  | malloc_element v k _ => intro st _ hc; exact hc.elim
  | cmd c k _ =>
    intro st hwk hc hr hlt
    obtain ⟨hce, hk⟩ := hc
    subst hce
    obtain ⟨w', hr⟩ := hr
    simp only [Prog.run] at hr
    cases hx : Cmd.exec .rw_unlock st.w with
    | error e => rw [hx] at hr; cases hr
    | ok w1 =>
      have hlt1 : w1.tree.lock_type = lt :=
        (exit_exec (s := .ReadWrite) hx).trans hlt
      have hret : k.returned w1 = true := Prog.done_returned k hk w1 hlt1
      refine ⟨0, w1, ?_⟩
      rw [List.replicate_succ, runs_cons, pick_at st i _ o rest hwk]
      simp only [Prog.blocked, Bool.false_eq_true, if_false, Prog.step, hx, ok_bind,
        pure_eq_ok, hret, if_true, List.replicate_zero, runs]

theorem State.at_self {n : Nat} (st : State n) (i : Fin n) (p : Prog Unit)
    (h : (st.thr i).cur = some p) : st.at i p = st := by
  cases st with
  | mk w thr =>
    simp only [State.at] at h ⊢
    congr 1
    rw [← h]
    exact Function.update_eq_self i thr

theorem inside_pos {n : Nat} {st : State n} (h : 1 ≤ inside st) :
    ∃ j p, (st.thr j).cur = some p := by
  by_contra hne
  push_neg at hne
  have : inside st = 0 := inside_joined (fun j => by
    cases hc : (st.thr j).cur with
    | none => rfl
    | some p => exact absurd hc (hne j p))
  omega

/-- From every state of a run in which a worker has a call left, some schedule ends one
call: a call under way if there is one, the next call of some worker otherwise. -/
theorem one_call {n : Nat} {s : Strategy} (hs : s = .Coarse ∨ s = .ReadWrite)
    {w0 : World} {work : Fin n → List Op} {st : State n} {calls : List (Fin n × Op)}
    (h : Serial s w0 work st calls) (i0 : Fin n) (hi0 : (st.thr i0).work ≠ []) :
    ∃ sched w1 i o rest, (st.thr i).work = o :: rest ∧
      runs st sched =
        .ok ⟨w1, Function.update st.thr i ⟨rest, none, bump (st.thr i).k o⟩⟩ := by
  obtain ⟨ws, t, kf, e1, hinv, hk, hbook, hcase⟩ := h
  rcases hcase with ⟨hle, hidle⟩ |
    ⟨i, p, o, rest, w', ws', hc, hwk, hsh, hcrit, hrun, hstep, hle', hheld, hlt, hothers⟩ |
    ⟨hrw, hhe, hrd, hm, hreaders⟩
  · cases hwk : (st.thr i0).work with
    | nil => exact absurd hwk hi0
    | cons o rest =>
      obtain ⟨K, hKc, hKr, hent⟩ := call_entry hs o
      have hinvw : Inv s st.w t := hinv.transfer hle.1 hle.2.2 hle.2.1
      have hfree : TFree s st.w := hinvw.tfree
      have hlt : st.w.tree.lock_type = s.code := hfree.1
      obtain ⟨hret, hbl, hst⟩ := hent st.w hlt
      have hcur := hidle i0
      have hnb : (call o).blocked st.w = false := by rw [hbl]; exact blocked_free hs o hfree
      obtain ⟨w', t', hs1, -⟩ := step_ok hinvw o
      have hrun : (call o).run st.w = .ok (w', ()) := by
        rw [call_run (plain_of hs) o, hs1]; rfl
      cases hx : (entry_of s o).exec st.w with
      | error e => rw [Prog.run_step _ _ hret, hst, hx] at hrun; cases hrun
      | ok w1 =>
        have hrunK : K.run w1 = .ok (w', ()) := by
          rw [Prog.run_step _ _ hret, hst, hx] at hrun
          exact hrun
        have hlt1 : w1.tree.lock_type = s.code := by
          cases hsh : shared s o with
          | false =>
            rw [entry_of_excl hs hsh] at hx
            obtain ⟨w2, hx2, -, hl2⟩ := entry_held hs hfree
            rw [hx] at hx2
            cases hx2
            exact hl2
          | true =>
            have hsRW : s = .ReadWrite := by
              cases s <;> first | rfl | (cases o <;> cases hsh)
            subst hsRW
            have hoL : ∃ v, o = .lookup v := by
              cases o with
              | insert v => cases hsh
              | delete v => cases hsh
              | lookup v => exact ⟨v, rfl⟩
            obtain ⟨v, rfl⟩ := hoL
            obtain ⟨w2, hx2, hhe2, -⟩ := rdlock_exec (w := st.w) (by rw [hfree.2.2]; decide)
            have hx' : Cmd.exec .rdlock st.w = .ok w1 := hx
            rw [hx'] at hx2
            cases hx2
            rw [hhe2.2.2.2.1]; exact hlt
        have hKret : K.returned w1 = false := by
          cases hsh : shared s o with
          | false => exact (Prog.crit_step s K (hKc hsh) w1 hlt1).2.1
          | true => exact (Prog.rcrit_step _ K (hKr hsh) w1 hlt1).2.1
        have hpick : pick st i0 = .ok ((⟨w1, st.thr⟩ : State n).at i0 K) := by
          rw [pick_eq st i0 o rest hwk]
          simp only [hcur, Option.getD_none, hnb, Bool.false_eq_true, if_false, hst, hx,
            map_ok, ok_bind, hKret, State.at, hwk]
        have hfin : ∃ m w2, runs ((⟨w1, st.thr⟩ : State n).at i0 K)
            (List.replicate (m + 1) i0) =
            .ok ⟨w2, Function.update st.thr i0 ⟨rest, none, bump (st.thr i0).k o⟩⟩ := by
          cases hsh : shared s o with
          | false =>
            obtain ⟨m, hm⟩ := finish_call s i0 o rest K ⟨w1, st.thr⟩ w' hwk (hKc hsh) hrunK
              hlt1
            exact ⟨m, w', hm⟩
          | true =>
            exact finish_reader s.code i0 o rest K ⟨w1, st.thr⟩ hwk (hKr hsh) ⟨w', hrunK⟩
              hlt1
        obtain ⟨m, w2, hm⟩ := hfin
        exact ⟨i0 :: List.replicate (m + 1) i0, w2, i0, o, rest, hwk,
          by rw [runs_cons, hpick, ok_bind]; exact hm⟩
  · obtain ⟨m, hm⟩ := finish_call s i o rest p st w' hwk hcrit hrun hlt
    rw [State.at_self st i p hc] at hm
    exact ⟨_, w', i, o, rest, hwk, hm⟩
  · obtain ⟨j, p, hc⟩ := inside_pos hm
    obtain ⟨v, rest, hwk, hrc, hro⟩ := hreaders j p hc
    have hlt : st.w.tree.lock_type = s.code := by
      rw [hhe.2.2.2.1]; exact hinv.tfree.1
    obtain ⟨m, w1, hm1⟩ := finish_reader s.code j _ rest p st hwk hrc hro hlt
    rw [State.at_self st j p hc] at hm1
    exact ⟨_, w1, j, _, rest, hwk, hm1⟩

/-- Every state of a run can be continued to one in which every worker has made all
its calls. -/
theorem serial_can_finish {n : Nat} {s : Strategy} (hs : s = .Coarse ∨ s = .ReadWrite)
    {w0 : World} {work : Fin n → List Op} :
    ∀ (N : Nat) {st : State n} {calls : List (Fin n × Op)}, Serial s w0 work st calls →
      Finset.univ.sum (fun i => (st.thr i).work.length) = N →
      ∃ more st', runs st more = .ok st' ∧ st'.joined ∧ ∀ i, (st'.thr i).work = [] := by
  intro N
  induction N with
  | zero =>
    intro st calls h hN
    have hw : ∀ i, (st.thr i).work = [] := fun i =>
      List.length_eq_zero.mp ((Finset.sum_eq_zero_iff.mp hN) i (Finset.mem_univ i))
    refine ⟨[], st, rfl, ?_, hw⟩
    obtain ⟨ws, t, kf, e1, hinv, hk, hbook, hcase⟩ := h
    rcases hcase with ⟨-, hidle⟩ | ⟨i, p, o, rest, w', ws', hc, hwk, -⟩ |
      ⟨-, -, -, hm, hreaders⟩
    · exact hidle
    · rw [hw i] at hwk; cases hwk
    · obtain ⟨j, p, hc⟩ := inside_pos hm
      obtain ⟨v, rest, hwk, -⟩ := hreaders j p hc
      rw [hw j] at hwk; cases hwk
  | succ N ih =>
    intro st calls h hN
    have hex : ∃ i, (st.thr i).work ≠ [] := by
      by_contra hne
      push_neg at hne
      have : Finset.univ.sum (fun i => (st.thr i).work.length) = 0 :=
        Finset.sum_eq_zero (fun i _ => by rw [hne i]; rfl)
      omega
    obtain ⟨i0, hi0⟩ := hex
    obtain ⟨sched, w1, i, o, rest, hwk, hr⟩ := one_call hs h i0 hi0
    obtain ⟨st1, calls1, hr1, hser1⟩ := runs_serial hs sched h
    rw [hr] at hr1
    cases hr1
    have hsum := sum_update_fin (fun x : Worker => x.work.length) st.thr i
      ⟨rest, none, bump (st.thr i).k o⟩
    simp only [hwk, List.length_cons] at hsum
    obtain ⟨more, st2, hr2, hj2, hw2⟩ := ih hser1 (by
      show Finset.univ.sum (fun j =>
        (Function.update st.thr i ⟨rest, none, bump (st.thr i).k o⟩ j).work.length) = N
      omega)
    exact ⟨sched ++ more, st2, by rw [runs_append sched _ _ _ hr]; exact hr2, hj2, hw2⟩

theorem runs_to_join_coarse :
    ∃ w0 st, reach .Coarse [.insert 5] = .ok w0 ∧
      runs (start w0 (fun i : Fin 2 => if i = 0 then [.insert 3] else [.delete 3, .delete 9]))
        ([0, 1, 0, 1, 0, 1, 0, 1, 0, 1, 0, 1, 0, 0, 0, 0, 0, 0, 0, 0, 0, 0] ++
          List.replicate 40 1) = .ok st ∧
      st.joined ∧ (∀ i, (st.thr i).work = []) ∧
      (st.thr 0).k = ⟨1, 0, 0⟩ ∧ (st.thr 1).k = ⟨0, 2, 0⟩ ∧
      node_count (dispatch .Coarse) w0 = .ok 1 ∧ node_count (dispatch .Coarse) st.w = .ok 1 := by
  refine ⟨_, _, rfl, rfl, ?_, ?_, rfl, rfl, rfl, rfl⟩
  · intro i; fin_cases i <;> rfl
  · intro i; fin_cases i <;> rfl

theorem lost_insert_without_lock :
    ∃ st, runs (start (fresh .None) (fun i : Fin 2 => if i = 0 then [.insert 3] else [.insert 4]))
        [0, 1, 0, 1, 0, 1, 0, 1] = .ok st ∧
      st.joined ∧ (∀ i, (st.thr i).work = []) ∧
      (st.thr 0).k = ⟨1, 0, 0⟩ ∧ (st.thr 1).k = ⟨1, 0, 0⟩ ∧
      node_count (dispatch .None) (fresh .None) = .ok 0 ∧
      node_count (dispatch .None) st.w = .ok 1 := by
  refine ⟨_, rfl, ?_, ?_, rfl, rfl, rfl, rfl⟩
  · intro i; fin_cases i <;> rfl
  · intro i; fin_cases i <;> rfl

/-- Two lookups on a ReadWrite tree are under way at the same time: after one step of
each worker both hold the reader-writer lock in read mode, and a third worker, which
has an insert to make, waits. -/
theorem readers_overlap :
    ∃ w0 st, reach .ReadWrite [.insert 5] = .ok w0 ∧
      runs (start w0 (fun i : Fin 3 =>
          if i = 0 then [.lookup 5] else if i = 1 then [.lookup 7] else [.insert 6]))
        [0, 1, 2, 2] = .ok st ∧
      st.w.tree.rw_lock = .readers 2 ∧ (st.thr 0).cur.isSome = true ∧
      (st.thr 1).cur.isSome = true ∧ (st.thr 2).cur.isSome = false := by
  exact ⟨_, _, rfl, rfl, rfl, rfl, rfl, rfl⟩

end Par

/-- C10 (amended): take a Coarse or ReadWrite tree after any single-threaded run, and
any number of worker threads of main.cpp, each with its own list of `Tree_Insert`,
`Tree_Delete` and `Tree_Lookup` / `Element_Release` calls to make.  The threads run
interleaved statement by statement under any schedule; a thread whose next statement
is a lock call that cannot be granted waits.  Then no statement faults, at every point
of the run some continuation of the schedule lets every worker finish all its calls,
and whenever no call is under way (as when `main` has joined the threads) the nodes,
the root, the locks and the counters are exactly those that the finished calls give
when made one whole call after the other in some order that keeps the order of every
worker, the node count obtained by a traverse equals the node count at the start plus
the number of `Tree_Insert` calls the workers counted minus the number of `Tree_Delete`
calls whose key was stored in the tree when the call was made, and that number is at
most the number of `Tree_Delete` calls the workers counted.  The same equation holds
for any whole calls made one after the other by any workers, in particular for every
single-threaded run. -/
theorem C10_count_conservation (s : Strategy) (hs : s = .Coarse ∨ s = .ReadWrite)
    (pre : List Op) (n : Nat) (work : Fin n → List Op) (sched : List (Fin n)) :
    ∃ w0 c0 st, reach s pre = .ok w0 ∧ node_count (dispatch s) w0 = .ok c0 ∧
      Par.runs (Par.start w0 work) sched = .ok st ∧
      (∃ more st', Par.runs st more = .ok st' ∧ st'.joined ∧ ∀ i, (st'.thr i).work = []) ∧
      (st.joined → ∃ calls ws c1,
        (∀ i, (calls.filter (fun c => decide (c.1 = i))).map Prod.snd ++ (st.thr i).work =
          work i) ∧
        Thread_Funcs (dispatch s) w0 (fun _ => ⟨0, 0, 0⟩) calls =
          .ok (ws, fun i => (st.thr i).k) ∧
        st.w.mem = ws.mem ∧ st.w.brk = ws.brk ∧ st.w.tree = ws.tree ∧
        node_count (dispatch s) st.w = .ok c1 ∧
        c1 = c0 + (total_inserts (fun i => (st.thr i).k) : Int) -
          (effective_deletes (dispatch s) w0 (calls.map Prod.snd) : Int) ∧
        effective_deletes (dispatch s) w0 (calls.map Prod.snd) ≤
          total_deletes (fun i => (st.thr i).k)) ∧
      (∀ calls : List (Fin n × Op), ∃ w k c1,
        Thread_Funcs (dispatch s) w0 (fun _ => ⟨0, 0, 0⟩) calls = .ok (w, k) ∧
        node_count (dispatch s) w = .ok c1 ∧
        c1 = c0 + (total_inserts k : Int) -
          (effective_deletes (dispatch s) w0 (calls.map Prod.snd) : Int) ∧
        effective_deletes (dispatch s) w0 (calls.map Prod.snd) ≤ total_deletes k) := by
  obtain ⟨w0, t, h1, h2⟩ := reach_ok s pre
  obtain ⟨st, calls, e1, hser⟩ := Par.runs_serial hs sched (Par.start_serial h2 work)
  have hfin := Par.serial_can_finish hs _ hser rfl
  obtain ⟨ws, t1, kf, e2, hinv, hk, hbook, hcase⟩ := hser
  refine ⟨w0, _, st, h1, node_count_ok h2, e1, hfin, ?_, ?_⟩
  · intro hj
    rcases hcase with ⟨hle, -⟩ | ⟨i, p, o, rest, w', ws', hc, -⟩ | ⟨-, -, -, hm, -⟩
    · obtain ⟨w, t', k, e3, hinv', c1, c2⟩ := Thread_Funcs_count calls h2
      rw [e2] at e3
      cases e3
      have hkf : (fun i => (st.thr i).k) = kf := funext hk
      rw [hkf]
      exact ⟨calls, ws, _, hbook, e2, hle.1, hle.2.1, hle.2.2,
        node_count_ok (hinv'.transfer hle.1 hle.2.2 hle.2.1), c1, c2⟩
    · rw [hj i] at hc
      cases hc
    · have := Par.inside_joined hj
      omega
  · intro calls
    obtain ⟨w, t', k, e3, hinv', c1, c2⟩ := Thread_Funcs_count calls h2
    exact ⟨w, k, _, e3, node_count_ok hinv', c1, c2⟩

/-- C10 (amended) for two workers on a Coarse tree that holds 5: worker 0 has
`Tree_Insert(3)` to make, worker 1 has `Tree_Delete(3)` and then `Tree_Delete(9)`, and
the two are given the processor in turn. -/
theorem C10_count_conservation_witness :
    (Strategy.Coarse = .Coarse ∨ Strategy.Coarse = .ReadWrite) ∧
    ∃ w0 c0 st, reach .Coarse [.insert 5] = .ok w0 ∧
      node_count (dispatch .Coarse) w0 = .ok c0 ∧
      Par.runs (Par.start w0
          (fun i : Fin 2 => if i = 0 then [Op.insert 3] else [Op.delete 3, Op.delete 9]))
        ([0, 1, 0, 1, 0, 1, 0, 1, 0, 1, 0, 1, 0, 0, 0, 0, 0, 0, 0, 0, 0, 0] ++
          List.replicate 40 1) = .ok st ∧
      (∃ more st', Par.runs st more = .ok st' ∧ st'.joined ∧ ∀ i, (st'.thr i).work = []) ∧
      (st.joined → ∃ calls ws c1,
        (∀ i, (calls.filter (fun c => decide (c.1 = i))).map Prod.snd ++ (st.thr i).work =
          (if i = 0 then [Op.insert 3] else [Op.delete 3, Op.delete 9])) ∧
        Thread_Funcs (dispatch .Coarse) w0 (fun _ => ⟨0, 0, 0⟩) calls =
          .ok (ws, fun i => (st.thr i).k) ∧
        st.w.mem = ws.mem ∧ st.w.brk = ws.brk ∧ st.w.tree = ws.tree ∧
        node_count (dispatch .Coarse) st.w = .ok c1 ∧
        c1 = c0 + (total_inserts (fun i => (st.thr i).k) : Int) -
          (effective_deletes (dispatch .Coarse) w0 (calls.map Prod.snd) : Int) ∧
        effective_deletes (dispatch .Coarse) w0 (calls.map Prod.snd) ≤
          total_deletes (fun i => (st.thr i).k)) ∧
      (∀ calls : List (Fin 2 × Op), ∃ w k c1,
        Thread_Funcs (dispatch .Coarse) w0 (fun _ => ⟨0, 0, 0⟩) calls = .ok (w, k) ∧
        node_count (dispatch .Coarse) w = .ok c1 ∧
        c1 = c0 + (total_inserts k : Int) -
          (effective_deletes (dispatch .Coarse) w0 (calls.map Prod.snd) : Int) ∧
        effective_deletes (dispatch .Coarse) w0 (calls.map Prod.snd) ≤ total_deletes k) :=
  ⟨Or.inl rfl,
    C10_count_conservation .Coarse (Or.inl rfl) [.insert 5] 2
      (fun i => if i = 0 then [Op.insert 3] else [Op.delete 3, Op.delete 9])
      ([0, 1, 0, 1, 0, 1, 0, 1, 0, 1, 0, 1, 0, 0, 0, 0, 0, 0, 0, 0, 0, 0] ++
        List.replicate 40 1)⟩

end CBinary

namespace MpiSort

theorem bind_ok {α β : Type} (x : α) (f : α → Except Fault β) :
    (Except.ok x >>= f) = f x := rfl

theorem pure_ok {α : Type} (x : α) : (pure x : Except Fault α) = Except.ok x := rfl

theorem rd_append (p : List Int) (x : Int) (r : List Int) :
    rd (p ++ x :: r) p.length = .ok x := by
  rw [rd, List.getElem?_append_right (le_refl _)]
  simp

theorem wr_append (p : List Int) (y : Int) (r : List Int) (x : Int) :
    wr (p ++ y :: r) p.length x = .ok ((p ++ [x]) ++ r) := by
  simp [wr]

theorem merge_rest_spec (src : List Int) :
    ∀ (xs pre p rest : List Int) (fuel : Nat), src = pre ++ xs → xs.length < fuel →
      xs.length ≤ rest.length →
      merge_rest src src.length fuel (p ++ rest) pre.length p.length =
        .ok (p ++ xs ++ rest.drop xs.length, src.length, p.length + xs.length) := by
  intro xs
  induction xs with
  | nil =>
    intro pre p rest fuel hs hf hr
    cases fuel with
    | zero => simp at hf
    | succ f =>
      subst hs
      simp [merge_rest, pure_ok]
  | cons x xs ih =>
    intro pre p rest fuel hs hf hr
    cases fuel with
    | zero => simp at hf
    | succ f =>
      cases rest with
      | nil => simp at hr
      | cons y rest =>
        have h1 : pre.length < src.length := by subst hs; simp
        have h2 := ih (pre ++ [x]) (p ++ [x]) rest f (by simp [hs])
          (by simpa using hf) (by simpa using hr)
        simp only [List.length_append, List.length_singleton] at h2
        have h3 : rd src pre.length = .ok x := by rw [hs]; exact rd_append _ _ _
        simp only [merge_rest, h1, if_true, h3, bind_ok, wr_append]
        show merge_rest src src.length f (p ++ [x] ++ rest) (pre.length + 1) (p.length + 1) = _
        rw [h2]
        simp [Nat.add_assoc, Nat.add_comm 1]

theorem merge_loop_spec (a b : List Int) :
    ∀ (fuel : Nat) (pa xs pb ys p rest : List Int), a = pa ++ xs → b = pb ++ ys →
      xs.length + ys.length < fuel → xs.length + ys.length ≤ rest.length →
      ∃ pre xs' ys' pa' pb', merge_loop a a.length b b.length fuel (p ++ rest)
          pa.length pb.length p.length =
          .ok (p ++ pre ++ rest.drop pre.length, pa'.length, pb'.length,
            p.length + pre.length) ∧
        a = pa' ++ xs' ∧ b = pb' ++ ys' ∧ (xs' = [] ∨ ys' = []) ∧
        pre.length + xs'.length + ys'.length = xs.length + ys.length ∧
        List.merge xs ys (fun x y => decide (x ≤ y)) =
          pre ++ List.merge xs' ys' (fun x y => decide (x ≤ y)) := by
  intro fuel
  induction fuel with
  | zero => intro pa xs pb ys p rest _ _ hf; simp at hf
  | succ f ih =>
    intro pa xs pb ys p rest ha hb hf hr
    cases xs with
    | nil =>
      refine ⟨[], [], ys, pa, pb, ?_, ha, hb, Or.inl rfl, by simp, by simp⟩
      have : ¬ (pa.length < a.length) := by rw [ha]; simp
      simp [merge_loop, this, pure_ok]
    | cons x xs =>
      cases ys with
      | nil =>
        refine ⟨[], x :: xs, [], pa, pb, ?_, ha, hb, Or.inr rfl, by simp, by simp⟩
        have : ¬ (pb.length < b.length) := by rw [hb]; simp
        simp [merge_loop, this, pure_ok]
      | cons y ys =>
        have h1 : pa.length < a.length := by rw [ha]; simp
        have h2 : pb.length < b.length := by rw [hb]; simp
        have h3 : rd a pa.length = .ok x := by rw [ha]; exact rd_append _ _ _
        have h4 : rd b pb.length = .ok y := by rw [hb]; exact rd_append _ _ _
        cases rest with
        | nil => simp at hr
        | cons z rest =>
          simp only [merge_loop, h1, h2, and_self, if_true, h3, h4, bind_ok, wr_append]
          by_cases hxy : x ≤ y
          · obtain ⟨pre, xs', ys', pa', pb', e1, e2, e3, e4, e5, e6⟩ :=
              ih (pa ++ [x]) xs pb (y :: ys) (p ++ [x]) rest (by simp [ha]) hb
                (by simp only [List.length_cons] at hf ⊢; omega)
                (by simp only [List.length_cons] at hr ⊢; omega)
            simp only [List.length_append, List.length_singleton] at e1
            refine ⟨x :: pre, xs', ys', pa', pb', ?_, e2, e3, e4, ?_, ?_⟩
            · simp only [hxy, if_true]
              show merge_loop a a.length b b.length f (p ++ [x] ++ rest) (pa.length + 1)
                pb.length (p.length + 1) = _
              rw [e1]
              simp [Nat.add_assoc, Nat.add_comm 1]
            · simp only [List.length_cons] at e5 ⊢; omega
            · rw [List.cons_merge_cons]
              simp only [hxy, decide_True, if_true, e6, List.cons_append]
          · obtain ⟨pre, xs', ys', pa', pb', e1, e2, e3, e4, e5, e6⟩ :=
              ih pa (x :: xs) (pb ++ [y]) ys (p ++ [y]) rest ha (by simp [hb])
                (by simp only [List.length_cons] at hf ⊢; omega)
                (by simp only [List.length_cons] at hr ⊢; omega)
            simp only [List.length_append, List.length_singleton] at e1
            refine ⟨y :: pre, xs', ys', pa', pb', ?_, e2, e3, e4, ?_, ?_⟩
            · simp only [hxy, if_false]
              show merge_loop a a.length b b.length f (p ++ [y] ++ rest) pa.length
                (pb.length + 1) (p.length + 1) = _
              rw [e1]
              simp [Nat.add_assoc, Nat.add_comm 1]
            · simp only [List.length_cons] at e5 ⊢; omega
            · rw [List.cons_merge_cons]
              simp only [hxy, decide_False, Bool.false_eq_true, if_false, e6, List.cons_append]

theorem merge_eq (dest a b : List Int) (h : a.length + b.length ≤ dest.length) :
    merge dest a a.length b b.length =
      .ok (List.merge a b (fun x y => decide (x ≤ y)) ++ dest.drop (a.length + b.length),
        a.length + b.length) := by
  obtain ⟨pre, xs', ys', pa', pb', e1, e2, e3, e4, e5, e6⟩ :=
    merge_loop_spec a b (a.length + b.length + 1) [] a [] b [] dest rfl rfl
      (Nat.lt_succ_self _) h
  simp only [List.length_nil, List.nil_append, Nat.zero_add] at e1
  have hx : xs'.length ≤ (dest.drop pre.length).length := by
    rw [List.length_drop]; omega
  have k1 := merge_rest_spec a xs' pa' pre (dest.drop pre.length) (a.length + 1) e2
    (by rw [e2]; simp only [List.length_append]; omega) hx
  have hy : ys'.length ≤ ((dest.drop pre.length).drop xs'.length).length := by
    rw [List.length_drop, List.length_drop]; omega
  have k2 := merge_rest_spec b ys' pb' (pre ++ xs') ((dest.drop pre.length).drop xs'.length)
    (b.length + 1) e3 (by rw [e3]; simp only [List.length_append]; omega) hy
  simp only [List.length_append] at k2
  simp only [merge, e1, bind_ok, k1, k2, pure_ok]
  have hm : List.merge a b (fun x y => decide (x ≤ y)) = pre ++ xs' ++ ys' := by
    rw [e6]
    rcases e4 with h0 | h0
    · subst h0; simp
    · subst h0; simp
  rw [hm]
  have hl : pre.length + xs'.length + ys'.length = a.length + b.length := e5
  rw [← hl]
  simp only [List.drop_drop, List.append_assoc]

/-- C31: `merge(dest, a, aSize, b, bSize)`, called with arrays `a` and `b` of `aSize`
and `bSize` elements and a `dest` with room for `aSize + bSize` elements, returns with
`n = aSize + bSize` elements written: the first `aSize + bSize` elements of `dest` are a
permutation of the elements of `a` followed by those of `b`, the rest of `dest` is as it
was, and when `a` and `b` are each in non-decreasing order so are the elements
written. -/
theorem C31_merge_is_sorted_permutation (dest a b : List Int)
    (h : a.length + b.length ≤ dest.length) :
    ∃ dest', merge dest a a.length b b.length = .ok (dest', a.length + b.length) ∧
      dest'.length = dest.length ∧
      dest'.drop (a.length + b.length) = dest.drop (a.length + b.length) ∧
      (dest'.take (a.length + b.length)).Perm (a ++ b) ∧
      (a.Sorted (· ≤ ·) → b.Sorted (· ≤ ·) →
        (dest'.take (a.length + b.length)).Sorted (· ≤ ·)) := by
  have hlen : (List.merge a b (fun x y => decide (x ≤ y))).length = a.length + b.length :=
    List.length_merge _ _ _
  have htake : (List.merge a b (fun x y => decide (x ≤ y)) ++
      dest.drop (a.length + b.length)).take (a.length + b.length) =
      List.merge a b (fun x y => decide (x ≤ y)) := by
    rw [← hlen, List.take_left']
    rfl
  refine ⟨_, merge_eq dest a b h, ?_, ?_, ?_, ?_⟩
  · rw [List.length_append, hlen, List.length_drop]; omega
  · rw [← hlen, List.drop_left']
    rfl
  · rw [htake]
    exact List.merge_perm_append _
  · intro ha hb
    rw [htake]
    have := @List.sorted_merge Int (fun x y : Int => decide (x ≤ y))
      (fun x y z hxy hyz => by
        simp only [decide_eq_true_eq] at hxy hyz ⊢; exact le_trans hxy hyz)
      (fun x y => by
        simp only [Bool.or_eq_true, decide_eq_true_eq]; exact le_total x y)
      a b (ha.imp (fun h => by simpa using h)) (hb.imp (fun h => by simpa using h))
    exact this.imp (fun h => by simpa using h)

/-- C31, an instance: merging `[1, 4, 4]` and `[2, 4, 9]` into a buffer of seven
elements. -/
theorem C31_merge_is_sorted_permutation_witness :
    [1, 4, 4].length + [2, 4, 9].length ≤ [0, 0, 0, 0, 0, 0, 7].length ∧
    ∃ dest', merge [0, 0, 0, 0, 0, 0, 7] [1, 4, 4] [1, 4, 4].length [2, 4, 9]
        [2, 4, 9].length = .ok (dest', [1, 4, 4].length + [2, 4, 9].length) ∧
      dest'.length = [0, 0, 0, 0, 0, 0, 7].length ∧
      dest'.drop ([1, 4, 4].length + [2, 4, 9].length) =
        [0, 0, 0, 0, 0, 0, 7].drop ([1, 4, 4].length + [2, 4, 9].length) ∧
      (dest'.take ([1, 4, 4].length + [2, 4, 9].length)).Perm ([1, 4, 4] ++ [2, 4, 9]) ∧
      (([1, 4, 4] : List Int).Sorted (· ≤ ·) → ([2, 4, 9] : List Int).Sorted (· ≤ ·) →
        (dest'.take ([1, 4, 4].length + [2, 4, 9].length)).Sorted (· ≤ ·)) :=
  ⟨by decide, C31_merge_is_sorted_permutation [0, 0, 0, 0, 0, 0, 7] [1, 4, 4] [2, 4, 9]
    (by decide)⟩

theorem int_result_ok (x : Int) (h0 : -2147483648 ≤ x) (h1 : x ≤ 2147483647) :
    int_result x = .ok x := by
  unfold int_result
  rw [if_pos ⟨h0, h1⟩]

theorem int_result_eq_ok {x y : Int} (h : int_result x = .ok y) :
    y = x ∧ -2147483648 ≤ x ∧ x ≤ 2147483647 := by
  unfold int_result at h
  split at h
  · next hx => injection h with h; exact ⟨h.symm, hx.1, hx.2⟩
  · cases h

theorem two_pow_le_of_le (k : Nat) (h : k ≤ 30) : (2 : Int) ^ k ≤ 1073741824 := by
  have h1 : (2 : Int) ^ k ≤ (2 : Int) ^ 30 := pow_le_pow_right₀ (by norm_num) h
  norm_num at h1
  exact h1

theorem raise_number_loop_two_ok :
    ∀ (power k : Nat), k + power ≤ 30 →
      raise_number_loop 2 power ((2 : Int) ^ k) = .ok ((2 : Int) ^ (k + power)) := by
  intro power
  induction power with
  | zero => intro k _; rfl
  | succ n ih =>
    intro k h
    have hp : (2 : Int) ^ k * 2 = (2 : Int) ^ (k + 1) := by rw [pow_succ]
    have hb := two_pow_le_of_le (k + 1) (by omega)
    have hpos : (0 : Int) < (2 : Int) ^ (k + 1) := by positivity
    rw [raise_number_loop, hp, int_result_ok _ (by omega) (by omega), bind_ok, ih (k + 1) (by omega)]
    congr 2
    omega

theorem raise_number_loop_two_overflow :
    ∀ (power k : Nat), k ≤ 30 → 30 < k + power →
      raise_number_loop 2 power ((2 : Int) ^ k) = .error .overflow := by
  intro power
  induction power with
  | zero => intro k h1 h2; omega
  | succ n ih =>
    intro k h1 h2
    have hp : (2 : Int) ^ k * 2 = (2 : Int) ^ (k + 1) := by rw [pow_succ]
    rw [raise_number_loop, hp]
    by_cases hk : k = 30
    · subst hk
      rfl
    · have hb := two_pow_le_of_le (k + 1) (by omega)
      have hpos : (0 : Int) < (2 : Int) ^ (k + 1) := by positivity
      rw [int_result_ok _ (by omega) (by omega), bind_ok]
      exact ih (k + 1) (by omega) (by omega)

theorem raise_number_two_ok (iter : Nat) (h : iter ≤ 30) :
    raise_number iter 2 = .ok ((2 : Int) ^ iter) := by
  have := raise_number_loop_two_ok iter 0 (by omega)
  simpa [raise_number] using this

theorem raise_number_two_overflow (iter : Nat) (h : 30 < iter) :
    raise_number iter 2 = .error .overflow := by
  have := raise_number_loop_two_overflow iter 0 (by omega) (by omega)
  simpa [raise_number] using this

/-- The loop reaches `currPart == rank` when `rank` is `d` jumps ahead and fits into an
`int`. -/
theorem SendOrRecv_loop_hit (ws rank j : Int) (hj : 0 < j) (hr : rank < ws)
    (hmax : rank ≤ 2147483647) :
    ∀ (d fuel : Nat) (cp recvr prev partner : Int), (recvr = 0 ∨ recvr = 1) → 0 ≤ cp →
      rank = cp + d * j → d < fuel →
      SendOrRecv_loop ws rank j fuel cp recvr prev partner =
        if (if d % 2 = 0 then recvr else 1 - recvr) = 1 then
          int_result (rank + j) >>= fun sum =>
            if sum ≥ ws then .ok (0, if d = 0 then prev else rank - j) else .ok (2, sum)
        else .ok (1, if d = 0 then prev else rank - j) := by
  intro d
  induction d with
  | zero =>
    intro fuel cp recvr prev partner h01 h0 hcp hf
    obtain ⟨f, rfl⟩ : ∃ f, fuel = f + 1 := ⟨fuel - 1, by omega⟩
    simp only [Nat.cast_zero, zero_mul, add_zero] at hcp
    subst hcp
    rcases h01 with h | h
    · subst h
      simp [SendOrRecv_loop, hr]
    · subst h
      simp [SendOrRecv_loop, hr]
  | succ d ih =>
    intro fuel cp recvr prev partner h01 h0 hcp hf
    obtain ⟨f, rfl⟩ : ∃ f, fuel = f + 1 := ⟨fuel - 1, by omega⟩
    have hdj : 0 ≤ (d : Int) * j := mul_nonneg (Int.ofNat_nonneg d) (le_of_lt hj)
    have hcp' : rank = (cp + j) + d * j := by rw [hcp]; push_cast; ring
    have hlt : cp < ws := by omega
    have hne : cp ≠ rank := by omega
    have hrec := ih f (cp + j) (if recvr = 1 then 0 else 1) cp partner
      (by rcases h01 with h | h <;> subst h <;> simp) (by omega) hcp' (by omega)
    rw [SendOrRecv_loop, if_pos hlt, if_neg hne, int_result_ok _ (by omega) (by omega), bind_ok,
      hrec]
    have hpv : (if d = 0 then cp else rank - j) = rank - j := by
      split
      · next h0 => subst h0; simp at hcp'; omega
      · rfl
    rw [hpv]
    simp only [Nat.succ_ne_zero, if_false, Nat.add_eq_zero, one_ne_zero, and_false]
    by_cases hd : d % 2 = 0
    · have hd1 : ¬ (d + 1) % 2 = 0 := by omega
      simp only [hd, hd1, if_true, if_false]
      rcases h01 with h | h <;> subst h <;> simp
    · have hd1 : (d + 1) % 2 = 0 := by omega
      simp only [hd, hd1, if_true, if_false]
      rcases h01 with h | h <;> subst h <;> simp

/-- When `rank` is not a whole number of jumps ahead, or does not fit into an `int`, the
loop returns nothing but `-1`. -/
theorem SendOrRecv_loop_miss (ws rank j : Int) :
    ∀ (fuel : Nat) (cp recvr prev partner : Int), cp ≤ 2147483647 →
      (¬ ∃ d : Nat, rank = cp + d * j ∧ rank ≤ 2147483647) →
      ∀ c q, SendOrRecv_loop ws rank j fuel cp recvr prev partner = .ok (c, q) →
        c = -1 ∧ q = partner := by
  intro fuel
  induction fuel with
  | zero => intro cp recvr prev partner _ _ c q h; simp [SendOrRecv_loop] at h
  | succ f ih =>
    intro cp recvr prev partner hcp hno c q h
    rw [SendOrRecv_loop] at h
    by_cases hlt : cp < ws
    · have hne : cp ≠ rank := by
        intro h
        exact hno ⟨0, by simp [h], by omega⟩
      rw [if_pos hlt, if_neg hne] at h
      cases hs : int_result (cp + j) with
      | error e => rw [hs] at h; cases h
      | ok next =>
        rw [hs, bind_ok] at h
        obtain ⟨e1, -, e3⟩ := int_result_eq_ok hs
        refine ih next _ _ _ (by omega) ?_ c q h
        rintro ⟨d, hd, hm⟩
        exact hno ⟨d + 1, by rw [hd, e1]; push_cast; ring, hm⟩
    · rw [if_neg hlt] at h
      injection h with h
      injection h with h1 h2
      exact ⟨h1.symm, h2.symm⟩

/-- When `rank` is not a whole number of jumps ahead and no sum overflows, the loop
returns `-1`. -/
theorem SendOrRecv_loop_miss_ok (ws rank j : Int) (hj : 0 < j) (hjw : ws + j ≤ 2147483648) :
    ∀ (fuel : Nat) (cp recvr prev partner : Int), 0 ≤ cp →
      (¬ ∃ d : Nat, rank = cp + d * j) → (ws - cp).toNat < fuel →
      SendOrRecv_loop ws rank j fuel cp recvr prev partner = .ok (-1, partner) := by
  intro fuel
  induction fuel with
  | zero => intro cp recvr prev partner _ _ hf; omega
  | succ f ih =>
    intro cp recvr prev partner h0 hno hf
    rw [SendOrRecv_loop]
    by_cases hlt : cp < ws
    · have hne : cp ≠ rank := by
        intro h
        exact hno ⟨0, by simp [h]⟩
      rw [if_pos hlt, if_neg hne, int_result_ok _ (by omega) (by omega), bind_ok]
      apply ih
      · omega
      · rintro ⟨d, hd⟩
        exact hno ⟨d + 1, by rw [hd]; push_cast; ring⟩
      · omega
    · rw [if_neg hlt]

theorem SendOrRecv_final (ws rank : Int) (iter : Nat) (partner : Int) (hi : iter ≤ 30)
    (h : (2 : Int) ^ iter ≥ ws) : SendOrRecv ws rank iter partner = .ok (3, partner) := by
  simp only [SendOrRecv, raise_number_two_ok iter hi, bind_ok]
  rw [if_pos h]

theorem SendOrRecv_overflow (ws rank : Int) (iter : Nat) (partner : Int) (hi : 30 < iter) :
    SendOrRecv ws rank iter partner = .error .overflow := by
  simp only [SendOrRecv, raise_number_two_overflow iter hi]
  rfl

theorem SendOrRecv_mult (ws rank : Int) (iter : Nat) (partner : Int) (d : Nat)
    (hi : iter ≤ 30) (h0 : rank = d * (2 : Int) ^ iter) (hr : rank < ws)
    (hmax : rank ≤ 2147483647) (hj : (2 : Int) ^ iter < ws) :
    SendOrRecv ws rank iter partner =
      if d % 2 = 0 then
        int_result (rank + (2 : Int) ^ iter) >>= fun sum =>
          if sum ≥ ws then .ok (0, if d = 0 then 0 else rank - (2 : Int) ^ iter)
          else .ok (2, sum)
      else .ok (1, rank - (2 : Int) ^ iter) := by
  have hpos : (0 : Int) < (2 : Int) ^ iter := by positivity
  have hd : (d : Int) ≤ rank := by
    rw [h0]
    have : (1 : Int) ≤ (2 : Int) ^ iter := hpos
    have hd0 : (0 : Int) ≤ (d : Int) := Int.ofNat_nonneg d
    nlinarith
  simp only [SendOrRecv, raise_number_two_ok iter hi, bind_ok]
  rw [if_neg (not_le.mpr hj)]
  rw [SendOrRecv_loop_hit ws rank ((2 : Int) ^ iter) hpos hr hmax d (ws.toNat + 1) 0 1 0 partner
    (Or.inr rfl) (le_refl _) (by rw [h0]; ring) (by omega)]
  by_cases hd2 : d % 2 = 0
  · simp only [hd2, if_true]
  · have hd0 : d ≠ 0 := by
      intro h; subst h; simp at hd2
    simp [hd2, hd0]

/-- An answer of `SendOrRecv` is 3 in a final iteration; in another iteration it is -1
unless the rank is a multiple of the jump. -/
theorem SendOrRecv_answer (ws rank : Int) (iter : Nat) (partner c q : Int)
    (h : SendOrRecv ws rank iter partner = .ok (c, q)) :
    iter ≤ 30 ∧
      ((c = 3 ∧ (2 : Int) ^ iter ≥ ws) ∨
        ((2 : Int) ^ iter < ws ∧
          (c = -1 ∨ ∃ d : Nat, rank = d * (2 : Int) ^ iter ∧ rank ≤ 2147483647))) := by
  by_cases hi : iter ≤ 30
  · refine ⟨hi, ?_⟩
    by_cases hj : (2 : Int) ^ iter ≥ ws
    · rw [SendOrRecv_final ws rank iter partner hi hj] at h
      injection h with h
      injection h with h1 h2
      exact Or.inl ⟨h1.symm, hj⟩
    · right
      refine ⟨lt_of_not_ge hj, ?_⟩
      by_cases hm : ∃ d : Nat, rank = d * (2 : Int) ^ iter ∧ rank ≤ 2147483647
      · exact Or.inr hm
      · left
        simp only [SendOrRecv, raise_number_two_ok iter hi, bind_ok] at h
        rw [if_neg hj] at h
        refine (SendOrRecv_loop_miss ws rank _ _ 0 1 0 partner (by norm_num) ?_ c q h).1
        rintro ⟨d, hd, hmax⟩
        exact hm ⟨d, by rw [hd]; ring, hmax⟩
  · rw [SendOrRecv_overflow ws rank iter partner (by omega)] at h
    cases h

theorem SendOrRecv_nonmult (ws rank : Int) (iter : Nat) (partner : Int) (hi : iter ≤ 30)
    (h0 : ¬ ∃ d : Nat, rank = d * (2 : Int) ^ iter) (hj : (2 : Int) ^ iter < ws)
    (hws : ws ≤ 1073741824) :
    SendOrRecv ws rank iter partner = .ok (-1, partner) := by
  have hpos : (0 : Int) < (2 : Int) ^ iter := by positivity
  simp only [SendOrRecv, raise_number_two_ok iter hi, bind_ok]
  rw [if_neg (not_le.mpr hj)]
  apply SendOrRecv_loop_miss_ok ws rank _ hpos (by omega)
  · exact le_refl _
  · rintro ⟨d, hd⟩
    exact h0 ⟨d, by rw [hd]; ring⟩
  · omega

theorem ok_pair_inj {a b c d : Int} (h : (Except.ok (a, b) : Except Fault (Int × Int)) = .ok (c, d)) :
    a = c ∧ b = d := by
  injection h with h
  injection h with h1 h2
  exact ⟨h1, h2⟩

/-- An answer 2 goes to an even multiple of the jump, and the partner is one jump
further. -/
theorem SendOrRecv_two (ws r : Int) (iter : Nat) (pr p : Int) (hr : r < ws)
    (h : SendOrRecv ws r iter pr = .ok (2, p)) :
    iter ≤ 30 ∧ (2 : Int) ^ iter < ws ∧ p = r + (2 : Int) ^ iter ∧ p ≤ 2147483647 ∧ p < ws ∧
      ∃ d : Nat, r = d * (2 : Int) ^ iter ∧ d % 2 = 0 := by
  obtain ⟨hi, h3 | ⟨hj, h1 | ⟨d, hd, hmax⟩⟩⟩ := SendOrRecv_answer ws r iter pr 2 p h
  · omega
  · omega
  · rw [SendOrRecv_mult ws r iter pr d hi hd hr hmax hj] at h
    by_cases hd2 : d % 2 = 0
    · rw [if_pos hd2] at h
      cases hs : int_result (r + (2 : Int) ^ iter) with
      | error e => rw [hs] at h; cases h
      | ok sum =>
        rw [hs, bind_ok] at h
        obtain ⟨e1, -, e3⟩ := int_result_eq_ok hs
        by_cases hge : sum ≥ ws
        · rw [if_pos hge] at h
          have := (ok_pair_inj h).1; omega
        · rw [if_neg hge] at h
          have e := (ok_pair_inj h).2
          exact ⟨hi, hj, by omega, by omega, by omega, d, hd, hd2⟩
    · rw [if_neg hd2] at h
      have := (ok_pair_inj h).1; omega

/-- An answer 1 goes to an odd multiple of the jump, and the partner is one jump
back. -/
theorem SendOrRecv_one (ws p : Int) (iter : Nat) (pp r : Int) (hp : p < ws)
    (h : SendOrRecv ws p iter pp = .ok (1, r)) :
    iter ≤ 30 ∧ (2 : Int) ^ iter < ws ∧ r = p - (2 : Int) ^ iter ∧ p ≤ 2147483647 ∧
      ∃ d : Nat, p = d * (2 : Int) ^ iter ∧ d % 2 = 1 := by
  obtain ⟨hi, h3 | ⟨hj, h1 | ⟨d, hd, hmax⟩⟩⟩ := SendOrRecv_answer ws p iter pp 1 r h
  · omega
  · omega
  · rw [SendOrRecv_mult ws p iter pp d hi hd hp hmax hj] at h
    by_cases hd2 : d % 2 = 0
    · rw [if_pos hd2] at h
      cases hs : int_result (p + (2 : Int) ^ iter) with
      | error e => rw [hs] at h; cases h
      | ok sum =>
        rw [hs, bind_ok] at h
        by_cases hge : sum ≥ ws
        · rw [if_pos hge] at h
          have := (ok_pair_inj h).1; omega
        · rw [if_neg hge] at h
          have := (ok_pair_inj h).1; omega
    · rw [if_neg hd2] at h
      have e := (ok_pair_inj h).2
      exact ⟨hi, hj, e.symm, hmax, d, hd, by omega⟩

/-- C32: `SendOrRecv` pairs the ranks consistently.  For a world of `worldSize ≥ 1`
ranks, an iteration `iter` with `2^iter < worldSize` and ranks `r`, `p` of the world,
whatever the partner cells hold before the calls: `SendOrRecv` tells `r` that it is a
receiver (2) with partner `p` if and only if it tells `p` that it is a sender (1) with
partner `r`, and in that case `p = r + 2^iter`. -/
theorem C32_sender_and_receiver_agree (worldSize : Int) (iter : Nat) (r p pr pp : Int)
    (hws : 1 ≤ worldSize) (hit : (2 : Int) ^ iter < worldSize)
    (hr : 0 ≤ r ∧ r < worldSize) (hp : 0 ≤ p ∧ p < worldSize) :
    (SendOrRecv worldSize r iter pr = .ok (2, p) ↔
      SendOrRecv worldSize p iter pp = .ok (1, r)) ∧
    (SendOrRecv worldSize r iter pr = .ok (2, p) → p = r + (2 : Int) ^ iter) := by
  have hpos : (0 : Int) < (2 : Int) ^ iter := by positivity
  refine ⟨⟨?_, ?_⟩, fun h => (SendOrRecv_two worldSize r iter pr p hr.2 h).2.2.1⟩
  · intro h
    obtain ⟨hi, hj, hpe, hpm, -, d, hd, hd2⟩ := SendOrRecv_two worldSize r iter pr p hr.2 h
    have hpd : p = ((d + 1 : Nat) : Int) * (2 : Int) ^ iter := by
      rw [hpe, hd]; push_cast; ring
    rw [SendOrRecv_mult worldSize p iter pp (d + 1) hi hpd hp.2 hpm hit]
    have : ¬ (d + 1) % 2 = 0 := by omega
    rw [if_neg this, hpe]
    congr 2
    ring
  · intro h
    obtain ⟨hi, hj, hre, hpm, d, hd, hd2⟩ := SendOrRecv_one worldSize p iter pp r hp.2 h
    obtain ⟨c, rfl⟩ : ∃ c, d = c + 1 := ⟨d - 1, by omega⟩
    have hrc : r = (c : Int) * (2 : Int) ^ iter := by
      rw [hre, hd]; push_cast; ring
    have hrp : r + (2 : Int) ^ iter = p := by rw [hre]; ring
    rw [SendOrRecv_mult worldSize r iter pr c hi hrc hr.2 (by omega) hit]
    have hc : c % 2 = 0 := by omega
    rw [if_pos hc, hrp, int_result_ok p (by omega) hpm, bind_ok,
      if_neg (not_le.mpr hp.2)]

/-- C32, an instance: in a world of five ranks, iteration 1 pairs receiver 0 with
sender 2. -/
theorem C32_sender_and_receiver_agree_witness :
    ((1 : Int) ≤ 5 ∧ (2 : Int) ^ 1 < 5 ∧ ((0 : Int) ≤ 0 ∧ (0 : Int) < 5) ∧
      ((0 : Int) ≤ 2 ∧ (2 : Int) < 5)) ∧
    SendOrRecv 5 0 1 (-1) = .ok (2, 2) ∧
    (SendOrRecv 5 0 1 (-1) = .ok (2, 2) ↔ SendOrRecv 5 2 1 1 = .ok (1, 0)) ∧
    (SendOrRecv 5 0 1 (-1) = .ok (2, 2) → (2 : Int) = 0 + (2 : Int) ^ 1) :=
  ⟨by decide, rfl, C32_sender_and_receiver_agree 5 1 0 2 (-1) 1 (by decide) (by decide)
    ⟨by decide, by decide⟩ ⟨by decide, by decide⟩⟩

theorem lt_thirty_of_two_pow_lt (i : Nat) (h : (2 : Int) ^ i < 1073741824) : i < 30 := by
  by_contra hc
  have h1 : (2 : Int) ^ 30 ≤ (2 : Int) ^ i := pow_le_pow_right₀ (by norm_num) (by omega)
  norm_num at h1
  omega

/-- What `SendOrRecv` answers in a world of at most `2^30` ranks in an iteration that is
not final. -/
theorem SendOrRecv_cases (ws rank : Int) (iter : Nat) (partner : Int) (h0 : 0 ≤ rank)
    (hr : rank < ws) (hws : ws ≤ 1073741824) (hj : (2 : Int) ^ iter < ws) :
    ∃ c q, SendOrRecv ws rank iter partner = .ok (c, q) ∧ c ≠ 3 := by
  have hi : iter ≤ 30 := by
    have := lt_thirty_of_two_pow_lt iter (by omega)
    omega
  have hpos : (0 : Int) < (2 : Int) ^ iter := by positivity
  by_cases hm : ∃ d : Nat, rank = d * (2 : Int) ^ iter
  · obtain ⟨d, hd⟩ := hm
    rw [SendOrRecv_mult ws rank iter partner d hi hd hr (by omega) hj]
    by_cases hd2 : d % 2 = 0
    · rw [if_pos hd2, int_result_ok _ (by omega) (by omega), bind_ok]
      split
      · exact ⟨_, _, rfl, by norm_num⟩
      · exact ⟨_, _, rfl, by norm_num⟩
    · rw [if_neg hd2]
      exact ⟨_, _, rfl, by norm_num⟩
  · exact ⟨_, _, SendOrRecv_nonmult ws rank iter partner hi hm hj hws, by norm_num⟩

/-- What `SendOrRecv` answers in each iteration to the rank `m * 2^i` with `m` odd, in a
world of at most `2^30` ranks: a receiver or unpaired before iteration `i`, a sender in
iteration `i`, and final or no participant in what it answers after it. -/
theorem SendOrRecv_by_valuation (ws r : Int) (i m : Nat) (hm : m % 2 = 1)
    (hr : r = (m : Int) * (2 : Int) ^ i) (hlt : r < ws) (hws : ws ≤ 1073741824)
    (iter : Nat) (partner : Int) :
    (iter = i → SendOrRecv ws r iter partner = .ok (1, r - (2 : Int) ^ i)) ∧
    (iter < i → ∃ c q, SendOrRecv ws r iter partner = .ok (c, q) ∧ (c = 0 ∨ c = 2)) ∧
    (i < iter → ∀ c q, SendOrRecv ws r iter partner = .ok (c, q) → (c = 3 ∨ c = -1)) := by
  have hposi : (0 : Int) < (2 : Int) ^ i := by positivity
  have hm1 : (1 : Int) ≤ (m : Int) := by
    have : 1 ≤ m := by omega
    exact_mod_cast this
  have hle : (2 : Int) ^ i ≤ r := by rw [hr]; nlinarith
  have hi30 : i < 30 := lt_thirty_of_two_pow_lt i (by omega)
  refine ⟨?_, ?_, ?_⟩
  · intro h
    subst h
    rw [SendOrRecv_mult ws r iter partner m (by omega) hr hlt (by omega)
      (lt_of_le_of_lt hle hlt)]
    have : ¬ m % 2 = 0 := by omega
    rw [if_neg this]
  · intro h
    obtain ⟨k, rfl⟩ : ∃ k, i = iter + (k + 1) := ⟨i - iter - 1, by omega⟩
    have hpow : (2 : Int) ^ (iter + (k + 1)) = (2 : Int) ^ (k + 1) * (2 : Int) ^ iter := by
      rw [pow_add]; ring
    have hposk : (1 : Int) ≤ (2 : Int) ^ (k + 1) := by
      have : (0 : Int) < (2 : Int) ^ (k + 1) := by positivity
      omega
    have hposit : (0 : Int) < (2 : Int) ^ iter := by positivity
    have hj : (2 : Int) ^ iter < ws := by
      have : (2 : Int) ^ iter ≤ (2 : Int) ^ (iter + (k + 1)) := by rw [hpow]; nlinarith
      omega
    have hd : r = ((m * 2 ^ (k + 1) : Nat) : Int) * (2 : Int) ^ iter := by
      rw [hr, hpow]; push_cast; ring
    have heven : (m * 2 ^ (k + 1)) % 2 = 0 := by
      rw [pow_succ, ← Nat.mul_assoc]; exact Nat.mul_mod_left _ _
    rw [SendOrRecv_mult ws r iter partner _ (by omega) hd hlt (by omega) hj, if_pos heven,
      int_result_ok _ (by omega) (by omega), bind_ok]
    by_cases hge : r + (2 : Int) ^ iter ≥ ws
    · rw [if_pos hge]; exact ⟨_, _, rfl, Or.inl rfl⟩
    · rw [if_neg hge]; exact ⟨_, _, rfl, Or.inr rfl⟩
  · intro h c q hq
    obtain ⟨-, h3 | ⟨hj, h1 | ⟨d, hd, -⟩⟩⟩ := SendOrRecv_answer ws r iter partner c q hq
    · exact Or.inl h3.1
    · exact Or.inr h1
    · exfalso
      obtain ⟨k, rfl⟩ : ∃ k, iter = i + (k + 1) := ⟨iter - i - 1, by omega⟩
      have hpow : (2 : Int) ^ (i + (k + 1)) = (2 : Int) ^ i * ((2 : Int) ^ k * 2) := by
        rw [pow_add, pow_succ]
      rw [hr, hpow] at hd
      have hcancel : (m : Int) = (d : Int) * ((2 : Int) ^ k * 2) := by
        have h2 : (m : Int) * (2 : Int) ^ i = ((d : Int) * ((2 : Int) ^ k * 2)) * (2 : Int) ^ i := by
          rw [hd]; ring
        exact mul_right_cancel₀ (ne_of_gt hposi) h2
      have hnat : m = d * (2 ^ k * 2) := by exact_mod_cast hcancel
      have : m % 2 = 0 := by
        rw [hnat, ← Nat.mul_assoc]; exact Nat.mul_mod_left _ _
      omega

/-- C34: the bucket split of `hypersort` does not respect the splitters.  In the run
`mpirun -np 2 ./mpisort -s 4 -S 2` the data is
`[952403967, 656651735, 1367566158, 1899386387]` and the splitter is `1899386387`.
Rank 0 splits its sorted local array `[656651735, 952403967]` into the slices
`[656651735]` and `[952403967]`: the last element is put into partition 1 although it
is not above `reps[0]`.  The buckets of the two ranks in bucket order are then
`[656651735, 1367566158, 952403967, 1899386387]`, which is not sorted, and the
validation of `main` counts one error. -/
theorem C34_last_element_forced_into_last_partition :
    hypersort_split [656651735, 952403967] 2 [1899386387] 2 =
      .ok ([some 0, some 1], [1, 1]) ∧
    partition_elems [656651735, 952403967] ([some 0, some 1], [1, 1]) 1 =
      .ok [952403967] ∧
    ¬ ((1899386387 : Int) < 952403967) ∧
    hypersort [952403967, 656651735, 1367566158, 1899386387] 4 2 =
      .ok [656651735, 1367566158, 952403967, 1899386387] ∧
    ¬ List.Sorted (fun x y : Int => x ≤ y) [656651735, 1367566158, 952403967, 1899386387] ∧
    validate [656651735, 1367566158, 952403967, 1899386387] = .ok 1 := by
  refine ⟨rfl, rfl, by decide, rfl, ?_, rfl⟩
  intro h
  have h2 := List.rel_of_sorted_cons (List.Sorted.of_cons h) 952403967 (by simp)
  exact absurd h2 (by decide)

theorem mergesort_loop_run (ws rank : Int) (stop : Nat) (cstar : Int)
    (hc : cstar = 1 ∨ cstar = 3)
    (hbefore : ∀ (iter : Nat) (partner : Int), iter < stop →
      ∃ c q, SendOrRecv ws rank iter partner = .ok (c, q) ∧ (c = 0 ∨ c = 2))
    (hat : ∀ partner : Int, ∃ q, SendOrRecv ws rank stop partner = .ok (cstar, q)) :
    ∀ (n fuel iter : Nat) (partner : Int) (steps : List Step), iter + n = stop → n < fuel →
      ∃ steps', mergesort_loop ws rank fuel iter partner steps = .ok steps' ∧
        (Step.final ∈ steps' ↔ (Step.final ∈ steps ∨ cstar = 3)) := by
  intro n
  induction n with
  | zero =>
    intro fuel iter partner steps hn hf
    obtain ⟨f, rfl⟩ : ∃ f, fuel = f + 1 := ⟨fuel - 1, by omega⟩
    have hi : iter = stop := by omega
    subst hi
    obtain ⟨q, hq⟩ := hat partner
    rw [mergesort_loop, hq, bind_ok]
    rcases hc with h | h
    · subst h
      refine ⟨steps ++ [Step.send q], by simp, ?_⟩
      simp
    · subst h
      refine ⟨steps ++ [Step.final], by simp, ?_⟩
      simp
  | succ n ih =>
    intro fuel iter partner steps hn hf
    obtain ⟨f, rfl⟩ : ∃ f, fuel = f + 1 := ⟨fuel - 1, by omega⟩
    obtain ⟨c, q, hq, hcq⟩ := hbefore iter partner (by omega)
    rw [mergesort_loop, hq, bind_ok]
    rcases hcq with h | h
    · subst h
      obtain ⟨steps', h1, h2⟩ := ih f (iter + 1) q steps (by omega) (by omega)
      exact ⟨steps', by simpa using h1, h2⟩
    · subst h
      obtain ⟨steps', h1, h2⟩ := ih f (iter + 1) q (steps ++ [Step.recv q]) (by omega)
        (by omega)
      refine ⟨steps', by simpa using h1, ?_⟩
      rw [h2]
      simp

theorem mergesort_steps_zero (ws : Int) (hws : 1 ≤ ws) (hmax : ws ≤ 1073741824) :
    ∃ steps, mergesort_steps ws 0 = .ok steps ∧ Step.final ∈ steps := by
  have hex : ∃ i : Nat, (2 : Int) ^ i ≥ ws := ⟨30, by norm_num; omega⟩
  have hstop := Nat.find_spec hex
  have hmin : ∀ iter, iter < Nat.find hex → (2 : Int) ^ iter < ws := by
    intro iter hlt
    exact lt_of_not_ge (Nat.find_min hex hlt)
  have hle : Nat.find hex ≤ 30 := Nat.find_min' hex (by norm_num; omega)
  have hfuel : Nat.find hex < ws.toNat + 1 := by
    by_cases h0 : Nat.find hex = 0
    · omega
    · have h1 := hmin (Nat.find hex - 1) (by omega)
      have h2 : ((Nat.find hex - 1 : Nat) : Int) < (2 : Int) ^ (Nat.find hex - 1) := by
        have h : Nat.find hex - 1 < 2 ^ (Nat.find hex - 1) := Nat.lt_two_pow _
        exact_mod_cast h
      omega
  obtain ⟨steps, h1, h2⟩ := mergesort_loop_run ws 0 (Nat.find hex) 3 (Or.inr rfl)
    (fun iter partner hlt => by
      have key := SendOrRecv_mult ws 0 iter partner 0 (by omega) (by simp) (by omega)
        (by norm_num) (hmin iter hlt)
      have hpos : (0 : Int) < (2 : Int) ^ iter := by positivity
      have hb := two_pow_le_of_le iter (by omega)
      simp only [Nat.zero_mod, if_true] at key
      rw [int_result_ok _ (by omega) (by omega), bind_ok] at key
      rw [key]
      split
      · exact ⟨_, _, rfl, Or.inl rfl⟩
      · exact ⟨_, _, rfl, Or.inr rfl⟩)
    (fun partner => ⟨_, SendOrRecv_final ws 0 _ partner hle hstop⟩)
    (Nat.find hex) (ws.toNat + 1) 0 (-1) [] (by omega) hfuel
  exact ⟨steps, h1, h2.mpr (Or.inr rfl)⟩

theorem mergesort_steps_pos (ws r : Int) (hr0 : 0 < r) (hr : r < ws)
    (hmax : ws ≤ 1073741824) :
    ∃ steps, mergesort_steps ws r = .ok steps ∧ Step.final ∉ steps := by
  have hn : r.toNat ≠ 0 := by omega
  obtain ⟨i, m, hodd, hnm⟩ := Nat.exists_eq_two_pow_mul_odd hn
  have hm : m % 2 = 1 := Nat.odd_iff.mp hodd
  have hre : r = (m : Int) * (2 : Int) ^ i := by
    have h1 : r = ((r.toNat : Nat) : Int) := by omega
    rw [h1, hnm]; push_cast; ring
  have hm1 : (1 : Int) ≤ (m : Int) := by
    have : 1 ≤ m := by omega
    exact_mod_cast this
  have hposi : (0 : Int) < (2 : Int) ^ i := by positivity
  have hle : (2 : Int) ^ i ≤ r := by rw [hre]; nlinarith
  have hi : i < ws.toNat + 1 := by
    have h2 : ((i : Nat) : Int) < (2 : Int) ^ i := by
      have h : i < 2 ^ i := Nat.lt_two_pow i
      exact_mod_cast h
    omega
  obtain ⟨steps, h1, h2⟩ := mergesort_loop_run ws r i 1 (Or.inl rfl)
    (fun iter partner hlt =>
      (SendOrRecv_by_valuation ws r i m hm hre hr hmax iter partner).2.1 hlt)
    (fun partner => ⟨_, (SendOrRecv_by_valuation ws r i m hm hre hr hmax i partner).1 rfl⟩)
    i (ws.toNat + 1) 0 (-1) [] (by omega) hi
  refine ⟨steps, h1, ?_⟩
  rw [h2]
  simp

/-- C33 fails as stated.  In iteration 31 of a world of six ranks `2^31 ≥ 6`, but
`raise_number(31, 2)` multiplies `1073741824` by 2, which does not fit into an `int`:
`SendOrRecv` does not answer 3 (the product is a signed overflow, which C leaves
undefined).  And in a world of `2^30 + 1` ranks, where the first power of two that
reaches the world size is `2^31`, rank 0 is answered 2 or 0 in the iterations 0 to 30
and runs into that overflow in iteration 31: it never reaches the final step. -/
theorem C33_counterexample :
    ((1 : Int) ≤ 6 ∧ (2 : Int) ^ 31 ≥ 6) ∧
    raise_number 31 2 = .error .overflow ∧
    SendOrRecv 6 0 31 (-1) = .error .overflow ∧
    (1 : Int) ≤ 1073741825 ∧
    (∀ iter : Nat, iter ≤ 30 → ¬ ((2 : Int) ^ iter ≥ 1073741825)) ∧
    SendOrRecv 1073741825 0 30 (-1) = .ok (2, 1073741824) ∧
    SendOrRecv 1073741825 0 31 1073741824 = .error .overflow ∧
    mergesort_steps 1073741825 0 = .error .overflow := by
  refine ⟨by decide, rfl, rfl, by decide, ?_, rfl, rfl, rfl⟩
  intro iter hi
  have := two_pow_le_of_le iter hi
  omega

/-- C33 (amended): in the merge-sort schedule only rank 0 reaches the final step.  For a
world of `worldSize` ranks with `1 ≤ worldSize ≤ 2^30`: in every iteration up to 30
`SendOrRecv` answers every rank of the world, and the answer is 3 exactly when
`2^iter ≥ worldSize`; rank 0 is never told to send; every rank `r` with
`0 < r < worldSize` is told to send (1) in exactly one iteration `i`, and every
iteration that answers 3 or -1 to `r` comes after `i`; and the loop of `mergesort` ends
for every rank of the world, with the final step taken by rank 0 and by no other
rank. -/
theorem C33_only_rank_zero_finishes (worldSize : Int) (hws : 1 ≤ worldSize)
    (hmax : worldSize ≤ 1073741824) :
    (∀ (rank : Int) (iter : Nat) (partner : Int), 0 ≤ rank → rank < worldSize → iter ≤ 30 →
      ∃ c q, SendOrRecv worldSize rank iter partner = .ok (c, q) ∧
        (c = 3 ↔ (2 : Int) ^ iter ≥ worldSize)) ∧
    (∀ (iter : Nat) (partner q : Int), SendOrRecv worldSize 0 iter partner ≠ .ok (1, q)) ∧
    (∀ r : Int, 0 < r → r < worldSize → ∃ i : Nat,
      (∀ (iter : Nat) (partner : Int),
        (∃ q, SendOrRecv worldSize r iter partner = .ok (1, q)) ↔ iter = i) ∧
      (∀ (iter : Nat) (partner q : Int),
        SendOrRecv worldSize r iter partner = .ok (3, q) → i < iter) ∧
      (∀ (iter : Nat) (partner q : Int),
        SendOrRecv worldSize r iter partner = .ok (-1, q) → i < iter)) ∧
    (∀ rank : Int, 0 ≤ rank → rank < worldSize →
      ∃ steps, mergesort_steps worldSize rank = .ok steps ∧
        (Step.final ∈ steps ↔ rank = 0)) := by
  refine ⟨?_, ?_, ?_, ?_⟩
  · intro rank iter partner h0 hr hi
    by_cases hj : (2 : Int) ^ iter ≥ worldSize
    · exact ⟨_, _, SendOrRecv_final worldSize rank iter partner hi hj, by simp [hj]⟩
    · obtain ⟨c, q, e, hc⟩ :=
        SendOrRecv_cases worldSize rank iter partner h0 hr hmax (lt_of_not_ge hj)
      exact ⟨c, q, e, by constructor <;> intro h <;> [exact absurd h hc; exact absurd h hj]⟩
  · intro iter partner q h
    obtain ⟨hi, -, -, -, d, hd, hd2⟩ := SendOrRecv_one worldSize 0 iter partner q (by omega) h
    have hpos : (0 : Int) < (2 : Int) ^ iter := by positivity
    have hd0 : (d : Int) = 0 := by
      rcases mul_eq_zero.mp hd.symm with h1 | h1
      · exact h1
      · omega
    have : d = 0 := by exact_mod_cast hd0
    omega
  · intro r hr0 hr
    have hn : r.toNat ≠ 0 := by omega
    obtain ⟨i, m, hodd, hnm⟩ := Nat.exists_eq_two_pow_mul_odd hn
    have hm : m % 2 = 1 := Nat.odd_iff.mp hodd
    have hre : r = (m : Int) * (2 : Int) ^ i := by
      have h1 : r = ((r.toNat : Nat) : Int) := by omega
      rw [h1, hnm]; push_cast; ring
    refine ⟨i, ?_, ?_, ?_⟩
    · intro iter partner
      obtain ⟨h1, h2, h3⟩ :=
        SendOrRecv_by_valuation worldSize r i m hm hre hr hmax iter partner
      constructor
      · rintro ⟨q, hq⟩
        rcases lt_trichotomy iter i with h | h | h
        · obtain ⟨c, q', e, hc⟩ := h2 h
          rw [e] at hq
          have := (ok_pair_inj hq).1; omega
        · exact h
        · have := h3 h 1 q hq
          omega
      · intro h
        exact ⟨_, h1 h⟩
    · intro iter partner q hq
      obtain ⟨h1, h2, h3⟩ :=
        SendOrRecv_by_valuation worldSize r i m hm hre hr hmax iter partner
      rcases lt_trichotomy iter i with h | h | h
      · obtain ⟨c, q', e, hc⟩ := h2 h
        rw [e] at hq
        have := (ok_pair_inj hq).1; omega
      · rw [h1 h] at hq
        have := (ok_pair_inj hq).1; omega
      · exact h
    · intro iter partner q hq
      obtain ⟨h1, h2, h3⟩ :=
        SendOrRecv_by_valuation worldSize r i m hm hre hr hmax iter partner
      rcases lt_trichotomy iter i with h | h | h
      · obtain ⟨c, q', e, hc⟩ := h2 h
        rw [e] at hq
        have := (ok_pair_inj hq).1; omega
      · rw [h1 h] at hq
        have := (ok_pair_inj hq).1; omega
      · exact h
  · intro rank h0 hr
    by_cases hz : rank = 0
    · subst hz
      obtain ⟨steps, h1, h2⟩ := mergesort_steps_zero worldSize hws hmax
      exact ⟨steps, h1, by simp [h2]⟩
    · obtain ⟨steps, h1, h2⟩ := mergesort_steps_pos worldSize rank (by omega) hr hmax
      exact ⟨steps, h1, by simp [h2, hz]⟩

/-- C33 (amended), an instance: the world of six ranks. -/
theorem C33_only_rank_zero_finishes_witness :
    ((1 : Int) ≤ 6 ∧ (6 : Int) ≤ 1073741824) ∧
    (∀ (rank : Int) (iter : Nat) (partner : Int), 0 ≤ rank → rank < 6 → iter ≤ 30 →
      ∃ c q, SendOrRecv 6 rank iter partner = .ok (c, q) ∧
        (c = 3 ↔ (2 : Int) ^ iter ≥ 6)) ∧
    (∀ (iter : Nat) (partner q : Int), SendOrRecv 6 0 iter partner ≠ .ok (1, q)) ∧
    (∀ r : Int, 0 < r → r < 6 → ∃ i : Nat,
      (∀ (iter : Nat) (partner : Int),
        (∃ q, SendOrRecv 6 r iter partner = .ok (1, q)) ↔ iter = i) ∧
      (∀ (iter : Nat) (partner q : Int),
        SendOrRecv 6 r iter partner = .ok (3, q) → i < iter) ∧
      (∀ (iter : Nat) (partner q : Int),
        SendOrRecv 6 r iter partner = .ok (-1, q) → i < iter)) ∧
    (∀ rank : Int, 0 ≤ rank → rank < 6 →
      ∃ steps, mergesort_steps 6 rank = .ok steps ∧ (Step.final ∈ steps ↔ rank = 0)) :=
  ⟨by decide, C33_only_rank_zero_finishes 6 (by decide) (by decide)⟩

end MpiSort

namespace Mandelbrot

theorem calls_bind {α β : Type} (x : α) (f : α → Except Fault β) :
    (Except.ok x >>= f) = f x := rfl

theorem wrap32_id (x : Int) (h0 : -(2 ^ 31) ≤ x) (h1 : x < 2 ^ 31) : wrap32 x = x := by
  unfold wrap32
  rw [Int.emod_eq_of_lt (by omega) (by omega)]
  ring

theorem filter_range_skip (P : Nat → Bool) :
    ∀ (t n s : Nat), (∀ x, s ≤ x → x < s + t → P x = false) →
      (List.range' s n).filter P = (List.range' (s + t) (n - t)).filter P := by
  intro t
  induction t with
  | zero => intro n s _; simp
  | succ t ih =>
    intro n s h
    cases n with
    | zero => simp
    | succ n =>
      rw [List.range'_succ, List.filter_cons, h s (le_refl _) (by omega)]
      simp only [Bool.false_eq_true, if_false]
      rw [ih n (s + 1) (fun x h1 h2 => h x (by omega) (by omega))]
      have e1 : s + 1 + t = s + (t + 1) := by omega
      have e2 : n + 1 - (t + 1) = n - t := by omega
      rw [e1, e2]

theorem mod_ne_of_between (nt k c0 x : Nat) (hc : c0 % nt = k) (h1 : c0 < x)
    (h2 : x < c0 + nt) : x % nt ≠ k := by
  intro hx
  have hmod : x % nt = c0 % nt := by rw [hx, hc]
  have hdvd : nt ∣ x - c0 := (Nat.modEq_iff_dvd' (le_of_lt h1)).mp hmod.symm
  have hle := Nat.le_of_dvd (by omega) hdvd
  omega

theorem stride_cols_step (cols nt k c0 : Nat) (hnt : 0 < nt) (hc : c0 % nt = k)
    (hlt : c0 < cols) :
    stride_cols cols nt k c0 = c0 :: stride_cols cols nt k (c0 + nt) := by
  unfold stride_cols
  obtain ⟨n, hn⟩ : ∃ n, cols - c0 = n + 1 := ⟨cols - c0 - 1, by omega⟩
  rw [hn, List.range'_succ, List.filter_cons]
  simp only [hc, decide_True, if_true]
  congr 1
  rw [filter_range_skip _ (nt - 1) n (c0 + 1)]
  · have e1 : c0 + 1 + (nt - 1) = c0 + nt := by omega
    have e2 : n - (nt - 1) = cols - (c0 + nt) := by omega
    rw [e1, e2]
  · intro x h1 h2
    exact decide_eq_false (mod_ne_of_between nt k c0 x hc (by omega) (by omega))

theorem SplitWorkSolve_cols_spec (value : Int → Int → Int) (cols nt k row : Nat)
    (hnt : 0 < nt) (hsum : (cols : Int) + nt ≤ 2147483648) :
    ∀ (fuel c0 : Nat) (calls : List (Int × Int × Int)), c0 % nt = k → cols - c0 < fuel →
      SplitWorkSolve_cols value cols nt row fuel c0 calls =
        .ok (calls ++ row_calls value (stride_cols cols nt k c0) row) := by
  intro fuel
  induction fuel with
  | zero => intro c0 calls _ h; omega
  | succ f ih =>
    intro c0 calls hc hf
    rw [SplitWorkSolve_cols]
    by_cases hlt : c0 < cols
    · have hlt' : (c0 : Int) < (cols : Int) := by exact_mod_cast hlt
      have hw : wrap32 ((c0 : Int) + (nt : Int)) = ((c0 + nt : Nat) : Int) := by
        rw [wrap32_id _ (by omega) (by omega)]
        push_cast
        rfl
      rw [if_pos hlt', hw, ih (c0 + nt) _ (by rw [Nat.add_mod_right]; exact hc) (by omega),
        stride_cols_step cols nt k c0 hnt hc hlt]
      simp [row_calls]
    · have hlt' : ¬ (c0 : Int) < (cols : Int) := by exact_mod_cast hlt
      rw [if_neg hlt']
      have : cols - c0 = 0 := by omega
      simp [stride_cols, row_calls, this]

theorem SplitWorkSolve_rows_spec (value : Int → Int → Int) (rows cols nt k : Nat)
    (hnt : 0 < nt) (hk : k < nt) (hsum : (cols : Int) + nt ≤ 2147483648)
    (hrows : (rows : Int) ≤ 2147483647) :
    ∀ (fuel row : Nat) (calls : List (Int × Int × Int)), rows - row < fuel →
      SplitWorkSolve_rows value rows cols nt k fuel row calls =
        .ok (calls ++ (List.range' row (rows - row)).flatMap
          (row_calls value (stride_cols cols nt k k))) := by
  intro fuel
  induction fuel with
  | zero => intro row calls h; omega
  | succ f ih =>
    intro row calls hf
    rw [SplitWorkSolve_rows]
    by_cases hlt : row < rows
    · have hlt' : (row : Int) < (rows : Int) := by exact_mod_cast hlt
      have hw : wrap32 ((row : Int) + 1) = ((row + 1 : Nat) : Int) := by
        rw [wrap32_id _ (by omega) (by omega)]
        push_cast
        rfl
      rw [if_pos hlt', SplitWorkSolve_cols_spec value cols nt k row hnt hsum 4294967297 k calls
        (Nat.mod_eq_of_lt hk) (by omega), calls_bind, hw, ih (row + 1) _ (by omega)]
      obtain ⟨n, hn⟩ : ∃ n, rows - row = n + 1 := ⟨rows - row - 1, by omega⟩
      have hn2 : rows - (row + 1) = n := by omega
      rw [hn, hn2, List.range'_succ]
      simp
    · have hlt' : ¬ (row : Int) < (rows : Int) := by exact_mod_cast hlt
      rw [if_neg hlt']
      have : rows - row = 0 := by omega
      simp [this]

theorem SplitWorkSolve_eq (value : Int → Int → Int) (rows cols nt k : Nat)
    (hnt : 0 < nt) (hk : k < nt) (hsum : (cols : Int) + nt ≤ 2147483648)
    (hrows : (rows : Int) ≤ 2147483647) :
    SplitWorkSolve value rows cols nt k =
      .ok ((List.range' 0 rows).flatMap (row_calls value (stride_cols cols nt k k))) := by
  have h := SplitWorkSolve_rows_spec value rows cols nt k hnt hk hsum hrows (rows + 1) 0 []
    (by omega)
  simp only [Nat.cast_zero, List.nil_append, Nat.sub_zero] at h
  rw [SplitWorkSolve, Int.toNat_ofNat]
  exact h

theorem mem_stride_cols (cols nt k c : Nat) :
    c ∈ stride_cols cols nt k k ↔ c < cols ∧ c % nt = k := by
  simp only [stride_cols, List.mem_filter, List.mem_range'_1, decide_eq_true_eq]
  constructor
  · rintro ⟨⟨_, h2⟩, h3⟩; exact ⟨by omega, h3⟩
  · rintro ⟨h1, h2⟩
    have : c % nt ≤ c := Nat.mod_le c nt
    exact ⟨⟨by omega, by omega⟩, h2⟩

theorem mem_calls (value : Int → Int → Int) (rows cols nt k : Nat) (c : Int × Int × Int) :
    c ∈ (List.range' 0 rows).flatMap (row_calls value (stride_cols cols nt k k)) ↔
      ∃ row col : Nat, row < rows ∧ col < cols ∧ col % nt = k ∧
        c = ((row : Int), (col : Int), value row col) := by
  simp only [List.mem_flatMap, List.mem_range'_1, row_calls, List.mem_map, mem_stride_cols]
  constructor
  · rintro ⟨row, ⟨_, h1⟩, col, ⟨h2, h3⟩, rfl⟩
    exact ⟨row, col, by omega, h2, h3, rfl⟩
  · rintro ⟨row, col, h1, h2, h3, rfl⟩
    exact ⟨row, ⟨by omega, by omega⟩, col, ⟨h2, h3⟩, rfl⟩

theorem nodup_calls (value : Int → Int → Int) (rows cols nt k : Nat) :
    ((List.range' 0 rows).flatMap (row_calls value (stride_cols cols nt k k))).Nodup := by
  rw [List.nodup_flatMap]
  constructor
  · intro row _
    apply List.Nodup.map
    · intro a b h
      simp only [Prod.mk.injEq] at h
      exact_mod_cast h.2.1
    · exact List.Nodup.filter _ (List.nodup_range' _ _)
  · apply List.Pairwise.imp _ (List.nodup_range' 0 rows)
    intro a b hab
    simp only [Function.onFun, List.Disjoint, row_calls, List.mem_map]
    rintro c ⟨x, _, rfl⟩ ⟨y, _, h⟩
    simp only [Prod.mk.injEq] at h
    exact hab (by exact_mod_cast h.1.symm)

/-- Where `value * 255` fits into an `int`, `ColorizeScaled` returns a colour in
`0..255`. -/
theorem ColorizeScaled_in_range (value max_value : Int) (hm : 0 < max_value)
    (h0 : 0 ≤ value) (h1 : value ≤ max_value) (h2 : value * 255 < 2 ^ 31) :
    ∃ c, ColorizeScaled value max_value = .ok c ∧ 0 ≤ c ∧ c ≤ 255 := by
  have hq0 : 0 ≤ value * 255 / max_value := Int.ediv_nonneg (by omega) (le_of_lt hm)
  have hq1 : value * 255 / max_value ≤ 255 := by
    apply Int.ediv_le_of_le_mul hm
    nlinarith
  have e1 : wrap32 (value * 255) = value * 255 := wrap32_id _ (by omega) h2
  have e2 : Int.tdiv (value * 255) max_value = value * 255 / max_value :=
    Int.tdiv_eq_ediv (by omega) (le_of_lt hm)
  have e3 : wrap32 (value * 255 / max_value) = value * 255 / max_value :=
    wrap32_id _ (by omega) (by omega)
  have e4 : wrap32 (value * 255 / max_value * 8) = value * 255 / max_value * 8 :=
    wrap32_id _ (by omega) (by omega)
  unfold ColorizeScaled
  rw [if_neg (ne_of_gt hm)]
  simp only [e1, e2, e3, e4]
  refine ⟨_, rfl, ?_, ?_⟩
  · split <;> omega
  · split <;> omega

theorem countP_unique {α : Type} [DecidableEq α] (p : α → Bool) (a : α) :
    ∀ l : List α, l.Nodup → (∀ x ∈ l, p x = true ↔ x = a) →
      l.countP p = if a ∈ l then 1 else 0 := by
  intro l
  induction l with
  | nil => intro _ _; simp
  | cons x l ih =>
    intro hnd hp
    rw [List.nodup_cons] at hnd
    have ihl := ih hnd.2 (fun y hy => hp y (List.mem_cons_of_mem _ hy))
    rw [List.countP_cons, ihl]
    by_cases hx : x = a
    · subst hx
      have hpx : p x = true := (hp x (List.mem_cons_self _ _)).mpr rfl
      simp [hpx, hnd.1]
    · have hpx : ¬ p x = true := fun h => hx ((hp x (List.mem_cons_self _ _)).mp h)
      have hax : ¬ a = x := fun h => hx h.symm
      simp [hpx, hax]

theorem calls_countP (value : Int → Int → Int) (rows cols nt k row col : Nat)
    (hr : row < rows) (hc : col < cols) :
    ((List.range' 0 rows).flatMap (row_calls value (stride_cols cols nt k k))).countP
        (fun c => decide (c.1 = (row : Int) ∧ c.2.1 = (col : Int))) =
      if col % nt = k then 1 else 0 := by
  rw [countP_unique _ ((row : Int), (col : Int), value row col) _
    (nodup_calls value rows cols nt k)]
  · by_cases hm : col % nt = k
    · rw [if_pos hm, if_pos]
      exact (mem_calls value rows cols nt k _).mpr ⟨row, col, hr, hc, hm, rfl⟩
    · rw [if_neg hm, if_neg]
      intro hmem
      obtain ⟨r', c', -, -, h3, h4⟩ := (mem_calls value rows cols nt k _).mp hmem
      simp only [Prod.mk.injEq] at h4
      have : col = c' := by exact_mod_cast h4.2.1
      exact hm (this ▸ h3)
  · intro c hmem
    obtain ⟨r', c', -, -, -, rfl⟩ := (mem_calls value rows cols nt k c).mp hmem
    simp only [decide_eq_true_eq, Prod.mk.injEq]
    constructor
    · rintro ⟨h1, h2⟩; exact ⟨h1, h2, by rw [h1, h2]⟩
    · rintro ⟨h1, h2, _⟩; exact ⟨h1, h2⟩

/-- C35: `ColorizeScaled` does not always return an 8-bit colour.  With
`max_value = 10000000` and `value = 9068994`, which is what `ComputeMandelbrot` returns
for the run `./mandelbrot -r 1 -c 1 -x 0.25000000000012 -y 0 -m 10000000`, the product
`value*255` does not fit into a 32-bit `int` and the function returns `-1584`, in
`mandelbrot.cpp` and in `mpi_mandelbrot.cpp` alike. -/
theorem C35_colour_out_of_range_after_overflow :
    ((0 : Int) < 10000000 ∧ (0 : Int) ≤ 9068994 ∧ (9068994 : Int) ≤ 10000000) ∧
    ColorizeScaled 9068994 10000000 = .ok (-1584) ∧
    MpiMandelbrot.ColorizeScaled 9068994 10000000 = .ok (-1584) ∧
    ¬ ((0 : Int) ≤ -1584 ∧ (-1584 : Int) ≤ 255) := by
  refine ⟨by decide, rfl, rfl, by decide⟩

/-- C36 fails as stated: with `num_threads = 2147483647` and 10 columns, the thread 5
sets column 5, then `col += num_threads` leaves the range of `int` and goes on at
column `-2147483644`, at column 3, and so on; the pixel `(0, 3)` of a one-row image is
set by thread 3 and again by thread 5, and thread 5 also calls `Set_Pixel` for columns
that are not in the image. -/
theorem C36_counterexample :
    ((0 : Int) ≤ 1 ∧ (0 : Int) ≤ 10 ∧ (1 : Int) ≤ 2147483647) ∧
    ((0 : Int) ≤ 3 ∧ (3 : Int) < 2147483647 ∧ (0 : Int) ≤ 5 ∧ (5 : Int) < 2147483647) ∧
    SplitWorkSolve (fun _ _ => 0) 1 10 2147483647 3 =
      .ok [(0, 3, 0), (0, -2147483646, 0), (0, 1, 0), (0, -2147483648, 0), (0, -1, 0)] ∧
    SplitWorkSolve (fun _ _ => 0) 1 10 2147483647 5 =
      .ok [(0, 5, 0), (0, -2147483644, 0), (0, 3, 0), (0, -2147483646, 0), (0, 1, 0),
        (0, -2147483648, 0), (0, -1, 0)] ∧
    ((0 : Int), (3 : Int), (0 : Int)) ∈
      [((0 : Int), (3 : Int), (0 : Int)), (0, -2147483646, 0), (0, 1, 0),
        (0, -2147483648, 0), (0, -1, 0)] ∧
    ((0 : Int), (3 : Int), (0 : Int)) ∈
      [((0 : Int), (5 : Int), (0 : Int)), (0, -2147483644, 0), (0, 3, 0),
        (0, -2147483646, 0), (0, 1, 0), (0, -2147483648, 0), (0, -1, 0)] :=
  ⟨by decide, by decide, rfl, rfl, by decide, by decide⟩

/-- C36 (amended): the column-striding work split covers the image exactly once.  For
`int` values `rows ≥ 0`, `cols ≥ 0` and `num_threads ≥ 1` with
`cols + num_threads ≤ 2^31`, so that `col += num_threads` stays in the range of `int`:
every thread `k` with `0 ≤ k < num_threads` running `SplitWorkSolve` returns, every call
`Set_Pixel(row, col, value)` it makes is inside the image, and it sets the pixel
`(row, col)` of the image once if `col % num_threads = k` and never otherwise; so every
pixel of the image is set by exactly one thread. -/
theorem C36_column_striding_covers_once (value : Int → Int → Int)
    (rows cols num_threads : Int) (hrows : 0 ≤ rows ∧ rows ≤ 2147483647) (hcols : 0 ≤ cols)
    (h : 1 ≤ num_threads) (hsum : cols + num_threads ≤ 2147483648) :
    (∀ k, 0 ≤ k → k < num_threads →
      ∃ calls, SplitWorkSolve value rows cols num_threads k = .ok calls ∧
        (∀ c ∈ calls, (0 ≤ c.1 ∧ c.1 < rows) ∧ (0 ≤ c.2.1 ∧ c.2.1 < cols) ∧
          c.2.2 = value c.1 c.2.1) ∧
        (∀ row col, 0 ≤ row → row < rows → 0 ≤ col → col < cols →
          calls.countP (fun c => decide (c.1 = row ∧ c.2.1 = col)) =
            if col % num_threads = k then 1 else 0)) ∧
    (∀ row col, 0 ≤ row → row < rows → 0 ≤ col → col < cols →
      ∃! k, (0 ≤ k ∧ k < num_threads) ∧
        ∃ calls, SplitWorkSolve value rows cols num_threads k = .ok calls ∧
          (row, col, value row col) ∈ calls) := by
  obtain ⟨R, rfl⟩ := Int.eq_ofNat_of_zero_le hrows.1
  obtain ⟨C, rfl⟩ := Int.eq_ofNat_of_zero_le hcols
  obtain ⟨N, rfl⟩ := Int.eq_ofNat_of_zero_le (by omega : (0 : Int) ≤ num_threads)
  have hnt : 0 < N := by exact_mod_cast h
  constructor
  · intro k hk0 hk
    obtain ⟨K, rfl⟩ := Int.eq_ofNat_of_zero_le hk0
    have hK : K < N := by exact_mod_cast hk
    refine ⟨_, SplitWorkSolve_eq value R C N K hnt hK hsum hrows.2, ?_, ?_⟩
    · intro c hc
      obtain ⟨r', c', h1, h2, -, rfl⟩ := (mem_calls value R C N K c).mp hc
      have h1' : (r' : Int) < (R : Int) := by exact_mod_cast h1
      have h2' : (c' : Int) < (C : Int) := by exact_mod_cast h2
      exact ⟨⟨Int.ofNat_nonneg _, h1'⟩, ⟨Int.ofNat_nonneg _, h2'⟩, rfl⟩
    · intro row col hr0 hr hc0 hc
      obtain ⟨r', rfl⟩ := Int.eq_ofNat_of_zero_le hr0
      obtain ⟨c', rfl⟩ := Int.eq_ofNat_of_zero_le hc0
      rw [calls_countP value R C N K r' c' (by exact_mod_cast hr) (by exact_mod_cast hc)]
      have hiff : ((c' : Int) % (N : Int) = (K : Int)) ↔ c' % N = K := by
        rw [← Int.natCast_mod]
        exact Nat.cast_inj
      by_cases hm : c' % N = K
      · rw [if_pos hm, if_pos (hiff.mpr hm)]
      · rw [if_neg hm, if_neg (fun h => hm (hiff.mp h))]
  · intro row col hr0 hr hc0 hc
    obtain ⟨r', rfl⟩ := Int.eq_ofNat_of_zero_le hr0
    obtain ⟨c', rfl⟩ := Int.eq_ofNat_of_zero_le hc0
    have hr' : r' < R := by exact_mod_cast hr
    have hc' : c' < C := by exact_mod_cast hc
    refine ⟨((c' % N : Nat) : Int), ⟨⟨Int.ofNat_nonneg _, by exact_mod_cast Nat.mod_lt c' hnt⟩,
      _, SplitWorkSolve_eq value R C N _ hnt (Nat.mod_lt _ hnt) hsum hrows.2,
      (mem_calls value R C N _ _).mpr ⟨r', c', hr', hc', rfl, rfl⟩⟩, ?_⟩
    rintro k ⟨⟨hk0, hk⟩, calls, hcalls, hmem⟩
    obtain ⟨K, rfl⟩ := Int.eq_ofNat_of_zero_le hk0
    have hK : K < N := by exact_mod_cast hk
    rw [SplitWorkSolve_eq value R C N K hnt hK hsum hrows.2] at hcalls
    injection hcalls with hcalls
    subst hcalls
    obtain ⟨r2, c2, -, -, h3, h4⟩ := (mem_calls value R C N K _).mp hmem
    simp only [Prod.mk.injEq] at h4
    have : c' = c2 := by exact_mod_cast h4.2.1
    subst this
    exact_mod_cast h3.symm

/-- C36 (amended), an instance: an image of 2 rows and 5 columns split over 2
threads. -/
theorem C36_column_striding_covers_once_witness :
    (((0 : Int) ≤ 2 ∧ (2 : Int) ≤ 2147483647) ∧ (0 : Int) ≤ 5 ∧ (1 : Int) ≤ 2 ∧
      (5 : Int) + 2 ≤ 2147483648) ∧
    (∀ k : Int, 0 ≤ k → k < 2 →
      ∃ calls, SplitWorkSolve (fun _ _ => 0) 2 5 2 k = .ok calls ∧
        (∀ c ∈ calls, (0 ≤ c.1 ∧ c.1 < 2) ∧ (0 ≤ c.2.1 ∧ c.2.1 < 5) ∧
          c.2.2 = (fun _ _ => (0 : Int)) c.1 c.2.1) ∧
        (∀ row col : Int, 0 ≤ row → row < 2 → 0 ≤ col → col < 5 →
          calls.countP (fun c => decide (c.1 = row ∧ c.2.1 = col)) =
            if col % 2 = k then 1 else 0)) ∧
    (∀ row col : Int, 0 ≤ row → row < 2 → 0 ≤ col → col < 5 →
      ∃! k : Int, (0 ≤ k ∧ k < 2) ∧
        ∃ calls, SplitWorkSolve (fun _ _ => 0) 2 5 2 k = .ok calls ∧
          (row, col, (fun _ _ => (0 : Int)) row col) ∈ calls) :=
  ⟨by decide, C36_column_striding_covers_once (fun _ _ => 0) 2 5 2 ⟨by decide, by decide⟩
    (by decide) (by decide) (by decide)⟩

end Mandelbrot

namespace MpiMandelbrot

/-- For the process 1 the count of `GatherResults` is above the count of `main`
whenever there is a pixel and more than one process. -/
theorem GatherResults_count_differs (totalPixels numProcs : Nat) (h1 : 1 ≤ totalPixels)
    (h2 : 2 ≤ numProcs) :
    numPixelsToCalc totalPixels numProcs 1 < GatherResults_numPixelsToCalc numProcs totalPixels 1 := by
  unfold numPixelsToCalc GatherResults_numPixelsToCalc
  have hdiv : totalPixels / numProcs < totalPixels :=
    Nat.div_lt_self (by omega) (by omega)
  rw [Nat.div_one]
  split <;> omega

/-- C37: the pixel buffer of a process can be too small.  In the run
`mpirun -np 2 ./mpi_mandelbrot -r 3 -c 3` the process of rank 0 allocates
`9 / 2 + 1 = 5` records, while `ComputePiece` writes 6 records for it (the columns 0
and 2 of 3 rows): the sixth write is outside the array. -/
theorem C37_buffer_too_small_for_rank_zero :
    numPixelsToCalc (3 * 3) 2 0 = 5 ∧
    (∀ value : Nat → Nat → Int,
      ∃ info, ComputePiece value 0 2 (List.replicate 6 default) 3 3 = .ok (info, 6)) ∧
    (∀ value : Nat → Nat → Int, main_compute value 3 3 2 0 = .error .out_of_bounds) := by
  refine ⟨rfl, fun value => ⟨_, rfl⟩, fun value => rfl⟩

/-- C38: `GatherResults` does not compute the count that the sender computed.  In the
run `mpirun -np 2 ./mpi_mandelbrot` (256 rows and 256 columns) the process of rank 1
computes and sends `65536 / 2 = 32768` records, while `GatherResults` computes
`65536 / 1 = 65536` records for it. -/
theorem C38_gather_count_divides_by_rank :
    numPixelsToCalc (256 * 256) 2 1 = 32768 ∧
    GatherResults 2 (256 * 256) = [(1, 65536)] ∧
    GatherResults_numPixelsToCalc 2 (256 * 256) 1 ≠ numPixelsToCalc (256 * 256) 2 1 := by
  refine ⟨by decide, by decide, by decide⟩

end MpiMandelbrot
